import Mathlib

/-!
# Predator: symbolic heaps, heap equality and list-segment abstraction

A shallow embedding of `sl/symstate.cc` (heap comparison, `SymHeapUnion`), of
`sl/symabstract.cc` (segment discovery, abstraction and concretization) and of the
control-flow part of `sl/fixed_point.cc` (`loadHeaps`, `finalizeFlow`), followed by
theorems about them.

Conventions of the embedding:

* the identifiers of values (`TValueId`) and of objects (`TObjId`) are integers in the
  sources and are `Int` here;
* `TRAP` aborts the analysis: it is the error `Err.TRAP` of `Except Err`;
* every `while` loop of the sources is a function that is structurally recursive
  on a fuel counter; one unit of fuel is one iteration of the loop body and
  running out of fuel is the separate error `Err.FUEL`;
* the class `SymHeap` is declared outside of the translated files: it is a record
  of the queries that the translated code calls.
-/

namespace Predator

/-! ## Identifiers and enumerations -/

/-- Selector of a (possibly nested) field: the chain of item indices to follow. -/
abbrev TFieldIdxChain := List Int

/-- Modelled from the spec: the reserved value identifier of the null pointer
(`VAL_NULL = 0`); the declaration itself is in a header that is not among the sources. -/
def VAL_NULL : Int := 0

/-- Modelled from the spec: the reserved identifier of an invalid value, a negative
sentinel; the declaration itself is in a header that is not among the sources. -/
def VAL_INVALID : Int := -1

/-- Modelled from the spec: the reserved identifier of an invalid object, a negative
sentinel.  The sources compare the result of `valGetCustom` with both `OBJ_INVALID`
and `-1`, so the two coincide. -/
def OBJ_INVALID : Int := -1

/-- Modelled from the spec: the identifier that the address of a destroyed object
resolves to, a negative sentinel distinct from `OBJ_INVALID`. -/
def OBJ_DELETED : Int := -2

/-- Outcome of a computation that does not return normally. -/
inductive Err where
  | TRAP
  | FUEL
  | CONTRADICTION
  deriving DecidableEq, Repr

instance instDecidableEqExcept {ε α : Type} [DecidableEq ε] [DecidableEq α] :
    DecidableEq (Except ε α)
  | .ok a, .ok b =>
    if h : a = b then isTrue (by rw [h]) else isFalse (fun h2 => h (by cases h2; rfl))
  | .error a, .error b =>
    if h : a = b then isTrue (by rw [h]) else isFalse (fun h2 => h (by cases h2; rfl))
  | .ok _, .error _ => isFalse (fun h => by cases h)
  | .error _, .ok _ => isFalse (fun h => by cases h)

/-- Modelled from the spec: origin tag of a value.  `UV_KNOWN` and `UV_ABSTRACT` are the
two codes of values that point to objects; the remaining codes are unknown values. -/
inductive EUnknownValue where
  | UV_KNOWN
  | UV_ABSTRACT
  | UV_UNKNOWN
  | UV_UNINITIALIZED
  | UV_DEREF_FAILED
  deriving DecidableEq, Repr

/-- Modelled from the spec: kind of an object; the numeric value of a kind is used
as the arity of a segment (`static_cast<unsigned>(kind)`). -/
inductive EObjKind where
  | OK_CONCRETE
  | OK_SLS
  | OK_DLS
  deriving DecidableEq, Repr

/-- Modelled from the spec: primitive kinds of the type descriptors of the front-end. -/
inductive cl_type_e where
  | CL_TYPE_VOID
  | CL_TYPE_PTR
  | CL_TYPE_STRUCT
  | CL_TYPE_ARRAY
  | CL_TYPE_FNC
  | CL_TYPE_INT
  | CL_TYPE_BOOL
  | CL_TYPE_REAL
  | CL_TYPE_STRING
  deriving DecidableEq, Repr

/-- Modelled from the spec: a type descriptor of the front-end.  The sources compare
descriptors by address; `uid` stands for the address, so that two descriptors are the
same descriptor iff the records are equal. -/
structure cl_type where
  uid : Nat
  code : cl_type_e
  item_cnt : Int
  deriving DecidableEq, Repr

/-- Modelled from the spec: identifier of a program-visible variable (`uid` of the
variable and the instance of its call frame), ordered lexicographically. -/
structure CVar where
  uid : Int
  inst : Int
  deriving DecidableEq, Repr

/-- Strict order of `CVar`, the key order of `std::set<CVar>`. -/
def CVar.lt (a b : CVar) : Bool :=
  if a.uid < b.uid then true
  else if b.uid < a.uid then false
  else decide (a.inst < b.inst)

/-- Insertion into a `std::set<CVar>`, kept as a strictly increasing list. -/
def cVarSetInsert (cv : CVar) : List CVar → List CVar
  | [] => [cv]
  | x :: xs =>
    if CVar.lt cv x then cv :: x :: xs
    else if CVar.lt x cv then x :: cVarSetInsert cv xs
    else x :: xs

/-! ## The symbolic heap, as seen by the translated code -/

/-- Modelled from the spec: the symbolic heap.  The class `SymHeap` is declared and
implemented outside of the translated files; a heap is the record of the queries that
the translated code calls on it, each field being the method of the same name. -/
structure SymHeap where
  /-- the program variables of the heap (`gatherCVars`) -/
  gatherCVars : List CVar
  /-- object of a program variable, negative if there is none -/
  objByCVar : CVar → Int
  /-- root objects of the heap (`gatherRootObjs`) -/
  gatherRootObjs : List Int
  /-- value stored in an object -/
  valueOf : Int → Int
  /-- address of an object -/
  placedAt : Int → Int
  /-- target of a pointer value -/
  pointsTo : Int → Int
  /-- origin tag of a value -/
  valGetUnknown : Int → EUnknownValue
  /-- payload of a custom value (`valGetCustom(0, val)`), `-1` if the value is not custom -/
  valGetCustom : Int → Int
  /-- composite object of a value, `OBJ_INVALID` if the value is not composite -/
  valGetCompositeObj : Int → Int
  /-- type of an object, `none` for an anonymous object -/
  objType : Int → Option cl_type
  /-- type of a value -/
  valType : Int → Option cl_type
  /-- the `nth` sub-object of a composite object -/
  subObj : Int → Int → Int
  /-- parent of a sub-object, `OBJ_INVALID` for a root -/
  objParent : Int → Int
  /-- whether the object belongs to a program variable (`cVar(0, obj)`) -/
  cVar : Int → Bool
  /-- kind of an object -/
  objKind : Int → EObjKind
  /-- selector of the binding (next) pointer of a segment -/
  objBinderField : Int → TFieldIdxChain
  /-- selector of the peer pointer of a DLS -/
  objPeerField : Int → TFieldIdxChain
  /-- number of objects that store the value -/
  usedByCount : Int → Nat
  /-- the Neq predicates of the heap -/
  neqDb : List (Int × Int)
  /-- the last value identifier handed out so far -/
  lastValId : Int
  /-- the last object identifier handed out so far -/
  lastObjId : Int

/-- Modelled from the spec: `objNextField`, the selector of the next pointer of a
segment, which is its binding pointer. -/
def SymHeap.objNextField (sh : SymHeap) (obj : Int) : TFieldIdxChain :=
  sh.objBinderField obj

/-- Modelled from the spec: `gatherRelatedValues`, the values related to `val` by a
Neq predicate of the heap. -/
def SymHeap.gatherRelatedValues (sh : SymHeap) (val : Int) : List Int :=
  sh.neqDb.filterMap fun p =>
    if p.1 = val then some p.2 else if p.2 = val then some p.1 else none

/-! ## Work list (`worklist.hh`) -/

/-- Modelled from the spec: the work list of pairs still to be proven equivalent, a stack
of scheduled items together with the set of all items ever scheduled. -/
structure WorkList (α : Type) where
  todo : List α
  seen : List α

/-- The empty work list. -/
def WorkList.empty {α : Type} : WorkList α := ⟨[], []⟩

/-- Modelled from the spec: `WorkList::schedule`, which pushes an item unless it has been
scheduled before. -/
def WorkList.schedule {α : Type} [DecidableEq α] (wl : WorkList α) (item : α) : WorkList α :=
  if item ∈ wl.seen then wl else ⟨item :: wl.todo, item :: wl.seen⟩

/-- Modelled from the spec: `WorkList::next`, which pops the most recently scheduled
item. -/
def WorkList.next {α : Type} (wl : WorkList α) : Option (α × WorkList α) :=
  match wl.todo with
  | [] => none
  | x :: rest => some (x, ⟨rest, wl.seen⟩)

/-! ## Heap equality (`symstate.cc`) -/

abbrev TValuePair := Int × Int

/-- Value substitution, `std::map<Int, Int>`, as an association list. -/
abbrev TSubst := List (Int × Int)

/-- Whether a pair that is not a pair of positive values mismatches. -/
def checkNonPosValues (a b : Int) : Bool :=
  if 0 < a ∧ 0 < b then false
  else a != b

/-- Modelled from the spec: `sortValues`, which swaps its arguments so that the first
is not greater than the second. -/
def sortValues (v1 v2 : Int) : Int × Int :=
  if v2 < v1 then (v2, v1) else (v1, v2)

/-- The overload `matchValues(subst, v1, v2)`: the result and the updated substitution. -/
def matchValues (subst : TSubst) (v1 v2 : Int) : Bool × TSubst :=
  if checkNonPosValues v1 v2 then (false, subst)
  else
    let p := sortValues v1 v2
    match subst.lookup p.1 with
    | some w => (w == p.2, subst)
    | none => (true, (p.1, p.2) :: subst)

/-- The overload `matchValues(subst, heap1, heap2, v1, v2)`. -/
def matchValuesH (subst : TSubst) (heap1 heap2 : SymHeap) (v1 v2 : Int) :
    Except Err (Bool × TSubst) :=
  if v1 ≤ 0 ∨ v2 ≤ 0 then .ok (matchValues subst v1 v2)
  else
    let uv1 := heap1.valGetUnknown v1
    let uv2 := heap2.valGetUnknown v2
    if uv1 ≠ uv2 then .ok (false, subst)
    else
      let cVal1 := heap1.valGetCustom v1
      let cVal2 := heap2.valGetCustom v2
      if OBJ_INVALID = cVal1 ∧ OBJ_INVALID = cVal2 then .ok (matchValues subst v1 v2)
      else if OBJ_INVALID = cVal1 ∨ OBJ_INVALID = cVal2 then .error .TRAP
      else .ok (cVal1 == cVal2, subst)

/-- Whether the comparison need not follow the value any further. -/
def skipValue (heap : SymHeap) (value : Int) : Bool :=
  if OBJ_INVALID ≠ heap.valGetCompositeObj value then false
  else if value ≤ 0 then true
  else if -1 ≠ heap.valGetCustom value then true
  else
    match heap.valGetUnknown value with
    | .UV_KNOWN => false
    | .UV_ABSTRACT => false
    | _ => true

/-- Whether a pair of composite values is compared. -/
def isComposite (heap1 heap2 : SymHeap) (value1 value2 : Int) : Except Err Bool :=
  let cObj1 := heap1.valGetCompositeObj value1
  let cObj2 := heap2.valGetCompositeObj value2
  if OBJ_INVALID = cObj1 ∧ OBJ_INVALID = cObj2 then .ok false
  else if OBJ_INVALID = cObj1 ∨ OBJ_INVALID = cObj2 then .error .TRAP
  else .ok true

/-- The `for` loop of `digComposite` over the items `i, i+1, ...` of a structure (`n` of
them are left): the pairs of sub-objects are pushed to `todo`. -/
def digCompositeItems (heap1 heap2 : SymHeap) (o1 o2 : Int) :
    Nat → Int → List (Int × Int) → Except Err (List (Int × Int))
  | 0, _, todo => .ok todo
  | n + 1, i, todo =>
    let sub1 := heap1.subObj o1 i
    let sub2 := heap2.subObj o2 i
    if sub1 < 0 ∨ sub2 < 0 then .error .TRAP
    else digCompositeItems heap1 heap2 o1 o2 n (i + 1) ((sub1, sub2) :: todo)

/-- The `while` loop of `digComposite`. -/
def digCompositeLoop (heap1 heap2 : SymHeap) :
    Nat → List (Int × Int) → WorkList TValuePair → Except Err (Bool × WorkList TValuePair)
  | _, [], wl => .ok (true, wl)
  | 0, _ :: _, _ => .error .FUEL
  | fuel + 1, (o1, o2) :: todo, wl =>
    let clt := heap1.objType o1
    if clt ≠ heap2.objType o2 then .ok (false, wl)
    else
      let code := match clt with
        | some t => t.code
        | none => cl_type_e.CL_TYPE_PTR
      match code with
      | .CL_TYPE_PTR =>
        let val1 := heap1.valueOf o1
        let val2 := heap2.valueOf o2
        digCompositeLoop heap1 heap2 fuel todo (wl.schedule (val1, val2))
      | .CL_TYPE_STRUCT =>
        let cnt := match clt with
          | some t => t.item_cnt
          | none => 0
        match digCompositeItems heap1 heap2 o1 o2 cnt.toNat 0 todo with
        | .error e => .error e
        | .ok todo2 => digCompositeLoop heap1 heap2 fuel todo2 wl
      | .CL_TYPE_INT => digCompositeLoop heap1 heap2 fuel todo wl
      | _ => .error .TRAP

/-- Schedules the leaves of a pair of composite values; `false` on a type mismatch. -/
def digComposite (fuel : Nat) (wl : WorkList TValuePair) (heap1 heap2 : SymHeap)
    (value1 value2 : Int) : Except Err (Bool × WorkList TValuePair) :=
  let cObj1 := heap1.valGetCompositeObj value1
  let cObj2 := heap2.valGetCompositeObj value2
  digCompositeLoop heap1 heap2 fuel [(cObj1, cObj2)] wl

/-- Compares the kinds and the bindings of two objects. -/
def cmpAbstractObjects (sh1 sh2 : SymHeap) (o1 o2 : Int) : Bool :=
  let kind := sh1.objKind o1
  if sh2.objKind o2 ≠ kind then false
  else if EObjKind.OK_CONCRETE = kind then true
  else sh1.objNextField o1 == sh2.objNextField o2
    && sh1.objPeerField o1 == sh2.objPeerField o2

/-- Compares the Neq predicates of a pair of values: only their number is compared. -/
def matchPreds (heap1 heap2 : SymHeap) (v1 v2 : Int) : Bool :=
  let rel1 := heap1.gatherRelatedValues v1
  let rel2 := heap2.gatherRelatedValues v2
  let cnt := rel1.length
  if rel2.length ≠ cnt then false
  else true

/-- The DFS loop of the comparison.  `digFuel` is the fuel of each run of the loop of
`digComposite`; the other counter is the fuel of the DFS loop itself. -/
def dfsCmp (heap1 heap2 : SymHeap) (digFuel : Nat) :
    Nat → WorkList TValuePair → TSubst → Except Err Bool
  | 0, wl, _ =>
    match wl.next with
    | none => .ok true
    | some _ => .error .FUEL
  | fuel + 1, wl, valSubst =>
    match wl.next with
    | none => .ok true
    | some ((value1, value2), wl1) =>
      if !matchPreds heap1 heap2 value1 value2 then .ok false
      else
        match matchValuesH valSubst heap1 heap2 value1 value2 with
        | .error e => .error e
        | .ok (false, _) => .ok false
        | .ok (true, subst1) =>
          if skipValue heap1 value1 then dfsCmp heap1 heap2 digFuel fuel wl1 subst1
          else
            match isComposite heap1 heap2 value1 value2 with
            | .error e => .error e
            | .ok true =>
              match digComposite digFuel wl1 heap1 heap2 value1 value2 with
              | .error e => .error e
              | .ok (false, _) => .ok false
              | .ok (true, wl2) => dfsCmp heap1 heap2 digFuel fuel wl2 subst1
            | .ok false =>
              let obj1 := heap1.pointsTo value1
              let obj2 := heap2.pointsTo value2
              if checkNonPosValues obj1 obj2 then .ok false
              else if !cmpAbstractObjects heap1 heap2 obj1 obj2 then .ok false
              else
                dfsCmp heap1 heap2 digFuel fuel
                  (wl1.schedule (heap1.valueOf obj1, heap2.valueOf obj2)) subst1

/-- The loop of `operator==` over the program variables: `none` on a variable that one
of the heaps lacks. -/
def scheduleCVars (heap1 heap2 : SymHeap) :
    List CVar → WorkList TValuePair → Option (WorkList TValuePair)
  | [], wl => some wl
  | cv :: rest, wl =>
    let var1 := heap1.objByCVar cv
    let var2 := heap2.objByCVar cv
    if var1 < 0 ∨ var2 < 0 then none
    else scheduleCVars heap1 heap2 rest (wl.schedule (heap1.valueOf var1, heap2.valueOf var2))

/-- The comparison `heap1 == heap2`.  Both lists of program variables are gathered from
`heap1`, as in the source. -/
def operatorEq (fuel : Nat) (heap1 heap2 : SymHeap) : Except Err Bool :=
  let cVars1 := heap1.gatherCVars
  let cVars2 := heap1.gatherCVars
  if cVars1.length ≠ cVars2.length then .ok false
  else
    let cVars := cVars2.foldl (fun s cv => cVarSetInsert cv s)
      (cVars1.foldl (fun s cv => cVarSetInsert cv s) [])
    match scheduleCVars heap1 heap2 cVars WorkList.empty with
    | none => .ok false
    | some wl => dfsCmp heap1 heap2 fuel fuel wl []

/-! ## State union (`SymHeapUnion`) -/

/-- The container `heaps_` of a `SymHeapUnion`. -/
abbrev SymHeapUnion := List SymHeap

/-- Conversion of an unsigned size to `int` (32 bits, two's complement). -/
def toInt32 (n : Nat) : Int :=
  if n % 2 ^ 32 < 2 ^ 31 then ((n % 2 ^ 32 : Nat) : Int) else ((n % 2 ^ 32 : Nat) : Int) - 2 ^ 32

/-- The loop of `SymHeapUnion::lookup` from index `idx` on; `rest` holds the heaps from
that index on. -/
def lookupLoop (fuel : Nat) (heap : SymHeap) (cnt : Int) :
    List SymHeap → Int → Except Err Int
  | [], _ => .ok (-1)
  | cur :: rest, idx =>
    if idx < cnt then
      match operatorEq fuel heap cur with
      | .error e => .error e
      | .ok true => .ok idx
      | .ok false => lookupLoop fuel heap cnt rest (idx + 1)
    else .ok (-1)

/-- The method `SymHeapUnion::lookup`: index of the first heap equal to `heap`, or `-1`. -/
def SymHeapUnion.lookup (fuel : Nat) (self : SymHeapUnion) (heap : SymHeap) : Except Err Int :=
  lookupLoop fuel heap (toInt32 self.length) self 0

/-- The loop of `SymHeapUnion::insert`: whether some heap of the list equals `heap`. -/
def insertScan (fuel : Nat) (heap : SymHeap) : List SymHeap → Except Err Bool
  | [] => .ok false
  | cur :: rest =>
    match operatorEq fuel heap cur with
    | .error e => .error e
    | .ok true => .ok true
    | .ok false => insertScan fuel heap rest

/-- The method `SymHeapUnion::insert(const SymHeap &)`. -/
def SymHeapUnion.insert (fuel : Nat) (self : SymHeapUnion) (heap : SymHeap) :
    Except Err SymHeapUnion :=
  match insertScan fuel heap self with
  | .error e => .error e
  | .ok true => .ok self
  | .ok false => .ok (self ++ [heap])

/-- The method `SymHeapUnion::insert(const SymHeapUnion &)`. -/
def SymHeapUnion.insertUnion (fuel : Nat) (self : SymHeapUnion) :
    List SymHeap → Except Err SymHeapUnion
  | [] => .ok self
  | cur :: rest =>
    match SymHeapUnion.insert fuel self cur with
    | .error e => .error e
    | .ok self1 => SymHeapUnion.insertUnion fuel self1 rest

/-! ## Mutators of the symbolic heap -/

/-- Modelled from the spec: `objSetValue`, which writes a value to a field; the old value
loses one user and the new value gains one. -/
def SymHeap.objSetValue (sh : SymHeap) (obj : Int) (val : Int) : SymHeap :=
  let old := sh.valueOf obj
  { sh with
    valueOf := fun o => if o = obj then val else sh.valueOf o
    usedByCount := fun v =>
      (if v = old then sh.usedByCount v - 1 else sh.usedByCount v) + (if v = val then 1 else 0) }

/-- Modelled from the spec: `valCreateUnknown`, which creates a fresh unknown value of the
given origin and type. -/
def SymHeap.valCreateUnknown (sh : SymHeap) (code : EUnknownValue) (clt : Option cl_type) :
    Int × SymHeap :=
  let val := sh.lastValId + 1
  (val, { sh with
    lastValId := val
    valGetUnknown := fun v => if v = val then code else sh.valGetUnknown v
    valType := fun v => if v = val then clt else sh.valType v })

/-- Modelled from the spec: `proveEq`, `some true` if the values are provably equal,
`some false` if a Neq predicate holds between them, `none` otherwise. -/
def SymHeap.proveEq (sh : SymHeap) (v1 v2 : Int) : Option Bool :=
  if v1 = v2 then some true
  else if sortValues v1 v2 ∈ sh.neqDb then some false
  else none

/-- Modelled from the spec: `addNeq`, which records a disequality; the insertion of
`neq(v, v)` fails. -/
def SymHeap.addNeq (sh : SymHeap) (v1 v2 : Int) : Except Err SymHeap :=
  if v1 = v2 then .error .CONTRADICTION
  else if sortValues v1 v2 ∈ sh.neqDb then .ok sh
  else .ok { sh with neqDb := sortValues v1 v2 :: sh.neqDb }

/-- Modelled from the spec: `delNeq`, which removes a disequality. -/
def SymHeap.delNeq (sh : SymHeap) (v1 v2 : Int) : SymHeap :=
  { sh with neqDb := sh.neqDb.filter fun p => p ≠ sortValues v1 v2 }

/-- Modelled from the spec: `valReplace`, which substitutes every occurrence of `old` with
`new` across all live fields and all predicates. -/
def SymHeap.valReplace (sh : SymHeap) (old new : Int) : SymHeap :=
  if old = new then sh
  else
    let s := fun v => if v = old then new else v
    { sh with
      valueOf := fun o => s (sh.valueOf o)
      usedByCount := fun v =>
        if v = old then 0
        else if v = new then sh.usedByCount new + sh.usedByCount old
        else sh.usedByCount v
      neqDb := (sh.neqDb.map fun p => sortValues (s p.1) (s p.2)).dedup }

/-- Modelled from the spec: `objAbstract(obj, kind, icBind, icPeer)`, which turns an object
into a segment of the given kind with the supplied binding. -/
def SymHeap.objAbstract (sh : SymHeap) (obj : Int) (kind : EObjKind)
    (icBind icPeer : TFieldIdxChain) : SymHeap :=
  { sh with
    objKind := fun o => if o = obj then kind else sh.objKind o
    objBinderField := fun o => if o = obj then icBind else sh.objBinderField o
    objPeerField := fun o => if o = obj then icPeer else sh.objPeerField o }

/-- The destruction of a single object or sub-object: its address becomes invalid and
resolves to `OBJ_DELETED`, and the value that it stored loses one user. -/
def SymHeap.objDestroyOne (sh : SymHeap) (obj : Int) : SymHeap :=
  let addr := sh.placedAt obj
  let val := sh.valueOf obj
  { sh with
    placedAt := fun o => if o = obj then VAL_INVALID else sh.placedAt o
    valueOf := fun o => if o = obj then VAL_INVALID else sh.valueOf o
    pointsTo := fun v => if 0 < addr ∧ v = addr then OBJ_DELETED else sh.pointsTo v
    usedByCount := fun v => if v = val then sh.usedByCount v - 1 else sh.usedByCount v }

/-- The objects of the trees of sub-objects below the objects of `todo`, these included. -/
def SymHeap.gatherSubObjs (sh : SymHeap) :
    Nat → List Int → List Int → Except Err (List Int)
  | _, [], acc => .ok acc
  | 0, _ :: _, _ => .error .FUEL
  | fuel + 1, obj :: todo, acc =>
    match sh.objType obj with
    | some t =>
      if t.code = cl_type_e.CL_TYPE_STRUCT then
        sh.gatherSubObjs fuel
          (((List.range t.item_cnt.toNat).map fun (i : Nat) => sh.subObj obj (i : Int)) ++ todo)
          (obj :: acc)
      else sh.gatherSubObjs fuel todo (obj :: acc)
    | none => sh.gatherSubObjs fuel todo (obj :: acc)

/-- Modelled from the spec: `objDestroy`, which marks the object invalid together with all
its sub-objects; the object is no longer a root of the heap. -/
def SymHeap.objDestroy (fuel : Nat) (sh : SymHeap) (obj : Int) : Except Err SymHeap :=
  match sh.gatherSubObjs fuel [obj] [] with
  | .error e => .error e
  | .ok objs =>
    let sh1 := objs.foldl SymHeap.objDestroyOne sh
    .ok { sh1 with gatherRootObjs := sh1.gatherRootObjs.filter fun o => o ≠ obj }

/-- Modelled from the spec: `subObjByChain`, which follows a selector from an object. -/
def subObjByChain (sh : SymHeap) (obj : Int) : TFieldIdxChain → Int
  | [] => obj
  | nth :: rest =>
    let sub := sh.subObj obj nth
    if sub = OBJ_INVALID then sub else subObjByChain sh sub rest

/-! ## Abstraction (`symabstract.cc`) -/

/-- Common configuration template for abstraction triggering. -/
structure AbstractionThreshold where
  sparePrefix : Nat
  innerSegLen : Nat
  spareSuffix : Nat
  deriving DecidableEq, Repr

/-- Abstraction trigger threshold for SLS. -/
def slsThreshold : AbstractionThreshold := ⟨1, 1, 0⟩

/-- Abstraction trigger threshold for DLS. -/
def dlsThreshold : AbstractionThreshold := ⟨0, 1, 1⟩

abbrev TObjPair := Int × Int

/-- Numeric value of a kind (`static_cast<unsigned>(kind)`). -/
def EObjKind.toNat : EObjKind → Nat
  | .OK_CONCRETE => 0
  | .OK_SLS => 1
  | .OK_DLS => 2

/-- Truncation of an integer to `unsigned` (32 bits). -/
def toUInt32 (x : Int) : Nat := (x % 2 ^ 32).toNat

/-- The helper template `TraverseSubObjsHelper<TItem>`. -/
structure TraverseSubObjsHelper (TItem : Type) where
  getItemClt : SymHeap → TItem → Except Err (Option cl_type)
  getNextItem : SymHeap → TItem → Int → TItem

/-- Specialisation for `TObjId`, the basic implementation of the traversal. -/
def helperObj : TraverseSubObjsHelper Int where
  getItemClt := fun sh obj => .ok (sh.objType obj)
  getNextItem := fun sh obj nth => sh.subObj obj nth

/-- Specialisation for traversing two composite objects simultaneously. -/
def helperPair : TraverseSubObjsHelper TObjPair where
  getItemClt := fun sh item =>
    let clt1 := sh.objType item.1
    let clt2 := sh.objType item.2
    if clt1 ≠ clt2 then .error .TRAP else .ok clt1
  getNextItem := fun sh item nth => (sh.subObj item.1 nth, sh.subObj item.2 nth)

/-- Whether a type descriptor is the descriptor of a structure. -/
def isStruct (clt : Option cl_type) : Bool :=
  match clt with
  | some t => t.code == cl_type_e.CL_TYPE_STRUCT
  | none => false

/-- A visitor of `traverseSubObjs`: whether to continue, and the heap it leaves. -/
abbrev TVisitor (TItem : Type) := SymHeap → TItem → Except Err (Bool × SymHeap)

/-- The `for` loop of `traverseSubObjs` over the items `i, i+1, ...` (`n` of them are
left) of `item`. -/
def traverseItems {TItem : Type} (helper : TraverseSubObjsHelper TItem)
    (visitor : TVisitor TItem) (item : TItem) :
    Nat → Int → SymHeap → List TItem → Except Err (Bool × SymHeap × List TItem)
  | 0, _, sh, todo => .ok (true, sh, todo)
  | n + 1, i, sh, todo =>
    let next := helper.getNextItem sh item i
    match visitor sh next with
    | .error e => .error e
    | .ok (false, sh1) => .ok (false, sh1, todo)
    | .ok (true, sh1) =>
      match helper.getItemClt sh1 next with
      | .error e => .error e
      | .ok subClt =>
        traverseItems helper visitor item n (i + 1) sh1
          (if isStruct subClt then next :: todo else todo)

/-- The `while` loop of `traverseSubObjs`. -/
def traverseSubObjsLoop {TItem : Type} (helper : TraverseSubObjsHelper TItem)
    (visitor : TVisitor TItem) :
    Nat → SymHeap → List TItem → Except Err (Bool × SymHeap)
  | _, sh, [] => .ok (true, sh)
  | 0, _, _ :: _ => .error .FUEL
  | fuel + 1, sh, item :: todo =>
    match helper.getItemClt sh item with
    | .error e => .error e
    | .ok clt =>
      match clt with
      | none => .error .TRAP
      | some t =>
        if t.code ≠ cl_type_e.CL_TYPE_STRUCT then .error .TRAP
        else
          match traverseItems helper visitor item t.item_cnt.toNat 0 sh todo with
          | .error e => .error e
          | .ok (false, sh1, _) => .ok (false, sh1)
          | .ok (true, sh1, todo1) => traverseSubObjsLoop helper visitor fuel sh1 todo1

/-- Takes the given visitor through a composite object; `true` if the traversal is
complete. -/
def traverseSubObjs {TItem : Type} (helper : TraverseSubObjsHelper TItem) (fuel : Nat)
    (sh : SymHeap) (item : TItem) (visitor : TVisitor TItem) : Except Err (Bool × SymHeap) :=
  traverseSubObjsLoop helper visitor fuel sh [item]

/-- Visitor of `doesAnyonePointToInside`. -/
def doesAnyonePointToInsideVisitor : TVisitor Int := fun sh sub =>
  let subAddr := sh.placedAt sub
  .ok (sh.usedByCount subAddr == 0, sh)

/-- Whether a sub-object of `obj` is pointed at. -/
def doesAnyonePointToInside (fuel : Nat) (sh : SymHeap) (obj : Int) : Except Err Bool :=
  match traverseSubObjs helperObj fuel sh obj doesAnyonePointToInsideVisitor with
  | .error e => .error e
  | .ok (complete, _) => .ok (!complete)

/-- Visitor of `abstractNonMatchingValues`. -/
def abstractNonMatchingValuesVisitor : TVisitor TObjPair := fun sh item =>
  let dst := item.2
  let valSrc := sh.valueOf item.1
  let valDst := sh.valueOf dst
  if sh.proveEq valSrc valDst = some true then .ok (true, sh)
  else
    let clt := sh.valType valSrc
    let cltDst := sh.valType valDst
    match clt, cltDst with
    | none, _ =>
      let r := sh.valCreateUnknown .UV_UNKNOWN cltDst
      .ok (true, r.2.objSetValue dst r.1)
    | some t, some tDst =>
      if tDst ≠ t then .error .TRAP
      else
        let r := sh.valCreateUnknown .UV_UNKNOWN (some t)
        .ok (true, r.2.objSetValue dst r.1)
    | some t, none =>
      let r := sh.valCreateUnknown .UV_UNKNOWN (some t)
      .ok (true, r.2.objSetValue dst r.1)

/-- When abstracting an object, all non-matching values are abstracted out; the binder and
the peer of `dst` are preserved. -/
def abstractNonMatchingValues (fuel : Nat) (sh : SymHeap) (src dst : Int) :
    Except Err SymHeap :=
  let kind := sh.objKind dst
  if EObjKind.OK_CONCRETE = kind then .error .TRAP
  else
    let objBind := subObjByChain sh dst (sh.objBinderField dst)
    let valBind := sh.valueOf objBind
    let objPeer := if EObjKind.OK_DLS = kind then subObjByChain sh dst (sh.objPeerField dst)
      else OBJ_INVALID
    let valPeer := if EObjKind.OK_DLS = kind then sh.valueOf objPeer else VAL_INVALID
    match traverseSubObjs helperPair fuel sh (src, dst) abstractNonMatchingValuesVisitor with
    | .error e => .error e
    | .ok (_, sh1) =>
      let sh2 := sh1.objSetValue objBind valBind
      if EObjKind.OK_DLS = kind then .ok (sh2.objSetValue objPeer valPeer)
      else .ok sh2

/-- Both directions of `abstractNonMatchingValues`. -/
def abstractNonMatchingValuesBidir (fuel : Nat) (sh : SymHeap) (o1 o2 : Int) :
    Except Err SymHeap :=
  match abstractNonMatchingValues fuel sh o1 o2 with
  | .error e => .error e
  | .ok sh1 => abstractNonMatchingValues fuel sh1 o2 o1

/-- Replaces all references to `oldObj` by references to `newObj` and destroys `oldObj`. -/
def objReplace (fuel : Nat) (sh : SymHeap) (oldObj newObj : Int) : Except Err SymHeap :=
  if OBJ_INVALID ≠ sh.objParent oldObj ∨ OBJ_INVALID ≠ sh.objParent newObj then .error .TRAP
  else
    let oldAddr := sh.placedAt oldObj
    let newAddr := sh.placedAt newObj
    if oldAddr ≤ 0 ∨ newAddr ≤ 0 then .error .TRAP
    else (sh.valReplace oldAddr newAddr).objDestroy fuel oldObj

/-- Moves to the object that the field `icNext` of the object points to. -/
def skipObj (sh : SymHeap) (obj : Int) (icNext : TFieldIdxChain) : Except Err Int :=
  let objPtrNext := subObjByChain sh obj icNext
  let valNext := sh.valueOf objPtrNext
  let objNext := sh.pointsTo valNext
  if OBJ_INVALID = objNext then .error .TRAP
  else .ok objNext

/-- The peer of a DLS. -/
def dlSegPeer (sh : SymHeap) (dls : Int) : Except Err Int :=
  if EObjKind.OK_DLS ≠ sh.objKind dls then .error .TRAP
  else skipObj sh dls (sh.objPeerField dls)

/-- The state of a `ProbeVisitor`. -/
structure ProbeVisitor where
  addr_ : Int
  clt_ : cl_type
  arrity_ : Nat

/-- The constructor of `ProbeVisitor`. -/
def ProbeVisitor.mk1 (sh : SymHeap) (root : Int) (kind : EObjKind) : Except Err ProbeVisitor :=
  let addr := sh.placedAt root
  match sh.objType root with
  | none => .error .TRAP
  | some clt =>
    if addr = 0 ∨ cl_type_e.CL_TYPE_STRUCT ≠ clt.code then .error .TRAP
    else
      let arrity := kind.toNat
      if arrity = 0 then .error .TRAP
      else .ok ⟨addr, clt, arrity⟩

/-- The call operator of `ProbeVisitor`: `false` if the field `obj` is a candidate for
a list selector. -/
def ProbeVisitor.call (self : ProbeVisitor) (fuel : Nat) (sh : SymHeap) (obj : Int) :
    Except Err Bool :=
  let valNext := sh.valueOf obj
  if valNext ≤ 0 ∨ valNext = self.addr_ ∨ sh.valType valNext ≠ some self.clt_ then .ok true
  else
    let code := sh.valGetUnknown valNext
    if code ≠ EUnknownValue.UV_KNOWN ∧ code ≠ EUnknownValue.UV_ABSTRACT then .ok true
    else
      let target := sh.pointsTo valNext
      let targetAddr := sh.placedAt target
      if targetAddr ≤ 0 then .error .TRAP
      else if sh.cVar obj then .ok true
      else if sh.usedByCount targetAddr ≠ self.arrity_ then .ok true
      else doesAnyonePointToInside fuel sh target

/-- A `ProbeVisitor` as a visitor of `traverseSubObjs`. -/
def ProbeVisitor.visitor (self : ProbeVisitor) (fuel : Nat) : TVisitor Int := fun sh obj =>
  match self.call fuel sh obj with
  | .error e => .error e
  | .ok b => .ok (b, sh)

/-- Whether the object is a candidate for an entry of a segment of the given kind. -/
def probe (fuel : Nat) (sh : SymHeap) (obj : Int) (kind : EObjKind) : Except Err Bool :=
  match doesAnyonePointToInside fuel sh obj with
  | .error e => .error e
  | .ok true => .ok false
  | .ok false =>
    match ProbeVisitor.mk1 sh obj kind with
    | .error e => .error e
    | .ok visitor =>
      match traverseSubObjs helperObj fuel sh obj (visitor.visitor fuel) with
      | .error e => .error e
      | .ok (complete, _) => .ok (!complete)

/-- An item of the stack of `digAnyListSelectors`: object, `nth`, `last`. -/
abbrev TStackItem := Int × Int × Bool

/-- The state of the loop of `digAnyListSelectors`: the stack, the current index chain and
the selectors found so far. -/
structure DigState where
  todo : List TStackItem
  ic : TFieldIdxChain
  dst : List TFieldIdxChain

/-- The `for` loop of `digAnyListSelectors` over the items `i, i+1, ...` (`n` of them are
left) of the structure `obj`. -/
def digItems (visitor : ProbeVisitor) (fuel : Nat) (sh : SymHeap) (obj : Int) :
    Nat → Int → DigState → Except Err DigState
  | 0, _, st => .ok st
  | n + 1, i, st =>
    let sub := sh.subObj obj i
    match visitor.call fuel sh sub with
    | .error e => .error e
    | .ok cont =>
      let dst1 := if !cont then st.dst ++ [st.ic ++ [i]] else st.dst
      let todo1 := if isStruct (sh.objType sub) then (sub, i, decide (0 = i)) :: st.todo
        else st.todo
      digItems visitor fuel sh obj n (i + 1) ⟨todo1, st.ic, dst1⟩

/-- The `while` loop of `digAnyListSelectors`. -/
def digAnyListSelectorsLoop (visitor : ProbeVisitor) (fuel : Nat) (sh : SymHeap) :
    Nat → DigState → Except Err DigState
  | n, st =>
    match st.todo with
    | [] => .ok st
    | (obj, nth, last) :: rest =>
      match n with
      | 0 => .error .FUEL
      | n1 + 1 =>
        let st0 : DigState := ⟨rest, st.ic, st.dst⟩
        let r : Except Err DigState :=
          match sh.objType obj with
          | some clt =>
            if clt.code = cl_type_e.CL_TYPE_STRUCT then
              let st1 : DigState := if -1 ≠ nth then ⟨rest, st.ic ++ [nth], st.dst⟩ else st0
              digItems visitor fuel sh obj clt.item_cnt.toNat 0 st1
            else .ok st0
          | none => .ok st0
        match r with
        | .error e => .error e
        | .ok st2 =>
          digAnyListSelectorsLoop visitor fuel sh n1
            (if last then ⟨st2.todo, st2.ic.dropLast, st2.dst⟩ else st2)

/-- The selectors of `obj` that are candidates for the binding of a segment, appended to
`dst`. -/
def digAnyListSelectors (fuel : Nat) (dst : List TFieldIdxChain) (sh : SymHeap) (obj : Int)
    (kind : EObjKind) : Except Err (List TFieldIdxChain) :=
  match ProbeVisitor.mk1 sh obj kind with
  | .error e => .error e
  | .ok visitor =>
    match digAnyListSelectorsLoop visitor fuel sh fuel ⟨[(obj, -1, false)], [], dst⟩ with
    | .error e => .error e
    | .ok st => .ok st.dst

/-- The state of the loop of `discoverSeg`. -/
structure DiscoverState where
  obj : Int
  path : List Int
  dlSegsOnPath : Int

/-- The part of the body of the loop of `discoverSeg` that follows the handling of a DLS
on the path: `none` stands for `break`, otherwise the next object. -/
def discoverSegNext (fuel : Nat) (sh : SymHeap) (kind : EObjKind)
    (icBind icPeer : TFieldIdxChain) (obj : Int) : Except Err (Option Int) :=
  let objPtrNext := subObjByChain sh obj icBind
  match ProbeVisitor.mk1 sh obj kind with
  | .error e => .error e
  | .ok visitor =>
    match visitor.call fuel sh objPtrNext with
    | .error e => .error e
    | .ok true => .ok none
    | .ok false =>
      let valNext := sh.valueOf objPtrNext
      let objNext := sh.pointsTo valNext
      if objNext ≤ 0 then .ok none
      else if EObjKind.OK_DLS = kind then
        let addrSelf := sh.placedAt obj
        let objBackLink := subObjByChain sh objNext icPeer
        let valBackLink := sh.valueOf objBackLink
        if valBackLink ≠ addrSelf then .ok none
        else .ok (some objNext)
      else .ok (some objNext)

/-- The `while` loop of `discoverSeg`; one unit of the counter is one iteration. -/
def discoverSegLoop (fuel : Nat) (sh : SymHeap) (kind : EObjKind)
    (icBind icPeer : TFieldIdxChain) : Nat → DiscoverState → Except Err DiscoverState
  | n, st =>
    if st.obj ∈ st.path then .ok st
    else
      match n with
      | 0 => .error .FUEL
      | n1 + 1 =>
        let path1 := st.obj :: st.path
        let afterDls : Except Err (Option DiscoverState) :=
          if EObjKind.OK_DLS = sh.objKind st.obj then
            if EObjKind.OK_DLS ≠ kind then .error .TRAP
            else
              let icPeerEncountered := sh.objPeerField st.obj
              if icPeerEncountered ≠ icBind ∧ icPeerEncountered ≠ icPeer then .ok none
              else
                match skipObj sh st.obj (sh.objPeerField st.obj) with
                | .error e => .error e
                | .ok peer =>
                  if peer ∈ path1 then .ok none
                  else .ok (some ⟨peer, peer :: path1, st.dlSegsOnPath + 1⟩)
          else .ok (some ⟨st.obj, path1, st.dlSegsOnPath⟩)
        match afterDls with
        | .error e => .error e
        | .ok none => .ok ⟨st.obj, path1, st.dlSegsOnPath⟩
        | .ok (some st1) =>
          match discoverSegNext fuel sh kind icBind icPeer st1.obj with
          | .error e => .error e
          | .ok none => .ok st1
          | .ok (some objNext) =>
            discoverSegLoop fuel sh kind icBind icPeer n1 ⟨objNext, st1.path, st1.dlSegsOnPath⟩

/-- The length of the segment that starts at `entry`; `loopFuel` bounds the number of
iterations of the loop. -/
def discoverSeg (fuel loopFuel : Nat) (sh : SymHeap) (entry : Int) (kind : EObjKind)
    (icBind icPeer : TFieldIdxChain) : Except Err Nat :=
  match discoverSegLoop fuel sh kind icBind icPeer loopFuel ⟨entry, [], 0⟩ with
  | .error e => .error e
  | .ok st =>
    if st.dlSegsOnPath ≠ 0 ∧ EObjKind.OK_DLS ≠ sh.objKind entry then .ok 0
    else
      let rawPathLen := toUInt32 ((st.path.length : Int) - 1)
      .ok (toUInt32 ((rawPathLen : Int) - st.dlSegsOnPath))

/-- The pairs `(next, prev)` of the two nested loops of `discoverAllDlls`, in the order
in which the loops visit them. -/
def dllIndexPairs (cnt : Nat) : List (Nat × Nat) :=
  (List.range cnt).flatMap fun next => (List.range cnt).map fun prev => (next, prev)

/-- The two nested loops of `discoverAllDlls`, over the remaining pairs of indices; the
state is `(bestLen, bestNext, bestPrev)`. -/
def discoverAllDllsLoop (fuel : Nat) (sh : SymHeap) (obj : Int)
    (selectors : List TFieldIdxChain) :
    List (Nat × Nat) → Nat × Nat × Nat → Except Err (Nat × Nat × Nat)
  | [], best => .ok best
  | (next, prev) :: rest, best =>
    if next = prev then discoverAllDllsLoop fuel sh obj selectors rest best
    else
      match discoverSeg fuel fuel sh obj .OK_DLS (selectors.getD next []) (selectors.getD prev [])
      with
      | .error e => .error e
      | .ok len =>
        if len = 0 then discoverAllDllsLoop fuel sh obj selectors rest best
        else if best.1 < len then discoverAllDllsLoop fuel sh obj selectors rest (len, next, prev)
        else discoverAllDllsLoop fuel sh obj selectors rest best

/-- The best DLS that starts at `obj`: its length and the values of `*icNext`, `*icPrev`
on return. -/
def discoverAllDlls (fuel : Nat) (sh : SymHeap) (obj : Int) (selectors : List TFieldIdxChain)
    (icNext icPrev : TFieldIdxChain) : Except Err (Nat × TFieldIdxChain × TFieldIdxChain) :=
  let cnt := toInt32 selectors.length
  if cnt < 2 then .ok (0, icNext, icPrev)
  else
    match discoverAllDllsLoop fuel sh obj selectors (dllIndexPairs cnt.toNat) (0, 0, 0) with
    | .error e => .error e
    | .ok (bestLen, bestNext, bestPrev) =>
      if bestLen = 0 then .ok (0, icNext, icPrev)
      else .ok (bestLen, selectors.getD bestNext [], selectors.getD bestPrev [])

/-- The loop of `discoverAllSegments` for SLS, over the selectors from index `i` on; the
state is `(slsBestLength, idxBest)`. -/
def discoverAllSlsLoop (fuel : Nat) (sh : SymHeap) (obj : Int) :
    List TFieldIdxChain → Nat → Nat × Nat → Except Err (Nat × Nat)
  | [], _, best => .ok best
  | sel :: rest, i, best =>
    match discoverSeg fuel fuel sh obj .OK_SLS sel [] with
    | .error e => .error e
    | .ok len =>
      if len = 0 then discoverAllSlsLoop fuel sh obj rest (i + 1) best
      else if best.1 < len then discoverAllSlsLoop fuel sh obj rest (i + 1) (len, i)
      else discoverAllSlsLoop fuel sh obj rest (i + 1) best

/-- The best segment of the given kind that starts at `obj`: its length and the values of
`*icNext`, `*icPrev` on return. -/
def discoverAllSegments (fuel : Nat) (sh : SymHeap) (obj : Int) (kind : EObjKind)
    (selectors : List TFieldIdxChain) (icNext icPrev : TFieldIdxChain) :
    Except Err (Nat × TFieldIdxChain × TFieldIdxChain) :=
  let cnt := toUInt32 selectors.length
  if cnt = 0 then .error .TRAP
  else
    match kind with
    | .OK_CONCRETE => .error .TRAP
    | .OK_DLS => discoverAllDlls fuel sh obj selectors icNext icPrev
    | .OK_SLS =>
      match discoverAllSlsLoop fuel sh obj (selectors.take cnt) 0 (0, 0) with
      | .error e => .error e
      | .ok (slsBestLength, idxBest) =>
        if slsBestLength = 0 then .ok (0, icNext, icPrev)
        else .ok (slsBestLength, selectors.getD idxBest [], icPrev)

/-- Makes sure that the object is an SLS with the given binder. -/
def ensureSlSeg (sh : SymHeap) (obj : Int) (icBind : TFieldIdxChain) : Except Err SymHeap :=
  let abstractIt : Except Err SymHeap :=
    let sh1 := sh.objAbstract obj .OK_SLS icBind []
    let addr := sh1.placedAt obj
    let objNextPtr := subObjByChain sh1 obj icBind
    let valNext := sh1.valueOf objNextPtr
    if addr ≤ 0 ∨ valNext < 0 then .error .TRAP
    else sh1.addNeq addr valNext
  match sh.objKind obj with
  | .OK_SLS => if sh.objBinderField obj = icBind then .ok sh else .error .TRAP
  | .OK_DLS => .error .TRAP
  | .OK_CONCRETE => abstractIt

/-- One step of the SLS abstraction: the object `obj` is merged into its successor, which
is returned as the new position. -/
def slSegAbstractionStep (fuel : Nat) (sh : SymHeap) (obj : Int) (icNext : TFieldIdxChain) :
    Except Err (SymHeap × Int) :=
  let objPtrNext := subObjByChain sh obj icNext
  let valNext := sh.valueOf objPtrNext
  if valNext ≤ 0 ∨ 1 ≠ sh.usedByCount valNext then .error .TRAP
  else
    let objNext := sh.pointsTo valNext
    match ensureSlSeg sh objNext icNext with
    | .error e => .error e
    | .ok sh1 =>
      if EObjKind.OK_SLS ≠ sh1.objKind objNext then .error .TRAP
      else
        match abstractNonMatchingValues fuel sh1 obj objNext with
        | .error e => .error e
        | .ok sh2 =>
          match objReplace fuel sh2 obj objNext with
          | .error e => .error e
          | .ok sh3 => .ok (sh3, objNext)

/-- Stores the Neq predicate between the value before a DLS and the value after it. -/
def dlsStoreCrossNeq (sh : SymHeap) (obj peer : Int) : Except Err SymHeap :=
  let icBindPrev := sh.objBinderField obj
  let ptrPrev := subObjByChain sh obj icBindPrev
  let valPrev := sh.valueOf ptrPrev
  let icBindNext := sh.objBinderField peer
  let ptrNext := subObjByChain sh peer icBindNext
  let valNext := sh.valueOf ptrNext
  sh.addNeq valPrev valNext

/-- Creates a DLS from two concrete objects. -/
def dlSegCreate (fuel : Nat) (sh : SymHeap) (o1 o2 : Int) (icNext icPrev : TFieldIdxChain) :
    Except Err SymHeap :=
  let sh1 := sh.objAbstract o1 .OK_DLS icPrev icNext
  let sh2 := sh1.objAbstract o2 .OK_DLS icNext icPrev
  match abstractNonMatchingValuesBidir fuel sh2 o1 o2 with
  | .error e => .error e
  | .ok sh3 => dlsStoreCrossNeq sh3 o1 o2

/-- Merges the concrete object `var` into the DLS `dls`. -/
def dlSegGoblle (fuel : Nat) (sh : SymHeap) (dls var : Int) (backward : Bool) :
    Except Err SymHeap :=
  if EObjKind.OK_DLS ≠ sh.objKind dls ∨ EObjKind.OK_CONCRETE ≠ sh.objKind var then .error .TRAP
  else
    let dlsE : Except Err Int :=
      if !backward then skipObj sh dls (sh.objPeerField dls) else .ok dls
    match dlsE with
    | .error e => .error e
    | .ok dls1 =>
      match abstractNonMatchingValues fuel sh var dls1 with
      | .error e => .error e
      | .ok sh1 =>
        if backward then .error .TRAP
        else
          let icBind := sh1.objBinderField dls1
          let dlsNextPtr := subObjByChain sh1 dls1 icBind
          let varNextPtr := subObjByChain sh1 var icBind
          let sh2 := sh1.objSetValue dlsNextPtr (sh1.valueOf varNextPtr)
          objReplace fuel sh2 var dls1

/-- Merges two DLS. -/
def dlSegMerge (fuel : Nat) (sh : SymHeap) (seg1 seg2 : Int) : Except Err SymHeap :=
  match dlSegPeer sh seg1 with
  | .error e => .error e
  | .ok peer1 =>
    match dlSegPeer sh seg2 with
    | .error e => .error e
    | .ok peer2 =>
      match abstractNonMatchingValuesBidir fuel sh seg1 seg2 with
      | .error e => .error e
      | .ok sh1 =>
        match abstractNonMatchingValuesBidir fuel sh1 peer1 peer2 with
        | .error e => .error e
        | .ok sh2 =>
          match objReplace fuel sh2 seg1 seg2 with
          | .error e => .error e
          | .ok sh3 => objReplace fuel sh3 peer1 peer2

/-- One step of the DLS abstraction; the new position is returned. -/
def dlSegAbstractionStep (fuel : Nat) (sh : SymHeap) (obj : Int)
    (icNext icPrev : TFieldIdxChain) : Except Err (SymHeap × Int) :=
  let o1 := obj
  match sh.objKind o1 with
  | .OK_SLS => .error .TRAP
  | .OK_DLS =>
    match skipObj sh o1 (sh.objPeerField o1) with
    | .error e => .error e
    | .ok o2 =>
      match skipObj sh o2 (sh.objBinderField o2) with
      | .error e => .error e
      | .ok o3 =>
        if EObjKind.OK_CONCRETE = sh.objKind o3 then
          match dlSegGoblle fuel sh o1 o3 false with
          | .error e => .error e
          | .ok sh1 => .ok (sh1, obj)
        else
          match dlSegMerge fuel sh o1 o3 with
          | .error e => .error e
          | .ok sh1 => .ok (sh1, obj)
  | .OK_CONCRETE =>
    match skipObj sh o1 icNext with
    | .error e => .error e
    | .ok o2 =>
      if EObjKind.OK_CONCRETE = sh.objKind o2 then
        match dlSegCreate fuel sh o1 o2 icNext icPrev with
        | .error e => .error e
        | .ok sh1 => .ok (sh1, obj)
      else
        match dlSegGoblle fuel sh o2 o1 true with
        | .error e => .error e
        | .ok sh1 => .ok (sh1, o2)

/-- The loop over `sparePrefix` of `considerSegAbstraction`: `n` objects are skipped. -/
def skipObjs (sh : SymHeap) (icNext : TFieldIdxChain) : Nat → Int → Except Err Int
  | 0, obj => .ok obj
  | n + 1, obj =>
    match skipObj sh obj icNext with
    | .error e => .error e
    | .ok obj1 => skipObjs sh icNext n obj1

/-- The loop of `considerSegAbstraction` that performs `n` steps of the SLS abstraction. -/
def slSegAbstractionSteps (fuel : Nat) (icNext : TFieldIdxChain) :
    Nat → SymHeap → Int → Except Err (SymHeap × Int)
  | 0, sh, obj => .ok (sh, obj)
  | n + 1, sh, obj =>
    match slSegAbstractionStep fuel sh obj icNext with
    | .error e => .error e
    | .ok (sh1, obj1) => slSegAbstractionSteps fuel icNext n sh1 obj1

/-- The loop of `considerSegAbstraction` that performs `n` steps of the DLS abstraction. -/
def dlSegAbstractionSteps (fuel : Nat) (icNext icPrev : TFieldIdxChain) :
    Nat → SymHeap → Int → Except Err (SymHeap × Int)
  | 0, sh, obj => .ok (sh, obj)
  | n + 1, sh, obj =>
    match dlSegAbstractionStep fuel sh obj icNext icPrev with
    | .error e => .error e
    | .ok (sh1, obj1) => dlSegAbstractionSteps fuel icNext icPrev n sh1 obj1

/-- Checks the threshold of the kind and triggers the abstraction of a segment of length
`lenTotal` that starts at `obj`.  The threshold is a `static` local in the source; both
kinds have the same sum, so that it does not depend on the first call. -/
def considerSegAbstraction (fuel : Nat) (sh : SymHeap) (obj : Int) (kind : EObjKind)
    (icNext icPrev : TFieldIdxChain) (lenTotal : Nat) : Except Err (Bool × SymHeap) :=
  let atE : Except Err AbstractionThreshold :=
    match kind with
    | .OK_CONCRETE => .error .TRAP
    | .OK_SLS => .ok slsThreshold
    | .OK_DLS => .ok dlsThreshold
  match atE with
  | .error e => .error e
  | .ok at1 =>
    let threshold := toUInt32 (at1.sparePrefix + at1.innerSegLen + at1.spareSuffix : Nat)
    if lenTotal < threshold then .ok (false, sh)
    else
      let len : Int :=
        toInt32 (toUInt32 ((lenTotal : Int) - (at1.sparePrefix : Int) - (at1.spareSuffix : Int)))
      match skipObjs sh icNext (toInt32 at1.sparePrefix).toNat obj with
      | .error e => .error e
      | .ok obj1 =>
        if EObjKind.OK_SLS = kind then
          match slSegAbstractionSteps fuel icNext len.toNat sh obj1 with
          | .error e => .error e
          | .ok (sh1, _) => .ok (true, sh1)
        else
          match dlSegAbstractionSteps fuel icNext icPrev len.toNat sh obj1 with
          | .error e => .error e
          | .ok (sh1, _) => .ok (true, sh1)

/-- The best candidate found so far by `considerAbstraction`. -/
structure BestCandidate where
  bestLen : Nat
  bestEntry : Int
  bestNext : TFieldIdxChain
  bestPrev : TFieldIdxChain

/-- The loop of `considerAbstraction` over the entries. -/
def considerAbstractionLoop (fuel : Nat) (sh : SymHeap) (kind : EObjKind) :
    List Int → BestCandidate → Except Err BestCandidate
  | [], best => .ok best
  | obj :: rest, best =>
    match digAnyListSelectors fuel [] sh obj kind with
    | .error e => .error e
    | .ok selectors =>
      match discoverAllSegments fuel sh obj kind selectors [] [] with
      | .error e => .error e
      | .ok (len, icNext, icPrev) =>
        if len ≤ best.bestLen then considerAbstractionLoop fuel sh kind rest best
        else considerAbstractionLoop fuel sh kind rest ⟨len, obj, icNext, icPrev⟩

/-- Finds the best possible abstraction among the entries and triggers it. -/
def considerAbstraction (fuel : Nat) (sh : SymHeap) (kind : EObjKind) (entries : List Int) :
    Except Err (Bool × SymHeap) :=
  if kind = EObjKind.OK_CONCRETE then .error .TRAP
  else
    match considerAbstractionLoop fuel sh kind entries ⟨0, 0, [], []⟩ with
    | .error e => .error e
    | .ok best =>
      if best.bestLen = 0 then .ok (false, sh)
      else considerSegAbstraction fuel sh best.bestEntry kind best.bestNext best.bestPrev
        best.bestLen

/-- The loop of `abstractIfNeededLoop` over the root objects: the candidates for SLS and DLS
entries, in the order of the roots. -/
def gatherEntries (fuel : Nat) (sh : SymHeap) :
    List Int → List Int × List Int → Except Err (List Int × List Int)
  | [], acc => .ok acc
  | obj :: rest, (slSegEntries, dlSegEntries) =>
    if sh.cVar obj then gatherEntries fuel sh rest (slSegEntries, dlSegEntries)
    else
      let addr := sh.placedAt obj
      if VAL_INVALID = addr then gatherEntries fuel sh rest (slSegEntries, dlSegEntries)
      else
        let uses := sh.usedByCount addr
        if uses = 1 then
          match probe fuel sh obj .OK_SLS with
          | .error e => .error e
          | .ok true => gatherEntries fuel sh rest (slSegEntries ++ [obj], dlSegEntries)
          | .ok false => gatherEntries fuel sh rest (slSegEntries, dlSegEntries)
        else if uses = 2 then
          match probe fuel sh obj .OK_DLS with
          | .error e => .error e
          | .ok true => gatherEntries fuel sh rest (slSegEntries, dlSegEntries ++ [obj])
          | .ok false => gatherEntries fuel sh rest (slSegEntries, dlSegEntries)
        else gatherEntries fuel sh rest (slSegEntries, dlSegEntries)

/-- One round of the abstraction: `true` if a segment has been abstracted. -/
def abstractIfNeededLoop (fuel : Nat) (sh : SymHeap) : Except Err (Bool × SymHeap) :=
  match gatherEntries fuel sh sh.gatherRootObjs ([], []) with
  | .error e => .error e
  | .ok (slSegEntries, dlSegEntries) =>
    let sls : Except Err (Bool × SymHeap) :=
      if slSegEntries ≠ [] then considerAbstraction fuel sh .OK_SLS slSegEntries
      else .ok (false, sh)
    match sls with
    | .error e => .error e
    | .ok (true, sh1) => .ok (true, sh1)
    | .ok (false, sh1) =>
      let dls : Except Err (Bool × SymHeap) :=
        if dlSegEntries ≠ [] then considerAbstraction fuel sh1 .OK_DLS dlSegEntries
        else .ok (false, sh1)
      match dls with
      | .error e => .error e
      | .ok (true, sh2) => .ok (true, sh2)
      | .ok (false, sh2) => .ok (false, sh2)

/-- The abstraction: rounds are repeated as long as they abstract something; one unit of
the counter is one round that abstracts something. -/
def abstractIfNeeded (fuel : Nat) : Nat → SymHeap → Except Err SymHeap
  | n, sh =>
    match abstractIfNeededLoop fuel sh with
    | .error e => .error e
    | .ok (false, sh1) => .ok sh1
    | .ok (true, sh1) =>
      match n with
      | 0 => .error .FUEL
      | n1 + 1 => abstractIfNeeded fuel n1 sh1

/-! ## Concretization (`symabstract.cc`) -/

/-- Modelled from the spec: `objConcretize`, the inverse of `objAbstract`: the segment
becomes a concrete object again and loses its binding. -/
def SymHeap.objConcretize (sh : SymHeap) (obj : Int) : SymHeap :=
  { sh with
    objKind := fun o => if o = obj then EObjKind.OK_CONCRETE else sh.objKind o
    objBinderField := fun o => if o = obj then [] else sh.objBinderField o
    objPeerField := fun o => if o = obj then [] else sh.objPeerField o }

/-- Modelled from the spec: `objDup`, which duplicates an object together with its
sub-objects as a new root object of the same type, kind and binding; the fields of the
duplicate store the values of the fields of the original.  The new objects and their
addresses get the identifiers that follow `lastObjId` and `lastValId`, the duplicate of
the object itself coming first; the predicates of the heap are not duplicated. -/
def SymHeap.objDup (fuel : Nat) (sh : SymHeap) (obj : Int) : Except Err (Int × SymHeap) :=
  match sh.gatherSubObjs fuel [obj] [] with
  | .error e => .error e
  | .ok acc =>
    let objs := acc.reverse
    let n : Int := objs.length
    let ren : Int → Int := fun o =>
      if o ∈ objs then sh.lastObjId + 1 + (objs.indexOf o : Int) else o
    let orig : Int → Option Int := fun o =>
      if sh.lastObjId < o ∧ o ≤ sh.lastObjId + n then
        some (objs.getD (o - sh.lastObjId - 1).toNat OBJ_INVALID)
      else none
    let origOfAddr : Int → Option Int := fun v =>
      if sh.lastValId < v ∧ v ≤ sh.lastValId + n then
        some (objs.getD (v - sh.lastValId - 1).toNat OBJ_INVALID)
      else none
    let dup := sh.lastObjId + 1
    .ok (dup, { sh with
      gatherRootObjs := sh.gatherRootObjs ++ [dup]
      valueOf := fun o =>
        match orig o with
        | some o0 => sh.valueOf o0
        | none => sh.valueOf o
      placedAt := fun o =>
        match orig o with
        | some _ => sh.lastValId + (o - sh.lastObjId)
        | none => sh.placedAt o
      pointsTo := fun v =>
        match origOfAddr v with
        | some _ => sh.lastObjId + (v - sh.lastValId)
        | none => sh.pointsTo v
      valGetUnknown := fun v =>
        match origOfAddr v with
        | some o0 => sh.valGetUnknown (sh.placedAt o0)
        | none => sh.valGetUnknown v
      valGetCustom := fun v =>
        match origOfAddr v with
        | some _ => -1
        | none => sh.valGetCustom v
      valGetCompositeObj := fun v =>
        match origOfAddr v with
        | some _ => OBJ_INVALID
        | none => sh.valGetCompositeObj v
      objType := fun o =>
        match orig o with
        | some o0 => sh.objType o0
        | none => sh.objType o
      valType := fun v =>
        match origOfAddr v with
        | some o0 => sh.valType (sh.placedAt o0)
        | none => sh.valType v
      subObj := fun o i =>
        match orig o with
        | some o0 => ren (sh.subObj o0 i)
        | none => sh.subObj o i
      objParent := fun o =>
        match orig o with
        | some o0 => if o = dup then OBJ_INVALID else ren (sh.objParent o0)
        | none => sh.objParent o
      cVar := fun o =>
        match orig o with
        | some o0 => sh.cVar o0
        | none => sh.cVar o
      objKind := fun o =>
        match orig o with
        | some o0 => sh.objKind o0
        | none => sh.objKind o
      objBinderField := fun o =>
        match orig o with
        | some o0 => sh.objBinderField o0
        | none => sh.objBinderField o
      objPeerField := fun o =>
        match orig o with
        | some o0 => sh.objPeerField o0
        | none => sh.objPeerField o
      usedByCount := fun v =>
        match origOfAddr v with
        | some _ => 0
        | none => sh.usedByCount v + (objs.filter fun o => sh.valueOf o = v).length
      lastValId := sh.lastValId + n
      lastObjId := sh.lastObjId + n })

/-- The list of heaps that `concretizeObj` appends the empty variant to. -/
abbrev TSymHeapList := List SymHeap

/-- Handles the possibly empty variant of the segment with the ends `ao` and `peer` (one
object in the case of an SLS): if the segment is not proven non-empty, a copy of the heap
with the segment spliced out is appended to `todo`; if it is, the proof is deleted. -/
def spliceOutSegmentIfNeeded (fuel : Nat) (sh : SymHeap) (ao peer : Int) (todo : TSymHeapList) :
    Except Err (SymHeap × TSymHeapList) :=
  let addrSelf := sh.placedAt ao
  let nextPtrNext := subObjByChain sh peer (sh.objBinderField peer)
  let valNext := sh.valueOf nextPtrNext
  match sh.proveEq addrSelf valNext with
  | some true => .error .TRAP
  | some false => .ok (sh.delNeq addrSelf valNext, todo)
  | none =>
    let sh0 := sh
    let sh1E : Except Err SymHeap :=
      if ao ≠ peer then
        let icPrev := sh0.objBinderField ao
        let valPrev := sh0.valueOf (subObjByChain sh0 ao icPrev)
        (sh0.valReplace (sh0.placedAt peer) valPrev).objDestroy fuel peer
      else .ok sh0
    match sh1E with
    | .error e => .error e
    | .ok sh1 =>
      match (sh1.valReplace addrSelf valNext).objDestroy fuel ao with
      | .error e => .error e
      | .ok sh2 => .ok (sh, todo ++ [sh2])

/-- Concretizes the segment `obj`: the heap is left with the unrolled variant and the empty
variant, if there is one, is appended to `todo`. -/
def concretizeObj (fuel : Nat) (sh : SymHeap) (obj : Int) (todo : TSymHeapList) :
    Except Err (SymHeap × TSymHeapList) :=
  let kind := sh.objKind obj
  let aoE : Except Err Int :=
    match kind with
    | .OK_CONCRETE => .error .TRAP
    | .OK_SLS => .ok obj
    | .OK_DLS => skipObj sh obj (sh.objPeerField obj)
  match aoE with
  | .error e => .error e
  | .ok ao =>
    match spliceOutSegmentIfNeeded fuel sh obj ao todo with
    | .error e => .error e
    | .ok (sh1, todo1) =>
      match sh1.objDup fuel obj with
      | .error e => .error e
      | .ok (aoDup, sh2) =>
        let aoDupAddr := sh2.placedAt aoDup
        let sh3 :=
          if EObjKind.OK_DLS = kind then
            sh2.objSetValue (subObjByChain sh2 ao (sh2.objPeerField ao)) aoDupAddr
          else sh2
        let ptrNext := subObjByChain sh3 obj
          (if EObjKind.OK_SLS = kind then sh3.objBinderField obj else sh3.objPeerField obj)
        let sh4 := sh3.objConcretize obj
        let sh5 := sh4.objSetValue ptrNext aoDupAddr
        if EObjKind.OK_DLS = kind then
          let icPrev := sh5.objBinderField aoDup
          let backLink := subObjByChain sh5 aoDup icPrev
          .ok (sh5.objSetValue backLink (sh5.placedAt obj), todo1)
        else .ok (sh5, todo1)

/-! ## The later interface of the symbolic heap (used by `fixed_point.cc`, `symplot.cc`) -/

/-- Modelled from the spec: a node of the trace graph (`const Trace::Node *`), identified
by a number. -/
abbrev TNode := Nat

/-- Modelled from the spec: the storage class of an object. -/
inductive EStorageClass where
  | SC_INVALID
  | SC_UNKNOWN
  | SC_STATIC
  | SC_ON_HEAP
  | SC_ON_STACK
  deriving DecidableEq, Repr

/-- Modelled from the spec: the kind of an object in the later interface of the heap
(`EObjKind` with the kinds `OK_REGION`, `OK_OBJ_OR_NULL`, the see-through kinds and the
kinds of the list segments). -/
inductive Later.EObjKind where
  | OK_REGION
  | OK_OBJ_OR_NULL
  | OK_SEE_THROUGH
  | OK_SEE_THROUGH_2N
  | OK_SLS
  | OK_DLS
  deriving DecidableEq, Repr

/-- Modelled from the spec: the binding of a segment, the offsets `head`, `next` and
`prev`. -/
structure BindingOff where
  head : Int
  next : Int
  prev : Int
  deriving DecidableEq, Repr

/-- Modelled from the spec: a range of sizes (`TSizeRange`, an `IR::Range`). -/
structure TSizeRange where
  lo : Int
  hi : Int
  alignment : Int
  deriving DecidableEq, Repr

/-- Modelled from the spec: the properties of a container shape. -/
structure ShapeProps where
  kind : Later.EObjKind
  bOff : BindingOff
  deriving DecidableEq, Repr

/-- Modelled from the spec: a container shape, `Shape{entry, length, binding}`. -/
structure Shape where
  entry : Int
  props : ShapeProps
  length : Nat
  deriving DecidableEq, Repr

/-- The list of the container shapes of a heap (`TShapeList`). -/
abbrev TShapeList := List Shape

/-- A set of objects (`TObjSet`, a `std::set<TObjId>`). -/
abbrev TObjSet := Finset Int

/-- Modelled from the spec: the symbolic heap in its later form, as far as the translated
code of `fixed_point.cc` and `symplot.cc` reads it.  The class is declared and implemented
outside of the translated files; a heap is the record of the queries that the translated
code calls on it.  `valOfPtr` (the value read through `obj + off`) and `objSetByShape`
(the objects of a container shape) are the helpers of the same name, which take the heap as
their argument. -/
structure Later.SymHeap where
  /-- the trace node of the heap -/
  traceNode : TNode
  /-- whether the object exists -/
  isValid : Int → Bool
  /-- the size of the object -/
  objSize : Int → TSizeRange
  /-- the estimated type of the object, if there is one -/
  objEstimatedType : Int → Option cl_type
  /-- the value read through the pointer at the offset `off` of the object -/
  valOfPtr : Int → Int → Int
  /-- the objects of a container shape -/
  objSetByShape : Shape → TObjSet
  /-- the storage class of the object -/
  objStorClass : Int → EStorageClass
  /-- the kind of the object -/
  objKind : Int → Later.EObjKind
  /-- the prototype level of the object -/
  objProtoLevel : Int → Int
  /-- the minimal length of the segment -/
  segMinLength : Int → Nat
  /-- the binding of the segment -/
  segBinding : Int → BindingOff
  /-- the address of the object -/
  legacyAddrOfAny_XXX : Int → Int
  /-- the address of the object as the target `TS_REGION` -/
  addrOfTarget : Int → Int
  /-- the object at the address -/
  objByAddr : Int → Int
  /-- the offset of the address -/
  valOffset : Int → Int
  /-- the number of the fields that store the value -/
  usedByCount : Int → Nat

/-- The list of the heaps of a location (`SymState`). -/
abbrev SymState := List Later.SymHeap


/-! ## Fixed-point assembler (`fixed_point.cc`) -/

/-- Modelled from the spec: the instruction codes of the front-end. -/
inductive cl_insn_e where
  | CL_INSN_NOP
  | CL_INSN_JMP
  | CL_INSN_COND
  | CL_INSN_RET
  | CL_INSN_ABORT
  | CL_INSN_UNOP
  | CL_INSN_BINOP
  | CL_INSN_CALL
  | CL_INSN_SWITCH
  | CL_INSN_LABEL
  deriving DecidableEq, Repr

/-- Modelled from the spec: a basic block (`const CodeStorage::Block *`) is identified by
its index in the control-flow graph of the function. -/
abbrev TBlock := Nat

/-- Modelled from the spec: an instruction (`const CodeStorage::Insn *`) is identified by
its basic block (`insn->bb`) and its position in the block. -/
abbrev TInsn := TBlock × Nat

/-- Location index (`TLocIdx`), an `int`. -/
abbrev TLocIdx := Int

/-- Modelled from the spec: the content of an instruction, as far as the assembler reads
it: its code, its target blocks and the indices of the targets that close a loop. -/
structure Insn where
  code : cl_insn_e
  targets : List TBlock
  loopClosingTargets : List Nat
  deriving DecidableEq, Repr

/-- Modelled from the spec: a function, as far as the assembler reads it: the basic blocks
of its control-flow graph (`fnc->cfg`) and the entry block. -/
structure Fnc where
  blocks : List (List Insn)
  entry : TBlock
  deriving DecidableEq, Repr

/-- The content of the instruction behind a handle; `none` if the handle is dangling. -/
def Fnc.insn (fnc : Fnc) (insn : TInsn) : Option Insn :=
  (fnc.blocks.getD insn.1 []).get? insn.2

/-- The method `Block::front`; dereferencing the front of an empty block is a `TRAP`. -/
def Fnc.front (fnc : Fnc) (bb : TBlock) : Except Err TInsn :=
  match fnc.blocks.get? bb with
  | some (_ :: _) => .ok (bb, 0)
  | _ => .error .TRAP

/-- The method `Block::back`; dereferencing the back of an empty block is a `TRAP`. -/
def Fnc.back (fnc : Fnc) (bb : TBlock) : Except Err TInsn :=
  match fnc.blocks.get? bb with
  | some (i :: rest) => .ok (bb, (i :: rest).length - 1)
  | _ => .error .TRAP

/-- Modelled from the spec: `cl_is_term_insn`, whether the code is the code of a terminal
instruction of a basic block. -/
def cl_is_term_insn (code : cl_insn_e) : Bool :=
  match code with
  | .CL_INSN_JMP => true
  | .CL_INSN_COND => true
  | .CL_INSN_RET => true
  | .CL_INSN_ABORT => true
  | .CL_INSN_SWITCH => true
  | _ => false

/-- Modelled from the spec: an edge of the control-flow graph of locations; an edge that
is made of a location index alone does not close a loop. -/
structure CfgEdge where
  targetLoc : TLocIdx
  closesLoop : Bool
  deriving DecidableEq, Repr

/-- Modelled from the spec: the state of a location, as far as the assembler accesses it.
A trace edge (`TraceEdge *`) is identified by its index in the list of trace edges. -/
structure LocalState where
  insn : TInsn
  heapList : SymState
  cfgInEdges : List CfgEdge
  cfgOutEdges : List CfgEdge
  traceInEdges : List (List Nat)
  traceOutEdges : List (List Nat)
  shapeListByHeapIdx : List TShapeList

/-- The list of locations (`CleanList<LocalState>`). -/
abbrev TStateList := List LocalState

/-- The map from instructions to locations (`std::map<TInsn, TLocIdx>`), as an
association list. -/
abbrev TInsnLookup := List (TInsn × TLocIdx)

/-- The per-instruction heap sets (`StateByInsn::TStateMap`), as a lookup function. -/
abbrev TStateMap := TInsn → Option SymState

/-- Whether the instruction is left out of the result. -/
def isTransparentInsn (insn : Insn) : Bool :=
  match insn.code with
  | .CL_INSN_COND => true
  | .CL_INSN_JMP => true
  | _ => false

/-- The state of the loop of `loadHeaps`: the work list of blocks, the location of the
previous instruction of the block (the pointer `locState`, not initialized at the
start of a block), the list of locations and the lookup of instructions. -/
structure LoadState where
  wl : WorkList TBlock
  locState : Option Nat
  stateList : TStateList
  insnLookup : TInsnLookup

/-- Assignment `lookup[insn] = locIdx` of `std::map`. -/
def insnLookupSet (lookup : TInsnLookup) (insn : TInsn) (locIdx : TLocIdx) : TInsnLookup :=
  if (lookup.lookup insn).isSome then
    lookup.map fun p => if p.1 = insn then (p.1, locIdx) else p
  else lookup ++ [(insn, locIdx)]

/-- The `for` loop of `loadHeaps` over the instructions of the block `bb` from the position
`insnIdx` on. -/
def loadHeapsInsns (stateMap : TStateMap) (bb : TBlock) :
    List Insn → Nat → LoadState → Except Err LoadState
  | [], _, st => .ok st
  | insn :: rest, insnIdx, st =>
    let wl1 := insn.targets.foldl (fun w bbNext => w.schedule bbNext) st.wl
    if isTransparentInsn insn then
      loadHeapsInsns stateMap bb rest (insnIdx + 1) { st with wl := wl1 }
    else
      let locIdx : TLocIdx := toInt32 st.stateList.length
      let listE : Except Err TStateList :=
        if insnIdx ≠ 0 then
          match st.locState with
          | none => .error .TRAP
          | some prev =>
            match st.stateList.get? prev with
            | none => .error .TRAP
            | some ls =>
              .ok (st.stateList.set prev
                { ls with cfgOutEdges := ls.cfgOutEdges ++ [⟨locIdx, false⟩] })
        else .ok st.stateList
      match listE with
      | .error e => .error e
      | .ok list1 =>
        let heapList : SymState :=
          match stateMap (bb, insnIdx) with
          | some heaps => heaps
          | none => []
        let shCnt := heapList.length
        let locNew : LocalState :=
          { insn := (bb, insnIdx)
            heapList := heapList
            cfgInEdges := []
            cfgOutEdges := []
            traceInEdges := List.replicate shCnt []
            traceOutEdges := List.replicate shCnt []
            shapeListByHeapIdx := [] }
        loadHeapsInsns stateMap bb rest (insnIdx + 1)
          { wl := wl1
            locState := some list1.length
            stateList := list1 ++ [locNew]
            insnLookup := insnLookupSet st.insnLookup (bb, insnIdx) locIdx }

/-- The `while` loop of `loadHeaps` over the work list of blocks. -/
def loadHeapsLoop (fnc : Fnc) (stateMap : TStateMap) :
    Nat → LoadState → Except Err LoadState
  | 0, st =>
    match st.wl.next with
    | none => .ok st
    | some _ => .error .FUEL
  | fuel + 1, st =>
    match st.wl.next with
    | none => .ok st
    | some (bb, wl1) =>
      match fnc.blocks.get? bb with
      | none => .error .TRAP
      | some insns =>
        match loadHeapsInsns stateMap bb insns 0 { st with wl := wl1, locState := none } with
        | .error e => .error e
        | .ok st1 => loadHeapsLoop fnc stateMap fuel st1

/-- Builds the list of locations of a function, with the heaps of the fixed point and the
edges between the instructions of a block. -/
def loadHeaps (fuel : Nat) (fnc : Fnc) (stateMap : TStateMap) :
    Except Err (TStateList × TInsnLookup) :=
  let wl : WorkList TBlock := WorkList.empty.schedule fnc.entry
  match loadHeapsLoop fnc stateMap fuel ⟨wl, none, [], []⟩ with
  | .error e => .error e
  | .ok st => .ok (st.stateList, st.insnLookup)

/-- The loop of `finalizeFlow` that skips the trivial basic blocks, which contain a single
`goto` instruction, starting at the instruction `dst`. -/
def skipTrivialBlocks (fnc : Fnc) : Nat → TInsn → Except Err TInsn
  | 0, dst =>
    match fnc.insn dst with
    | none => .error .TRAP
    | some i => if i.targets.length = 1 then .error .FUEL else .ok dst
  | fuel + 1, dst =>
    match fnc.insn dst with
    | none => .error .TRAP
    | some i =>
      match i.targets with
      | [bb] =>
        match fnc.front bb with
        | .error e => .error e
        | .ok dst1 => skipTrivialBlocks fnc fuel dst1
      | _ => .ok dst

/-- The loop of `finalizeFlow` over the targets of the terminal instruction `term`: the new
out-edges of the location. -/
def finalizeTargets (fuel : Nat) (fnc : Fnc) (insnLookup : TInsnLookup) :
    List TBlock → List CfgEdge → Except Err (List CfgEdge)
  | [], edges => .ok edges
  | bb :: rest, edges =>
    match fnc.front bb with
    | .error e => .error e
    | .ok dst0 =>
      match skipTrivialBlocks fnc fuel dst0 with
      | .error e => .error e
      | .ok dst =>
        match insnLookup.lookup dst with
        | none => .error .TRAP
        | some dstIdx => finalizeTargets fuel fnc insnLookup rest (edges ++ [⟨dstIdx, false⟩])

/-- The loop of `finalizeFlow` that tags the loop-closing edges. -/
def tagLoopClosing : List Nat → List CfgEdge → Except Err (List CfgEdge)
  | [], edges => .ok edges
  | tgIdx :: rest, edges =>
    match edges.get? tgIdx with
    | none => .error .TRAP
    | some e => tagLoopClosing rest (edges.set tgIdx { e with closesLoop := true })

/-- The first loop of `finalizeFlow`, over the locations from `locIdx` on (`n` of them are
left): the out-edges of the locations that end a basic block.  A failed assertion
(`CL_BREAK_IF`) is an internal error, a `TRAP`. -/
def finalizeOutEdges (fuel : Nat) (fnc : Fnc) (insnLookup : TInsnLookup) :
    Nat → Nat → TStateList → Except Err TStateList
  | 0, _, stateList => .ok stateList
  | n + 1, locIdx, stateList =>
    match stateList.get? locIdx with
    | none => .error .TRAP
    | some locState =>
      match fnc.insn locState.insn with
      | none => .error .TRAP
      | some insn =>
        if !locState.cfgOutEdges.isEmpty then
          if cl_is_term_insn insn.code then .error .TRAP
          else finalizeOutEdges fuel fnc insnLookup n (locIdx + 1) stateList
        else
          match fnc.back locState.insn.1 with
          | .error e => .error e
          | .ok termId =>
            match fnc.insn termId with
            | none => .error .TRAP
            | some term =>
              if !cl_is_term_insn term.code then .error .TRAP
              else
                match finalizeTargets fuel fnc insnLookup term.targets
                    locState.cfgOutEdges with
                | .error e => .error e
                | .ok edges =>
                  match tagLoopClosing term.loopClosingTargets edges with
                  | .error e => .error e
                  | .ok edges1 =>
                    finalizeOutEdges fuel fnc insnLookup n (locIdx + 1)
                      (stateList.set locIdx { locState with cfgOutEdges := edges1 })

/-- The inner loop of the second loop of `finalizeFlow`: the in-edges that mirror the
out-edges of the location `srcIdx`. -/
def mirrorOutEdges (srcIdx : TLocIdx) : List CfgEdge → TStateList → Except Err TStateList
  | [], stateList => .ok stateList
  | oe :: rest, stateList =>
    let dstIdx := oe.targetLoc
    if dstIdx < 0 then .error .TRAP
    else
      match stateList.get? dstIdx.toNat with
      | none => .error .TRAP
      | some dstState =>
        mirrorOutEdges srcIdx rest
          (stateList.set dstIdx.toNat
            { dstState with cfgInEdges := dstState.cfgInEdges ++ [{ oe with targetLoc := srcIdx }] })

/-- The second loop of `finalizeFlow`, over the locations from `srcIdx` on (`n` of them are
left). -/
def finalizeInEdges : Nat → Nat → TStateList → Except Err TStateList
  | 0, _, stateList => .ok stateList
  | n + 1, srcIdx, stateList =>
    match stateList.get? srcIdx with
    | none => .error .TRAP
    | some srcState =>
      match mirrorOutEdges (srcIdx : Int) srcState.cfgOutEdges stateList with
      | .error e => .error e
      | .ok list1 => finalizeInEdges n (srcIdx + 1) list1

/-- Completes the control-flow edges of the locations: the edges between basic blocks
and the backward edges.  `fuel` is the fuel of each run of the loop that skips the
trivial basic blocks. -/
def finalizeFlow (fuel : Nat) (fnc : Fnc) (stateList : TStateList) (insnLookup : TInsnLookup) :
    Except Err TStateList :=
  let locCnt := stateList.length
  match finalizeOutEdges fuel fnc insnLookup locCnt 0 stateList with
  | .error e => .error e
  | .ok list1 => finalizeInEdges locCnt 0 list1

/-- The function `void f(void) { x = 1; for (;;); }`: the entry block assigns and jumps to
the block `1`, which consists of a single `goto` to itself. -/
def gotoLoopFnc : Fnc :=
  { blocks :=
      [[⟨.CL_INSN_UNOP, [], []⟩, ⟨.CL_INSN_JMP, [1], []⟩],
       [⟨.CL_INSN_JMP, [1], []⟩]]
    entry := 0 }

/-! ## Trace edges and container shapes (`fixed_point.cc`) -/

/-- Index of a heap in the heap list of a location (`THeapIdx`), an `int`. -/
abbrev THeapIdx := Int

/-- Identity of a heap: the location and the index in its heap list (`THeapIdent`). -/
abbrev THeapIdent := TLocIdx × THeapIdx

/-- Index of a container shape in the shape list of a heap (`TShapeIdx`), an `int`. -/
abbrev TShapeIdx := Int

/-- Modelled from the spec: the mapping of object identifiers along a trace edge
(`TObjectMapper`), as far as the assembler queries it: `query<D_LEFT_TO_RIGHT>` and
`query<D_RIGHT_TO_LEFT>` give the identifiers that the mapper relates to the given one. -/
structure TObjectMapper where
  queryLR : Int → List Int
  queryRL : Int → List Int

/-- Modelled from the spec: the mapping of container shapes along a trace edge
(`TShapeMapper`), the pairs (source shape, destination shape) that have been inserted. -/
abbrev TShapeMapper := List (TShapeIdx × TShapeIdx)

/-- Modelled from the spec: `IdMapper::insert`, which relates two identifiers. -/
def shapeMapperInsert (m : TShapeMapper) (left right : TShapeIdx) : TShapeMapper :=
  if (left, right) ∈ m then m else m ++ [(left, right)]

/-- Modelled from the spec: an edge of the trace graph of heaps. -/
structure TraceEdge where
  src : THeapIdent
  dst : THeapIdent
  objMap : TObjectMapper
  csMap : TShapeMapper

/-- Modelled from the spec: the trace graph that the executor has threaded: the parents of
each trace node (`Trace::Node::parents`) and the mapping of object identifiers between two
trace nodes (`Trace::resolveIdMapping`). -/
structure TraceGraph where
  parents : TNode → List TNode
  resolveIdMapping : TNode → TNode → TObjectMapper

/-- Modelled from the spec: the result of the assembler, the list of locations and the list
of trace edges. -/
structure GlobalState where
  stateList_ : TStateList
  traceList_ : List TraceEdge

/-- Access to an item of a vector by an `int` index; an index out of range is a `TRAP`. -/
def getAt {α : Type} (l : List α) (i : Int) : Except Err α :=
  if i < 0 then .error .TRAP
  else
    match l.get? i.toNat with
    | none => .error .TRAP
    | some a => .ok a

/-- The operator `glState[locIdx]`. -/
def GlobalState.loc (glState : GlobalState) (locIdx : TLocIdx) : Except Err LocalState :=
  getAt glState.stateList_ locIdx

/-- The heap behind an identity. -/
def heapByIdent (glState : GlobalState) (shIdent : THeapIdent) : Except Err Later.SymHeap :=
  let locIdx := shIdent.1
  match glState.loc locIdx with
  | .error e => .error e
  | .ok locState =>
    let shIdx := shIdent.2
    getAt locState.heapList shIdx

/-- The order of `std::pair<TLocIdx, THeapIdx>`. -/
def heapIdentLt (a b : THeapIdent) : Bool :=
  decide (a.1 < b.1) || (decide (a.1 = b.1) && decide (a.2 < b.2))

/-- Insertion into a `THeapIdentSet` (`std::set<THeapIdent>`), kept as a strictly increasing
list. -/
def heapIdentSetInsert (x : THeapIdent) : List THeapIdent → List THeapIdent
  | [] => [x]
  | y :: ys =>
    if heapIdentLt x y then x :: y :: ys
    else if heapIdentLt y x then y :: heapIdentSetInsert x ys
    else y :: ys

/-- The map `lookup_` of a `TraceIndex` (`std::map<const Trace::Node *, THeapIdent>`), as
an association list. -/
abbrev TLookup := List (TNode × THeapIdent)

/-- Assignment `lookup_[tr] = shIdent` of `std::map`. -/
def traceLookupSet (lookup : TLookup) (tr : TNode) (shIdent : THeapIdent) : TLookup :=
  if (lookup.lookup tr).isSome then
    lookup.map fun p => if p.1 = tr then (p.1, shIdent) else p
  else lookup ++ [(tr, shIdent)]

/-- The loop of `TraceIndex::indexTraceOf` over the heaps of the location from the index
`shIdx` on.  A failed assertion (`CL_BREAK_IF`) is an internal error, a `TRAP`. -/
def indexTraceHeaps (locIdx : TLocIdx) : List Later.SymHeap → Nat → TLookup → Except Err TLookup
  | [], _, lookup => .ok lookup
  | sh :: rest, shIdx, lookup =>
    let shIdent : THeapIdent := (locIdx, (shIdx : Int))
    let tr := sh.traceNode
    match lookup.lookup tr with
    | some old =>
      if old ≠ shIdent then .error .TRAP
      else indexTraceHeaps locIdx rest (shIdx + 1) (traceLookupSet lookup tr shIdent)
    | none => indexTraceHeaps locIdx rest (shIdx + 1) (traceLookupSet lookup tr shIdent)

/-- Indexes the trace nodes of the heaps of a location (`TraceIndex::indexTraceOf`). -/
def indexTraceOf (glState : GlobalState) (lookup : TLookup) (locIdx : TLocIdx) :
    Except Err TLookup :=
  match glState.loc locIdx with
  | .error e => .error e
  | .ok locState => indexTraceHeaps locIdx locState.heapList 0 lookup

/-- The `while` loop of `TraceIndex::nearestPredecessorOf`; one unit of fuel is one trace
node taken from the work list. -/
def nearestPredecessorLoop (tg : TraceGraph) (glState : GlobalState) (lookup : TLookup) :
    Nat → WorkList TNode → List THeapIdent → Except Err (List THeapIdent)
  | 0, wl, dst =>
    match wl.next with
    | none => .ok dst
    | some _ => .error .FUEL
  | fuel + 1, wl, dst =>
    match wl.next with
    | none => .ok dst
    | some (tr, wl1) =>
      match lookup.lookup tr with
      | none =>
        nearestPredecessorLoop tg glState lookup fuel
          ((tg.parents tr).foldl (fun w trParent => w.schedule trParent) wl1) dst
      | some shPred =>
        match heapByIdent glState shPred with
        | .error e => .error e
        | .ok shp =>
          if shp.traceNode ≠ tr then .error .TRAP
          else nearestPredecessorLoop tg glState lookup fuel wl1 (heapIdentSetInsert shPred dst)

/-- The heaps of the indexed locations whose trace nodes are the nearest indexed
predecessors of the trace node of the given heap, inserted into `dst`
(`TraceIndex::nearestPredecessorOf`). -/
def nearestPredecessorOf (fuel : Nat) (tg : TraceGraph) (glState : GlobalState)
    (lookup : TLookup) (dst : List THeapIdent) (shIdent : THeapIdent) :
    Except Err (List THeapIdent) :=
  match heapByIdent glState shIdent with
  | .error e => .error e
  | .ok sh =>
    nearestPredecessorLoop tg glState lookup fuel (WorkList.empty.schedule sh.traceNode) dst

/-- The statement `vec[idx].push_back(te)` on a vector of lists of trace edges. -/
def pushTraceEdge (edges : List (List Nat)) (idx : THeapIdx) (te : Nat) :
    Except Err (List (List Nat)) :=
  match getAt edges idx with
  | .error e => .error e
  | .ok l => .ok (edges.set idx.toNat (l ++ [te]))

/-- The body of the innermost loop of `createTraceEdges`: the new trace edge from `srcHeap`
to `dstHeap`, with its object mapping (`initIdMapping`). -/
def addTraceEdge (tg : TraceGraph) (glState : GlobalState) (srcHeap dstHeap : THeapIdent) :
    Except Err GlobalState :=
  let te := glState.traceList_.length
  match glState.loc dstHeap.1 with
  | .error e => .error e
  | .ok dstState =>
    match pushTraceEdge dstState.traceInEdges dstHeap.2 te with
    | .error e => .error e
    | .ok inEdges =>
      let list1 := glState.stateList_.set dstHeap.1.toNat { dstState with traceInEdges := inEdges }
      match getAt list1 srcHeap.1 with
      | .error e => .error e
      | .ok srcState =>
        match pushTraceEdge srcState.traceOutEdges srcHeap.2 te with
        | .error e => .error e
        | .ok outEdges =>
          let list2 := list1.set srcHeap.1.toNat { srcState with traceOutEdges := outEdges }
          match heapByIdent glState srcHeap with
          | .error e => .error e
          | .ok shSrc =>
            match heapByIdent glState dstHeap with
            | .error e => .error e
            | .ok shDst =>
              let objMap := tg.resolveIdMapping shSrc.traceNode shDst.traceNode
              .ok ⟨list2, glState.traceList_ ++ [⟨srcHeap, dstHeap, objMap, []⟩]⟩

/-- The innermost loop of `createTraceEdges`, over the heaps of the set `heapSet`. -/
def addTraceEdges (tg : TraceGraph) (dstHeap : THeapIdent) :
    List THeapIdent → GlobalState → Except Err GlobalState
  | [], glState => .ok glState
  | srcHeap :: rest, glState =>
    match addTraceEdge tg glState srcHeap dstHeap with
    | .error e => .error e
    | .ok glState1 => addTraceEdges tg dstHeap rest glState1

/-- The loop of `createTraceEdges` over the heaps of the location `dstLocIdx` from the index
`dstHeapIdx` on (`n` of them are left). -/
def createTraceEdgesHeaps (fuel : Nat) (tg : TraceGraph) (lookup : TLookup)
    (dstLocIdx : TLocIdx) : Nat → Nat → GlobalState → Except Err GlobalState
  | 0, _, glState => .ok glState
  | n + 1, dstHeapIdx, glState =>
    let dstHeap : THeapIdent := (dstLocIdx, (dstHeapIdx : Int))
    match nearestPredecessorOf fuel tg glState lookup [] dstHeap with
    | .error e => .error e
    | .ok heapSet =>
      match addTraceEdges tg dstHeap heapSet glState with
      | .error e => .error e
      | .ok glState1 => createTraceEdgesHeaps fuel tg lookup dstLocIdx n (dstHeapIdx + 1) glState1

/-- The loop of `createTraceEdges` that builds the trace index of a location from the
sources of its incoming control-flow edges. -/
def buildTraceIndex (glState : GlobalState) : List CfgEdge → TLookup → Except Err TLookup
  | [], lookup => .ok lookup
  | ie :: rest, lookup =>
    match indexTraceOf glState lookup ie.targetLoc with
    | .error e => .error e
    | .ok lookup1 => buildTraceIndex glState rest lookup1

/-- The outer loop of `createTraceEdges`, over the locations from `dstLocIdx` on (`n` of
them are left). -/
def createTraceEdgesLocs (fuel : Nat) (tg : TraceGraph) :
    Nat → Nat → GlobalState → Except Err GlobalState
  | 0, _, glState => .ok glState
  | n + 1, dstLocIdx, glState =>
    match glState.loc (dstLocIdx : Int) with
    | .error e => .error e
    | .ok dstState =>
      match buildTraceIndex glState dstState.cfgInEdges [] with
      | .error e => .error e
      | .ok lookup =>
        let heapCnt := dstState.heapList.length
        match createTraceEdgesHeaps fuel tg lookup (dstLocIdx : Int) heapCnt 0 glState with
        | .error e => .error e
        | .ok glState1 => createTraceEdgesLocs fuel tg n (dstLocIdx + 1) glState1

/-- Connects each heap with the heaps of the preceding locations that it has been derived
from.  `fuel` is the fuel of each walk through the trace graph; the new trace edges are
appended to `traceList_`. -/
def createTraceEdges (fuel : Nat) (tg : TraceGraph) (glState : GlobalState) :
    Except Err GlobalState :=
  createTraceEdgesLocs fuel tg glState.stateList_.length 0 glState

/-- Modelled from the spec: `project<dir>(objMap, &dst, src)`, which collects the
identifiers that the mapper relates to the identifiers of `src`. -/
def project (query : Int → List Int) (src : TObjSet) : TObjSet :=
  src.biUnion fun id => (query id).toFinset

/-- Checks whether the object mapper maps `srcObjs` onto `dstObjs` and `dstObjs` onto
`srcObjs`. -/
def checkShapeMapping (srcObjs dstObjs : TObjSet) (objMap : TObjectMapper) : Bool :=
  let srcObjsImg := project objMap.queryLR srcObjs
  if dstObjs ≠ srcObjsImg then false
  else
    let dstObjsImg := project objMap.queryRL dstObjs
    if srcObjs ≠ dstObjsImg then false
    else true

/-- The index of `detectShapeMappingCore` (`std::map<TObjSet, TShapeIdx>`), as an
association list. -/
abbrev TShapeIndex := List (TObjSet × TShapeIdx)

/-- The first loop of `detectShapeMappingCore`, over the source shapes from the index
`srcIdx` on: the index of the images of their object sets. -/
def indexSrcShapes (objMap : TObjectMapper) (shSrc : Later.SymHeap) :
    List Shape → Nat → TShapeIndex → Except Err TShapeIndex
  | [], _, index => .ok index
  | shape :: rest, srcIdx, index =>
    let keySrc := shSrc.objSetByShape shape
    let key := project objMap.queryLR keySrc
    if (index.lookup key).isSome then .error .TRAP
    else indexSrcShapes objMap shSrc rest (srcIdx + 1) (index ++ [(key, (srcIdx : Int))])

/-- The second loop of `detectShapeMappingCore`, over the destination shapes from the index
`dstIdx` on. -/
def mapDstShapes (objMap : TObjectMapper) (shSrc shDst : Later.SymHeap)
    (srcShapes : TShapeList) (index : TShapeIndex) :
    List Shape → Nat → TShapeMapper → Except Err TShapeMapper
  | [], _, csMap => .ok csMap
  | shape :: rest, dstIdx, csMap =>
    let keyDst := shDst.objSetByShape shape
    match index.lookup keyDst with
    | none => mapDstShapes objMap shSrc shDst srcShapes index rest (dstIdx + 1) csMap
    | some srcIdx =>
      match getAt srcShapes srcIdx with
      | .error e => .error e
      | .ok srcShape =>
        let keySrc := shSrc.objSetByShape srcShape
        if !checkShapeMapping keySrc keyDst objMap then
          mapDstShapes objMap shSrc shDst srcShapes index rest (dstIdx + 1) csMap
        else
          mapDstShapes objMap shSrc shDst srcShapes index rest (dstIdx + 1)
            (shapeMapperInsert csMap srcIdx (dstIdx : Int))

/-- Relates the container shapes of the source heap of a trace edge to the container
shapes of its destination heap. -/
def detectShapeMappingCore (te : TraceEdge) (shSrc shDst : Later.SymHeap)
    (srcShapes dstShapes : TShapeList) : Except Err TraceEdge :=
  match indexSrcShapes te.objMap shSrc srcShapes 0 [] with
  | .error e => .error e
  | .ok index =>
    match mapDstShapes te.objMap shSrc shDst srcShapes index dstShapes 0 te.csMap with
    | .error e => .error e
    | .ok csMap => .ok { te with csMap := csMap }

/-- Checks whether the object `objSrc` of the predecessor heap makes a container shape of
one object; the shape `pShape` is returned with its new value. -/
def detectSinglePrevShape (pShape : Shape) (shDst shSrc : Later.SymHeap) (objDst objSrc : Int) :
    Except Err (Bool × Shape) :=
  if 1 ≠ pShape.length then .error .TRAP
  else
    let bOff := pShape.props.bOff
    let valNextSrc := shSrc.valOfPtr objSrc bOff.next
    let valPrevSrc := shSrc.valOfPtr objSrc bOff.prev
    if VAL_NULL ≠ valNextSrc ∨ VAL_NULL ≠ valPrevSrc then .ok (false, pShape)
    else
      let sizeDst := shDst.objSize objDst
      let sizeSrc := shSrc.objSize objSrc
      if sizeDst ≠ sizeSrc then .ok (false, pShape)
      else
        let cltDst := shDst.objEstimatedType objDst
        let cltSrc := shSrc.objEstimatedType objSrc
        let mismatch : Bool :=
          match cltDst, cltSrc with
          | some tDst, some tSrc => decide (tDst ≠ tSrc)
          | _, _ => false
        if mismatch then .ok (false, pShape)
        else .ok (true, { pShape with entry := objSrc })

/-- The `for (;;)` loop of `detectPrevShapes`; one unit of fuel is one iteration.  The state
of the loop is the global state, the traced object `obj`, the heap `src` and the flag
`foundAny`. -/
def detectPrevShapesLoop (dstShape : Shape) (shDst : Later.SymHeap) (entry : Int) :
    Nat → GlobalState → Int → THeapIdent → Bool → Except Err (Bool × GlobalState)
  | 0, _, _, _, _ => .error .FUEL
  | fuel + 1, glState, obj, src, foundAny =>
    match glState.loc src.1 with
    | .error e => .error e
    | .ok srcState =>
      match getAt srcState.traceInEdges src.2 with
      | .error e => .error e
      | .ok inEdges =>
        match inEdges with
        | [teIdx] =>
          match glState.traceList_.get? teIdx with
          | none => .error .TRAP
          | some te =>
            match te.objMap.queryRL obj with
            | [obj1] =>
              match heapByIdent glState te.src with
              | .error e => .error e
              | .ok shSrc =>
                if !shSrc.isValid obj1 then .ok (foundAny, glState)
                else
                  let src1 := te.src
                  match glState.loc src1.1 with
                  | .error e => .error e
                  | .ok srcStatePrev =>
                    match detectSinglePrevShape dstShape shDst shSrc entry obj1 with
                    | .error e => .error e
                    | .ok (false, _) =>
                      detectPrevShapesLoop dstShape shDst entry fuel glState obj1 src1 foundAny
                    | .ok (true, shape) =>
                      match getAt srcStatePrev.shapeListByHeapIdx src1.2 with
                      | .error e => .error e
                      | .ok shapeList =>
                        if shape ∈ shapeList then
                          detectPrevShapesLoop dstShape shDst entry fuel glState obj1 src1
                            foundAny
                        else
                          let locState1 : LocalState :=
                            { srcStatePrev with
                              shapeListByHeapIdx :=
                                srcStatePrev.shapeListByHeapIdx.set src1.2.toNat
                                  (shapeList ++ [shape]) }
                          detectPrevShapesLoop dstShape shDst entry fuel
                            { glState with
                              stateList_ := glState.stateList_.set src1.1.toNat locState1 }
                            obj1 src1 true
            | _ => .ok (foundAny, glState)
        | _ => .ok (foundAny, glState)

/-- Implies container shapes of one object in the predecessors of the heap
`(dstLocIdx, dstShIdx)` from its container shape `dstCsIdx`; `true` if any has been
found.  `fuel` bounds the number of iterations of the loop. -/
def detectPrevShapes (fuel : Nat) (glState : GlobalState) (dstLocIdx : TLocIdx)
    (dstShIdx : THeapIdx) (dstCsIdx : TShapeIdx) : Except Err (Bool × GlobalState) :=
  match glState.loc dstLocIdx with
  | .error e => .error e
  | .ok dstState =>
    match getAt dstState.shapeListByHeapIdx dstShIdx with
    | .error e => .error e
    | .ok shapes =>
      match getAt shapes dstCsIdx with
      | .error e => .error e
      | .ok dstShape =>
        if 1 ≠ dstShape.length then .ok (false, glState)
        else
          match getAt dstState.heapList dstShIdx with
          | .error e => .error e
          | .ok shDst =>
            let entry := dstShape.entry
            let obj := entry
            let bOff := dstShape.props.bOff
            let valNextDst := shDst.valOfPtr obj bOff.next
            let valPrevDst := shDst.valOfPtr obj bOff.prev
            if VAL_NULL ≠ valNextDst ∨ VAL_NULL ≠ valPrevDst then .ok (false, glState)
            else
              detectPrevShapesLoop dstShape shDst entry fuel glState obj (dstLocIdx, dstShIdx)
                false

/-! ## Heap plotter (`symplot.cc`) -/

/-- A statement written to the output stream of the plotter, as far as the translated
code writes it. -/
inductive Plot.Item where
  /-- the opening of a cluster: `subgraph "cluster<id>"` with `rank=same`, the label, the
  colour (also the font colour), `bgcolor=gray98`, `style=dashed` and the pen width -/
  | cluster (id : Int) (label : String) (color : String) (penwidth : String)
  /-- the node of a root value: `shape=ellipse` with the pen width, the colour (also the
  font colour) and the label -/
  | rootValue (val : Int) (penwidth : Nat) (color : String) (label : String)
  /-- the closing brace of a cluster -/
  | close
  /-- a statement written by a part of the plotter that is not translated -/
  | other (text : String)
  deriving DecidableEq, Repr

/-- A list of fields (`FldList`); a field is identified by a number. -/
abbrev FldList := List Int

/-- The data of the plotter (`PlotData`), as far as the translated code accesses them: the
heap, the output stream and the counter of the generated identifiers. -/
structure PlotData where
  sh : Later.SymHeap
  out : List Plot.Item
  last : Int

/-- Modelled from the spec: the functions that the translated code of the plotter calls and
that are not translated themselves.  A callee that writes to the stream gives the
statements that it appends and the new value of the counter `last`. -/
structure Plot.Callees where
  /-- the description of a program variable -/
  describeVar : Later.SymHeap → Int → String
  /-- the text of a range of sizes with a suffix -/
  printRawRange : TSizeRange → String → String
  /-- the uniform blocks of the object at the address `root` -/
  plotUniformBlocks : Later.SymHeap → Int → Int → List Plot.Item × Int
  /-- the fields inside of the object at the address `at` -/
  plotFields : Later.SymHeap → Int → Int → FldList → List Plot.Item × Int
  /-- the other end of a DLS -/
  dlSegPeer : Later.SymHeap → Int → Int
  /-- the live fields of an object -/
  gatherLiveFields : Later.SymHeap → Int → FldList

/-- Modelled from the spec: whether the storage class is the class of a program variable. -/
def isProgramVar (code : EStorageClass) : Bool :=
  match code with
  | .SC_STATIC => true
  | .SC_ON_STACK => true
  | _ => false

/-- The prefix of a non-negative offset. -/
def offPrefix (off : Int) : String :=
  if off < 0 then "" else "+"

/-- The macro `SIGNED_OFF`. -/
def signedOff (off : Int) : String :=
  offPrefix off ++ toString off

/-- The label of the cluster of an object. -/
def labelOfCompObj (sh : Later.SymHeap) (obj : Int) (showProps : Bool) : String :=
  let protoLevel := sh.objProtoLevel obj
  let label0 : String :=
    if protoLevel ≠ 0 then "[L" ++ toString protoLevel ++ " prototype] " else ""
  let kind := sh.objKind obj
  match kind with
  | .OK_REGION => label0
  | _ =>
    let label1 : String :=
      match kind with
      | .OK_OBJ_OR_NULL => label0 ++ "0..1"
      | .OK_SEE_THROUGH => label0 ++ "0..1"
      | .OK_SEE_THROUGH_2N => label0 ++ "0..1"
      | .OK_SLS => label0 ++ "SLS"
      | .OK_DLS => label0 ++ "DLS"
      | .OK_REGION => label0
    let label2 : String :=
      match kind with
      | .OK_SLS => label1 ++ " " ++ toString (sh.segMinLength obj) ++ "+"
      | .OK_DLS => label1 ++ " " ++ toString (sh.segMinLength obj) ++ "+"
      | _ => label1
    if showProps ∧ Later.EObjKind.OK_OBJ_OR_NULL ≠ kind then
      let bf := sh.segBinding obj
      let label3 : String :=
        match kind with
        | .OK_SLS => label2 ++ ", head [" ++ signedOff bf.head ++ "]"
        | .OK_DLS => label2 ++ ", head [" ++ signedOff bf.head ++ "]"
        | _ => label2
      let label4 : String :=
        match kind with
        | .OK_SEE_THROUGH => label3 ++ ", next [" ++ signedOff bf.next ++ "]"
        | .OK_SLS => label3 ++ ", next [" ++ signedOff bf.next ++ "]"
        | .OK_DLS => label3 ++ ", next [" ++ signedOff bf.next ++ "]"
        | _ => label3
      if Later.EObjKind.OK_DLS = kind then label4 ++ ", prev [" ++ signedOff bf.prev ++ "]"
      else label4
    else label2

/-- Plots the node of the root value `val` in the given colour; the node of an object that
is not valid is red.  A failed assertion (`CL_BREAK_IF`) is an internal error, a `TRAP`. -/
def plotRootValue (env : Plot.Callees) (plot : PlotData) (val : Int) (color : String) :
    Except Err PlotData :=
  let sh := plot.sh
  if sh.valOffset val ≠ 0 then .error .TRAP
  else
    let obj := sh.objByAddr val
    let size := sh.objSize obj
    let refCnt := sh.usedByCount val
    let isValid := sh.isValid (sh.objByAddr val)
    let color1 : String := if !isValid then "red" else color
    let pw := 1 + refCnt
    let code := sh.objStorClass obj
    let label0 : String :=
      if isProgramVar code then env.describeVar sh obj else "#" ++ toString val
    let label1 : String := if !sh.isValid obj then label0 ++ " [INVALID]" else label0
    let label2 : String :=
      if OBJ_INVALID ≠ obj then label1 ++ " [obj=#" ++ toString obj ++ "]" else label1
    let label3 : String := label2 ++ " [size = " ++ env.printRawRange size " B" ++ "]"
    .ok { plot with out := plot.out ++ [Plot.Item.rootValue val pw color1 label3] }

/-- Plots the cluster of an object: the opening with the colour and the pen width of the
object, the root value, the uniform blocks and the fields, for a DLS also the root value
and the fields of the other end, and the closing. -/
def plotCompositeObj (env : Plot.Callees) (plot : PlotData) (obj : Int) (liveFields : FldList) :
    Except Err PlotData :=
  let sh := plot.sh
  let code := sh.objStorClass obj
  let colorE : Except Err String :=
    match code with
    | .SC_STATIC => .ok "blue"
    | .SC_ON_STACK => .ok "blue"
    | .SC_ON_HEAP => .ok "black"
    | _ => .error .TRAP
  match colorE with
  | .error e => .error e
  | .ok color0 =>
    let kind := sh.objKind obj
    let style : String × String :=
      match kind with
      | .OK_REGION => (color0, "1.0")
      | .OK_OBJ_OR_NULL => ("green", "3.0")
      | .OK_SEE_THROUGH => ("green", "3.0")
      | .OK_SEE_THROUGH_2N => ("green", "3.0")
      | .OK_SLS => ("red", "3.0")
      | .OK_DLS => ("gold", "3.0")
    let color := style.1
    let pw := style.2
    let label := labelOfCompObj sh obj true
    let last1 := plot.last + 1
    let plot1 : PlotData :=
      { plot with out := plot.out ++ [Plot.Item.cluster last1 label color pw], last := last1 }
    let at1 := sh.legacyAddrOfAny_XXX obj
    match plotRootValue env plot1 at1 color with
    | .error e => .error e
    | .ok plot2 =>
      let ub := env.plotUniformBlocks sh plot2.last at1
      let plot3 : PlotData := { plot2 with out := plot2.out ++ ub.1, last := ub.2 }
      let fl := env.plotFields sh plot3.last at1 liveFields
      let plot4 : PlotData := { plot3 with out := plot3.out ++ fl.1, last := fl.2 }
      let peer := env.dlSegPeer sh obj
      let plot5E : Except Err PlotData :=
        if Later.EObjKind.OK_DLS = sh.objKind obj ∧ Later.EObjKind.OK_DLS = sh.objKind peer then
          let peerAt := sh.addrOfTarget peer
          match plotRootValue env plot4 peerAt color with
          | .error e => .error e
          | .ok plot5 =>
            let peerFields := env.gatherLiveFields sh peer
            let pf := env.plotFields sh plot5.last peerAt peerFields
            .ok { plot5 with out := plot5.out ++ pf.1, last := pf.2 }
        else .ok plot4
      match plot5E with
      | .error e => .error e
      | .ok plot6 => .ok { plot6 with out := plot6.out ++ [Plot.Item.close] }

/-! ## Notions used by the theorems -/

/-- Whether every pair of a list relates a value to itself. -/
def DiagPairs (l : List (Int × Int)) : Prop := ∀ p ∈ l, p.1 = p.2

/-- Whether a substitution maps every value of its domain to itself. -/
def SubstId (subst : TSubst) : Prop := ∀ k w, subst.lookup k = some w → w = k
/-- Whether every object of the heap stores a value of the finite set `vals`. -/
def SymHeap.ValuesIn (sh : SymHeap) (vals : Finset Int) : Prop :=
  ∀ o, sh.valueOf o ∈ vals

/-- Whether `size` bounds the trees of sub-objects of the heap: the size of a structure
exceeds the sizes of its items, each counted with one more. -/
def SymHeap.SubObjsBounded (sh : SymHeap) (size : Int → Nat) : Prop :=
  ∀ o t, sh.objType o = some t → t.code = cl_type_e.CL_TYPE_STRUCT →
    ((List.range t.item_cnt.toNat).map fun (j : Nat) => size (sh.subObj o (j : Int)) + 1).sum
      ≤ size o

/-- Number of iterations that the DFS loop can still make: the pairs not yet scheduled
and the pairs waiting on the stack. -/
def wlMeasure (P : Finset TValuePair) (wl : WorkList TValuePair) : Nat :=
  (P \ wl.seen.toFinset).card + wl.todo.length

/-- Number of iterations that the loop of `digComposite` can still make. -/
def todoWeight (size : Int → Nat) (todo : List (Int × Int)) : Nat :=
  (todo.map fun p => size p.1 + 1).sum

/-- The unions that the empty union evolves to under `insert(heap)` and `insert(union)`,
each call being run with the given fuel. -/
inductive UnionReachable (fuel : Nat) : SymHeapUnion → Prop where
  | empty : UnionReachable fuel []
  | insert (U U2 : SymHeapUnion) (heap : SymHeap) :
      UnionReachable fuel U → SymHeapUnion.insert fuel U heap = .ok U2 → UnionReachable fuel U2
  | insertUnion (U U2 : SymHeapUnion) (huni : SymHeapUnion) :
      UnionReachable fuel U → SymHeapUnion.insertUnion fuel U huni = .ok U2 →
      UnionReachable fuel U2

/-- Number of iterations that the loop of `traverseSubObjs` over objects can still make. -/
def objsWeight (size : Int → Nat) (todo : List Int) : Nat :=
  (todo.map fun o => size o + 1).sum

/-! ## Notions used by the theorems on discovery and abstraction steps -/

/-- The invariant of the loop of `discoverSeg`: the path holds no object twice, and the
counter `d` counts the DLS of the list `dls`, each of which was entered at an end of kind
`OK_DLS` and left at its peer, both of them on the path. -/
def PathInv (sh : SymHeap) (path : List Int) (d : Int) (dls : List Int) : Prop :=
  path.Nodup ∧ dls.Nodup ∧ (dls.length : Int) = d ∧ 2 * dls.length ≤ path.length ∧
    ∀ o ∈ dls, sh.objKind o = EObjKind.OK_DLS ∧ o ∈ path ∧
      ∃ p, skipObj sh o (sh.objPeerField o) = .ok p ∧ p ∈ path ∧ p ≠ o

/-- The selectors that `discoverAllSegments` tries for an entry object whose candidate
selectors are `selectors`: each selector for an SLS (the peer selector is then empty), each
ordered pair of selectors at two distinct positions for a DLS. -/
def IsCandidate (kind : EObjKind) (selectors : List TFieldIdxChain)
    (icNext icPrev : TFieldIdxChain) : Prop :=
  match kind with
  | .OK_CONCRETE => False
  | .OK_SLS => icNext ∈ selectors ∧ icPrev = []
  | .OK_DLS => ∃ i j, i < selectors.length ∧ j < selectors.length ∧ i ≠ j ∧
      icNext = selectors.getD i [] ∧ icPrev = selectors.getD j []

/-- The segment of kind `kind` that starts at `obj` and is bound by the candidate selectors
`icNext`, `icPrev` of `obj` has the length `len`. -/
def CandidateLen (fuel : Nat) (sh : SymHeap) (kind : EObjKind) (obj : Int)
    (icNext icPrev : TFieldIdxChain) (len : Nat) : Prop :=
  ∃ selectors, digAnyListSelectors fuel [] sh obj kind = .ok selectors ∧
    IsCandidate kind selectors icNext icPrev ∧
    discoverSeg fuel fuel sh obj kind icNext icPrev = .ok len

/-- The strict lexicographic order of index chains. -/
def lexLt : TFieldIdxChain → TFieldIdxChain → Bool
  | [], [] => false
  | [], _ :: _ => true
  | _ :: _, [] => false
  | a :: as, b :: bs => if a < b then true else if b < a then false else lexLt as bs

/-- The pairs of corresponding sub-objects of a pair of objects, as `traverseSubObjs` visits
them for the pair `p`: the pairs of the items of `p` with the same index and, if the first
object of such a pair is a structure, the pairs of their items, and so on.  The type of
the first object of a pair decides which items there are. -/
inductive SubPairFrom (sh : SymHeap) (p : Int × Int) : Int × Int → Prop where
  | child (t : cl_type) (i : Nat) :
      sh.objType p.1 = some t → t.code = cl_type_e.CL_TYPE_STRUCT → i < t.item_cnt.toNat →
      SubPairFrom sh p (sh.subObj p.1 (i : Int), sh.subObj p.2 (i : Int))
  | step (q : Int × Int) (t : cl_type) (i : Nat) :
      SubPairFrom sh p q → sh.objType q.1 = some t → t.code = cl_type_e.CL_TYPE_STRUCT →
      i < t.item_cnt.toNat →
      SubPairFrom sh p (sh.subObj q.1 (i : Int), sh.subObj q.2 (i : Int))

/-- The object `d` stores a value that has been created after the heap `sh0`: an unknown
value whose identifier follows the identifiers of `sh0`. -/
def FreshAt (sh0 sh : SymHeap) (d : Int) : Prop :=
  sh0.lastValId < sh.valueOf d ∧ sh.valueOf d ≤ sh.lastValId ∧
    sh.valGetUnknown (sh.valueOf d) = EUnknownValue.UV_UNKNOWN

/-- The heap `sh2` differs from the heap `sh` at most in the values that the objects store,
in the numbers of their users and in values created after `sh`. -/
structure HeapFrame (sh sh2 : SymHeap) : Prop where
  objType : ∀ o, sh2.objType o = sh.objType o
  subObj : ∀ o i, sh2.subObj o i = sh.subObj o i
  objParent : ∀ o, sh2.objParent o = sh.objParent o
  placedAt : ∀ o, sh2.placedAt o = sh.placedAt o
  pointsTo : ∀ v, sh2.pointsTo v = sh.pointsTo v
  cVar : ∀ o, sh2.cVar o = sh.cVar o
  objKind : ∀ o, sh2.objKind o = sh.objKind o
  objBinderField : ∀ o, sh2.objBinderField o = sh.objBinderField o
  objPeerField : ∀ o, sh2.objPeerField o = sh.objPeerField o
  neqDb : sh2.neqDb = sh.neqDb
  roots : sh2.gatherRootObjs = sh.gatherRootObjs
  lastObjId : sh2.lastObjId = sh.lastObjId
  lastValId : sh.lastValId ≤ sh2.lastValId
  unknown : ∀ v, v ≤ sh.lastValId → sh2.valGetUnknown v = sh.valGetUnknown v
  valType : ∀ v, v ≤ sh.lastValId → sh2.valType v = sh.valType v

/-- Every object of the heap `cur` stores the value that it stores in `sh0`, unless it is
the second object of a pair of corresponding sub-objects of `root` that stored different
values in `sh0`; it then stores a value created after `sh0`. -/
def ModifiedFresh (sh0 : SymHeap) (root : Int × Int) (cur : SymHeap) : Prop :=
  ∀ o, cur.valueOf o = sh0.valueOf o ∨
    ∃ s, SubPairFrom sh0 root (s, o) ∧ sh0.valueOf s ≠ sh0.valueOf o ∧ FreshAt sh0 cur o

/-- The pair `q` of corresponding sub-objects has been dealt with: its second object still
stores its value of `sh0` if the two objects stored the same value in `sh0`, and a value
created after `sh0` otherwise. -/
def PairAbstracted (sh0 cur : SymHeap) (q : Int × Int) : Prop :=
  (sh0.valueOf q.1 = sh0.valueOf q.2 ∧ cur.valueOf q.2 = sh0.valueOf q.2) ∨
    (sh0.valueOf q.1 ≠ sh0.valueOf q.2 ∧ FreshAt sh0 cur q.2)

/-- The substitution of values that `spliceOutSegmentIfNeeded` applies to the copy of the
heap when it splices out the segment with the ends `ao` and `peer`: for a DLS (two
different ends) the address of `peer` is replaced by the value of the binder field of
`ao` first; then the address of `ao` is replaced by the value of the binder field of
`peer`. -/
def spliceSubst (sh : SymHeap) (ao peer : Int) (v : Int) : Int :=
  let v1 :=
    if ao ≠ peer ∧ v = sh.placedAt peer then
      sh.valueOf (subObjByChain sh ao (sh.objBinderField ao))
    else v
  if v1 = sh.placedAt ao then sh.valueOf (subObjByChain sh peer (sh.objBinderField peer))
  else v1

/-- The heap `h` is the heap `sh` with the segment with the ends `ao` and `peer` spliced
out, `objs` being the destroyed objects. -/
structure EmptyVariant (sh : SymHeap) (ao peer : Int) (objs : List Int) (h : SymHeap) :
    Prop where
  /-- The destroyed objects have no address, the other ones keep theirs. -/
  placedAt : ∀ o, h.placedAt o = if o ∈ objs then VAL_INVALID else sh.placedAt o
  /-- The destroyed objects have no value, the other ones store the value that they stored,
  with the addresses of the segment substituted. -/
  valueOf : ∀ o, h.valueOf o =
    if o ∈ objs then VAL_INVALID else spliceSubst sh ao peer (sh.valueOf o)
  /-- A value that is no address of a destroyed object points to what it pointed to. -/
  pointsTo : ∀ v, (¬ ∃ o ∈ objs, 0 < sh.placedAt o ∧ v = sh.placedAt o) →
    h.pointsTo v = sh.pointsTo v
  /-- The roots are the roots of `sh` but the ends of the segment. -/
  roots : ∀ o, o ∈ h.gatherRootObjs ↔ o ∈ sh.gatherRootObjs ∧ o ≠ ao ∧ o ≠ peer
  /-- The Neq predicates are those of `sh`, with the addresses of the segment
  substituted. -/
  neqDb : ∀ p, p ∈ h.neqDb ↔ ∃ q ∈ sh.neqDb,
    p = sortValues (spliceSubst sh ao peer q.1) (spliceSubst sh ao peer q.2)
  /-- The kinds of the objects are not touched. -/
  objKind : ∀ o, h.objKind o = sh.objKind o
  /-- The binder fields are not touched. -/
  objBinderField : ∀ o, h.objBinderField o = sh.objBinderField o
  /-- The peer fields are not touched. -/
  objPeerField : ∀ o, h.objPeerField o = sh.objPeerField o
  /-- The types of the objects are not touched. -/
  objType : ∀ o, h.objType o = sh.objType o
  /-- The trees of sub-objects are not touched. -/
  subObj : ∀ o i, h.subObj o i = sh.subObj o i

/-- The renaming of objects that `objDup` applies to the duplicated tree `objs`: the
object at the position `k` of the list gets the identifier `lastObjId + 1 + k`; the other
objects keep their identifiers. -/
def dupRen (sh : SymHeap) (objs : List Int) (o : Int) : Int :=
  if o ∈ objs then sh.lastObjId + 1 + (objs.indexOf o : Int) else o

/-- The selector `ic` leads from the object `o` through items of structures only: every
step takes a valid item of an object of a structure type. -/
def ValidChain (sh : SymHeap) : Int → TFieldIdxChain → Prop
  | _, [] => True
  | o, i :: rest =>
    (∃ t, sh.objType o = some t ∧ t.code = cl_type_e.CL_TYPE_STRUCT ∧ 0 ≤ i ∧
      i.toNat < t.item_cnt.toNat) ∧
    sh.subObj o i ≠ OBJ_INVALID ∧ ValidChain sh (sh.subObj o i) rest

/-- The heap `sh2` is the heap `sh` with the objects `objs` duplicated: the objects of `sh`
are untouched, and the duplicate of an object of `objs` has the value, the type, the kind
and the binding of the original, a new address and the duplicates of the items of the
original as items. -/
structure DupOf (sh : SymHeap) (objs : List Int) (sh2 : SymHeap) : Prop where
  /-- The objects of `sh` keep their values. -/
  valueOf_old : ∀ o, o ≤ sh.lastObjId → sh2.valueOf o = sh.valueOf o
  /-- The objects of `sh` keep their addresses. -/
  placedAt_old : ∀ o, o ≤ sh.lastObjId → sh2.placedAt o = sh.placedAt o
  /-- The objects of `sh` keep their items. -/
  subObj_old : ∀ o i, o ≤ sh.lastObjId → sh2.subObj o i = sh.subObj o i
  /-- The objects of `sh` keep their types. -/
  objType_old : ∀ o, o ≤ sh.lastObjId → sh2.objType o = sh.objType o
  /-- The objects of `sh` keep their kinds. -/
  objKind_old : ∀ o, o ≤ sh.lastObjId → sh2.objKind o = sh.objKind o
  /-- The objects of `sh` keep their binder fields. -/
  objBinderField_old : ∀ o, o ≤ sh.lastObjId → sh2.objBinderField o = sh.objBinderField o
  /-- The objects of `sh` keep their peer fields. -/
  objPeerField_old : ∀ o, o ≤ sh.lastObjId → sh2.objPeerField o = sh.objPeerField o
  /-- A duplicate stores the value of the original. -/
  valueOf_new : ∀ o ∈ objs, sh2.valueOf (dupRen sh objs o) = sh.valueOf o
  /-- A duplicate has a new address. -/
  placedAt_new : ∀ o ∈ objs,
    sh2.placedAt (dupRen sh objs o) = sh.lastValId + 1 + (objs.indexOf o : Int)
  /-- The new address points to the duplicate. -/
  pointsTo_new : ∀ o ∈ objs,
    sh2.pointsTo (sh.lastValId + 1 + (objs.indexOf o : Int)) = dupRen sh objs o
  /-- The items of a duplicate are the duplicates of the items. -/
  subObj_new : ∀ o ∈ objs, ∀ i,
    sh2.subObj (dupRen sh objs o) i = dupRen sh objs (sh.subObj o i)
  /-- A duplicate has the type of the original. -/
  objType_new : ∀ o ∈ objs, sh2.objType (dupRen sh objs o) = sh.objType o
  /-- A duplicate has the kind of the original. -/
  objKind_new : ∀ o ∈ objs, sh2.objKind (dupRen sh objs o) = sh.objKind o
  /-- A duplicate has the binder field of the original. -/
  objBinderField_new : ∀ o ∈ objs,
    sh2.objBinderField (dupRen sh objs o) = sh.objBinderField o
  /-- A duplicate has the peer field of the original. -/
  objPeerField_new : ∀ o ∈ objs, sh2.objPeerField (dupRen sh objs o) = sh.objPeerField o
  /-- The values of `sh` point to what they pointed to. -/
  pointsTo_old : ∀ v, v ≤ sh.lastValId → sh2.pointsTo v = sh.pointsTo v
  /-- The roots are the roots of `sh` and the duplicate of the first object. -/
  roots : sh2.gatherRootObjs = sh.gatherRootObjs ++ [sh.lastObjId + 1]
  /-- The object identifiers handed out. -/
  lastObjId : sh2.lastObjId = sh.lastObjId + objs.length
  /-- The value identifiers handed out. -/
  lastValId : sh2.lastValId = sh.lastValId + objs.length

/-- The selector of the pointer that `concretizeObj` redirects to the duplicate: the binder
field of an SLS, the peer field of a DLS. -/
def unrollField (sh : SymHeap) (obj : Int) : TFieldIdxChain :=
  if EObjKind.OK_SLS = sh.objKind obj then sh.objBinderField obj else sh.objPeerField obj

/-- What a step of the abstraction may do to the heap, as far as the termination of the
abstraction is concerned: the types and the trees of sub-objects are untouched, an
address can only become invalid, an object can only cease to be concrete, a value can
only start to point to `OBJ_DELETED`, and no root is added. -/
structure AbsStep (sh sh2 : SymHeap) : Prop where
  /-- The types are untouched. -/
  objType : ∀ o, sh2.objType o = sh.objType o
  /-- The trees of sub-objects are untouched. -/
  subObj : ∀ o i, sh2.subObj o i = sh.subObj o i
  /-- An address is kept or becomes invalid. -/
  placedAt : ∀ o, sh2.placedAt o = sh.placedAt o ∨ sh2.placedAt o = VAL_INVALID
  /-- No object becomes concrete. -/
  objKind : ∀ o, sh2.objKind o = EObjKind.OK_CONCRETE → sh.objKind o = EObjKind.OK_CONCRETE
  /-- A value points to what it pointed to, or to `OBJ_DELETED`. -/
  pointsTo : ∀ v, sh2.pointsTo v = sh.pointsTo v ∨ sh2.pointsTo v = OBJ_DELETED
  /-- No root is added. -/
  roots : ∀ o ∈ sh2.gatherRootObjs, o ∈ sh.gatherRootObjs
  /-- No object becomes an object of a program variable. -/
  cVar : ∀ o, sh2.cVar o = sh.cVar o

/-- The weight of an object in the measure of the abstraction: two for a valid address,
one for being concrete. -/
def absWeight (sh : SymHeap) (o : Int) : Nat :=
  (if 0 < sh.placedAt o then 2 else 0) + (if sh.objKind o = EObjKind.OK_CONCRETE then 1 else 0)

/-- The measure of the abstraction over the finite set `U` of objects: every round that
abstracts something decreases it. -/
def absMeasure (U : Finset Int) (sh : SymHeap) : Nat :=
  U.sum fun o => absWeight sh o

/-- The invariant of the abstraction with respect to the finite set `U` of objects and the
bound `size` of the trees of sub-objects: every value points into `U` (which holds the
sentinels that `pointsTo` returns) and every root is in `U`. -/
structure AbsInv (U : Finset Int) (size : Int → Nat) (sh : SymHeap) : Prop where
  /-- The trees of sub-objects are bounded. -/
  subObjs : sh.SubObjsBounded size
  /-- Every value points into `U`. -/
  pointsTo : ∀ v, sh.pointsTo v ∈ U
  /-- Every root is in `U`. -/
  roots : ∀ o ∈ sh.gatherRootObjs, o ∈ U

/-- Whether a computation returns a result that passes the check `p`. -/
def okAnd {α : Type} (r : Except Err α) (p : α → Bool) : Bool :=
  match r with
  | .ok a => p a
  | .error _ => false

/-! ## The walk of `discoverSeg`, described on the heap -/

/-- The objects that a walk visits, in the order of the visit: each leg of the walk is an
object that the walk stepped on, together with the peer that the walk jumped to if the
object was the end of a DLS that the walk traversed. -/
def walkObjs : List (Int × Option Int) → List Int
  | [] => []
  | (o, none) :: rest => o :: walkObjs rest
  | (o, some p) :: rest => o :: p :: walkObjs rest

/-- The DLS that a walk traversed: the pairs of the end at which the DLS was entered and the
peer at which it was left. -/
def walkDls : List (Int × Option Int) → List (Int × Int)
  | [] => []
  | (_, none) :: rest => walkDls rest
  | (o, some p) :: rest => (o, p) :: walkDls rest

/-- The walk of `discoverSeg` from the object `obj` on, when the objects `seen` have been
visited already, as a list of legs.  The walk ends at an object that has been visited.
At an object that is no DLS the walk steps on the object and follows its `next` pointer, if
`discoverSegNext` gives a next object.  At the end of a DLS (only a DLS walk gets there)
the walk steps on it and on its peer, which makes the DLS a traversed one, and follows the
`next` pointer of the peer; unless the selectors of the DLS fit neither selector of the
walk or the peer has been visited already: then the walk steps on the end alone and
stops. -/
inductive DiscoverWalk (fuel : Nat) (sh : SymHeap) (kind : EObjKind)
    (icBind icPeer : TFieldIdxChain) : List Int → Int → List (Int × Option Int) → Prop
  | revisit (seen : List Int) (obj : Int) (h : obj ∈ seen) :
      DiscoverWalk fuel sh kind icBind icPeer seen obj []
  | refused (seen : List Int) (obj : Int) (h : obj ∉ seen)
      (hk : sh.objKind obj = EObjKind.OK_DLS) (hkind : kind = EObjKind.OK_DLS)
      (hstop : (sh.objPeerField obj ≠ icBind ∧ sh.objPeerField obj ≠ icPeer) ∨
        ∃ peer, skipObj sh obj (sh.objPeerField obj) = .ok peer ∧ peer ∈ obj :: seen) :
      DiscoverWalk fuel sh kind icBind icPeer seen obj [(obj, none)]
  | lastPlain (seen : List Int) (obj : Int) (h : obj ∉ seen)
      (hk : sh.objKind obj ≠ EObjKind.OK_DLS)
      (hnext : discoverSegNext fuel sh kind icBind icPeer obj = .ok none) :
      DiscoverWalk fuel sh kind icBind icPeer seen obj [(obj, none)]
  | stepPlain (seen : List Int) (obj next : Int) (legs : List (Int × Option Int))
      (h : obj ∉ seen) (hk : sh.objKind obj ≠ EObjKind.OK_DLS)
      (hnext : discoverSegNext fuel sh kind icBind icPeer obj = .ok (some next))
      (hrest : DiscoverWalk fuel sh kind icBind icPeer (obj :: seen) next legs) :
      DiscoverWalk fuel sh kind icBind icPeer seen obj ((obj, none) :: legs)
  | lastDls (seen : List Int) (obj peer : Int) (h : obj ∉ seen)
      (hk : sh.objKind obj = EObjKind.OK_DLS) (hkind : kind = EObjKind.OK_DLS)
      (hsel : ¬ (sh.objPeerField obj ≠ icBind ∧ sh.objPeerField obj ≠ icPeer))
      (hpeer : skipObj sh obj (sh.objPeerField obj) = .ok peer)
      (hfresh : peer ∉ obj :: seen)
      (hnext : discoverSegNext fuel sh kind icBind icPeer peer = .ok none) :
      DiscoverWalk fuel sh kind icBind icPeer seen obj [(obj, some peer)]
  | stepDls (seen : List Int) (obj peer next : Int) (legs : List (Int × Option Int))
      (h : obj ∉ seen)
      (hk : sh.objKind obj = EObjKind.OK_DLS) (hkind : kind = EObjKind.OK_DLS)
      (hsel : ¬ (sh.objPeerField obj ≠ icBind ∧ sh.objPeerField obj ≠ icPeer))
      (hpeer : skipObj sh obj (sh.objPeerField obj) = .ok peer)
      (hfresh : peer ∉ obj :: seen)
      (hnext : discoverSegNext fuel sh kind icBind icPeer peer = .ok (some next))
      (hrest : DiscoverWalk fuel sh kind icBind icPeer (peer :: obj :: seen) next legs) :
      DiscoverWalk fuel sh kind icBind icPeer seen obj ((obj, some peer) :: legs)


/-! ## Notions for the trace edges -/

/-- The trace node `m` is indexed at the location `d`: it is the trace node of a heap of a
location that is the source of an incoming control-flow edge of `d`. -/
def IndexedAt (gl : GlobalState) (d : TLocIdx) (m : TNode) : Prop :=
  ∃ dstState ie srcState sh, gl.loc d = .ok dstState ∧ ie ∈ dstState.cfgInEdges ∧
    gl.loc ie.targetLoc = .ok srcState ∧ sh ∈ srcState.heapList ∧ sh.traceNode = m

/-- The trace node `m` is a nearest indexed ancestor of the trace node `root` at the
location `d`: `m` is indexed and it is `root` itself or it is reached from `root` along a
path of parents on which no trace node before `m` is indexed. -/
def NearestIndexed (tg : TraceGraph) (gl : GlobalState) (d : TLocIdx) (root m : TNode) : Prop :=
  Relation.ReflTransGen (fun a b => ¬ IndexedAt gl d a ∧ b ∈ tg.parents a) root m ∧
    IndexedAt gl d m

/-- The incoming trace edges of the heap `j` of the location `d`, empty if there is no
such heap. -/
def traceInAt (gl : GlobalState) (d j : Nat) : List Nat :=
  match gl.stateList_[d]? with
  | some ls => ls.traceInEdges.getD j []
  | none => []

/-- The outgoing trace edges of the heap `i` of the location `s`, empty if there is no
such heap. -/
def traceOutAt (gl : GlobalState) (s i : Nat) : List Nat :=
  match gl.stateList_[s]? with
  | some ls => ls.traceOutEdges.getD i []
  | none => []

/-- The positions, counted from `n0`, of the trace edges of the list that satisfy `p`. -/
def edgeIdxs (p : TraceEdge → Bool) : List TraceEdge → Nat → List Nat
  | [], _ => []
  | te :: rest, n0 => (if p te then [n0] else []) ++ edgeIdxs p rest (n0 + 1)

/-- The order of the trace edges by the destination heap and then by the source heap. -/
def traceEdgeLt (a b : TraceEdge) : Prop :=
  heapIdentLt a.dst b.dst = true ∨ (a.dst = b.dst ∧ heapIdentLt a.src b.src = true)

/-- The static part of the locations of `gl2` is the static part of the locations of
`gl`: the heaps and the incoming control-flow edges. -/
def SameFlow (gl gl2 : GlobalState) : Prop :=
  ∀ x : TLocIdx, (gl2.loc x).map (fun ls => (ls.heapList, ls.cfgInEdges)) =
    (gl.loc x).map (fun ls => (ls.heapList, ls.cfgInEdges))

/-- The state `gl2` extends the state `gl` by the trace edges `new`: they are appended to
the list of trace edges, each of them is appended to the incoming trace edges of its
destination heap and to the outgoing trace edges of its source heap, in the order of
`new`, and nothing else changes in the trace edges, the heaps and the incoming
control-flow edges of the locations. -/
def TraceExt (gl gl2 : GlobalState) (new : List TraceEdge) : Prop :=
  gl2.traceList_ = gl.traceList_ ++ new ∧ SameFlow gl gl2 ∧
  (∀ d j : Nat, traceInAt gl2 d j = traceInAt gl d j ++
    edgeIdxs (fun te => decide (te.dst = ((d : Int), (j : Int)))) new gl.traceList_.length) ∧
  (∀ s i : Nat, traceOutAt gl2 s i = traceOutAt gl s i ++
    edgeIdxs (fun te => decide (te.src = ((s : Int), (i : Int)))) new gl.traceList_.length)

/-! ## Concrete heaps -/

/-- The heap without any object, value or program variable. -/
def emptyHeap : SymHeap where
  gatherCVars := []
  objByCVar := fun _ => OBJ_INVALID
  gatherRootObjs := []
  valueOf := fun _ => VAL_INVALID
  placedAt := fun _ => VAL_INVALID
  pointsTo := fun _ => OBJ_INVALID
  valGetUnknown := fun _ => .UV_KNOWN
  valGetCustom := fun _ => -1
  valGetCompositeObj := fun _ => OBJ_INVALID
  objType := fun _ => none
  valType := fun _ => none
  subObj := fun _ _ => OBJ_INVALID
  objParent := fun _ => OBJ_INVALID
  cVar := fun _ => false
  objKind := fun _ => .OK_CONCRETE
  objBinderField := fun _ => []
  objPeerField := fun _ => []
  usedByCount := fun _ => 0
  neqDb := []
  lastValId := 0
  lastObjId := 0

/-- The heap whose only object is the program variable `(1, 0)`, which holds `VAL_NULL`. -/
def heapOneVar : SymHeap :=
  { emptyHeap with
    gatherCVars := [⟨1, 0⟩]
    objByCVar := fun cv => if cv = ⟨1, 0⟩ then 1 else OBJ_INVALID
    gatherRootObjs := [1]
    valueOf := fun o => if o = 1 then VAL_NULL else VAL_INVALID
    placedAt := fun o => if o = 1 then 1 else VAL_INVALID
    pointsTo := fun v => if v = 1 then 1 else OBJ_INVALID
    cVar := fun o => decide (o = 1)
    lastValId := 1
    lastObjId := 1 }

/-- The heap with the program variables `(1, 0)` and `(2, 0)`, which hold the unknown values
`a` and `b`; the values `5`, `6` and `7` are the unknown values of the heap. -/
def heapTwoVars (a b : Int) : SymHeap :=
  { emptyHeap with
    gatherCVars := [⟨1, 0⟩, ⟨2, 0⟩]
    objByCVar := fun cv => if cv = ⟨1, 0⟩ then 1 else if cv = ⟨2, 0⟩ then 2 else OBJ_INVALID
    gatherRootObjs := [1, 2]
    valueOf := fun o => if o = 1 then a else if o = 2 then b else VAL_INVALID
    placedAt := fun o => if o = 1 then 1 else if o = 2 then 2 else VAL_INVALID
    pointsTo := fun v => if v = 1 then 1 else if v = 2 then 2 else OBJ_INVALID
    valGetUnknown := fun v => if v = 5 ∨ v = 6 ∨ v = 7 then .UV_UNKNOWN else .UV_KNOWN
    usedByCount := fun v => (if v = a then 1 else 0) + (if v = b then 1 else 0)
    cVar := fun o => decide (o = 1 ∨ o = 2)
    lastValId := 7
    lastObjId := 2 }

/-- The renaming of the value identifiers of a heap by `σ`, whose inverse is `σinv`. -/
def SymHeap.renameVals (sh : SymHeap) (σ σinv : Int → Int) : SymHeap :=
  { sh with
    valueOf := fun o => σ (sh.valueOf o)
    placedAt := fun o => σ (sh.placedAt o)
    pointsTo := fun v => sh.pointsTo (σinv v)
    valGetUnknown := fun v => sh.valGetUnknown (σinv v)
    valGetCustom := fun v => sh.valGetCustom (σinv v)
    valGetCompositeObj := fun v => sh.valGetCompositeObj (σinv v)
    valType := fun v => sh.valType (σinv v)
    usedByCount := fun v => sh.usedByCount (σinv v)
    neqDb := sh.neqDb.map fun p => sortValues (σ p.1) (σ p.2) }

/-- The renaming `5 ↦ 6 ↦ 7 ↦ 5` of unknown values; every other value is kept. -/
def rotate567 (v : Int) : Int :=
  if v = 5 then 6 else if v = 6 then 7 else if v = 7 then 5 else v

/-- The inverse of `rotate567`. -/
def rotate567Inv (v : Int) : Int :=
  if v = 6 then 5 else if v = 7 then 6 else if v = 5 then 7 else v

/-- Type descriptor of a structure of a pointer and an integer. -/
def pairType : cl_type := ⟨1, .CL_TYPE_STRUCT, 2⟩

/-- Type descriptor of a pointer. -/
def ptrType : cl_type := ⟨2, .CL_TYPE_PTR, 0⟩

/-- Type descriptor of an integer. -/
def intType : cl_type := ⟨3, .CL_TYPE_INT, 0⟩

/-- A heap with the program variable `(1, 0)` of a structure type (object `1`, with the
pointer item `2` and the integer item `3`) and an anonymous heap object `4` that holds
its own address: the pointer item points to it, so that the heap has a cycle. -/
def cyclicHeap : SymHeap :=
  { emptyHeap with
    gatherCVars := [⟨1, 0⟩]
    objByCVar := fun cv => if cv = ⟨1, 0⟩ then 1 else OBJ_INVALID
    gatherRootObjs := [1, 4]
    valueOf := fun o =>
      if o = 1 then 20 else if o = 2 then 10 else if o = 3 then 30 else if o = 4 then 10
      else VAL_INVALID
    placedAt := fun o =>
      if o = 1 then 11 else if o = 2 then 12 else if o = 3 then 13 else if o = 4 then 10
      else VAL_INVALID
    pointsTo := fun v =>
      if v = 11 then 1 else if v = 12 then 2 else if v = 13 then 3 else if v = 10 then 4
      else OBJ_INVALID
    valGetUnknown := fun v => if v = 30 then .UV_UNKNOWN else .UV_KNOWN
    valGetCompositeObj := fun v => if v = 20 then 1 else OBJ_INVALID
    objType := fun o =>
      if o = 1 then some pairType else if o = 2 then some ptrType
      else if o = 3 then some intType else none
    subObj := fun o i =>
      if o = 1 ∧ i = 0 then 2 else if o = 1 ∧ i = 1 then 3 else OBJ_INVALID
    objParent := fun o => if o = 2 ∨ o = 3 then 1 else OBJ_INVALID
    cVar := fun o => decide (o = 1 ∨ o = 2 ∨ o = 3)
    usedByCount := fun v => if v = 10 then 2 else if v = 20 ∨ v = 30 then 1 else 0
    lastValId := 30
    lastObjId := 4 }

/-- Type descriptor of `struct item { struct item *next; }`. -/
def itemType : cl_type := ⟨10, .CL_TYPE_STRUCT, 1⟩

/-- Type descriptor of `struct item *`. -/
def itemPtrType : cl_type := ⟨11, .CL_TYPE_PTR, 0⟩

/-- The heap of a singly-linked list of `k` concrete nodes `n1 -> n2 -> ... -> nk -> NULL`
of the type `struct item`.  The object `1` is the stack variable that holds the address
of `n1` (`VAL_NULL` if `k = 0`); the node `nm` is the object `2m` and its field `next` is
the object `2m + 1`; the address of an object is the value with the identifier of the
object, and the structure objects themselves store no value.  `usedByCount` counts the
fields that store a value: one for the address of each node and one for `VAL_NULL`. -/
def sllHeap (k : Nat) : SymHeap :=
  { emptyHeap with
    gatherCVars := [⟨1, 0⟩]
    objByCVar := fun cv => if cv = ⟨1, 0⟩ then 1 else OBJ_INVALID
    gatherRootObjs := 1 :: (List.range k).map fun (i : Nat) => 2 * (i : Int) + 2
    valueOf := fun o =>
      if o = 1 then (if k = 0 then VAL_NULL else 2)
      else if 3 ≤ o ∧ o ≤ 2 * (k : Int) + 1 ∧ o % 2 = 1 then
        (if o = 2 * (k : Int) + 1 then VAL_NULL else o + 1)
      else VAL_INVALID
    placedAt := fun o => if 1 ≤ o ∧ o ≤ 2 * (k : Int) + 1 then o else VAL_INVALID
    pointsTo := fun v => if 1 ≤ v ∧ v ≤ 2 * (k : Int) + 1 then v else OBJ_INVALID
    objType := fun o =>
      if 2 ≤ o ∧ o ≤ 2 * (k : Int) + 1 then (if o % 2 = 0 then some itemType else some itemPtrType)
      else if o = 1 then some itemPtrType
      else none
    valType := fun v =>
      if 2 ≤ v ∧ v ≤ 2 * (k : Int) + 1 then (if v % 2 = 0 then some itemType else some itemPtrType)
      else if v = 1 then some itemPtrType
      else none
    subObj := fun o i =>
      if 2 ≤ o ∧ o ≤ 2 * (k : Int) ∧ o % 2 = 0 ∧ i = 0 then o + 1 else OBJ_INVALID
    objParent := fun o =>
      if 3 ≤ o ∧ o ≤ 2 * (k : Int) + 1 ∧ o % 2 = 1 then o - 1 else OBJ_INVALID
    cVar := fun o => decide (o = 1)
    usedByCount := fun v =>
      if 2 ≤ v ∧ v ≤ 2 * (k : Int) ∧ v % 2 = 0 then 1 else if v = 0 then 1 else 0
    lastValId := 2 * (k : Int) + 1
    lastObjId := 2 * (k : Int) + 1 }

/-- The objects of a heap that do not belong to a program variable: its heap objects. -/
def SymHeap.heapObjs (sh : SymHeap) : List Int :=
  sh.gatherRootObjs.filter fun o => !sh.cVar o

/-- A heap with a cycle: the two nodes of `sllHeap 2`, the second of which points back to
the first one; the stack variable holds `VAL_NULL`. -/
def ringHeap : SymHeap :=
  { sllHeap 2 with
    valueOf := fun o =>
      if o = 1 then VAL_NULL else if o = 3 then 4 else if o = 5 then 2 else VAL_INVALID
    usedByCount := fun v => if v = 2 ∨ v = 4 ∨ v = 0 then 1 else 0 }

/-- Type descriptor of `struct dnode { struct dnode *next; struct dnode *prev; }`. -/
def dnodeType : cl_type := ⟨20, .CL_TYPE_STRUCT, 2⟩

/-- Type descriptor of `struct dnode *`. -/
def dnodePtrType : cl_type := ⟨21, .CL_TYPE_PTR, 0⟩

/-- A doubly-linked list whose first node is concrete and is followed by a DLS.  The object
`1` is the stack variable that holds the address of the concrete node, the object `10`;
the DLS has the near end `20` and the far end `30`.  The fields `next` and `prev` of the
node `o` are the objects `o + 1` and `o + 2`, and the address of an object is the value with
the identifier of the object.  The near end is bound by `prev` and its peer pointer is
`next`; the far end is bound by `next` and its peer pointer is `prev`.  The segment is
non-empty: the value before it (the address `10`) differs from the value after it
(`VAL_NULL`). -/
def dlsHeap : SymHeap :=
  { emptyHeap with
    gatherCVars := [⟨1, 0⟩]
    objByCVar := fun cv => if cv = ⟨1, 0⟩ then 1 else OBJ_INVALID
    gatherRootObjs := [1, 10, 20, 30]
    valueOf := fun o =>
      if o = 1 then 10
      else if o = 11 then 20 else if o = 12 then VAL_NULL
      else if o = 21 then 30 else if o = 22 then 10
      else if o = 31 then VAL_NULL else if o = 32 then 20
      else VAL_INVALID
    placedAt := fun o =>
      if o = 1 ∨ (10 ≤ o ∧ o ≤ 12) ∨ (20 ≤ o ∧ o ≤ 22) ∨ (30 ≤ o ∧ o ≤ 32) then o
      else VAL_INVALID
    pointsTo := fun v =>
      if v = 1 ∨ (10 ≤ v ∧ v ≤ 12) ∨ (20 ≤ v ∧ v ≤ 22) ∨ (30 ≤ v ∧ v ≤ 32) then v
      else OBJ_INVALID
    valGetUnknown := fun v => if v = 20 ∨ v = 30 then .UV_ABSTRACT else .UV_KNOWN
    objType := fun o =>
      if o = 10 ∨ o = 20 ∨ o = 30 then some dnodeType
      else if o = 1 ∨ (11 ≤ o ∧ o ≤ 12) ∨ (21 ≤ o ∧ o ≤ 22) ∨ (31 ≤ o ∧ o ≤ 32) then
        some dnodePtrType
      else none
    valType := fun v =>
      if v = 10 ∨ v = 20 ∨ v = 30 then some dnodeType
      else if v = 1 ∨ (11 ≤ v ∧ v ≤ 12) ∨ (21 ≤ v ∧ v ≤ 22) ∨ (31 ≤ v ∧ v ≤ 32) then
        some dnodePtrType
      else none
    subObj := fun o i =>
      if (o = 10 ∨ o = 20 ∨ o = 30) ∧ (i = 0 ∨ i = 1) then o + 1 + i else OBJ_INVALID
    objParent := fun o =>
      if o = 11 ∨ o = 12 then 10 else if o = 21 ∨ o = 22 then 20
      else if o = 31 ∨ o = 32 then 30 else OBJ_INVALID
    cVar := fun o => decide (o = 1)
    objKind := fun o => if o = 20 ∨ o = 30 then .OK_DLS else .OK_CONCRETE
    objBinderField := fun o => if o = 20 then [1] else if o = 30 then [0] else []
    objPeerField := fun o => if o = 20 then [0] else if o = 30 then [1] else []
    usedByCount := fun v =>
      if v = 10 ∨ v = 20 ∨ v = 0 then 2 else if v = 30 then 1 else 0
    neqDb := [(0, 10)]
    lastValId := 32
    lastObjId := 32 }

/-- Type descriptor of `struct node { struct inner in; struct node *b; }`. -/
def nodeType : cl_type := ⟨30, .CL_TYPE_STRUCT, 2⟩

/-- Type descriptor of `struct inner { struct node *a; }`. -/
def innerType : cl_type := ⟨31, .CL_TYPE_STRUCT, 1⟩

/-- Type descriptor of `struct node *`. -/
def nodePtrType : cl_type := ⟨32, .CL_TYPE_PTR, 0⟩

/-- A heap of three nodes of the type `struct node`, which has a pointer inside of a nested
structure.  The nodes are the objects `10`, `20` and `30`; the members of the node `o` are
the nested structure `o + 1`, its pointer `a` (the object `o + 2`) and the pointer `b` (the
object `o + 3`).  The stack variable `1` holds the address of the node `10`, whose pointer
`in.a` holds the address of the node `20` and whose pointer `b` holds the address of the
node `30`; all other pointers are `VAL_NULL`.  The address of an object is the value with
the identifier of the object. -/
def nestedHeap : SymHeap :=
  { emptyHeap with
    gatherCVars := [⟨1, 0⟩]
    objByCVar := fun cv => if cv = ⟨1, 0⟩ then 1 else OBJ_INVALID
    gatherRootObjs := [1, 10, 20, 30]
    valueOf := fun o =>
      if o = 1 then 10 else if o = 12 then 20 else if o = 13 then 30
      else if o = 22 ∨ o = 23 ∨ o = 32 ∨ o = 33 then VAL_NULL
      else VAL_INVALID
    placedAt := fun o =>
      if o = 1 ∨ (10 ≤ o ∧ o ≤ 13) ∨ (20 ≤ o ∧ o ≤ 23) ∨ (30 ≤ o ∧ o ≤ 33) then o
      else VAL_INVALID
    pointsTo := fun v =>
      if v = 1 ∨ (10 ≤ v ∧ v ≤ 13) ∨ (20 ≤ v ∧ v ≤ 23) ∨ (30 ≤ v ∧ v ≤ 33) then v
      else OBJ_INVALID
    objType := fun o =>
      if o = 10 ∨ o = 20 ∨ o = 30 then some nodeType
      else if o = 11 ∨ o = 21 ∨ o = 31 then some innerType
      else if o = 1 ∨ o = 12 ∨ o = 13 ∨ o = 22 ∨ o = 23 ∨ o = 32 ∨ o = 33 then some nodePtrType
      else none
    valType := fun v =>
      if v = 10 ∨ v = 20 ∨ v = 30 then some nodeType
      else if v = 11 ∨ v = 21 ∨ v = 31 then some innerType
      else if v = 1 ∨ v = 12 ∨ v = 13 ∨ v = 22 ∨ v = 23 ∨ v = 32 ∨ v = 33 then some nodePtrType
      else none
    subObj := fun o i =>
      if (o = 10 ∨ o = 20 ∨ o = 30) ∧ i = 0 then o + 1
      else if (o = 10 ∨ o = 20 ∨ o = 30) ∧ i = 1 then o + 3
      else if (o = 11 ∨ o = 21 ∨ o = 31) ∧ i = 0 then o + 1
      else OBJ_INVALID
    objParent := fun o =>
      if o = 11 ∨ o = 13 then 10 else if o = 12 then 11
      else if o = 21 ∨ o = 23 then 20 else if o = 22 then 21
      else if o = 31 ∨ o = 33 then 30 else if o = 32 then 31
      else OBJ_INVALID
    cVar := fun o => decide (o = 1)
    usedByCount := fun v =>
      if v = 10 ∨ v = 20 ∨ v = 30 then 1 else if v = 0 then 4 else 0
    lastValId := 33
    lastObjId := 33 }

/-- Type descriptor of `struct cell { struct cell *next; int data; int tag; }`. -/
def cellType : cl_type := ⟨40, .CL_TYPE_STRUCT, 3⟩

/-- Type descriptor of `struct cell *`. -/
def cellPtrType : cl_type := ⟨41, .CL_TYPE_PTR, 0⟩

/-- A list of two cells of the type `struct cell`, the second of which is an SLS already.
The cells are the objects `10` and `20`; the fields `next`, `data` and `tag` of the cell `o`
are the objects `o + 1`, `o + 2` and `o + 3`.  The stack variable `1` holds the address of
the first cell, whose field `next` holds the address of the second one; the list ends with
`VAL_NULL`.  The two cells store the same value `50` in `data` and the different values
`51` and `52` in `tag`.  The address of an object is the value with the identifier of the
object. -/
def cellHeap : SymHeap :=
  { emptyHeap with
    gatherCVars := [⟨1, 0⟩]
    objByCVar := fun cv => if cv = ⟨1, 0⟩ then 1 else OBJ_INVALID
    gatherRootObjs := [1, 10, 20]
    valueOf := fun o =>
      if o = 1 then 10 else if o = 11 then 20 else if o = 21 then VAL_NULL
      else if o = 12 ∨ o = 22 then 50 else if o = 13 then 51 else if o = 23 then 52
      else VAL_INVALID
    placedAt := fun o =>
      if o = 1 ∨ (10 ≤ o ∧ o ≤ 13) ∨ (20 ≤ o ∧ o ≤ 23) then o else VAL_INVALID
    pointsTo := fun v =>
      if v = 1 ∨ (10 ≤ v ∧ v ≤ 13) ∨ (20 ≤ v ∧ v ≤ 23) then v else OBJ_INVALID
    valGetUnknown := fun v => if v = 20 then .UV_ABSTRACT else .UV_KNOWN
    valGetCustom := fun v => if 50 ≤ v ∧ v ≤ 52 then v else -1
    objType := fun o =>
      if o = 10 ∨ o = 20 then some cellType
      else if o = 1 ∨ o = 11 ∨ o = 21 then some cellPtrType
      else if o = 12 ∨ o = 13 ∨ o = 22 ∨ o = 23 then some intType
      else none
    valType := fun v =>
      if v = 10 ∨ v = 20 then some cellType
      else if v = 1 ∨ v = 11 ∨ v = 21 then some cellPtrType
      else if (12 ≤ v ∧ v ≤ 13) ∨ (22 ≤ v ∧ v ≤ 23) ∨ (50 ≤ v ∧ v ≤ 52) then some intType
      else none
    subObj := fun o i =>
      if (o = 10 ∨ o = 20) ∧ 0 ≤ i ∧ i ≤ 2 then o + 1 + i else OBJ_INVALID
    objParent := fun o =>
      if 11 ≤ o ∧ o ≤ 13 then 10 else if 21 ≤ o ∧ o ≤ 23 then 20 else OBJ_INVALID
    cVar := fun o => decide (o = 1)
    objKind := fun o => if o = 20 then .OK_SLS else .OK_CONCRETE
    objBinderField := fun o => if o = 20 then [0] else []
    usedByCount := fun v =>
      if v = 10 ∨ v = 20 ∨ v = 0 ∨ v = 51 ∨ v = 52 then 1 else if v = 50 then 2 else 0
    neqDb := [(0, 20)]
    lastValId := 52
    lastObjId := 23 }

/-- A doubly-linked list of three concrete nodes: the heap `dlsHeap` before any
abstraction.  The stack variable `1` holds the address of the node `10`; the nodes are the
objects `10`, `20` and `30`, the fields `next` and `prev` of the node `o` are the objects
`o + 1` and `o + 2`; the list is terminated by `VAL_NULL` at both ends. -/
def dllHeap : SymHeap :=
  { dlsHeap with
    valGetUnknown := fun _ => .UV_KNOWN
    objKind := fun _ => .OK_CONCRETE
    objBinderField := fun _ => []
    objPeerField := fun _ => []
    neqDb := [] }

/-- The heap `cellHeap` with a segment that may be empty: nothing is known about the
address of the SLS `20` and the value `VAL_NULL` of its field `next`. -/
def cellMaybeHeap : SymHeap :=
  { cellHeap with neqDb := [] }

/-- The heap `cellHeap` with a self loop: the field `next` of the SLS `20` holds the address
of the SLS itself. -/
def cellLoopHeap : SymHeap :=
  { cellHeap with
    valueOf := fun o => if o = 21 then 20 else cellHeap.valueOf o
    usedByCount := fun v => if v = 20 then 2 else if v = 0 then 0 else cellHeap.usedByCount v
    neqDb := [] }

/-- A heap with three program variables `(1, 0)`, `(2, 0)` and `(3, 0)` (the objects `1`,
`2`, `3`), which hold the addresses `10`, `11` and `12` of the anonymous heap objects `4`,
`5` and `6`; each of the three stores `VAL_NULL`.  The object `4` is an SLS whose binding
pointer is the object itself, so that `VAL_NULL` is its next value; the other objects are
concrete.  The Neq predicates of the heap are `neq`. -/
def predHeap (neq : List (Int × Int)) : SymHeap :=
  { emptyHeap with
    gatherCVars := [⟨1, 0⟩, ⟨2, 0⟩, ⟨3, 0⟩]
    objByCVar := fun cv =>
      if cv = ⟨1, 0⟩ then 1 else if cv = ⟨2, 0⟩ then 2 else if cv = ⟨3, 0⟩ then 3
      else OBJ_INVALID
    gatherRootObjs := [1, 2, 3, 4, 5, 6]
    valueOf := fun o =>
      if o = 1 then 10 else if o = 2 then 11 else if o = 3 then 12
      else if o = 4 ∨ o = 5 ∨ o = 6 then VAL_NULL else VAL_INVALID
    placedAt := fun o =>
      if o = 1 ∨ o = 2 ∨ o = 3 then o else if o = 4 ∨ o = 5 ∨ o = 6 then o + 6
      else VAL_INVALID
    pointsTo := fun v =>
      if v = 1 ∨ v = 2 ∨ v = 3 then v else if v = 10 ∨ v = 11 ∨ v = 12 then v - 6
      else OBJ_INVALID
    valGetUnknown := fun v => if v = 10 then .UV_ABSTRACT else .UV_KNOWN
    cVar := fun o => decide (o = 1 ∨ o = 2 ∨ o = 3)
    objKind := fun o => if o = 4 then .OK_SLS else .OK_CONCRETE
    usedByCount := fun v => if v = 10 ∨ v = 11 ∨ v = 12 then 1 else if v = 0 then 3 else 0
    neqDb := neq
    lastValId := 12
    lastObjId := 6 }

/-- Type descriptor of `struct twin { struct half a; struct half b; }`. -/
def twinType : cl_type := ⟨50, .CL_TYPE_STRUCT, 2⟩

/-- Type descriptor of `struct half { struct twin *p; }`. -/
def halfType : cl_type := ⟨51, .CL_TYPE_STRUCT, 1⟩

/-- Type descriptor of `struct twin *`. -/
def twinPtrType : cl_type := ⟨52, .CL_TYPE_PTR, 0⟩

/-- A heap of two nodes of the type `struct twin`, which has two members of a structure
type.  The nodes are the objects `10` and `20`; the members of the node `o` are the
structure `a` (the object `o + 1`) with its pointer `a.p` (the object `o + 2`) and the
structure `b` (the object `o + 3`) with its pointer `b.p` (the object `o + 4`).  The stack
variable `1` holds the address of the node `10`, whose pointer `a.p` holds the address of
the node `20`; all other pointers are `VAL_NULL`.  The address of an object is the value
with the identifier of the object. -/
def twinHeap : SymHeap :=
  { emptyHeap with
    gatherCVars := [⟨1, 0⟩]
    objByCVar := fun cv => if cv = ⟨1, 0⟩ then 1 else OBJ_INVALID
    gatherRootObjs := [1, 10, 20]
    valueOf := fun o =>
      if o = 1 then 10 else if o = 12 then 20
      else if o = 14 ∨ o = 22 ∨ o = 24 then VAL_NULL
      else VAL_INVALID
    placedAt := fun o =>
      if o = 1 ∨ (10 ≤ o ∧ o ≤ 14) ∨ (20 ≤ o ∧ o ≤ 24) then o else VAL_INVALID
    pointsTo := fun v =>
      if v = 1 ∨ (10 ≤ v ∧ v ≤ 14) ∨ (20 ≤ v ∧ v ≤ 24) then v else OBJ_INVALID
    objType := fun o =>
      if o = 10 ∨ o = 20 then some twinType
      else if o = 11 ∨ o = 13 ∨ o = 21 ∨ o = 23 then some halfType
      else if o = 1 ∨ o = 12 ∨ o = 14 ∨ o = 22 ∨ o = 24 then some twinPtrType
      else none
    valType := fun v =>
      if v = 10 ∨ v = 20 then some twinType
      else if v = 11 ∨ v = 13 ∨ v = 21 ∨ v = 23 then some halfType
      else if v = 1 ∨ v = 12 ∨ v = 14 ∨ v = 22 ∨ v = 24 then some twinPtrType
      else none
    subObj := fun o i =>
      if (o = 10 ∨ o = 20) ∧ i = 0 then o + 1
      else if (o = 10 ∨ o = 20) ∧ i = 1 then o + 3
      else if (o = 11 ∨ o = 13 ∨ o = 21 ∨ o = 23) ∧ i = 0 then o + 1
      else OBJ_INVALID
    objParent := fun o =>
      if o = 11 ∨ o = 13 then 10 else if o = 12 then 11 else if o = 14 then 13
      else if o = 21 ∨ o = 23 then 20 else if o = 22 then 21 else if o = 24 then 23
      else OBJ_INVALID
    cVar := fun o => decide (o = 1)
    usedByCount := fun v =>
      if v = 10 ∨ v = 20 then 1 else if v = 0 then 3 else 0
    lastValId := 24
    lastObjId := 24 }

/-- A list of three nodes of the type `struct twin`, which has two members of a structure
type, linked through the pointer `a.p`.  The nodes are the objects `10`, `20` and `30`;
the members of the node `o` are the structure `a` (the object `o + 1`) with its pointer
`a.p` (the object `o + 2`) and the structure `b` (the object `o + 3`) with its pointer
`b.p` (the object `o + 4`).  The stack variable `1` holds the address of the node `10`, the
pointer `a.p` of a node holds the address of the next node, and the pointer `a.p` of the
last node and all the pointers `b.p` are `VAL_NULL`.  The address of an object is the value
with the identifier of the object. -/
def twinListHeap : SymHeap :=
  { emptyHeap with
    gatherCVars := [⟨1, 0⟩]
    objByCVar := fun cv => if cv = ⟨1, 0⟩ then 1 else OBJ_INVALID
    gatherRootObjs := [1, 10, 20, 30]
    valueOf := fun o =>
      if o = 1 then 10 else if o = 12 then 20 else if o = 22 then 30
      else if o = 14 ∨ o = 24 ∨ o = 32 ∨ o = 34 then VAL_NULL
      else VAL_INVALID
    placedAt := fun o =>
      if o = 1 ∨ (10 ≤ o ∧ o ≤ 14) ∨ (20 ≤ o ∧ o ≤ 24) ∨ (30 ≤ o ∧ o ≤ 34) then o
      else VAL_INVALID
    pointsTo := fun v =>
      if v = 1 ∨ (10 ≤ v ∧ v ≤ 14) ∨ (20 ≤ v ∧ v ≤ 24) ∨ (30 ≤ v ∧ v ≤ 34) then v
      else OBJ_INVALID
    objType := fun o =>
      if o = 10 ∨ o = 20 ∨ o = 30 then some twinType
      else if o = 11 ∨ o = 13 ∨ o = 21 ∨ o = 23 ∨ o = 31 ∨ o = 33 then some halfType
      else if o = 1 ∨ o = 12 ∨ o = 14 ∨ o = 22 ∨ o = 24 ∨ o = 32 ∨ o = 34 then
        some twinPtrType
      else none
    valType := fun v =>
      if v = 10 ∨ v = 20 ∨ v = 30 then some twinType
      else if v = 11 ∨ v = 13 ∨ v = 21 ∨ v = 23 ∨ v = 31 ∨ v = 33 then some halfType
      else if v = 1 ∨ v = 12 ∨ v = 14 ∨ v = 22 ∨ v = 24 ∨ v = 32 ∨ v = 34 then
        some twinPtrType
      else none
    subObj := fun o i =>
      if (o = 10 ∨ o = 20 ∨ o = 30) ∧ i = 0 then o + 1
      else if (o = 10 ∨ o = 20 ∨ o = 30) ∧ i = 1 then o + 3
      else if (o = 11 ∨ o = 13 ∨ o = 21 ∨ o = 23 ∨ o = 31 ∨ o = 33) ∧ i = 0 then o + 1
      else OBJ_INVALID
    objParent := fun o =>
      if o = 11 ∨ o = 13 then 10 else if o = 12 then 11 else if o = 14 then 13
      else if o = 21 ∨ o = 23 then 20 else if o = 22 then 21 else if o = 24 then 23
      else if o = 31 ∨ o = 33 then 30 else if o = 32 then 31 else if o = 34 then 33
      else OBJ_INVALID
    cVar := fun o => decide (o = 1)
    usedByCount := fun v =>
      if v = 10 ∨ v = 20 ∨ v = 30 then 1 else if v = 0 then 4 else 0
    lastValId := 34
    lastObjId := 34 }

/-! ## Example states of the later interface -/

/-- A heap of the later interface without any object: every query gives the neutral
answer. -/
def Later.emptyHeap : Later.SymHeap where
  traceNode := 0
  isValid := fun _ => false
  objSize := fun _ => ⟨0, 0, 1⟩
  objEstimatedType := fun _ => none
  valOfPtr := fun _ _ => VAL_INVALID
  objSetByShape := fun _ => ∅
  objStorClass := fun _ => .SC_INVALID
  objKind := fun _ => .OK_REGION
  objProtoLevel := fun _ => 0
  segMinLength := fun _ => 0
  segBinding := fun _ => ⟨0, 0, 0⟩
  legacyAddrOfAny_XXX := fun _ => VAL_INVALID
  addrOfTarget := fun _ => VAL_INVALID
  objByAddr := fun _ => OBJ_INVALID
  valOffset := fun _ => 0
  usedByCount := fun _ => 0

/-- The object mapper that relates each identifier to itself. -/
def idMapper : TObjectMapper := ⟨fun o => [o], fun o => [o]⟩

/-- A heap of the later interface with the trace node `tr` whose only object is the object
`5`, a region of `16` bytes on the heap of the estimated type `struct item`; every pointer
read from the heap is `VAL_NULL`, and the objects of a container shape are its entry
alone. -/
def Later.nodeHeap (tr : TNode) : Later.SymHeap :=
  { Later.emptyHeap with
    traceNode := tr
    isValid := fun o => decide (o = 5)
    objSize := fun _ => ⟨16, 16, 1⟩
    objEstimatedType := fun o => if o = 5 then some itemType else none
    valOfPtr := fun _ _ => VAL_NULL
    objSetByShape := fun s => {s.entry}
    objStorClass := fun o => if o = 5 then .SC_ON_HEAP else .SC_INVALID
    legacyAddrOfAny_XXX := fun o => o
    addrOfTarget := fun o => o
    objByAddr := fun v => v
    usedByCount := fun v => if v = 5 then 1 else 0 }

/-- The heap `Later.nodeHeap tr` without estimated types. -/
def Later.untypedHeap (tr : TNode) : Later.SymHeap :=
  { Later.nodeHeap tr with objEstimatedType := fun _ => none }

/-- The container shape of the length `1` whose entry is the object `5`, with the binding
of a doubly-linked list (`next` at the offset `0`, `prev` at the offset `8`). -/
def nodeShape : Shape := ⟨5, ⟨.OK_DLS, ⟨0, 0, 8⟩⟩, 1⟩

/-- The trace graph without parents in which each object keeps its identifier. -/
def idTraceGraph : TraceGraph := ⟨fun _ => [], fun _ _ => idMapper⟩

/-- A global state of a single location whose instruction is followed by itself: the
location has a control-flow edge to itself, one heap (`Later.nodeHeap 0`) and the container
shape `nodeShape` of this heap; there is no trace edge yet. -/
def selfLoopState0 : GlobalState :=
  { stateList_ :=
      [{ insn := (0, 0)
         heapList := [Later.nodeHeap 0]
         cfgInEdges := [⟨0, true⟩]
         cfgOutEdges := [⟨0, true⟩]
         traceInEdges := [[]]
         traceOutEdges := [[]]
         shapeListByHeapIdx := [[nodeShape]] }]
    traceList_ := [] }

/-- The global state `selfLoopState0` with the trace edge of its heap: the single incoming
trace edge of the heap originates at the heap itself. -/
def selfLoopState : GlobalState :=
  { stateList_ :=
      [{ insn := (0, 0)
         heapList := [Later.nodeHeap 0]
         cfgInEdges := [⟨0, true⟩]
         cfgOutEdges := [⟨0, true⟩]
         traceInEdges := [[0]]
         traceOutEdges := [[0]]
         shapeListByHeapIdx := [[nodeShape]] }]
    traceList_ := [⟨(0, 0), (0, 0), idMapper, []⟩] }

/-- The object mapper that relates each of the objects `1` and `2` to each of the objects
`3` and `4`. -/
def crossMapper : TObjectMapper :=
  ⟨fun o => if o = 1 ∨ o = 2 then [3, 4] else [], fun o => if o = 3 ∨ o = 4 then [1, 2] else []⟩

/-- The function `void f(void) { x = 1; while (c) y = 2; }`: the entry block assigns and
jumps to the block `1`; the block `1` assigns and either repeats itself, which closes the
loop, or continues with the block `2`, which returns. -/
def whileLoopFnc : Fnc :=
  { blocks :=
      [[⟨.CL_INSN_UNOP, [], []⟩, ⟨.CL_INSN_JMP, [1], []⟩],
       [⟨.CL_INSN_UNOP, [], []⟩, ⟨.CL_INSN_UNOP, [], []⟩, ⟨.CL_INSN_COND, [1, 2], [0]⟩],
       [⟨.CL_INSN_RET, [], []⟩]]
    entry := 0 }

/-- The heaps of the fixed point of `whileLoopFnc`: one heap at the first assignment, one
at the head of the loop, two at the end of its body and one at the return. -/
def whileLoopStates : TStateMap := fun insn =>
  if insn = (0, 0) then some [Later.nodeHeap 1]
  else if insn = (1, 0) then some [Later.nodeHeap 2]
  else if insn = (1, 1) then some [Later.nodeHeap 3, Later.nodeHeap 4]
  else if insn = (2, 0) then some [Later.nodeHeap 5]
  else none

/-- The trace graph of the heaps of `whileLoopStates`: the heap at the head of the loop
covers the heap of the entry and the two heaps of the end of the body, which descend from
it in turn; the heap at the return descends from the two heaps of the end of the body. -/
def whileLoopTrace : TraceGraph :=
  ⟨fun n => if n = 2 then [1, 3, 4] else if n = 3 ∨ n = 4 then [2] else if n = 5 then [3, 4]
    else [], fun _ _ => idMapper⟩

/-- Callees of the plotter that write nothing. -/
def Plot.silentCallees : Plot.Callees where
  describeVar := fun _ _ => "var"
  printRawRange := fun rng suffix => toString rng.lo ++ suffix
  plotUniformBlocks := fun _ last _ => ([], last)
  plotFields := fun _ last _ _ => ([], last)
  dlSegPeer := fun _ obj => obj
  gatherLiveFields := fun _ _ => []

/-- A heap of the later interface with four objects, each at the address with its own
identifier: the object `1` is a valid region on the stack, the object `2` a valid SLS on
the heap, the object `3` a region on the heap that is not valid any more, and the object
`4` a region of the storage class `SC_INVALID`. -/
def Later.plotHeap : Later.SymHeap :=
  { Later.emptyHeap with
    isValid := fun o => decide (o = 1 ∨ o = 2)
    objSize := fun _ => ⟨16, 16, 1⟩
    objStorClass := fun o =>
      if o = 1 then .SC_ON_STACK else if o = 2 ∨ o = 3 then .SC_ON_HEAP else .SC_INVALID
    objKind := fun o => if o = 2 then .OK_SLS else .OK_REGION
    segMinLength := fun _ => 1
    legacyAddrOfAny_XXX := fun o => o
    addrOfTarget := fun o => o
    objByAddr := fun v => v
    usedByCount := fun v => if v = 2 then 1 else 0 }

/-- A trace graph in which the trace node `3` descends from the trace node `4`, which
descends from the trace nodes `1` and `2`; each object keeps its identifier. -/
def forkTraceGraph : TraceGraph :=
  ⟨fun n => if n = 3 then [4] else if n = 4 then [1, 2] else [], fun _ _ => idMapper⟩

/-- A global state of two locations: the location `0` holds two heaps, with the trace nodes
`1` and `2`, and has a control-flow edge to the location `1`, which holds one heap, with
the trace node `3`; there is no trace edge yet. -/
def forkState0 : GlobalState :=
  { stateList_ :=
      [{ insn := (0, 0)
         heapList := [Later.nodeHeap 1, Later.nodeHeap 2]
         cfgInEdges := []
         cfgOutEdges := [⟨1, false⟩]
         traceInEdges := [[], []]
         traceOutEdges := [[], []]
         shapeListByHeapIdx := [] },
       { insn := (0, 1)
         heapList := [Later.nodeHeap 3]
         cfgInEdges := [⟨0, false⟩]
         cfgOutEdges := []
         traceInEdges := [[]]
         traceOutEdges := [[]]
         shapeListByHeapIdx := [] }]
    traceList_ := [] }

/-! ## Notions used by the theorem on the folding of a list -/

/-- The object `o` is a node of the type `struct item`: a structure whose only item is the
pointer object `o + 1`. -/
structure ItemAt (sh : SymHeap) (o : Int) : Prop where
  type_node : sh.objType o = some itemType
  type_next : sh.objType (o + 1) = some itemPtrType
  sub : sh.subObj o 0 = o + 1

/-- The field `next` of the node `o` links the node to the node `n` in a way that the SLS
discovery accepts: it holds the address of `n`, which is a known pointer of the type of
the node, has exactly one user and is the address of a node that nobody points inside. -/
structure GoodLink (sh : SymHeap) (o n : Int) : Prop where
  val_pos : 0 < sh.valueOf (o + 1)
  val_ne : sh.valueOf (o + 1) ≠ sh.placedAt o
  val_type : sh.valType (sh.valueOf (o + 1)) = some itemType
  val_known : sh.valGetUnknown (sh.valueOf (o + 1)) = EUnknownValue.UV_KNOWN
  target : sh.pointsTo (sh.valueOf (o + 1)) = n
  target_pos : 0 < n
  target_addr : 0 < sh.placedAt n
  not_cvar : sh.cVar (o + 1) = false
  used : sh.usedByCount (sh.placedAt n) = 1
  target_item : ItemAt sh n
  target_inside : sh.usedByCount (sh.placedAt (n + 1)) = 0


/-- The nodes of the list are chained by links that the SLS discovery accepts, the link of
the last node being a value that is not positive; none of the nodes is a DLS. -/
def ChainLinked (sh : SymHeap) : List Int → Prop
  | [] => False
  | [o] =>
    ItemAt sh o ∧ sh.placedAt o ≠ 0 ∧ sh.objKind o ≠ EObjKind.OK_DLS ∧ sh.valueOf (o + 1) ≤ 0
  | o :: n :: rest =>
    ItemAt sh o ∧ sh.placedAt o ≠ 0 ∧ sh.objKind o ≠ EObjKind.OK_DLS ∧ GoodLink sh o n ∧
      ChainLinked sh (n :: rest)


/-- The state of the list of `k` nodes while it is being folded: the node `n1` (object `2`)
is followed by the node `c` (object `2 * c`), the cursor of the abstraction, and the nodes
from `c` to `k` are still chained as in `sllHeap k`; the nodes between `n1` and `c` are
gone. -/
structure ChainInv (k c : Int) (sh : SymHeap) : Prop where
  item : ∀ m, 1 ≤ m → m ≤ k → ItemAt sh (2 * m)
  parent : ∀ m, 1 ≤ m → m ≤ k → sh.objParent (2 * m) = OBJ_INVALID
  cvar : ∀ o, sh.cVar o = decide (o = 1)
  vtype : ∀ m, 1 ≤ m → m ≤ k → sh.valType (2 * m) = some itemType
  vtype0 : sh.valType 0 = none
  known : ∀ m, 1 ≤ m → m ≤ k → sh.valGetUnknown (2 * m) = EUnknownValue.UV_KNOWN
  nodeval : ∀ m, 1 ≤ m → m ≤ k → sh.valueOf (2 * m) = VAL_INVALID
  last : 2 * k + 1 ≤ sh.lastValId
  placed : ∀ m, (m = 1 ∨ c ≤ m) → m ≤ k →
    sh.placedAt (2 * m) = 2 * m ∧ sh.placedAt (2 * m + 1) = 2 * m + 1
  points : ∀ m, (m = 1 ∨ c ≤ m) → m ≤ k → sh.pointsTo (2 * m) = 2 * m
  head : sh.valueOf 3 = 2 * c
  next : ∀ m, c ≤ m → m < k → sh.valueOf (2 * m + 1) = 2 * (m + 1)
  tail : sh.valueOf (2 * k + 1) = 0
  used : ∀ m, (m = 1 ∨ c ≤ m) → m ≤ k →
    sh.usedByCount (2 * m) = 1 ∧ sh.usedByCount (2 * m + 1) = 0
  kind1 : sh.objKind 2 = EObjKind.OK_CONCRETE
  kind : ∀ m, c < m → m ≤ k → sh.objKind (2 * m) = EObjKind.OK_CONCRETE
  roots : sh.gatherRootObjs =
    1 :: 2 :: (List.range (k - c + 1).toNat).map fun (i : Nat) => 2 * (c + (i : Int))

/-- The objects of the `n` nodes from the node `m` on. -/
def chainFrom (m : Int) : Nat → List Int
  | 0 => []
  | n + 1 => 2 * m :: chainFrom (m + 1) n

/-- The heap after `ensureSlSeg` has made an SLS of the concrete node `n`, whose field `next`
holds the value `w`. -/
def stepHeap2 (sh : SymHeap) (n w : Int) : SymHeap :=
  { sh with
    objKind := fun o => if o = n then EObjKind.OK_SLS else sh.objKind o
    objBinderField := fun o => if o = n then [0] else sh.objBinderField o
    objPeerField := fun o => if o = n then [] else sh.objPeerField o
    neqDb := if sortValues n w ∈ sh.neqDb then sh.neqDb else sortValues n w :: sh.neqDb }

/-- The heap after `abstractNonMatchingValues` has then replaced the value of the field
`next` of `n` by a fresh unknown value and restored it. -/
def stepHeap4 (sh : SymHeap) (n w : Int) : SymHeap :=
  (((stepHeap2 sh n w).valCreateUnknown .UV_UNKNOWN (some itemType)).2.objSetValue (n + 1)
    (sh.lastValId + 1)).objSetValue (n + 1) w

/-- The heap after `valReplace` has then replaced the address of `c` by the address of `n`. -/
def stepHeap5 (sh : SymHeap) (c n w : Int) : SymHeap :=
  let sh4 := stepHeap4 sh n w
  { sh4 with
    valueOf := fun o => if sh4.valueOf o = c then n else sh4.valueOf o
    usedByCount := fun v =>
      if v = c then 0
      else if v = n then sh4.usedByCount n + sh4.usedByCount c
      else sh4.usedByCount v
    neqDb := (sh4.neqDb.map fun p =>
      sortValues (if p.1 = c then n else p.1) (if p.2 = c then n else p.2)).dedup }

/-- The heap that one step of the SLS abstraction makes of `sh`, when the node `c` is
merged into its successor `n`, a concrete node whose field `next` holds the value `w`: the
composition of the mutators that the step applies. -/
def stepHeap (sh : SymHeap) (c n w : Int) : SymHeap :=
  let sh6 := ((stepHeap5 sh c n w).objDestroyOne (c + 1)).objDestroyOne c
  { sh6 with gatherRootObjs := sh6.gatherRootObjs.filter fun o => o ≠ c }

/-! # Theorems

## Heap equality -/

theorem checkNonPosValues_self (a : Int) : checkNonPosValues a a = false := by
  unfold checkNonPosValues
  split <;> simp

theorem matchPreds_self (H : SymHeap) (v : Int) : matchPreds H H v v = true := by
  simp [matchPreds]

theorem sortValues_self (v : Int) : sortValues v v = (v, v) := by
  simp [sortValues]

theorem matchValues_self (subst : TSubst) (v : Int) (hs : SubstId subst) :
    ∃ s, matchValues subst v v = (true, s) ∧ SubstId s := by
  unfold matchValues
  rw [checkNonPosValues_self, sortValues_self]
  simp only [Bool.false_eq_true, if_false]
  cases hl : subst.lookup v with
  | none =>
    refine ⟨(v, v) :: subst, rfl, ?_⟩
    intro k w hk
    rw [List.lookup_cons] at hk
    by_cases hkv : k = v
    · subst hkv
      simp at hk
      exact hk.symm
    · have : (k == v) = false := by simpa using hkv
      rw [this] at hk
      exact hs k w hk
  | some w =>
    have := hs v w hl
    subst this
    exact ⟨subst, by simp, hs⟩

theorem matchValuesH_self (subst : TSubst) (H : SymHeap) (v : Int) (hs : SubstId subst) :
    ∃ s, matchValuesH subst H H v v = .ok (true, s) ∧ SubstId s := by
  unfold matchValuesH
  obtain ⟨s, h1, h2⟩ := matchValues_self subst v hs
  by_cases hv : v ≤ 0
  · simp only [hv, or_self, if_true]
    exact ⟨s, by rw [h1], h2⟩
  · simp only [hv, or_self, if_false, ne_eq, not_true_eq_false, and_self]
    by_cases hc : OBJ_INVALID = H.valGetCustom v
    · simp only [hc, if_true]
      exact ⟨s, by rw [h1], h2⟩
    · simp only [hc, if_false, or_self]
      exact ⟨subst, by simp, hs⟩

theorem isComposite_self (H : SymHeap) (v : Int) :
    isComposite H H v v = .ok false ∨ isComposite H H v v = .ok true := by
  unfold isComposite
  by_cases hc : OBJ_INVALID = H.valGetCompositeObj v <;> simp [hc]

theorem cmpAbstractObjects_self (H : SymHeap) (o : Int) : cmpAbstractObjects H H o o = true := by
  unfold cmpAbstractObjects
  simp

theorem schedule_todo_diag (wl : WorkList TValuePair) (v : Int) (h : DiagPairs wl.todo) :
    DiagPairs (wl.schedule (v, v)).todo := by
  unfold WorkList.schedule
  split
  · exact h
  · intro p hp
    simp only [List.mem_cons] at hp
    rcases hp with rfl | hp
    · rfl
    · exact h p hp

theorem digCompositeItems_diag (H : SymHeap) (o : Int) (n : Nat) (i : Int)
    (todo todo2 : List (Int × Int)) (h : DiagPairs todo)
    (hr : digCompositeItems H H o o n i todo = .ok todo2) : DiagPairs todo2 := by
  induction n generalizing i todo with
  | zero =>
    simp only [digCompositeItems] at hr
    cases hr
    exact h
  | succ n ih =>
    simp only [digCompositeItems] at hr
    split at hr
    · cases hr
    · apply ih _ _ _ hr
      intro p hp
      simp only [List.mem_cons] at hp
      rcases hp with rfl | hp
      · rfl
      · exact h p hp

theorem digCompositeLoop_self (H : SymHeap) (fuel : Nat) (todo : List (Int × Int))
    (wl : WorkList TValuePair) (ht : DiagPairs todo) (hw : DiagPairs wl.todo) :
    (∃ e, digCompositeLoop H H fuel todo wl = .error e) ∨
    ∃ wl2, digCompositeLoop H H fuel todo wl = .ok (true, wl2) ∧ DiagPairs wl2.todo := by
  induction fuel generalizing todo wl with
  | zero =>
    cases todo with
    | nil => exact Or.inr ⟨wl, by simp [digCompositeLoop], hw⟩
    | cons p rest => exact Or.inl ⟨.FUEL, by simp [digCompositeLoop]⟩
  | succ fuel ih =>
    cases todo with
    | nil => exact Or.inr ⟨wl, by simp [digCompositeLoop], hw⟩
    | cons p rest =>
      obtain ⟨o1, o2⟩ := p
      have ho : o1 = o2 := ht (o1, o2) (by simp)
      subst ho
      have hrest : DiagPairs rest := fun q hq => ht q (by simp [hq])
      simp only [digCompositeLoop, ne_eq, not_true_eq_false, if_false]
      split
      · exact ih rest _ hrest (schedule_todo_diag wl _ hw)
      · split
        · rename_i e he
          exact Or.inl ⟨e, rfl⟩
        · rename_i todo2 he
          exact ih todo2 wl (digCompositeItems_diag H o1 _ _ _ _ hrest he) hw
      · exact ih rest wl hrest hw
      · exact Or.inl ⟨.TRAP, rfl⟩

theorem next_todo_diag (wl wl1 : WorkList TValuePair) (p : TValuePair)
    (h : DiagPairs wl.todo) (hn : wl.next = some (p, wl1)) : p.1 = p.2 ∧ DiagPairs wl1.todo := by
  unfold WorkList.next at hn
  split at hn
  · cases hn
  · rename_i x rest hx
    simp only [Option.some.injEq, Prod.mk.injEq] at hn
    obtain ⟨rfl, rfl⟩ := hn
    rw [hx] at h
    exact ⟨h x (by simp), fun q hq => h q (by simp [hq])⟩

theorem dfsCmp_self_ne_false (H : SymHeap) (digFuel fuel : Nat) (wl : WorkList TValuePair)
    (subst : TSubst) (hw : DiagPairs wl.todo) (hs : SubstId subst) :
    dfsCmp H H digFuel fuel wl subst ≠ .ok false := by
  induction fuel generalizing wl subst with
  | zero =>
    unfold dfsCmp
    split <;> simp
  | succ fuel ih =>
    unfold dfsCmp
    split
    · simp
    · rename_i value1 value2 wl1 hn
      obtain ⟨hv, hw1⟩ := next_todo_diag wl wl1 (value1, value2) hw hn
      simp only at hv
      subst hv
      rw [matchPreds_self]
      simp only [Bool.not_true, Bool.false_eq_true, if_false]
      obtain ⟨s, hm, hs1⟩ := matchValuesH_self subst H value1 hs
      rw [hm]
      simp only
      split
      · exact ih wl1 s hw1 hs1
      · rcases isComposite_self H value1 with hc | hc
        · rw [hc]
          simp only [checkNonPosValues_self, cmpAbstractObjects_self, Bool.false_eq_true,
            if_false, Bool.not_true]
          exact ih _ s (schedule_todo_diag wl1 _ hw1) hs1
        · rw [hc]
          simp only
          unfold digComposite
          rcases digCompositeLoop_self H digFuel [(H.valGetCompositeObj value1,
            H.valGetCompositeObj value1)] wl1 (by intro p hp; simp at hp; rw [hp]) hw1
            with ⟨e, he⟩ | ⟨wl2, he, hw2⟩
          · simp only [he]
            simp
          · simp only [he]
            exact ih wl2 s hw2 hs1

theorem schedule_measure (P : Finset TValuePair) (wl : WorkList TValuePair) (x : TValuePair)
    (hx : x ∈ P) (hs : wl.seen.toFinset ⊆ P) :
    wlMeasure P (wl.schedule x) = wlMeasure P wl ∧ (wl.schedule x).seen.toFinset ⊆ P := by
  unfold WorkList.schedule
  split
  · exact ⟨rfl, hs⟩
  · rename_i hns
    constructor
    · unfold wlMeasure
      simp only [List.toFinset_cons, List.length_cons]
      have hmem : x ∈ P \ wl.seen.toFinset := by
        simp [hx, hns]
      have h1 : P \ insert x wl.seen.toFinset = (P \ wl.seen.toFinset).erase x := by
        ext y
        simp only [Finset.mem_sdiff, Finset.mem_insert, Finset.mem_erase, List.mem_toFinset]
        tauto
      rw [h1, Finset.card_erase_of_mem hmem]
      have : 0 < (P \ wl.seen.toFinset).card := Finset.card_pos.mpr ⟨x, hmem⟩
      omega
    · simp only [List.toFinset_cons]
      intro y hy
      simp only [Finset.mem_insert] at hy
      rcases hy with rfl | hy
      · exact hx
      · exact hs hy

theorem next_measure (P : Finset TValuePair) (wl wl1 : WorkList TValuePair) (p : TValuePair)
    (hn : wl.next = some (p, wl1)) :
    wlMeasure P wl = wlMeasure P wl1 + 1 ∧ wl1.seen = wl.seen := by
  unfold WorkList.next at hn
  split at hn
  · cases hn
  · rename_i x rest hx
    simp only [Option.some.injEq, Prod.mk.injEq] at hn
    obtain ⟨rfl, rfl⟩ := hn
    simp [wlMeasure, hx]
    omega

theorem digCompositeItems_weight (h1 h2 : SymHeap) (size : Int → Nat) (o1 o2 : Int)
    (n : Nat) (i : Int) (todo todo2 : List (Int × Int))
    (hr : digCompositeItems h1 h2 o1 o2 n i todo = .ok todo2) :
    todoWeight size todo2 = todoWeight size todo +
      ((List.range n).map fun (j : Nat) => size (h1.subObj o1 (i + (j : Int))) + 1).sum := by
  induction n generalizing i todo with
  | zero =>
    simp only [digCompositeItems] at hr
    cases hr
    simp
  | succ n ih =>
    simp only [digCompositeItems] at hr
    split at hr
    · cases hr
    · rw [ih _ _ hr, List.range_succ_eq_map]
      simp only [todoWeight, List.map_cons, List.sum_cons, List.map_map, Nat.cast_zero,
        add_zero]
      have : (fun j : Nat => size (h1.subObj o1 (i + 1 + (j : Int))) + 1) =
          ((fun j : Nat => size (h1.subObj o1 (i + (j : Int))) + 1) ∘ Nat.succ) := by
        funext j
        simp only [Function.comp, Nat.succ_eq_add_one, Nat.cast_add, Nat.cast_one]
        congr 3
        ring
      rw [this]
      omega

theorem digCompositeItems_err (h1 h2 : SymHeap) (o1 o2 : Int)
    (n : Nat) (i : Int) (todo : List (Int × Int)) (e : Err)
    (he : digCompositeItems h1 h2 o1 o2 n i todo = .error e) : e = .TRAP := by
  induction n generalizing i todo with
  | zero => simp [digCompositeItems] at he
  | succ n ih =>
    simp only [digCompositeItems] at he
    split at he
    · cases he
      rfl
    · exact ih _ _ he

theorem digCompositeLoop_fuel (h1 h2 : SymHeap) (P : Finset TValuePair) (size : Int → Nat)
    (hP : ∀ a b, (h1.valueOf a, h2.valueOf b) ∈ P) (hsz : h1.SubObjsBounded size)
    (fuel : Nat) (todo : List (Int × Int)) (wl : WorkList TValuePair)
    (hf : todoWeight size todo ≤ fuel) (hs : wl.seen.toFinset ⊆ P) :
    (∀ e, digCompositeLoop h1 h2 fuel todo wl = .error e → e = .TRAP) ∧
    ∀ b wl2, digCompositeLoop h1 h2 fuel todo wl = .ok (b, wl2) →
      wlMeasure P wl2 = wlMeasure P wl ∧ wl2.seen.toFinset ⊆ P := by
  induction fuel generalizing todo wl with
  | zero =>
    cases todo with
    | nil =>
      simp only [digCompositeLoop]
      refine ⟨(by intro e h; cases h), ?_⟩
      intro b wl2 h
      cases h
      exact ⟨rfl, hs⟩
    | cons p rest =>
      simp [todoWeight] at hf
  | succ fuel ih =>
    cases todo with
    | nil =>
      simp only [digCompositeLoop]
      refine ⟨(by intro e h; cases h), ?_⟩
      intro b wl2 h
      cases h
      exact ⟨rfl, hs⟩
    | cons p rest =>
      obtain ⟨o1, o2⟩ := p
      have hrest : todoWeight size rest ≤ fuel := by
        simp only [todoWeight, List.map_cons, List.sum_cons] at hf ⊢
        omega
      simp only [digCompositeLoop]
      split
      · refine ⟨(by intro e h; cases h), ?_⟩
        intro b wl2 h
        cases h
        exact ⟨rfl, hs⟩
      · split
        · obtain ⟨hm, hs2⟩ := schedule_measure P wl _ (hP o1 o2) hs
          obtain ⟨hA, hB⟩ := ih rest _ hrest hs2
          refine ⟨hA, ?_⟩
          intro b wl2 h
          obtain ⟨h3, h4⟩ := hB b wl2 h
          exact ⟨h3.trans hm, h4⟩
        · rename_i hcode
          split
          · rename_i e he
            refine ⟨?_, by intro b wl2 h; cases h⟩
            intro e2 hcon
            cases hcon
            exact digCompositeItems_err h1 h2 o1 o2 _ _ _ _ he
          · rename_i todo2 he
            have hw := digCompositeItems_weight h1 h2 size o1 o2 _ 0 rest todo2 he
            cases hty : h1.objType o1 with
            | none =>
              rw [hty] at hcode
              simp at hcode
            | some t =>
              rw [hty] at hcode hw
              simp only at hcode hw
              have hb := hsz o1 t hty hcode
              simp only [zero_add] at hw
              apply ih todo2 wl _ hs
              simp only [todoWeight, List.map_cons, List.sum_cons] at hf hw ⊢
              omega
        · exact ih rest wl hrest hs
        · refine ⟨(by intro e h; cases h; rfl), (by intro b wl2 h; cases h)⟩

theorem matchValuesH_err (subst : TSubst) (h1 h2 : SymHeap) (v1 v2 : Int) (e : Err)
    (he : matchValuesH subst h1 h2 v1 v2 = .error e) : e = .TRAP := by
  unfold matchValuesH at he
  dsimp only at he
  repeat' split at he
  all_goals cases he
  rfl

theorem isComposite_err (h1 h2 : SymHeap) (v1 v2 : Int) (e : Err)
    (he : isComposite h1 h2 v1 v2 = .error e) : e = .TRAP := by
  unfold isComposite at he
  dsimp only at he
  repeat' split at he
  all_goals cases he
  rfl

theorem dfsCmp_fuel (h1 h2 : SymHeap) (P : Finset TValuePair) (size : Int → Nat)
    (hP : ∀ a b, (h1.valueOf a, h2.valueOf b) ∈ P) (hsz : h1.SubObjsBounded size)
    (digFuel : Nat) (hd : ∀ o, size o < digFuel)
    (fuel : Nat) (wl : WorkList TValuePair) (subst : TSubst)
    (hf : wlMeasure P wl ≤ fuel) (hs : wl.seen.toFinset ⊆ P) (e : Err)
    (hr : dfsCmp h1 h2 digFuel fuel wl subst = .error e) : e = .TRAP := by
  induction fuel generalizing wl subst with
  | zero =>
    unfold dfsCmp at hr
    split at hr
    · cases hr
    · rename_i x hn
      obtain ⟨hm, _⟩ := next_measure P wl x.2 x.1 hn
      omega
  | succ fuel ih =>
    unfold dfsCmp at hr
    split at hr
    · cases hr
    · rename_i value1 value2 wl1 hn
      obtain ⟨hm, hseen⟩ := next_measure P wl wl1 (value1, value2) hn
      have hf1 : wlMeasure P wl1 ≤ fuel := by omega
      have hs1 : wl1.seen.toFinset ⊆ P := by rw [hseen]; exact hs
      split at hr
      · cases hr
      · split at hr
        · rename_i e2 he
          cases hr
          exact matchValuesH_err _ _ _ _ _ _ he
        · cases hr
        · split at hr
          · exact ih wl1 _ hf1 hs1 hr
          · split at hr
            · rename_i e2 he
              cases hr
              exact isComposite_err _ _ _ _ _ he
            · unfold digComposite at hr
              obtain ⟨hA, hB⟩ := digCompositeLoop_fuel h1 h2 P size hP hsz digFuel
                [(h1.valGetCompositeObj value1, h2.valGetCompositeObj value2)] wl1
                (by
                  have := hd (h1.valGetCompositeObj value1)
                  simp only [todoWeight, List.map_cons, List.map_nil, List.sum_cons,
                    List.sum_nil]
                  omega) hs1
              split at hr
              · rename_i e2 he
                cases hr
                exact hA _ he
              · cases hr
              · rename_i wl2 he
                obtain ⟨h3, h4⟩ := hB _ _ he
                exact ih wl2 _ (by omega) h4 hr
            · simp only at hr
              split at hr
              · cases hr
              · split at hr
                · cases hr
                · obtain ⟨h3, h4⟩ := schedule_measure P wl1
                    (h1.valueOf (h1.pointsTo value1), h2.valueOf (h2.pointsTo value2))
                    (hP _ _) hs1
                  exact ih _ _ (by omega) h4 hr

theorem scheduleCVars_measure (h1 h2 : SymHeap) (P : Finset TValuePair)
    (hP : ∀ a b, (h1.valueOf a, h2.valueOf b) ∈ P) (cvs : List CVar)
    (wl wl2 : WorkList TValuePair) (hs : wl.seen.toFinset ⊆ P)
    (hr : scheduleCVars h1 h2 cvs wl = some wl2) :
    wlMeasure P wl2 = wlMeasure P wl ∧ wl2.seen.toFinset ⊆ P := by
  induction cvs generalizing wl with
  | nil =>
    simp only [scheduleCVars, Option.some.injEq] at hr
    subst hr
    exact ⟨rfl, hs⟩
  | cons cv rest ih =>
    simp only [scheduleCVars] at hr
    split at hr
    · cases hr
    · obtain ⟨h3, h4⟩ := schedule_measure P wl
        (h1.valueOf (h1.objByCVar cv), h2.valueOf (h2.objByCVar cv)) (hP _ _) hs
      obtain ⟨h5, h6⟩ := ih _ h4 hr
      exact ⟨h5.trans h3, h6⟩

theorem operatorEq_err (h1 h2 : SymHeap) (vals1 vals2 : Finset Int)
    (size : Int → Nat) (bound : Nat)
    (hv1 : h1.ValuesIn vals1) (hv2 : h2.ValuesIn vals2)
    (hsz : h1.SubObjsBounded size) (hb : ∀ o, size o < bound)
    (fuel : Nat) (hf : vals1.card * vals2.card + bound ≤ fuel) (e : Err)
    (hr : operatorEq fuel h1 h2 = .error e) : e = .TRAP := by
  unfold operatorEq at hr
  simp only [ne_eq, not_true_eq_false, if_false] at hr
  split at hr
  · cases hr
  · rename_i wl hw
    have hP : ∀ a b, (h1.valueOf a, h2.valueOf b) ∈ vals1 ×ˢ vals2 := by
      intro a b
      simp [hv1 a, hv2 b]
    obtain ⟨h3, h4⟩ := scheduleCVars_measure h1 h2 (vals1 ×ˢ vals2) hP _ WorkList.empty wl
      (by simp [WorkList.empty]) hw
    have hd : ∀ o, size o < fuel :=
      fun o => lt_of_lt_of_le (hb o) (le_trans (Nat.le_add_left _ _) hf)
    refine dfsCmp_fuel h1 h2 (vals1 ×ˢ vals2) size hP hsz fuel hd fuel wl [] ?_ h4 e hr
    rw [h3]
    simp only [wlMeasure, WorkList.empty, List.toFinset_nil, Finset.sdiff_empty,
      Finset.card_product, List.length_nil, add_zero]
    exact le_trans (Nat.le_add_right _ _) hf

theorem mem_cVarSetInsert (cv x : CVar) (s : List CVar) (h : x ∈ cVarSetInsert cv s) :
    x = cv ∨ x ∈ s := by
  induction s with
  | nil =>
    simp [cVarSetInsert] at h
    exact Or.inl h
  | cons y ys ih =>
    simp only [cVarSetInsert] at h
    split at h
    · simp only [List.mem_cons] at h ⊢
      tauto
    · split at h
      · simp only [List.mem_cons] at h ⊢
        rcases h with h | h
        · tauto
        · rcases ih h with h | h <;> tauto
      · simp only [List.mem_cons] at h ⊢
        tauto

theorem mem_foldl_cVarSetInsert (l s : List CVar) (x : CVar)
    (h : x ∈ l.foldl (fun s cv => cVarSetInsert cv s) s) : x ∈ l ∨ x ∈ s := by
  induction l generalizing s with
  | nil => exact Or.inr h
  | cons y ys ih =>
    simp only [List.foldl_cons] at h
    rcases ih _ h with h | h
    · exact Or.inl (by simp [h])
    · rcases mem_cVarSetInsert _ _ _ h with h | h
      · exact Or.inl (by simp [h])
      · exact Or.inr h

theorem scheduleCVars_self (H : SymHeap) (cvs : List CVar) (wl : WorkList TValuePair)
    (hcv : ∀ cv ∈ cvs, 0 ≤ H.objByCVar cv) (hw : DiagPairs wl.todo) :
    ∃ wl2, scheduleCVars H H cvs wl = some wl2 ∧ DiagPairs wl2.todo := by
  induction cvs generalizing wl with
  | nil => exact ⟨wl, rfl, hw⟩
  | cons cv rest ih =>
    simp only [scheduleCVars]
    have h0 := hcv cv (by simp)
    have hn : ¬(H.objByCVar cv < 0 ∨ H.objByCVar cv < 0) :=
      not_or.mpr ⟨not_lt.mpr h0, not_lt.mpr h0⟩
    rw [if_neg hn]
    exact ih _ (fun c hc => hcv c (by simp [hc])) (schedule_todo_diag wl _ hw)

/-- C1: reflexivity of heap equality.  For a heap whose gathered program variables all
have an object, whose objects store values of a finite set `vals` and whose trees of
sub-objects are bounded by `size < bound`, the comparison `H == H` with enough fuel
returns `true` unless it hits a `TRAP`: it neither returns `false` nor runs forever. -/
theorem operatorEq_refl (H : SymHeap) (vals : Finset Int) (size : Int → Nat)
    (bound fuel : Nat)
    (hcv : ∀ cv ∈ H.gatherCVars, 0 ≤ H.objByCVar cv)
    (hvals : H.ValuesIn vals) (hsub : H.SubObjsBounded size) (hb : ∀ o, size o < bound)
    (hf : vals.card * vals.card + bound ≤ fuel) :
    operatorEq fuel H H = .ok true ∨ operatorEq fuel H H = .error .TRAP := by
  have hnf := operatorEq_err H H vals vals size bound hvals hvals hsub hb fuel hf
  have hnfalse : operatorEq fuel H H ≠ .ok false := by
    unfold operatorEq
    simp only [ne_eq, not_true_eq_false, if_false]
    obtain ⟨wl, hw, hd⟩ := scheduleCVars_self H
      (H.gatherCVars.foldl (fun s cv => cVarSetInsert cv s)
        (H.gatherCVars.foldl (fun s cv => cVarSetInsert cv s) [])) WorkList.empty
      (by
        intro cv hc
        rcases mem_foldl_cVarSetInsert _ _ _ hc with h | h
        · exact hcv cv h
        · rcases mem_foldl_cVarSetInsert _ _ _ h with h | h
          · exact hcv cv h
          · simp at h)
      (by intro p hp; simp [WorkList.empty] at hp)
    rw [hw]
    exact dfsCmp_self_ne_false H fuel fuel wl [] hd (by intro k w h; simp at h)
  match h : operatorEq fuel H H with
  | .ok true => exact Or.inl rfl
  | .ok false => exact absurd h hnfalse
  | .error e =>
    have := hnf e h
    subst this
    exact Or.inr rfl

/-! ## State union -/

theorem digCompositeLoop_mono (h1 h2 : SymHeap) (fuel fuel2 : Nat)
    (todo : List (Int × Int)) (wl : WorkList TValuePair) (r : Bool × WorkList TValuePair)
    (hr : digCompositeLoop h1 h2 fuel todo wl = .ok r) (hle : fuel ≤ fuel2) :
    digCompositeLoop h1 h2 fuel2 todo wl = .ok r := by
  induction fuel generalizing fuel2 todo wl with
  | zero =>
    cases todo with
    | nil =>
      cases fuel2 <;> simpa [digCompositeLoop] using hr
    | cons p rest => simp [digCompositeLoop] at hr
  | succ fuel ih =>
    cases todo with
    | nil =>
      cases fuel2 <;> simpa [digCompositeLoop] using hr
    | cons p rest =>
      obtain ⟨o1, o2⟩ := p
      cases fuel2 with
      | zero => omega
      | succ fuel2 =>
        have hle2 : fuel ≤ fuel2 := by omega
        simp only [digCompositeLoop] at hr ⊢
        split at hr
        · rename_i hc
          rw [if_pos hc]
          exact hr
        · rename_i hc
          rw [if_neg hc]
          split at hr
          · rename_i hcode
            try simp only [hcode]
            exact ih _ _ _ hr hle2
          · rename_i hcode
            try simp only [hcode]
            split at hr
            · cases hr
            · rename_i todo2 he
              try simp only [he]
              exact ih _ _ _ hr hle2
          · rename_i hcode
            try simp only [hcode]
            exact ih _ _ _ hr hle2
          · cases hr

theorem dfsCmp_mono (h1 h2 : SymHeap) (d d2 fuel fuel2 : Nat) (wl : WorkList TValuePair)
    (subst : TSubst) (r : Bool) (hr : dfsCmp h1 h2 d fuel wl subst = .ok r)
    (hd : d ≤ d2) (hle : fuel ≤ fuel2) : dfsCmp h1 h2 d2 fuel2 wl subst = .ok r := by
  induction fuel generalizing fuel2 wl subst with
  | zero =>
    unfold dfsCmp at hr
    split at hr
    · rename_i hn
      cases hr
      cases fuel2 <;> (unfold dfsCmp; simp only [hn])
    · cases hr
  | succ fuel ih =>
    cases fuel2 with
    | zero => omega
    | succ fuel2 =>
      have hle2 : fuel ≤ fuel2 := by omega
      unfold dfsCmp at hr ⊢
      split at hr
      · rename_i hn
        try simp only [hn]
        exact hr
      · rename_i value1 value2 wl1 hn
        try simp only [hn]
        split at hr
        · rename_i hc
          rw [if_pos hc]
          exact hr
        · rename_i hc
          rw [if_neg hc]
          split at hr
          · cases hr
          · rename_i s hm
            try simp only [hm]
            exact hr
          · rename_i s hm
            try simp only [hm]
            split at hr
            · rename_i hsk
              rw [if_pos hsk]
              exact ih _ _ _ hr hle2
            · rename_i hsk
              rw [if_neg hsk]
              split at hr
              · cases hr
              · rename_i hic
                try simp only [hic]
                unfold digComposite at hr ⊢
                split at hr
                · cases hr
                · rename_i wl2 hdg
                  rw [digCompositeLoop_mono h1 h2 d d2 _ _ _ hdg hd]
                  exact hr
                · rename_i wl2 hdg
                  rw [digCompositeLoop_mono h1 h2 d d2 _ _ _ hdg hd]
                  exact ih _ _ _ hr hle2
              · rename_i hic
                try simp only [hic]
                simp only at hr
                split at hr
                · rename_i hc1
                  rw [if_pos hc1]
                  exact hr
                · rename_i hc1
                  rw [if_neg hc1]
                  split at hr
                  · rename_i hc2
                    rw [if_pos hc2]
                    exact hr
                  · rename_i hc2
                    rw [if_neg hc2]
                    exact ih _ _ _ hr hle2

theorem operatorEq_mono (h1 h2 : SymHeap) (fuel fuel2 : Nat) (r : Bool)
    (hr : operatorEq fuel h1 h2 = .ok r) (hle : fuel ≤ fuel2) :
    operatorEq fuel2 h1 h2 = .ok r := by
  unfold operatorEq at hr ⊢
  simp only [ne_eq, not_true_eq_false, if_false] at hr ⊢
  split at hr
  · rename_i hs
    try simp only [hs]
    exact hr
  · rename_i wl hs
    try simp only [hs]
    exact dfsCmp_mono h1 h2 fuel fuel2 fuel fuel2 wl [] r hr hle hle

theorem insertScan_false (fuel : Nat) (heap : SymHeap) (U : List SymHeap) :
    insertScan fuel heap U = .ok false ↔ ∀ cur ∈ U, operatorEq fuel heap cur = .ok false := by
  induction U with
  | nil => simp [insertScan]
  | cons cur rest ih =>
    simp only [insertScan, List.mem_cons, forall_eq_or_imp]
    split
    · rename_i e he
      simp [he]
    · rename_i he
      simp [he]
    · rename_i he
      simp [he, ih]

theorem insert_pairwise (fuel : Nat) (U U2 : SymHeapUnion) (heap : SymHeap)
    (hp : U.Pairwise fun a b => operatorEq fuel b a = .ok false)
    (hi : SymHeapUnion.insert fuel U heap = .ok U2) :
    U2.Pairwise fun a b => operatorEq fuel b a = .ok false := by
  unfold SymHeapUnion.insert at hi
  split at hi
  · cases hi
  · cases hi
    exact hp
  · rename_i hs
    cases hi
    rw [List.pairwise_append]
    refine ⟨hp, List.pairwise_singleton _ _, ?_⟩
    intro a ha b hb
    simp only [List.mem_singleton] at hb
    subst hb
    exact (insertScan_false fuel b U).mp hs a ha

theorem insertUnion_pairwise (fuel : Nat) (huni : List SymHeap) (U U2 : SymHeapUnion)
    (hp : U.Pairwise fun a b => operatorEq fuel b a = .ok false)
    (hi : SymHeapUnion.insertUnion fuel U huni = .ok U2) :
    U2.Pairwise fun a b => operatorEq fuel b a = .ok false := by
  induction huni generalizing U with
  | nil =>
    simp only [SymHeapUnion.insertUnion] at hi
    cases hi
    exact hp
  | cons cur rest ih =>
    simp only [SymHeapUnion.insertUnion] at hi
    split at hi
    · cases hi
    · rename_i U1 h1
      exact ih U1 (insert_pairwise fuel U U1 cur hp h1) hi

theorem reachable_pairwise (fuel : Nat) (U : SymHeapUnion) (hU : UnionReachable fuel U) :
    U.Pairwise fun a b => operatorEq fuel b a = .ok false := by
  induction hU with
  | empty => exact List.Pairwise.nil
  | insert U U2 heap _ hi ih => exact insert_pairwise fuel U U2 heap ih hi
  | insertUnion U U2 huni _ hi ih => exact insertUnion_pairwise fuel huni U U2 ih hi

theorem ne_true_of_false (fuel fuel2 : Nat) (a b : SymHeap)
    (h : operatorEq fuel a b = .ok false) : operatorEq fuel2 a b ≠ .ok true := by
  intro h2
  rcases Nat.le_total fuel fuel2 with hle | hle
  · rw [operatorEq_mono a b fuel fuel2 false h hle] at h2
    cases h2
  · rw [operatorEq_mono a b fuel2 fuel true h2 hle] at h
    cases h

/-- C6: a union obtained from the empty union by any sequence of `insert(heap)` and
`insert(union)` calls contains no two distinct positions whose heaps are mutually
isomorphic, whatever the fuel `fuel2` of the two comparisons: of the heaps at two
distinct positions, the later one has been compared with the earlier one when it was
inserted, with the result `false`. -/
theorem union_no_mutual_isomorphism (fuel fuel2 : Nat) (U : SymHeapUnion)
    (hU : UnionReachable fuel U) (i j : Nat) (hi : i < U.length) (hj : j < U.length)
    (hij : i ≠ j) :
    ¬(operatorEq fuel2 (U.get ⟨i, hi⟩) (U.get ⟨j, hj⟩) = .ok true ∧
      operatorEq fuel2 (U.get ⟨j, hj⟩) (U.get ⟨i, hi⟩) = .ok true) := by
  have hp := reachable_pairwise fuel U hU
  rw [List.pairwise_iff_get] at hp
  intro hboth
  rcases Nat.lt_or_gt_of_ne hij with hlt | hgt
  · exact ne_true_of_false fuel fuel2 _ _ (hp ⟨i, hi⟩ ⟨j, hj⟩ hlt) hboth.2
  · exact ne_true_of_false fuel fuel2 _ _ (hp ⟨j, hj⟩ ⟨i, hi⟩ hgt) hboth.1

theorem toInt32_of_lt (n : Nat) (h : n < 2 ^ 31) : toInt32 n = (n : Int) := by
  unfold toInt32
  have h1 : n % 2 ^ 32 = n := Nat.mod_eq_of_lt (by omega)
  rw [h1, if_pos h]

theorem lookupLoop_spec (fuel : Nat) (heap : SymHeap) (cnt : Int) (rest : List SymHeap)
    (idx : Int) (hcnt : idx + rest.length ≤ cnt) (r : Int)
    (hr : lookupLoop fuel heap cnt rest idx = .ok r) :
    (r = -1 ∧ ∀ cur ∈ rest, operatorEq fuel heap cur = .ok false) ∨
    (∃ i : Nat, ∃ hi : i < rest.length, r = idx + i ∧
      operatorEq fuel heap (rest.get ⟨i, hi⟩) = .ok true ∧
      ∀ j (hj : j < rest.length), j < i → operatorEq fuel heap (rest.get ⟨j, hj⟩) = .ok false) := by
  induction rest generalizing idx with
  | nil =>
    simp only [lookupLoop] at hr
    cases hr
    exact Or.inl ⟨rfl, by simp⟩
  | cons cur rest ih =>
    simp only [List.length_cons, Nat.cast_add, Nat.cast_one] at hcnt
    have hlt : idx < cnt := by omega
    simp only [lookupLoop, if_pos hlt] at hr
    split at hr
    · cases hr
    · rename_i he
      cases hr
      refine Or.inr ⟨0, by simp, by simp, by simpa using he, ?_⟩
      intro j hj hj0
      omega
    · rename_i he
      rcases ih (idx + 1) (by omega) hr with ⟨h1, h2⟩ | ⟨i, hi, h1, h2, h3⟩
      · refine Or.inl ⟨h1, ?_⟩
        intro c hc
        simp only [List.mem_cons] at hc
        rcases hc with rfl | hc
        · exact he
        · exact h2 c hc
      · refine Or.inr ⟨i + 1, by simpa using hi, by rw [h1]; push_cast; ring, by simpa using h2, ?_⟩
        intro j hj hji
        cases j with
        | zero => simpa using he
        | succ j =>
          simp only [List.get_eq_getElem, List.getElem_cons_succ]
          have := h3 j (by simpa using hj) (by omega)
          simpa using this

theorem lookupLoop_insertScan (fuel : Nat) (heap : SymHeap) (cnt : Int) (rest : List SymHeap)
    (idx : Int) (h0 : 0 ≤ idx) (hcnt : idx + rest.length ≤ cnt) (A B : Except Err SymHeapUnion) :
    (match insertScan fuel heap rest with
      | .error e => (.error e : Except Err SymHeapUnion)
      | .ok true => B
      | .ok false => A) =
    (match lookupLoop fuel heap cnt rest idx with
      | .error e => .error e
      | .ok r => if r = -1 then A else B) := by
  induction rest generalizing idx with
  | nil => simp [insertScan, lookupLoop]
  | cons cur rest ih =>
    simp only [List.length_cons, Nat.cast_add, Nat.cast_one] at hcnt
    have hlt : idx < cnt := by omega
    simp only [insertScan, lookupLoop, if_pos hlt]
    cases he : operatorEq fuel heap cur with
    | error e => simp
    | ok b =>
      cases b with
      | true =>
        have : ¬ idx = -1 := by omega
        simp [this]
      | false =>
        simp only
        exact ih (idx + 1) (by omega) (by omega)

/-- C7: `insert` is monotone and agrees with `lookup`.  For a union of fewer than `2^31`
heaps (its size is converted to `int`): `lookup(h)` returns `-1` when `h == heaps[i]` is
false for all `i`, otherwise the smallest index `i` with `h == heaps[i]`; `insert(h)`
appends `h` at the tail exactly when `lookup(h)` returns `-1` and otherwise leaves the
union unchanged; so all the heaps stored before stay at their indices and the size grows
by at most one. -/
theorem insert_agrees_with_lookup (fuel : Nat) (U : SymHeapUnion) (heap : SymHeap)
    (hsize : U.length < 2 ^ 31) :
    (∀ r, SymHeapUnion.lookup fuel U heap = .ok r →
      (r = -1 ∧ ∀ cur ∈ U, operatorEq fuel heap cur = .ok false) ∨
      (∃ i : Nat, ∃ hi : i < U.length, r = i ∧
        operatorEq fuel heap (U.get ⟨i, hi⟩) = .ok true ∧
        ∀ j (hj : j < U.length), j < i → operatorEq fuel heap (U.get ⟨j, hj⟩) = .ok false)) ∧
    SymHeapUnion.insert fuel U heap =
      (match SymHeapUnion.lookup fuel U heap with
        | .error e => .error e
        | .ok r => if r = -1 then .ok (U ++ [heap]) else .ok U) ∧
    (∀ U2, SymHeapUnion.insert fuel U heap = .ok U2 → U2 = U ∨ U2 = U ++ [heap]) := by
  have hc : toInt32 U.length = (U.length : Int) := toInt32_of_lt _ hsize
  refine ⟨?_, ?_, ?_⟩
  · intro r hr
    unfold SymHeapUnion.lookup at hr
    rw [hc] at hr
    rcases lookupLoop_spec fuel heap (U.length : Int) U 0 (by omega) r hr with h | ⟨i, hi, h1, h2, h3⟩
    · exact Or.inl h
    · exact Or.inr ⟨i, hi, by omega, h2, h3⟩
  · unfold SymHeapUnion.insert SymHeapUnion.lookup
    rw [hc]
    exact lookupLoop_insertScan fuel heap (U.length : Int) U 0 (le_refl _) (by omega) _ _
  · intro U2 h2
    unfold SymHeapUnion.insert at h2
    split at h2
    · cases h2
    · cases h2
      exact Or.inl rfl
    · cases h2
      exact Or.inr rfl

/-! ## Heap equality and state union on concrete heaps -/

theorem cyclicHeap_valuesIn : cyclicHeap.ValuesIn {20, 10, 30, -1} := by
  intro o
  simp only [cyclicHeap, emptyHeap, VAL_INVALID]
  split_ifs <;> simp

theorem cyclicHeap_subObjs :
    cyclicHeap.SubObjsBounded (fun o => if o = 1 then 2 else 0) := by
  intro o t ht hc
  simp only [cyclicHeap, emptyHeap] at ht
  split_ifs at ht with h1 h2 h3
  · cases ht
    subst h1
    decide
  · cases ht
    simp [ptrType] at hc
  · cases ht
    simp [intType] at hc

/-- Witness of C1: the cyclic heap `cyclicHeap` equals itself. -/
theorem operatorEq_refl_witness :
    operatorEq 19 cyclicHeap cyclicHeap = .ok true ∨
      operatorEq 19 cyclicHeap cyclicHeap = .error .TRAP :=
  operatorEq_refl cyclicHeap {20, 10, 30, -1} (fun o => if o = 1 then 2 else 0) 3 19
    (by intro cv hcv; simp [cyclicHeap] at hcv; subst hcv; decide)
    cyclicHeap_valuesIn cyclicHeap_subObjs
    (by intro o; dsimp only; split_ifs <;> omega) (by decide)

/-- C2: heap equality is not symmetric in the code.  The heap without program variables
compares equal to the heap with the variable `(1, 0)`, since both lists of variables are
gathered from the first heap, whereas the comparison with swapped arguments is `false`. -/
theorem operatorEq_not_symmetric :
    operatorEq 5 emptyHeap heapOneVar = .ok true ∧
      operatorEq 5 heapOneVar emptyHeap = .ok false := by
  decide

/-- C3: the heap `heapTwoVars 5 7` and the heap obtained from it by the bijective renaming
`5 ↦ 6 ↦ 7 ↦ 5` of its unknown values compare unequal, and the union of the two has the
size 2: the pair `(5, 6)` is recorded as `5 ↦ 6` and the pair `(7, 5)`, sorted to `(5, 7)`,
then mismatches. -/
theorem operatorEq_renaming_rejected :
    Function.LeftInverse rotate567Inv rotate567 ∧
      Function.RightInverse rotate567Inv rotate567 ∧
      operatorEq 5 (heapTwoVars 5 7)
        ((heapTwoVars 5 7).renameVals rotate567 rotate567Inv) = .ok false ∧
      (SymHeapUnion.insertUnion 5 []
        [heapTwoVars 5 7, (heapTwoVars 5 7).renameVals rotate567 rotate567Inv]).map
          List.length = .ok 2 := by
  refine ⟨?_, ?_, by decide, by decide⟩
  · intro v
    simp only [rotate567, rotate567Inv]
    split_ifs <;> omega
  · intro v
    simp only [rotate567, rotate567Inv]
    split_ifs <;> omega

/-- C4: the heap `heapTwoVars 0 5` has the program variable `(2, 0)`, which the heap
`heapOneVar` lacks, and still `heapOneVar == heapTwoVars 0 5` returns `true`: the
variables of the second heap are never gathered. -/
theorem operatorEq_ignores_variables_of_heap2 :
    heapOneVar.gatherCVars = [⟨1, 0⟩] ∧ (heapTwoVars 0 5).gatherCVars = [⟨1, 0⟩, ⟨2, 0⟩] ∧
      operatorEq 5 heapOneVar (heapTwoVars 0 5) = .ok true := by
  decide

/-- C5: the heaps `emptyHeap` and `heapOneVar` satisfy `emptyHeap == heapOneVar`, and yet
the union has the size 2 after the insertion of the one and then of the other: `insert`
compares `heapOneVar == emptyHeap`, which is `false`. -/
theorem insert_equal_heaps_size_two :
    operatorEq 5 emptyHeap heapOneVar = .ok true ∧
      ((SymHeapUnion.insert 5 [] emptyHeap).bind fun U =>
        (SymHeapUnion.insert 5 U heapOneVar).map List.length) = .ok 2 := by
  decide

/-- Witness of C6: the union of `emptyHeap` and `heapOneVar`. -/
theorem union_no_mutual_isomorphism_witness :
    ¬(operatorEq 7 emptyHeap heapOneVar = .ok true ∧
      operatorEq 7 heapOneVar emptyHeap = .ok true) :=
  union_no_mutual_isomorphism 5 7 [emptyHeap, heapOneVar]
    (UnionReachable.insert [emptyHeap] [emptyHeap, heapOneVar] heapOneVar
      (UnionReachable.insert [] [emptyHeap] emptyHeap UnionReachable.empty rfl) rfl)
    0 1 (by decide) (by decide) (by decide)

/-- Witness of C7: the insertion of `heapOneVar` into the union of `emptyHeap`. -/
theorem insert_agrees_with_lookup_witness :
    SymHeapUnion.insert 5 [emptyHeap] heapOneVar =
      (match SymHeapUnion.lookup 5 [emptyHeap] heapOneVar with
        | .error e => .error e
        | .ok r => if r = -1 then .ok ([emptyHeap] ++ [heapOneVar]) else .ok [emptyHeap]) :=
  (insert_agrees_with_lookup 5 [emptyHeap] heapOneVar (by decide)).2.1

/-! ## Abstraction threshold -/

theorem toUInt32_of_lt (x : Int) (h0 : 0 ≤ x) (h : x < 2 ^ 32) : toUInt32 x = x.toNat := by
  unfold toUInt32
  rw [Int.emod_eq_of_lt h0 h]

theorem threshold_len (L a b : Nat) (hab : a + b = 1) (h2 : 2 ≤ L)
    (hL : L < 2 ^ 31) :
    (toInt32 (toUInt32 ((L : Int) - (a : Int) - (b : Int)))).toNat = L - 1 := by
  have h1 : (L : Int) - (a : Int) - (b : Int) = ((L - 1 : Nat) : Int) := by omega
  rw [h1, toUInt32_of_lt _ (by omega) (by omega), Int.toNat_ofNat,
    toInt32_of_lt _ (by omega), Int.toNat_ofNat]

theorem slsThreshold_sum :
    toUInt32 (slsThreshold.sparePrefix + slsThreshold.innerSegLen + slsThreshold.spareSuffix : Nat)
      = 2 := by
  decide

theorem dlsThreshold_sum :
    toUInt32 (dlsThreshold.sparePrefix + dlsThreshold.innerSegLen + dlsThreshold.spareSuffix : Nat)
      = 2 := by
  decide

theorem considerSegAbstraction_sls (fuel : Nat) (sh : SymHeap) (obj : Int)
    (icNext icPrev : TFieldIdxChain) (L : Nat) (hL : L < 2 ^ 31) :
    considerSegAbstraction fuel sh obj .OK_SLS icNext icPrev L =
      if L < 2 then .ok (false, sh)
      else
        match skipObj sh obj icNext with
        | .error e => .error e
        | .ok obj1 =>
          match slSegAbstractionSteps fuel icNext (L - 1) sh obj1 with
          | .error e => .error e
          | .ok (sh1, _) => .ok (true, sh1) := by
  unfold considerSegAbstraction
  simp only [slsThreshold_sum]
  by_cases h : L < 2
  · simp only [h, if_true]
  · simp only [h, if_false]
    have hlen : (toInt32 (toUInt32 ((L : Int) - (slsThreshold.sparePrefix : Int) -
        (slsThreshold.spareSuffix : Int)))).toNat = L - 1 :=
      threshold_len L 1 0 rfl (by omega) hL
    have hp : (toInt32 slsThreshold.sparePrefix).toNat = 1 := by decide
    rw [hlen, hp]
    simp only [skipObjs, if_true]
    cases skipObj sh obj icNext <;> rfl

theorem considerSegAbstraction_dls (fuel : Nat) (sh : SymHeap) (obj : Int)
    (icNext icPrev : TFieldIdxChain) (L : Nat) (hL : L < 2 ^ 31) :
    considerSegAbstraction fuel sh obj .OK_DLS icNext icPrev L =
      if L < 2 then .ok (false, sh)
      else
        match dlSegAbstractionSteps fuel icNext icPrev (L - 1) sh obj with
        | .error e => .error e
        | .ok (sh1, _) => .ok (true, sh1) := by
  unfold considerSegAbstraction
  simp only [dlsThreshold_sum]
  by_cases h : L < 2
  · simp only [h, if_true]
  · simp only [h, if_false]
    have hlen : (toInt32 (toUInt32 ((L : Int) - (dlsThreshold.sparePrefix : Int) -
        (dlsThreshold.spareSuffix : Int)))).toNat = L - 1 :=
      threshold_len L 0 1 rfl (by omega) hL
    have hp : (toInt32 dlsThreshold.sparePrefix).toNat = 0 := by decide
    rw [hlen, hp]
    simp only [skipObjs]
    rfl

/-- C8: the abstraction threshold.  For a discovered length `L` (below `2^31`, as the
number of objects of a heap is) and the kinds SLS and DLS, `considerSegAbstraction`
returns `false`, with the heap unchanged, iff `L < 2`; for `L ≥ 2` it performs exactly
`L - 1` abstraction steps and returns `true` (unless a step hits an error), the SLS steps
starting at the object that follows `obj`, the DLS steps at `obj` itself.  In particular
the length 1 is never abstracted and the length 2 yields exactly one step. -/
theorem considerSegAbstraction_threshold (fuel : Nat) (sh : SymHeap) (obj : Int)
    (icNext icPrev : TFieldIdxChain) (L : Nat) (hL : L < 2 ^ 31) :
    (∀ kind sh2, kind ≠ EObjKind.OK_CONCRETE →
      (considerSegAbstraction fuel sh obj kind icNext icPrev L = .ok (false, sh2) ↔
        L < 2 ∧ sh2 = sh)) ∧
    (2 ≤ L →
      considerSegAbstraction fuel sh obj .OK_SLS icNext icPrev L =
        (match skipObj sh obj icNext with
          | .error e => .error e
          | .ok obj1 =>
            match slSegAbstractionSteps fuel icNext (L - 1) sh obj1 with
            | .error e => .error e
            | .ok (sh1, _) => .ok (true, sh1)) ∧
      considerSegAbstraction fuel sh obj .OK_DLS icNext icPrev L =
        (match dlSegAbstractionSteps fuel icNext icPrev (L - 1) sh obj with
          | .error e => .error e
          | .ok (sh1, _) => .ok (true, sh1))) ∧
    (L = 2 →
      considerSegAbstraction fuel sh obj .OK_SLS icNext icPrev L =
        (match skipObj sh obj icNext with
          | .error e => .error e
          | .ok obj1 =>
            match slSegAbstractionStep fuel sh obj1 icNext with
            | .error e => .error e
            | .ok (sh1, _) => .ok (true, sh1)) ∧
      considerSegAbstraction fuel sh obj .OK_DLS icNext icPrev L =
        (match dlSegAbstractionStep fuel sh obj icNext icPrev with
          | .error e => .error e
          | .ok (sh1, _) => .ok (true, sh1))) := by
  have hs := considerSegAbstraction_sls fuel sh obj icNext icPrev L hL
  have hd := considerSegAbstraction_dls fuel sh obj icNext icPrev L hL
  refine ⟨?_, ?_, ?_⟩
  · intro kind sh2 hk
    cases kind with
    | OK_CONCRETE => exact absurd rfl hk
    | OK_SLS =>
      rw [hs]
      by_cases h : L < 2
      · simp only [h, if_true, Except.ok.injEq, Prod.mk.injEq, true_and]
        exact ⟨fun h => h.symm, fun h => h.symm⟩
      · simp only [h, if_false, false_and, iff_false]
        cases skipObj sh obj icNext with
        | error e => simp
        | ok obj1 =>
          simp only
          cases slSegAbstractionSteps fuel icNext (L - 1) sh obj1 with
          | error e => simp
          | ok r => simp
    | OK_DLS =>
      rw [hd]
      by_cases h : L < 2
      · simp only [h, if_true, Except.ok.injEq, Prod.mk.injEq, true_and]
        exact ⟨fun h => h.symm, fun h => h.symm⟩
      · simp only [h, if_false, false_and, iff_false]
        cases dlSegAbstractionSteps fuel icNext icPrev (L - 1) sh obj with
        | error e => simp
        | ok r => simp
  · intro h2
    rw [hs, hd]
    have h : ¬ L < 2 := by omega
    simp only [h, if_false, and_self]
  · intro h2
    subst h2
    rw [hs, hd]
    simp only [show ¬ (2 < 2) by omega, if_false, show 2 - 1 = 1 by rfl, slSegAbstractionSteps,
      dlSegAbstractionSteps]
    constructor
    · cases skipObj sh obj icNext with
      | error e => rfl
      | ok obj1 =>
        simp only
        cases slSegAbstractionStep fuel sh obj1 icNext with
        | error e => rfl
        | ok r => rfl
    · cases dlSegAbstractionStep fuel sh obj icNext icPrev with
      | error e => rfl
      | ok r => rfl

/-- Witness of C8: the list of three nodes and the length 2. -/
theorem considerSegAbstraction_threshold_witness :
    considerSegAbstraction 3 (sllHeap 3) 2 .OK_SLS [0] [] 2 =
      (match skipObj (sllHeap 3) 2 [0] with
        | .error e => .error e
        | .ok obj1 =>
          match slSegAbstractionStep 3 (sllHeap 3) obj1 [0] with
          | .error e => .error e
          | .ok (sh1, _) => .ok (true, sh1)) :=
  ((considerSegAbstraction_threshold 3 (sllHeap 3) 2 [0] [] 2 (by decide)).2.2 rfl).1

/-! ## Termination of the segment discovery -/

theorem helperObj_getItemClt (sh : SymHeap) (o : Int) :
    helperObj.getItemClt sh o = .ok (sh.objType o) := rfl

theorem helperObj_getNextItem (sh : SymHeap) (o : Int) (i : Int) :
    helperObj.getNextItem sh o i = sh.subObj o i := rfl

theorem traverseItems_obj (vis : TVisitor Int) (sh : SymHeap) (size : Int → Nat)
    (hv : ∀ o r, vis sh o = .ok r → r.2 = sh)
    (hve : ∀ o e, vis sh o = .error e → e = .TRAP)
    (item : Int) (n : Nat) (i : Int) (todo : List Int) :
    (∀ e, traverseItems helperObj vis item n i sh todo = .error e → e = .TRAP) ∧
    ∀ b sh1 todo1, traverseItems helperObj vis item n i sh todo = .ok (b, sh1, todo1) →
      sh1 = sh ∧ objsWeight size todo1 ≤ objsWeight size todo +
        ((List.range n).map fun (j : Nat) => size (sh.subObj item (i + (j : Int))) + 1).sum := by
  induction n generalizing i todo with
  | zero =>
    simp only [traverseItems]
    refine ⟨(by intro e h; cases h), ?_⟩
    intro b sh1 todo1 h
    cases h
    simp
  | succ n ih =>
    simp only [traverseItems]
    cases hvis : vis sh (helperObj.getNextItem sh item i) with
    | error e =>
      simp only
      refine ⟨(by intro e2 h; cases h; exact hve _ _ hvis), (by intro b sh1 todo1 h; cases h)⟩
    | ok r =>
      obtain ⟨b, sh2⟩ := r
      have hsh : sh2 = sh := hv _ _ hvis
      subst hsh
      cases b with
      | false =>
        simp only
        refine ⟨(by intro e h; cases h), ?_⟩
        intro b sh1 todo1 h
        cases h
        exact ⟨rfl, Nat.le_add_right _ _⟩
      | true =>
        simp only [helperObj_getItemClt, helperObj_getNextItem]
        obtain ⟨hA, hB⟩ := ih (i + 1)
          (if isStruct (sh2.objType (sh2.subObj item i)) then sh2.subObj item i :: todo else todo)
        refine ⟨hA, ?_⟩
        intro b sh1 todo1 h
        obtain ⟨h1, h2⟩ := hB b sh1 todo1 h
        refine ⟨h1, le_trans h2 ?_⟩
        rw [List.range_succ_eq_map]
        simp only [List.map_cons, List.sum_cons, List.map_map, Nat.cast_zero, add_zero]
        have hfun : (fun j : Nat => size (sh2.subObj item (i + 1 + (j : Int))) + 1) =
            ((fun j : Nat => size (sh2.subObj item (i + (j : Int))) + 1) ∘ Nat.succ) := by
          funext j
          simp only [Function.comp, Nat.succ_eq_add_one, Nat.cast_add, Nat.cast_one]
          congr 3
          ring
        rw [hfun]
        split
        · simp only [objsWeight, List.map_cons, List.sum_cons]
          omega
        · simp only [objsWeight]
          omega

theorem traverseSubObjsLoop_obj (vis : TVisitor Int) (sh : SymHeap) (size : Int → Nat)
    (hv : ∀ o r, vis sh o = .ok r → r.2 = sh)
    (hve : ∀ o e, vis sh o = .error e → e = .TRAP)
    (hsz : sh.SubObjsBounded size) (fuel : Nat) (todo : List Int)
    (hf : objsWeight size todo ≤ fuel) :
    (∀ e, traverseSubObjsLoop helperObj vis fuel sh todo = .error e → e = .TRAP) ∧
    ∀ r, traverseSubObjsLoop helperObj vis fuel sh todo = .ok r → r.2 = sh := by
  induction fuel generalizing todo with
  | zero =>
    cases todo with
    | nil =>
      simp only [traverseSubObjsLoop]
      exact ⟨(by intro e h; cases h), (by intro r h; cases h; rfl)⟩
    | cons o rest => simp [objsWeight] at hf
  | succ fuel ih =>
    cases todo with
    | nil =>
      simp only [traverseSubObjsLoop]
      exact ⟨(by intro e h; cases h), (by intro r h; cases h; rfl)⟩
    | cons o rest =>
      simp only [traverseSubObjsLoop, helperObj_getItemClt]
      cases hty : sh.objType o with
      | none =>
        simp only
        exact ⟨(by intro e h; cases h; rfl), (by intro r h; cases h)⟩
      | some t =>
        simp only
        by_cases hc : t.code = cl_type_e.CL_TYPE_STRUCT
        · simp only [hc, ne_eq, not_true_eq_false, if_false]
          obtain ⟨hA, hB⟩ := traverseItems_obj vis sh size hv hve o t.item_cnt.toNat 0 rest
          cases hti : traverseItems helperObj vis o t.item_cnt.toNat 0 sh rest with
          | error e =>
            simp only
            exact ⟨(by intro e2 h; cases h; exact hA _ hti), (by intro r h; cases h)⟩
          | ok r =>
            obtain ⟨b, sh1, todo1⟩ := r
            obtain ⟨h1, h2⟩ := hB b sh1 todo1 hti
            subst h1
            cases b with
            | false =>
              simp only
              exact ⟨(by intro e h; cases h), (by intro r h; cases h; rfl)⟩
            | true =>
              simp only
              apply ih todo1
              have hb := hsz o t hty hc
              simp only [zero_add] at h2
              simp only [objsWeight, List.map_cons, List.sum_cons] at hf h2 ⊢
              omega
        · simp only [ne_eq, hc, not_false_eq_true, if_true]
          exact ⟨(by intro e h; cases h; rfl), (by intro r h; cases h)⟩

theorem doesAnyonePointToInside_err (sh : SymHeap) (size : Int → Nat)
    (hsz : sh.SubObjsBounded size) (fuel : Nat) (hd : ∀ o, size o < fuel) (obj : Int)
    (e : Err) (he : doesAnyonePointToInside fuel sh obj = .error e) : e = .TRAP := by
  unfold doesAnyonePointToInside traverseSubObjs at he
  obtain ⟨hA, _⟩ := traverseSubObjsLoop_obj doesAnyonePointToInsideVisitor sh size
    (by intro o r h; simp only [doesAnyonePointToInsideVisitor] at h; cases h; rfl)
    (by intro o e h; simp only [doesAnyonePointToInsideVisitor] at h; cases h)
    hsz fuel [obj] (by
      have := hd obj
      simp only [objsWeight, List.map_cons, List.map_nil, List.sum_cons, List.sum_nil]
      omega)
  split at he
  · rename_i e2 h2
    cases he
    exact hA _ h2
  · cases he

theorem ProbeVisitor_call_err (pv : ProbeVisitor) (sh : SymHeap) (size : Int → Nat)
    (hsz : sh.SubObjsBounded size) (fuel : Nat) (hd : ∀ o, size o < fuel) (obj : Int)
    (e : Err) (he : pv.call fuel sh obj = .error e) : e = .TRAP := by
  unfold ProbeVisitor.call at he
  dsimp only at he
  split at he
  · cases he
  · split at he
    · cases he
    · split at he
      · cases he
        rfl
      · split at he
        · cases he
        · split at he
          · cases he
          · exact doesAnyonePointToInside_err sh size hsz fuel hd _ e he

theorem ProbeVisitor_mk1_err (sh : SymHeap) (root : Int) (kind : EObjKind) (e : Err)
    (he : ProbeVisitor.mk1 sh root kind = .error e) : e = .TRAP := by
  unfold ProbeVisitor.mk1 at he
  dsimp only at he
  split at he
  · cases he
    rfl
  · split at he
    · cases he
      rfl
    · split at he
      · cases he
        rfl
      · cases he

theorem skipObj_err (sh : SymHeap) (obj : Int) (ic : TFieldIdxChain) (e : Err)
    (he : skipObj sh obj ic = .error e) : e = .TRAP := by
  unfold skipObj at he
  dsimp only at he
  split at he
  · cases he
    rfl
  · cases he

theorem discoverSegNext_spec (sh : SymHeap) (size : Int → Nat)
    (hsz : sh.SubObjsBounded size) (fuel : Nat) (hd : ∀ o, size o < fuel) (kind : EObjKind)
    (icBind icPeer : TFieldIdxChain) (obj : Int) :
    (∀ e, discoverSegNext fuel sh kind icBind icPeer obj = .error e → e = .TRAP) ∧
    ∀ objNext, discoverSegNext fuel sh kind icBind icPeer obj = .ok (some objNext) →
      0 < objNext ∧ ∃ v, objNext = sh.pointsTo v := by
  unfold discoverSegNext
  dsimp only
  cases hmk : ProbeVisitor.mk1 sh obj kind with
  | error e =>
    simp only
    exact ⟨(by intro e2 h; cases h; exact ProbeVisitor_mk1_err _ _ _ _ hmk),
      (by intro o h; cases h)⟩
  | ok pv =>
    simp only
    cases hcall : pv.call fuel sh (subObjByChain sh obj icBind) with
    | error e =>
      simp only
      exact ⟨(by intro e2 h; cases h; exact ProbeVisitor_call_err pv sh size hsz fuel hd _ _ hcall),
        (by intro o h; cases h)⟩
    | ok b =>
      cases b with
      | true =>
        simp only
        exact ⟨(by intro e h; cases h), (by intro o h; cases h)⟩
      | false =>
        simp only
        split
        · exact ⟨(by intro e h; cases h), (by intro o h; cases h)⟩
        · rename_i hpos
          split
          · split
            · exact ⟨(by intro e h; cases h), (by intro o h; cases h)⟩
            · refine ⟨(by intro e h; cases h), ?_⟩
              intro o h
              cases h
              exact ⟨not_le.mp hpos, _, rfl⟩
          · refine ⟨(by intro e h; cases h), ?_⟩
            intro o h
            cases h
            exact ⟨not_le.mp hpos, _, rfl⟩

theorem card_sdiff_cons_lt (objs : Finset Int) (path : List Int) (o : Int)
    (ho : o ∈ objs) (hn : o ∉ path) :
    (objs \ (o :: path).toFinset).card + 1 ≤ (objs \ path.toFinset).card := by
  have hmem : o ∈ objs \ path.toFinset := by simp [ho, hn]
  have h1 : objs \ (o :: path).toFinset = (objs \ path.toFinset).erase o := by
    ext y
    simp only [List.toFinset_cons, Finset.mem_sdiff, Finset.mem_insert, Finset.mem_erase,
      List.mem_toFinset]
    tauto
  rw [h1, Finset.card_erase_of_mem hmem]
  have : 0 < (objs \ path.toFinset).card := Finset.card_pos.mpr ⟨o, hmem⟩
  omega

theorem card_sdiff_cons_le (objs : Finset Int) (path : List Int) (o : Int) :
    (objs \ (o :: path).toFinset).card ≤ (objs \ path.toFinset).card := by
  apply Finset.card_le_card
  intro y
  simp only [List.toFinset_cons, Finset.mem_sdiff, Finset.mem_insert, List.mem_toFinset]
  tauto

theorem discoverSegLoop_err (sh : SymHeap) (objs : Finset Int) (size : Int → Nat)
    (hobjs : ∀ v, 0 < sh.pointsTo v → sh.pointsTo v ∈ objs)
    (hsz : sh.SubObjsBounded size) (fuel : Nat) (hd : ∀ o, size o < fuel) (kind : EObjKind)
    (icBind icPeer : TFieldIdxChain) (n : Nat) (st : DiscoverState)
    (hin : st.obj ∈ objs) (hn : (objs \ st.path.toFinset).card ≤ n) (e : Err)
    (he : discoverSegLoop fuel sh kind icBind icPeer n st = .error e) : e = .TRAP := by
  induction n generalizing st with
  | zero =>
    unfold discoverSegLoop at he
    split at he
    · cases he
    · rename_i hnot
      have := card_sdiff_cons_lt objs st.path st.obj hin hnot
      omega
  | succ n ih =>
    unfold discoverSegLoop at he
    split at he
    · cases he
    · rename_i hnot
      have hlt := card_sdiff_cons_lt objs st.path st.obj hin hnot
      dsimp only at he
      split at he
      · rename_i e2 hdls
        cases he
        split at hdls
        · split at hdls
          · cases hdls
            rfl
          · split at hdls
            · cases hdls
            · split at hdls
              · rename_i e3 hsk
                cases hdls
                exact skipObj_err _ _ _ _ hsk
              · split at hdls
                · cases hdls
                · cases hdls
        · cases hdls
      · cases he
      · rename_i st1 hdls
        have hst1 : (objs \ st1.path.toFinset).card ≤ n := by
          split at hdls
          · split at hdls
            · cases hdls
            · split at hdls
              · cases hdls
              · split at hdls
                · cases hdls
                · split at hdls
                  · cases hdls
                  · simp only [Except.ok.injEq, Option.some.injEq] at hdls
                    subst hdls
                    have := card_sdiff_cons_le objs (st.obj :: st.path) ‹Int›
                    simp only at this ⊢
                    omega
          · simp only [Except.ok.injEq, Option.some.injEq] at hdls
            subst hdls
            simp only
            omega
        obtain ⟨hA, hB⟩ := discoverSegNext_spec sh size hsz fuel hd kind icBind icPeer st1.obj
        split at he
        · rename_i e2 hnx
          cases he
          exact hA _ hnx
        · cases he
        · rename_i objNext hnx
          obtain ⟨hpos, v, hv⟩ := hB objNext hnx
          apply ih _ _ _ he
          · simp only
            rw [hv]
            apply hobjs
            rw [← hv]
            exact hpos
          · exact hst1

/-- C10: segment discovery terminates, also on cyclic heaps.  Let `objs` be a finite set
of objects that holds the entry object and every object that a pointer value of the heap
points to, and let the trees of sub-objects be bounded (`size < fuel`).  Then the loop of
`discoverSeg` makes at most `objs.card` iterations: run with that many units of loop fuel
it returns a length or hits a `TRAP`, and never runs out of fuel. -/
theorem discoverSeg_terminates (sh : SymHeap) (objs : Finset Int) (size : Int → Nat)
    (fuel : Nat) (entry : Int) (kind : EObjKind) (icBind icPeer : TFieldIdxChain)
    (hentry : entry ∈ objs) (hobjs : ∀ v, 0 < sh.pointsTo v → sh.pointsTo v ∈ objs)
    (hsz : sh.SubObjsBounded size) (hd : ∀ o, size o < fuel) :
    (∃ len, discoverSeg fuel objs.card sh entry kind icBind icPeer = .ok len) ∨
      discoverSeg fuel objs.card sh entry kind icBind icPeer = .error .TRAP := by
  unfold discoverSeg
  cases hl : discoverSegLoop fuel sh kind icBind icPeer objs.card ⟨entry, [], 0⟩ with
  | error e =>
    have := discoverSegLoop_err sh objs size hobjs hsz fuel hd kind icBind icPeer objs.card
      ⟨entry, [], 0⟩ hentry (by simp) e hl
    subst this
    exact Or.inr rfl
  | ok st =>
    simp only
    split
    · exact Or.inl ⟨_, rfl⟩
    · exact Or.inl ⟨_, rfl⟩

theorem ringHeap_subObjs :
    ringHeap.SubObjsBounded (fun o => if o = 2 ∨ o = 4 then 1 else 0) := by
  intro o t ht hc
  have ho : o = 2 ∨ o = 4 := by
    simp only [ringHeap, sllHeap] at ht
    split_ifs at ht with h1 h2 h3
    · omega
    · cases ht
      simp [itemPtrType] at hc
    · cases ht
      simp [itemPtrType] at hc
  rcases ho with rfl | rfl
  · have : t = itemType := by
      have h2 : ringHeap.objType 2 = some itemType := rfl
      rw [h2] at ht
      exact (Option.some.inj ht).symm
    subst this
    decide
  · have : t = itemType := by
      have h2 : ringHeap.objType 4 = some itemType := rfl
      rw [h2] at ht
      exact (Option.some.inj ht).symm
    subst this
    decide

theorem ringHeap_pointsTo (v : Int) (h : 0 < ringHeap.pointsTo v) :
    ringHeap.pointsTo v ∈ ({1, 2, 3, 4, 5} : Finset Int) := by
  simp only [ringHeap, sllHeap] at h ⊢
  split_ifs at h ⊢ with h1
  · simp only [Finset.mem_insert, Finset.mem_singleton]
    omega
  · simp [OBJ_INVALID] at h

/-- Witness of C10: the discovery on the ring of two nodes. -/
theorem discoverSeg_terminates_witness :
    (∃ len, discoverSeg 2 5 ringHeap 2 .OK_SLS [0] [] = .ok len) ∨
      discoverSeg 2 5 ringHeap 2 .OK_SLS [0] [] = .error .TRAP :=
  discoverSeg_terminates ringHeap {1, 2, 3, 4, 5} (fun o => if o = 2 ∨ o = 4 then 1 else 0) 2 2
    .OK_SLS [0] [] (by decide) ringHeap_pointsTo ringHeap_subObjs
    (by intro o; dsimp only; split_ifs <;> omega)

/-! ## Folding of a singly-linked list -/

theorem traverseSubObjs_item (sh : SymHeap) (o : Int) (f : Nat) (vis : TVisitor Int)
    (b : Bool) (hI : ItemAt sh o) (hv : vis sh (o + 1) = .ok (b, sh)) :
    traverseSubObjs helperObj (f + 1) sh o vis = .ok (b, sh) := by
  have hc : itemType.item_cnt.toNat = 1 := rfl
  have hcode : itemType.code = cl_type_e.CL_TYPE_STRUCT := rfl
  simp only [traverseSubObjs, traverseSubObjsLoop, helperObj_getItemClt, hI.type_node, hcode,
    ne_eq, not_true_eq_false, if_false, hc, traverseItems, helperObj_getNextItem, hI.sub, hv]
  cases b with
  | false => rfl
  | true =>
    simp only [hI.type_next, isStruct, itemPtrType]
    cases f <;> rfl

theorem doesAnyonePointToInside_item (sh : SymHeap) (o : Int) (f : Nat) (hI : ItemAt sh o) :
    doesAnyonePointToInside (f + 1) sh o =
      .ok (!(sh.usedByCount (sh.placedAt (o + 1)) == 0)) := by
  unfold doesAnyonePointToInside
  rw [traverseSubObjs_item sh o f doesAnyonePointToInsideVisitor
    (sh.usedByCount (sh.placedAt (o + 1)) == 0) hI rfl]

theorem mk1_item (sh : SymHeap) (o : Int) (hI : ItemAt sh o) (ha : sh.placedAt o ≠ 0) :
    ProbeVisitor.mk1 sh o .OK_SLS = .ok ⟨sh.placedAt o, itemType, 1⟩ := by
  have hcode : cl_type_e.CL_TYPE_STRUCT = itemType.code := rfl
  simp only [ProbeVisitor.mk1, hI.type_node, ha, hcode, ne_eq, not_true_eq_false, or_self,
    if_false, EObjKind.toNat, one_ne_zero]

theorem call_goodLink (sh : SymHeap) (o n : Int) (f : Nat) (hL : GoodLink sh o n) :
    ProbeVisitor.call ⟨sh.placedAt o, itemType, 1⟩ (f + 1) sh (o + 1) = .ok false := by
  have h1 : ¬ (sh.valueOf (o + 1) ≤ 0) := not_le.mpr hL.val_pos
  have h2 : ¬ (sh.placedAt n ≤ 0) := not_le.mpr hL.target_addr
  simp only [ProbeVisitor.call, h1, hL.val_ne, hL.val_type, ne_eq, not_true_eq_false, or_self,
    if_false, hL.val_known, false_and, hL.target, h2, hL.not_cvar, Bool.false_eq_true,
    hL.used, doesAnyonePointToInside_item sh n f hL.target_item, hL.target_inside,
    beq_self_eq_true, Bool.not_true]

theorem call_endLink (pv : ProbeVisitor) (sh : SymHeap) (o : Int) (f : Nat)
    (hE : sh.valueOf (o + 1) ≤ 0) :
    pv.call f sh (o + 1) = .ok true := by
  simp only [ProbeVisitor.call, hE, true_or, if_true]

theorem probe_goodLink (sh : SymHeap) (o n : Int) (f : Nat) (hI : ItemAt sh o)
    (ha : sh.placedAt o ≠ 0) (hin : sh.usedByCount (sh.placedAt (o + 1)) = 0)
    (hL : GoodLink sh o n) : probe (f + 1) sh o .OK_SLS = .ok true := by
  simp only [probe, doesAnyonePointToInside_item sh o f hI, hin, beq_self_eq_true, Bool.not_true,
    mk1_item sh o hI ha]
  rw [traverseSubObjs_item sh o f _ false hI
    (by simp only [ProbeVisitor.visitor, call_goodLink sh o n f hL])]
  rfl

theorem probe_endLink (sh : SymHeap) (o : Int) (f : Nat) (hI : ItemAt sh o)
    (ha : sh.placedAt o ≠ 0) (hin : sh.usedByCount (sh.placedAt (o + 1)) = 0)
    (hE : sh.valueOf (o + 1) ≤ 0) : probe (f + 1) sh o .OK_SLS = .ok false := by
  simp only [probe, doesAnyonePointToInside_item sh o f hI, hin, beq_self_eq_true, Bool.not_true,
    mk1_item sh o hI ha]
  rw [traverseSubObjs_item sh o f _ true hI
    (by simp only [ProbeVisitor.visitor, call_endLink _ sh o (f + 1) hE])]
  rfl

theorem subObjByChain_item (sh : SymHeap) (o : Int) (hI : ItemAt sh o) :
    subObjByChain sh o [0] = o + 1 := by
  simp only [subObjByChain, hI.sub, ite_self]

theorem digAnyListSelectors_goodLink (sh : SymHeap) (o n : Int) (f : Nat) (hI : ItemAt sh o)
    (ha : sh.placedAt o ≠ 0) (hL : GoodLink sh o n) :
    digAnyListSelectors (f + 1) [] sh o .OK_SLS = .ok [[0]] := by
  have hc : itemType.item_cnt.toNat = 1 := rfl
  have hcode : itemType.code = cl_type_e.CL_TYPE_STRUCT := rfl
  simp only [digAnyListSelectors, mk1_item sh o hI ha]
  unfold digAnyListSelectorsLoop
  simp only [hI.type_node, hcode, if_true, hc, digItems, hI.sub, call_goodLink sh o n f hL,
    hI.type_next, isStruct, itemPtrType]
  unfold digAnyListSelectorsLoop
  simp

theorem discoverSegNext_goodLink (sh : SymHeap) (o n : Int) (f : Nat) (hI : ItemAt sh o)
    (ha : sh.placedAt o ≠ 0) (hL : GoodLink sh o n) :
    discoverSegNext (f + 1) sh .OK_SLS [0] [] o = .ok (some n) := by
  have hn : ¬ (n ≤ 0) := not_le.mpr hL.target_pos
  simp only [discoverSegNext, subObjByChain_item sh o hI, mk1_item sh o hI ha,
    call_goodLink sh o n f hL, hL.target, hn, if_false]
  rfl

theorem discoverSegNext_endLink (sh : SymHeap) (o : Int) (f : Nat) (hI : ItemAt sh o)
    (ha : sh.placedAt o ≠ 0) (hE : sh.valueOf (o + 1) ≤ 0) :
    discoverSegNext f sh .OK_SLS [0] [] o = .ok none := by
  simp only [discoverSegNext, subObjByChain_item sh o hI, mk1_item sh o hI ha,
    call_endLink _ sh o f hE]

theorem discoverSegLoop_chain (sh : SymHeap) (f : Nat) (chain : List Int) (o : Int)
    (path : List Int) (n : Nat) (hc : ChainLinked sh (o :: chain)) (hnd : (o :: chain).Nodup)
    (hdis : ∀ x ∈ o :: chain, x ∉ path) (hn : (o :: chain).length ≤ n) :
    ∃ last, discoverSegLoop (f + 1) sh .OK_SLS [0] [] n ⟨o, path, 0⟩ =
      .ok ⟨last, (o :: chain).reverse ++ path, 0⟩ := by
  induction chain generalizing o path n with
  | nil =>
    obtain ⟨hI, ha, hk, hE⟩ := hc
    cases n with
    | zero => simp at hn
    | succ n =>
      unfold discoverSegLoop
      have hnot : o ∉ path := hdis o (by simp)
      have hk2 : ¬ (EObjKind.OK_DLS = sh.objKind o) := fun h => hk h.symm
      simp only [hnot, if_false, hk2, discoverSegNext_endLink sh o (f + 1) hI ha hE]
      exact ⟨o, by simp⟩
  | cons nx rest ih =>
    obtain ⟨hI, ha, hk, hL, hrest⟩ := hc
    cases n with
    | zero => simp at hn
    | succ n =>
      unfold discoverSegLoop
      have hnot : o ∉ path := hdis o (by simp)
      have hk2 : ¬ (EObjKind.OK_DLS = sh.objKind o) := fun h => hk h.symm
      simp only [hnot, if_false, hk2, discoverSegNext_goodLink sh o nx f hI ha hL]
      have hnd2 : (nx :: rest).Nodup := (List.nodup_cons.mp hnd).2
      have ho : o ∉ nx :: rest := (List.nodup_cons.mp hnd).1
      obtain ⟨last, hl⟩ := ih nx (o :: path) n hrest hnd2
        (by
          intro x hx hmem
          simp only [List.mem_cons] at hmem
          rcases hmem with rfl | hmem
          · exact ho hx
          · exact hdis x (by simp only [List.mem_cons]; exact Or.inr (List.mem_cons.mp hx)) hmem)
        (by simp only [List.length_cons] at hn ⊢; omega)
      refine ⟨last, ?_⟩
      rw [hl]
      simp

theorem discoverSeg_chain (sh : SymHeap) (f : Nat) (chain : List Int) (o : Int) (n : Nat)
    (hc : ChainLinked sh (o :: chain)) (hnd : (o :: chain).Nodup)
    (hn : (o :: chain).length ≤ n) (hlen : chain.length < 2 ^ 31) :
    discoverSeg (f + 1) n sh o .OK_SLS [0] [] = .ok chain.length := by
  obtain ⟨last, hl⟩ := discoverSegLoop_chain sh f chain o [] n hc hnd (by simp) hn
  unfold discoverSeg
  rw [hl]
  simp only [ne_eq, not_true_eq_false, false_and, if_false, List.append_nil, List.length_reverse,
    List.length_cons, Nat.cast_add, Nat.cast_one, add_sub_cancel_right, sub_zero]
  have h1 : toUInt32 (chain.length : Int) = chain.length := by
    rw [toUInt32_of_lt _ (by omega) (by omega), Int.toNat_ofNat]
  rw [h1, h1]

theorem discoverAllSegments_sls (sh : SymHeap) (f : Nat) (o : Int) (len : Nat)
    (hd : discoverSeg (f + 1) (f + 1) sh o .OK_SLS [0] [] = .ok len) (hpos : 0 < len) :
    discoverAllSegments (f + 1) sh o .OK_SLS [[0]] [] [] = .ok (len, [0], []) := by
  have hcnt : toUInt32 (([[0]] : List TFieldIdxChain).length : Int) = 1 := by decide
  have hne : ¬ (len = 0) := by omega
  simp only [discoverAllSegments, hcnt, one_ne_zero, if_false, List.take, discoverAllSlsLoop, hd,
    hne, hpos, if_true, List.getD_cons_zero]

theorem considerAbstractionLoop_keep (sh : SymHeap) (f : Nat) (L : Int → Nat)
    (entries : List Int) (best : BestCandidate)
    (hsel : ∀ e ∈ entries, digAnyListSelectors (f + 1) [] sh e .OK_SLS = .ok [[0]])
    (hlen : ∀ e ∈ entries, discoverSeg (f + 1) (f + 1) sh e .OK_SLS [0] [] = .ok (L e))
    (hpos : ∀ e ∈ entries, 0 < L e) (hle : ∀ e ∈ entries, L e ≤ best.bestLen) :
    considerAbstractionLoop (f + 1) sh .OK_SLS entries best = .ok best := by
  induction entries with
  | nil => rfl
  | cons e rest ih =>
    simp only [considerAbstractionLoop, hsel e (by simp),
      discoverAllSegments_sls sh f e (L e) (hlen e (by simp)) (hpos e (by simp)),
      hle e (by simp), if_true]
    exact ih (fun x hx => hsel x (by simp [hx])) (fun x hx => hlen x (by simp [hx]))
      (fun x hx => hpos x (by simp [hx])) (fun x hx => hle x (by simp [hx]))

theorem considerAbstractionLoop_first (sh : SymHeap) (f : Nat) (L : Int → Nat)
    (e1 : Int) (rest : List Int)
    (hsel : ∀ e ∈ e1 :: rest, digAnyListSelectors (f + 1) [] sh e .OK_SLS = .ok [[0]])
    (hlen : ∀ e ∈ e1 :: rest, discoverSeg (f + 1) (f + 1) sh e .OK_SLS [0] [] = .ok (L e))
    (hpos : ∀ e ∈ e1 :: rest, 0 < L e) (hle : ∀ e ∈ rest, L e ≤ L e1) :
    considerAbstractionLoop (f + 1) sh .OK_SLS (e1 :: rest) ⟨0, 0, [], []⟩ =
      .ok ⟨L e1, e1, [0], []⟩ := by
  have h1 := hpos e1 (by simp)
  have hn : ¬ (L e1 ≤ 0) := by omega
  simp only [considerAbstractionLoop, hsel e1 (by simp),
    discoverAllSegments_sls sh f e1 (L e1) (hlen e1 (by simp)) h1, hn, if_false]
  exact considerAbstractionLoop_keep sh f L rest ⟨L e1, e1, [0], []⟩
    (fun x hx => hsel x (by simp [hx])) (fun x hx => hlen x (by simp [hx]))
    (fun x hx => hpos x (by simp [hx])) hle

theorem gatherEntries_sls (sh : SymHeap) (f : Nat) (P : Int → Bool) (roots : List Int)
    (sl dl : List Int)
    (h : ∀ r ∈ roots, (sh.cVar r = true ∧ P r = false) ∨
      (sh.cVar r = false ∧ sh.placedAt r ≠ VAL_INVALID ∧ sh.usedByCount (sh.placedAt r) = 1 ∧
        probe (f + 1) sh r .OK_SLS = .ok (P r))) :
    gatherEntries (f + 1) sh roots (sl, dl) = .ok (sl ++ roots.filter (fun r => P r), dl) := by
  induction roots generalizing sl with
  | nil => simp [gatherEntries]
  | cons r rest ih =>
    have hrest := fun x hx => h x (List.mem_cons_of_mem r hx)
    rcases h r (by simp) with ⟨hc, hp⟩ | ⟨hc, ha, hu, hp⟩
    · simp only [gatherEntries, hc, if_true, List.filter_cons, hp, Bool.false_eq_true, if_false]
      exact ih sl hrest
    · have ha2 : ¬ (VAL_INVALID = sh.placedAt r) := fun h => ha h.symm
      simp only [gatherEntries, hc, Bool.false_eq_true, if_false, ha2, hu, if_true, hp,
        List.filter_cons]
      cases hP : P r with
      | true =>
        simp only [if_true]
        rw [ih (sl ++ [r]) hrest]
        simp
      | false =>
        simp only [Bool.false_eq_true, if_false]
        exact ih sl hrest

theorem inv_goodLink (k c : Int) (sh : SymHeap) (h : ChainInv k c sh) (hc : 2 ≤ c) (m : Int)
    (hm : c ≤ m) (hmk : m < k) : GoodLink sh (2 * m) (2 * (m + 1)) := by
  have hp := h.placed m (Or.inr hm) (by omega)
  have hp1 := h.placed (m + 1) (Or.inr (by omega)) (by omega)
  have hu1 := h.used (m + 1) (Or.inr (by omega)) (by omega)
  have hn := h.next m hm hmk
  constructor
  · rw [hn]; omega
  · rw [hn, hp.1]; omega
  · rw [hn]; exact h.vtype (m + 1) (by omega) (by omega)
  · rw [hn]; exact h.known (m + 1) (by omega) (by omega)
  · rw [hn]; exact h.points (m + 1) (Or.inr (by omega)) (by omega)
  · omega
  · rw [hp1.1]; omega
  · rw [h.cvar]; simp only [decide_eq_false_iff_not]; omega
  · rw [hp1.1]; exact hu1.1
  · exact h.item (m + 1) (by omega) (by omega)
  · rw [hp1.2]; exact hu1.2

theorem inv_goodLink_head (k c : Int) (sh : SymHeap) (h : ChainInv k c sh) (hc : 2 ≤ c)
    (hck : c ≤ k) : GoodLink sh 2 (2 * c) := by
  have hp := h.placed 1 (Or.inl rfl) (by omega)
  have hp1 := h.placed c (Or.inr (le_refl _)) hck
  have hu1 := h.used c (Or.inr (le_refl _)) hck
  have hn : sh.valueOf (2 + 1) = 2 * c := h.head
  simp only [mul_one] at hp
  constructor
  · rw [hn]; omega
  · rw [hn, hp.1]; omega
  · rw [hn]; exact h.vtype c (by omega) hck
  · rw [hn]; exact h.known c (by omega) hck
  · rw [hn]; exact h.points c (Or.inr (le_refl _)) hck
  · omega
  · rw [hp1.1]; omega
  · rw [h.cvar]; simp
  · rw [hp1.1]; exact hu1.1
  · exact h.item c (by omega) hck
  · rw [hp1.2]; exact hu1.2

theorem mem_chainFrom (m : Int) (n : Nat) (x : Int) (hx : x ∈ chainFrom m n) :
    ∃ j : Int, m ≤ j ∧ j < m + n ∧ x = 2 * j := by
  induction n generalizing m with
  | zero => simp [chainFrom] at hx
  | succ n ih =>
    simp only [chainFrom, List.mem_cons] at hx
    rcases hx with rfl | hx
    · exact ⟨m, le_refl _, by push_cast; omega, rfl⟩
    · obtain ⟨j, h1, h2, h3⟩ := ih (m + 1) hx
      exact ⟨j, by omega, by push_cast; omega, h3⟩

theorem chainFrom_nodup (m : Int) (n : Nat) : (chainFrom m n).Nodup := by
  induction n generalizing m with
  | zero => simp [chainFrom]
  | succ n ih =>
    simp only [chainFrom, List.nodup_cons]
    refine ⟨?_, ih (m + 1)⟩
    intro hx
    obtain ⟨j, h1, _, h3⟩ := mem_chainFrom (m + 1) n _ hx
    omega

theorem chainFrom_length (m : Int) (n : Nat) : (chainFrom m n).length = n := by
  induction n generalizing m with
  | zero => rfl
  | succ n ih => simp [chainFrom, ih]

theorem inv_chainLinked (k c : Int) (sh : SymHeap) (h : ChainInv k c sh) (hc : 2 ≤ c)
    (hcur : sh.objKind (2 * c) ≠ EObjKind.OK_DLS) (n : Nat) (m : Int) (hm : c ≤ m)
    (hmn : m + n = k) : ChainLinked sh (chainFrom m (n + 1)) := by
  have hkind : ∀ j, c ≤ j → j ≤ k → sh.objKind (2 * j) ≠ EObjKind.OK_DLS := by
    intro j hj hjk
    rcases eq_or_lt_of_le hj with rfl | hlt
    · exact hcur
    · rw [h.kind j hlt hjk]
      decide
  induction n generalizing m with
  | zero =>
    simp only [Nat.cast_zero, add_zero] at hmn
    subst hmn
    simp only [chainFrom, ChainLinked]
    refine ⟨h.item m (by omega) (le_refl _), ?_, hkind m hm (le_refl _), ?_⟩
    · rw [(h.placed m (Or.inr hm) (le_refl _)).1]; omega
    · rw [h.tail]
  | succ n ih =>
    have hmk : m < k := by push_cast at hmn; omega
    have hrest := ih (m + 1) (by omega) (by push_cast at hmn ⊢; omega)
    simp only [chainFrom, ChainLinked] at hrest ⊢
    refine ⟨h.item m (by omega) (by omega), ?_, hkind m hm (by omega),
      inv_goodLink k c sh h hc m hm hmk, hrest⟩
    rw [(h.placed m (Or.inr hm) (by omega)).1]; omega

theorem inv_chainLinked_head (k c : Int) (sh : SymHeap) (h : ChainInv k c sh) (hc : 2 ≤ c)
    (hck : c ≤ k) (hcur : sh.objKind (2 * c) ≠ EObjKind.OK_DLS) (n : Nat) (hn : c + n = k) :
    ChainLinked sh (2 :: chainFrom c (n + 1)) := by
  have hrest := inv_chainLinked k c sh h hc hcur n c (le_refl _) hn
  simp only [chainFrom, ChainLinked] at hrest ⊢
  refine ⟨h.item 1 (le_refl _) (by omega), ?_, ?_, inv_goodLink_head k c sh h hc hck, hrest⟩
  · have := (h.placed 1 (Or.inl rfl) (by omega)).1
    simp only [mul_one] at this
    rw [this]; omega
  · rw [h.kind1]; decide

theorem ensureSlSeg_eval (sh : SymHeap) (n : Int) (hI : ItemAt sh n)
    (hk : sh.objKind n = EObjKind.OK_CONCRETE) (hp : sh.placedAt n = n) (hn : 0 < n)
    (hw : 0 ≤ sh.valueOf (n + 1)) (hne : n ≠ sh.valueOf (n + 1)) :
    ensureSlSeg sh n [0] = .ok (stepHeap2 sh n (sh.valueOf (n + 1))) := by
  have hsub : subObjByChain (sh.objAbstract n .OK_SLS [0] []) n [0] = n + 1 :=
    subObjByChain_item _ n ⟨hI.type_node, hI.type_next, hI.sub⟩
  have h1 : ¬ (n ≤ 0 ∨ sh.valueOf (n + 1) < 0) := by omega
  simp only [ensureSlSeg, hk, hsub]
  simp only [SymHeap.objAbstract, hp, h1, if_false, SymHeap.addNeq, hne]
  unfold stepHeap2
  split <;> rfl

theorem proveEq_ne (sh : SymHeap) (v1 v2 : Int) (h : v1 ≠ v2) :
    ¬ (sh.proveEq v1 v2 = some true) := by
  unfold SymHeap.proveEq
  rw [if_neg h]
  split <;> simp

theorem visitor_eval (sh : SymHeap) (a b : Int) (h : sh.valueOf a ≠ sh.valueOf b)
    (ht : sh.valType (sh.valueOf a) = some itemType)
    (htw : sh.valType (sh.valueOf b) = some itemType ∨ sh.valType (sh.valueOf b) = none) :
    abstractNonMatchingValuesVisitor sh (a, b) =
      .ok (true, (sh.valCreateUnknown .UV_UNKNOWN (some itemType)).2.objSetValue b
        (sh.lastValId + 1)) := by
  unfold abstractNonMatchingValuesVisitor
  simp only [proveEq_ne sh _ _ h, if_false, ht]
  rcases htw with htw | htw
  · simp only [htw, ne_eq, not_true_eq_false, if_false]
    rfl
  · simp only [htw]
    rfl

theorem abstractNonMatchingValues_eval (sh : SymHeap) (c0 n : Int) (f : Nat)
    (hIc : ItemAt sh c0) (hIn : ItemAt sh n) (hsrc : sh.valueOf (c0 + 1) = n)
    (hne : n ≠ sh.valueOf (n + 1)) (ht : sh.valType n = some itemType)
    (htw : sh.valType (sh.valueOf (n + 1)) = some itemType ∨
      sh.valType (sh.valueOf (n + 1)) = none) :
    abstractNonMatchingValues (f + 1) (stepHeap2 sh n (sh.valueOf (n + 1))) c0 n =
      .ok (stepHeap4 sh n (sh.valueOf (n + 1))) := by
  have hc : itemType.item_cnt.toNat = 1 := rfl
  have hcode : itemType.code = cl_type_e.CL_TYPE_STRUCT := rfl
  generalize hw : sh.valueOf (n + 1) = w at *
  have hk : (stepHeap2 sh n w).objKind n = EObjKind.OK_SLS := by simp [stepHeap2]
  have hb : (stepHeap2 sh n w).objBinderField n = [0] := by simp [stepHeap2]
  have hsub : subObjByChain (stepHeap2 sh n w) n [0] = n + 1 :=
    subObjByChain_item _ n ⟨hIn.type_node, hIn.type_next, hIn.sub⟩
  have hvis : abstractNonMatchingValuesVisitor (stepHeap2 sh n w) (c0 + 1, n + 1) =
      .ok (true, ((stepHeap2 sh n w).valCreateUnknown .UV_UNKNOWN (some itemType)).2.objSetValue
        (n + 1) (sh.lastValId + 1)) := by
    apply visitor_eval (stepHeap2 sh n w) (c0 + 1) (n + 1)
    · show sh.valueOf (c0 + 1) ≠ sh.valueOf (n + 1)
      rw [hsrc, hw]
      exact hne
    · show sh.valType (sh.valueOf (c0 + 1)) = some itemType
      rw [hsrc]
      exact ht
    · show sh.valType (sh.valueOf (n + 1)) = some itemType ∨
        sh.valType (sh.valueOf (n + 1)) = none
      rw [hw]
      exact htw
  have htrav : traverseSubObjs helperPair (f + 1) (stepHeap2 sh n w) (c0, n)
      abstractNonMatchingValuesVisitor =
      .ok (true, ((stepHeap2 sh n w).valCreateUnknown .UV_UNKNOWN (some itemType)).2.objSetValue
        (n + 1) (sh.lastValId + 1)) := by
    have hty1 : (stepHeap2 sh n w).objType c0 = some itemType := hIc.type_node
    have hty2 : (stepHeap2 sh n w).objType n = some itemType := hIn.type_node
    have hs1 : (stepHeap2 sh n w).subObj c0 0 = c0 + 1 := hIc.sub
    have hs2 : (stepHeap2 sh n w).subObj n 0 = n + 1 := hIn.sub
    simp only [traverseSubObjs, traverseSubObjsLoop, helperPair, hty1, hty2, ne_eq,
      not_true_eq_false, if_false, hcode, hc, traverseItems, hs1, hs2, hvis]
    have hty3 : (((stepHeap2 sh n w).valCreateUnknown .UV_UNKNOWN (some itemType)).2.objSetValue
        (n + 1) (sh.lastValId + 1)).objType (c0 + 1) = some itemPtrType := hIc.type_next
    have hty4 : (((stepHeap2 sh n w).valCreateUnknown .UV_UNKNOWN (some itemType)).2.objSetValue
        (n + 1) (sh.lastValId + 1)).objType (n + 1) = some itemPtrType := hIn.type_next
    simp only [hty3, hty4, isStruct, itemPtrType]
    cases f <;> rfl
  have hvb : (stepHeap2 sh n w).valueOf (n + 1) = w := hw
  simp only [abstractNonMatchingValues, hk, hb, hsub, htrav, hvb]
  rfl

theorem gatherSubObjs_item (sh : SymHeap) (o : Int) (f : Nat) (hI : ItemAt sh o) :
    sh.gatherSubObjs (f + 2) [o] [] = .ok [o + 1, o] := by
  have hc : itemType.item_cnt.toNat = 1 := rfl
  have hcode : itemType.code = cl_type_e.CL_TYPE_STRUCT := rfl
  have hcode2 : ¬ (itemPtrType.code = cl_type_e.CL_TYPE_STRUCT) := by decide
  have hr : List.range 1 = [0] := rfl
  simp only [SymHeap.gatherSubObjs, hI.type_node, hcode, if_true, hc, hr, List.map_cons,
    List.map_nil, Nat.cast_zero, hI.sub, List.append_nil, List.singleton_append, hI.type_next,
    hcode2, if_false]
  cases f <;> rfl

theorem objReplace_eval (sh : SymHeap) (c0 n w : Int) (f : Nat) (hIc : ItemAt sh c0)
    (hp1 : sh.objParent c0 = OBJ_INVALID) (hp2 : sh.objParent n = OBJ_INVALID)
    (ha1 : sh.placedAt c0 = c0) (ha2 : sh.placedAt n = n) (h1 : 0 < c0) (h2 : 0 < n)
    (hne : c0 ≠ n) :
    objReplace (f + 2) (stepHeap4 sh n w) c0 n = .ok (stepHeap sh c0 n w) := by
  have hq1 : (stepHeap4 sh n w).objParent c0 = OBJ_INVALID := hp1
  have hq2 : (stepHeap4 sh n w).objParent n = OBJ_INVALID := hp2
  have hb1 : (stepHeap4 sh n w).placedAt c0 = c0 := ha1
  have hb2 : (stepHeap4 sh n w).placedAt n = n := ha2
  have hle : ¬ (c0 ≤ 0 ∨ n ≤ 0) := by omega
  have h5 : (stepHeap4 sh n w).valReplace c0 n = stepHeap5 sh c0 n w := by
    unfold SymHeap.valReplace
    rw [if_neg hne]
    rfl
  have hI5 : ItemAt (stepHeap5 sh c0 n w) c0 := ⟨hIc.type_node, hIc.type_next, hIc.sub⟩
  simp only [objReplace, hq1, hq2, ne_eq, not_true_eq_false, or_self, if_false, hb1, hb2, hle,
    h5, SymHeap.objDestroy, gatherSubObjs_item _ c0 f hI5, List.foldl_cons, List.foldl_nil]
  rfl

theorem slSegAbstractionStep_eval (k c : Int) (sh : SymHeap) (h : ChainInv k c sh) (hc : 2 ≤ c)
    (hck : c < k) (f : Nat) :
    slSegAbstractionStep (f + 2) sh (2 * c) [0] =
      .ok (stepHeap sh (2 * c) (2 * (c + 1)) (sh.valueOf (2 * (c + 1) + 1)), 2 * (c + 1)) := by
  have hIc := h.item c (by omega) (by omega)
  have hIn := h.item (c + 1) (by omega) (by omega)
  have hnext := h.next c (le_refl _) hck
  have hpl := h.placed (c + 1) (Or.inr (by omega)) (by omega)
  have hplc := h.placed c (Or.inr (le_refl _)) (by omega)
  have hused := h.used (c + 1) (Or.inr (by omega)) (by omega)
  have hpts := h.points (c + 1) (Or.inr (by omega)) (by omega)
  have hkind := h.kind (c + 1) (by omega) (by omega)
  have hw : sh.valueOf (2 * (c + 1) + 1) = 2 * (c + 2) ∨ sh.valueOf (2 * (c + 1) + 1) = 0 := by
    rcases lt_or_eq_of_le (show c + 1 ≤ k by omega) with hlt | heq
    · have := h.next (c + 1) (by omega) hlt
      exact Or.inl (by rw [this]; ring)
    · rw [heq]
      exact Or.inr h.tail
  have hw0 : 0 ≤ sh.valueOf (2 * (c + 1) + 1) := by rcases hw with hw | hw <;> omega
  have hwne : 2 * (c + 1) ≠ sh.valueOf (2 * (c + 1) + 1) := by rcases hw with hw | hw <;> omega
  have htw : sh.valType (sh.valueOf (2 * (c + 1) + 1)) = some itemType ∨
      sh.valType (sh.valueOf (2 * (c + 1) + 1)) = none := by
    rcases lt_or_eq_of_le (show c + 1 ≤ k by omega) with hlt | heq
    · rw [h.next (c + 1) (by omega) hlt]
      exact Or.inl (h.vtype (c + 1 + 1) (by omega) (by omega))
    · rw [heq, h.tail]
      exact Or.inr h.vtype0
  have hv1 : ¬ (2 * (c + 1) ≤ 0 ∨ False) := not_or.mpr ⟨by omega, not_false⟩
  have hens := ensureSlSeg_eval sh (2 * (c + 1)) hIn hkind hpl.1 (by omega) hw0 hwne
  have hk2 : (stepHeap2 sh (2 * (c + 1)) (sh.valueOf (2 * (c + 1) + 1))).objKind (2 * (c + 1)) =
      EObjKind.OK_SLS := by simp [stepHeap2]
  have habs := abstractNonMatchingValues_eval sh (2 * c) (2 * (c + 1)) (f + 1) hIc hIn hnext
    hwne (h.vtype (c + 1) (by omega) (by omega)) htw
  have hrep := objReplace_eval sh (2 * c) (2 * (c + 1)) (sh.valueOf (2 * (c + 1) + 1)) f hIc
    (h.parent c (by omega) (by omega)) (h.parent (c + 1) (by omega) (by omega)) hplc.1 hpl.1
    (by omega) (by omega) (by omega)
  simp only [slSegAbstractionStep, subObjByChain_item sh (2 * c) hIc, hnext, hused.1,
    if_false, hpts, hens, hk2, ne_eq, not_true_eq_false, habs, hrep, hv1]

theorem stepHeap_objType (sh : SymHeap) (c0 n w : Int) (o : Int) :
    (stepHeap sh c0 n w).objType o = sh.objType o := rfl

theorem stepHeap_subObj (sh : SymHeap) (c0 n w : Int) (o i : Int) :
    (stepHeap sh c0 n w).subObj o i = sh.subObj o i := rfl

theorem stepHeap_objParent (sh : SymHeap) (c0 n w : Int) (o : Int) :
    (stepHeap sh c0 n w).objParent o = sh.objParent o := rfl

theorem stepHeap_cVar (sh : SymHeap) (c0 n w : Int) (o : Int) :
    (stepHeap sh c0 n w).cVar o = sh.cVar o := rfl

theorem stepHeap_lastValId (sh : SymHeap) (c0 n w : Int) :
    (stepHeap sh c0 n w).lastValId = sh.lastValId + 1 := rfl

theorem stepHeap_objKind (sh : SymHeap) (c0 n w : Int) (o : Int) :
    (stepHeap sh c0 n w).objKind o = if o = n then EObjKind.OK_SLS else sh.objKind o := rfl

theorem stepHeap_objBinderField (sh : SymHeap) (c0 n w : Int) (o : Int) :
    (stepHeap sh c0 n w).objBinderField o = if o = n then [0] else sh.objBinderField o := rfl

theorem stepHeap_valType (sh : SymHeap) (c0 n w : Int) (v : Int) :
    (stepHeap sh c0 n w).valType v =
      if v = sh.lastValId + 1 then some itemType else sh.valType v := rfl

theorem stepHeap_valGetUnknown (sh : SymHeap) (c0 n w : Int) (v : Int) :
    (stepHeap sh c0 n w).valGetUnknown v =
      if v = sh.lastValId + 1 then EUnknownValue.UV_UNKNOWN else sh.valGetUnknown v := rfl

theorem stepHeap_gatherRootObjs (sh : SymHeap) (c0 n w : Int) :
    (stepHeap sh c0 n w).gatherRootObjs = sh.gatherRootObjs.filter (fun o => o ≠ c0) := rfl

theorem stepHeap_placedAt (sh : SymHeap) (c0 n w : Int) (o : Int) :
    (stepHeap sh c0 n w).placedAt o =
      if o = c0 then VAL_INVALID else if o = c0 + 1 then VAL_INVALID else sh.placedAt o := rfl

theorem stepHeap_valueOf (sh : SymHeap) (c0 n w : Int) (o : Int) (h1 : o ≠ c0) (h2 : o ≠ c0 + 1)
    (h3 : o ≠ n + 1) :
    (stepHeap sh c0 n w).valueOf o = if sh.valueOf o = c0 then n else sh.valueOf o := by
  simp only [stepHeap, stepHeap5, stepHeap4, stepHeap2, SymHeap.objDestroyOne,
    SymHeap.objSetValue, SymHeap.valCreateUnknown, h1, h2, h3, if_false]

theorem stepHeap_valueOf_next (sh : SymHeap) (c0 n w : Int) (h1 : n + 1 ≠ c0)
    (h2 : n + 1 ≠ c0 + 1) (h3 : w ≠ c0) :
    (stepHeap sh c0 n w).valueOf (n + 1) = w := by
  simp only [stepHeap, stepHeap5, stepHeap4, stepHeap2, SymHeap.objDestroyOne,
    SymHeap.objSetValue, SymHeap.valCreateUnknown, h1, h2, h3, if_false, if_true]

theorem stepHeap_valueOf_gone (sh : SymHeap) (c0 n w : Int) :
    (stepHeap sh c0 n w).valueOf c0 = VAL_INVALID := by
  simp only [stepHeap, stepHeap5, stepHeap4, stepHeap2, SymHeap.objDestroyOne,
    SymHeap.objSetValue, SymHeap.valCreateUnknown, if_true]

theorem stepHeap_pointsTo (sh : SymHeap) (c0 n w : Int) (v : Int) (h1 : v ≠ sh.placedAt c0)
    (h2 : v ≠ sh.placedAt (c0 + 1)) :
    (stepHeap sh c0 n w).pointsTo v = sh.pointsTo v := by
  have e1 : ¬ (c0 = c0 + 1) := by omega
  simp only [stepHeap, stepHeap5, stepHeap4, stepHeap2, SymHeap.objDestroyOne,
    SymHeap.objSetValue, SymHeap.valCreateUnknown, e1, h1, h2, and_false, if_false]

theorem stepHeap_usedByCount (sh : SymHeap) (c0 n w : Int) (v : Int)
    (hw : sh.valueOf (n + 1) = w) (hsrc : sh.valueOf (c0 + 1) = n)
    (hcv : sh.valueOf c0 = -1) (hc0 : 0 < c0) (hcn : c0 < n) (hw0 : 0 ≤ w) (hwc : w ≠ c0)
    (hnw : n ≠ w) (hwL : w ≠ sh.lastValId + 1)
    (hnL : n ≠ sh.lastValId + 1) (hcL : c0 ≠ sh.lastValId + 1)
    (hvL : v ≠ sh.lastValId + 1) (hvi : 0 ≤ v) (hvc : v ≠ c0)
    (huw : v = w → 1 ≤ sh.usedByCount w) :
    (stepHeap sh c0 n w).usedByCount v =
      if v = n then sh.usedByCount n + sh.usedByCount c0 - 1 else sh.usedByCount v := by
  have e1 : ¬ (c0 + 1 = n + 1) := by omega
  have e2 : ¬ (c0 = n + 1) := by omega
  have e3 : ¬ (c0 = n) := by omega
  have e4 : ¬ (n = c0) := by omega
  have e5 : ¬ (v = -1) := by omega
  have e6 : ¬ (n = -1) := by omega
  have e7 : ¬ (-1 = c0) := by omega
  have e8 : ¬ (w = -1) := by omega
  simp only [stepHeap, stepHeap5, stepHeap4, stepHeap2, SymHeap.objDestroyOne,
    SymHeap.objSetValue, SymHeap.valCreateUnknown, VAL_INVALID]
  simp only [hw, hsrc, hcv, if_true, if_false, e1, e2, e3, e4, e5, e6, e7, e8, hwc, hvc, hvL,
    add_zero, hnw, hwL, hnL, hcL, hwL.symm, hnw.symm]
  split_ifs with g1 g2 g3 g4 <;> first | rfl | omega | (exfalso; omega) | (have hx := huw (by assumption); omega) | simp_all

theorem roots_filter (k c : Int) (hc : 2 ≤ c) (hck : c < k) :
    ((1 : Int) :: 2 :: (List.range (k - c + 1).toNat).map
        fun (i : Nat) => 2 * (c + (i : Int))).filter (fun o => o ≠ 2 * c) =
      1 :: 2 :: (List.range (k - (c + 1) + 1).toNat).map
        fun (i : Nat) => 2 * (c + 1 + (i : Int)) := by
  have hn : (k - c + 1).toNat = (k - (c + 1) + 1).toNat + 1 := by omega
  have h1 : ¬ ((1 : Int) = 2 * c) := by omega
  have h2 : ¬ ((2 : Int) = 2 * c) := by omega
  rw [hn, List.range_succ_eq_map]
  simp only [List.map_cons, List.map_map, List.filter_cons, ne_eq, h1, h2, not_false_eq_true,
    decide_True, if_true, Nat.cast_zero, add_zero, not_true_eq_false, decide_False,
    Bool.false_eq_true, if_false]
  congr 2
  rw [List.filter_eq_self.mpr]
  · apply List.map_congr_left
    intro i _
    simp only [Function.comp, Nat.succ_eq_add_one, Nat.cast_add, Nat.cast_one]
    ring
  · intro x hx
    simp only [List.mem_map, List.mem_range, Function.comp] at hx
    obtain ⟨i, _, rfl⟩ := hx
    simp only [Nat.succ_eq_add_one, Nat.cast_add, Nat.cast_one, decide_eq_true_eq]
    omega

theorem stepHeap_inv (k c : Int) (sh : SymHeap) (h : ChainInv k c sh) (hc : 2 ≤ c)
    (hck : c < k) :
    ChainInv k (c + 1) (stepHeap sh (2 * c) (2 * (c + 1)) (sh.valueOf (2 * (c + 1) + 1))) ∧
    (stepHeap sh (2 * c) (2 * (c + 1)) (sh.valueOf (2 * (c + 1) + 1))).objKind (2 * (c + 1)) =
      EObjKind.OK_SLS ∧
    (stepHeap sh (2 * c) (2 * (c + 1)) (sh.valueOf (2 * (c + 1) + 1))).objBinderField
      (2 * (c + 1)) = [0] := by
  have hL := h.last
  have hplc := h.placed c (Or.inr (le_refl _)) (by omega)
  have hw : sh.valueOf (2 * (c + 1) + 1) = 2 * (c + 1 + 1) ∨
      sh.valueOf (2 * (c + 1) + 1) = 0 := by
    rcases lt_or_eq_of_le (show c + 1 ≤ k by omega) with hlt | heq
    · exact Or.inl (h.next (c + 1) (by omega) hlt)
    · rw [heq]
      exact Or.inr h.tail
  have hwk : sh.valueOf (2 * (c + 1) + 1) ≤ 2 * k := by
    rcases lt_or_eq_of_le (show c + 1 ≤ k by omega) with hlt | heq
    · rw [h.next (c + 1) (by omega) hlt]
      omega
    · rw [heq, h.tail]
      omega
  refine ⟨⟨?_, ?_, ?_, ?_, ?_, ?_, ?_, ?_, ?_, ?_, ?_, ?_, ?_, ?_, ?_, ?_, ?_⟩, ?_, ?_⟩
  · intro m h1 h2
    have := h.item m h1 h2
    exact ⟨this.type_node, this.type_next, this.sub⟩
  · intro m h1 h2
    exact h.parent m h1 h2
  · intro o
    exact h.cvar o
  · intro m h1 h2
    rw [stepHeap_valType, if_neg (by omega)]
    exact h.vtype m h1 h2
  · rw [stepHeap_valType, if_neg (by omega)]
    exact h.vtype0
  · intro m h1 h2
    rw [stepHeap_valGetUnknown, if_neg (by omega)]
    exact h.known m h1 h2
  · intro m h1 h2
    by_cases hm : m = c
    · subst hm
      exact stepHeap_valueOf_gone _ _ _ _
    · rw [stepHeap_valueOf _ _ _ _ _ (by omega) (by omega) (by omega), h.nodeval m h1 h2,
        if_neg (by simp only [VAL_INVALID]; omega)]
  · rw [stepHeap_lastValId]
    omega
  · intro m h1 h2
    have := h.placed m (by omega) h2
    rw [stepHeap_placedAt, stepHeap_placedAt, if_neg (by omega), if_neg (by omega),
      if_neg (by omega), if_neg (by omega)]
    exact this
  · intro m h1 h2
    rw [stepHeap_pointsTo _ _ _ _ _ (by rw [hplc.1]; omega) (by rw [hplc.2]; omega)]
    exact h.points m (by omega) h2
  · rw [stepHeap_valueOf _ _ _ _ _ (by omega) (by omega) (by omega), h.head, if_pos rfl]
  · intro m h1 h2
    by_cases hm : m = c + 1
    · subst hm
      rw [stepHeap_valueOf_next _ _ _ _ (by omega) (by omega) (by rcases hw with hw | hw <;> omega)]
      exact h.next (c + 1) (by omega) h2
    · rw [stepHeap_valueOf _ _ _ _ _ (by omega) (by omega) (by omega),
        h.next m (by omega) h2, if_neg (by omega)]
  · by_cases hm : k = c + 1
    · subst hm
      rw [stepHeap_valueOf_next _ _ _ _ (by omega) (by omega) (by rcases hw with hw | hw <;> omega)]
      exact h.tail
    · rw [stepHeap_valueOf _ _ _ _ _ (by omega) (by omega) (by omega), h.tail,
        if_neg (by omega)]
  · intro m h1 h2
    have hum := h.used m (by omega) h2
    have huc := h.used c (Or.inr (le_refl _)) (by omega)
    have hun := h.used (c + 1) (Or.inr (by omega)) (by omega)
    have huw : ∀ v : Int, 2 ≤ v → v = sh.valueOf (2 * (c + 1) + 1) →
        1 ≤ sh.usedByCount (sh.valueOf (2 * (c + 1) + 1)) := by
      intro v hv hvw
      rcases hw with hw | hw
      · rw [hw, (h.used (c + 1 + 1) (Or.inr (by omega)) (by
          rcases lt_or_eq_of_le (show c + 1 ≤ k by omega) with hlt | heq
          · omega
          · have := h.tail
            rw [← heq] at this
            omega)).1]
      · omega
    have key : ∀ v : Int, 2 ≤ v → v ≤ 2 * k + 1 → v ≠ 2 * c →
        (stepHeap sh (2 * c) (2 * (c + 1)) (sh.valueOf (2 * (c + 1) + 1))).usedByCount v =
          if v = 2 * (c + 1) then sh.usedByCount (2 * (c + 1)) + sh.usedByCount (2 * c) - 1
          else sh.usedByCount v := by
      intro v hv1 hv2 hv3
      exact stepHeap_usedByCount sh (2 * c) (2 * (c + 1)) _ v rfl (h.next c (le_refl _) hck)
        (h.nodeval c (by omega) (by omega)) (by omega) (by omega)
        (by rcases hw with hw | hw <;> omega) (by rcases hw with hw | hw <;> omega)
        (by rcases hw with hw | hw <;> omega) (by omega) (by omega) (by omega) (by omega)
        (by omega) hv3 (huw v hv1)
    constructor
    · rw [key (2 * m) (by omega) (by omega) (by omega)]
      split_ifs with g
      · rw [hun.1, huc.1]
      · exact hum.1
    · rw [key (2 * m + 1) (by omega) (by omega) (by omega), if_neg (by omega)]
      exact hum.2
  · rw [stepHeap_objKind, if_neg (by omega)]
    exact h.kind1
  · intro m h1 h2
    rw [stepHeap_objKind, if_neg (by omega)]
    exact h.kind m (by omega) h2
  · rw [stepHeap_gatherRootObjs, h.roots]
    exact roots_filter k c hc hck
  · rw [stepHeap_objKind, if_pos rfl]
  · rw [stepHeap_objBinderField, if_pos rfl]

theorem sllHeap_inv (k : Nat) (hk : 2 ≤ k) : ChainInv (k : Int) 2 (sllHeap k) := by
  have hk0 : ¬ (k = 0) := by omega
  refine ⟨?_, ?_, ?_, ?_, ?_, ?_, ?_, ?_, ?_, ?_, ?_, ?_, ?_, ?_, ?_, ?_, ?_⟩
  · intro m h1 h2
    refine ⟨?_, ?_, ?_⟩
    · simp only [sllHeap]
      rw [if_pos (by omega), if_pos (by omega)]
    · simp only [sllHeap]
      rw [if_pos (by omega), if_neg (by omega)]
    · simp only [sllHeap]
      rw [if_pos ⟨by omega, by omega, by omega, trivial⟩]
  · intro m h1 h2
    simp only [sllHeap]
    rw [if_neg (by omega)]
  · intro o
    rfl
  · intro m h1 h2
    simp only [sllHeap]
    rw [if_pos (by omega), if_pos (by omega)]
  · simp only [sllHeap]
    rw [if_neg (by omega), if_neg (by omega)]
  · intro m h1 h2
    rfl
  · intro m h1 h2
    simp only [sllHeap]
    rw [if_neg (by omega), if_neg (by omega)]
  · simp only [sllHeap]
    omega
  · intro m h1 h2
    simp only [sllHeap]
    rw [if_pos (by omega), if_pos (by omega)]
    exact ⟨rfl, rfl⟩
  · intro m h1 h2
    simp only [sllHeap]
    rw [if_pos (by omega)]
  · simp only [sllHeap]
    rw [if_neg (by omega), if_pos (by omega), if_neg (by omega)]
    rfl
  · intro m h1 h2
    simp only [sllHeap]
    rw [if_neg (by omega), if_pos (by omega), if_neg (by omega)]
    ring
  · simp only [sllHeap]
    rw [if_neg (by omega), if_pos (by omega)]
    rfl
  · intro m h1 h2
    simp only [sllHeap]
    rw [if_pos (by omega), if_neg (by omega), if_neg (by omega)]
    exact ⟨rfl, rfl⟩
  · rfl
  · intro m h1 h2
    rfl
  · simp only [sllHeap]
    have hn : k = (k - 1) + 1 := by omega
    have hn2 : ((k : Int) - 2 + 1).toNat = k - 1 := by omega
    rw [hn2]
    conv_lhs => rw [hn, List.range_succ_eq_map]
    simp only [List.map_cons, List.map_map, Nat.cast_zero, mul_zero, zero_add]
    congr 2
    apply List.map_congr_left
    intro i _
    simp only [Function.comp, Nat.succ_eq_add_one, Nat.cast_add, Nat.cast_one]
    ring

theorem slSegAbstractionSteps_inv (k : Int) (f : Nat) (n : Nat) (c : Int) (sh : SymHeap)
    (h : ChainInv k c sh) (hc : 2 ≤ c) (hn : c + n = k) :
    ∃ sh2, slSegAbstractionSteps (f + 2) [0] n sh (2 * c) = .ok (sh2, 2 * k) ∧
      ChainInv k k sh2 ∧
      (0 < n → sh2.objKind (2 * k) = EObjKind.OK_SLS ∧ sh2.objBinderField (2 * k) = [0]) := by
  induction n generalizing c sh with
  | zero =>
    simp only [Nat.cast_zero, add_zero] at hn
    subst hn
    exact ⟨sh, rfl, h, by intro h0; omega⟩
  | succ n ih =>
    have hck : c < k := by push_cast at hn; omega
    obtain ⟨hinv, hkind, hbind⟩ := stepHeap_inv k c sh h hc hck
    obtain ⟨sh2, h1, h2, h3⟩ := ih (c + 1) _ hinv (by omega) (by push_cast at hn ⊢; omega)
    refine ⟨sh2, ?_, h2, ?_⟩
    · simp only [slSegAbstractionSteps, slSegAbstractionStep_eval k c sh h hc hck f]
      exact h1
    · intro _
      cases n with
      | zero =>
        simp only [slSegAbstractionSteps, Except.ok.injEq, Prod.mk.injEq] at h1
        have hk : c + 1 = k := by push_cast at hn; omega
        rw [← h1.1, ← hk]
        exact ⟨hkind, hbind⟩
      | succ n => exact h3 (by omega)

theorem inv_root_cases (k c : Int) (sh : SymHeap) (h : ChainInv k c sh) (r : Int)
    (hr : r ∈ sh.gatherRootObjs) :
    r = 1 ∨ r = 2 ∨ ∃ m, c ≤ m ∧ m ≤ k ∧ r = 2 * m := by
  rw [h.roots] at hr
  simp only [List.mem_cons, List.mem_map, List.mem_range] at hr
  rcases hr with rfl | rfl | ⟨i, hi, rfl⟩
  · exact Or.inl rfl
  · exact Or.inr (Or.inl rfl)
  · exact Or.inr (Or.inr ⟨c + i, by omega, by omega, rfl⟩)

theorem inv_probe (k c : Int) (sh : SymHeap) (h : ChainInv k c sh) (hc : 2 ≤ c) (hck : c ≤ k)
    (f : Nat) (m : Int) (hm : m = 1 ∨ c ≤ m) (hmk : m ≤ k) :
    sh.cVar (2 * m) = false ∧ sh.placedAt (2 * m) ≠ VAL_INVALID ∧
      sh.usedByCount (sh.placedAt (2 * m)) = 1 ∧
      probe (f + 1) sh (2 * m) .OK_SLS = .ok (decide (2 * m ≠ 1 ∧ 2 * m ≠ 2 * k)) := by
  have hp := h.placed m hm hmk
  have hu := h.used m hm hmk
  have hI := h.item m (by omega) hmk
  have ha : sh.placedAt (2 * m) ≠ 0 := by rw [hp.1]; omega
  have hin : sh.usedByCount (sh.placedAt (2 * m + 1)) = 0 := by rw [hp.2]; exact hu.2
  refine ⟨?_, ?_, ?_, ?_⟩
  · rw [h.cvar]
    simp only [decide_eq_false_iff_not]
    omega
  · rw [hp.1]
    simp only [VAL_INVALID]
    omega
  · rw [hp.1]
    exact hu.1
  · by_cases hlast : m = k
    · have hE : sh.valueOf (2 * m + 1) ≤ 0 := by rw [hlast, h.tail]
      rw [probe_endLink sh (2 * m) f hI ha hin hE]
      have : ¬ (2 * m ≠ 1 ∧ 2 * m ≠ 2 * k) := by omega
      rw [decide_eq_false this]
    · have hP : (2 * m ≠ 1 ∧ 2 * m ≠ 2 * k) := by omega
      rw [decide_eq_true hP]
      rcases hm with rfl | hm
      · exact probe_goodLink sh (2 * 1) (2 * c) f hI ha hin (inv_goodLink_head k c sh h hc hck)
      · exact probe_goodLink sh (2 * m) (2 * (m + 1)) f hI ha hin
          (inv_goodLink k c sh h hc m hm (by omega))

theorem inv_entry (k c : Int) (sh : SymHeap) (h : ChainInv k c sh) (hc : 2 ≤ c) (hck : c ≤ k)
    (hcur : sh.objKind (2 * c) ≠ EObjKind.OK_DLS) (f : Nat) (hf : k - c + 2 ≤ f + 1)
    (hk : k < 2 ^ 30) (m : Int) (hm : m = 1 ∨ c ≤ m) (hmk : m < k) :
    digAnyListSelectors (f + 1) [] sh (2 * m) .OK_SLS = .ok [[0]] ∧
      discoverSeg (f + 1) (f + 1) sh (2 * m) .OK_SLS [0] [] =
        .ok (if m = 1 then (k - c + 1).toNat else (k - m).toNat) := by
  have hp := h.placed m hm (by omega)
  have hI := h.item m (by omega) (by omega)
  have ha : sh.placedAt (2 * m) ≠ 0 := by rw [hp.1]; omega
  rcases hm with rfl | hm
  · refine ⟨digAnyListSelectors_goodLink sh (2 * 1) (2 * c) f hI ha
      (inv_goodLink_head k c sh h hc hck), ?_⟩
    rw [if_pos rfl]
    have hn : c + ((k - c).toNat : Int) = k := by omega
    have hlen := chainFrom_length c ((k - c).toNat + 1)
    have hl := inv_chainLinked_head k c sh h hc hck hcur (k - c).toNat hn
    have hd := discoverSeg_chain sh f (chainFrom c ((k - c).toNat + 1)) 2 (f + 1) hl
      (by
        rw [List.nodup_cons]
        refine ⟨?_, chainFrom_nodup _ _⟩
        intro hx
        obtain ⟨j, h1, _, h3⟩ := mem_chainFrom _ _ _ hx
        omega)
      (by simp only [List.length_cons, hlen]; omega) (by rw [hlen]; omega)
    rw [hlen] at hd
    simp only [mul_one]
    rw [hd]
    congr 1
    omega
  · refine ⟨digAnyListSelectors_goodLink sh (2 * m) (2 * (m + 1)) f hI ha
      (inv_goodLink k c sh h hc m hm hmk), ?_⟩
    rw [if_neg (by omega)]
    have hn : m + ((k - m).toNat : Int) = k := by omega
    have hlen := chainFrom_length (m + 1) (k - m).toNat
    have hl := inv_chainLinked k c sh h hc hcur (k - m).toNat m hm hn
    have hd := discoverSeg_chain sh f (chainFrom (m + 1) (k - m).toNat) (2 * m) (f + 1) hl
      (chainFrom_nodup m ((k - m).toNat + 1))
      (by simp only [List.length_cons, hlen]; omega) (by rw [hlen]; omega)
    rw [hlen] at hd
    exact hd

theorem abstractIfNeededLoop_chain (k c : Int) (sh : SymHeap) (h : ChainInv k c sh)
    (hc : 2 ≤ c) (hck : c ≤ k) (hcur : sh.objKind (2 * c) ≠ EObjKind.OK_DLS) (f : Nat)
    (hf : k - c + 2 ≤ f + 1) (hk : k < 2 ^ 30) :
    abstractIfNeededLoop (f + 1) sh =
      considerSegAbstraction (f + 1) sh 2 .OK_SLS [0] [] (k - c + 1).toNat := by
  have hroots : ∀ r ∈ sh.gatherRootObjs,
      (sh.cVar r = true ∧ (fun r : Int => decide (r ≠ 1 ∧ r ≠ 2 * k)) r = false) ∨
      (sh.cVar r = false ∧ sh.placedAt r ≠ VAL_INVALID ∧ sh.usedByCount (sh.placedAt r) = 1 ∧
        probe (f + 1) sh r .OK_SLS = .ok ((fun r : Int => decide (r ≠ 1 ∧ r ≠ 2 * k)) r)) := by
    intro r hr
    rcases inv_root_cases k c sh h r hr with rfl | rfl | ⟨m, h1, h2, rfl⟩
    · left
      rw [h.cvar]
      simp
    · right
      exact inv_probe k c sh h hc hck f 1 (Or.inl rfl) (by omega)
    · right
      exact inv_probe k c sh h hc hck f m (Or.inr h1) h2
  have hg := gatherEntries_sls sh f (fun r : Int => decide (r ≠ 1 ∧ r ≠ 2 * k))
    sh.gatherRootObjs [] [] hroots
  have hfilter : sh.gatherRootObjs.filter (fun r : Int => decide (r ≠ 1 ∧ r ≠ 2 * k)) =
      2 :: ((List.range (k - c + 1).toNat).map fun (i : Nat) => 2 * (c + (i : Int))).filter
        (fun r : Int => decide (r ≠ 1 ∧ r ≠ 2 * k)) := by
    rw [h.roots]
    have h2 : ((2 : Int) ≠ 1 ∧ (2 : Int) ≠ 2 * k) := by omega
    simp only [List.filter_cons, ne_eq, not_true_eq_false, false_and, decide_False,
      Bool.false_eq_true, if_false, decide_eq_true h2, if_true]
  rw [hfilter, List.nil_append] at hg
  have hentry : ∀ e ∈ (2 : Int) :: ((List.range (k - c + 1).toNat).map
      fun (i : Nat) => 2 * (c + (i : Int))).filter (fun r : Int => decide (r ≠ 1 ∧ r ≠ 2 * k)),
      ∃ m, (m = 1 ∨ c ≤ m) ∧ m < k ∧ e = 2 * m := by
    intro e he
    simp only [List.mem_cons, List.mem_filter, List.mem_map, List.mem_range,
      decide_eq_true_eq] at he
    rcases he with rfl | ⟨⟨i, hi, rfl⟩, hP⟩
    · exact ⟨1, Or.inl rfl, by omega, rfl⟩
    · exact ⟨c + i, Or.inr (by omega), by omega, rfl⟩
  have hloop := considerAbstractionLoop_first sh f
    (fun e => if e = 2 then (k - c + 1).toNat else (k - e / 2).toNat) 2
    (((List.range (k - c + 1).toNat).map fun (i : Nat) => 2 * (c + (i : Int))).filter
      (fun r : Int => decide (r ≠ 1 ∧ r ≠ 2 * k)))
    (by
      intro e he
      obtain ⟨m, h1, h2, rfl⟩ := hentry e he
      exact (inv_entry k c sh h hc hck hcur f hf hk m h1 h2).1)
    (by
      intro e he
      obtain ⟨m, h1, h2, rfl⟩ := hentry e he
      rw [(inv_entry k c sh h hc hck hcur f hf hk m h1 h2).2]
      congr 1
      dsimp only
      split_ifs <;> omega)
    (by
      intro e he
      obtain ⟨m, h1, h2, rfl⟩ := hentry e he
      dsimp only
      split_ifs <;> omega)
    (by
      intro e he
      obtain ⟨m, h1, h2, rfl⟩ := hentry e (List.mem_cons_of_mem _ he)
      dsimp only
      rw [if_pos rfl]
      split_ifs <;> omega)
  have hne : ¬ ((k - c + 1).toNat = 0) := by omega
  simp only [abstractIfNeededLoop, hg, ne_eq, not_false_eq_true, if_true, considerAbstraction,
    if_false, hloop, hne, not_true_eq_false]
  simp only [reduceCtorEq, if_false]
  cases considerSegAbstraction (f + 1) sh 2 .OK_SLS [0] [] (k - c + 1).toNat with
  | error e => rfl
  | ok r =>
    obtain ⟨b, s⟩ := r
    cases b <;> rfl

theorem abstractIfNeeded_false (fuel n : Nat) (sh : SymHeap)
    (h : abstractIfNeededLoop fuel sh = .ok (false, sh)) :
    abstractIfNeeded fuel n sh = .ok sh := by
  unfold abstractIfNeeded
  rw [h]

theorem abstractIfNeeded_true (fuel n : Nat) (sh sh1 : SymHeap)
    (h : abstractIfNeededLoop fuel sh = .ok (true, sh1)) :
    abstractIfNeeded fuel (n + 1) sh = abstractIfNeeded fuel n sh1 := by
  rw [abstractIfNeeded, h]

theorem abstractIfNeededLoop_noEntries (f : Nat) (sh : SymHeap)
    (h : ∀ r ∈ sh.gatherRootObjs, sh.cVar r = true ∨
      (sh.cVar r = false ∧ sh.placedAt r ≠ VAL_INVALID ∧ sh.usedByCount (sh.placedAt r) = 1 ∧
        probe (f + 1) sh r .OK_SLS = .ok false)) :
    abstractIfNeededLoop (f + 1) sh = .ok (false, sh) := by
  have hg := gatherEntries_sls sh f (fun _ => false) sh.gatherRootObjs [] []
    (by
      intro r hr
      rcases h r hr with h1 | h1
      · exact Or.inl ⟨h1, rfl⟩
      · exact Or.inr h1)
  simp only [List.filter_false, List.append_nil] at hg
  simp only [abstractIfNeededLoop, hg, ne_eq, not_true_eq_false, if_false]

theorem sllHeap_small (k f n : Nat) (hk : k ≤ 1) :
    abstractIfNeeded (f + 1) n (sllHeap k) = .ok (sllHeap k) := by
  apply abstractIfNeeded_false
  apply abstractIfNeededLoop_noEntries
  intro r hr
  have hk2 : k = 0 ∨ k = 1 := by omega
  rcases hk2 with rfl | rfl
  · have hr1 : r = 1 := by simpa [sllHeap] using hr
    subst hr1
    exact Or.inl rfl
  · have hr1 : r = 1 ∨ 2 = r := by simpa [sllHeap] using hr
    rcases hr1 with rfl | rfl
    · exact Or.inl rfl
    · right
      refine ⟨rfl, by decide, rfl, ?_⟩
      exact probe_endLink (sllHeap 1) 2 f ⟨rfl, rfl, rfl⟩ (by decide) rfl (by decide)

/-- Folding of a singly-linked list of one-field nodes, the case of C9 in which the list
is folded.  Let `sllHeap k` be the heap of `k` concrete nodes
`n1 -> ... -> nk -> NULL` of the type `struct item { struct item *next; }` whose first node
is held by one stack variable (`k < 2^30`: the identifiers fit `int`), and let the fuel be
at least `k` and `2`.  For `k ≥ 3` `abstractIfNeeded` returns a heap with exactly two heap
objects: `n1` (object `2`), still concrete, whose field `next` points to the object `2k`,
which is an SLS bound by the selector `[0]` whose `next` value is `VAL_NULL`.  For `k ≤ 2`
`abstractIfNeeded` returns the heap unchanged. -/
theorem abstractIfNeeded_sll (k fuel n : Nat) (hk : k < 2 ^ 30) (hf : k ≤ fuel)
    (hf2 : 2 ≤ fuel) :
    (3 ≤ k → 1 ≤ n → ∃ sh, abstractIfNeeded fuel n (sllHeap k) = .ok sh ∧
      sh.heapObjs = [2, 2 * (k : Int)] ∧
      sh.objKind 2 = EObjKind.OK_CONCRETE ∧
      sh.pointsTo (sh.valueOf (subObjByChain sh 2 [0])) = 2 * (k : Int) ∧
      sh.objKind (2 * (k : Int)) = EObjKind.OK_SLS ∧
      sh.objBinderField (2 * (k : Int)) = [0] ∧
      sh.valueOf (subObjByChain sh (2 * (k : Int)) [0]) = VAL_NULL) ∧
    (k ≤ 2 → abstractIfNeeded fuel n (sllHeap k) = .ok (sllHeap k)) := by
  obtain ⟨f, rfl⟩ : ∃ f, fuel = f + 2 := ⟨fuel - 2, by omega⟩
  have hkI : (k : Int) < 2 ^ 30 := by exact_mod_cast hk
  constructor
  · intro hk3 hn
    obtain ⟨n1, rfl⟩ : ∃ n1, n = n1 + 1 := ⟨n - 1, by omega⟩
    have h0 := sllHeap_inv k (by omega)
    have hcurA : (sllHeap k).objKind (2 * 2) ≠ EObjKind.OK_DLS := by
      intro hx
      cases hx
    have hroundA := abstractIfNeededLoop_chain (k : Int) 2 (sllHeap k) h0 (le_refl _)
      (by omega) hcurA (f + 1) (by push_cast; omega) hkI
    have hLA : ((k : Int) - 2 + 1).toNat = k - 1 := by omega
    rw [hLA, considerSegAbstraction_sls (f + 1 + 1) (sllHeap k) 2 [0] [] (k - 1) (by omega),
      if_neg (by omega)] at hroundA
    have hskip : skipObj (sllHeap k) 2 [0] = .ok 4 := by
      have hI := h0.item 1 (le_refl _) (by omega)
      have hp := h0.points 2 (Or.inr (le_refl _)) (by omega)
      have hh := h0.head
      simp only [mul_one, Int.reduceMul] at hI hp hh
      have hs := subObjByChain_item (sllHeap k) 2 hI
      simp only [Int.reduceAdd] at hs
      simp only [skipObj, hs, hh, hp, OBJ_INVALID]
      rfl
    obtain ⟨sh2, hsteps, hinv, hsls⟩ := slSegAbstractionSteps_inv (k : Int) f (k - 2) 2
      (sllHeap k) h0 (le_refl _) (by omega)
    have hk12 : k - 1 - 1 = k - 2 := by omega
    simp only [hskip, hk12, Int.reduceMul] at hroundA hsteps
    rw [hsteps] at hroundA
    obtain ⟨hkind, hbind⟩ := hsls (by omega)
    have hroundB := abstractIfNeededLoop_chain (k : Int) (k : Int) sh2 hinv (by omega)
      (le_refl _) (by rw [hkind]; decide) (f + 1) (by omega) hkI
    have hLB : ((k : Int) - (k : Int) + 1).toNat = 1 := by omega
    rw [hLB, considerSegAbstraction_sls (f + 1 + 1) sh2 2 [0] [] 1 (by omega),
      if_pos (by omega)] at hroundB
    refine ⟨sh2, ?_, ?_, hinv.kind1, ?_, hkind, hbind, ?_⟩
    · rw [abstractIfNeeded_true (f + 2) n1 (sllHeap k) sh2 hroundA]
      exact abstractIfNeeded_false (f + 2) n1 sh2 hroundB
    · have hr := hinv.roots
      have h1 : ((k : Int) - (k : Int) + 1).toNat = 1 := by omega
      have hne : ¬ ((2 : Int) * (k : Int) = 1) := by omega
      rw [h1] at hr
      have hr1 : List.range 1 = [0] := rfl
      simp only [SymHeap.heapObjs, hr, hinv.cvar, hr1, List.map_cons, List.map_nil,
        Nat.cast_zero, add_zero, List.filter_cons, decide_True, Bool.not_true,
        Bool.false_eq_true, if_false, decide_False, Bool.not_false, if_true, List.filter_nil,
        hne, show ¬ ((2 : Int) = 1) by omega]
    · have hI := hinv.item 1 (le_refl _) (by omega)
      simp only [mul_one] at hI
      have hs := subObjByChain_item sh2 2 hI
      simp only [Int.reduceAdd] at hs
      rw [hs, hinv.head]
      exact hinv.points (k : Int) (Or.inr (le_refl _)) (le_refl _)
    · have hI := hinv.item (k : Int) (by omega) (le_refl _)
      rw [subObjByChain_item sh2 _ hI]
      exact hinv.tail
  · intro hk2
    rcases Nat.lt_or_ge k 2 with hlt | hge
    · exact sllHeap_small k (f + 1) n (by omega)
    · have hk2e : k = 2 := by omega
      subst hk2e
      have h0 := sllHeap_inv 2 (le_refl _)
      have hcur : (sllHeap 2).objKind (2 * 2) ≠ EObjKind.OK_DLS := by
        intro hx
        cases hx
      have hround := abstractIfNeededLoop_chain ((2 : Nat) : Int) 2 (sllHeap 2) h0 (le_refl _)
        (by omega) hcur (f + 1) (by push_cast; omega) hkI
      have hL : (((2 : Nat) : Int) - 2 + 1).toNat = 1 := by omega
      rw [hL, considerSegAbstraction_sls (f + 1 + 1) (sllHeap 2) 2 [0] [] 1 (by omega),
        if_pos (by omega)] at hround
      exact abstractIfNeeded_false (f + 2) n (sllHeap 2) hround

/-- Witness of `abstractIfNeeded_sll`: the list of three nodes. -/
theorem abstractIfNeeded_sll_witness :
    ∃ sh, abstractIfNeeded 3 1 (sllHeap 3) = .ok sh ∧
      sh.heapObjs = [2, 2 * ((3 : Nat) : Int)] ∧
      sh.objKind 2 = EObjKind.OK_CONCRETE ∧
      sh.pointsTo (sh.valueOf (subObjByChain sh 2 [0])) = 2 * ((3 : Nat) : Int) ∧
      sh.objKind (2 * ((3 : Nat) : Int)) = EObjKind.OK_SLS ∧
      sh.objBinderField (2 * ((3 : Nat) : Int)) = [0] ∧
      sh.valueOf (subObjByChain sh (2 * ((3 : Nat) : Int)) [0]) = VAL_NULL :=
  (abstractIfNeeded_sll 3 3 1 (by decide) (by decide) (by decide)).1 (by decide) (by decide)

/-! ## A DLS on the discovery path -/

theorem discoverSegLoop_step (fuel : Nat) (sh : SymHeap) (kind : EObjKind)
    (icBind icPeer : TFieldIdxChain) (n : Nat) (st st2 : DiscoverState)
    (hnot : st.obj ∉ st.path)
    (h : discoverSegLoop fuel sh kind icBind icPeer (n + 1) st = .ok st2) :
    st2 = ⟨st.obj, st.obj :: st.path, st.dlSegsOnPath⟩ ∨
    ∃ st1 : DiscoverState,
      ((sh.objKind st.obj ≠ EObjKind.OK_DLS ∧
          st1 = ⟨st.obj, st.obj :: st.path, st.dlSegsOnPath⟩) ∨
        (sh.objKind st.obj = EObjKind.OK_DLS ∧ kind = EObjKind.OK_DLS ∧
          skipObj sh st.obj (sh.objPeerField st.obj) = .ok st1.obj ∧
          st1.obj ∉ st.obj :: st.path ∧
          st1 = ⟨st1.obj, st1.obj :: st.obj :: st.path, st.dlSegsOnPath + 1⟩)) ∧
      (st2 = st1 ∨ ∃ objNext,
        discoverSegLoop fuel sh kind icBind icPeer n ⟨objNext, st1.path, st1.dlSegsOnPath⟩ =
          .ok st2) := by
  unfold discoverSegLoop at h
  rw [if_neg hnot] at h
  dsimp only at h
  split at h
  · cases h
  · cases h
    exact Or.inl rfl
  · rename_i st1 hdls
    refine Or.inr ⟨st1, ?_, ?_⟩
    · split at hdls
      · rename_i hk
        split at hdls
        · cases hdls
        · rename_i hkind
          split at hdls
          · cases hdls
          · split at hdls
            · cases hdls
            · rename_i peer hsk
              split at hdls
              · cases hdls
              · rename_i hpeer
                simp only [Except.ok.injEq, Option.some.injEq] at hdls
                subst hdls
                exact Or.inr ⟨hk.symm, (not_not.mp hkind).symm, hsk, hpeer, rfl⟩
      · rename_i hk
        simp only [Except.ok.injEq, Option.some.injEq] at hdls
        subst hdls
        exact Or.inl ⟨fun h2 => hk h2.symm, rfl⟩
    · split at h
      · cases h
      · cases h
        exact Or.inl rfl
      · rename_i objNext hnx
        exact Or.inr ⟨objNext, h⟩

theorem discoverSegLoop_inv (fuel : Nat) (sh : SymHeap) (kind : EObjKind)
    (icBind icPeer : TFieldIdxChain) (n : Nat) (st st2 : DiscoverState) (dls : List Int)
    (hinv : PathInv sh st.path st.dlSegsOnPath dls)
    (h : discoverSegLoop fuel sh kind icBind icPeer n st = .ok st2) :
    (st.obj ∈ st2.path ∧ ∀ o ∈ st.path, o ∈ st2.path) ∧
      ∃ dls2, PathInv sh st2.path st2.dlSegsOnPath dls2 := by
  induction n generalizing st dls with
  | zero =>
    unfold discoverSegLoop at h
    split at h
    · rename_i hin
      cases h
      exact ⟨⟨hin, fun o ho => ho⟩, dls, hinv⟩
    · cases h
  | succ n ih =>
    by_cases hin : st.obj ∈ st.path
    · unfold discoverSegLoop at h
      rw [if_pos hin] at h
      cases h
      exact ⟨⟨hin, fun o ho => ho⟩, dls, hinv⟩
    · obtain ⟨hnd, hdnd, hlen, h2, hall⟩ := hinv
      have hinv1 : PathInv sh (st.obj :: st.path) st.dlSegsOnPath dls := by
        refine ⟨List.nodup_cons.mpr ⟨hin, hnd⟩, hdnd, hlen, ?_, ?_⟩
        · simp only [List.length_cons]
          omega
        · intro o ho
          obtain ⟨a, b, p, hp, hpp, hne⟩ := hall o ho
          exact ⟨a, List.mem_cons_of_mem _ b, p, hp, List.mem_cons_of_mem _ hpp, hne⟩
      rcases discoverSegLoop_step fuel sh kind icBind icPeer n st st2 hin h with h1 | h1
      · subst h1
        exact ⟨⟨List.mem_cons_self _ _, fun o ho => List.mem_cons_of_mem _ ho⟩, dls, hinv1⟩
      · obtain ⟨st1, hst1, hrest⟩ := h1
        have key : (st.obj ∈ st1.path ∧ ∀ o ∈ st.path, o ∈ st1.path) ∧
            ∃ dls1, PathInv sh st1.path st1.dlSegsOnPath dls1 := by
          rcases hst1 with ⟨_, he⟩ | ⟨hk, _, hsk, hpeer, he⟩
          · rw [he]
            exact ⟨⟨List.mem_cons_self _ _, fun o ho => List.mem_cons_of_mem _ ho⟩, dls, hinv1⟩
          · rw [he]
            refine ⟨⟨List.mem_cons_of_mem _ (List.mem_cons_self _ _),
              fun o ho => List.mem_cons_of_mem _ (List.mem_cons_of_mem _ ho)⟩,
              st.obj :: dls, ?_⟩
            refine ⟨List.nodup_cons.mpr ⟨hpeer, List.nodup_cons.mpr ⟨hin, hnd⟩⟩,
              List.nodup_cons.mpr ⟨fun hmem => hin (hall _ hmem).2.1, hdnd⟩, ?_, ?_, ?_⟩
            · simp only [List.length_cons, Nat.cast_add, Nat.cast_one]
              omega
            · simp only [List.length_cons]
              omega
            · intro o ho
              rcases List.mem_cons.mp ho with rfl | ho
              · refine ⟨hk, List.mem_cons_of_mem _ (List.mem_cons_self _ _), st1.obj, hsk,
                  List.mem_cons_self _ _, ?_⟩
                intro heq
                apply hpeer
                rw [heq]
                exact List.mem_cons_self _ _
              · obtain ⟨a, b, p, hp, hpp, hne⟩ := hall o ho
                exact ⟨a, List.mem_cons_of_mem _ (List.mem_cons_of_mem _ b), p, hp,
                  List.mem_cons_of_mem _ (List.mem_cons_of_mem _ hpp), hne⟩
        obtain ⟨⟨ka, kb⟩, dls1, kinv⟩ := key
        rcases hrest with h3 | ⟨objNext, h3⟩
        · subst h3
          exact ⟨⟨ka, kb⟩, dls1, kinv⟩
        · obtain ⟨⟨ia, ib⟩, dls2, iinv⟩ := ih ⟨objNext, st1.path, st1.dlSegsOnPath⟩ dls1 kinv h3
          exact ⟨⟨ib _ ka, fun o ho => ib _ (kb o ho)⟩, dls2, iinv⟩

theorem discoverSegLoop_length (fuel : Nat) (sh : SymHeap) (kind : EObjKind)
    (icBind icPeer : TFieldIdxChain) (n : Nat) (st st2 : DiscoverState)
    (h : discoverSegLoop fuel sh kind icBind icPeer n st = .ok st2) :
    st2.path.length ≤ st.path.length + 2 * n := by
  induction n generalizing st with
  | zero =>
    unfold discoverSegLoop at h
    split at h
    · cases h
      omega
    · cases h
  | succ n ih =>
    by_cases hin : st.obj ∈ st.path
    · unfold discoverSegLoop at h
      rw [if_pos hin] at h
      cases h
      omega
    · rcases discoverSegLoop_step fuel sh kind icBind icPeer n st st2 hin h with h1 | h1
      · subst h1
        simp only [List.length_cons]
        omega
      · obtain ⟨st1, hst1, hrest⟩ := h1
        have hl : st1.path.length ≤ st.path.length + 2 := by
          rcases hst1 with ⟨_, he⟩ | ⟨_, _, _, _, he⟩
          · rw [he]
            simp only [List.length_cons]
            omega
          · rw [he]
            simp only [List.length_cons]
            omega
        rcases hrest with h3 | ⟨objNext, h3⟩
        · subst h3
          omega
        · have := ih _ h3
          simp only at this
          omega

theorem dlsHeap_subObjs :
    dlsHeap.SubObjsBounded (fun o => if o = 10 ∨ o = 20 ∨ o = 30 then 2 else 0) := by
  intro o t ht hc
  have ho : o = 10 ∨ o = 20 ∨ o = 30 := by
    simp only [dlsHeap] at ht
    split_ifs at ht with h1 h2
    · exact h1
    · cases ht
      simp [dnodePtrType] at hc
  have ht2 : t = dnodeType := by
    rcases ho with rfl | rfl | rfl
    · have h2 : dlsHeap.objType 10 = some dnodeType := rfl
      rw [h2] at ht
      exact (Option.some.inj ht).symm
    · have h2 : dlsHeap.objType 20 = some dnodeType := rfl
      rw [h2] at ht
      exact (Option.some.inj ht).symm
    · have h2 : dlsHeap.objType 30 = some dnodeType := rfl
      rw [h2] at ht
      exact (Option.some.inj ht).symm
  subst ht2
  rcases ho with rfl | rfl | rfl <;> decide

theorem dlsHeap_pointsTo (v : Int) (h : 0 < dlsHeap.pointsTo v) :
    dlsHeap.pointsTo v ∈ ({1, 10, 11, 12, 20, 21, 22, 30, 31, 32} : Finset Int) := by
  simp only [dlsHeap] at h ⊢
  split_ifs at h ⊢ with h1
  · simp only [Finset.mem_insert, Finset.mem_singleton]
    omega
  · simp [OBJ_INVALID] at h

theorem dlsHeap_size (o : Int) : (if o = 10 ∨ o = 20 ∨ o = 30 then 2 else 0) < 3 := by
  split_ifs <;> omega

theorem discoverSegLoop_cases (fuel : Nat) (sh : SymHeap) (kind : EObjKind)
    (icBind icPeer : TFieldIdxChain) (n : Nat) (st st2 : DiscoverState)
    (hnot : st.obj ∉ st.path)
    (h : discoverSegLoop fuel sh kind icBind icPeer (n + 1) st = .ok st2) :
    (sh.objKind st.obj = EObjKind.OK_DLS ∧ kind = EObjKind.OK_DLS ∧
      ((sh.objPeerField st.obj ≠ icBind ∧ sh.objPeerField st.obj ≠ icPeer) ∨
        ∃ peer, skipObj sh st.obj (sh.objPeerField st.obj) = .ok peer ∧
          peer ∈ st.obj :: st.path) ∧
      st2 = ⟨st.obj, st.obj :: st.path, st.dlSegsOnPath⟩) ∨
    (sh.objKind st.obj ≠ EObjKind.OK_DLS ∧
      ((discoverSegNext fuel sh kind icBind icPeer st.obj = .ok none ∧
          st2 = ⟨st.obj, st.obj :: st.path, st.dlSegsOnPath⟩) ∨
        ∃ next, discoverSegNext fuel sh kind icBind icPeer st.obj = .ok (some next) ∧
          discoverSegLoop fuel sh kind icBind icPeer n
            ⟨next, st.obj :: st.path, st.dlSegsOnPath⟩ = .ok st2)) ∨
    (sh.objKind st.obj = EObjKind.OK_DLS ∧ kind = EObjKind.OK_DLS ∧
      ¬ (sh.objPeerField st.obj ≠ icBind ∧ sh.objPeerField st.obj ≠ icPeer) ∧
      ∃ peer, skipObj sh st.obj (sh.objPeerField st.obj) = .ok peer ∧
        peer ∉ st.obj :: st.path ∧
        ((discoverSegNext fuel sh kind icBind icPeer peer = .ok none ∧
            st2 = ⟨peer, peer :: st.obj :: st.path, st.dlSegsOnPath + 1⟩) ∨
          ∃ next, discoverSegNext fuel sh kind icBind icPeer peer = .ok (some next) ∧
            discoverSegLoop fuel sh kind icBind icPeer n
              ⟨next, peer :: st.obj :: st.path, st.dlSegsOnPath + 1⟩ = .ok st2)) := by
  unfold discoverSegLoop at h
  rw [if_neg hnot] at h
  dsimp only at h
  by_cases hk : EObjKind.OK_DLS = sh.objKind st.obj
  · rw [if_pos hk] at h
    by_cases hkind : EObjKind.OK_DLS ≠ kind
    · rw [if_pos hkind] at h
      cases h
    · rw [if_neg hkind] at h
      have hkind2 : kind = EObjKind.OK_DLS := (not_not.mp hkind).symm
      by_cases hsel : sh.objPeerField st.obj ≠ icBind ∧ sh.objPeerField st.obj ≠ icPeer
      · rw [if_pos hsel] at h
        simp only [Except.ok.injEq] at h
        exact Or.inl ⟨hk.symm, hkind2, Or.inl hsel, h.symm⟩
      · rw [if_neg hsel] at h
        cases hsk : skipObj sh st.obj (sh.objPeerField st.obj) with
        | error e =>
          rw [hsk] at h
          cases h
        | ok peer =>
          rw [hsk] at h
          dsimp only at h
          by_cases hp : peer ∈ st.obj :: st.path
          · rw [if_pos hp] at h
            simp only [Except.ok.injEq] at h
            exact Or.inl ⟨hk.symm, hkind2, Or.inr ⟨peer, rfl, hp⟩, h.symm⟩
          · rw [if_neg hp] at h
            dsimp only at h
            refine Or.inr (Or.inr ⟨hk.symm, hkind2, hsel, peer, rfl, hp, ?_⟩)
            cases hnx : discoverSegNext fuel sh kind icBind icPeer peer with
            | error e =>
              rw [hnx] at h
              cases h
            | ok r =>
              rw [hnx] at h
              cases r with
              | none =>
                simp only [Except.ok.injEq] at h
                exact Or.inl ⟨rfl, h.symm⟩
              | some next => exact Or.inr ⟨next, rfl, h⟩
  · rw [if_neg hk] at h
    dsimp only at h
    refine Or.inr (Or.inl ⟨fun hc => hk hc.symm, ?_⟩)
    cases hnx : discoverSegNext fuel sh kind icBind icPeer st.obj with
    | error e =>
      rw [hnx] at h
      cases h
    | ok r =>
      rw [hnx] at h
      cases r with
      | none =>
        simp only [Except.ok.injEq] at h
        exact Or.inl ⟨rfl, h.symm⟩
      | some next => exact Or.inr ⟨next, rfl, h⟩

theorem discoverSegLoop_walk (fuel : Nat) (sh : SymHeap) (kind : EObjKind)
    (icBind icPeer : TFieldIdxChain) (n : Nat) : ∀ (st st2 : DiscoverState),
    discoverSegLoop fuel sh kind icBind icPeer n st = .ok st2 →
    ∃ legs, DiscoverWalk fuel sh kind icBind icPeer st.path st.obj legs ∧
      st2.path = (walkObjs legs).reverse ++ st.path ∧
      st2.dlSegsOnPath = st.dlSegsOnPath + ((walkDls legs).length : Int) := by
  induction n with
  | zero =>
    intro st st2 h
    unfold discoverSegLoop at h
    split at h
    · rename_i hin
      cases h
      exact ⟨[], DiscoverWalk.revisit _ _ hin, by simp [walkObjs], by simp [walkDls]⟩
    · cases h
  | succ n ih =>
    intro st st2 h
    by_cases hin : st.obj ∈ st.path
    · unfold discoverSegLoop at h
      rw [if_pos hin] at h
      cases h
      exact ⟨[], DiscoverWalk.revisit _ _ hin, by simp [walkObjs], by simp [walkDls]⟩
    · rcases discoverSegLoop_cases fuel sh kind icBind icPeer n st st2 hin h with
        ⟨hk, hkind, hstop, he⟩ | ⟨hk, hc⟩ | ⟨hk, hkind, hsel, peer, hpeer, hfresh, hc⟩
      · subst he
        exact ⟨[(st.obj, none)], DiscoverWalk.refused _ _ hin hk hkind hstop,
          by simp [walkObjs], by simp [walkDls]⟩
      · rcases hc with ⟨hnx, he⟩ | ⟨next, hnx, hrest⟩
        · subst he
          exact ⟨[(st.obj, none)], DiscoverWalk.lastPlain _ _ hin hk hnx,
            by simp [walkObjs], by simp [walkDls]⟩
        · obtain ⟨legs, hw, hp, hd⟩ := ih _ _ hrest
          refine ⟨(st.obj, none) :: legs, DiscoverWalk.stepPlain _ _ next legs hin hk hnx hw,
            ?_, ?_⟩
          · rw [hp]
            simp [walkObjs]
          · rw [hd]
            simp [walkDls]
      · rcases hc with ⟨hnx, he⟩ | ⟨next, hnx, hrest⟩
        · subst he
          exact ⟨[(st.obj, some peer)],
            DiscoverWalk.lastDls _ _ peer hin hk hkind hsel hpeer hfresh hnx,
            by simp [walkObjs], by simp [walkDls]⟩
        · obtain ⟨legs, hw, hp, hd⟩ := ih _ _ hrest
          refine ⟨(st.obj, some peer) :: legs,
            DiscoverWalk.stepDls _ _ peer next legs hin hk hkind hsel hpeer hfresh hnx hw,
            ?_, ?_⟩
          · rw [hp]
            simp [walkObjs]
          · rw [hd]
            simp only [walkDls, List.length_cons, Nat.cast_add, Nat.cast_one]
            omega

theorem walkDls_length_le (legs : List (Int × Option Int)) :
    (walkDls legs).length + legs.length = (walkObjs legs).length := by
  induction legs with
  | nil => rfl
  | cons l rest ih =>
    obtain ⟨o, p⟩ := l
    cases p with
    | none =>
      simp only [walkDls, walkObjs, List.length_cons]
      omega
    | some p =>
      simp only [walkDls, walkObjs, List.length_cons]
      omega

theorem walkDls_length_le_legs (legs : List (Int × Option Int)) :
    (walkDls legs).length ≤ legs.length := by
  induction legs with
  | nil => exact Nat.le_refl _
  | cons l rest ih =>
    obtain ⟨o, p⟩ := l
    cases p with
    | none =>
      simp only [walkDls, List.length_cons]
      omega
    | some p =>
      simp only [walkDls, List.length_cons]
      omega

theorem discoverWalk_spec (fuel : Nat) (sh : SymHeap) (kind : EObjKind)
    (icBind icPeer : TFieldIdxChain) (seen : List Int) (obj : Int)
    (legs : List (Int × Option Int))
    (h : DiscoverWalk fuel sh kind icBind icPeer seen obj legs) :
    (walkObjs legs).Nodup ∧ (∀ o ∈ walkObjs legs, o ∉ seen) ∧
    (obj ∉ seen → ∃ rest, walkObjs legs = obj :: rest) ∧
    ∀ d ∈ walkDls legs, sh.objKind d.1 = EObjKind.OK_DLS ∧
      skipObj sh d.1 (sh.objPeerField d.1) = .ok d.2 ∧ d.1 ≠ d.2 := by
  induction h with
  | revisit seen obj h =>
    exact ⟨List.nodup_nil, fun o ho => (by cases ho), fun hn => absurd h hn,
      fun d hd => (by cases hd)⟩
  | refused seen obj h hk hkind hstop =>
    refine ⟨by simp [walkObjs], ?_, fun _ => ⟨[], rfl⟩, fun d hd => (by cases hd)⟩
    intro o ho
    simp only [walkObjs, List.mem_singleton] at ho
    rw [ho]
    exact h
  | lastPlain seen obj h hk hnext =>
    refine ⟨by simp [walkObjs], ?_, fun _ => ⟨[], rfl⟩, fun d hd => (by cases hd)⟩
    intro o ho
    simp only [walkObjs, List.mem_singleton] at ho
    rw [ho]
    exact h
  | stepPlain seen obj next legs h hk hnext hrest ih =>
    obtain ⟨i1, i2, _, i4⟩ := ih
    refine ⟨?_, ?_, fun _ => ⟨walkObjs legs, rfl⟩, ?_⟩
    · simp only [walkObjs, List.nodup_cons]
      exact ⟨fun hm => i2 obj hm (List.mem_cons_self _ _), i1⟩
    · intro o ho
      simp only [walkObjs, List.mem_cons] at ho
      rcases ho with ho | ho
      · rw [ho]
        exact h
      · exact fun hm => i2 o ho (List.mem_cons_of_mem _ hm)
    · intro d hd
      exact i4 d hd
  | lastDls seen obj peer h hk hkind hsel hpeer hfresh hnext =>
    have hne : obj ≠ peer := fun hc => hfresh (by rw [← hc]; exact List.mem_cons_self _ _)
    refine ⟨?_, ?_, fun _ => ⟨[peer], rfl⟩, ?_⟩
    · simp only [walkObjs, List.nodup_cons, List.mem_singleton, List.not_mem_nil,
        not_false_eq_true, List.nodup_nil, and_true]
      exact hne
    · intro o ho
      simp only [walkObjs, List.mem_cons, List.mem_singleton, List.not_mem_nil, or_false] at ho
      rcases ho with ho | ho
      · rw [ho]
        exact h
      · rw [ho]
        exact fun hm => hfresh (List.mem_cons_of_mem _ hm)
    · intro d hd
      simp only [walkDls, List.mem_singleton] at hd
      rw [hd]
      exact ⟨hk, hpeer, hne⟩
  | stepDls seen obj peer next legs h hk hkind hsel hpeer hfresh hnext hrest ih =>
    obtain ⟨i1, i2, _, i4⟩ := ih
    have hne : obj ≠ peer := fun hc => hfresh (by rw [← hc]; exact List.mem_cons_self _ _)
    refine ⟨?_, ?_, fun _ => ⟨peer :: walkObjs legs, rfl⟩, ?_⟩
    · simp only [walkObjs, List.nodup_cons, List.mem_cons, not_or]
      exact ⟨⟨hne, fun hm => i2 obj hm (List.mem_cons_of_mem _ (List.mem_cons_self _ _))⟩,
        fun hm => i2 peer hm (List.mem_cons_self _ _), i1⟩
    · intro o ho
      simp only [walkObjs, List.mem_cons] at ho
      rcases ho with ho | ho | ho
      · rw [ho]
        exact h
      · rw [ho]
        exact fun hm => hfresh (List.mem_cons_of_mem _ hm)
      · exact fun hm => i2 o ho (List.mem_cons_of_mem _ (List.mem_cons_of_mem _ hm))
    · intro d hd
      simp only [walkDls, List.mem_cons] at hd
      rcases hd with hd | hd
      · rw [hd]
        exact ⟨hk, hpeer, hne⟩
      · exact i4 d hd

theorem discoverSeg_walk (fuel loopFuel : Nat) (sh : SymHeap) (entry : Int) (kind : EObjKind)
    (icBind icPeer : TFieldIdxChain) (st : DiscoverState)
    (hl : discoverSegLoop fuel sh kind icBind icPeer loopFuel ⟨entry, [], 0⟩ = .ok st)
    (hlen : st.path.length < 2 ^ 32) :
    ∃ legs : List (Int × Option Int),
      DiscoverWalk fuel sh kind icBind icPeer [] entry legs ∧
      st.path = (walkObjs legs).reverse ∧
      st.dlSegsOnPath = ((walkDls legs).length : Int) ∧
      (walkDls legs).length + 1 ≤ (walkObjs legs).length ∧
      discoverSeg fuel loopFuel sh entry kind icBind icPeer =
        .ok (if walkDls legs ≠ [] ∧ sh.objKind entry ≠ EObjKind.OK_DLS then 0
          else (walkObjs legs).length - 1 - (walkDls legs).length) := by
  obtain ⟨legs, hw, hp, hd⟩ := discoverSegLoop_walk fuel sh kind icBind icPeer loopFuel _ _ hl
  simp only [List.append_nil, zero_add] at hp hd
  obtain ⟨_, _, hhead, _⟩ := discoverWalk_spec fuel sh kind icBind icPeer [] entry legs hw
  obtain ⟨rest, hrest⟩ := hhead (List.not_mem_nil _)
  have hlegs : 1 ≤ legs.length := by
    cases legs with
    | nil => simp [walkObjs] at hrest
    | cons l r => simp
  have h1 := walkDls_length_le legs
  have hpl : st.path.length = (walkObjs legs).length := by rw [hp, List.length_reverse]
  refine ⟨legs, hw, hp, hd, by omega, ?_⟩
  unfold discoverSeg
  rw [hl]
  simp only
  have hd0 : st.dlSegsOnPath ≠ 0 ↔ walkDls legs ≠ [] := by
    rw [hd]
    simp only [ne_eq, Nat.cast_eq_zero, List.length_eq_zero]
  have hk : EObjKind.OK_DLS ≠ sh.objKind entry ↔ sh.objKind entry ≠ EObjKind.OK_DLS :=
    ⟨fun h a => h a.symm, fun h a => h a.symm⟩
  by_cases hc : walkDls legs ≠ [] ∧ sh.objKind entry ≠ EObjKind.OK_DLS
  · rw [if_pos ⟨hd0.mpr hc.1, hk.mpr hc.2⟩, if_pos hc]
  · rw [if_neg (fun h => hc ⟨hd0.mp h.1, hk.mp h.2⟩), if_neg hc]
    congr 1
    rw [hd, hpl]
    have h32 : (2 : Nat) ^ 32 = 4294967296 := by norm_num
    rw [hpl] at hlen
    have e1 : toUInt32 (((walkObjs legs).length : Int) - 1) = (walkObjs legs).length - 1 := by
      unfold toUInt32
      omega
    rw [e1]
    unfold toUInt32
    omega

theorem discoverWalk_unique (fuel : Nat) (sh : SymHeap) (kind : EObjKind)
    (icBind icPeer : TFieldIdxChain) (seen : List Int) (obj : Int)
    (l1 : List (Int × Option Int))
    (h1 : DiscoverWalk fuel sh kind icBind icPeer seen obj l1) :
    ∀ l2, DiscoverWalk fuel sh kind icBind icPeer seen obj l2 → l2 = l1 := by
  induction h1 with
  | revisit seen obj h =>
    intro l2 h2
    cases h2 with
    | revisit _ _ _ => rfl
    | refused _ _ hn _ _ _ => exact absurd h hn
    | lastPlain _ _ hn _ _ => exact absurd h hn
    | stepPlain _ _ _ _ hn _ _ _ => exact absurd h hn
    | lastDls _ _ _ hn _ _ _ _ _ _ => exact absurd h hn
    | stepDls _ _ _ _ _ hn _ _ _ _ _ _ _ => exact absurd h hn
  | refused seen obj h hk hkind hstop =>
    intro l2 h2
    cases h2 with
    | revisit _ _ hin => exact absurd hin h
    | refused _ _ _ _ _ _ => rfl
    | lastPlain _ _ _ hk2 _ => exact absurd hk hk2
    | stepPlain _ _ _ _ _ hk2 _ _ => exact absurd hk hk2
    | lastDls _ _ peer _ _ _ hsel hpeer hfresh _ =>
      rcases hstop with hs | ⟨p, hp, hin⟩
      · exact absurd hs hsel
      · rw [hpeer] at hp
        cases hp
        exact absurd hin hfresh
    | stepDls _ _ peer _ _ _ _ _ hsel hpeer hfresh _ _ =>
      rcases hstop with hs | ⟨p, hp, hin⟩
      · exact absurd hs hsel
      · rw [hpeer] at hp
        cases hp
        exact absurd hin hfresh
  | lastPlain seen obj h hk hnext =>
    intro l2 h2
    cases h2 with
    | revisit _ _ hin => exact absurd hin h
    | refused _ _ _ hk2 _ _ => exact absurd hk2 hk
    | lastPlain _ _ _ _ _ => rfl
    | stepPlain _ _ _ _ _ _ hn2 _ =>
      rw [hnext] at hn2
      cases hn2
    | lastDls _ _ _ _ hk2 _ _ _ _ _ => exact absurd hk2 hk
    | stepDls _ _ _ _ _ _ hk2 _ _ _ _ _ _ => exact absurd hk2 hk
  | stepPlain seen obj next legs h hk hnext hrest ih =>
    intro l2 h2
    cases h2 with
    | revisit _ _ hin => exact absurd hin h
    | refused _ _ _ hk2 _ _ => exact absurd hk2 hk
    | lastPlain _ _ _ _ hn2 =>
      rw [hnext] at hn2
      cases hn2
    | stepPlain _ _ next2 legs2 _ _ hn2 hrest2 =>
      rw [hnext] at hn2
      cases hn2
      rw [ih legs2 hrest2]
    | lastDls _ _ _ _ hk2 _ _ _ _ _ => exact absurd hk2 hk
    | stepDls _ _ _ _ _ _ hk2 _ _ _ _ _ _ => exact absurd hk2 hk
  | lastDls seen obj peer h hk hkind hsel hpeer hfresh hnext =>
    intro l2 h2
    cases h2 with
    | revisit _ _ hin => exact absurd hin h
    | refused _ _ _ _ _ hstop =>
      rcases hstop with hs | ⟨p, hp, hin⟩
      · exact absurd hs hsel
      · rw [hpeer] at hp
        cases hp
        exact absurd hin hfresh
    | lastPlain _ _ _ hk2 _ => exact absurd hk hk2
    | stepPlain _ _ _ _ _ hk2 _ _ => exact absurd hk hk2
    | lastDls _ _ peer2 _ _ _ _ hpeer2 _ _ =>
      rw [hpeer] at hpeer2
      cases hpeer2
      rfl
    | stepDls _ _ peer2 _ _ _ _ _ _ hpeer2 _ hn2 _ =>
      rw [hpeer] at hpeer2
      cases hpeer2
      rw [hnext] at hn2
      cases hn2
  | stepDls seen obj peer next legs h hk hkind hsel hpeer hfresh hnext hrest ih =>
    intro l2 h2
    cases h2 with
    | revisit _ _ hin => exact absurd hin h
    | refused _ _ _ _ _ hstop =>
      rcases hstop with hs | ⟨p, hp, hin⟩
      · exact absurd hs hsel
      · rw [hpeer] at hp
        cases hp
        exact absurd hin hfresh
    | lastPlain _ _ _ hk2 _ => exact absurd hk hk2
    | stepPlain _ _ _ _ _ hk2 _ _ => exact absurd hk hk2
    | lastDls _ _ peer2 _ _ _ _ hpeer2 _ hn2 =>
      rw [hpeer] at hpeer2
      cases hpeer2
      rw [hnext] at hn2
      cases hn2
    | stepDls _ _ peer2 next2 legs2 _ _ _ _ hpeer2 _ hn2 hrest2 =>
      rw [hpeer] at hpeer2
      cases hpeer2
      rw [hnext] at hn2
      cases hn2
      rw [ih legs2 hrest2]

/-- C11: a DLS on the discovery path counts as one node, and a path with a DLS has to start
at a DLS.  Let `objs` be a finite set of fewer than `2^31` objects that holds the entry
and every object that a pointer value points to, and let the trees of sub-objects be
bounded.  Unless it hits a `TRAP`, `discoverSeg` performs the walk `legs` that the heap
determines from the entry on (`DiscoverWalk`, and there is no other such walk): at every
end of a DLS that the walk gets to it jumps to the peer and goes on from there, which makes
the DLS a traversed one, unless the selectors of the DLS fit neither selector of the walk
or the peer has been visited already, where the walk stops.  The path and the counter of the loop are the visited
objects of this walk and the number of the DLS it traversed; no object is visited twice,
the first visited object is the entry, and each traversed DLS was entered at an end of
kind `OK_DLS` and left at its peer, another object.  `discoverSeg` returns `0` if at
least one DLS has been traversed and the entry is not a DLS; otherwise it returns the
number of the visited objects, less one, less the number of the traversed DLS, and this
subtraction does not wrap around. -/
theorem discoverSeg_counts_dls (sh : SymHeap) (objs : Finset Int) (size : Int → Nat)
    (fuel : Nat) (entry : Int) (kind : EObjKind) (icBind icPeer : TFieldIdxChain)
    (hentry : entry ∈ objs) (hobjs : ∀ v, 0 < sh.pointsTo v → sh.pointsTo v ∈ objs)
    (hsz : sh.SubObjsBounded size) (hd : ∀ o, size o < fuel) (hcard : objs.card < 2 ^ 31) :
    discoverSeg fuel objs.card sh entry kind icBind icPeer = .error .TRAP ∨
    ∃ (st : DiscoverState) (legs : List (Int × Option Int)),
      discoverSegLoop fuel sh kind icBind icPeer objs.card ⟨entry, [], 0⟩ = .ok st ∧
      DiscoverWalk fuel sh kind icBind icPeer [] entry legs ∧
      (∀ legs2, DiscoverWalk fuel sh kind icBind icPeer [] entry legs2 → legs2 = legs) ∧
      st.path = (walkObjs legs).reverse ∧
      st.dlSegsOnPath = ((walkDls legs).length : Int) ∧
      (walkObjs legs).Nodup ∧ (∃ rest, walkObjs legs = entry :: rest) ∧
      (∀ d ∈ walkDls legs, sh.objKind d.1 = EObjKind.OK_DLS ∧
        skipObj sh d.1 (sh.objPeerField d.1) = .ok d.2 ∧ d.1 ≠ d.2) ∧
      2 * (walkDls legs).length ≤ (walkObjs legs).length ∧
      (walkDls legs).length + 1 ≤ (walkObjs legs).length ∧
      discoverSeg fuel objs.card sh entry kind icBind icPeer =
        .ok (if walkDls legs ≠ [] ∧ sh.objKind entry ≠ EObjKind.OK_DLS then 0
          else (walkObjs legs).length - 1 - (walkDls legs).length) := by
  cases hl : discoverSegLoop fuel sh kind icBind icPeer objs.card ⟨entry, [], 0⟩ with
  | error e =>
    have := discoverSegLoop_err sh objs size hobjs hsz fuel hd kind icBind icPeer objs.card
      ⟨entry, [], 0⟩ hentry (by simp) e hl
    subst this
    left
    unfold discoverSeg
    rw [hl]
  | ok st =>
    right
    have hbound := discoverSegLoop_length fuel sh kind icBind icPeer objs.card _ st hl
    simp only [List.length_nil, zero_add] at hbound
    have h31 : (2 : Nat) ^ 31 = 2147483648 := by norm_num
    have h32 : (2 : Nat) ^ 32 = 4294967296 := by norm_num
    obtain ⟨legs, hw, hp, hc, hone, hres⟩ :=
      discoverSeg_walk fuel objs.card sh entry kind icBind icPeer st hl (by omega)
    obtain ⟨hnd, _, hhead, hdls⟩ := discoverWalk_spec fuel sh kind icBind icPeer [] entry legs hw
    have h1 := walkDls_length_le legs
    have h2 := walkDls_length_le_legs legs
    exact ⟨st, legs, rfl, hw, discoverWalk_unique fuel sh kind icBind icPeer [] entry legs hw,
      hp, hc, hnd, hhead (List.not_mem_nil _), hdls, by omega, hone, hres⟩

set_option maxRecDepth 100000 in
/-- Witness of C11: the walk from the concrete node `10` of `dlsHeap`, which is followed by
the DLS with the ends `20` and `30`: the walk visits the three objects and traverses the
DLS, and `discoverSeg` returns `0` because the entry is no DLS. -/
theorem discoverSeg_counts_dls_witness :
    ((discoverSegLoop 3 dlsHeap .OK_DLS [0] [1]
        ({1, 10, 11, 12, 20, 21, 22, 30, 31, 32} : Finset Int).card ⟨10, [], 0⟩).map
      fun st => (st.path, st.dlSegsOnPath)) = .ok ([30, 20, 10], 1) ∧
    discoverSeg 3 ({1, 10, 11, 12, 20, 21, 22, 30, 31, 32} : Finset Int).card dlsHeap 10
      .OK_DLS [0] [1] = .ok 0 ∧
    (discoverSeg 3 ({1, 10, 11, 12, 20, 21, 22, 30, 31, 32} : Finset Int).card dlsHeap 10
      .OK_DLS [0] [1] = .error .TRAP ∨
    ∃ (st : DiscoverState) (legs : List (Int × Option Int)),
      discoverSegLoop 3 dlsHeap .OK_DLS [0] [1]
        ({1, 10, 11, 12, 20, 21, 22, 30, 31, 32} : Finset Int).card ⟨10, [], 0⟩ = .ok st ∧
      DiscoverWalk 3 dlsHeap .OK_DLS [0] [1] [] 10 legs ∧
      (∀ legs2, DiscoverWalk 3 dlsHeap .OK_DLS [0] [1] [] 10 legs2 → legs2 = legs) ∧
      st.path = (walkObjs legs).reverse ∧
      st.dlSegsOnPath = ((walkDls legs).length : Int) ∧
      (walkObjs legs).Nodup ∧ (∃ rest, walkObjs legs = 10 :: rest) ∧
      (∀ d ∈ walkDls legs, dlsHeap.objKind d.1 = EObjKind.OK_DLS ∧
        skipObj dlsHeap d.1 (dlsHeap.objPeerField d.1) = .ok d.2 ∧ d.1 ≠ d.2) ∧
      2 * (walkDls legs).length ≤ (walkObjs legs).length ∧
      (walkDls legs).length + 1 ≤ (walkObjs legs).length ∧
      discoverSeg 3 ({1, 10, 11, 12, 20, 21, 22, 30, 31, 32} : Finset Int).card dlsHeap 10
        .OK_DLS [0] [1] =
        .ok (if walkDls legs ≠ [] ∧ dlsHeap.objKind 10 ≠ EObjKind.OK_DLS then 0
          else (walkObjs legs).length - 1 - (walkDls legs).length)) :=
  ⟨by decide, by decide,
    discoverSeg_counts_dls dlsHeap {1, 10, 11, 12, 20, 21, 22, 30, 31, 32}
      (fun o => if o = 10 ∨ o = 20 ∨ o = 30 then 2 else 0) 3 10 .OK_DLS [0] [1]
      (by decide) dlsHeap_pointsTo dlsHeap_subObjs dlsHeap_size (by decide)⟩

/-! ## The best candidate of the abstraction -/

theorem digItems_spec (pv : ProbeVisitor) (sh : SymHeap) (size : Int → Nat)
    (hsz : sh.SubObjsBounded size) (fuel : Nat) (hd : ∀ o, size o < fuel) (obj : Int)
    (n : Nat) (i : Int) (st : DigState) :
    (∀ e, digItems pv fuel sh obj n i st = .error e → e = .TRAP) ∧
    ∀ st2, digItems pv fuel sh obj n i st = .ok st2 →
      objsWeight size (st2.todo.map fun x => x.1) ≤
        objsWeight size (st.todo.map fun x => x.1) +
          ((List.range n).map fun (j : Nat) => size (sh.subObj obj (i + (j : Int))) + 1).sum := by
  induction n generalizing i st with
  | zero =>
    simp only [digItems]
    refine ⟨(by intro e h; cases h), ?_⟩
    intro st2 h
    cases h
    simp
  | succ n ih =>
    simp only [digItems]
    cases hcall : pv.call fuel sh (sh.subObj obj i) with
    | error e =>
      simp only
      exact ⟨(by intro e2 h; cases h; exact ProbeVisitor_call_err pv sh size hsz fuel hd _ _ hcall),
        (by intro st2 h; cases h)⟩
    | ok cont =>
      simp only
      obtain ⟨hA, hB⟩ := ih (i + 1)
        ⟨if isStruct (sh.objType (sh.subObj obj i)) then
            (sh.subObj obj i, i, decide (0 = i)) :: st.todo else st.todo,
          st.ic, if (!cont) = true then st.dst ++ [st.ic ++ [i]] else st.dst⟩
      refine ⟨hA, ?_⟩
      intro st2 h
      have h2 := hB st2 h
      refine le_trans h2 ?_
      rw [List.range_succ_eq_map]
      simp only [List.map_cons, List.sum_cons, List.map_map, Nat.cast_zero, add_zero]
      have hfun : (fun j : Nat => size (sh.subObj obj (i + 1 + (j : Int))) + 1) =
          ((fun j : Nat => size (sh.subObj obj (i + (j : Int))) + 1) ∘ Nat.succ) := by
        funext j
        simp only [Function.comp, Nat.succ_eq_add_one, Nat.cast_add, Nat.cast_one]
        congr 3
        ring
      rw [hfun]
      split
      · simp only [objsWeight, List.map_cons, List.sum_cons]
        omega
      · simp only [objsWeight]
        omega

theorem digAnyListSelectorsLoop_err (pv : ProbeVisitor) (sh : SymHeap) (size : Int → Nat)
    (hsz : sh.SubObjsBounded size) (fuel : Nat) (hd : ∀ o, size o < fuel) (n : Nat)
    (st : DigState) (hw : objsWeight size (st.todo.map fun x => x.1) ≤ n) (e : Err)
    (he : digAnyListSelectorsLoop pv fuel sh n st = .error e) : e = .TRAP := by
  induction n generalizing st with
  | zero =>
    unfold digAnyListSelectorsLoop at he
    split at he
    · cases he
    · rename_i obj nth last rest hst
      rw [hst] at hw
      simp [objsWeight] at hw
  | succ n ih =>
    unfold digAnyListSelectorsLoop at he
    split at he
    · cases he
    · rename_i obj nth last rest hst
      rw [hst] at hw
      simp only [objsWeight, List.map_cons, List.sum_cons] at hw
      dsimp only at he
      split at he
      · rename_i e2 hr
        cases he
        split at hr
        · rename_i clt hty
          split at hr
          · rename_i hc
            exact (digItems_spec pv sh size hsz fuel hd obj _ 0 _).1 _ hr
          · cases hr
        · cases hr
      · rename_i st2 hr
        have hw2 : objsWeight size (st2.todo.map fun x => x.1) ≤ n := by
          split at hr
          · rename_i clt hty
            split at hr
            · rename_i hc
              have h2 := (digItems_spec pv sh size hsz fuel hd obj _ 0 _).2 _ hr
              have hb := hsz obj clt hty hc
              simp only [zero_add] at h2
              have hrest : objsWeight size
                  ((if -1 ≠ nth then (⟨rest, st.ic ++ [nth], st.dst⟩ : DigState)
                    else ⟨rest, st.ic, st.dst⟩).todo.map fun x => x.1) =
                  objsWeight size (rest.map fun x => x.1) := by
                split <;> rfl
              rw [hrest] at h2
              simp only [objsWeight] at h2 ⊢
              omega
            · cases hr
              simp only [objsWeight]
              omega
          · cases hr
            simp only [objsWeight]
            omega
        apply ih _ _ he
        split
        · exact hw2
        · exact hw2

theorem digAnyListSelectors_err (sh : SymHeap) (size : Int → Nat)
    (hsz : sh.SubObjsBounded size) (fuel : Nat) (hd : ∀ o, size o < fuel) (obj : Int)
    (kind : EObjKind) (e : Err)
    (he : digAnyListSelectors fuel [] sh obj kind = .error e) : e = .TRAP := by
  unfold digAnyListSelectors at he
  split at he
  · rename_i e2 hmk
    cases he
    exact ProbeVisitor_mk1_err _ _ _ _ hmk
  · rename_i pv hmk
    split at he
    · rename_i e2 hl
      cases he
      refine digAnyListSelectorsLoop_err pv sh size hsz fuel hd fuel _ ?_ _ hl
      have := hd obj
      simp only [objsWeight, List.map_cons, List.map_nil, List.sum_cons, List.sum_nil]
      omega
    · cases he

theorem discoverSeg_err (sh : SymHeap) (objs : Finset Int) (size : Int → Nat)
    (hobjs : ∀ v, 0 < sh.pointsTo v → sh.pointsTo v ∈ objs)
    (hsz : sh.SubObjsBounded size) (fuel : Nat) (hd : ∀ o, size o < fuel)
    (hcard : objs.card ≤ fuel) (entry : Int) (hentry : entry ∈ objs) (kind : EObjKind)
    (icBind icPeer : TFieldIdxChain) (e : Err)
    (he : discoverSeg fuel fuel sh entry kind icBind icPeer = .error e) : e = .TRAP := by
  unfold discoverSeg at he
  split at he
  · rename_i e2 hl
    cases he
    refine discoverSegLoop_err sh objs size hobjs hsz fuel hd kind icBind icPeer fuel
      ⟨entry, [], 0⟩ hentry ?_ _ hl
    simp only [List.toFinset_nil, Finset.sdiff_empty]
    exact hcard
  · split at he <;> cases he

theorem discoverAllSlsLoop_spec (fuel : Nat) (sh : SymHeap) (obj : Int)
    (sels : List TFieldIdxChain) (i : Nat) (best : Nat × Nat) :
    (∀ e, discoverAllSlsLoop fuel sh obj sels i best = .error e →
      ∃ sel ∈ sels, discoverSeg fuel fuel sh obj .OK_SLS sel [] = .error e) ∧
    ∀ r, discoverAllSlsLoop fuel sh obj sels i best = .ok r →
      best.1 ≤ r.1 ∧
      (∀ sel ∈ sels, ∀ len, discoverSeg fuel fuel sh obj .OK_SLS sel [] = .ok len →
        len ≤ r.1) ∧
      (r = best ∨ ∃ j, j < sels.length ∧ r.2 = i + j ∧ best.1 < r.1 ∧
        discoverSeg fuel fuel sh obj .OK_SLS (sels.getD j []) [] = .ok r.1 ∧
        ∀ j2, j2 < j → ∀ len,
          discoverSeg fuel fuel sh obj .OK_SLS (sels.getD j2 []) [] = .ok len → len < r.1) := by
  induction sels generalizing i best with
  | nil =>
    simp only [discoverAllSlsLoop]
    refine ⟨(by intro e h; cases h), ?_⟩
    intro r h
    cases h
    exact ⟨Nat.le_refl _, (by intro sel hs; cases hs), Or.inl rfl⟩
  | cons sel rest ih =>
    simp only [discoverAllSlsLoop]
    cases hds : discoverSeg fuel fuel sh obj .OK_SLS sel [] with
    | error e =>
      simp only
      refine ⟨?_, (by intro r h; cases h)⟩
      intro e2 h
      cases h
      exact ⟨sel, List.mem_cons_self _ _, hds⟩
    | ok len =>
      simp only
      have hsplit : ∀ best2 : Nat × Nat, best.1 ≤ best2.1 → len ≤ best2.1 →
          (best2 = best ∨ (best2 = (len, i) ∧ best.1 < len)) →
          (∀ e, discoverAllSlsLoop fuel sh obj rest (i + 1) best2 = .error e →
            ∃ sel2 ∈ sel :: rest, discoverSeg fuel fuel sh obj .OK_SLS sel2 [] = .error e) ∧
          ∀ r, discoverAllSlsLoop fuel sh obj rest (i + 1) best2 = .ok r →
            best.1 ≤ r.1 ∧
            (∀ sel2 ∈ sel :: rest, ∀ len2,
              discoverSeg fuel fuel sh obj .OK_SLS sel2 [] = .ok len2 → len2 ≤ r.1) ∧
            (r = best ∨ ∃ j, j < (sel :: rest).length ∧ r.2 = i + j ∧ best.1 < r.1 ∧
              discoverSeg fuel fuel sh obj .OK_SLS ((sel :: rest).getD j []) [] = .ok r.1 ∧
              ∀ j2, j2 < j → ∀ len2,
                discoverSeg fuel fuel sh obj .OK_SLS ((sel :: rest).getD j2 []) [] = .ok len2 →
                  len2 < r.1) := by
        intro best2 hb1 hb2 hb3
        obtain ⟨hA, hB⟩ := ih (i + 1) best2
        refine ⟨?_, ?_⟩
        · intro e h
          obtain ⟨s, hs, hse⟩ := hA e h
          exact ⟨s, List.mem_cons_of_mem _ hs, hse⟩
        · intro r h
          obtain ⟨h1, h2, h3⟩ := hB r h
          refine ⟨le_trans hb1 h1, ?_, ?_⟩
          · intro sel2 hs2 len2 hl2
            rcases List.mem_cons.mp hs2 with rfl | hs2
            · rw [hds] at hl2
              cases hl2
              exact le_trans hb2 h1
            · exact h2 sel2 hs2 len2 hl2
          · rcases h3 with h3 | ⟨j, hj, hr2, hlt, hdj, hfirst⟩
            · rcases hb3 with hb3 | ⟨hb3, hlt⟩
              · left
                rw [h3, hb3]
              · right
                refine ⟨0, by simp, ?_, ?_, ?_, ?_⟩
                · rw [h3, hb3]
                  rfl
                · rw [h3, hb3]
                  exact hlt
                · rw [h3, hb3]
                  simpa using hds
                · intro j2 hj2
                  omega
            · right
              refine ⟨j + 1, by simp only [List.length_cons]; omega, by omega, by omega, ?_, ?_⟩
              · simpa using hdj
              · intro j2 hj2 len2 hl2
                cases j2 with
                | zero =>
                  simp only [List.getD_cons_zero] at hl2
                  rw [hds] at hl2
                  cases hl2
                  omega
                | succ j3 =>
                  simp only [List.getD_cons_succ] at hl2
                  exact hfirst j3 (by omega) len2 hl2
      by_cases h0 : len = 0
      · rw [if_pos h0]
        exact hsplit best (Nat.le_refl _) (by omega) (Or.inl rfl)
      · rw [if_neg h0]
        by_cases hlt : best.1 < len
        · rw [if_pos hlt]
          exact hsplit (len, i) (by simp only; omega) (Nat.le_refl _) (Or.inr ⟨rfl, hlt⟩)
        · rw [if_neg hlt]
          exact hsplit best (Nat.le_refl _) (by omega) (Or.inl rfl)

theorem discoverAllDllsLoop_spec (fuel : Nat) (sh : SymHeap) (obj : Int)
    (selectors : List TFieldIdxChain) (pairs : List (Nat × Nat)) (best : Nat × Nat × Nat) :
    (∀ e, discoverAllDllsLoop fuel sh obj selectors pairs best = .error e →
      ∃ p ∈ pairs, p.1 ≠ p.2 ∧ discoverSeg fuel fuel sh obj .OK_DLS (selectors.getD p.1 [])
        (selectors.getD p.2 []) = .error e) ∧
    ∀ r, discoverAllDllsLoop fuel sh obj selectors pairs best = .ok r →
      best.1 ≤ r.1 ∧
      (∀ p ∈ pairs, p.1 ≠ p.2 → ∀ len, discoverSeg fuel fuel sh obj .OK_DLS
        (selectors.getD p.1 []) (selectors.getD p.2 []) = .ok len → len ≤ r.1) ∧
      (r = best ∨ ∃ p ∈ pairs, p.1 ≠ p.2 ∧ r = (r.1, p.1, p.2) ∧ best.1 < r.1 ∧
        discoverSeg fuel fuel sh obj .OK_DLS (selectors.getD p.1 [])
          (selectors.getD p.2 []) = .ok r.1) := by
  induction pairs generalizing best with
  | nil =>
    simp only [discoverAllDllsLoop]
    refine ⟨(by intro e h; cases h), ?_⟩
    intro r h
    cases h
    exact ⟨Nat.le_refl _, (by intro p hp; cases hp), Or.inl rfl⟩
  | cons p rest ih =>
    obtain ⟨a, b⟩ := p
    simp only [discoverAllDllsLoop]
    have hsplit : ∀ best2 : Nat × Nat × Nat, best.1 ≤ best2.1 →
        (a ≠ b → ∀ len, discoverSeg fuel fuel sh obj .OK_DLS (selectors.getD a [])
          (selectors.getD b []) = .ok len → len ≤ best2.1) →
        (best2 = best ∨ (a ≠ b ∧ best2 = (best2.1, a, b) ∧ best.1 < best2.1 ∧
          discoverSeg fuel fuel sh obj .OK_DLS (selectors.getD a [])
            (selectors.getD b []) = .ok best2.1)) →
        (∀ e, discoverAllDllsLoop fuel sh obj selectors rest best2 = .error e →
          ∃ p ∈ (a, b) :: rest, p.1 ≠ p.2 ∧ discoverSeg fuel fuel sh obj .OK_DLS
            (selectors.getD p.1 []) (selectors.getD p.2 []) = .error e) ∧
        ∀ r, discoverAllDllsLoop fuel sh obj selectors rest best2 = .ok r →
          best.1 ≤ r.1 ∧
          (∀ p ∈ (a, b) :: rest, p.1 ≠ p.2 → ∀ len, discoverSeg fuel fuel sh obj .OK_DLS
            (selectors.getD p.1 []) (selectors.getD p.2 []) = .ok len → len ≤ r.1) ∧
          (r = best ∨ ∃ p ∈ (a, b) :: rest, p.1 ≠ p.2 ∧ r = (r.1, p.1, p.2) ∧ best.1 < r.1 ∧
            discoverSeg fuel fuel sh obj .OK_DLS (selectors.getD p.1 [])
              (selectors.getD p.2 []) = .ok r.1) := by
      intro best2 hb1 hb2 hb3
      obtain ⟨hA, hB⟩ := ih best2
      refine ⟨?_, ?_⟩
      · intro e h
        obtain ⟨p, hp, hpe⟩ := hA e h
        exact ⟨p, List.mem_cons_of_mem _ hp, hpe⟩
      · intro r h
        obtain ⟨h1, h2, h3⟩ := hB r h
        refine ⟨le_trans hb1 h1, ?_, ?_⟩
        · intro p hp hne len hl
          rcases List.mem_cons.mp hp with rfl | hp
          · exact le_trans (hb2 hne len hl) h1
          · exact h2 p hp hne len hl
        · rcases h3 with h3 | ⟨p, hp, hne, hr, hlt, hdp⟩
          · rcases hb3 with hb3 | ⟨hne, hb3, hlt, hdp⟩
            · left
              rw [h3, hb3]
            · right
              refine ⟨(a, b), List.mem_cons_self _ _, hne, ?_, ?_, ?_⟩
              · rw [h3]
                exact hb3
              · rw [h3]
                exact hlt
              · rw [h3]
                exact hdp
          · right
            exact ⟨p, List.mem_cons_of_mem _ hp, hne, hr, by omega, hdp⟩
    by_cases hab : a = b
    · rw [if_pos hab]
      exact hsplit best (Nat.le_refl _) (fun h => absurd hab h) (Or.inl rfl)
    · rw [if_neg hab]
      cases hds : discoverSeg fuel fuel sh obj .OK_DLS (selectors.getD a [])
          (selectors.getD b []) with
      | error e =>
        simp only
        refine ⟨?_, (by intro r h; cases h)⟩
        intro e2 h
        cases h
        exact ⟨(a, b), List.mem_cons_self _ _, hab, hds⟩
      | ok len =>
        simp only
        by_cases h0 : len = 0
        · rw [if_pos h0]
          refine hsplit best (Nat.le_refl _) ?_ (Or.inl rfl)
          intro _ len2 hl2
          rw [hds] at hl2
          cases hl2
          omega
        · rw [if_neg h0]
          by_cases hlt : best.1 < len
          · rw [if_pos hlt]
            refine hsplit (len, a, b) (by simp only; omega) ?_ (Or.inr ⟨hab, rfl, hlt, hds⟩)
            intro _ len2 hl2
            rw [hds] at hl2
            cases hl2
            exact Nat.le_refl _
          · rw [if_neg hlt]
            refine hsplit best (Nat.le_refl _) ?_ (Or.inl rfl)
            intro _ len2 hl2
            rw [hds] at hl2
            cases hl2
            omega

theorem mem_dllIndexPairs (cnt a b : Nat) :
    (a, b) ∈ dllIndexPairs cnt ↔ a < cnt ∧ b < cnt := by
  simp only [dllIndexPairs, List.mem_flatMap, List.mem_range, List.mem_map, Prod.mk.injEq]
  constructor
  · rintro ⟨x, hx, y, hy, rfl, rfl⟩
    exact ⟨hx, hy⟩
  · rintro ⟨ha, hb⟩
    exact ⟨a, ha, b, hb, rfl, rfl⟩

theorem mem_getD_of_lt (l : List TFieldIdxChain) (j : Nat) (h : j < l.length) :
    l.getD j [] ∈ l := by
  rw [List.getD_eq_getElem l [] h]
  exact List.getElem_mem h

theorem discoverAllSegments_spec (fuel : Nat) (sh : SymHeap) (obj : Int) (kind : EObjKind)
    (selectors : List TFieldIdxChain) (hlen : selectors.length < 2 ^ 31) :
    (∀ e, discoverAllSegments fuel sh obj kind selectors [] [] = .error e →
      e = .TRAP ∨ ∃ a b, IsCandidate kind selectors a b ∧
        discoverSeg fuel fuel sh obj kind a b = .error e) ∧
    ∀ len icN icP, discoverAllSegments fuel sh obj kind selectors [] [] = .ok (len, icN, icP) →
      (∀ a b l, IsCandidate kind selectors a b →
        discoverSeg fuel fuel sh obj kind a b = .ok l → l ≤ len) ∧
      (len ≠ 0 → IsCandidate kind selectors icN icP ∧
        discoverSeg fuel fuel sh obj kind icN icP = .ok len) := by
  have hcnt : toUInt32 (selectors.length : Int) = selectors.length := by
    rw [toUInt32_of_lt _ (by omega) (by omega), Int.toNat_ofNat]
  unfold discoverAllSegments
  simp only [hcnt, List.take_length]
  by_cases h0 : selectors.length = 0
  · rw [if_pos h0]
    exact ⟨(by intro e h; cases h; exact Or.inl rfl), (by intro len icN icP h; cases h)⟩
  · rw [if_neg h0]
    cases kind with
    | OK_CONCRETE =>
      simp only
      exact ⟨(by intro e h; cases h; exact Or.inl rfl), (by intro len icN icP h; cases h)⟩
    | OK_SLS =>
      simp only
      obtain ⟨hA, hB⟩ := discoverAllSlsLoop_spec fuel sh obj selectors 0 (0, 0)
      cases hl : discoverAllSlsLoop fuel sh obj selectors 0 (0, 0) with
      | error e =>
        simp only
        refine ⟨?_, (by intro len icN icP h; cases h)⟩
        intro e2 h
        cases h
        obtain ⟨sel, hs, hse⟩ := hA e hl
        exact Or.inr ⟨sel, [], ⟨hs, rfl⟩, hse⟩
      | ok r =>
        obtain ⟨bl, bi⟩ := r
        obtain ⟨_, h2, h3⟩ := hB _ hl
        simp only
        refine ⟨(by intro e h; split at h <;> cases h), ?_⟩
        intro len icN icP h
        have hall : ∀ a b l, IsCandidate .OK_SLS selectors a b →
            discoverSeg fuel fuel sh obj .OK_SLS a b = .ok l → l ≤ bl := by
          intro a b l hc hd
          obtain ⟨ha, hb⟩ := hc
          subst hb
          exact h2 a ha l hd
        by_cases hbl : bl = 0
        · rw [if_pos hbl] at h
          cases h
          refine ⟨?_, fun hne => absurd rfl hne⟩
          intro a b l hc hd
          have := hall a b l hc hd
          omega
        · rw [if_neg hbl] at h
          cases h
          refine ⟨hall, fun _ => ?_⟩
          rcases h3 with h3 | ⟨j, hj, hr2, _, hdj, _⟩
          · cases h3
            exact absurd rfl hbl
          · simp only [zero_add] at hr2
            subst hr2
            exact ⟨⟨mem_getD_of_lt _ _ hj, rfl⟩, hdj⟩
    | OK_DLS =>
      simp only
      unfold discoverAllDlls
      simp only [toInt32_of_lt _ hlen, Int.toNat_ofNat]
      by_cases h2 : (selectors.length : Int) < 2
      · rw [if_pos h2]
        refine ⟨(by intro e h; cases h), ?_⟩
        intro len icN icP h
        cases h
        refine ⟨?_, fun hne => absurd rfl hne⟩
        intro a b l hc hd
        obtain ⟨i, j, hi, hj, hij, _⟩ := hc
        omega
      · rw [if_neg h2]
        obtain ⟨hA, hB⟩ := discoverAllDllsLoop_spec fuel sh obj selectors
          (dllIndexPairs selectors.length) (0, 0, 0)
        cases hl : discoverAllDllsLoop fuel sh obj selectors (dllIndexPairs selectors.length)
            (0, 0, 0) with
        | error e =>
          simp only
          refine ⟨?_, (by intro len icN icP h; cases h)⟩
          intro e2 h
          cases h
          obtain ⟨p, hp, hne, hpe⟩ := hA e hl
          obtain ⟨a, b⟩ := p
          obtain ⟨ha, hb⟩ := (mem_dllIndexPairs _ _ _).mp hp
          exact Or.inr ⟨_, _, ⟨a, b, ha, hb, hne, rfl, rfl⟩, hpe⟩
        | ok r =>
          obtain ⟨bl, bn, bp⟩ := r
          obtain ⟨_, h3, h4⟩ := hB _ hl
          simp only
          refine ⟨(by intro e h; split at h <;> cases h), ?_⟩
          intro len icN icP h
          have hall : ∀ a b l, IsCandidate .OK_DLS selectors a b →
              discoverSeg fuel fuel sh obj .OK_DLS a b = .ok l → l ≤ bl := by
            intro a b l hc hd
            obtain ⟨i, j, hi, hj, hij, ha, hb⟩ := hc
            subst ha hb
            exact h3 (i, j) ((mem_dllIndexPairs _ _ _).mpr ⟨hi, hj⟩) hij l hd
          by_cases hbl : bl = 0
          · rw [if_pos hbl] at h
            cases h
            refine ⟨?_, fun hne => absurd rfl hne⟩
            intro a b l hc hd
            have := hall a b l hc hd
            omega
          · rw [if_neg hbl] at h
            cases h
            refine ⟨hall, fun _ => ?_⟩
            rcases h4 with h4 | ⟨p, hp, hne, hr, _, hdp⟩
            · cases h4
              exact absurd rfl hbl
            · obtain ⟨a, b⟩ := p
              obtain ⟨ha, hb⟩ := (mem_dllIndexPairs _ _ _).mp hp
              simp only [Prod.mk.injEq, true_and] at hr
              obtain ⟨hr1, hr2⟩ := hr
              subst hr1 hr2
              exact ⟨⟨bn, bp, ha, hb, hne, rfl, rfl⟩, hdp⟩

theorem considerAbstractionLoop_spec (sh : SymHeap) (objs : Finset Int) (size : Int → Nat)
    (hobjs : ∀ v, 0 < sh.pointsTo v → sh.pointsTo v ∈ objs)
    (hsz : sh.SubObjsBounded size) (fuel : Nat) (hd : ∀ o, size o < fuel)
    (hcard : objs.card ≤ fuel) (kind : EObjKind) (entries : List Int)
    (hent : ∀ obj ∈ entries, obj ∈ objs)
    (hsel : ∀ obj ∈ entries, ∀ sels, digAnyListSelectors fuel [] sh obj kind = .ok sels →
      sels.length < 2 ^ 31)
    (best : BestCandidate) :
    (∀ e, considerAbstractionLoop fuel sh kind entries best = .error e → e = .TRAP) ∧
    ∀ r, considerAbstractionLoop fuel sh kind entries best = .ok r →
      best.bestLen ≤ r.bestLen ∧
      (∀ obj ∈ entries, ∀ a b l, CandidateLen fuel sh kind obj a b l → l ≤ r.bestLen) ∧
      (r = best ∨ (r.bestLen ≠ 0 ∧ r.bestEntry ∈ entries ∧
        CandidateLen fuel sh kind r.bestEntry r.bestNext r.bestPrev r.bestLen)) := by
  induction entries generalizing best with
  | nil =>
    simp only [considerAbstractionLoop]
    refine ⟨(by intro e h; cases h), ?_⟩
    intro r h
    cases h
    exact ⟨Nat.le_refl _, (by intro obj ho; cases ho), Or.inl rfl⟩
  | cons obj rest ih =>
    have ih2 := ih (fun o ho => hent o (List.mem_cons_of_mem _ ho))
      (fun o ho => hsel o (List.mem_cons_of_mem _ ho))
    simp only [considerAbstractionLoop]
    cases hdig : digAnyListSelectors fuel [] sh obj kind with
    | error e =>
      simp only
      refine ⟨?_, (by intro r h; cases h)⟩
      intro e2 h
      cases h
      exact digAnyListSelectors_err sh size hsz fuel hd obj kind e hdig
    | ok selectors =>
      simp only
      have hl := hsel obj (List.mem_cons_self _ _) selectors hdig
      obtain ⟨hA, hB⟩ := discoverAllSegments_spec fuel sh obj kind selectors hl
      cases hall : discoverAllSegments fuel sh obj kind selectors [] [] with
      | error e =>
        simp only
        refine ⟨?_, (by intro r h; cases h)⟩
        intro e2 h
        cases h
        rcases hA e hall with h1 | ⟨a, b, _, hab⟩
        · exact h1
        · exact discoverSeg_err sh objs size hobjs hsz fuel hd hcard obj
            (hent obj (List.mem_cons_self _ _)) kind a b e hab
      | ok r0 =>
        obtain ⟨len, icN, icP⟩ := r0
        obtain ⟨hB1, hB2⟩ := hB len icN icP hall
        simp only
        have hsplit : ∀ best2 : BestCandidate, best.bestLen ≤ best2.bestLen →
            len ≤ best2.bestLen →
            (best2 = best ∨ (best2 = ⟨len, obj, icN, icP⟩ ∧ len ≠ 0)) →
            (∀ e, considerAbstractionLoop fuel sh kind rest best2 = .error e → e = .TRAP) ∧
            ∀ r, considerAbstractionLoop fuel sh kind rest best2 = .ok r →
              best.bestLen ≤ r.bestLen ∧
              (∀ o ∈ obj :: rest, ∀ a b l, CandidateLen fuel sh kind o a b l →
                l ≤ r.bestLen) ∧
              (r = best ∨ (r.bestLen ≠ 0 ∧ r.bestEntry ∈ obj :: rest ∧
                CandidateLen fuel sh kind r.bestEntry r.bestNext r.bestPrev r.bestLen)) := by
          intro best2 hb1 hb2 hb3
          obtain ⟨iA, iB⟩ := ih2 best2
          refine ⟨iA, ?_⟩
          intro r h
          obtain ⟨h1, h2, h3⟩ := iB r h
          refine ⟨le_trans hb1 h1, ?_, ?_⟩
          · intro o ho a b l hc
            rcases List.mem_cons.mp ho with rfl | ho
            · obtain ⟨sels, hs, hcand, hds⟩ := hc
              rw [hdig] at hs
              cases hs
              have := hB1 a b l hcand hds
              omega
            · exact h2 o ho a b l hc
          · rcases h3 with h3 | ⟨h3a, h3b, h3c⟩
            · rcases hb3 with hb3 | ⟨hb3, hne⟩
              · left
                rw [h3, hb3]
              · right
                rw [h3, hb3]
                obtain ⟨hc1, hc2⟩ := hB2 hne
                exact ⟨hne, List.mem_cons_self _ _, selectors, hdig, hc1, hc2⟩
            · right
              exact ⟨h3a, List.mem_cons_of_mem _ h3b, h3c⟩
        by_cases hle : len ≤ best.bestLen
        · rw [if_pos hle]
          exact hsplit best (Nat.le_refl _) hle (Or.inl rfl)
        · rw [if_neg hle]
          exact hsplit ⟨len, obj, icN, icP⟩ (by simp only; omega) (Nat.le_refl _)
            (Or.inr ⟨rfl, by omega⟩)

theorem sllHeap_subObjs (k : Nat) :
    (sllHeap k).SubObjsBounded (fun o => if o % 2 = 0 then 1 else 0) := by
  intro o t ht hc
  simp only [sllHeap] at ht
  split_ifs at ht with h1 h2 h3
  · cases ht
    have hs : (sllHeap k).subObj o ((0 : Nat) : Int) = o + 1 := by
      simp only [sllHeap, Nat.cast_zero]
      rw [if_pos ⟨h1.1, by omega, h2, trivial⟩]
    have hr : List.range (itemType.item_cnt.toNat) = [0] := rfl
    rw [hr]
    simp only [List.map_cons, List.map_nil, List.sum_cons, List.sum_nil, hs]
    rw [if_pos h2, if_neg (by omega)]
    omega
  · cases ht
    simp [itemPtrType] at hc
  · cases ht
    simp [itemPtrType] at hc

theorem sllHeap_size (o : Int) : (if o % 2 = 0 then 1 else 0) < 7 := by
  split_ifs <;> omega

theorem sllHeap3_pointsTo (v : Int) (h : 0 < (sllHeap 3).pointsTo v) :
    (sllHeap 3).pointsTo v ∈ ({1, 2, 3, 4, 5, 6, 7} : Finset Int) := by
  simp only [sllHeap] at h ⊢
  split_ifs at h ⊢ with h1
  · simp only [Finset.mem_insert, Finset.mem_singleton]
    push_cast at h1
    omega
  · simp [OBJ_INVALID] at h

theorem sllHeap3_selectors (obj : Int) (hobj : obj ∈ [(2 : Int), 4])
    (sels : List TFieldIdxChain)
    (h : digAnyListSelectors 7 [] (sllHeap 3) obj .OK_SLS = .ok sels) :
    sels.length < 2 ^ 31 := by
  have hinv := sllHeap_inv 3 (by decide)
  have hcur : (sllHeap 3).objKind (2 * 2) ≠ EObjKind.OK_DLS := by
    intro hx
    cases hx
  have key : ∀ m : Int, (m = 1 ∨ 2 ≤ m) → m < 3 →
      digAnyListSelectors 7 [] (sllHeap 3) (2 * m) .OK_SLS = .ok [[0]] := by
    intro m hm hm3
    exact (inv_entry ((3 : Nat) : Int) 2 (sllHeap 3) hinv (by decide) (by decide) hcur 6
      (by decide) (by decide) m hm hm3).1
  simp only [List.mem_cons, List.mem_singleton, List.not_mem_nil, or_false] at hobj
  rcases hobj with rfl | rfl
  · have k1 := key 1 (Or.inl rfl) (by decide)
    rw [show (2 : Int) * 1 = 2 by norm_num] at k1
    rw [k1] at h
    cases h
    decide
  · have k2 := key 2 (Or.inr (by decide)) (by decide)
    rw [show (2 : Int) * 2 = 4 by norm_num] at k2
    rw [k2] at h
    cases h
    decide

/-- C12: the best candidate.  Let `objs` be a finite set of at most `fuel` objects that
holds the entries and every object that a pointer value points to, let the trees of
sub-objects be bounded and let no entry have `2^31` candidate selectors or more.  Unless it
hits a `TRAP`, the loop of `considerAbstraction` ends with a candidate `best` whose length
bounds the length that `discoverSeg` finds for every entry and every candidate selector of
the entry (for a DLS: every ordered pair of selectors at distinct positions).  If that
length is `0`, which is the case if all these lengths are `0`, `considerAbstraction`
returns `false` and the heap as it was; otherwise the length is the one that `discoverSeg`
finds for the entry and the selectors of `best`, which are an entry of the list and
candidate selectors of it, and `considerAbstraction` is the call of
`considerSegAbstraction` on them. -/
theorem considerAbstraction_best (sh : SymHeap) (objs : Finset Int) (size : Int → Nat)
    (fuel : Nat) (kind : EObjKind) (entries : List Int)
    (hobjs : ∀ v, 0 < sh.pointsTo v → sh.pointsTo v ∈ objs)
    (hsz : sh.SubObjsBounded size) (hd : ∀ o, size o < fuel) (hcard : objs.card ≤ fuel)
    (hent : ∀ obj ∈ entries, obj ∈ objs)
    (hsel : ∀ obj ∈ entries, ∀ sels, digAnyListSelectors fuel [] sh obj kind = .ok sels →
      sels.length < 2 ^ 31) :
    considerAbstraction fuel sh kind entries = .error .TRAP ∨
    ∃ best, considerAbstractionLoop fuel sh kind entries ⟨0, 0, [], []⟩ = .ok best ∧
      (∀ obj ∈ entries, ∀ a b l, CandidateLen fuel sh kind obj a b l → l ≤ best.bestLen) ∧
      ((∀ obj ∈ entries, ∀ a b l, CandidateLen fuel sh kind obj a b l → l = 0) →
        best.bestLen = 0) ∧
      (best.bestLen = 0 → considerAbstraction fuel sh kind entries = .ok (false, sh)) ∧
      (best.bestLen ≠ 0 → best.bestEntry ∈ entries ∧
        CandidateLen fuel sh kind best.bestEntry best.bestNext best.bestPrev best.bestLen ∧
        considerAbstraction fuel sh kind entries =
          considerSegAbstraction fuel sh best.bestEntry kind best.bestNext best.bestPrev
            best.bestLen) := by
  by_cases hk : kind = EObjKind.OK_CONCRETE
  · left
    unfold considerAbstraction
    rw [if_pos hk]
  · obtain ⟨hA, hB⟩ := considerAbstractionLoop_spec sh objs size hobjs hsz fuel hd hcard kind
      entries hent hsel ⟨0, 0, [], []⟩
    cases hl : considerAbstractionLoop fuel sh kind entries ⟨0, 0, [], []⟩ with
    | error e =>
      left
      have := hA e hl
      subst this
      unfold considerAbstraction
      rw [if_neg hk, hl]
    | ok best =>
      right
      obtain ⟨_, h2, h3⟩ := hB best hl
      have hatt : best.bestLen ≠ 0 → best.bestEntry ∈ entries ∧
          CandidateLen fuel sh kind best.bestEntry best.bestNext best.bestPrev
            best.bestLen := by
        intro hne
        rcases h3 with h3 | ⟨_, h3b, h3c⟩
        · rw [h3] at hne
          exact absurd rfl hne
        · exact ⟨h3b, h3c⟩
      refine ⟨best, rfl, h2, ?_, ?_, ?_⟩
      · intro hzero
        by_contra hne
        obtain ⟨hin, hc⟩ := hatt hne
        exact hne (hzero _ hin _ _ _ hc)
      · intro h0
        unfold considerAbstraction
        rw [if_neg hk, hl]
        simp only [h0, if_true]
      · intro hne
        obtain ⟨hin, hc⟩ := hatt hne
        refine ⟨hin, hc, ?_⟩
        unfold considerAbstraction
        rw [if_neg hk, hl]
        simp only [hne, if_false]

/-- Witness of C12: the entries `n1` and `n2` of the list of three nodes. -/
theorem considerAbstraction_best_witness :
    considerAbstraction 7 (sllHeap 3) .OK_SLS [2, 4] = .error .TRAP ∨
    ∃ best, considerAbstractionLoop 7 (sllHeap 3) .OK_SLS [2, 4] ⟨0, 0, [], []⟩ = .ok best ∧
      (∀ obj ∈ [(2 : Int), 4], ∀ a b l,
        CandidateLen 7 (sllHeap 3) .OK_SLS obj a b l → l ≤ best.bestLen) ∧
      ((∀ obj ∈ [(2 : Int), 4], ∀ a b l,
        CandidateLen 7 (sllHeap 3) .OK_SLS obj a b l → l = 0) → best.bestLen = 0) ∧
      (best.bestLen = 0 →
        considerAbstraction 7 (sllHeap 3) .OK_SLS [2, 4] = .ok (false, sllHeap 3)) ∧
      (best.bestLen ≠ 0 → best.bestEntry ∈ [(2 : Int), 4] ∧
        CandidateLen 7 (sllHeap 3) .OK_SLS best.bestEntry best.bestNext best.bestPrev
          best.bestLen ∧
        considerAbstraction 7 (sllHeap 3) .OK_SLS [2, 4] =
          considerSegAbstraction 7 (sllHeap 3) best.bestEntry .OK_SLS best.bestNext
            best.bestPrev best.bestLen) :=
  considerAbstraction_best (sllHeap 3) {1, 2, 3, 4, 5, 6, 7}
    (fun o => if o % 2 = 0 then 1 else 0) 7 .OK_SLS [2, 4] sllHeap3_pointsTo
    (sllHeap_subObjs 3) sllHeap_size (by decide) (by decide) sllHeap3_selectors

/-! ## The tie-break of the selectors -/

set_option maxRecDepth 100000 in
/-- C13, counterexample: the entry object `10` of `nestedHeap` has the candidate selectors
`[1]` and `[0, 0]`, in this order; both yield a segment of the length `1`, the maximum,
and `discoverAllSegments` chooses `[1]`, although `[0, 0]` is lexicographically smaller. -/
theorem discoverAllSegments_tie_not_lexicographic :
    digAnyListSelectors 3 [] nestedHeap 10 .OK_SLS = .ok [[1], [0, 0]] ∧
    discoverSeg 3 3 nestedHeap 10 .OK_SLS [0, 0] [] = .ok 1 ∧
    discoverSeg 3 3 nestedHeap 10 .OK_SLS [1] [] = .ok 1 ∧
    discoverAllSegments 3 nestedHeap 10 .OK_SLS [[1], [0, 0]] [] [] = .ok (1, [1], []) ∧
    lexLt [0, 0] [1] = true := by
  refine ⟨by decide, by decide, by decide, by decide, by decide⟩

theorem exists_getD_of_mem (l : List TFieldIdxChain) (sel : TFieldIdxChain) (h : sel ∈ l) :
    ∃ j, j < l.length ∧ l.getD j [] = sel := by
  obtain ⟨j, hj, he⟩ := List.getElem_of_mem h
  exact ⟨j, hj, by rw [List.getD_eq_getElem l [] hj, he]⟩

/-- C13, as amended: among the selectors that yield the maximal length, `discoverAllSegments`
chooses the first one in the order of the list of candidates, which is the order in which
`digAnyListSelectors` has emitted them.  If the selector at the position `j` yields the
length `L j` for each position, the length at the position `j0` is positive, is not
exceeded at any position and is not reached at any position before `j0`, then
`discoverAllSegments` returns that length and the selector at the position `j0`. -/
theorem discoverAllSegments_tie_first (fuel : Nat) (sh : SymHeap) (obj : Int)
    (selectors : List TFieldIdxChain) (L : Nat → Nat) (j0 : Nat)
    (hlen : selectors.length < 2 ^ 31)
    (hall : ∀ j, j < selectors.length →
      discoverSeg fuel fuel sh obj .OK_SLS (selectors.getD j []) [] = .ok (L j))
    (hj0 : j0 < selectors.length) (hpos : 0 < L j0)
    (hmax : ∀ j, j < selectors.length → L j ≤ L j0)
    (hfirst : ∀ j, j < j0 → L j < L j0) :
    discoverAllSegments fuel sh obj .OK_SLS selectors [] [] =
      .ok (L j0, selectors.getD j0 [], []) := by
  have hcnt : toUInt32 (selectors.length : Int) = selectors.length := by
    rw [toUInt32_of_lt _ (by omega) (by omega), Int.toNat_ofNat]
  unfold discoverAllSegments
  simp only [hcnt, List.take_length]
  rw [if_neg (by omega)]
  obtain ⟨hA, hB⟩ := discoverAllSlsLoop_spec fuel sh obj selectors 0 (0, 0)
  cases hl : discoverAllSlsLoop fuel sh obj selectors 0 (0, 0) with
  | error e =>
    exfalso
    obtain ⟨sel, hs, hse⟩ := hA e hl
    obtain ⟨j, hj, hje⟩ := exists_getD_of_mem selectors sel hs
    rw [← hje, hall j hj] at hse
    cases hse
  | ok r =>
    obtain ⟨bl, bi⟩ := r
    obtain ⟨_, h2, h3⟩ := hB _ hl
    simp only at h2 h3 ⊢
    have hge : L j0 ≤ bl := h2 _ (mem_getD_of_lt selectors j0 hj0) _ (hall j0 hj0)
    rcases h3 with h3 | ⟨j, hj, hr2, _, hdj, hf⟩
    · cases h3
      omega
    · rw [hall j hj] at hdj
      cases hdj
      have hle := hmax j hj
      have hjj : j = j0 := by
        rcases Nat.lt_trichotomy j j0 with h | h | h
        · have := hfirst j h
          omega
        · exact h
        · have := hf j0 h _ (hall j0 hj0)
          omega
      subst hjj
      simp only [zero_add] at hr2
      subst hr2
      rw [if_neg (by omega)]

/-- Witness of C13, as amended: the two selectors of the entry `10` of `nestedHeap`. -/
theorem discoverAllSegments_tie_first_witness :
    discoverAllSegments 3 nestedHeap 10 .OK_SLS [[1], [0, 0]] [] [] =
      .ok (1, [1], []) :=
  discoverAllSegments_tie_first 3 nestedHeap 10 [[1], [0, 0]] (fun _ => 1) 0 (by decide)
    (by
      intro j hj
      have hj2 : j = 0 ∨ j = 1 := by
        simp only [List.length_cons, List.length_nil] at hj
        omega
      rcases hj2 with rfl | rfl <;> decide)
    (by decide) (by decide) (by intro j _; exact Nat.le_refl _) (by intro j hj; omega)

/-! ## The effect of the value abstraction -/

theorem HeapFrame.refl (sh : SymHeap) : HeapFrame sh sh :=
  ⟨fun _ => rfl, fun _ _ => rfl, fun _ => rfl, fun _ => rfl, fun _ => rfl, fun _ => rfl,
    fun _ => rfl, fun _ => rfl, fun _ => rfl, rfl, rfl, rfl, le_refl _, fun _ _ => rfl,
    fun _ _ => rfl⟩

theorem HeapFrame.trans {a b c : SymHeap} (h1 : HeapFrame a b) (h2 : HeapFrame b c) :
    HeapFrame a c where
  objType := fun o => (h2.objType o).trans (h1.objType o)
  subObj := fun o i => (h2.subObj o i).trans (h1.subObj o i)
  objParent := fun o => (h2.objParent o).trans (h1.objParent o)
  placedAt := fun o => (h2.placedAt o).trans (h1.placedAt o)
  pointsTo := fun o => (h2.pointsTo o).trans (h1.pointsTo o)
  cVar := fun o => (h2.cVar o).trans (h1.cVar o)
  objKind := fun o => (h2.objKind o).trans (h1.objKind o)
  objBinderField := fun o => (h2.objBinderField o).trans (h1.objBinderField o)
  objPeerField := fun o => (h2.objPeerField o).trans (h1.objPeerField o)
  neqDb := h2.neqDb.trans h1.neqDb
  roots := h2.roots.trans h1.roots
  lastObjId := h2.lastObjId.trans h1.lastObjId
  lastValId := le_trans h1.lastValId h2.lastValId
  unknown := fun v hv =>
    (h2.unknown v (le_trans hv h1.lastValId)).trans (h1.unknown v hv)
  valType := fun v hv =>
    (h2.valType v (le_trans hv h1.lastValId)).trans (h1.valType v hv)

theorem HeapFrame.objSetValue (sh : SymHeap) (obj val : Int) :
    HeapFrame sh (sh.objSetValue obj val) :=
  ⟨fun _ => rfl, fun _ _ => rfl, fun _ => rfl, fun _ => rfl, fun _ => rfl, fun _ => rfl,
    fun _ => rfl, fun _ => rfl, fun _ => rfl, rfl, rfl, rfl, le_refl _, fun _ _ => rfl,
    fun _ _ => rfl⟩

theorem HeapFrame.valCreateUnknown (sh : SymHeap) (code : EUnknownValue)
    (clt : Option cl_type) : HeapFrame sh (sh.valCreateUnknown code clt).2 where
  objType := fun _ => rfl
  subObj := fun _ _ => rfl
  objParent := fun _ => rfl
  placedAt := fun _ => rfl
  pointsTo := fun _ => rfl
  cVar := fun _ => rfl
  objKind := fun _ => rfl
  objBinderField := fun _ => rfl
  objPeerField := fun _ => rfl
  neqDb := rfl
  roots := rfl
  lastObjId := rfl
  lastValId := by
    show sh.lastValId ≤ sh.lastValId + 1
    omega
  unknown := by
    intro v hv
    show (if v = sh.lastValId + 1 then code else sh.valGetUnknown v) = sh.valGetUnknown v
    rw [if_neg (by omega)]
  valType := by
    intro v hv
    show (if v = sh.lastValId + 1 then clt else sh.valType v) = sh.valType v
    rw [if_neg (by omega)]

theorem objSetValue_valueOf (sh : SymHeap) (obj val o : Int) :
    (sh.objSetValue obj val).valueOf o = if o = obj then val else sh.valueOf o := rfl

theorem proveEq_true_iff (sh : SymHeap) (v1 v2 : Int) :
    sh.proveEq v1 v2 = some true ↔ v1 = v2 := by
  unfold SymHeap.proveEq
  constructor
  · intro h
    by_contra hne
    rw [if_neg hne] at h
    split at h <;> cases h
  · intro h
    rw [if_pos h]

/-- The heap that the visitor of `abstractNonMatchingValues` leaves when the values of the
pair differ: the second object stores a new unknown value of the type `clt`. -/
theorem visitor_cases (cur : SymHeap) (s d : Int) :
    abstractNonMatchingValuesVisitor cur (s, d) = .error .TRAP ∨
    (cur.valueOf s = cur.valueOf d ∧
      abstractNonMatchingValuesVisitor cur (s, d) = .ok (true, cur)) ∨
    (cur.valueOf s ≠ cur.valueOf d ∧ ∃ clt,
      abstractNonMatchingValuesVisitor cur (s, d) =
        .ok (true, (cur.valCreateUnknown .UV_UNKNOWN clt).2.objSetValue d
          (cur.lastValId + 1))) := by
  unfold abstractNonMatchingValuesVisitor
  dsimp only
  by_cases heq : cur.valueOf s = cur.valueOf d
  · right
    left
    refine ⟨heq, ?_⟩
    rw [if_pos ((proveEq_true_iff _ _ _).mpr heq)]
  · rw [if_neg (fun h => heq ((proveEq_true_iff _ _ _).mp h))]
    split
    · right
      right
      exact ⟨heq, _, rfl⟩
    · split
      · left
        rfl
      · right
        right
        exact ⟨heq, _, rfl⟩
    · right
      right
      exact ⟨heq, _, rfl⟩

theorem FreshAt.stable {sh0 cur cur2 : SymHeap} {o : Int} (h : FreshAt sh0 cur o)
    (hF : HeapFrame cur cur2) (hv : cur2.valueOf o = cur.valueOf o) : FreshAt sh0 cur2 o := by
  obtain ⟨h1, h2, h3⟩ := h
  refine ⟨by rw [hv]; exact h1, by rw [hv]; exact le_trans h2 hF.lastValId, ?_⟩
  rw [hv, hF.unknown _ h2]
  exact h3

theorem visitor_step (sh0 cur : SymHeap) (root : Int × Int) (s d : Int)
    (hF : HeapFrame sh0 cur) (hG : ModifiedFresh sh0 root cur)
    (hsrc : cur.valueOf s = sh0.valueOf s) (hq : SubPairFrom sh0 root (s, d))
    (hfun : ∀ s2, SubPairFrom sh0 root (s2, d) → s2 = s) :
    abstractNonMatchingValuesVisitor cur (s, d) = .error .TRAP ∨
    ∃ cur2, abstractNonMatchingValuesVisitor cur (s, d) = .ok (true, cur2) ∧
      HeapFrame sh0 cur2 ∧ ModifiedFresh sh0 root cur2 ∧ HeapFrame cur cur2 ∧
      (∀ q, SubPairFrom sh0 root q → PairAbstracted sh0 cur q → PairAbstracted sh0 cur2 q) ∧
      PairAbstracted sh0 cur2 (s, d) := by
  rcases visitor_cases cur s d with h | ⟨heq, h⟩ | ⟨hne, clt, h⟩
  · exact Or.inl h
  · right
    refine ⟨cur, h, hF, hG, HeapFrame.refl _, fun q _ hp => hp, ?_⟩
    rcases hG d with hd | ⟨s2, hs2, hne2, hfr⟩
    · left
      exact ⟨by rw [← hsrc, heq, hd], hd⟩
    · right
      have := hfun s2 hs2
      subst this
      exact ⟨hne2, hfr⟩
  · right
    have hF1 : HeapFrame cur ((cur.valCreateUnknown .UV_UNKNOWN clt).2.objSetValue d
        (cur.lastValId + 1)) :=
      (HeapFrame.valCreateUnknown cur _ clt).trans (HeapFrame.objSetValue _ _ _)
    have hval : ∀ o, ((cur.valCreateUnknown .UV_UNKNOWN clt).2.objSetValue d
        (cur.lastValId + 1)).valueOf o = if o = d then cur.lastValId + 1 else cur.valueOf o :=
      fun o => rfl
    have hfresh : FreshAt sh0 ((cur.valCreateUnknown .UV_UNKNOWN clt).2.objSetValue d
        (cur.lastValId + 1)) d := by
      refine ⟨?_, ?_, ?_⟩
      · rw [hval, if_pos rfl]
        have := hF.lastValId
        omega
      · rw [hval, if_pos rfl]
        exact le_refl _
      · rw [hval, if_pos rfl]
        show (if cur.lastValId + 1 = cur.lastValId + 1 then EUnknownValue.UV_UNKNOWN
          else cur.valGetUnknown (cur.lastValId + 1)) = EUnknownValue.UV_UNKNOWN
        rw [if_pos rfl]
    have hne0 : sh0.valueOf s ≠ sh0.valueOf d := by
      rcases hG d with hd | ⟨s2, hs2, hne2, _⟩
      · rw [← hsrc, ← hd]
        exact hne
      · have := hfun s2 hs2
        subst this
        exact hne2
    refine ⟨_, h, hF.trans hF1, ?_, hF1, ?_, Or.inr ⟨hne0, hfresh⟩⟩
    · intro o
      by_cases hod : o = d
      · subst hod
        exact Or.inr ⟨s, hq, hne0, hfresh⟩
      · rcases hG o with ho | ⟨s2, hs2, hne2, hfr⟩
        · left
          rw [hval, if_neg hod]
          exact ho
        · right
          exact ⟨s2, hs2, hne2, hfr.stable hF1 (by rw [hval, if_neg hod])⟩
    · intro q hqs hp
      by_cases hqd : q.2 = d
      · have hq1 : q.1 = s := hfun q.1 (by rw [← hqd]; exact hqs)
        right
        rw [hq1, hqd]
        exact ⟨hne0, hfresh⟩
      · rcases hp with ⟨h1, h2⟩ | ⟨h1, h2⟩
        · left
          refine ⟨h1, ?_⟩
          rw [hval, if_neg hqd]
          exact h2
        · right
          exact ⟨h1, h2.stable hF1 (by rw [hval, if_neg hqd])⟩

theorem helperPair_getItemClt (sh : SymHeap) (p : Int × Int) :
    helperPair.getItemClt sh p =
      if sh.objType p.1 ≠ sh.objType p.2 then .error .TRAP else .ok (sh.objType p.1) := rfl

theorem helperPair_getNextItem (sh : SymHeap) (p : Int × Int) (i : Int) :
    helperPair.getNextItem sh p i = (sh.subObj p.1 i, sh.subObj p.2 i) := rfl

theorem SubPairFrom.extend {sh : SymHeap} {p a q : Int × Int} (h1 : SubPairFrom sh p a)
    (h2 : SubPairFrom sh a q) : SubPairFrom sh p q := by
  induction h2 with
  | child t i ht hc hi => exact SubPairFrom.step a t i h1 ht hc hi
  | step q2 t i _ ht hc hi ih => exact SubPairFrom.step q2 t i ih ht hc hi

theorem SubPairFrom.head {sh : SymHeap} {a q : Int × Int} (h : SubPairFrom sh a q) :
    ∃ t i, sh.objType a.1 = some t ∧ t.code = cl_type_e.CL_TYPE_STRUCT ∧
      i < t.item_cnt.toNat ∧
      (q = (sh.subObj a.1 (i : Int), sh.subObj a.2 (i : Int)) ∨
        SubPairFrom sh (sh.subObj a.1 (i : Int), sh.subObj a.2 (i : Int)) q) := by
  induction h with
  | child t i ht hc hi => exact ⟨t, i, ht, hc, hi, Or.inl rfl⟩
  | step q2 t2 i2 _ ht2 hc2 hi2 ih =>
    obtain ⟨t, i, ht, hc, hi, hor⟩ := ih
    refine ⟨t, i, ht, hc, hi, Or.inr ?_⟩
    rcases hor with h | h
    · subst h
      exact SubPairFrom.child t2 i2 ht2 hc2 hi2
    · exact SubPairFrom.step q2 t2 i2 h ht2 hc2 hi2

theorem SubPairFrom.frame {sh sh2 : SymHeap} (hF : HeapFrame sh sh2) {p q : Int × Int}
    (h : SubPairFrom sh p q) : SubPairFrom sh2 p q := by
  induction h with
  | child t i ht hc hi =>
    rw [← hF.subObj, ← hF.subObj p.2]
    exact SubPairFrom.child t i ((hF.objType _).trans ht) hc hi
  | step q2 t i _ ht hc hi ih =>
    rw [← hF.subObj, ← hF.subObj q2.2]
    exact SubPairFrom.step q2 t i ih ((hF.objType _).trans ht) hc hi

theorem SubPairFrom.frame_symm {sh sh2 : SymHeap} (hF : HeapFrame sh sh2) {p q : Int × Int}
    (h : SubPairFrom sh2 p q) : SubPairFrom sh p q := by
  induction h with
  | child t i ht hc hi =>
    rw [hF.subObj, hF.subObj p.2]
    exact SubPairFrom.child t i ((hF.objType _).symm.trans ht) hc hi
  | step q2 t i _ ht hc hi ih =>
    rw [hF.subObj, hF.subObj q2.2]
    exact SubPairFrom.step q2 t i ih ((hF.objType _).symm.trans ht) hc hi

theorem traverseItems_pair (sh0 : SymHeap) (root : Int × Int) (size : Int → Nat)
    (hdisj : ∀ s d s2 d2, SubPairFrom sh0 root (s, d) → SubPairFrom sh0 root (s2, d2) → s ≠ d2)
    (hfun : ∀ s s2 d, SubPairFrom sh0 root (s, d) → SubPairFrom sh0 root (s2, d) → s2 = s)
    (a : Int × Int) (t : cl_type) (hta : sh0.objType a.1 = some t)
    (hst : t.code = cl_type_e.CL_TYPE_STRUCT) (ha : a = root ∨ SubPairFrom sh0 root a)
    (n k : Nat) (hk : k + n = t.item_cnt.toNat) (cur : SymHeap) (todo : List (Int × Int))
    (hF : HeapFrame sh0 cur) (hG : ModifiedFresh sh0 root cur) :
    (∀ e, traverseItems helperPair abstractNonMatchingValuesVisitor a n (k : Int) cur todo =
      .error e → e = .TRAP) ∧
    ∀ b cur2 todo2,
      traverseItems helperPair abstractNonMatchingValuesVisitor a n (k : Int) cur todo =
        .ok (b, cur2, todo2) →
      b = true ∧ HeapFrame sh0 cur2 ∧ ModifiedFresh sh0 root cur2 ∧
      (∀ q, SubPairFrom sh0 root q → PairAbstracted sh0 cur q → PairAbstracted sh0 cur2 q) ∧
      (∀ j : Nat, k ≤ j → j < t.item_cnt.toNat →
        PairAbstracted sh0 cur2 (sh0.subObj a.1 (j : Int), sh0.subObj a.2 (j : Int))) ∧
      (∀ x ∈ todo2, x ∈ todo ∨ ∃ j : Nat, k ≤ j ∧ j < t.item_cnt.toNat ∧
        x = (sh0.subObj a.1 (j : Int), sh0.subObj a.2 (j : Int))) ∧
      (∀ x ∈ todo, x ∈ todo2) ∧
      (∀ j : Nat, k ≤ j → j < t.item_cnt.toNat →
        isStruct (sh0.objType (sh0.subObj a.1 (j : Int))) = true →
        (sh0.subObj a.1 (j : Int), sh0.subObj a.2 (j : Int)) ∈ todo2) ∧
      objsWeight size (todo2.map fun x => x.1) ≤ objsWeight size (todo.map fun x => x.1) +
        ((List.range n).map fun (j : Nat) =>
          size (sh0.subObj a.1 ((k : Int) + (j : Int))) + 1).sum := by
  induction n generalizing k cur todo with
  | zero =>
    simp only [traverseItems]
    refine ⟨(by intro e h; cases h), ?_⟩
    intro b cur2 todo2 h
    cases h
    refine ⟨rfl, hF, hG, fun q _ hp => hp, ?_, fun x hx => Or.inl hx, fun x hx => hx, ?_, ?_⟩
    · intro j h1 h2
      omega
    · intro j h1 h2
      omega
    · simp
  | succ n ih =>
    have hchild : SubPairFrom sh0 root (sh0.subObj a.1 (k : Int), sh0.subObj a.2 (k : Int)) := by
      rcases ha with ha | ha
      · subst ha
        exact SubPairFrom.child t k hta hst (by omega)
      · exact SubPairFrom.step a t k ha hta hst (by omega)
    have hsrc : cur.valueOf (sh0.subObj a.1 (k : Int)) =
        sh0.valueOf (sh0.subObj a.1 (k : Int)) := by
      rcases hG (sh0.subObj a.1 (k : Int)) with h | ⟨s2, hs2, _, _⟩
      · exact h
      · exact absurd rfl (hdisj _ _ _ _ hchild hs2)
    simp only [traverseItems, helperPair_getNextItem, hF.subObj]
    rcases visitor_step sh0 cur root _ _ hF hG hsrc hchild
        (fun s2 hs2 => hfun _ _ _ hchild hs2) with hv | ⟨cur1, hv, hF1, hG1, _, hP1, hPc⟩
    · rw [hv]
      simp only
      exact ⟨(by intro e h; cases h; rfl), (by intro b cur2 todo2 h; cases h)⟩
    · rw [hv]
      simp only [helperPair_getItemClt, hF1.objType]
      by_cases hty : sh0.objType (sh0.subObj a.1 (k : Int)) ≠
          sh0.objType (sh0.subObj a.2 (k : Int))
      · rw [if_pos hty]
        simp only
        exact ⟨(by intro e h; cases h; rfl), (by intro b cur2 todo2 h; cases h)⟩
      · rw [if_neg hty]
        simp only
        have hcast : ((k : Int) + 1) = ((k + 1 : Nat) : Int) := by push_cast; rfl
        rw [hcast]
        obtain ⟨hA, hB⟩ := ih (k + 1) (by omega) cur1
          (if isStruct (sh0.objType (sh0.subObj a.1 (k : Int))) = true then
            (sh0.subObj a.1 (k : Int), sh0.subObj a.2 (k : Int)) :: todo else todo) hF1 hG1
        refine ⟨hA, ?_⟩
        intro b cur2 todo2 h
        obtain ⟨h1, h2, h3, h4, h5, h6, h7, h8, h9⟩ := hB b cur2 todo2 h
        refine ⟨h1, h2, h3, fun q hq hp => h4 q hq (hP1 q hq hp), ?_, ?_, ?_, ?_, ?_⟩
        · intro j hj1 hj2
          by_cases hjk : j = k
          · subst hjk
            exact h4 _ hchild hPc
          · exact h5 j (by omega) hj2
        · intro x hx
          rcases h6 x hx with h | ⟨j, hj1, hj2, hj3⟩
          · split at h
            · rcases List.mem_cons.mp h with h | h
              · exact Or.inr ⟨k, le_refl _, by omega, h⟩
              · exact Or.inl h
            · exact Or.inl h
          · exact Or.inr ⟨j, by omega, hj2, hj3⟩
        · intro x hx
          apply h7
          split
          · exact List.mem_cons_of_mem _ hx
          · exact hx
        · intro j hj1 hj2 hjs
          by_cases hjk : j = k
          · subst hjk
            apply h7
            rw [if_pos hjs]
            exact List.mem_cons_self _ _
          · exact h8 j (by omega) hj2 hjs
        · refine le_trans h9 ?_
          rw [List.range_succ_eq_map]
          simp only [List.map_cons, List.sum_cons, List.map_map, Nat.cast_zero, add_zero]
          have hfun2 : (fun j : Nat => size (sh0.subObj a.1 (((k + 1 : Nat) : Int) + (j : Int))) + 1) =
              ((fun j : Nat => size (sh0.subObj a.1 ((k : Int) + (j : Int))) + 1) ∘ Nat.succ) := by
            funext j
            simp only [Function.comp, Nat.succ_eq_add_one, Nat.cast_add, Nat.cast_one]
            congr 3
            ring
          rw [hfun2]
          split
          · simp only [objsWeight, List.map_cons, List.sum_cons]
            omega
          · simp only [objsWeight]
            omega

theorem isStruct_of_subPair {sh : SymHeap} {c q : Int × Int} (h : SubPairFrom sh c q) :
    isStruct (sh.objType c.1) = true := by
  obtain ⟨t, _, ht, hc, _, _⟩ := h.head
  rw [ht]
  simp [isStruct, hc]

theorem traverseLoop_pair (sh0 : SymHeap) (root : Int × Int) (size : Int → Nat)
    (hsz : sh0.SubObjsBounded size)
    (hdisj : ∀ s d s2 d2, SubPairFrom sh0 root (s, d) → SubPairFrom sh0 root (s2, d2) → s ≠ d2)
    (hfun : ∀ s s2 d, SubPairFrom sh0 root (s, d) → SubPairFrom sh0 root (s2, d) → s2 = s)
    (fuel : Nat) (cur : SymHeap) (todo : List (Int × Int))
    (hF : HeapFrame sh0 cur) (hG : ModifiedFresh sh0 root cur)
    (htodo : ∀ a ∈ todo, a = root ∨ SubPairFrom sh0 root a)
    (hw : objsWeight size (todo.map fun x => x.1) ≤ fuel) :
    (∀ e, traverseSubObjsLoop helperPair abstractNonMatchingValuesVisitor fuel cur todo =
      .error e → e = .TRAP) ∧
    ∀ b cur2, traverseSubObjsLoop helperPair abstractNonMatchingValuesVisitor fuel cur todo =
        .ok (b, cur2) →
      HeapFrame sh0 cur2 ∧ ModifiedFresh sh0 root cur2 ∧
      (∀ q, SubPairFrom sh0 root q → PairAbstracted sh0 cur q → PairAbstracted sh0 cur2 q) ∧
      ∀ a ∈ todo, ∀ q, SubPairFrom sh0 a q → PairAbstracted sh0 cur2 q := by
  induction fuel generalizing cur todo with
  | zero =>
    cases todo with
    | nil =>
      simp only [traverseSubObjsLoop]
      refine ⟨(by intro e h; cases h), ?_⟩
      intro b cur2 h
      cases h
      exact ⟨hF, hG, fun q _ hp => hp, by intro a ha; cases ha⟩
    | cons a rest => simp [objsWeight] at hw
  | succ fuel ih =>
    cases todo with
    | nil =>
      simp only [traverseSubObjsLoop]
      refine ⟨(by intro e h; cases h), ?_⟩
      intro b cur2 h
      cases h
      exact ⟨hF, hG, fun q _ hp => hp, by intro a ha; cases ha⟩
    | cons a rest =>
      simp only [traverseSubObjsLoop, helperPair_getItemClt, hF.objType]
      by_cases hty : sh0.objType a.1 ≠ sh0.objType a.2
      · rw [if_pos hty]
        simp only
        exact ⟨(by intro e h; cases h; rfl), (by intro b cur2 h; cases h)⟩
      · rw [if_neg hty]
        simp only
        cases hta : sh0.objType a.1 with
        | none =>
          simp only
          exact ⟨(by intro e h; cases h; rfl), (by intro b cur2 h; cases h)⟩
        | some t =>
          simp only
          by_cases hst : t.code = cl_type_e.CL_TYPE_STRUCT
          · simp only [hst, ne_eq, not_true_eq_false, if_false]
            have haroot := htodo a (List.mem_cons_self _ _)
            obtain ⟨hA, hB⟩ := traverseItems_pair sh0 root size hdisj hfun a t hta hst haroot
              t.item_cnt.toNat 0 (by omega) cur rest hF hG
            simp only [Nat.cast_zero] at hA hB
            cases hti : traverseItems helperPair abstractNonMatchingValuesVisitor a
                t.item_cnt.toNat 0 cur rest with
            | error e =>
              simp only
              exact ⟨(by intro e2 h; cases h; exact hA _ hti), (by intro b cur2 h; cases h)⟩
            | ok r =>
              obtain ⟨b1, cur1, todo1⟩ := r
              obtain ⟨h1, h2, h3, h4, h5, h6, h7, h8, h9⟩ := hB b1 cur1 todo1 hti
              subst h1
              simp only
              have htodo1 : ∀ x ∈ todo1, x = root ∨ SubPairFrom sh0 root x := by
                intro x hx
                rcases h6 x hx with h | ⟨j, _, hj2, hj3⟩
                · exact htodo x (List.mem_cons_of_mem _ h)
                · right
                  rw [hj3]
                  rcases haroot with har | har
                  · subst har
                    exact SubPairFrom.child t j hta hst hj2
                  · exact SubPairFrom.step a t j har hta hst hj2
              have hw1 : objsWeight size (todo1.map fun x => x.1) ≤ fuel := by
                have hb := hsz a.1 t hta hst
                simp only [zero_add] at h9
                simp only [objsWeight, List.map_cons, List.sum_cons] at hw h9 ⊢
                omega
              obtain ⟨iA, iB⟩ := ih cur1 todo1 h2 h3 htodo1 hw1
              refine ⟨iA, ?_⟩
              intro b cur2 h
              obtain ⟨i1, i2, i3, i4⟩ := iB b cur2 h
              refine ⟨i1, i2, fun q hq hp => i3 q hq (h4 q hq hp), ?_⟩
              intro x hx q hq
              rcases List.mem_cons.mp hx with hxa | hxr
              · subst hxa
                obtain ⟨t2, j, ht2, _, hj, hor⟩ := hq.head
                rw [hta] at ht2
                cases ht2
                have hchild : SubPairFrom sh0 root
                    (sh0.subObj x.1 (j : Int), sh0.subObj x.2 (j : Int)) := by
                  rcases haroot with har | har
                  · subst har
                    exact SubPairFrom.child t j hta hst hj
                  · exact SubPairFrom.step x t j har hta hst hj
                rcases hor with hq2 | hq2
                · rw [hq2]
                  exact i3 _ hchild (h5 j (Nat.zero_le _) hj)
                · exact i4 _ (h8 j (Nat.zero_le _) hj (isStruct_of_subPair hq2)) q hq2
              · exact i4 x (h7 x hxr) q hq
          · simp only [ne_eq, hst, not_false_eq_true, if_true]
            exact ⟨(by intro e h; cases h; rfl), (by intro b cur2 h; cases h)⟩

/-- What `abstractNonMatchingValues` does to the heap: unless it hits a `TRAP`, it leaves a
heap which differs from `sh` only in values; the binder of `dst`, and its peer pointer if
`dst` is a DLS, store what they stored; every other object stores what it stored unless it
is the second object of a pair of corresponding sub-objects with different values, which
stores a new unknown value; all pairs of corresponding sub-objects have been dealt with. -/
theorem abstractNonMatchingValues_spec (sh : SymHeap) (src dst : Int) (size : Int → Nat)
    (fuel : Nat) (hsz : sh.SubObjsBounded size) (hd : ∀ o, size o < fuel)
    (hdisj : ∀ s d s2 d2, SubPairFrom sh (src, dst) (s, d) →
      SubPairFrom sh (src, dst) (s2, d2) → s ≠ d2)
    (hfun : ∀ s s2 d, SubPairFrom sh (src, dst) (s, d) →
      SubPairFrom sh (src, dst) (s2, d) → s2 = s) :
    abstractNonMatchingValues fuel sh src dst = .error .TRAP ∨
    ∃ sh2, abstractNonMatchingValues fuel sh src dst = .ok sh2 ∧
      sh.objKind dst ≠ EObjKind.OK_CONCRETE ∧ HeapFrame sh sh2 ∧
      sh2.valueOf (subObjByChain sh dst (sh.objBinderField dst)) =
        sh.valueOf (subObjByChain sh dst (sh.objBinderField dst)) ∧
      (sh.objKind dst = EObjKind.OK_DLS →
        sh2.valueOf (subObjByChain sh dst (sh.objPeerField dst)) =
          sh.valueOf (subObjByChain sh dst (sh.objPeerField dst))) ∧
      (∀ o, sh2.valueOf o = sh.valueOf o ∨
        ∃ s, SubPairFrom sh (src, dst) (s, o) ∧ sh.valueOf s ≠ sh.valueOf o ∧
          FreshAt sh sh2 o) ∧
      (∀ s d, SubPairFrom sh (src, dst) (s, d) →
        d ≠ subObjByChain sh dst (sh.objBinderField dst) →
        (sh.objKind dst = EObjKind.OK_DLS → d ≠ subObjByChain sh dst (sh.objPeerField dst)) →
        PairAbstracted sh sh2 (s, d)) := by
  unfold abstractNonMatchingValues
  dsimp only
  by_cases hk : EObjKind.OK_CONCRETE = sh.objKind dst
  · rw [if_pos hk]
    exact Or.inl rfl
  · rw [if_neg hk]
    unfold traverseSubObjs
    obtain ⟨hA, hB⟩ := traverseLoop_pair sh (src, dst) size hsz hdisj hfun fuel sh [(src, dst)]
      (HeapFrame.refl _) (fun o => Or.inl rfl)
      (by intro a ha; left; simpa using ha)
      (by
        have := hd src
        simp only [objsWeight, List.map_cons, List.map_nil, List.sum_cons, List.sum_nil]
        omega)
    cases htr : traverseSubObjsLoop helperPair abstractNonMatchingValuesVisitor fuel sh
        [(src, dst)] with
    | error e =>
      have := hA e htr
      subst this
      exact Or.inl rfl
    | ok r =>
      obtain ⟨b, sh1⟩ := r
      obtain ⟨h1, h2, _, h4⟩ := hB b sh1 htr
      right
      simp only
      have hkne : sh.objKind dst ≠ EObjKind.OK_CONCRETE := fun h => hk h.symm
      by_cases hdls : EObjKind.OK_DLS = sh.objKind dst
      · simp only [if_pos hdls]
        refine ⟨_, rfl, hkne,
          (h1.trans (HeapFrame.objSetValue _ _ _)).trans (HeapFrame.objSetValue _ _ _),
          ?_, ?_, ?_, ?_⟩
        · simp only [objSetValue_valueOf]
          split
          · rename_i heq
            rw [heq]
          · exact if_pos trivial
        · intro _
          simp only [objSetValue_valueOf]
          exact if_pos trivial
        · intro o
          simp only [objSetValue_valueOf]
          split
          · rename_i heq
            left
            rw [heq]
          · split
            · rename_i heq
              left
              rw [heq]
            · rcases h2 o with h | ⟨s, hs, hne, hfr⟩
              · exact Or.inl h
              · right
                refine ⟨s, hs, hne, ?_⟩
                refine hfr.stable ((HeapFrame.objSetValue _ _ _).trans
                  (HeapFrame.objSetValue _ _ _)) ?_
                simp only [objSetValue_valueOf]
                rw [if_neg ‹_›, if_neg ‹_›]
        · intro s d hsd hnb hnp
          have hp := h4 (src, dst) (List.mem_singleton.mpr rfl) (s, d) hsd
          have hv : ((sh1.objSetValue (subObjByChain sh dst (sh.objBinderField dst))
              (sh.valueOf (subObjByChain sh dst (sh.objBinderField dst)))).objSetValue
              (subObjByChain sh dst (sh.objPeerField dst))
              (sh.valueOf (subObjByChain sh dst (sh.objPeerField dst)))).valueOf d =
              sh1.valueOf d := by
            simp only [objSetValue_valueOf]
            rw [if_neg (hnp hdls.symm), if_neg hnb]
          rcases hp with ⟨p1, p2⟩ | ⟨p1, p2⟩
          · left
            exact ⟨p1, by rw [hv]; exact p2⟩
          · right
            exact ⟨p1, p2.stable ((HeapFrame.objSetValue _ _ _).trans
              (HeapFrame.objSetValue _ _ _)) hv⟩
      · simp only [if_neg hdls]
        refine ⟨_, rfl, hkne, h1.trans (HeapFrame.objSetValue _ _ _), ?_, ?_, ?_, ?_⟩
        · simp only [objSetValue_valueOf]
          exact if_pos trivial
        · intro h
          exact absurd h.symm hdls
        · intro o
          simp only [objSetValue_valueOf]
          split
          · rename_i heq
            left
            rw [heq]
          · rcases h2 o with h | ⟨s, hs, hne, hfr⟩
            · exact Or.inl h
            · right
              refine ⟨s, hs, hne, ?_⟩
              refine hfr.stable (HeapFrame.objSetValue _ _ _) ?_
              simp only [objSetValue_valueOf]
              rw [if_neg ‹_›]
        · intro s d hsd hnb _
          have hp := h4 (src, dst) (List.mem_singleton.mpr rfl) (s, d) hsd
          have hv : (sh1.objSetValue (subObjByChain sh dst (sh.objBinderField dst))
              (sh.valueOf (subObjByChain sh dst (sh.objBinderField dst)))).valueOf d =
              sh1.valueOf d := by
            simp only [objSetValue_valueOf]
            rw [if_neg hnb]
          rcases hp with ⟨p1, p2⟩ | ⟨p1, p2⟩
          · left
            exact ⟨p1, by rw [hv]; exact p2⟩
          · right
            exact ⟨p1, p2.stable (HeapFrame.objSetValue _ _ _) hv⟩

theorem visitor_weak (cur : SymHeap) (s d : Int) :
    abstractNonMatchingValuesVisitor cur (s, d) = .error .TRAP ∨
    ∃ cur2, abstractNonMatchingValuesVisitor cur (s, d) = .ok (true, cur2) ∧
      HeapFrame cur cur2 ∧ ∀ o, o ≠ d → cur2.valueOf o = cur.valueOf o := by
  rcases visitor_cases cur s d with h | ⟨_, h⟩ | ⟨_, clt, h⟩
  · exact Or.inl h
  · exact Or.inr ⟨cur, h, HeapFrame.refl _, fun _ _ => rfl⟩
  · refine Or.inr ⟨_, h, (HeapFrame.valCreateUnknown cur _ clt).trans
      (HeapFrame.objSetValue _ _ _), ?_⟩
    intro o ho
    show (if o = d then cur.lastValId + 1 else cur.valueOf o) = cur.valueOf o
    rw [if_neg ho]

theorem traverseItems_weak (sh0 : SymHeap) (root : Int × Int) (size : Int → Nat)
    (a : Int × Int) (t : cl_type) (hta : sh0.objType a.1 = some t)
    (hst : t.code = cl_type_e.CL_TYPE_STRUCT) (ha : a = root ∨ SubPairFrom sh0 root a)
    (n k : Nat) (hk : k + n = t.item_cnt.toNat) (cur : SymHeap) (todo : List (Int × Int))
    (hF : HeapFrame sh0 cur) :
    (∀ e, traverseItems helperPair abstractNonMatchingValuesVisitor a n (k : Int) cur todo =
      .error e → e = .TRAP) ∧
    ∀ b cur2 todo2,
      traverseItems helperPair abstractNonMatchingValuesVisitor a n (k : Int) cur todo =
        .ok (b, cur2, todo2) →
      HeapFrame cur cur2 ∧
      (∀ o, cur2.valueOf o = cur.valueOf o ∨ ∃ s, SubPairFrom sh0 root (s, o)) ∧
      (∀ x ∈ todo2, x ∈ todo ∨ x = root ∨ SubPairFrom sh0 root x) ∧
      objsWeight size (todo2.map fun x => x.1) ≤ objsWeight size (todo.map fun x => x.1) +
        ((List.range n).map fun (j : Nat) =>
          size (sh0.subObj a.1 ((k : Int) + (j : Int))) + 1).sum := by
  induction n generalizing k cur todo with
  | zero =>
    simp only [traverseItems]
    refine ⟨(by intro e h; cases h), ?_⟩
    intro b cur2 todo2 h
    cases h
    exact ⟨HeapFrame.refl _, fun o => Or.inl rfl, fun x hx => Or.inl hx, by simp⟩
  | succ n ih =>
    have hchild : SubPairFrom sh0 root (sh0.subObj a.1 (k : Int), sh0.subObj a.2 (k : Int)) := by
      rcases ha with ha | ha
      · subst ha
        exact SubPairFrom.child t k hta hst (by omega)
      · exact SubPairFrom.step a t k ha hta hst (by omega)
    simp only [traverseItems, helperPair_getNextItem, hF.subObj]
    rcases visitor_weak cur (sh0.subObj a.1 (k : Int)) (sh0.subObj a.2 (k : Int)) with
      hv | ⟨cur1, hv, hF1, hval1⟩
    · rw [hv]
      simp only
      exact ⟨(by intro e h; cases h; rfl), (by intro b cur2 todo2 h; cases h)⟩
    · rw [hv]
      simp only [helperPair_getItemClt, (hF.trans hF1).objType]
      by_cases hty : sh0.objType (sh0.subObj a.1 (k : Int)) ≠
          sh0.objType (sh0.subObj a.2 (k : Int))
      · rw [if_pos hty]
        simp only
        exact ⟨(by intro e h; cases h; rfl), (by intro b cur2 todo2 h; cases h)⟩
      · rw [if_neg hty]
        simp only
        have hcast : ((k : Int) + 1) = ((k + 1 : Nat) : Int) := by push_cast; rfl
        rw [hcast]
        obtain ⟨hA, hB⟩ := ih (k + 1) (by omega) cur1
          (if isStruct (sh0.objType (sh0.subObj a.1 (k : Int))) = true then
            (sh0.subObj a.1 (k : Int), sh0.subObj a.2 (k : Int)) :: todo else todo)
          (hF.trans hF1)
        refine ⟨hA, ?_⟩
        intro b cur2 todo2 h
        obtain ⟨h1, h2, h3, h4⟩ := hB b cur2 todo2 h
        refine ⟨hF1.trans h1, ?_, ?_, ?_⟩
        · intro o
          rcases h2 o with h | h
          · by_cases hod : o = sh0.subObj a.2 (k : Int)
            · right
              rw [hod]
              exact ⟨_, hchild⟩
            · left
              rw [h, hval1 o hod]
          · exact Or.inr h
        · intro x hx
          rcases h3 x hx with h | h
          · split at h
            · rcases List.mem_cons.mp h with h | h
              · right
                right
                rw [h]
                exact hchild
              · exact Or.inl h
            · exact Or.inl h
          · exact Or.inr h
        · refine le_trans h4 ?_
          rw [List.range_succ_eq_map]
          simp only [List.map_cons, List.sum_cons, List.map_map, Nat.cast_zero, add_zero]
          have hfun2 : (fun j : Nat => size (sh0.subObj a.1 (((k + 1 : Nat) : Int) + (j : Int))) + 1) =
              ((fun j : Nat => size (sh0.subObj a.1 ((k : Int) + (j : Int))) + 1) ∘ Nat.succ) := by
            funext j
            simp only [Function.comp, Nat.succ_eq_add_one, Nat.cast_add, Nat.cast_one]
            congr 3
            ring
          rw [hfun2]
          split
          · simp only [objsWeight, List.map_cons, List.sum_cons]
            omega
          · simp only [objsWeight]
            omega

theorem traverseLoop_weak (sh0 : SymHeap) (root : Int × Int) (size : Int → Nat)
    (hsz : sh0.SubObjsBounded size) (fuel : Nat) (cur : SymHeap) (todo : List (Int × Int))
    (hF : HeapFrame sh0 cur) (htodo : ∀ a ∈ todo, a = root ∨ SubPairFrom sh0 root a)
    (hw : objsWeight size (todo.map fun x => x.1) ≤ fuel) :
    (∀ e, traverseSubObjsLoop helperPair abstractNonMatchingValuesVisitor fuel cur todo =
      .error e → e = .TRAP) ∧
    ∀ b cur2, traverseSubObjsLoop helperPair abstractNonMatchingValuesVisitor fuel cur todo =
        .ok (b, cur2) →
      HeapFrame cur cur2 ∧
      ∀ o, cur2.valueOf o = cur.valueOf o ∨ ∃ s, SubPairFrom sh0 root (s, o) := by
  induction fuel generalizing cur todo with
  | zero =>
    cases todo with
    | nil =>
      simp only [traverseSubObjsLoop]
      refine ⟨(by intro e h; cases h), ?_⟩
      intro b cur2 h
      cases h
      exact ⟨HeapFrame.refl _, fun o => Or.inl rfl⟩
    | cons a rest => simp [objsWeight] at hw
  | succ fuel ih =>
    cases todo with
    | nil =>
      simp only [traverseSubObjsLoop]
      refine ⟨(by intro e h; cases h), ?_⟩
      intro b cur2 h
      cases h
      exact ⟨HeapFrame.refl _, fun o => Or.inl rfl⟩
    | cons a rest =>
      simp only [traverseSubObjsLoop, helperPair_getItemClt, hF.objType]
      by_cases hty : sh0.objType a.1 ≠ sh0.objType a.2
      · rw [if_pos hty]
        simp only
        exact ⟨(by intro e h; cases h; rfl), (by intro b cur2 h; cases h)⟩
      · rw [if_neg hty]
        simp only
        cases hta : sh0.objType a.1 with
        | none =>
          simp only
          exact ⟨(by intro e h; cases h; rfl), (by intro b cur2 h; cases h)⟩
        | some t =>
          simp only
          by_cases hst : t.code = cl_type_e.CL_TYPE_STRUCT
          · simp only [hst, ne_eq, not_true_eq_false, if_false]
            have haroot := htodo a (List.mem_cons_self _ _)
            obtain ⟨hA, hB⟩ := traverseItems_weak sh0 root size a t hta hst haroot
              t.item_cnt.toNat 0 (by omega) cur rest hF
            simp only [Nat.cast_zero] at hA hB
            cases hti : traverseItems helperPair abstractNonMatchingValuesVisitor a
                t.item_cnt.toNat 0 cur rest with
            | error e =>
              simp only
              exact ⟨(by intro e2 h; cases h; exact hA _ hti), (by intro b cur2 h; cases h)⟩
            | ok r =>
              obtain ⟨b1, cur1, todo1⟩ := r
              obtain ⟨h1, h2, h3, h4⟩ := hB b1 cur1 todo1 hti
              have htodo1 : ∀ x ∈ todo1, x = root ∨ SubPairFrom sh0 root x := by
                intro x hx
                rcases h3 x hx with h | h
                · exact htodo x (List.mem_cons_of_mem _ h)
                · exact h
              have hw1 : objsWeight size (todo1.map fun x => x.1) ≤ fuel := by
                have hb := hsz a.1 t hta hst
                simp only [zero_add] at h4
                simp only [objsWeight, List.map_cons, List.sum_cons] at hw h4 ⊢
                omega
              cases b1 with
              | false =>
                simp only
                refine ⟨(by intro e h; cases h), ?_⟩
                intro b cur2 h
                cases h
                exact ⟨h1, h2⟩
              | true =>
                simp only
                obtain ⟨iA, iB⟩ := ih cur1 todo1 (hF.trans h1) htodo1 hw1
                refine ⟨iA, ?_⟩
                intro b cur2 h
                obtain ⟨i1, i2⟩ := iB b cur2 h
                refine ⟨h1.trans i1, ?_⟩
                intro o
                rcases i2 o with h | h
                · rcases h2 o with h5 | h5
                  · left
                    rw [h, h5]
                  · exact Or.inr h5
                · exact Or.inr h
          · simp only [ne_eq, hst, not_false_eq_true, if_true]
            exact ⟨(by intro e h; cases h; rfl), (by intro b cur2 h; cases h)⟩

/-- What `abstractNonMatchingValues` does to the heap, whatever the layout of the objects:
unless it hits a `TRAP`, it leaves a heap which differs from `sh` only in values; the binder
of `dst`, and its peer pointer if `dst` is a DLS, store what they stored; every other
object stores what it stored unless it is the second object of a pair of corresponding
sub-objects. -/
theorem abstractNonMatchingValues_weak (sh : SymHeap) (src dst : Int) (size : Int → Nat)
    (fuel : Nat) (hsz : sh.SubObjsBounded size) (hd : ∀ o, size o < fuel) :
    abstractNonMatchingValues fuel sh src dst = .error .TRAP ∨
    ∃ sh2, abstractNonMatchingValues fuel sh src dst = .ok sh2 ∧
      sh.objKind dst ≠ EObjKind.OK_CONCRETE ∧ HeapFrame sh sh2 ∧
      sh2.valueOf (subObjByChain sh dst (sh.objBinderField dst)) =
        sh.valueOf (subObjByChain sh dst (sh.objBinderField dst)) ∧
      (sh.objKind dst = EObjKind.OK_DLS →
        sh2.valueOf (subObjByChain sh dst (sh.objPeerField dst)) =
          sh.valueOf (subObjByChain sh dst (sh.objPeerField dst))) ∧
      ∀ o, sh2.valueOf o = sh.valueOf o ∨ ∃ s, SubPairFrom sh (src, dst) (s, o) := by
  unfold abstractNonMatchingValues
  dsimp only
  by_cases hk : EObjKind.OK_CONCRETE = sh.objKind dst
  · rw [if_pos hk]
    exact Or.inl rfl
  · rw [if_neg hk]
    unfold traverseSubObjs
    obtain ⟨hA, hB⟩ := traverseLoop_weak sh (src, dst) size hsz fuel sh [(src, dst)]
      (HeapFrame.refl _) (by intro a ha; left; simpa using ha)
      (by
        have := hd src
        simp only [objsWeight, List.map_cons, List.map_nil, List.sum_cons, List.sum_nil]
        omega)
    cases htr : traverseSubObjsLoop helperPair abstractNonMatchingValuesVisitor fuel sh
        [(src, dst)] with
    | error e =>
      have := hA e htr
      subst this
      exact Or.inl rfl
    | ok r =>
      obtain ⟨b, sh1⟩ := r
      obtain ⟨h1, h2⟩ := hB b sh1 htr
      right
      simp only
      have hkne : sh.objKind dst ≠ EObjKind.OK_CONCRETE := fun h => hk h.symm
      by_cases hdls : EObjKind.OK_DLS = sh.objKind dst
      · simp only [if_pos hdls]
        refine ⟨_, rfl, hkne,
          (h1.trans (HeapFrame.objSetValue _ _ _)).trans (HeapFrame.objSetValue _ _ _),
          ?_, ?_, ?_⟩
        · simp only [objSetValue_valueOf]
          split
          · rename_i heq
            rw [heq]
          · exact if_pos trivial
        · intro _
          simp only [objSetValue_valueOf]
          exact if_pos trivial
        · intro o
          simp only [objSetValue_valueOf]
          split
          · rename_i heq
            left
            rw [heq]
          · split
            · rename_i heq
              left
              rw [heq]
            · exact h2 o
      · simp only [if_neg hdls]
        refine ⟨_, rfl, hkne, h1.trans (HeapFrame.objSetValue _ _ _), ?_, ?_, ?_⟩
        · simp only [objSetValue_valueOf]
          exact if_pos trivial
        · intro h
          exact absurd h.symm hdls
        · intro o
          simp only [objSetValue_valueOf]
          split
          · rename_i heq
            left
            rw [heq]
          · exact h2 o

/-! ## The effect of the destruction of objects and of the replacement of values -/

theorem objsWeight_append (size : Int → Nat) (l1 l2 : List Int) :
    objsWeight size (l1 ++ l2) = objsWeight size l1 + objsWeight size l2 := by
  simp [objsWeight, List.map_append, List.sum_append]

theorem objsWeight_children (sh : SymHeap) (size : Int → Nat) (obj : Int) (n : Nat) :
    objsWeight size ((List.range n).map fun (i : Nat) => sh.subObj obj (i : Int)) =
      ((List.range n).map fun (j : Nat) => size (sh.subObj obj (j : Int)) + 1).sum := by
  simp only [objsWeight, List.map_map]
  rfl

theorem gatherSubObjs_spec (sh : SymHeap) (size : Int → Nat) (hsz : sh.SubObjsBounded size)
    (T : Int → Prop)
    (hT : ∀ o t (i : Nat), T o → sh.objType o = some t → t.code = cl_type_e.CL_TYPE_STRUCT →
      i < t.item_cnt.toNat → T (sh.subObj o (i : Int)))
    (fuel : Nat) (todo acc : List Int) (htodo : ∀ o ∈ todo, T o)
    (hw : objsWeight size todo ≤ fuel) :
    ∃ objs, sh.gatherSubObjs fuel todo acc = .ok objs ∧ (∀ o ∈ acc, o ∈ objs) ∧
      (∀ o ∈ todo, o ∈ objs) ∧ ∀ o ∈ objs, o ∈ acc ∨ T o := by
  induction fuel generalizing todo acc with
  | zero =>
    cases todo with
    | nil =>
      exact ⟨acc, rfl, fun o h => h, fun o h => (by cases h), fun o h => Or.inl h⟩
    | cons o rest => simp [objsWeight] at hw
  | succ fuel ih =>
    cases todo with
    | nil =>
      exact ⟨acc, rfl, fun o h => h, fun o h => (by cases h), fun o h => Or.inl h⟩
    | cons obj rest =>
      have hTobj := htodo obj (List.mem_cons_self _ _)
      have hrest : ∀ o ∈ rest, T o := fun o ho => htodo o (List.mem_cons_of_mem _ ho)
      simp only [objsWeight, List.map_cons, List.sum_cons] at hw
      have hplain : objsWeight size rest ≤ fuel := by
        simp only [objsWeight]
        omega
      have fin : ∀ todo2 : List Int, (∀ o ∈ todo2, T o) → (∀ o ∈ rest, o ∈ todo2) →
          objsWeight size todo2 ≤ fuel →
          ∃ objs, sh.gatherSubObjs fuel todo2 (obj :: acc) = .ok objs ∧ (∀ o ∈ acc, o ∈ objs) ∧
            (∀ o ∈ obj :: rest, o ∈ objs) ∧ ∀ o ∈ objs, o ∈ acc ∨ T o := by
        intro todo2 h1 h2 h3
        obtain ⟨objs, e, a1, a2, a3⟩ := ih todo2 (obj :: acc) h1 h3
        refine ⟨objs, e, fun o ho => a1 o (List.mem_cons_of_mem _ ho), ?_, ?_⟩
        · intro o ho
          rcases List.mem_cons.mp ho with rfl | ho
          · exact a1 _ (List.mem_cons_self _ _)
          · exact a2 o (h2 o ho)
        · intro o ho
          rcases a3 o ho with h | h
          · rcases List.mem_cons.mp h with rfl | h
            · exact Or.inr hTobj
            · exact Or.inl h
          · exact Or.inr h
      unfold SymHeap.gatherSubObjs
      cases hty : sh.objType obj with
      | none =>
        simp only
        exact fin rest hrest (fun o ho => ho) hplain
      | some t =>
        simp only
        by_cases hc : t.code = cl_type_e.CL_TYPE_STRUCT
        · rw [if_pos hc]
          apply fin
          · intro o ho
            rcases List.mem_append.mp ho with h | h
            · obtain ⟨i, hi, rfl⟩ := List.mem_map.mp h
              exact hT obj t i hTobj hty hc (List.mem_range.mp hi)
            · exact hrest o h
          · intro o ho
            exact List.mem_append_right _ ho
          · rw [objsWeight_append, objsWeight_children]
            have hb := hsz obj t hty hc
            simp only [objsWeight]
            omega
        · rw [if_neg hc]
          exact fin rest hrest (fun o ho => ho) hplain

theorem destroyAll_placedAt (objs : List Int) (sh : SymHeap) (o : Int) :
    (objs.foldl SymHeap.objDestroyOne sh).placedAt o =
      if o ∈ objs then VAL_INVALID else sh.placedAt o := by
  induction objs generalizing sh with
  | nil => simp
  | cons x xs ih =>
    rw [List.foldl_cons, ih]
    by_cases h1 : o ∈ xs
    · rw [if_pos h1, if_pos (List.mem_cons_of_mem _ h1)]
    · rw [if_neg h1]
      show (if o = x then VAL_INVALID else sh.placedAt o) = _
      by_cases h2 : o = x
      · rw [if_pos h2, if_pos (by rw [h2]; exact List.mem_cons_self _ _)]
      · rw [if_neg h2, if_neg (by simp [h1, h2])]

theorem destroyAll_valueOf (objs : List Int) (sh : SymHeap) (o : Int) :
    (objs.foldl SymHeap.objDestroyOne sh).valueOf o =
      if o ∈ objs then VAL_INVALID else sh.valueOf o := by
  induction objs generalizing sh with
  | nil => simp
  | cons x xs ih =>
    rw [List.foldl_cons, ih]
    by_cases h1 : o ∈ xs
    · rw [if_pos h1, if_pos (List.mem_cons_of_mem _ h1)]
    · rw [if_neg h1]
      show (if o = x then VAL_INVALID else sh.valueOf o) = _
      by_cases h2 : o = x
      · rw [if_pos h2, if_pos (by rw [h2]; exact List.mem_cons_self _ _)]
      · rw [if_neg h2, if_neg (by simp [h1, h2])]

theorem destroyAll_pointsTo (objs : List Int) (sh : SymHeap) (v : Int) :
    ((∃ o ∈ objs, 0 < sh.placedAt o ∧ v = sh.placedAt o) →
      (objs.foldl SymHeap.objDestroyOne sh).pointsTo v = OBJ_DELETED) ∧
    ((¬ ∃ o ∈ objs, 0 < sh.placedAt o ∧ v = sh.placedAt o) →
      (objs.foldl SymHeap.objDestroyOne sh).pointsTo v = sh.pointsTo v) := by
  induction objs generalizing sh with
  | nil =>
    refine ⟨?_, fun _ => rfl⟩
    rintro ⟨o, ho, _⟩
    cases ho
  | cons x xs ih =>
    rw [List.foldl_cons]
    obtain ⟨ih1, ih2⟩ := ih (sh.objDestroyOne x)
    have hp : ∀ o, (sh.objDestroyOne x).placedAt o =
        if o = x then VAL_INVALID else sh.placedAt o := fun o => rfl
    have hpt : (sh.objDestroyOne x).pointsTo v =
        if 0 < sh.placedAt x ∧ v = sh.placedAt x then OBJ_DELETED else sh.pointsTo v := rfl
    by_cases hxs : ∃ o ∈ xs, 0 < (sh.objDestroyOne x).placedAt o ∧
        v = (sh.objDestroyOne x).placedAt o
    · have hex : ∃ o ∈ x :: xs, 0 < sh.placedAt o ∧ v = sh.placedAt o := by
        obtain ⟨o, ho, h1, h2⟩ := hxs
        rw [hp] at h1 h2
        by_cases hox : o = x
        · rw [if_pos hox] at h1
          simp [VAL_INVALID] at h1
        · rw [if_neg hox] at h1 h2
          exact ⟨o, List.mem_cons_of_mem _ ho, h1, h2⟩
      exact ⟨fun _ => ih1 hxs, fun hn => absurd hex hn⟩
    · rw [ih2 hxs, hpt]
      by_cases hx : 0 < sh.placedAt x ∧ v = sh.placedAt x
      · rw [if_pos hx]
        exact ⟨fun _ => rfl, fun hn => absurd ⟨x, List.mem_cons_self _ _, hx⟩ hn⟩
      · rw [if_neg hx]
        refine ⟨?_, fun _ => rfl⟩
        rintro ⟨o, ho, h1, h2⟩
        exfalso
        rcases List.mem_cons.mp ho with rfl | ho
        · exact hx ⟨h1, h2⟩
        · apply hxs
          refine ⟨o, ho, ?_⟩
          rw [hp]
          by_cases hox : o = x
          · subst hox
            exact absurd ⟨h1, h2⟩ hx
          · rw [if_neg hox]
            exact ⟨h1, h2⟩

/-- The heap `sh2` differs from the heap `sh` only by what the destruction of objects and the
replacement of values change: the values and addresses of the objects, the targets of the
values, the usage counts, the predicates and the list of roots. -/
theorem destroyAll_static (objs : List Int) (sh : SymHeap) :
    (∀ o, (objs.foldl SymHeap.objDestroyOne sh).objType o = sh.objType o) ∧
    (∀ o i, (objs.foldl SymHeap.objDestroyOne sh).subObj o i = sh.subObj o i) ∧
    (∀ o, (objs.foldl SymHeap.objDestroyOne sh).objKind o = sh.objKind o) ∧
    (∀ o, (objs.foldl SymHeap.objDestroyOne sh).objBinderField o = sh.objBinderField o) ∧
    (∀ o, (objs.foldl SymHeap.objDestroyOne sh).objPeerField o = sh.objPeerField o) ∧
    (objs.foldl SymHeap.objDestroyOne sh).neqDb = sh.neqDb ∧
    (objs.foldl SymHeap.objDestroyOne sh).gatherRootObjs = sh.gatherRootObjs ∧
    (∀ o, (objs.foldl SymHeap.objDestroyOne sh).objParent o = sh.objParent o) ∧
    (∀ o, (objs.foldl SymHeap.objDestroyOne sh).cVar o = sh.cVar o) := by
  induction objs generalizing sh with
  | nil => exact ⟨fun _ => rfl, fun _ _ => rfl, fun _ => rfl, fun _ => rfl, fun _ => rfl, rfl,
      rfl, fun _ => rfl, fun _ => rfl⟩
  | cons x xs ih =>
    rw [List.foldl_cons]
    exact ih (sh.objDestroyOne x)

theorem valReplace_valueOf (sh : SymHeap) (old new o : Int) :
    (sh.valReplace old new).valueOf o = if sh.valueOf o = old then new else sh.valueOf o := by
  unfold SymHeap.valReplace
  by_cases h : old = new
  · rw [if_pos h]
    split
    · rename_i h2
      rw [h2, h]
    · rfl
  · rw [if_neg h]

theorem valReplace_static (sh : SymHeap) (old new : Int) :
    (∀ o, (sh.valReplace old new).objType o = sh.objType o) ∧
    (∀ o i, (sh.valReplace old new).subObj o i = sh.subObj o i) ∧
    (∀ o, (sh.valReplace old new).objKind o = sh.objKind o) ∧
    (∀ o, (sh.valReplace old new).objBinderField o = sh.objBinderField o) ∧
    (∀ o, (sh.valReplace old new).objPeerField o = sh.objPeerField o) ∧
    (∀ o, (sh.valReplace old new).placedAt o = sh.placedAt o) ∧
    (∀ v, (sh.valReplace old new).pointsTo v = sh.pointsTo v) ∧
    (sh.valReplace old new).gatherRootObjs = sh.gatherRootObjs ∧
    (∀ o, (sh.valReplace old new).objParent o = sh.objParent o) ∧
    (∀ o, (sh.valReplace old new).cVar o = sh.cVar o) := by
  unfold SymHeap.valReplace
  split
  · exact ⟨fun _ => rfl, fun _ _ => rfl, fun _ => rfl, fun _ => rfl, fun _ => rfl,
      fun _ => rfl, fun _ => rfl, rfl, fun _ => rfl, fun _ => rfl⟩
  · exact ⟨fun _ => rfl, fun _ _ => rfl, fun _ => rfl, fun _ => rfl, fun _ => rfl,
      fun _ => rfl, fun _ => rfl, rfl, fun _ => rfl, fun _ => rfl⟩

theorem sortValues_comm (a b : Int) : sortValues a b = sortValues b a := by
  unfold sortValues
  by_cases h1 : b < a
  · rw [if_pos h1, if_neg (by omega)]
  · rw [if_neg h1]
    by_cases h2 : a < b
    · rw [if_pos h2]
    · rw [if_neg h2]
      have : a = b := by omega
      rw [this]

theorem sortValues_map (f : Int → Int) (a b : Int) :
    sortValues (f (sortValues a b).1) (f (sortValues a b).2) = sortValues (f a) (f b) := by
  unfold sortValues
  by_cases h1 : b < a
  · simp only [if_pos h1]
    exact sortValues_comm (f b) (f a)
  · simp only [if_neg h1]

theorem valReplace_neqDb (sh : SymHeap) (old new : Int) (p : Int × Int) :
    p ∈ (sh.valReplace old new).neqDb ↔
      (old = new ∧ p ∈ sh.neqDb) ∨
      (old ≠ new ∧ ∃ q ∈ sh.neqDb, p = sortValues (if q.1 = old then new else q.1)
        (if q.2 = old then new else q.2)) := by
  unfold SymHeap.valReplace
  by_cases h : old = new
  · rw [if_pos h]
    simp [h]
  · rw [if_neg h]
    simp only [List.mem_dedup, List.mem_map, h, false_and, false_or, ne_eq, not_false_eq_true,
      true_and]
    constructor
    · rintro ⟨q, hq, rfl⟩
      exact ⟨q, hq, rfl⟩
    · rintro ⟨q, hq, rfl⟩
      exact ⟨q, hq, rfl⟩

theorem objDestroy_spec (sh : SymHeap) (size : Int → Nat) (hsz : sh.SubObjsBounded size)
    (T : Int → Prop)
    (hT : ∀ o t (i : Nat), T o → sh.objType o = some t → t.code = cl_type_e.CL_TYPE_STRUCT →
      i < t.item_cnt.toNat → T (sh.subObj o (i : Int)))
    (fuel : Nat) (obj : Int) (hTo : T obj) (hd : size obj < fuel) :
    ∃ objs sh2, sh.gatherSubObjs fuel [obj] [] = .ok objs ∧ sh.objDestroy fuel obj = .ok sh2 ∧
      obj ∈ objs ∧ (∀ o ∈ objs, T o) ∧
      (∀ o, sh2.placedAt o = if o ∈ objs then VAL_INVALID else sh.placedAt o) ∧
      (∀ o, sh2.valueOf o = if o ∈ objs then VAL_INVALID else sh.valueOf o) ∧
      (∀ v, (∃ o ∈ objs, 0 < sh.placedAt o ∧ v = sh.placedAt o) →
        sh2.pointsTo v = OBJ_DELETED) ∧
      (∀ v, (¬ ∃ o ∈ objs, 0 < sh.placedAt o ∧ v = sh.placedAt o) →
        sh2.pointsTo v = sh.pointsTo v) ∧
      sh2.gatherRootObjs = sh.gatherRootObjs.filter (fun o => o ≠ obj) ∧
      sh2.neqDb = sh.neqDb ∧
      (∀ o, sh2.objKind o = sh.objKind o) ∧
      (∀ o, sh2.objBinderField o = sh.objBinderField o) ∧
      (∀ o, sh2.objPeerField o = sh.objPeerField o) ∧
      (∀ o, sh2.objType o = sh.objType o) ∧
      (∀ o i, sh2.subObj o i = sh.subObj o i) := by
  obtain ⟨objs, hg, _, h2, h3⟩ := gatherSubObjs_spec sh size hsz T hT fuel [obj] []
    (by intro o ho; rw [List.mem_singleton.mp ho]; exact hTo)
    (by simp only [objsWeight, List.map_cons, List.map_nil, List.sum_cons, List.sum_nil]; omega)
  obtain ⟨s1, s2, s3, s4, s5, s6, s7, _, _⟩ := destroyAll_static objs sh
  refine ⟨objs, { objs.foldl SymHeap.objDestroyOne sh with
      gatherRootObjs := (objs.foldl SymHeap.objDestroyOne sh).gatherRootObjs.filter
        fun o => o ≠ obj },
    hg, by unfold SymHeap.objDestroy; rw [hg], h2 obj (List.mem_singleton.mpr rfl),
    ?_, destroyAll_placedAt objs sh, destroyAll_valueOf objs sh,
    fun v => (destroyAll_pointsTo objs sh v).1, fun v => (destroyAll_pointsTo objs sh v).2,
    ?_, s6, s3, s4, s5, s1, s2⟩
  · intro o ho
    rcases h3 o ho with h | h
    · cases h
    · exact h
  · show (objs.foldl SymHeap.objDestroyOne sh).gatherRootObjs.filter _ = _
    rw [s7]

theorem gatherSubObjs_congr (sh sh2 : SymHeap) (h1 : ∀ o, sh2.objType o = sh.objType o)
    (h2 : ∀ o i, sh2.subObj o i = sh.subObj o i) (f : Nat) (todo acc : List Int) :
    sh2.gatherSubObjs f todo acc = sh.gatherSubObjs f todo acc := by
  induction f generalizing todo acc with
  | zero => cases todo <;> rfl
  | succ f ih =>
    cases todo with
    | nil => rfl
    | cons o rest =>
      unfold SymHeap.gatherSubObjs
      simp only [h1, h2, ih]

theorem subObjByChain_congr (sh sh2 : SymHeap) (h2 : ∀ o i, sh2.subObj o i = sh.subObj o i)
    (obj : Int) (ic : TFieldIdxChain) : subObjByChain sh2 obj ic = subObjByChain sh obj ic := by
  induction ic generalizing obj with
  | nil => rfl
  | cons i rest ih =>
    unfold subObjByChain
    simp only [h2, ih]

theorem SubPairFrom.congr {sh sh2 : SymHeap} (h1 : ∀ o, sh2.objType o = sh.objType o)
    (h2 : ∀ o i, sh2.subObj o i = sh.subObj o i) {p q : Int × Int}
    (h : SubPairFrom sh p q) : SubPairFrom sh2 p q := by
  induction h with
  | child t i ht hc hi =>
    rw [← h2, ← h2 p.2]
    exact SubPairFrom.child t i ((h1 _).trans ht) hc hi
  | step q2 t i _ ht hc hi ih =>
    rw [← h2, ← h2 q2.2]
    exact SubPairFrom.step q2 t i ih ((h1 _).trans ht) hc hi

theorem SubObjsBounded_congr (sh sh2 : SymHeap) (h1 : ∀ o, sh2.objType o = sh.objType o)
    (h2 : ∀ o i, sh2.subObj o i = sh.subObj o i) (size : Int → Nat)
    (hsz : sh.SubObjsBounded size) : sh2.SubObjsBounded size := by
  intro o t ht hc
  rw [h1] at ht
  have := hsz o t ht hc
  simp only [h2]
  exact this

/-- What `objReplace` does to the heap, unless it hits a `TRAP`. -/
theorem objReplace_spec (sh : SymHeap) (oldObj newObj : Int) (size : Int → Nat)
    (hsz : sh.SubObjsBounded size) (T : Int → Prop)
    (hT : ∀ o t (i : Nat), T o → sh.objType o = some t → t.code = cl_type_e.CL_TYPE_STRUCT →
      i < t.item_cnt.toNat → T (sh.subObj o (i : Int)))
    (fuel : Nat) (hTo : T oldObj) (hd : size oldObj < fuel) :
    (objReplace fuel sh oldObj newObj = .error .TRAP ∧
      (sh.objParent oldObj ≠ OBJ_INVALID ∨ sh.objParent newObj ≠ OBJ_INVALID ∨
        sh.placedAt oldObj ≤ 0 ∨ sh.placedAt newObj ≤ 0)) ∨
    ∃ objs sh2, sh.gatherSubObjs fuel [oldObj] [] = .ok objs ∧
      objReplace fuel sh oldObj newObj = .ok sh2 ∧
      sh.objParent oldObj = OBJ_INVALID ∧ sh.objParent newObj = OBJ_INVALID ∧
      0 < sh.placedAt oldObj ∧ 0 < sh.placedAt newObj ∧
      oldObj ∈ objs ∧ (∀ o ∈ objs, T o) ∧
      (∀ o, sh2.placedAt o = if o ∈ objs then VAL_INVALID else sh.placedAt o) ∧
      (∀ o, sh2.valueOf o = if o ∈ objs then VAL_INVALID
        else if sh.valueOf o = sh.placedAt oldObj then sh.placedAt newObj else sh.valueOf o) ∧
      sh2.pointsTo (sh.placedAt oldObj) = OBJ_DELETED ∧
      sh2.gatherRootObjs = sh.gatherRootObjs.filter (fun o => o ≠ oldObj) ∧
      sh2.neqDb = (sh.valReplace (sh.placedAt oldObj) (sh.placedAt newObj)).neqDb ∧
      (∀ o, sh2.objKind o = sh.objKind o) ∧
      (∀ o, sh2.objBinderField o = sh.objBinderField o) ∧
      (∀ o, sh2.objPeerField o = sh.objPeerField o) ∧
      (∀ o, sh2.objType o = sh.objType o) ∧
      (∀ o i, sh2.subObj o i = sh.subObj o i) := by
  unfold objReplace
  by_cases hp : OBJ_INVALID ≠ sh.objParent oldObj ∨ OBJ_INVALID ≠ sh.objParent newObj
  · rw [if_pos hp]
    left
    refine ⟨rfl, ?_⟩
    rcases hp with h | h
    · exact Or.inl (fun h2 => h h2.symm)
    · exact Or.inr (Or.inl (fun h2 => h h2.symm))
  · rw [if_neg hp]
    dsimp only
    have hp1 : sh.objParent oldObj = OBJ_INVALID := by
      by_contra hx
      exact hp (Or.inl (fun h2 => hx h2.symm))
    have hp2 : sh.objParent newObj = OBJ_INVALID := by
      by_contra hx
      exact hp (Or.inr (fun h2 => hx h2.symm))
    by_cases ha : sh.placedAt oldObj ≤ 0 ∨ sh.placedAt newObj ≤ 0
    · rw [if_pos ha]
      left
      exact ⟨rfl, Or.inr (Or.inr ha)⟩
    · rw [if_neg ha]
      right
      obtain ⟨v1, v2, v3, v4, v5, v6, _, v8, _, _⟩ :=
        valReplace_static sh (sh.placedAt oldObj) (sh.placedAt newObj)
      have hsz2 := SubObjsBounded_congr sh _ v1 v2 size hsz
      have hT2 : ∀ o t (i : Nat), T o →
          (sh.valReplace (sh.placedAt oldObj) (sh.placedAt newObj)).objType o = some t →
          t.code = cl_type_e.CL_TYPE_STRUCT → i < t.item_cnt.toNat →
          T ((sh.valReplace (sh.placedAt oldObj) (sh.placedAt newObj)).subObj o (i : Int)) := by
        intro o t i ho ht hc hi
        rw [v1] at ht
        rw [v2]
        exact hT o t i ho ht hc hi
      obtain ⟨objs, sh2, hg, hdes, hin, hall, hpl, hval, hpt, _, hroots, hneq, hk, hb, hpe,
        hty, hsub⟩ :=
        objDestroy_spec (sh.valReplace (sh.placedAt oldObj) (sh.placedAt newObj)) size hsz2
          T hT2 fuel oldObj hTo hd
      rw [gatherSubObjs_congr sh _ v1 v2] at hg
      refine ⟨objs, sh2, hg, hdes, hp1, hp2, by omega, by omega, hin, hall, ?_, ?_, ?_, ?_,
        hneq, ?_, ?_, ?_, ?_, ?_⟩
      · intro o
        rw [hpl, v6]
      · intro o
        rw [hval, valReplace_valueOf]
      · apply hpt
        refine ⟨oldObj, hin, ?_, ?_⟩
        · rw [v6]
          omega
        · rw [v6]
      · rw [hroots, v8]
      · intro o
        rw [hk, v3]
      · intro o
        rw [hb, v4]
      · intro o
        rw [hpe, v5]
      · intro o
        rw [hty, v1]
      · intro o i
        rw [hsub, v2]

theorem subPair_item (sh : SymHeap) (a b : Int) (hI : ItemAt sh a) (hI2 : ItemAt sh b)
    (q : Int × Int) (h : SubPairFrom sh (a, b) q) : q = (a + 1, b + 1) := by
  induction h with
  | child t i ht hc hi =>
    rw [hI.type_node] at ht
    cases ht
    have hi0 : i = 0 := by
      have : itemType.item_cnt.toNat = 1 := rfl
      omega
    subst hi0
    simp only [Nat.cast_zero, hI.sub, hI2.sub]
  | step q2 t i _ ht hc hi ih =>
    subst ih
    rw [hI.type_next] at ht
    cases ht
    cases hc

theorem ne_error_of_isOk {α : Type} (r : Except Err α) (e : Err) (h : r.isOk = true) :
    r ≠ .error e := by
  intro h2
  rw [h2] at h
  cases h

theorem exists_ok_of_isOk {α : Type} (r : Except Err α) (h : r.isOk = true) :
    ∃ x, r = .ok x := by
  cases r with
  | error e => cases h
  | ok x => exact ⟨x, rfl⟩

/-! ## A non-empty SLS carries its Neq predicate -/

theorem ensureSlSeg_concrete (sh : SymHeap) (n : Int) (ic : TFieldIdxChain)
    (hk : sh.objKind n = EObjKind.OK_CONCRETE) :
    ensureSlSeg sh n ic = .error .TRAP ∨ ensureSlSeg sh n ic = .error .CONTRADICTION ∨
    ∃ sh1, ensureSlSeg sh n ic = .ok sh1 ∧
      (∀ o, sh1.objType o = sh.objType o) ∧ (∀ o i, sh1.subObj o i = sh.subObj o i) ∧
      (∀ o, sh1.placedAt o = sh.placedAt o) ∧ (∀ o, sh1.valueOf o = sh.valueOf o) ∧
      (∀ o, sh1.objParent o = sh.objParent o) ∧
      sh1.objKind n = EObjKind.OK_SLS ∧ sh1.objBinderField n = ic ∧
      sortValues (sh.placedAt n) (sh.valueOf (subObjByChain sh n ic)) ∈ sh1.neqDb := by
  unfold ensureSlSeg
  rw [hk]
  dsimp only
  have hsub : subObjByChain (sh.objAbstract n .OK_SLS ic []) n ic = subObjByChain sh n ic :=
    subObjByChain_congr sh (sh.objAbstract n .OK_SLS ic []) (fun _ _ => rfl) n ic
  rw [hsub]
  have hpl : (sh.objAbstract n .OK_SLS ic []).placedAt n = sh.placedAt n := rfl
  have hvl : (sh.objAbstract n .OK_SLS ic []).valueOf (subObjByChain sh n ic) =
      sh.valueOf (subObjByChain sh n ic) := rfl
  rw [hpl, hvl]
  by_cases h1 : sh.placedAt n ≤ 0 ∨ sh.valueOf (subObjByChain sh n ic) < 0
  · rw [if_pos h1]
    exact Or.inl rfl
  · rw [if_neg h1]
    unfold SymHeap.addNeq
    by_cases h2 : sh.placedAt n = sh.valueOf (subObjByChain sh n ic)
    · rw [if_pos h2]
      exact Or.inr (Or.inl rfl)
    · rw [if_neg h2]
      right
      right
      by_cases h3 : sortValues (sh.placedAt n) (sh.valueOf (subObjByChain sh n ic)) ∈
          (sh.objAbstract n .OK_SLS ic []).neqDb
      · rw [if_pos h3]
        refine ⟨_, rfl, fun _ => rfl, fun _ _ => rfl, fun _ => rfl, fun _ => rfl, fun _ => rfl,
          ?_, ?_, h3⟩
        · show (if n = n then EObjKind.OK_SLS else sh.objKind n) = EObjKind.OK_SLS
          rw [if_pos rfl]
        · show (if n = n then ic else sh.objBinderField n) = ic
          rw [if_pos rfl]
      · rw [if_neg h3]
        refine ⟨_, rfl, fun _ => rfl, fun _ _ => rfl, fun _ => rfl, fun _ => rfl, fun _ => rfl,
          ?_, ?_, List.mem_cons_self _ _⟩
        · show (if n = n then EObjKind.OK_SLS else sh.objKind n) = EObjKind.OK_SLS
          rw [if_pos rfl]
        · show (if n = n then ic else sh.objBinderField n) = ic
          rw [if_pos rfl]

/-- C14: a non-empty SLS carries its Neq predicate.  Let `objNext`, the object that the
field `icNext` of `obj` points to, be concrete, let the trees of sub-objects be bounded,
and let neither `objNext` nor its field `icNext` belong to the sub-objects `T` of `obj`.
Unless it fails (with a `TRAP`, or with a contradiction if `objNext` points to itself),
`slSegAbstractionStep` returns a heap and the cursor `objNext`, which is an SLS with the
binder `icNext`, and the heap holds the predicate Neq between the address of the segment
and the value stored in its field `icNext`. -/
theorem slSegAbstractionStep_neq (sh : SymHeap) (obj objNext : Int) (icNext : TFieldIdxChain)
    (size : Int → Nat) (fuel : Nat) (hsz : sh.SubObjsBounded size) (hd : ∀ o, size o < fuel)
    (hnext : objNext = sh.pointsTo (sh.valueOf (subObjByChain sh obj icNext)))
    (hconc : sh.objKind objNext = EObjKind.OK_CONCRETE)
    (T : Int → Prop)
    (hT : ∀ o t (i : Nat), T o → sh.objType o = some t → t.code = cl_type_e.CL_TYPE_STRUCT →
      i < t.item_cnt.toNat → T (sh.subObj o (i : Int)))
    (hTo : T obj) (hTn : ¬ T objNext) (hTb : ¬ T (subObjByChain sh objNext icNext)) :
    slSegAbstractionStep fuel sh obj icNext = .error .TRAP ∨
    slSegAbstractionStep fuel sh obj icNext = .error .CONTRADICTION ∨
    ∃ sh3, slSegAbstractionStep fuel sh obj icNext = .ok (sh3, objNext) ∧
      sh3.objKind objNext = EObjKind.OK_SLS ∧ sh3.objBinderField objNext = icNext ∧
      sortValues (sh3.placedAt objNext) (sh3.valueOf (subObjByChain sh3 objNext icNext)) ∈
        sh3.neqDb := by
  unfold slSegAbstractionStep
  dsimp only
  by_cases h0 : sh.valueOf (subObjByChain sh obj icNext) ≤ 0 ∨
      1 ≠ sh.usedByCount (sh.valueOf (subObjByChain sh obj icNext))
  · rw [if_pos h0]
    exact Or.inl rfl
  · rw [if_neg h0, ← hnext]
    rcases ensureSlSeg_concrete sh objNext icNext hconc with h | h | h
    · rw [h]
      exact Or.inl rfl
    · rw [h]
      exact Or.inr (Or.inl rfl)
    · obtain ⟨sh1, he, e1, e2, e3, e4, e5, e6, e7, e8⟩ := h
      rw [he]
      simp only
      rw [if_neg (by rw [e6]; simp)]
      have hsz1 := SubObjsBounded_congr sh sh1 e1 e2 size hsz
      rcases abstractNonMatchingValues_weak sh1 obj objNext size fuel hsz1 hd with h | h
      · rw [h]
        exact Or.inl rfl
      · obtain ⟨sh2, ha, _, hF, hbind, _, _⟩ := h
        rw [ha]
        simp only
        rw [e7, subObjByChain_congr sh sh1 e2, e4] at hbind
        have hsz2 := SubObjsBounded_congr sh1 sh2 hF.objType hF.subObj size hsz1
        have hT2 : ∀ o t (i : Nat), T o → sh2.objType o = some t →
            t.code = cl_type_e.CL_TYPE_STRUCT → i < t.item_cnt.toNat →
            T (sh2.subObj o (i : Int)) := by
          intro o t i ho ht hc hi
          rw [hF.objType, e1] at ht
          rw [hF.subObj, e2]
          exact hT o t i ho ht hc hi
        rcases objReplace_spec sh2 obj objNext size hsz2 T hT2 fuel hTo (hd obj) with
          ⟨h, _⟩ | h
        · rw [h]
          exact Or.inl rfl
        · obtain ⟨objs, sh3, _, hr, _, _, _, _, _, hall, hpl, hval, _, _, hneq, hk3, hb3, _, _,
            hsub3⟩ := h
          rw [hr]
          right
          right
          refine ⟨sh3, rfl, ?_, ?_, ?_⟩
          · rw [hk3, hF.objKind, e6]
          · rw [hb3, hF.objBinderField, e7]
          · have hs3 : subObjByChain sh3 objNext icNext = subObjByChain sh objNext icNext := by
              rw [subObjByChain_congr sh2 sh3 hsub3, subObjByChain_congr sh1 sh2 hF.subObj,
                subObjByChain_congr sh sh1 e2]
            have hn1 : objNext ∉ objs := fun hm => hTn (hall _ hm)
            have hn2 : subObjByChain sh objNext icNext ∉ objs := fun hm => hTb (hall _ hm)
            rw [hs3, hpl, if_neg hn1, hval, if_neg hn2, hbind, hneq, valReplace_neqDb]
            have hmem : sortValues (sh2.placedAt objNext)
                (sh.valueOf (subObjByChain sh objNext icNext)) ∈ sh2.neqDb := by
              rw [hF.neqDb, hF.placedAt, e3]
              exact e8
            by_cases hoa : sh2.placedAt obj = sh2.placedAt objNext
            · left
              refine ⟨hoa, ?_⟩
              split
              · rename_i hv
                rw [← hoa, ← hv]
                rw [← hoa, ← hv] at hmem
                exact hmem
              · exact hmem
            · right
              refine ⟨hoa, _, hmem, ?_⟩
              have hm := sortValues_map
                (fun v => if v = sh2.placedAt obj then sh2.placedAt objNext else v)
                (sh2.placedAt objNext) (sh.valueOf (subObjByChain sh objNext icNext))
              simp only at hm
              rw [hm, if_neg (show ¬ sh2.placedAt objNext = sh2.placedAt obj from
                fun h => hoa h.symm)]

theorem sllHeap3_item4 : ItemAt (sllHeap 3) 4 := ⟨rfl, rfl, rfl⟩

theorem sllHeap3_item6 : ItemAt (sllHeap 3) 6 := ⟨rfl, rfl, rfl⟩

theorem sllHeap3_tree4 (o : Int) (t : cl_type) (i : Nat) (ho : o = 4 ∨ o = 5)
    (ht : (sllHeap 3).objType o = some t) (hc : t.code = cl_type_e.CL_TYPE_STRUCT)
    (hi : i < t.item_cnt.toNat) :
    (sllHeap 3).subObj o (i : Int) = 4 ∨ (sllHeap 3).subObj o (i : Int) = 5 := by
  rcases ho with rfl | rfl
  · rw [sllHeap3_item4.type_node] at ht
    cases ht
    have hi0 : i = 0 := by
      have : itemType.item_cnt.toNat = 1 := rfl
      omega
    subst hi0
    right
    rfl
  · have h5 : (sllHeap 3).objType 5 = some itemPtrType := rfl
    rw [h5] at ht
    cases ht
    cases hc

set_option maxRecDepth 100000 in
theorem sllHeap3_step_isOk : (slSegAbstractionStep 7 (sllHeap 3) 4 [0]).isOk = true := by
  decide

/-- Witness of C14: the step on the second node of the list of three nodes makes an SLS of
the third one. -/
theorem slSegAbstractionStep_neq_witness :
    ∃ sh3, slSegAbstractionStep 7 (sllHeap 3) 4 [0] = .ok (sh3, 6) ∧
      sh3.objKind 6 = EObjKind.OK_SLS ∧ sh3.objBinderField 6 = [0] ∧
      sortValues (sh3.placedAt 6) (sh3.valueOf (subObjByChain sh3 6 [0])) ∈ sh3.neqDb :=
  ((slSegAbstractionStep_neq (sllHeap 3) 4 6 [0] (fun o => if o % 2 = 0 then 1 else 0) 7
    (sllHeap_subObjs 3) sllHeap_size (by decide) (by decide)
    (fun o => o = 4 ∨ o = 5) sllHeap3_tree4 (Or.inl rfl) (by decide)
    (by decide)).resolve_left (ne_error_of_isOk _ _ sllHeap3_step_isOk)).resolve_left
    (ne_error_of_isOk _ _ sllHeap3_step_isOk)

/-! ## Value abstraction keeps the binding pointers -/

/-- C15: value abstraction keeps the binding pointers.  Let the trees of sub-objects be
bounded, and let the corresponding sub-objects of `src` and `dst` be laid out as two
disjoint trees: no sub-object of the `src` side is a sub-object of the `dst` side, and a
sub-object of the `dst` side corresponds to one sub-object of the `src` side only.  Unless
it hits a `TRAP` (which it does if `dst` is concrete or the types do not match),
`abstractNonMatchingValues(src, dst)` returns a heap in which the binder field of `dst`
and, if `dst` is a DLS, its peer field store the values that they stored before; every
other sub-field of `dst` whose value was provably equal to the value of the corresponding
sub-field of `src` stores what it stored, and every other sub-field of `dst` whose value
was not provably equal stores an unknown value created by the call; no sub-field of `src`
is modified. -/
theorem abstractNonMatchingValues_keeps_binding (sh : SymHeap) (src dst : Int)
    (size : Int → Nat) (fuel : Nat) (hsz : sh.SubObjsBounded size) (hd : ∀ o, size o < fuel)
    (hdisj : ∀ s d s2 d2, SubPairFrom sh (src, dst) (s, d) →
      SubPairFrom sh (src, dst) (s2, d2) → s ≠ d2)
    (hfun : ∀ s s2 d, SubPairFrom sh (src, dst) (s, d) →
      SubPairFrom sh (src, dst) (s2, d) → s2 = s) :
    abstractNonMatchingValues fuel sh src dst = .error .TRAP ∨
    ∃ sh2, abstractNonMatchingValues fuel sh src dst = .ok sh2 ∧
      sh.objKind dst ≠ EObjKind.OK_CONCRETE ∧
      sh2.valueOf (subObjByChain sh dst (sh.objBinderField dst)) =
        sh.valueOf (subObjByChain sh dst (sh.objBinderField dst)) ∧
      (sh.objKind dst = EObjKind.OK_DLS →
        sh2.valueOf (subObjByChain sh dst (sh.objPeerField dst)) =
          sh.valueOf (subObjByChain sh dst (sh.objPeerField dst))) ∧
      (∀ s d, SubPairFrom sh (src, dst) (s, d) →
        d ≠ subObjByChain sh dst (sh.objBinderField dst) →
        (sh.objKind dst = EObjKind.OK_DLS → d ≠ subObjByChain sh dst (sh.objPeerField dst)) →
        (sh.proveEq (sh.valueOf s) (sh.valueOf d) = some true →
          sh2.valueOf d = sh.valueOf d) ∧
        (sh.proveEq (sh.valueOf s) (sh.valueOf d) ≠ some true →
          sh.lastValId < sh2.valueOf d ∧ sh2.valueOf d ≤ sh2.lastValId ∧
            sh2.valGetUnknown (sh2.valueOf d) = EUnknownValue.UV_UNKNOWN)) ∧
      (∀ s d, SubPairFrom sh (src, dst) (s, d) → sh2.valueOf s = sh.valueOf s) := by
  rcases abstractNonMatchingValues_spec sh src dst size fuel hsz hd hdisj hfun with h | h
  · exact Or.inl h
  · obtain ⟨sh2, h1, h2, _, h4, h5, h6, h7⟩ := h
    refine Or.inr ⟨sh2, h1, h2, h4, h5, ?_, ?_⟩
    · intro s d hsd hb hp
      rcases h7 s d hsd hb hp with ⟨p1, p2⟩ | ⟨p1, p2⟩
      · refine ⟨fun _ => p2, fun hne => ?_⟩
        exact absurd ((proveEq_true_iff _ _ _).mpr p1) hne
      · refine ⟨fun heq => ?_, fun _ => p2⟩
        exact absurd ((proveEq_true_iff _ _ _).mp heq) p1
    · intro s d hsd
      rcases h6 s with h | ⟨s2, hs2, _, _⟩
      · exact h
      · exact absurd rfl (hdisj _ _ _ _ hsd hs2)

theorem cellHeap_subObjs :
    cellHeap.SubObjsBounded (fun o => if o = 10 ∨ o = 20 then 3 else 0) := by
  intro o t ht hc
  have ho : o = 10 ∨ o = 20 := by
    simp only [cellHeap] at ht
    split_ifs at ht with h1 h2 h3
    · exact h1
    · cases ht
      simp [cellPtrType] at hc
    · cases ht
      simp [intType] at hc
  have ht2 : t = cellType := by
    rcases ho with rfl | rfl
    · have h2 : cellHeap.objType 10 = some cellType := rfl
      rw [h2] at ht
      exact (Option.some.inj ht).symm
    · have h2 : cellHeap.objType 20 = some cellType := rfl
      rw [h2] at ht
      exact (Option.some.inj ht).symm
  subst ht2
  rcases ho with rfl | rfl <;> decide

theorem cellHeap_size (o : Int) : (if o = 10 ∨ o = 20 then 3 else 0) < 4 := by
  split_ifs <;> omega

theorem cellHeap_subPair (q : Int × Int) (h : SubPairFrom cellHeap (10, 20) q) :
    q = (11, 21) ∨ q = (12, 22) ∨ q = (13, 23) := by
  induction h with
  | child t i ht hc hi =>
    have h2 : cellHeap.objType 10 = some cellType := rfl
    rw [show cellHeap.objType (10, 20).1 = cellHeap.objType 10 from rfl, h2] at ht
    cases ht
    have hi3 : i = 0 ∨ i = 1 ∨ i = 2 := by
      have : cellType.item_cnt.toNat = 3 := rfl
      omega
    rcases hi3 with rfl | rfl | rfl
    · left
      rfl
    · right
      left
      rfl
    · right
      right
      rfl
  | step q2 t i _ ht hc hi ih =>
    rcases ih with rfl | rfl | rfl
    · have h2 : cellHeap.objType 11 = some cellPtrType := rfl
      rw [show cellHeap.objType (11, 21).1 = cellHeap.objType 11 from rfl, h2] at ht
      cases ht
      cases hc
    · have h2 : cellHeap.objType 12 = some intType := rfl
      rw [show cellHeap.objType (12, 22).1 = cellHeap.objType 12 from rfl, h2] at ht
      cases ht
      cases hc
    · have h2 : cellHeap.objType 13 = some intType := rfl
      rw [show cellHeap.objType (13, 23).1 = cellHeap.objType 13 from rfl, h2] at ht
      cases ht
      cases hc

theorem cellHeap_disj (s d s2 d2 : Int) (h1 : SubPairFrom cellHeap (10, 20) (s, d))
    (h2 : SubPairFrom cellHeap (10, 20) (s2, d2)) : s ≠ d2 := by
  have a := cellHeap_subPair _ h1
  have b := cellHeap_subPair _ h2
  simp only [Prod.mk.injEq] at a b
  omega

theorem cellHeap_fun (s s2 d : Int) (h1 : SubPairFrom cellHeap (10, 20) (s, d))
    (h2 : SubPairFrom cellHeap (10, 20) (s2, d)) : s2 = s := by
  have a := cellHeap_subPair _ h1
  have b := cellHeap_subPair _ h2
  simp only [Prod.mk.injEq] at a b
  omega

set_option maxRecDepth 100000 in
theorem cellHeap_abstract_isOk :
    (abstractNonMatchingValues 4 cellHeap 10 20).isOk = true := by decide

/-- Witness of C15: the value abstraction of the second cell of `cellHeap` against the first
one returns a heap. -/
theorem abstractNonMatchingValues_keeps_binding_witness :
    ∃ sh2, abstractNonMatchingValues 4 cellHeap 10 20 = .ok sh2 ∧
      cellHeap.objKind 20 ≠ EObjKind.OK_CONCRETE ∧
      sh2.valueOf (subObjByChain cellHeap 20 (cellHeap.objBinderField 20)) =
        cellHeap.valueOf (subObjByChain cellHeap 20 (cellHeap.objBinderField 20)) ∧
      (cellHeap.objKind 20 = EObjKind.OK_DLS →
        sh2.valueOf (subObjByChain cellHeap 20 (cellHeap.objPeerField 20)) =
          cellHeap.valueOf (subObjByChain cellHeap 20 (cellHeap.objPeerField 20))) ∧
      (∀ s d, SubPairFrom cellHeap (10, 20) (s, d) →
        d ≠ subObjByChain cellHeap 20 (cellHeap.objBinderField 20) →
        (cellHeap.objKind 20 = EObjKind.OK_DLS →
          d ≠ subObjByChain cellHeap 20 (cellHeap.objPeerField 20)) →
        (cellHeap.proveEq (cellHeap.valueOf s) (cellHeap.valueOf d) = some true →
          sh2.valueOf d = cellHeap.valueOf d) ∧
        (cellHeap.proveEq (cellHeap.valueOf s) (cellHeap.valueOf d) ≠ some true →
          cellHeap.lastValId < sh2.valueOf d ∧ sh2.valueOf d ≤ sh2.lastValId ∧
            sh2.valGetUnknown (sh2.valueOf d) = EUnknownValue.UV_UNKNOWN)) ∧
      (∀ s d, SubPairFrom cellHeap (10, 20) (s, d) → sh2.valueOf s = cellHeap.valueOf s) :=
  (abstractNonMatchingValues_keeps_binding cellHeap 10 20
    (fun o => if o = 10 ∨ o = 20 then 3 else 0) 4 cellHeap_subObjs cellHeap_size
    cellHeap_disj cellHeap_fun).resolve_left (ne_error_of_isOk _ _ cellHeap_abstract_isOk)

/-! ## The replacement of an object -/

/-- C16: the replacement of an object.  `objReplace(oldObj, newObj)` hits a `TRAP` if one
of the two objects has a parent or the address of one of them is not positive.  Otherwise
(the trees of sub-objects being bounded) it returns a heap: the objects `objs` that it has
destroyed are `oldObj` and sub-objects of it, the address of each of them is invalid and so
is the value that it stored, `oldObj` is no root any more and its former address points to
a deleted object; every other object that stored the address of `oldObj` stores the address
of `newObj`, every other object that stored another value still stores it, and, the two
addresses being different, no object stores the address of `oldObj`. -/
theorem objReplace_replaces (sh : SymHeap) (oldObj newObj : Int) (size : Int → Nat)
    (fuel : Nat) (hsz : sh.SubObjsBounded size) (hd : ∀ o, size o < fuel) :
    ((sh.objParent oldObj ≠ OBJ_INVALID ∨ sh.objParent newObj ≠ OBJ_INVALID ∨
        sh.placedAt oldObj ≤ 0 ∨ sh.placedAt newObj ≤ 0) →
      objReplace fuel sh oldObj newObj = .error .TRAP) ∧
    (sh.objParent oldObj = OBJ_INVALID → sh.objParent newObj = OBJ_INVALID →
      0 < sh.placedAt oldObj → 0 < sh.placedAt newObj →
      ∃ objs sh2, sh.gatherSubObjs fuel [oldObj] [] = .ok objs ∧
        objReplace fuel sh oldObj newObj = .ok sh2 ∧ oldObj ∈ objs ∧
        (∀ T : Int → Prop, T oldObj →
          (∀ o t (i : Nat), T o → sh.objType o = some t →
            t.code = cl_type_e.CL_TYPE_STRUCT → i < t.item_cnt.toNat →
            T (sh.subObj o (i : Int))) →
          ∀ o ∈ objs, T o) ∧
        (∀ o ∈ objs, sh2.placedAt o = VAL_INVALID ∧ sh2.valueOf o = VAL_INVALID) ∧
        oldObj ∉ sh2.gatherRootObjs ∧ sh2.pointsTo (sh.placedAt oldObj) = OBJ_DELETED ∧
        (∀ o, o ∉ objs → sh2.placedAt o = sh.placedAt o) ∧
        (∀ o, o ∉ objs → sh.valueOf o = sh.placedAt oldObj →
          sh2.valueOf o = sh.placedAt newObj) ∧
        (∀ o, o ∉ objs → sh.valueOf o ≠ sh.placedAt oldObj → sh2.valueOf o = sh.valueOf o) ∧
        (sh.placedAt oldObj ≠ sh.placedAt newObj → ∀ o, sh2.valueOf o ≠ sh.placedAt oldObj)) := by
  have key := fun T hT hTo => objReplace_spec sh oldObj newObj size hsz T hT fuel hTo (hd oldObj)
  constructor
  · intro h
    rcases key (fun _ => True) (fun _ _ _ _ _ _ _ => trivial) trivial with ⟨h1, _⟩ | h1
    · exact h1
    · obtain ⟨_, _, _, _, p1, p2, a1, a2, _⟩ := h1
      rcases h with h | h | h | h
      · exact absurd p1 h
      · exact absurd p2 h
      · omega
      · omega
  · intro hp1 hp2 ha1 ha2
    rcases key (fun _ => True) (fun _ _ _ _ _ _ _ => trivial) trivial with ⟨_, h1⟩ | h1
    · rcases h1 with h | h | h | h
      · exact absurd hp1 h
      · exact absurd hp2 h
      · omega
      · omega
    · obtain ⟨objs, sh2, hg, hres, _, _, _, _, hin, _, hpl, hval, hpt, hroots, _⟩ := h1
      refine ⟨objs, sh2, hg, hres, hin, ?_, ?_, ?_, hpt, ?_, ?_, ?_, ?_⟩
      · intro T hTo hT
        rcases key T hT hTo with ⟨h2, _⟩ | h2
        · rw [hres] at h2
          cases h2
        · obtain ⟨objs2, _, hg2, _, _, _, _, _, _, hall, _⟩ := h2
          rw [hg] at hg2
          cases hg2
          exact hall
      · intro o ho
        rw [hpl, hval, if_pos ho, if_pos ho]
        exact ⟨rfl, rfl⟩
      · rw [hroots]
        intro hmem
        have := (List.mem_filter.mp hmem).2
        simp at this
      · intro o ho
        rw [hpl, if_neg ho]
      · intro o ho hv
        rw [hval, if_neg ho, if_pos hv]
      · intro o ho hv
        rw [hval, if_neg ho, if_neg hv]
      · intro hne o
        rw [hval]
        split
        · intro h
          rw [← h] at ha1
          simp [VAL_INVALID] at ha1
        · split
          · exact fun h => hne h.symm
          · assumption

/-- Witness of C16: the first node of the list of three nodes is replaced by the second
one. -/
theorem objReplace_replaces_witness :
    ∃ objs sh2, (sllHeap 3).gatherSubObjs 7 [2] [] = .ok objs ∧
      objReplace 7 (sllHeap 3) 2 4 = .ok sh2 ∧ (2 : Int) ∈ objs ∧
      (∀ T : Int → Prop, T 2 →
        (∀ o t (i : Nat), T o → (sllHeap 3).objType o = some t →
          t.code = cl_type_e.CL_TYPE_STRUCT → i < t.item_cnt.toNat →
          T ((sllHeap 3).subObj o (i : Int))) →
        ∀ o ∈ objs, T o) ∧
      (∀ o ∈ objs, sh2.placedAt o = VAL_INVALID ∧ sh2.valueOf o = VAL_INVALID) ∧
      (2 : Int) ∉ sh2.gatherRootObjs ∧ sh2.pointsTo ((sllHeap 3).placedAt 2) = OBJ_DELETED ∧
      (∀ o, o ∉ objs → sh2.placedAt o = (sllHeap 3).placedAt o) ∧
      (∀ o, o ∉ objs → (sllHeap 3).valueOf o = (sllHeap 3).placedAt 2 →
        sh2.valueOf o = (sllHeap 3).placedAt 4) ∧
      (∀ o, o ∉ objs → (sllHeap 3).valueOf o ≠ (sllHeap 3).placedAt 2 →
        sh2.valueOf o = (sllHeap 3).valueOf o) ∧
      ((sllHeap 3).placedAt 2 ≠ (sllHeap 3).placedAt 4 →
        ∀ o, sh2.valueOf o ≠ (sllHeap 3).placedAt 2) :=
  (objReplace_replaces (sllHeap 3) 2 4 (fun o => if o % 2 = 0 then 1 else 0) 7
    (sllHeap_subObjs 3) sllHeap_size).2 (by decide) (by decide) (by decide) (by decide)

/-! ## The backward gobble -/

theorem dlSegGoblle_backward (fuel : Nat) (sh : SymHeap) (dls var : Int) :
    (∃ e, dlSegGoblle fuel sh dls var true = .error e) ∧
    ∀ sh1, sh.objKind dls = EObjKind.OK_DLS → sh.objKind var = EObjKind.OK_CONCRETE →
      abstractNonMatchingValues fuel sh var dls = .ok sh1 →
      dlSegGoblle fuel sh dls var true = .error .TRAP := by
  unfold dlSegGoblle
  by_cases hk : EObjKind.OK_DLS ≠ sh.objKind dls ∨ EObjKind.OK_CONCRETE ≠ sh.objKind var
  · rw [if_pos hk]
    refine ⟨⟨_, rfl⟩, fun _ _ _ _ => rfl⟩
  · rw [if_neg hk]
    simp only [Bool.not_true, Bool.false_eq_true, if_false]
    cases ha : abstractNonMatchingValues fuel sh var dls with
    | error e => exact ⟨⟨e, rfl⟩, fun sh1 _ _ h => by cases h⟩
    | ok sh1 => exact ⟨⟨_, rfl⟩, fun _ _ _ _ => rfl⟩

theorem dlSegAbstractionStep_backward (fuel : Nat) (sh : SymHeap) (obj o2 : Int)
    (icNext icPrev : TFieldIdxChain) (hk : sh.objKind obj = EObjKind.OK_CONCRETE)
    (hskip : skipObj sh obj icNext = .ok o2) (hk2 : sh.objKind o2 = EObjKind.OK_DLS) :
    (∃ e, dlSegAbstractionStep fuel sh obj icNext icPrev = .error e) ∧
    ∀ sh1, abstractNonMatchingValues fuel sh obj o2 = .ok sh1 →
      dlSegAbstractionStep fuel sh obj icNext icPrev = .error .TRAP := by
  unfold dlSegAbstractionStep
  simp only [hk, hskip]
  rw [if_neg (by rw [hk2]; simp)]
  obtain ⟨⟨e, he⟩, h2⟩ := dlSegGoblle_backward fuel sh o2 obj
  constructor
  · rw [he]
    exact ⟨e, rfl⟩
  · intro sh1 ha
    rw [h2 sh1 hk2 hk ha]

theorem discoverSegNext_some (fuel : Nat) (sh : SymHeap) (kind : EObjKind)
    (icBind icPeer : TFieldIdxChain) (obj next : Int)
    (h : discoverSegNext fuel sh kind icBind icPeer obj = .ok (some next)) :
    next = sh.pointsTo (sh.valueOf (subObjByChain sh obj icBind)) := by
  unfold discoverSegNext at h
  dsimp only at h
  split at h
  · cases h
  · split at h
    · cases h
    · cases h
    · split at h
      · cases h
      · split at h
        · split at h
          · cases h
          · simp only [Except.ok.injEq, Option.some.injEq] at h
            exact h.symm
        · simp only [Except.ok.injEq, Option.some.injEq] at h
          exact h.symm

theorem skipObj_eq_ok (sh : SymHeap) (obj o2 : Int) (ic : TFieldIdxChain)
    (h : skipObj sh obj ic = .ok o2) :
    o2 = sh.pointsTo (sh.valueOf (subObjByChain sh obj ic)) := by
  unfold skipObj at h
  dsimp only at h
  split at h
  · cases h
  · simp only [Except.ok.injEq] at h
    exact h.symm

theorem discoverSeg_before_dls (fuel loopFuel : Nat) (sh : SymHeap) (obj o2 : Int)
    (icNext icPrev : TFieldIdxChain) (hk : sh.objKind obj ≠ EObjKind.OK_DLS)
    (hskip : skipObj sh obj icNext = .ok o2) (hk2 : sh.objKind o2 = EObjKind.OK_DLS)
    (len : Nat)
    (h : discoverSeg fuel loopFuel sh obj .OK_DLS icNext icPrev = .ok len) : len ≤ 1 := by
  have ho2 := skipObj_eq_ok sh obj o2 icNext hskip
  unfold discoverSeg at h
  cases hl : discoverSegLoop fuel sh .OK_DLS icNext icPrev loopFuel ⟨obj, [], 0⟩ with
  | error e =>
    rw [hl] at h
    cases h
  | ok st =>
    rw [hl] at h
    dsimp only at h
    obtain ⟨legs, hw, hp, hd⟩ := discoverSegLoop_walk fuel sh .OK_DLS icNext icPrev loopFuel _ _ hl
    simp only [List.append_nil, zero_add] at hp hd
    by_cases hc : st.dlSegsOnPath ≠ 0 ∧ EObjKind.OK_DLS ≠ sh.objKind obj
    · rw [if_pos hc] at h
      simp only [Except.ok.injEq] at h
      omega
    · rw [if_neg hc] at h
      simp only [Except.ok.injEq] at h
      have hzero : st.dlSegsOnPath = 0 := by
        by_contra hne
        exact hc ⟨hne, fun hx => hk hx.symm⟩
      have hdl : walkDls legs = [] := by
        rw [hzero] at hd
        have : (walkDls legs).length = 0 := by omega
        exact List.length_eq_zero.mp this
      have hlen : (walkObjs legs).length ≤ 2 := by
        cases hw with
        | revisit _ _ hin => cases hin
        | refused _ _ _ hkk _ _ => exact absurd hkk hk
        | lastPlain _ _ _ _ _ => simp [walkObjs]
        | stepPlain _ _ next legs2 _ _ hnext hrest =>
          have hn := discoverSegNext_some fuel sh .OK_DLS icNext icPrev obj next hnext
          rw [← ho2] at hn
          subst hn
          cases hrest with
          | revisit _ _ _ => simp [walkObjs]
          | refused _ _ _ _ _ _ => simp [walkObjs]
          | lastPlain _ _ _ hkk _ => exact absurd hk2 hkk
          | stepPlain _ _ _ _ _ hkk _ _ => exact absurd hk2 hkk
          | lastDls _ _ _ _ _ _ _ _ _ _ => simp [walkDls] at hdl
          | stepDls _ _ _ _ _ _ _ _ _ _ _ _ _ => simp [walkDls] at hdl
        | lastDls _ _ _ _ hkk _ _ _ _ _ => exact absurd hkk hk
        | stepDls _ _ _ _ _ _ hkk _ _ _ _ _ _ => exact absurd hkk hk
      have hpos : 1 ≤ (walkObjs legs).length := by
        obtain ⟨_, _, hhead, _⟩ :=
          discoverWalk_spec fuel sh .OK_DLS icNext icPrev [] obj legs hw
        obtain ⟨rest, hrest⟩ := hhead (List.not_mem_nil _)
        rw [hrest]
        simp
      have hpl : st.path.length = (walkObjs legs).length := by rw [hp, List.length_reverse]
      rw [hzero, hpl] at h
      rw [← h]
      unfold toUInt32
      omega

set_option maxRecDepth 100000 in
theorem dlsHeap_abstract_isOk : (abstractNonMatchingValues 3 dlsHeap 10 20).isOk = true := by
  decide

/-- C17, counterexample: in `dlsHeap` the concrete node `10` is followed by the DLS with the
near end `20`; the step of the DLS abstraction on the node `10` ends in the `TRAP` that
stands for the backward gobble, and the DLS round on this heap does not take the step: the
walk of `discoverSeg` from the node `10` returns `0`. -/
theorem dlSegAbstractionStep_backward_traps :
    dlsHeap.objKind 10 = EObjKind.OK_CONCRETE ∧ skipObj dlsHeap 10 [0] = .ok 20 ∧
    dlsHeap.objKind 20 = EObjKind.OK_DLS ∧
    dlSegAbstractionStep 3 dlsHeap 10 [0] [1] = .error .TRAP ∧
    discoverSeg 3 10 dlsHeap 10 .OK_DLS [0] [1] = .ok 0 := by
  refine ⟨by decide, by decide, by decide, ?_, by decide⟩
  obtain ⟨sh1, h⟩ := exists_ok_of_isOk _ dlsHeap_abstract_isOk
  exact (dlSegAbstractionStep_backward 3 dlsHeap 10 20 [0] [1] (by decide) (by decide)
    (by decide)).2 sh1 h

/-- C17, amended: the backward gobble is not implemented, and the abstraction keeps away
from it.  On every heap in which the concrete object `obj` is followed (through the
selector `icNext`) by a DLS `o2`, `dlSegAbstractionStep` does not fold `obj` into the DLS:
it never returns a heap, and once the value abstraction of `o2` against `obj` has
returned, it hits the `TRAP` of `dlSegGoblle` that stands for the missing backward case.
The walk of `discoverSeg` for a DLS from such an object reports a length of at most `1`,
for which `considerSegAbstraction` returns `false` and the heap as it is, without a
step. -/
theorem dlSegAbstractionStep_backward_fails (fuel : Nat) (sh : SymHeap) (obj o2 : Int)
    (icNext icPrev : TFieldIdxChain) (hk : sh.objKind obj = EObjKind.OK_CONCRETE)
    (hskip : skipObj sh obj icNext = .ok o2) (hk2 : sh.objKind o2 = EObjKind.OK_DLS) :
    (∃ e, dlSegAbstractionStep fuel sh obj icNext icPrev = .error e) ∧
    (∀ sh1, abstractNonMatchingValues fuel sh obj o2 = .ok sh1 →
      dlSegAbstractionStep fuel sh obj icNext icPrev = .error .TRAP) ∧
    ∀ loopFuel len, discoverSeg fuel loopFuel sh obj .OK_DLS icNext icPrev = .ok len →
      len ≤ 1 ∧
      considerSegAbstraction fuel sh obj .OK_DLS icNext icPrev len = .ok (false, sh) := by
  obtain ⟨h1, h2⟩ := dlSegAbstractionStep_backward fuel sh obj o2 icNext icPrev hk hskip hk2
  refine ⟨h1, h2, fun loopFuel len hlen => ?_⟩
  have hle := discoverSeg_before_dls fuel loopFuel sh obj o2 icNext icPrev
    (by rw [hk]; exact fun hc => by cases hc) hskip hk2 len hlen
  refine ⟨hle, ?_⟩
  rw [considerSegAbstraction_dls fuel sh obj icNext icPrev len
    (lt_of_le_of_lt hle (by norm_num)), if_pos (by omega)]

/-- Witness of C17, amended: the concrete node `10` of `dlsHeap` is followed by the DLS with
the near end `20`. -/
theorem dlSegAbstractionStep_backward_fails_witness :
    dlsHeap.objKind 10 = EObjKind.OK_CONCRETE ∧ skipObj dlsHeap 10 [0] = .ok 20 ∧
    dlsHeap.objKind 20 = EObjKind.OK_DLS ∧
    (∃ e, dlSegAbstractionStep 3 dlsHeap 10 [0] [1] = .error e) ∧
    (∀ sh1, abstractNonMatchingValues 3 dlsHeap 10 20 = .ok sh1 →
      dlSegAbstractionStep 3 dlsHeap 10 [0] [1] = .error .TRAP) ∧
    ∀ loopFuel len, discoverSeg 3 loopFuel dlsHeap 10 .OK_DLS [0] [1] = .ok len →
      len ≤ 1 ∧
      considerSegAbstraction 3 dlsHeap 10 .OK_DLS [0] [1] len = .ok (false, dlsHeap) :=
  ⟨by decide, by decide, by decide,
    dlSegAbstractionStep_backward_fails 3 dlsHeap 10 20 [0] [1] (by decide) (by decide)
      (by decide)⟩


theorem addNeq_cases (sh : SymHeap) (v1 v2 : Int) :
    (v1 = v2 ∧ sh.addNeq v1 v2 = .error .CONTRADICTION) ∨
    (v1 ≠ v2 ∧ ∃ sh2, sh.addNeq v1 v2 = .ok sh2 ∧ sortValues v1 v2 ∈ sh2.neqDb ∧
      (∀ o, sh2.valueOf o = sh.valueOf o) ∧ (∀ o, sh2.placedAt o = sh.placedAt o) ∧
      (∀ o, sh2.objKind o = sh.objKind o) ∧
      (∀ o, sh2.objBinderField o = sh.objBinderField o) ∧
      (∀ o, sh2.objPeerField o = sh.objPeerField o) ∧
      (∀ o, sh2.objType o = sh.objType o) ∧ (∀ o i, sh2.subObj o i = sh.subObj o i) ∧
      (∀ p, p ∈ sh.neqDb → p ∈ sh2.neqDb)) := by
  unfold SymHeap.addNeq
  by_cases h : v1 = v2
  · left
    exact ⟨h, if_pos h⟩
  · right
    rw [if_neg h]
    refine ⟨h, ?_⟩
    by_cases h3 : sortValues v1 v2 ∈ sh.neqDb
    · rw [if_pos h3]
      exact ⟨sh, rfl, h3, fun _ => rfl, fun _ => rfl, fun _ => rfl, fun _ => rfl, fun _ => rfl,
        fun _ => rfl, fun _ _ => rfl, fun _ hp => hp⟩
    · rw [if_neg h3]
      exact ⟨_, rfl, List.mem_cons_self _ _, fun _ => rfl, fun _ => rfl, fun _ => rfl,
        fun _ => rfl, fun _ => rfl, fun _ => rfl, fun _ _ => rfl,
        fun _ hp => List.mem_cons_of_mem _ hp⟩

/-- C18: the creation of a DLS.  Let `o1` and `o2` be two different objects, let the trees
of sub-objects be bounded, and let the fields `icNext` and `icPrev` of either object be no
sub-objects of the other one.  Unless it fails (with a `TRAP`, e.g. if the types do not
match, or with the contradiction of `addNeq` if the field `icPrev` of `o1` and the field
`icNext` of `o2` store the same value), `dlSegCreate(o1, o2, icNext, icPrev)` returns a
heap in which both objects are of kind `OK_DLS` and are bound crosswise (`o1`: binder
`icPrev`, peer `icNext`; `o2`: binder `icNext`, peer `icPrev`), the four fields store the
values that they stored before, and the predicate Neq between the value of the field
`icPrev` of `o1` and the value of the field `icNext` of `o2` is recorded. -/
theorem dlSegCreate_cross_linked (sh : SymHeap) (o1 o2 : Int) (icNext icPrev : TFieldIdxChain)
    (size : Int → Nat) (fuel : Nat) (hsz : sh.SubObjsBounded size) (hd : ∀ o, size o < fuel)
    (hne : o1 ≠ o2)
    (h1n : ∀ s, ¬ SubPairFrom sh (o1, o2) (s, subObjByChain sh o1 icNext))
    (h1p : ∀ s, ¬ SubPairFrom sh (o1, o2) (s, subObjByChain sh o1 icPrev))
    (h2n : ∀ s, ¬ SubPairFrom sh (o2, o1) (s, subObjByChain sh o2 icNext))
    (h2p : ∀ s, ¬ SubPairFrom sh (o2, o1) (s, subObjByChain sh o2 icPrev)) :
    dlSegCreate fuel sh o1 o2 icNext icPrev = .error .TRAP ∨
    (dlSegCreate fuel sh o1 o2 icNext icPrev = .error .CONTRADICTION ∧
      sh.valueOf (subObjByChain sh o1 icPrev) = sh.valueOf (subObjByChain sh o2 icNext)) ∨
    ∃ sh5, dlSegCreate fuel sh o1 o2 icNext icPrev = .ok sh5 ∧
      sh5.objKind o1 = EObjKind.OK_DLS ∧ sh5.objKind o2 = EObjKind.OK_DLS ∧
      sh5.objBinderField o1 = icPrev ∧ sh5.objPeerField o1 = icNext ∧
      sh5.objBinderField o2 = icNext ∧ sh5.objPeerField o2 = icPrev ∧
      sh5.valueOf (subObjByChain sh5 o1 icNext) = sh.valueOf (subObjByChain sh o1 icNext) ∧
      sh5.valueOf (subObjByChain sh5 o1 icPrev) = sh.valueOf (subObjByChain sh o1 icPrev) ∧
      sh5.valueOf (subObjByChain sh5 o2 icNext) = sh.valueOf (subObjByChain sh o2 icNext) ∧
      sh5.valueOf (subObjByChain sh5 o2 icPrev) = sh.valueOf (subObjByChain sh o2 icPrev) ∧
      sortValues (sh5.valueOf (subObjByChain sh5 o1 icPrev))
        (sh5.valueOf (subObjByChain sh5 o2 icNext)) ∈ sh5.neqDb := by
  unfold dlSegCreate abstractNonMatchingValuesBidir
  dsimp only
  generalize hsh2 : (sh.objAbstract o1 .OK_DLS icPrev icNext).objAbstract o2 .OK_DLS icNext
    icPrev = sh2
  have t2 : ∀ o, sh2.objType o = sh.objType o := by
    intro o
    rw [← hsh2]
    rfl
  have s2 : ∀ o i, sh2.subObj o i = sh.subObj o i := by
    intro o i
    rw [← hsh2]
    rfl
  have v2 : ∀ o, sh2.valueOf o = sh.valueOf o := by
    intro o
    rw [← hsh2]
    rfl
  have k21 : sh2.objKind o1 = EObjKind.OK_DLS := by
    rw [← hsh2]
    show (if o1 = o2 then EObjKind.OK_DLS else
      if o1 = o1 then EObjKind.OK_DLS else sh.objKind o1) = EObjKind.OK_DLS
    rw [if_neg hne, if_pos rfl]
  have k22 : sh2.objKind o2 = EObjKind.OK_DLS := by
    rw [← hsh2]
    show (if o2 = o2 then EObjKind.OK_DLS else _) = EObjKind.OK_DLS
    rw [if_pos rfl]
  have b21 : sh2.objBinderField o1 = icPrev := by
    rw [← hsh2]
    show (if o1 = o2 then icNext else if o1 = o1 then icPrev else sh.objBinderField o1) = icPrev
    rw [if_neg hne, if_pos rfl]
  have p21 : sh2.objPeerField o1 = icNext := by
    rw [← hsh2]
    show (if o1 = o2 then icPrev else if o1 = o1 then icNext else sh.objPeerField o1) = icNext
    rw [if_neg hne, if_pos rfl]
  have b22 : sh2.objBinderField o2 = icNext := by
    rw [← hsh2]
    show (if o2 = o2 then icNext else _) = icNext
    rw [if_pos rfl]
  have p22 : sh2.objPeerField o2 = icPrev := by
    rw [← hsh2]
    show (if o2 = o2 then icPrev else _) = icPrev
    rw [if_pos rfl]
  have c2 : ∀ o ic, subObjByChain sh2 o ic = subObjByChain sh o ic :=
    fun o ic => subObjByChain_congr sh sh2 s2 o ic
  have hsz2 := SubObjsBounded_congr sh sh2 t2 s2 size hsz
  rcases abstractNonMatchingValues_weak sh2 o1 o2 size fuel hsz2 hd with h | h
  · rw [h]
    exact Or.inl rfl
  · obtain ⟨sh3, ha3, _, hF3, hb3, hp3, hm3⟩ := h
    rw [ha3]
    simp only
    rw [b22, c2] at hb3
    have hp3b := hp3 k22
    rw [p22, c2] at hp3b
    have back2 : ∀ {p q}, SubPairFrom sh2 p q → SubPairFrom sh p q := fun h =>
      SubPairFrom.congr (fun o => (t2 o).symm) (fun o i => (s2 o i).symm) h
    have f1n3 : sh3.valueOf (subObjByChain sh o1 icNext) =
        sh.valueOf (subObjByChain sh o1 icNext) := by
      rcases hm3 (subObjByChain sh o1 icNext) with h | ⟨s, hs⟩
      · rw [h, v2]
      · exact absurd (back2 hs) (h1n s)
    have f1p3 : sh3.valueOf (subObjByChain sh o1 icPrev) =
        sh.valueOf (subObjByChain sh o1 icPrev) := by
      rcases hm3 (subObjByChain sh o1 icPrev) with h | ⟨s, hs⟩
      · rw [h, v2]
      · exact absurd (back2 hs) (h1p s)
    have c3 : ∀ o ic, subObjByChain sh3 o ic = subObjByChain sh o ic := by
      intro o ic
      rw [subObjByChain_congr sh2 sh3 hF3.subObj, c2]
    have hsz3 := SubObjsBounded_congr sh2 sh3 hF3.objType hF3.subObj size hsz2
    rcases abstractNonMatchingValues_weak sh3 o2 o1 size fuel hsz3 hd with h | h
    · rw [h]
      exact Or.inl rfl
    · obtain ⟨sh4, ha4, _, hF4, hb4, hp4, hm4⟩ := h
      rw [ha4]
      rw [hF3.objBinderField, b21, c3, f1p3] at hb4
      have hp4b := hp4 (by rw [hF3.objKind]; exact k21)
      rw [hF3.objPeerField, p21, c3, f1n3] at hp4b
      have back3 : ∀ {p q}, SubPairFrom sh3 p q → SubPairFrom sh p q := fun h =>
        back2 (SubPairFrom.congr (fun o => (hF3.objType o).symm)
          (fun o i => (hF3.subObj o i).symm) h)
      have f2n4 : sh4.valueOf (subObjByChain sh o2 icNext) =
          sh.valueOf (subObjByChain sh o2 icNext) := by
        rcases hm4 (subObjByChain sh o2 icNext) with h | ⟨s, hs⟩
        · rw [h, hb3, v2]
        · exact absurd (back3 hs) (h2n s)
      have f2p4 : sh4.valueOf (subObjByChain sh o2 icPrev) =
          sh.valueOf (subObjByChain sh o2 icPrev) := by
        rcases hm4 (subObjByChain sh o2 icPrev) with h | ⟨s, hs⟩
        · rw [h, hp3b, v2]
        · exact absurd (back3 hs) (h2p s)
      have c4 : ∀ o ic, subObjByChain sh4 o ic = subObjByChain sh o ic := by
        intro o ic
        rw [subObjByChain_congr sh3 sh4 hF4.subObj, c3]
      unfold dlsStoreCrossNeq
      dsimp only
      rw [hF4.objBinderField, hF3.objBinderField, b21, hF4.objBinderField, hF3.objBinderField,
        b22, c4, c4, hb4, f2n4]
      rcases addNeq_cases sh4 (sh.valueOf (subObjByChain sh o1 icPrev))
          (sh.valueOf (subObjByChain sh o2 icNext)) with ⟨heq, h⟩ | ⟨_, sh5, h, hmem, a1, _, a3,
          a4, a5, _, a7, _⟩
      · rw [h]
        exact Or.inr (Or.inl ⟨rfl, heq⟩)
      · rw [h]
        right
        right
        have c5 : ∀ o ic, subObjByChain sh5 o ic = subObjByChain sh o ic := by
          intro o ic
          rw [subObjByChain_congr sh4 sh5 a7, c4]
        refine ⟨sh5, rfl, ?_, ?_, ?_, ?_, ?_, ?_, ?_, ?_, ?_, ?_, ?_⟩
        · rw [a3, hF4.objKind, hF3.objKind, k21]
        · rw [a3, hF4.objKind, hF3.objKind, k22]
        · rw [a4, hF4.objBinderField, hF3.objBinderField, b21]
        · rw [a5, hF4.objPeerField, hF3.objPeerField, p21]
        · rw [a4, hF4.objBinderField, hF3.objBinderField, b22]
        · rw [a5, hF4.objPeerField, hF3.objPeerField, p22]
        · rw [c5, a1, hp4b]
        · rw [c5, a1, hb4]
        · rw [c5, a1, f2n4]
        · rw [c5, a1, f2p4]
        · rw [c5, c5, a1, a1, hb4, f2n4]
          exact hmem

theorem dllHeap_subObjs :
    dllHeap.SubObjsBounded (fun o => if o = 10 ∨ o = 20 ∨ o = 30 then 2 else 0) :=
  SubObjsBounded_congr dlsHeap dllHeap (fun _ => rfl) (fun _ _ => rfl) _ dlsHeap_subObjs

theorem dllHeap_subPair (a b : Int) (ha : a = 10 ∨ a = 20 ∨ a = 30)
    (hb : b = 10 ∨ b = 20 ∨ b = 30) (q : Int × Int) (h : SubPairFrom dllHeap (a, b) q) :
    q = (a + 1, b + 1) ∨ q = (a + 2, b + 2) := by
  have hty : dllHeap.objType a = some dnodeType := by
    rcases ha with rfl | rfl | rfl <;> rfl
  have hsub : ∀ x : Int, (x = 10 ∨ x = 20 ∨ x = 30) →
      dllHeap.subObj x 0 = x + 1 ∧ dllHeap.subObj x 1 = x + 2 := by
    intro x hx
    rcases hx with rfl | rfl | rfl <;> exact ⟨rfl, rfl⟩
  have hptr : ∀ x : Int, (x = 10 ∨ x = 20 ∨ x = 30) →
      dllHeap.objType (x + 1) = some dnodePtrType ∧
      dllHeap.objType (x + 2) = some dnodePtrType := by
    intro x hx
    rcases hx with rfl | rfl | rfl <;> exact ⟨rfl, rfl⟩
  induction h with
  | child t i ht hc hi =>
    rw [show dllHeap.objType (a, b).1 = dllHeap.objType a from rfl, hty] at ht
    cases ht
    have hi2 : i = 0 ∨ i = 1 := by
      have : dnodeType.item_cnt.toNat = 2 := rfl
      omega
    rcases hi2 with rfl | rfl
    · left
      show (dllHeap.subObj a 0, dllHeap.subObj b 0) = _
      rw [(hsub a ha).1, (hsub b hb).1]
    · right
      show (dllHeap.subObj a 1, dllHeap.subObj b 1) = _
      rw [(hsub a ha).2, (hsub b hb).2]
  | step q2 t i _ ht hc hi ih =>
    rcases ih with rfl | rfl
    · rw [show dllHeap.objType (a + 1, b + 1).1 = dllHeap.objType (a + 1) from rfl,
        (hptr a ha).1] at ht
      cases ht
      cases hc
    · rw [show dllHeap.objType (a + 2, b + 2).1 = dllHeap.objType (a + 2) from rfl,
        (hptr a ha).2] at ht
      cases ht
      cases hc

theorem dllHeap_not_subPair (a b c : Int) (ha : a = 10 ∨ a = 20 ∨ a = 30)
    (hb : b = 10 ∨ b = 20 ∨ b = 30) (hc : c ≠ b + 1) (hc2 : c ≠ b + 2) (s : Int) :
    ¬ SubPairFrom dllHeap (a, b) (s, c) := by
  intro h
  have := dllHeap_subPair a b ha hb _ h
  simp only [Prod.mk.injEq] at this
  omega

set_option maxRecDepth 100000 in
theorem dllHeap_create_isOk : (dlSegCreate 3 dllHeap 10 20 [0] [1]).isOk = true := by
  decide

theorem dlSegCreate_cross_linked_witness :
    ∃ sh5, dlSegCreate 3 dllHeap 10 20 [0] [1] = .ok sh5 ∧
      sh5.objKind 10 = EObjKind.OK_DLS ∧ sh5.objKind 20 = EObjKind.OK_DLS ∧
      sh5.objBinderField 10 = [1] ∧ sh5.objPeerField 10 = [0] ∧
      sh5.objBinderField 20 = [0] ∧ sh5.objPeerField 20 = [1] ∧
      sh5.valueOf (subObjByChain sh5 10 [0]) = dllHeap.valueOf (subObjByChain dllHeap 10 [0]) ∧
      sh5.valueOf (subObjByChain sh5 10 [1]) = dllHeap.valueOf (subObjByChain dllHeap 10 [1]) ∧
      sh5.valueOf (subObjByChain sh5 20 [0]) = dllHeap.valueOf (subObjByChain dllHeap 20 [0]) ∧
      sh5.valueOf (subObjByChain sh5 20 [1]) = dllHeap.valueOf (subObjByChain dllHeap 20 [1]) ∧
      sortValues (sh5.valueOf (subObjByChain sh5 10 [1]))
        (sh5.valueOf (subObjByChain sh5 20 [0])) ∈ sh5.neqDb :=
  ((dlSegCreate_cross_linked dllHeap 10 20 [0] [1] _ 3 dllHeap_subObjs dlsHeap_size
      (by decide)
      (dllHeap_not_subPair 10 20 _ (by decide) (by decide) (by decide) (by decide))
      (dllHeap_not_subPair 10 20 _ (by decide) (by decide) (by decide) (by decide))
      (dllHeap_not_subPair 20 10 _ (by decide) (by decide) (by decide) (by decide))
      (dllHeap_not_subPair 20 10 _ (by decide) (by decide) (by decide) (by decide))).resolve_left
    (ne_error_of_isOk _ _ dllHeap_create_isOk)).resolve_left
    (fun h => ne_error_of_isOk _ _ dllHeap_create_isOk h.1)


theorem proveEq_none_ne (sh : SymHeap) (v1 v2 : Int) (h : sh.proveEq v1 v2 = none) :
    v1 ≠ v2 := by
  intro he
  rw [(proveEq_true_iff sh v1 v2).mpr he] at h
  cases h

theorem gatherSubObjs_total (sh : SymHeap) (size : Int → Nat) (hsz : sh.SubObjsBounded size)
    (fuel : Nat) (obj : Int) (hd : size obj < fuel) :
    ∃ objs, sh.gatherSubObjs fuel [obj] [] = .ok objs ∧ obj ∈ objs := by
  obtain ⟨objs, hg, _, h2, _⟩ := gatherSubObjs_spec sh size hsz (fun _ => True)
    (fun _ _ _ _ _ _ _ => trivial) fuel [obj] [] (fun _ _ => trivial)
    (by simp only [objsWeight, List.map_cons, List.map_nil, List.sum_cons, List.sum_nil]; omega)
  exact ⟨objs, hg, h2 obj (List.mem_singleton.mpr rfl)⟩

/-- What `valReplace(old, new)` followed by `objDestroy(obj)` does to the heap. -/
theorem valReplace_objDestroy_spec (sh : SymHeap) (size : Int → Nat)
    (hsz : sh.SubObjsBounded size) (fuel : Nat) (old new obj : Int) (hd : size obj < fuel) :
    ∃ objs sh2, sh.gatherSubObjs fuel [obj] [] = .ok objs ∧
      (sh.valReplace old new).objDestroy fuel obj = .ok sh2 ∧ obj ∈ objs ∧
      (∀ o, sh2.placedAt o = if o ∈ objs then VAL_INVALID else sh.placedAt o) ∧
      (∀ o, sh2.valueOf o = if o ∈ objs then VAL_INVALID
        else if sh.valueOf o = old then new else sh.valueOf o) ∧
      (∀ v, (¬ ∃ o ∈ objs, 0 < sh.placedAt o ∧ v = sh.placedAt o) →
        sh2.pointsTo v = sh.pointsTo v) ∧
      sh2.gatherRootObjs = sh.gatherRootObjs.filter (fun o => o ≠ obj) ∧
      sh2.neqDb = (sh.valReplace old new).neqDb ∧
      (∀ o, sh2.objKind o = sh.objKind o) ∧
      (∀ o, sh2.objBinderField o = sh.objBinderField o) ∧
      (∀ o, sh2.objPeerField o = sh.objPeerField o) ∧
      (∀ o, sh2.objType o = sh.objType o) ∧
      (∀ o i, sh2.subObj o i = sh.subObj o i) := by
  obtain ⟨r1, r2, r3, r4, r5, r6, r7, r8, _, _⟩ := valReplace_static sh old new
  have hsz2 := SubObjsBounded_congr sh (sh.valReplace old new) r1 r2 size hsz
  obtain ⟨objs, sh2, hg, hdes, hmem, _, hpl, hval, _, hpt, hroots, hneq, k1, k2, k3, k4, k5⟩ :=
    objDestroy_spec (sh.valReplace old new) size hsz2 (fun _ => True)
      (fun _ _ _ _ _ _ _ => trivial) fuel obj trivial hd
  rw [gatherSubObjs_congr sh (sh.valReplace old new) r1 r2] at hg
  refine ⟨objs, sh2, hg, hdes, hmem, ?_, ?_, ?_, ?_, hneq, ?_, ?_, ?_, ?_, ?_⟩
  · intro o
    rw [hpl, r6]
  · intro o
    rw [hval, valReplace_valueOf]
  · intro v hv
    rw [hpt v (by simpa only [r6] using hv), r7]
  · rw [hroots, r8]
  · intro o
    rw [k1, r3]
  · intro o
    rw [k2, r4]
  · intro o
    rw [k3, r5]
  · intro o
    rw [k4, r1]
  · intro o i
    rw [k5, r2]

theorem sortValues_idem (a b : Int) :
    sortValues (sortValues a b).1 (sortValues a b).2 = sortValues a b :=
  sortValues_map id a b

theorem valReplace_neqDb_sorted (sh : SymHeap) (old new : Int)
    (hs : ∀ q ∈ sh.neqDb, sortValues q.1 q.2 = q) (p : Int × Int) :
    p ∈ (sh.valReplace old new).neqDb ↔
      ∃ q ∈ sh.neqDb, p = sortValues (if q.1 = old then new else q.1)
        (if q.2 = old then new else q.2) := by
  rw [valReplace_neqDb]
  by_cases h : old = new
  · subst h
    have hid : ∀ x : Int, (if x = old then old else x) = x := by
      intro x
      split_ifs with hx
      · exact hx.symm
      · rfl
    simp only [hid, true_and, ne_eq, not_true_eq_false, false_and, or_false]
    constructor
    · intro hp
      exact ⟨p, hp, (hs p hp).symm⟩
    · rintro ⟨q, hq, rfl⟩
      rw [hs q hq]
      exact hq
  · simp only [h, false_and, false_or, ne_eq, not_false_eq_true, true_and]

theorem valReplace_sorted (sh : SymHeap) (old new : Int)
    (hs : ∀ q ∈ sh.neqDb, sortValues q.1 q.2 = q) :
    ∀ q ∈ (sh.valReplace old new).neqDb, sortValues q.1 q.2 = q := by
  intro q hq
  obtain ⟨r, _, rfl⟩ := (valReplace_neqDb_sorted sh old new hs q).mp hq
  exact sortValues_idem _ _

theorem spliceSubst_single (sh : SymHeap) (ao v : Int) :
    spliceSubst sh ao ao v =
      if v = sh.placedAt ao then sh.valueOf (subObjByChain sh ao (sh.objBinderField ao))
      else v := by
  unfold spliceSubst
  simp only [ne_eq, not_true_eq_false, false_and, if_false]

theorem spliceSubst_pair (sh : SymHeap) (ao peer v : Int) (hap : ao ≠ peer) :
    spliceSubst sh ao peer v =
      if (if v = sh.placedAt peer then sh.valueOf (subObjByChain sh ao (sh.objBinderField ao))
          else v) = sh.placedAt ao then
        sh.valueOf (subObjByChain sh peer (sh.objBinderField peer))
      else (if v = sh.placedAt peer then sh.valueOf (subObjByChain sh ao (sh.objBinderField ao))
          else v) := by
  unfold spliceSubst
  simp only [ne_eq, hap, not_false_eq_true, true_and]

/-- The empty variant of an SLS: what `spliceOutSegmentIfNeeded` appends when both ends are
the same object. -/
theorem splice_single (sh : SymHeap) (ao : Int) (size : Int → Nat) (fuel : Nat)
    (hsz : sh.SubObjsBounded size) (hd : ∀ o, size o < fuel)
    (hs : ∀ q ∈ sh.neqDb, sortValues q.1 q.2 = q) :
    ∃ objs h, sh.gatherSubObjs fuel [ao] [] = .ok objs ∧
      (sh.valReplace (sh.placedAt ao)
        (sh.valueOf (subObjByChain sh ao (sh.objBinderField ao)))).objDestroy fuel ao = .ok h ∧
      ao ∈ objs ∧ EmptyVariant sh ao ao objs h := by
  obtain ⟨objs, h, hg, hdes, hmem, hpl, hval, hpt, hroots, hneq, k1, k2, k3, k4, k5⟩ :=
    valReplace_objDestroy_spec sh size hsz fuel (sh.placedAt ao)
      (sh.valueOf (subObjByChain sh ao (sh.objBinderField ao))) ao (hd ao)
  refine ⟨objs, h, hg, hdes, hmem, ⟨hpl, ?_, hpt, ?_, ?_, k1, k2, k3, k4, k5⟩⟩
  · intro o
    rw [hval, spliceSubst_single]
  · intro o
    rw [hroots, List.mem_filter]
    simp only [ne_eq, decide_eq_true_eq, and_self]
  · intro p
    rw [hneq, valReplace_neqDb_sorted sh _ _ hs]
    simp only [spliceSubst_single]

/-- The empty variant of a DLS: what `spliceOutSegmentIfNeeded` appends when the ends are
two objects. -/
theorem splice_pair (sh : SymHeap) (ao peer : Int) (size : Int → Nat) (fuel : Nat)
    (hsz : sh.SubObjsBounded size) (hd : ∀ o, size o < fuel) (hap : ao ≠ peer)
    (haddr : 0 < sh.placedAt ao)
    (hs : ∀ q ∈ sh.neqDb, sortValues q.1 q.2 = q) :
    ∃ objs2 objs1 sh1 h, sh.gatherSubObjs fuel [ao] [] = .ok objs2 ∧
      sh.gatherSubObjs fuel [peer] [] = .ok objs1 ∧
      (sh.valReplace (sh.placedAt peer)
        (sh.valueOf (subObjByChain sh ao (sh.objBinderField ao)))).objDestroy fuel peer
          = .ok sh1 ∧
      (sh1.valReplace (sh.placedAt ao)
        (sh.valueOf (subObjByChain sh peer (sh.objBinderField peer)))).objDestroy fuel ao
          = .ok h ∧
      ao ∈ objs2 ∧ peer ∈ objs1 ∧ EmptyVariant sh ao peer (objs2 ++ objs1) h := by
  obtain ⟨objs1, sh1, hg1, hdes1, hmem1, hpl1, hval1, hpt1, hroots1, hneq1, a1, a2, a3, a4,
    a5⟩ := valReplace_objDestroy_spec sh size hsz fuel (sh.placedAt peer)
      (sh.valueOf (subObjByChain sh ao (sh.objBinderField ao))) peer (hd peer)
  have hsz1 := SubObjsBounded_congr sh sh1 a4 a5 size hsz
  obtain ⟨objs2, h, hg2, hdes2, hmem2, hpl2, hval2, hpt2, hroots2, hneq2, b1, b2, b3, b4,
    b5⟩ := valReplace_objDestroy_spec sh1 size hsz1 fuel (sh.placedAt ao)
      (sh.valueOf (subObjByChain sh peer (sh.objBinderField peer))) ao (hd ao)
  rw [gatherSubObjs_congr sh sh1 a4 a5] at hg2
  refine ⟨objs2, objs1, sh1, h, hg2, hg1, hdes1, hdes2, hmem2, hmem1,
    ⟨?_, ?_, ?_, ?_, ?_, ?_, ?_, ?_, ?_, ?_⟩⟩
  · intro o
    rw [hpl2, hpl1]
    by_cases h2 : o ∈ objs2
    · rw [if_pos h2, if_pos (List.mem_append_left _ h2)]
    · rw [if_neg h2]
      by_cases h1 : o ∈ objs1
      · rw [if_pos h1, if_pos (List.mem_append_right _ h1)]
      · rw [if_neg h1, if_neg (fun hm => (List.mem_append.mp hm).elim h2 h1)]
  · intro o
    rw [hval2, hval1, spliceSubst_pair sh ao peer _ hap]
    by_cases h2 : o ∈ objs2
    · rw [if_pos h2, if_pos (List.mem_append_left _ h2)]
    · rw [if_neg h2]
      by_cases h1 : o ∈ objs1
      · rw [if_pos h1, if_pos (List.mem_append_right _ h1)]
        refine if_neg ?_
        simp only [VAL_INVALID]
        omega
      · rw [if_neg h1, if_neg (fun hm => (List.mem_append.mp hm).elim h2 h1)]
  · intro v hv
    have hv2 : ¬ ∃ o ∈ objs2, 0 < sh1.placedAt o ∧ v = sh1.placedAt o := by
      rintro ⟨o, ho, hpos, hv3⟩
      rw [hpl1] at hpos hv3
      by_cases h1 : o ∈ objs1
      · rw [if_pos h1] at hpos
        simp [VAL_INVALID] at hpos
      · rw [if_neg h1] at hpos hv3
        exact hv ⟨o, List.mem_append_left _ ho, hpos, hv3⟩
    have hv1 : ¬ ∃ o ∈ objs1, 0 < sh.placedAt o ∧ v = sh.placedAt o := by
      rintro ⟨o, ho, hpos, hv3⟩
      exact hv ⟨o, List.mem_append_right _ ho, hpos, hv3⟩
    rw [hpt2 v hv2, hpt1 v hv1]
  · intro o
    rw [hroots2, hroots1, List.mem_filter, List.mem_filter]
    simp only [ne_eq, decide_eq_true_eq]
    tauto
  · intro p
    have hs1 : ∀ q ∈ sh1.neqDb, sortValues q.1 q.2 = q := by
      rw [hneq1]
      exact valReplace_sorted sh _ _ hs
    rw [hneq2, valReplace_neqDb_sorted sh1 _ _ hs1]
    constructor
    · rintro ⟨q, hq, rfl⟩
      rw [hneq1, valReplace_neqDb_sorted sh _ _ hs] at hq
      obtain ⟨r, hr, rfl⟩ := hq
      refine ⟨r, hr, ?_⟩
      have hm := sortValues_map (fun v => if v = sh.placedAt ao then
        sh.valueOf (subObjByChain sh peer (sh.objBinderField peer)) else v)
        (if r.1 = sh.placedAt peer then sh.valueOf (subObjByChain sh ao (sh.objBinderField ao))
          else r.1)
        (if r.2 = sh.placedAt peer then sh.valueOf (subObjByChain sh ao (sh.objBinderField ao))
          else r.2)
      simp only at hm
      rw [hm, spliceSubst_pair sh ao peer _ hap, spliceSubst_pair sh ao peer _ hap]
    · rintro ⟨r, hr, rfl⟩
      refine ⟨sortValues
        (if r.1 = sh.placedAt peer then sh.valueOf (subObjByChain sh ao (sh.objBinderField ao))
          else r.1)
        (if r.2 = sh.placedAt peer then sh.valueOf (subObjByChain sh ao (sh.objBinderField ao))
          else r.2), ?_, ?_⟩
      · rw [hneq1, valReplace_neqDb_sorted sh _ _ hs]
        exact ⟨r, hr, rfl⟩
      · have hm := sortValues_map (fun v => if v = sh.placedAt ao then
          sh.valueOf (subObjByChain sh peer (sh.objBinderField peer)) else v)
          (if r.1 = sh.placedAt peer then
            sh.valueOf (subObjByChain sh ao (sh.objBinderField ao)) else r.1)
          (if r.2 = sh.placedAt peer then
            sh.valueOf (subObjByChain sh ao (sh.objBinderField ao)) else r.2)
        simp only at hm
        rw [hm, spliceSubst_pair sh ao peer _ hap, spliceSubst_pair sh ao peer _ hap]
  · intro o
    rw [b1, a1]
  · intro o
    rw [b2, a2]
  · intro o
    rw [b3, a3]
  · intro o
    rw [b4, a4]
  · intro o i
    rw [b5, a5]

/-- The list that `concretizeObj` returns is the list that `spliceOutSegmentIfNeeded`
returns, and its errors are passed on; `ao` is the far end of the segment, the object
itself for an SLS and the object that the peer field points to for a DLS. -/
theorem concretizeObj_of_splice (sh : SymHeap) (obj ao : Int) (todo : TSymHeapList)
    (size : Int → Nat) (fuel : Nat) (hsz : sh.SubObjsBounded size) (hd : ∀ o, size o < fuel)
    (hao : (sh.objKind obj = EObjKind.OK_SLS ∧ ao = obj) ∨
      (sh.objKind obj = EObjKind.OK_DLS ∧ skipObj sh obj (sh.objPeerField obj) = .ok ao)) :
    (∀ e, spliceOutSegmentIfNeeded fuel sh obj ao todo = .error e →
      concretizeObj fuel sh obj todo = .error e) ∧
    (∀ sh1 todo1, spliceOutSegmentIfNeeded fuel sh obj ao todo = .ok (sh1, todo1) →
      (∀ o, sh1.objType o = sh.objType o) → (∀ o i, sh1.subObj o i = sh.subObj o i) →
      ∃ sh2, concretizeObj fuel sh obj todo = .ok (sh2, todo1)) := by
  constructor
  · intro e he
    rcases hao with ⟨hk, rfl⟩ | ⟨hk, hskip⟩
    · unfold concretizeObj
      simp only [hk, he]
    · unfold concretizeObj
      simp only [hk, hskip, he]
  · intro sh1 todo1 hsp t1 s1
    obtain ⟨objs, hg, _⟩ := gatherSubObjs_total sh size hsz fuel obj (hd obj)
    rw [← gatherSubObjs_congr sh sh1 t1 s1] at hg
    rcases hao with ⟨hk, rfl⟩ | ⟨hk, hskip⟩
    · unfold concretizeObj
      simp only [hk, hsp]
      unfold SymHeap.objDup
      simp only [hg]
      exact ⟨_, rfl⟩
    · unfold concretizeObj
      simp only [hk, hskip, hsp]
      unfold SymHeap.objDup
      simp only [hg]
      exact ⟨_, rfl⟩

/-- The three cases of `spliceOutSegmentIfNeeded`: a `TRAP` if the address of the segment
and the value after it are provably equal, nothing but the deletion of the predicate if
they are provably different, and one appended heap otherwise. -/
theorem splice_cases (sh : SymHeap) (ao peer : Int) (todo : TSymHeapList)
    (size : Int → Nat) (fuel : Nat) (hsz : sh.SubObjsBounded size) (hd : ∀ o, size o < fuel) :
    (sh.proveEq (sh.placedAt ao) (sh.valueOf (subObjByChain sh peer (sh.objBinderField peer)))
        = some true →
      spliceOutSegmentIfNeeded fuel sh ao peer todo = .error .TRAP) ∧
    (sh.proveEq (sh.placedAt ao) (sh.valueOf (subObjByChain sh peer (sh.objBinderField peer)))
        = some false →
      spliceOutSegmentIfNeeded fuel sh ao peer todo =
        .ok (sh.delNeq (sh.placedAt ao)
          (sh.valueOf (subObjByChain sh peer (sh.objBinderField peer))), todo)) ∧
    (sh.proveEq (sh.placedAt ao) (sh.valueOf (subObjByChain sh peer (sh.objBinderField peer)))
        = none →
      ∃ h, spliceOutSegmentIfNeeded fuel sh ao peer todo = .ok (sh, todo ++ [h]) ∧
        ((ao = peer ∧
          (sh.valReplace (sh.placedAt ao)
            (sh.valueOf (subObjByChain sh peer (sh.objBinderField peer)))).objDestroy fuel ao
              = .ok h) ∨
         (ao ≠ peer ∧ ∃ sh1,
          (sh.valReplace (sh.placedAt peer)
            (sh.valueOf (subObjByChain sh ao (sh.objBinderField ao)))).objDestroy fuel peer
              = .ok sh1 ∧
          (sh1.valReplace (sh.placedAt ao)
            (sh.valueOf (subObjByChain sh peer (sh.objBinderField peer)))).objDestroy fuel ao
              = .ok h))) := by
  refine ⟨?_, ?_, ?_⟩
  · intro hp
    unfold spliceOutSegmentIfNeeded
    simp only [hp]
  · intro hp
    unfold spliceOutSegmentIfNeeded
    simp only [hp]
  · intro hp
    unfold spliceOutSegmentIfNeeded
    simp only [hp]
    by_cases hap : ao = peer
    · subst hap
      obtain ⟨_, h, _, hdes, _⟩ := valReplace_objDestroy_spec sh size hsz fuel (sh.placedAt ao)
        (sh.valueOf (subObjByChain sh ao (sh.objBinderField ao))) ao (hd ao)
      refine ⟨h, ?_, Or.inl ⟨rfl, hdes⟩⟩
      simp only [ne_eq, not_true_eq_false, if_false, hdes]
    · obtain ⟨_, sh1, _, hdes1, _, _, _, _, _, _, _, _, _, a4, a5⟩ :=
        valReplace_objDestroy_spec sh size hsz fuel (sh.placedAt peer)
          (sh.valueOf (subObjByChain sh ao (sh.objBinderField ao))) peer (hd peer)
      have hsz1 := SubObjsBounded_congr sh sh1 a4 a5 size hsz
      obtain ⟨_, h, _, hdes2, _⟩ := valReplace_objDestroy_spec sh1 size hsz1 fuel
        (sh.placedAt ao) (sh.valueOf (subObjByChain sh peer (sh.objBinderField peer))) ao
        (hd ao)
      refine ⟨h, ?_, Or.inr ⟨hap, sh1, hdes1, hdes2⟩⟩
      simp only [ne_eq, hap, not_false_eq_true, if_true, hdes1, hdes2]


/-- C19, counterexample: the SLS `20` of the heap `cellLoopHeap` stores its own address in
its field `next`, so the address of the segment and the value of its next pointer are not
proven different (they are provably equal); `concretizeObj` appends no heap but ends in a
`TRAP`. -/
theorem concretizeObj_self_loop_traps :
    cellLoopHeap.objKind 20 = EObjKind.OK_SLS ∧
    cellLoopHeap.proveEq (cellLoopHeap.placedAt 20)
      (cellLoopHeap.valueOf (subObjByChain cellLoopHeap 20 (cellLoopHeap.objBinderField 20)))
      = some true ∧
    concretizeObj 4 cellLoopHeap 20 [] = .error .TRAP :=
  ⟨by decide, by decide,
    (concretizeObj_of_splice cellLoopHeap 20 20 [] _ 4
      (SubObjsBounded_congr cellHeap cellLoopHeap (fun _ => rfl) (fun _ _ => rfl) _
        cellHeap_subObjs) cellHeap_size (Or.inl ⟨by decide, rfl⟩)).1 _
      ((splice_cases cellLoopHeap 20 20 [] _ 4
        (SubObjsBounded_congr cellHeap cellLoopHeap (fun _ => rfl) (fun _ _ => rfl) _
          cellHeap_subObjs) cellHeap_size).1 (by decide))⟩

/-- C19, amended: the empty variant is emitted iff the emptiness is possible and not
certain.  Let `obj` be an SLS or a DLS whose peer field points to an object, let `ao` be
the far end (`obj` itself for an SLS, the peer for a DLS), and let the trees of
sub-objects be bounded.  If the address of `obj` and the value of the binder field of
`ao` are provably equal, `concretizeObj` ends in a `TRAP`; if they are provably different,
it returns the list `todo` as it was; if neither is proved, it returns `todo` with exactly
one heap appended. -/
theorem concretizeObj_empty_variant_cases (sh : SymHeap) (obj ao : Int) (todo : TSymHeapList)
    (size : Int → Nat) (fuel : Nat) (hsz : sh.SubObjsBounded size) (hd : ∀ o, size o < fuel)
    (hao : (sh.objKind obj = EObjKind.OK_SLS ∧ ao = obj) ∨
      (sh.objKind obj = EObjKind.OK_DLS ∧ skipObj sh obj (sh.objPeerField obj) = .ok ao)) :
    (sh.proveEq (sh.placedAt obj) (sh.valueOf (subObjByChain sh ao (sh.objBinderField ao)))
        = some true →
      concretizeObj fuel sh obj todo = .error .TRAP) ∧
    (sh.proveEq (sh.placedAt obj) (sh.valueOf (subObjByChain sh ao (sh.objBinderField ao)))
        = some false →
      ∃ sh2, concretizeObj fuel sh obj todo = .ok (sh2, todo)) ∧
    (sh.proveEq (sh.placedAt obj) (sh.valueOf (subObjByChain sh ao (sh.objBinderField ao)))
        = none →
      ∃ sh2 h, concretizeObj fuel sh obj todo = .ok (sh2, todo ++ [h])) := by
  obtain ⟨c1, c2, c3⟩ := splice_cases sh obj ao todo size fuel hsz hd
  obtain ⟨w1, w2⟩ := concretizeObj_of_splice sh obj ao todo size fuel hsz hd hao
  refine ⟨fun hp => w1 _ (c1 hp), fun hp => w2 _ _ (c2 hp) (fun _ => rfl) (fun _ _ => rfl), ?_⟩
  intro hp
  obtain ⟨h, hsp, _⟩ := c3 hp
  obtain ⟨sh2, hc⟩ := w2 _ _ hsp (fun _ => rfl) (fun _ _ => rfl)
  exact ⟨sh2, h, hc⟩

theorem concretizeObj_empty_variant_cases_witness :
    ∃ sh2 h, concretizeObj 4 cellMaybeHeap 20 [] = .ok (sh2, [] ++ [h]) :=
  (concretizeObj_empty_variant_cases cellMaybeHeap 20 20 [] _ 4
    (SubObjsBounded_congr cellHeap cellMaybeHeap (fun _ => rfl) (fun _ _ => rfl) _
      cellHeap_subObjs) cellHeap_size (Or.inl ⟨by decide, rfl⟩)).2.2 (by decide)


theorem spliceSubst_ne_addr (sh : SymHeap) (ao peer v : Int)
    (hne : sh.placedAt ao ≠ sh.valueOf (subObjByChain sh peer (sh.objBinderField peer))) :
    spliceSubst sh ao peer v ≠ sh.placedAt ao := by
  unfold spliceSubst
  dsimp only
  split_ifs with h1 h2 h3
  · exact fun h => hne h.symm
  · exact h2
  · exact fun h => hne h.symm
  · exact h3

/-- C20: the content of the empty variant.  Let `obj` be an SLS or a DLS whose peer field
points to an object, with a valid address, let `ao` be the far end (`obj` itself for an
SLS, the peer for a DLS), let the trees of sub-objects be bounded and the Neq predicates
be stored as sorted pairs, and let the segment be possibly empty: the address of `obj`
and the value of the binder field of `ao` are neither provably equal nor provably
different.  Then `concretizeObj` appends one heap `h`, which is the heap `sh` with the
segment spliced out (`EmptyVariant`): the destroyed objects are `obj`, for a DLS also
`ao`, and their sub-objects, they have neither an address nor a value and the ends are no
roots any more; every other object keeps its address and stores the value that it stored,
with the address of `obj` replaced by the value of the binder field of `ao` (the next
pointer), and for a DLS the address of the far end replaced by the value of the binder
field of `obj` (the prev pointer) beforehand; the Neq predicates are those of `sh` with the
same substitution; no object stores the address of `obj`. -/
theorem concretizeObj_empty_variant_content (sh : SymHeap) (obj ao : Int)
    (todo : TSymHeapList) (size : Int → Nat) (fuel : Nat) (hsz : sh.SubObjsBounded size)
    (hd : ∀ o, size o < fuel)
    (hao : (sh.objKind obj = EObjKind.OK_SLS ∧ ao = obj) ∨
      (sh.objKind obj = EObjKind.OK_DLS ∧ skipObj sh obj (sh.objPeerField obj) = .ok ao))
    (haddr : 0 < sh.placedAt obj)
    (hs : ∀ q ∈ sh.neqDb, sortValues q.1 q.2 = q)
    (hposs : sh.proveEq (sh.placedAt obj)
      (sh.valueOf (subObjByChain sh ao (sh.objBinderField ao))) = none) :
    ∃ sh2 h objs2 objs1, concretizeObj fuel sh obj todo = .ok (sh2, todo ++ [h]) ∧
      sh.gatherSubObjs fuel [obj] [] = .ok objs2 ∧
      (if obj = ao then objs1 = [] else sh.gatherSubObjs fuel [ao] [] = .ok objs1) ∧
      obj ∈ objs2 ∧ (obj ≠ ao → ao ∈ objs1) ∧
      EmptyVariant sh obj ao (objs2 ++ objs1) h ∧
      h.placedAt obj = VAL_INVALID ∧ h.placedAt ao = VAL_INVALID ∧
      obj ∉ h.gatherRootObjs ∧ ao ∉ h.gatherRootObjs ∧
      ∀ o, h.valueOf o ≠ sh.placedAt obj := by
  obtain ⟨_, _, c3⟩ := splice_cases sh obj ao todo size fuel hsz hd
  obtain ⟨_, w2⟩ := concretizeObj_of_splice sh obj ao todo size fuel hsz hd hao
  obtain ⟨h, hsp, hcase⟩ := c3 hposs
  obtain ⟨sh2, hc⟩ := w2 _ _ hsp (fun _ => rfl) (fun _ _ => rfl)
  have hne := proveEq_none_ne sh _ _ hposs
  have key : ∃ objs2 objs1, sh.gatherSubObjs fuel [obj] [] = .ok objs2 ∧
      (if obj = ao then objs1 = [] else sh.gatherSubObjs fuel [ao] [] = .ok objs1) ∧
      obj ∈ objs2 ∧ (obj ≠ ao → ao ∈ objs1) ∧ EmptyVariant sh obj ao (objs2 ++ objs1) h := by
    rcases hcase with ⟨hap, hdes⟩ | ⟨hap, sh1, hdes1, hdes2⟩
    · subst hap
      obtain ⟨objs, h2, hg, hdes3, hmem, hE⟩ := splice_single sh obj size fuel hsz hd hs
      rw [hdes] at hdes3
      cases hdes3
      refine ⟨objs, [], hg, ?_, hmem, fun hx => absurd rfl hx, ?_⟩
      · rw [if_pos rfl]
      · rw [List.append_nil]
        exact hE
    · obtain ⟨objs2, objs1, sh1b, h2, hg2, hg1, hdes1b, hdes2b, hmem2, hmem1, hE⟩ :=
        splice_pair sh obj ao size fuel hsz hd hap haddr hs
      rw [hdes1] at hdes1b
      cases hdes1b
      rw [hdes2] at hdes2b
      cases hdes2b
      refine ⟨objs2, objs1, hg2, ?_, hmem2, fun _ => hmem1, hE⟩
      rw [if_neg hap]
      exact hg1
  obtain ⟨objs2, objs1, hg2, hg1, hmem2, hmem1, hE⟩ := key
  have hin1 : obj ∈ objs2 ++ objs1 := List.mem_append_left _ hmem2
  have hin2 : ao ∈ objs2 ++ objs1 := by
    by_cases hap : obj = ao
    · rw [← hap]
      exact hin1
    · exact List.mem_append_right _ (hmem1 hap)
  refine ⟨sh2, h, objs2, objs1, hc, hg2, hg1, hmem2, hmem1, hE, ?_, ?_, ?_, ?_, ?_⟩
  · rw [hE.placedAt, if_pos hin1]
  · rw [hE.placedAt, if_pos hin2]
  · intro hr
    exact ((hE.roots obj).mp hr).2.1 rfl
  · intro hr
    exact ((hE.roots ao).mp hr).2.2 rfl
  · intro o
    rw [hE.valueOf]
    split_ifs
    · simp only [VAL_INVALID]
      omega
    · exact spliceSubst_ne_addr sh obj ao _ hne

theorem dlsHeap_skip_peer : skipObj dlsHeap 20 (dlsHeap.objPeerField 20) = .ok 30 := by
  decide

theorem concretizeObj_empty_variant_content_witness :
    ∃ sh2 h objs2 objs1, concretizeObj 3 dlsHeap 20 [] = .ok (sh2, [] ++ [h]) ∧
      dlsHeap.gatherSubObjs 3 [20] [] = .ok objs2 ∧
      (if (20 : Int) = 30 then objs1 = [] else dlsHeap.gatherSubObjs 3 [30] [] = .ok objs1) ∧
      20 ∈ objs2 ∧ ((20 : Int) ≠ 30 → 30 ∈ objs1) ∧
      EmptyVariant dlsHeap 20 30 (objs2 ++ objs1) h ∧
      h.placedAt 20 = VAL_INVALID ∧ h.placedAt 30 = VAL_INVALID ∧
      20 ∉ h.gatherRootObjs ∧ 30 ∉ h.gatherRootObjs ∧
      ∀ o, h.valueOf o ≠ dlsHeap.placedAt 20 :=
  concretizeObj_empty_variant_content dlsHeap 20 30 [] _ 3 dlsHeap_subObjs dlsHeap_size
    (Or.inr ⟨by decide, dlsHeap_skip_peer⟩) (by decide) (by decide) (by decide)


/-- C26: the kinds and the bindings of a pair of pointed-to objects are compared, the
minimum length is not.  The heaps `predHeap [(0, 10), (11, 12)]` and
`predHeap [(0, 11), (10, 12)]` have the same objects of the same kinds and bindings; in the
first heap the SLS `4` is proven non-empty (its address `10` is proven different from its
next value `VAL_NULL`), in the second heap it is possibly empty.  The comparison reaches
the pair of the object `4` with itself and still returns `true`. -/
theorem operatorEq_ignores_min_length :
    (predHeap [(0, 10), (11, 12)]).pointsTo 10 = 4 ∧
    (predHeap [(0, 11), (10, 12)]).pointsTo 10 = 4 ∧
    cmpAbstractObjects (predHeap [(0, 10), (11, 12)]) (predHeap [(0, 11), (10, 12)]) 4 4
      = true ∧
    (predHeap [(0, 10), (11, 12)]).objKind 4 = EObjKind.OK_SLS ∧
    (predHeap [(0, 10), (11, 12)]).proveEq ((predHeap [(0, 10), (11, 12)]).placedAt 4)
      ((predHeap [(0, 10), (11, 12)]).valueOf
        (subObjByChain (predHeap [(0, 10), (11, 12)]) 4
          ((predHeap [(0, 10), (11, 12)]).objBinderField 4))) = some false ∧
    (predHeap [(0, 11), (10, 12)]).proveEq ((predHeap [(0, 11), (10, 12)]).placedAt 4)
      ((predHeap [(0, 11), (10, 12)]).valueOf
        (subObjByChain (predHeap [(0, 11), (10, 12)]) 4
          ((predHeap [(0, 11), (10, 12)]).objBinderField 4))) = none ∧
    operatorEq 9 (predHeap [(0, 10), (11, 12)]) (predHeap [(0, 11), (10, 12)]) = .ok true := by
  decide

/-- C27: only the number of the Neq predicates of a compared pair of values is compared.
In the heap `predHeap [(0, 10), (11, 12)]` the value `10` is related to `VAL_NULL`, in
the heap `predHeap [(0, 11), (10, 12)]` it is related to the value `12` and not to
`VAL_NULL`, which has no counterpart; `matchPreds` accepts the pair `(10, 10)` and the
heaps compare equal. -/
theorem matchPreds_ignores_membership :
    (predHeap [(0, 10), (11, 12)]).gatherRelatedValues 10 = [0] ∧
    (predHeap [(0, 11), (10, 12)]).gatherRelatedValues 10 = [12] ∧
    matchPreds (predHeap [(0, 10), (11, 12)]) (predHeap [(0, 11), (10, 12)]) 10 10 = true ∧
    operatorEq 9 (predHeap [(0, 10), (11, 12)]) (predHeap [(0, 11), (10, 12)]) = .ok true ∧
    operatorEq 9 (predHeap [(0, 11), (10, 12)]) (predHeap [(0, 10), (11, 12)]) = .ok true := by
  decide

/-- C29: the substitution is not kept bijective.  From the empty substitution the pair
`(5, 7)` and then the pair `(6, 7)` are both accepted, although the value `7` of the
second heap has been paired with `5`; likewise the pair `(7, 5)` and then the pair `(7, 6)`
are both accepted, although the value `7` of the first heap has been paired with `5`.
So the heap whose two variables hold the different unknown values `5` and `6` compares
equal to the heap whose two variables hold the same unknown value `7`. -/
theorem matchValues_not_bijective :
    (matchValues [] 5 7).1 = true ∧ (matchValues (matchValues [] 5 7).2 6 7).1 = true ∧
    (matchValues [] 7 5).1 = true ∧ (matchValues (matchValues [] 7 5).2 7 6).1 = true ∧
    operatorEq 5 (heapTwoVars 5 6) (heapTwoVars 7 7) = .ok true := by
  decide

/-- C28, counterexample: the heap `cyclicHeap` and the heap that differs from it only in
the value stored in the integer item `3` of the structure `1` (`31` instead of `30`)
compare equal. -/
theorem operatorEq_int_leaf_differs :
    cyclicHeap.objType 3 = some intType ∧ cyclicHeap.objParent 3 = 1 ∧
    cyclicHeap.valueOf 3 = 30 ∧ (cyclicHeap.objSetValue 3 31).valueOf 3 = 31 ∧
    operatorEq 19 cyclicHeap (cyclicHeap.objSetValue 3 31) = .ok true := by
  decide

theorem objSetValue_valueOf_ne (sh : SymHeap) (obj val o : Int) (h : o ≠ obj) :
    (sh.objSetValue obj val).valueOf o = sh.valueOf o := by
  rw [objSetValue_valueOf, if_neg h]

/-- The pairs of scheduled values whose second value does not point to `obj`. -/
theorem schedule_keeps (h2 : SymHeap) (obj : Int) (wl : WorkList TValuePair) (a b : Int)
    (hw : ∀ p ∈ wl.todo, h2.pointsTo p.2 ≠ obj) (hb : h2.pointsTo b ≠ obj) :
    ∀ p ∈ (wl.schedule (a, b)).todo, h2.pointsTo p.2 ≠ obj := by
  unfold WorkList.schedule
  split_ifs
  · exact hw
  · intro p hp
    rcases List.mem_cons.mp hp with rfl | hp
    · exact hb
    · exact hw p hp

theorem digCompositeItems_setValue (h1 h2 : SymHeap) (obj val o1 o2 : Int) (n : Nat) (i : Int)
    (todo : List (Int × Int)) :
    digCompositeItems h1 (h2.objSetValue obj val) o1 o2 n i todo =
      digCompositeItems h1 h2 o1 o2 n i todo := by
  induction n generalizing i todo with
  | zero => rfl
  | succ n ih =>
    unfold digCompositeItems
    rw [show (h2.objSetValue obj val).subObj o2 i = h2.subObj o2 i from rfl]
    simp only [ih]

theorem digCompositeLoop_setValue (h1 h2 : SymHeap) (obj val : Int) (t : cl_type)
    (ht : h2.objType obj = some t) (hc : t.code = cl_type_e.CL_TYPE_INT)
    (hpt : ∀ o, o ≠ obj → h2.pointsTo (h2.valueOf o) ≠ obj)
    (fuel : Nat) (todo : List (Int × Int)) (wl : WorkList TValuePair)
    (hw : ∀ p ∈ wl.todo, h2.pointsTo p.2 ≠ obj) :
    digCompositeLoop h1 (h2.objSetValue obj val) fuel todo wl =
      digCompositeLoop h1 h2 fuel todo wl ∧
    ∀ b wl2, digCompositeLoop h1 h2 fuel todo wl = .ok (b, wl2) →
      ∀ p ∈ wl2.todo, h2.pointsTo p.2 ≠ obj := by
  induction fuel generalizing todo wl with
  | zero =>
    cases todo with
    | nil =>
      refine ⟨rfl, ?_⟩
      intro b wl2 h
      simp only [digCompositeLoop, Except.ok.injEq, Prod.mk.injEq] at h
      rw [← h.2]
      exact hw
    | cons p rest =>
      refine ⟨rfl, ?_⟩
      intro b wl2 h
      simp [digCompositeLoop] at h
  | succ fuel ih =>
    cases todo with
    | nil =>
      refine ⟨rfl, ?_⟩
      intro b wl2 h
      simp only [digCompositeLoop, Except.ok.injEq, Prod.mk.injEq] at h
      rw [← h.2]
      exact hw
    | cons p rest =>
      obtain ⟨o1, o2⟩ := p
      unfold digCompositeLoop
      rw [show (h2.objSetValue obj val).objType o2 = h2.objType o2 from rfl]
      by_cases hty : h1.objType o1 ≠ h2.objType o2
      · simp only [if_pos hty]
        refine ⟨trivial, ?_⟩
        intro b wl2 h
        simp only [Except.ok.injEq, Prod.mk.injEq] at h
        rw [← h.2]
        exact hw
      · simp only [if_neg hty]
        have hty2 : h1.objType o1 = h2.objType o2 := not_not.mp hty
        have triv : ∀ e : Err, ∀ b wl2,
            (Except.error e : Except Err (Bool × WorkList TValuePair)) = .ok (b, wl2) →
            ∀ p ∈ wl2.todo, h2.pointsTo p.2 ≠ obj := by
          intro e b wl2 h
          cases h
        cases hot : h1.objType o1 with
        | none =>
          simp only
          have ho : o2 ≠ obj := by
            intro ho
            rw [hot, ho, ht] at hty2
            cases hty2
          rw [objSetValue_valueOf_ne h2 obj val o2 ho]
          exact ih rest _ (schedule_keeps h2 obj wl _ _ hw (hpt o2 ho))
        | some t1 =>
          simp only
          have hne : t1.code = cl_type_e.CL_TYPE_PTR → o2 ≠ obj := by
            intro hcode ho
            rw [hot, ho, ht] at hty2
            cases hty2
            rw [hc] at hcode
            cases hcode
          generalize t1.code = code at hne
          cases code with
          | CL_TYPE_PTR =>
            simp only
            have ho := hne rfl
            rw [objSetValue_valueOf_ne h2 obj val o2 ho]
            exact ih rest _ (schedule_keeps h2 obj wl _ _ hw (hpt o2 ho))
          | CL_TYPE_STRUCT =>
            simp only [digCompositeItems_setValue]
            cases hitems : digCompositeItems h1 h2 o1 o2 t1.item_cnt.toNat 0 rest with
            | error e => exact ⟨rfl, triv e⟩
            | ok todo2 => exact ih todo2 wl hw
          | CL_TYPE_INT =>
            simp only
            exact ih rest wl hw
          | CL_TYPE_VOID => exact ⟨rfl, triv _⟩
          | CL_TYPE_ARRAY => exact ⟨rfl, triv _⟩
          | CL_TYPE_FNC => exact ⟨rfl, triv _⟩
          | CL_TYPE_BOOL => exact ⟨rfl, triv _⟩
          | CL_TYPE_REAL => exact ⟨rfl, triv _⟩
          | CL_TYPE_STRING => exact ⟨rfl, triv _⟩

theorem next_keeps (h2 : SymHeap) (obj : Int) (wl wl1 : WorkList TValuePair) (x : TValuePair)
    (hw : ∀ p ∈ wl.todo, h2.pointsTo p.2 ≠ obj) (hn : wl.next = some (x, wl1)) :
    h2.pointsTo x.2 ≠ obj ∧ ∀ p ∈ wl1.todo, h2.pointsTo p.2 ≠ obj := by
  unfold WorkList.next at hn
  cases htd : wl.todo with
  | nil =>
    rw [htd] at hn
    cases hn
  | cons y rest =>
    rw [htd] at hn hw
    simp only [Option.some.injEq, Prod.mk.injEq] at hn
    obtain ⟨rfl, rfl⟩ := hn
    exact ⟨hw y (List.mem_cons_self _ _), fun p hp => hw p (List.mem_cons_of_mem _ hp)⟩

theorem dfsCmp_setValue (h1 h2 : SymHeap) (obj val : Int) (t : cl_type)
    (ht : h2.objType obj = some t) (hc : t.code = cl_type_e.CL_TYPE_INT)
    (hpt : ∀ o, o ≠ obj → h2.pointsTo (h2.valueOf o) ≠ obj)
    (digFuel fuel : Nat) (wl : WorkList TValuePair) (subst : TSubst)
    (hw : ∀ p ∈ wl.todo, h2.pointsTo p.2 ≠ obj) :
    dfsCmp h1 (h2.objSetValue obj val) digFuel fuel wl subst =
      dfsCmp h1 h2 digFuel fuel wl subst := by
  induction fuel generalizing wl subst with
  | zero => rfl
  | succ fuel ih =>
    unfold dfsCmp
    cases hn : wl.next with
    | none => rfl
    | some x =>
      obtain ⟨⟨value1, value2⟩, wl1⟩ := x
      obtain ⟨hx, hw1⟩ := next_keeps h2 obj wl wl1 _ hw hn
      simp only
      rw [show matchPreds h1 (h2.objSetValue obj val) value1 value2 =
          matchPreds h1 h2 value1 value2 from rfl,
        show matchValuesH subst h1 (h2.objSetValue obj val) value1 value2 =
          matchValuesH subst h1 h2 value1 value2 from rfl,
        show isComposite h1 (h2.objSetValue obj val) value1 value2 =
          isComposite h1 h2 value1 value2 from rfl]
      split
      · rfl
      · split
        · rfl
        · rfl
        · rename_i subst1 _
          split
          · exact ih wl1 subst1 hw1
          · split
            · rfl
            · unfold digComposite
              rw [show (h2.objSetValue obj val).valGetCompositeObj value2 =
                h2.valGetCompositeObj value2 from rfl]
              obtain ⟨e1, e2⟩ := digCompositeLoop_setValue h1 h2 obj val t ht hc hpt digFuel
                [(h1.valGetCompositeObj value1, h2.valGetCompositeObj value2)] wl1 hw1
              rw [e1]
              cases hdig : digCompositeLoop h1 h2 digFuel
                  [(h1.valGetCompositeObj value1, h2.valGetCompositeObj value2)] wl1 with
              | error e => rfl
              | ok r =>
                obtain ⟨b, wl2⟩ := r
                cases b with
                | false => rfl
                | true => exact ih wl2 subst1 (e2 true wl2 hdig)
            · rw [show (h2.objSetValue obj val).pointsTo value2 = h2.pointsTo value2 from rfl,
                show cmpAbstractObjects h1 (h2.objSetValue obj val) (h1.pointsTo value1)
                  (h2.pointsTo value2) =
                  cmpAbstractObjects h1 h2 (h1.pointsTo value1) (h2.pointsTo value2) from rfl,
                objSetValue_valueOf_ne h2 obj val _ hx]
              split
              · rfl
              · split
                · rfl
                · exact ih _ subst1 (schedule_keeps h2 obj wl1 _ _ hw1 (hpt _ hx))

theorem scheduleCVars_setValue (h1 h2 : SymHeap) (obj val : Int)
    (hcv : ∀ cv, h2.objByCVar cv ≠ obj)
    (hpt : ∀ o, o ≠ obj → h2.pointsTo (h2.valueOf o) ≠ obj)
    (l : List CVar) (wl : WorkList TValuePair)
    (hw : ∀ p ∈ wl.todo, h2.pointsTo p.2 ≠ obj) :
    scheduleCVars h1 (h2.objSetValue obj val) l wl = scheduleCVars h1 h2 l wl ∧
    ∀ wl2, scheduleCVars h1 h2 l wl = some wl2 → ∀ p ∈ wl2.todo, h2.pointsTo p.2 ≠ obj := by
  induction l generalizing wl with
  | nil =>
    refine ⟨rfl, ?_⟩
    intro wl2 h
    simp only [scheduleCVars, Option.some.injEq] at h
    rw [← h]
    exact hw
  | cons cv rest ih =>
    unfold scheduleCVars
    rw [show (h2.objSetValue obj val).objByCVar cv = h2.objByCVar cv from rfl]
    dsimp only
    rw [objSetValue_valueOf_ne h2 obj val _ (hcv cv)]
    split_ifs
    · refine ⟨rfl, ?_⟩
      intro wl2 h
      cases h
    · exact ih _ (schedule_keeps h2 obj wl _ _ hw (hpt _ (hcv cv)))

theorem digCompositeLoop_ptr_leaf (h1 h2 : SymHeap) (fuel : Nat) (todo : List (Int × Int))
    (wl : WorkList TValuePair) (o1 o2 : Int) (t1 : cl_type) (e1 : h1.objType o1 = some t1)
    (e2 : h2.objType o2 = some t1) (hp : t1.code = cl_type_e.CL_TYPE_PTR) :
    digCompositeLoop h1 h2 (fuel + 1) ((o1, o2) :: todo) wl =
      digCompositeLoop h1 h2 fuel todo (wl.schedule (h1.valueOf o1, h2.valueOf o2)) := by
  conv_lhs => unfold digCompositeLoop
  simp only [e1, e2, ne_eq, not_true_eq_false, if_false, hp]

theorem digCompositeLoop_int_leaf (h1 h2 : SymHeap) (fuel : Nat) (todo : List (Int × Int))
    (wl : WorkList TValuePair) (o1 o2 : Int) (t1 : cl_type) (e1 : h1.objType o1 = some t1)
    (e2 : h2.objType o2 = some t1) (hp : t1.code = cl_type_e.CL_TYPE_INT) :
    digCompositeLoop h1 h2 (fuel + 1) ((o1, o2) :: todo) wl =
      digCompositeLoop h1 h2 fuel todo wl := by
  conv_lhs => unfold digCompositeLoop
  simp only [e1, e2, ne_eq, not_true_eq_false, if_false, hp]

/-- C28, amended: the pointer leaves of a composite object are compared as values, the
integer leaves are not.  When the loop of `digComposite` takes a pair of leaves of the same
pointer type, it schedules the pair of the stored values for the comparison; when it takes
a pair of leaves of the same integer type, it schedules nothing.  So, if `obj` is an object
of the second heap of an integer type that is no program variable and that no other
object stores a pointer to, writing any value to `obj` does not change the result of the
comparison: a heap compares to the heap that differs only in the value of `obj` as it
compares to the heap itself. -/
theorem operatorEq_skips_int_leaves (fuel : Nat) (h1 h2 : SymHeap) (obj val : Int)
    (t : cl_type) (ht : h2.objType obj = some t) (hc : t.code = cl_type_e.CL_TYPE_INT)
    (hcv : ∀ cv, h2.objByCVar cv ≠ obj)
    (hpt : ∀ o, o ≠ obj → h2.pointsTo (h2.valueOf o) ≠ obj) :
    (∀ (dfuel : Nat) (todo : List (Int × Int)) (wl : WorkList TValuePair) (o1 o2 : Int)
        (t1 : cl_type), h1.objType o1 = some t1 → h2.objType o2 = some t1 →
        t1.code = cl_type_e.CL_TYPE_PTR →
        digCompositeLoop h1 h2 (dfuel + 1) ((o1, o2) :: todo) wl =
          digCompositeLoop h1 h2 dfuel todo (wl.schedule (h1.valueOf o1, h2.valueOf o2))) ∧
    (∀ (dfuel : Nat) (todo : List (Int × Int)) (wl : WorkList TValuePair) (o1 o2 : Int)
        (t1 : cl_type), h1.objType o1 = some t1 → h2.objType o2 = some t1 →
        t1.code = cl_type_e.CL_TYPE_INT →
        digCompositeLoop h1 h2 (dfuel + 1) ((o1, o2) :: todo) wl =
          digCompositeLoop h1 h2 dfuel todo wl) ∧
    operatorEq fuel h1 (h2.objSetValue obj val) = operatorEq fuel h1 h2 := by
  refine ⟨fun dfuel todo wl o1 o2 t1 => digCompositeLoop_ptr_leaf h1 h2 dfuel todo wl o1 o2 t1,
    fun dfuel todo wl o1 o2 t1 => digCompositeLoop_int_leaf h1 h2 dfuel todo wl o1 o2 t1, ?_⟩
  unfold operatorEq
  simp only [ne_eq, not_true_eq_false, if_false]
  obtain ⟨e1, e2⟩ := scheduleCVars_setValue h1 h2 obj val hcv hpt
    (h1.gatherCVars.foldl (fun s cv => cVarSetInsert cv s)
      (h1.gatherCVars.foldl (fun s cv => cVarSetInsert cv s) [])) WorkList.empty
    (by intro p hp; cases hp)
  rw [e1]
  cases hs : scheduleCVars h1 h2 (h1.gatherCVars.foldl (fun s cv => cVarSetInsert cv s)
      (h1.gatherCVars.foldl (fun s cv => cVarSetInsert cv s) [])) WorkList.empty with
  | none => rfl
  | some wl => exact dfsCmp_setValue h1 h2 obj val t ht hc hpt fuel fuel wl [] (e2 wl hs)

theorem cyclicHeap_no_pointer_to_3 (o : Int) (_h : o ≠ 3) :
    cyclicHeap.pointsTo (cyclicHeap.valueOf o) ≠ 3 := by
  simp only [cyclicHeap, emptyHeap, VAL_INVALID, OBJ_INVALID]
  split_ifs <;> omega

theorem operatorEq_skips_int_leaves_witness :
    operatorEq 19 cyclicHeap (cyclicHeap.objSetValue 3 31) =
      operatorEq 19 cyclicHeap cyclicHeap :=
  (operatorEq_skips_int_leaves 19 cyclicHeap cyclicHeap 3 31 intType rfl rfl
    (by intro cv; simp only [cyclicHeap, emptyHeap, OBJ_INVALID]; split_ifs <;> omega)
    cyclicHeap_no_pointer_to_3).2.2


theorem skipTrivialBlocks_gotoLoop (fuel : Nat) :
    skipTrivialBlocks gotoLoopFnc fuel (1, 0) = .error .FUEL := by
  induction fuel with
  | zero => rfl
  | succ fuel ih =>
    unfold skipTrivialBlocks
    exact ih

/-- C30: `finalizeFlow` does not terminate on a cycle of trivial basic blocks.  For the
function `gotoLoopFnc` (an assignment followed by `for (;;);`) `loadHeaps` returns the
single location of the assignment, and on this list of locations `finalizeFlow` runs out
of fuel whatever the fuel is: the loop that skips the basic blocks made of a single
`goto` follows the `goto` of the block `1` to the block `1` again and again. -/
theorem finalizeFlow_goto_cycle_diverges :
    ∃ sl lk, loadHeaps 3 gotoLoopFnc (fun _ => none) = .ok (sl, lk) ∧ sl.length = 1 ∧
      lk = [((0, 0), 0)] ∧
      ∀ fuel, finalizeFlow fuel gotoLoopFnc sl lk = .error .FUEL := by
  refine ⟨[⟨(0, 0), [], [], [], [], [], []⟩], [((0, 0), 0)], rfl, rfl, rfl, ?_⟩
  intro fuel
  have h : finalizeTargets fuel gotoLoopFnc [((0, 0), 0)] [1] [] = .error .FUEL := by
    unfold finalizeTargets
    rw [show gotoLoopFnc.front 1 = .ok (1, 0) from rfl]
    simp only [skipTrivialBlocks_gotoLoop]
  unfold finalizeFlow
  simp only [List.length_singleton]
  unfold finalizeOutEdges
  simp only [List.get?_cons_zero]
  rw [show gotoLoopFnc.insn (0, 0) = some ⟨.CL_INSN_UNOP, [], []⟩ from rfl]
  simp only [List.isEmpty_nil, Bool.not_true, Bool.false_eq_true, if_false]
  rw [show gotoLoopFnc.back 0 = .ok (0, 1) from rfl]
  simp only
  rw [show gotoLoopFnc.insn (0, 1) = some ⟨.CL_INSN_JMP, [1], []⟩ from rfl]
  simp only [cl_is_term_insn, Bool.not_true, Bool.false_eq_true, if_false, h]


theorem getD_indexOf (objs : List Int) (o : Int) (h : o ∈ objs) (d : Int) :
    objs.getD (objs.indexOf o) d = o := by
  have hlt : objs.indexOf o < objs.length := List.indexOf_lt_length.mpr h
  rw [List.getD_eq_getElem _ _ hlt]
  exact List.getElem_indexOf hlt

theorem dupRen_mem (sh : SymHeap) (objs : List Int) (o : Int) (h : o ∈ objs) :
    dupRen sh objs o = sh.lastObjId + 1 + (objs.indexOf o : Int) := by
  unfold dupRen
  rw [if_pos h]

theorem dupRen_new (sh : SymHeap) (objs : List Int) (o : Int) (h : o ∈ objs) :
    sh.lastObjId < dupRen sh objs o ∧ dupRen sh objs o ≤ sh.lastObjId + objs.length ∧
    (dupRen sh objs o - sh.lastObjId - 1).toNat = objs.indexOf o := by
  rw [dupRen_mem sh objs o h]
  have hlt : objs.indexOf o < objs.length := List.indexOf_lt_length.mpr h
  refine ⟨by omega, by omega, ?_⟩
  have : sh.lastObjId + 1 + (objs.indexOf o : Int) - sh.lastObjId - 1 = (objs.indexOf o : Int) := by
    omega
  rw [this]
  exact Int.toNat_natCast _

theorem objDup_spec (sh : SymHeap) (fuel : Nat) (obj : Int) (acc : List Int)
    (hg : sh.gatherSubObjs fuel [obj] [] = .ok acc) :
    ∃ sh2, sh.objDup fuel obj = .ok (sh.lastObjId + 1, sh2) ∧ DupOf sh acc.reverse sh2 ∧
      sh2.neqDb = sh.neqDb := by
  unfold SymHeap.objDup
  rw [hg]
  refine ⟨_, rfl, ?_, rfl⟩
  have hlen : ((acc.reverse.length : Nat) : Int) = (acc.reverse.length : Int) := rfl
  have old : ∀ o : Int, o ≤ sh.lastObjId →
      ¬ (sh.lastObjId < o ∧ o ≤ sh.lastObjId + (acc.reverse.length : Int)) := by
    intro o ho h
    omega
  have oldv : ∀ v : Int, v ≤ sh.lastValId →
      ¬ (sh.lastValId < v ∧ v ≤ sh.lastValId + (acc.reverse.length : Int)) := by
    intro v hv h
    omega
  have new : ∀ o ∈ acc.reverse,
      (sh.lastObjId < dupRen sh acc.reverse o ∧
        dupRen sh acc.reverse o ≤ sh.lastObjId + (acc.reverse.length : Int)) ∧
      acc.reverse.getD (dupRen sh acc.reverse o - sh.lastObjId - 1).toNat OBJ_INVALID = o := by
    intro o ho
    obtain ⟨h1, h2, h3⟩ := dupRen_new sh acc.reverse o ho
    exact ⟨⟨h1, h2⟩, by rw [h3]; exact getD_indexOf _ _ ho _⟩
  have newv : ∀ o ∈ acc.reverse,
      (sh.lastValId < sh.lastValId + 1 + (acc.reverse.indexOf o : Int) ∧
        sh.lastValId + 1 + (acc.reverse.indexOf o : Int) ≤
          sh.lastValId + (acc.reverse.length : Int)) ∧
      acc.reverse.getD (sh.lastValId + 1 + (acc.reverse.indexOf o : Int) - sh.lastValId - 1).toNat
        OBJ_INVALID = o := by
    intro o ho
    have hlt : acc.reverse.indexOf o < acc.reverse.length := List.indexOf_lt_length.mpr ho
    refine ⟨⟨by omega, by omega⟩, ?_⟩
    have : sh.lastValId + 1 + (acc.reverse.indexOf o : Int) - sh.lastValId - 1 =
        (acc.reverse.indexOf o : Int) := by omega
    rw [this, Int.toNat_natCast]
    exact getD_indexOf _ _ ho _
  constructor
  · intro o ho
    simp only [if_neg (old o ho)]
  · intro o ho
    simp only [if_neg (old o ho)]
  · intro o i ho
    simp only [if_neg (old o ho)]
  · intro o ho
    simp only [if_neg (old o ho)]
  · intro o ho
    simp only [if_neg (old o ho)]
  · intro o ho
    simp only [if_neg (old o ho)]
  · intro o ho
    simp only [if_neg (old o ho)]
  · intro o ho
    simp only [if_pos (new o ho).1, (new o ho).2]
  · intro o ho
    simp only [if_pos (new o ho).1]
    rw [dupRen_mem sh _ o ho]
    omega
  · intro o ho
    simp only [if_pos (newv o ho).1]
    rw [dupRen_mem sh _ o ho]
    omega
  · intro o ho i
    simp only [if_pos (new o ho).1, (new o ho).2]
    rfl
  · intro o ho
    simp only [if_pos (new o ho).1, (new o ho).2]
  · intro o ho
    simp only [if_pos (new o ho).1, (new o ho).2]
  · intro o ho
    simp only [if_pos (new o ho).1, (new o ho).2]
  · intro o ho
    simp only [if_pos (new o ho).1, (new o ho).2]
  · intro v hv
    simp only [if_neg (oldv v hv)]
  · rfl
  · rfl
  · rfl

/-- What a successful run of `gatherSubObjs` returns: the accumulator with new objects in
front of it, among them the scheduled objects, and with every new object of a structure
type all its items. -/
theorem gatherSubObjs_ok (sh : SymHeap) (fuel : Nat) (todo acc r : List Int)
    (h : sh.gatherSubObjs fuel todo acc = .ok r) :
    (∃ l, r = l ++ acc) ∧ (∀ o ∈ todo, o ∈ r) ∧
    ∀ o ∈ r, o ∈ acc ∨ ∀ (t : cl_type) (k : Nat), sh.objType o = some t →
      t.code = cl_type_e.CL_TYPE_STRUCT → k < t.item_cnt.toNat → sh.subObj o (k : Int) ∈ r := by
  induction fuel generalizing todo acc with
  | zero =>
    cases todo with
    | nil =>
      simp only [SymHeap.gatherSubObjs, Except.ok.injEq] at h
      subst h
      exact ⟨⟨[], rfl⟩, fun o ho => (by cases ho), fun o ho => Or.inl ho⟩
    | cons x rest => simp [SymHeap.gatherSubObjs] at h
  | succ fuel ih =>
    cases todo with
    | nil =>
      simp only [SymHeap.gatherSubObjs, Except.ok.injEq] at h
      subst h
      exact ⟨⟨[], rfl⟩, fun o ho => (by cases ho), fun o ho => Or.inl ho⟩
    | cons x rest =>
      unfold SymHeap.gatherSubObjs at h
      have plain : sh.gatherSubObjs fuel rest (x :: acc) = .ok r →
          (¬ ∃ t, sh.objType x = some t ∧ t.code = cl_type_e.CL_TYPE_STRUCT) →
          (∃ l, r = l ++ acc) ∧ (∀ o ∈ x :: rest, o ∈ r) ∧
          ∀ o ∈ r, o ∈ acc ∨ ∀ (t : cl_type) (k : Nat), sh.objType o = some t →
            t.code = cl_type_e.CL_TYPE_STRUCT → k < t.item_cnt.toNat →
            sh.subObj o (k : Int) ∈ r := by
        intro h2 hns
        obtain ⟨⟨l, hl⟩, i2, i3⟩ := ih rest (x :: acc) h2
        have hx : x ∈ r := by
          rw [hl]
          simp
        refine ⟨⟨l ++ [x], by rw [hl]; simp⟩, ?_, ?_⟩
        · intro o ho
          rcases List.mem_cons.mp ho with rfl | ho
          · exact hx
          · exact i2 o ho
        · intro o ho
          rcases i3 o ho with hm | hc
          · rcases List.mem_cons.mp hm with rfl | hm
            · right
              intro t k ht hc
              exact absurd ⟨t, ht, hc⟩ hns
            · exact Or.inl hm
          · exact Or.inr hc
      cases hty : sh.objType x with
      | none =>
        rw [hty] at h
        exact plain h (by rintro ⟨t, ht, _⟩; rw [hty] at ht; cases ht)
      | some t =>
        rw [hty] at h
        simp only at h
        by_cases hc : t.code = cl_type_e.CL_TYPE_STRUCT
        · rw [if_pos hc] at h
          obtain ⟨⟨l, hl⟩, i2, i3⟩ := ih _ (x :: acc) h
          have hx : x ∈ r := by
            rw [hl]
            simp
          refine ⟨⟨l ++ [x], by rw [hl]; simp⟩, ?_, ?_⟩
          · intro o ho
            rcases List.mem_cons.mp ho with rfl | ho
            · exact hx
            · exact i2 o (List.mem_append_right _ ho)
          · intro o ho
            rcases i3 o ho with hm | hcl
            · rcases List.mem_cons.mp hm with rfl | hm
              · right
                intro t2 k ht2 _ hk
                rw [hty] at ht2
                cases ht2
                apply i2
                apply List.mem_append_left
                exact List.mem_map.mpr ⟨k, List.mem_range.mpr hk, rfl⟩
              · exact Or.inl hm
            · exact Or.inr hcl
        · rw [if_neg hc] at h
          exact plain h (by rintro ⟨t2, ht2, hc2⟩; rw [hty] at ht2; cases ht2; exact hc hc2)

/-- The tree that `gatherSubObjs` returns for a single object, in the order of `objDup`:
the object comes first, every object of a structure type has its items in the list. -/
theorem gatherSubObjs_tree (sh : SymHeap) (fuel : Nat) (obj : Int) (acc : List Int)
    (h : sh.gatherSubObjs fuel [obj] [] = .ok acc) :
    (∃ l, acc.reverse = obj :: l) ∧
    ∀ o ∈ acc.reverse, ∀ (t : cl_type) (k : Nat), sh.objType o = some t →
      t.code = cl_type_e.CL_TYPE_STRUCT → k < t.item_cnt.toNat →
      sh.subObj o (k : Int) ∈ acc.reverse := by
  obtain ⟨_, _, i3⟩ := gatherSubObjs_ok sh fuel [obj] [] acc h
  constructor
  · cases fuel with
    | zero => simp [SymHeap.gatherSubObjs] at h
    | succ fuel =>
      unfold SymHeap.gatherSubObjs at h
      have key : ∀ td, sh.gatherSubObjs fuel td [obj] = .ok acc → ∃ l, acc.reverse = obj :: l := by
        intro td h2
        obtain ⟨⟨l, hl⟩, _, _⟩ := gatherSubObjs_ok sh fuel td [obj] acc h2
        exact ⟨l.reverse, by rw [hl]; simp⟩
      cases hty : sh.objType obj with
      | none =>
        rw [hty] at h
        exact key _ h
      | some t =>
        rw [hty] at h
        simp only at h
        split_ifs at h
        · exact key _ h
        · exact key _ h
  · intro o ho t k ht hc hk
    rcases i3 o (List.mem_reverse.mp ho) with hm | hcl
    · cases hm
    · exact List.mem_reverse.mpr (hcl t k ht hc hk)

theorem dupRen_head (sh : SymHeap) (obj : Int) (l : List Int) :
    dupRen sh (obj :: l) obj = sh.lastObjId + 1 := by
  unfold dupRen
  rw [if_pos (List.mem_cons_self _ _)]
  simp

theorem dupRen_inj (sh : SymHeap) (objs : List Int) (a b : Int) (ha : a ∈ objs) (hb : b ∈ objs)
    (h : dupRen sh objs a = dupRen sh objs b) : a = b := by
  rw [dupRen_mem sh objs a ha, dupRen_mem sh objs b hb] at h
  have h2 : objs.indexOf a = objs.indexOf b := by omega
  rw [← getD_indexOf objs a ha 0, h2, getD_indexOf objs b hb 0]

/-- The selector of an object of `sh` leads to the same object after `objDup`. -/
theorem subObjByChain_dup_old (sh sh2 : SymHeap) (objs : List Int) (hD : DupOf sh objs sh2)
    (hids : ∀ o i, o ≤ sh.lastObjId → sh.subObj o i ≤ sh.lastObjId)
    (o : Int) (ho : o ≤ sh.lastObjId) (ic : TFieldIdxChain) :
    subObjByChain sh2 o ic = subObjByChain sh o ic ∧ subObjByChain sh o ic ≤ sh.lastObjId := by
  induction ic generalizing o with
  | nil => exact ⟨rfl, ho⟩
  | cons i rest ih =>
    unfold subObjByChain
    rw [hD.subObj_old o i ho]
    simp only
    split_ifs with hinv
    · exact ⟨rfl, hids o i ho⟩
    · exact ih _ (hids o i ho)

/-- The selector of a duplicate leads to the duplicate of the object that the selector of
the original leads to. -/
theorem subObjByChain_dup_new (sh sh2 : SymHeap) (objs : List Int) (hD : DupOf sh objs sh2)
    (h0 : 0 ≤ sh.lastObjId)
    (hcl : ∀ o ∈ objs, ∀ (t : cl_type) (k : Nat), sh.objType o = some t →
      t.code = cl_type_e.CL_TYPE_STRUCT → k < t.item_cnt.toNat → sh.subObj o (k : Int) ∈ objs)
    (c : Int) (hc : c ∈ objs) (ic : TFieldIdxChain) (hv : ValidChain sh c ic) :
    subObjByChain sh2 (dupRen sh objs c) ic = dupRen sh objs (subObjByChain sh c ic) ∧
      subObjByChain sh c ic ∈ objs := by
  induction ic generalizing c with
  | nil => exact ⟨rfl, hc⟩
  | cons i rest ih =>
    obtain ⟨⟨t, ht, hcode, hi0, hik⟩, hne, hrest⟩ := hv
    have hsub : sh.subObj c i ∈ objs := by
      have := hcl c hc t i.toNat ht hcode hik
      rwa [Int.toNat_of_nonneg hi0] at this
    unfold subObjByChain
    rw [hD.subObj_new c hc i]
    simp only
    have hn2 : dupRen sh objs (sh.subObj c i) ≠ OBJ_INVALID := by
      rw [dupRen_mem sh objs _ hsub]
      simp only [OBJ_INVALID]
      omega
    rw [if_neg hn2, if_neg hne]
    exact ih _ hsub hrest

theorem DupOf_delNeq (sh : SymHeap) (a b : Int) (objs : List Int) (sh2 : SymHeap)
    (h : DupOf (sh.delNeq a b) objs sh2) : DupOf sh objs sh2 :=
  { valueOf_old := h.valueOf_old
    placedAt_old := h.placedAt_old
    subObj_old := h.subObj_old
    objType_old := h.objType_old
    objKind_old := h.objKind_old
    objBinderField_old := h.objBinderField_old
    objPeerField_old := h.objPeerField_old
    valueOf_new := h.valueOf_new
    placedAt_new := h.placedAt_new
    pointsTo_new := h.pointsTo_new
    subObj_new := h.subObj_new
    objType_new := h.objType_new
    objKind_new := h.objKind_new
    objBinderField_new := h.objBinderField_new
    objPeerField_new := h.objPeerField_new
    pointsTo_old := h.pointsTo_old
    roots := h.roots
    lastObjId := h.lastObjId
    lastValId := h.lastValId }

/-- The first two steps of `concretizeObj` on a segment without a self loop: the heap that
`spliceOutSegmentIfNeeded` leaves is the heap itself, less the proof of non-emptiness if
there was one, and `objDup` duplicates the tree of the object. -/
theorem dup_after_splice (sh : SymHeap) (obj ao : Int) (todo : TSymHeapList)
    (size : Int → Nat) (fuel : Nat) (hsz : sh.SubObjsBounded size) (hd : ∀ o, size o < fuel)
    (hne : sh.proveEq (sh.placedAt obj)
      (sh.valueOf (subObjByChain sh ao (sh.objBinderField ao))) ≠ some true) :
    ∃ sh1 todo1 acc sh2, spliceOutSegmentIfNeeded fuel sh obj ao todo = .ok (sh1, todo1) ∧
      sh.gatherSubObjs fuel [obj] [] = .ok acc ∧
      sh1.objDup fuel obj = .ok (sh.lastObjId + 1, sh2) ∧ DupOf sh acc.reverse sh2 ∧
      ((sh.proveEq (sh.placedAt obj)
          (sh.valueOf (subObjByChain sh ao (sh.objBinderField ao))) = some false ∧
        todo1 = todo ∧
        sh2.neqDb = (sh.delNeq (sh.placedAt obj)
          (sh.valueOf (subObjByChain sh ao (sh.objBinderField ao)))).neqDb) ∨
       (sh.proveEq (sh.placedAt obj)
          (sh.valueOf (subObjByChain sh ao (sh.objBinderField ao))) = none ∧
        (∃ h, todo1 = todo ++ [h]) ∧ sh2.neqDb = sh.neqDb)) := by
  obtain ⟨_, c2, c3⟩ := splice_cases sh obj ao todo size fuel hsz hd
  obtain ⟨acc, hg, _⟩ := gatherSubObjs_total sh size hsz fuel obj (hd obj)
  cases hp : sh.proveEq (sh.placedAt obj)
      (sh.valueOf (subObjByChain sh ao (sh.objBinderField ao))) with
  | none =>
    obtain ⟨h, hsp, _⟩ := c3 hp
    obtain ⟨sh2, hdup, hD, hn⟩ := objDup_spec sh fuel obj acc hg
    exact ⟨sh, _, acc, sh2, hsp, hg, hdup, hD, Or.inr ⟨rfl, ⟨h, rfl⟩, hn⟩⟩
  | some b =>
    cases b with
    | true => exact absurd hp hne
    | false =>
      have hg2 : (sh.delNeq (sh.placedAt obj)
          (sh.valueOf (subObjByChain sh ao (sh.objBinderField ao)))).gatherSubObjs fuel [obj] []
          = .ok acc := by
        exact (gatherSubObjs_congr sh (sh.delNeq _ _) (fun _ => rfl) (fun _ _ => rfl) fuel
          [obj] []).trans hg
      obtain ⟨sh2, hdup, hD, hn⟩ := objDup_spec _ fuel obj acc hg2
      exact ⟨_, todo, acc, sh2, c2 hp, hg, hdup, DupOf_delNeq sh _ _ _ sh2 hD,
        Or.inl ⟨rfl, rfl, hn⟩⟩

theorem subObjByChain_objSetValue (sh : SymHeap) (o v x : Int) (ic : TFieldIdxChain) :
    subObjByChain (sh.objSetValue o v) x ic = subObjByChain sh x ic :=
  subObjByChain_congr sh (sh.objSetValue o v) (fun _ _ => rfl) x ic

theorem subObjByChain_objConcretize (sh : SymHeap) (o x : Int) (ic : TFieldIdxChain) :
    subObjByChain (sh.objConcretize o) x ic = subObjByChain sh x ic :=
  subObjByChain_congr sh (sh.objConcretize o) (fun _ _ => rfl) x ic

theorem objSetValue_objPeerField (sh : SymHeap) (o v x : Int) :
    (sh.objSetValue o v).objPeerField x = sh.objPeerField x := rfl

theorem objSetValue_objBinderField (sh : SymHeap) (o v x : Int) :
    (sh.objSetValue o v).objBinderField x = sh.objBinderField x := rfl

theorem objSetValue_placedAt (sh : SymHeap) (o v x : Int) :
    (sh.objSetValue o v).placedAt x = sh.placedAt x := rfl

theorem objConcretize_placedAt (sh : SymHeap) (o x : Int) :
    (sh.objConcretize o).placedAt x = sh.placedAt x := rfl

theorem objConcretize_objBinderField (sh : SymHeap) (o x : Int) (h : x ≠ o) :
    (sh.objConcretize o).objBinderField x = sh.objBinderField x := by
  show (if x = o then [] else sh.objBinderField x) = _
  rw [if_neg h]

theorem concretizeObj_sls (fuel : Nat) (sh : SymHeap) (obj : Int) (todo todo1 : TSymHeapList)
    (sh1 sh2 : SymHeap) (d : Int) (hk : sh.objKind obj = EObjKind.OK_SLS)
    (hsp : spliceOutSegmentIfNeeded fuel sh obj obj todo = .ok (sh1, todo1))
    (hdup : sh1.objDup fuel obj = .ok (d, sh2)) :
    concretizeObj fuel sh obj todo =
      .ok ((sh2.objConcretize obj).objSetValue
        (subObjByChain sh2 obj (sh2.objBinderField obj)) (sh2.placedAt d), todo1) := by
  unfold concretizeObj
  simp only [hk, hsp, hdup]
  rfl

theorem concretizeObj_dls (fuel : Nat) (sh : SymHeap) (obj ao : Int)
    (todo todo1 : TSymHeapList) (sh1 sh2 : SymHeap) (d : Int)
    (hk : sh.objKind obj = EObjKind.OK_DLS)
    (hskip : skipObj sh obj (sh.objPeerField obj) = .ok ao)
    (hsp : spliceOutSegmentIfNeeded fuel sh obj ao todo = .ok (sh1, todo1))
    (hdup : sh1.objDup fuel obj = .ok (d, sh2)) (hdo : d ≠ obj) :
    concretizeObj fuel sh obj todo =
      .ok ((((sh2.objSetValue (subObjByChain sh2 ao (sh2.objPeerField ao))
            (sh2.placedAt d)).objConcretize obj).objSetValue
          (subObjByChain sh2 obj (sh2.objPeerField obj)) (sh2.placedAt d)).objSetValue
        (subObjByChain sh2 d (sh2.objBinderField d)) (sh2.placedAt obj), todo1) := by
  unfold concretizeObj
  simp only [hk, hskip, hsp, hdup, if_true, reduceCtorEq, if_false,
    subObjByChain_objSetValue, subObjByChain_objConcretize, objSetValue_objPeerField,
    objSetValue_objBinderField, objSetValue_placedAt, objConcretize_placedAt,
    objConcretize_objBinderField _ _ _ hdo]

/-- What `objDup` yields for the object itself, the first object of the tree. -/
theorem dup_root (sh sh2 : SymHeap) (obj : Int) (l : List Int)
    (hD : DupOf sh (obj :: l) sh2) :
    sh2.placedAt (sh.lastObjId + 1) = sh.lastValId + 1 ∧
    sh2.pointsTo (sh.lastValId + 1) = sh.lastObjId + 1 ∧
    sh2.objKind (sh.lastObjId + 1) = sh.objKind obj ∧
    sh2.objBinderField (sh.lastObjId + 1) = sh.objBinderField obj ∧
    sh2.objPeerField (sh.lastObjId + 1) = sh.objPeerField obj := by
  have hm : obj ∈ obj :: l := List.mem_cons_self _ _
  have hi : ((obj :: l).indexOf obj : Int) = 0 := by simp
  have e1 := hD.placedAt_new obj hm
  have e2 := hD.pointsTo_new obj hm
  have e3 := hD.objKind_new obj hm
  have e4 := hD.objBinderField_new obj hm
  have e5 := hD.objPeerField_new obj hm
  rw [dupRen_head] at e1 e2 e3 e4 e5
  rw [hi] at e1 e2
  simp only [add_zero] at e1 e2
  exact ⟨e1, e2, e3, e4, e5⟩


/-- C21: the unrolled variant.  Let `obj` be an SLS or a DLS (with the far end `ao`) without
a self loop, in a heap whose objects have identifiers up to `lastObjId` and whose trees of
sub-objects are bounded, and let the selector of the next pointer of `obj` (`unrollField`:
the binder field of an SLS, the peer field of a DLS) lead through items of structures;
for a DLS let the binder field do so too and be another field.  Then `concretizeObj`
returns a heap in which `obj` is concrete, the next pointer field of `obj` holds the
address of the new object `dup = lastObjId + 1` (a new address, which points to `dup`),
`dup` has the former kind and binding of `obj` and its next pointer field holds the former
next value of `obj`, and every object of the former heap other than the next pointer
field of `obj` (and, for a DLS, the peer pointer field of the far end) stores the value
that it stored. -/
theorem concretizeObj_unrolled (sh : SymHeap) (obj ao : Int) (todo : TSymHeapList)
    (size : Int → Nat) (fuel : Nat) (hsz : sh.SubObjsBounded size) (hd : ∀ o, size o < fuel)
    (hao : (sh.objKind obj = EObjKind.OK_SLS ∧ ao = obj) ∨
      (sh.objKind obj = EObjKind.OK_DLS ∧ skipObj sh obj (sh.objPeerField obj) = .ok ao))
    (hne : sh.proveEq (sh.placedAt obj)
      (sh.valueOf (subObjByChain sh ao (sh.objBinderField ao))) ≠ some true)
    (h0 : 0 ≤ sh.lastObjId) (hobj : obj ≤ sh.lastObjId) (haoid : ao ≤ sh.lastObjId)
    (hids : ∀ o i, o ≤ sh.lastObjId → sh.subObj o i ≤ sh.lastObjId)
    (hnext : ValidChain sh obj (unrollField sh obj))
    (hdls : sh.objKind obj = EObjKind.OK_DLS →
      ValidChain sh obj (sh.objBinderField obj) ∧
      subObjByChain sh obj (sh.objBinderField obj) ≠
        subObjByChain sh obj (sh.objPeerField obj)) :
    ∃ sh2 todo2, concretizeObj fuel sh obj todo = .ok (sh2, todo2) ∧
      sh2.objKind obj = EObjKind.OK_CONCRETE ∧
      sh2.valueOf (subObjByChain sh obj (unrollField sh obj)) =
        sh2.placedAt (sh.lastObjId + 1) ∧
      sh2.pointsTo (sh2.placedAt (sh.lastObjId + 1)) = sh.lastObjId + 1 ∧
      sh.lastValId < sh2.placedAt (sh.lastObjId + 1) ∧
      sh2.objKind (sh.lastObjId + 1) = sh.objKind obj ∧
      sh2.objBinderField (sh.lastObjId + 1) = sh.objBinderField obj ∧
      sh2.objPeerField (sh.lastObjId + 1) = sh.objPeerField obj ∧
      sh2.valueOf (subObjByChain sh2 (sh.lastObjId + 1) (unrollField sh obj)) =
        sh.valueOf (subObjByChain sh obj (unrollField sh obj)) ∧
      ∀ o, o ≤ sh.lastObjId → o ≠ subObjByChain sh obj (unrollField sh obj) →
        (sh.objKind obj = EObjKind.OK_DLS → o ≠ subObjByChain sh ao (sh.objPeerField ao)) →
        sh2.valueOf o = sh.valueOf o := by
  obtain ⟨sh1, todo1, acc, shd, hsp, hg, hdup, hD, _⟩ :=
    dup_after_splice sh obj ao todo size fuel hsz hd hne
  obtain ⟨⟨l, hl⟩, hcl⟩ := gatherSubObjs_tree sh fuel obj acc hg
  rw [hl] at hD hcl
  have hm : obj ∈ obj :: l := List.mem_cons_self _ _
  obtain ⟨r1, r2, r3, r4, r5⟩ := dup_root sh shd obj l hD
  have hdo : sh.lastObjId + 1 ≠ obj := by omega
  -- the next pointer field of the object and of the duplicate
  obtain ⟨p1, p2⟩ := subObjByChain_dup_old sh shd _ hD hids obj hobj (unrollField sh obj)
  obtain ⟨q1, q2⟩ := subObjByChain_dup_new sh shd _ hD h0 hcl obj hm (unrollField sh obj) hnext
  rw [dupRen_head] at q1
  obtain ⟨n1, _, _⟩ := dupRen_new sh _ _ q2
  have hvn := hD.valueOf_new _ q2
  rcases hao with ⟨hk, rfl⟩ | ⟨hk, hskip⟩
  · -- SLS
    have hu : unrollField sh ao = sh.objBinderField ao := by
      unfold unrollField
      rw [hk, if_pos rfl]
    rw [hu] at p1 p2 q1 q2 n1 hvn ⊢
    have hres := concretizeObj_sls fuel sh ao todo todo1 sh1 shd _ hk hsp hdup
    rw [hD.objBinderField_old ao hobj, p1] at hres
    refine ⟨_, todo1, hres, ?_, ?_, ?_, ?_, ?_, ?_, ?_, ?_, ?_⟩
    · show (if ao = ao then EObjKind.OK_CONCRETE else _) = _
      rw [if_pos rfl]
    · rw [objSetValue_valueOf, if_pos rfl]
      rfl
    · show shd.pointsTo (shd.placedAt (sh.lastObjId + 1)) = _
      rw [r1, r2]
    · show sh.lastValId < shd.placedAt (sh.lastObjId + 1)
      rw [r1]
      omega
    · show (if sh.lastObjId + 1 = ao then EObjKind.OK_CONCRETE else shd.objKind _) = _
      rw [if_neg hdo, r3]
    · show (if sh.lastObjId + 1 = ao then [] else shd.objBinderField _) = _
      rw [if_neg hdo, r4]
    · show (if sh.lastObjId + 1 = ao then [] else shd.objPeerField _) = _
      rw [if_neg hdo, r5]
    · rw [subObjByChain_objSetValue, subObjByChain_objConcretize, q1, objSetValue_valueOf,
        if_neg (by omega)]
      exact hvn
    · intro o ho hop _
      rw [objSetValue_valueOf, if_neg hop]
      exact hD.valueOf_old o ho
  · -- DLS
    have hu : unrollField sh obj = sh.objPeerField obj := by
      unfold unrollField
      rw [hk, if_neg (by decide)]
    rw [hu] at p1 p2 q1 q2 n1 hvn ⊢
    obtain ⟨hvb, hbp⟩ := hdls hk
    obtain ⟨a1, a2⟩ := subObjByChain_dup_old sh shd _ hD hids ao haoid (sh.objPeerField ao)
    obtain ⟨b1, b2⟩ := subObjByChain_dup_new sh shd _ hD h0 hcl obj hm (sh.objBinderField obj) hvb
    rw [dupRen_head] at b1
    obtain ⟨m1, _, _⟩ := dupRen_new sh _ _ b2
    have hres := concretizeObj_dls fuel sh obj ao todo todo1 sh1 shd _ hk hskip hsp hdup hdo
    rw [hD.objPeerField_old ao haoid, a1, hD.objPeerField_old obj hobj, p1, r4, b1,
      hD.placedAt_old obj hobj] at hres
    have hinj : dupRen sh (obj :: l) (subObjByChain sh obj (sh.objPeerField obj)) ≠
        dupRen sh (obj :: l) (subObjByChain sh obj (sh.objBinderField obj)) := by
      intro h
      exact hbp (dupRen_inj sh _ _ _ q2 b2 h).symm
    refine ⟨_, todo1, hres, ?_, ?_, ?_, ?_, ?_, ?_, ?_, ?_, ?_⟩
    · show (if obj = obj then EObjKind.OK_CONCRETE else _) = _
      rw [if_pos rfl]
    · rw [objSetValue_valueOf, if_neg (by omega), objSetValue_valueOf, if_pos rfl]
      rfl
    · show shd.pointsTo (shd.placedAt (sh.lastObjId + 1)) = _
      rw [r1, r2]
    · show sh.lastValId < shd.placedAt (sh.lastObjId + 1)
      rw [r1]
      omega
    · show (if sh.lastObjId + 1 = obj then EObjKind.OK_CONCRETE else shd.objKind _) = _
      rw [if_neg hdo, r3]
    · show (if sh.lastObjId + 1 = obj then [] else shd.objBinderField _) = _
      rw [if_neg hdo, r4]
    · show (if sh.lastObjId + 1 = obj then [] else shd.objPeerField _) = _
      rw [if_neg hdo, r5]
    · rw [subObjByChain_objSetValue, subObjByChain_objSetValue, subObjByChain_objConcretize,
        subObjByChain_objSetValue, q1, objSetValue_valueOf, if_neg hinj, objSetValue_valueOf,
        if_neg (by omega)]
      show (shd.objSetValue _ _).valueOf _ = _
      rw [objSetValue_valueOf, if_neg (by omega)]
      exact hvn
    · intro o ho hop hoq
      rw [objSetValue_valueOf, if_neg (by omega), objSetValue_valueOf, if_neg hop]
      show (shd.objSetValue _ _).valueOf _ = _
      rw [objSetValue_valueOf, if_neg (hoq hk)]
      exact hD.valueOf_old o ho

theorem cellHeap_ids (o i : Int) (_h : o ≤ cellHeap.lastObjId) :
    cellHeap.subObj o i ≤ cellHeap.lastObjId := by
  simp only [cellHeap, OBJ_INVALID]
  split_ifs <;> omega

theorem concretizeObj_unrolled_witness :
    ∃ sh2 todo2, concretizeObj 4 cellHeap 20 [] = .ok (sh2, todo2) ∧
      sh2.objKind 20 = EObjKind.OK_CONCRETE ∧
      sh2.valueOf (subObjByChain cellHeap 20 (unrollField cellHeap 20)) =
        sh2.placedAt (cellHeap.lastObjId + 1) ∧
      sh2.pointsTo (sh2.placedAt (cellHeap.lastObjId + 1)) = cellHeap.lastObjId + 1 ∧
      cellHeap.lastValId < sh2.placedAt (cellHeap.lastObjId + 1) ∧
      sh2.objKind (cellHeap.lastObjId + 1) = cellHeap.objKind 20 ∧
      sh2.objBinderField (cellHeap.lastObjId + 1) = cellHeap.objBinderField 20 ∧
      sh2.objPeerField (cellHeap.lastObjId + 1) = cellHeap.objPeerField 20 ∧
      sh2.valueOf (subObjByChain sh2 (cellHeap.lastObjId + 1) (unrollField cellHeap 20)) =
        cellHeap.valueOf (subObjByChain cellHeap 20 (unrollField cellHeap 20)) ∧
      ∀ o, o ≤ cellHeap.lastObjId → o ≠ subObjByChain cellHeap 20 (unrollField cellHeap 20) →
        (cellHeap.objKind 20 = EObjKind.OK_DLS →
          o ≠ subObjByChain cellHeap 20 (cellHeap.objPeerField 20)) →
        sh2.valueOf o = cellHeap.valueOf o :=
  concretizeObj_unrolled cellHeap 20 20 [] _ 4 cellHeap_subObjs cellHeap_size
    (Or.inl ⟨by decide, rfl⟩) (by decide) (by decide) (by decide) (by decide) cellHeap_ids
    ⟨⟨cellType, rfl, rfl, by decide, by decide⟩, by decide, trivial⟩
    (fun h => absurd h (by decide))


/-- C22: the back-link of a DLS after unrolling.  Let `obj` be an end of a DLS without a
self loop whose peer field points to the other end `ao`, in a heap whose objects have
identifiers up to `lastObjId` and whose trees of sub-objects are bounded, and let the
binder field of `obj` lead through items of structures.  Then `concretizeObj` returns a
heap in which the binder field of the duplicate `dup = lastObjId + 1` holds the address
of `obj`, the former peer field of `obj` (its next pointer) holds the address of `dup`,
which points to `dup`, and the peer field of the far end `ao` holds the address of `dup`
too. -/
theorem concretizeObj_back_link (sh : SymHeap) (obj ao : Int) (todo : TSymHeapList)
    (size : Int → Nat) (fuel : Nat) (hsz : sh.SubObjsBounded size) (hd : ∀ o, size o < fuel)
    (hk : sh.objKind obj = EObjKind.OK_DLS)
    (hskip : skipObj sh obj (sh.objPeerField obj) = .ok ao)
    (hne : sh.proveEq (sh.placedAt obj)
      (sh.valueOf (subObjByChain sh ao (sh.objBinderField ao))) ≠ some true)
    (h0 : 0 ≤ sh.lastObjId) (hobj : obj ≤ sh.lastObjId) (haoid : ao ≤ sh.lastObjId)
    (hao : ao ≠ obj)
    (hids : ∀ o i, o ≤ sh.lastObjId → sh.subObj o i ≤ sh.lastObjId)
    (hvb : ValidChain sh obj (sh.objBinderField obj)) :
    ∃ sh2 todo2, concretizeObj fuel sh obj todo = .ok (sh2, todo2) ∧
      sh2.valueOf (subObjByChain sh2 (sh.lastObjId + 1)
        (sh2.objBinderField (sh.lastObjId + 1))) = sh2.placedAt obj ∧
      sh2.placedAt obj = sh.placedAt obj ∧
      sh2.valueOf (subObjByChain sh2 obj (sh.objPeerField obj)) =
        sh2.placedAt (sh.lastObjId + 1) ∧
      sh2.pointsTo (sh2.placedAt (sh.lastObjId + 1)) = sh.lastObjId + 1 ∧
      sh2.valueOf (subObjByChain sh2 ao (sh2.objPeerField ao)) =
        sh2.placedAt (sh.lastObjId + 1) := by
  obtain ⟨sh1, todo1, acc, shd, hsp, hg, hdup, hD, _⟩ :=
    dup_after_splice sh obj ao todo size fuel hsz hd hne
  obtain ⟨⟨l, hl⟩, hcl⟩ := gatherSubObjs_tree sh fuel obj acc hg
  rw [hl] at hD hcl
  have hm : obj ∈ obj :: l := List.mem_cons_self _ _
  obtain ⟨r1, r2, r3, r4, r5⟩ := dup_root sh shd obj l hD
  have hdo : sh.lastObjId + 1 ≠ obj := by omega
  obtain ⟨p1, p2⟩ := subObjByChain_dup_old sh shd _ hD hids obj hobj (sh.objPeerField obj)
  obtain ⟨a1, a2⟩ := subObjByChain_dup_old sh shd _ hD hids ao haoid (sh.objPeerField ao)
  obtain ⟨b1, b2⟩ := subObjByChain_dup_new sh shd _ hD h0 hcl obj hm (sh.objBinderField obj) hvb
  rw [dupRen_head] at b1
  obtain ⟨m1, _, _⟩ := dupRen_new sh _ _ b2
  have hres := concretizeObj_dls fuel sh obj ao todo todo1 sh1 shd _ hk hskip hsp hdup hdo
  rw [hD.objPeerField_old ao haoid, a1, hD.objPeerField_old obj hobj, p1, r4, b1,
    hD.placedAt_old obj hobj] at hres
  refine ⟨_, todo1, hres, ?_, ?_, ?_, ?_, ?_⟩
  · rw [subObjByChain_objSetValue, subObjByChain_objSetValue, subObjByChain_objConcretize,
      subObjByChain_objSetValue]
    rw [show ∀ (s : SymHeap) (a b x : Int),
        (s.objSetValue a b).objBinderField x = s.objBinderField x from fun _ _ _ _ => rfl,
      show ∀ (s : SymHeap) (a b x : Int),
        (s.objSetValue a b).objBinderField x = s.objBinderField x from fun _ _ _ _ => rfl,
      objConcretize_objBinderField _ _ _ hdo,
      show ∀ (s : SymHeap) (a b x : Int),
        (s.objSetValue a b).objBinderField x = s.objBinderField x from fun _ _ _ _ => rfl,
      r4, b1, objSetValue_valueOf, if_pos rfl]
    exact (hD.placedAt_old obj hobj).symm
  · exact hD.placedAt_old obj hobj
  · rw [subObjByChain_objSetValue, subObjByChain_objSetValue, subObjByChain_objConcretize,
      subObjByChain_objSetValue, p1, objSetValue_valueOf, if_neg (by omega), objSetValue_valueOf,
      if_pos rfl]
    rfl
  · show shd.pointsTo (shd.placedAt (sh.lastObjId + 1)) = _
    rw [r1, r2]
  · rw [subObjByChain_objSetValue, subObjByChain_objSetValue, subObjByChain_objConcretize,
      subObjByChain_objSetValue]
    rw [show ∀ (s : SymHeap) (a b x : Int),
        (s.objSetValue a b).objPeerField x = s.objPeerField x from fun _ _ _ _ => rfl,
      show ∀ (s : SymHeap) (a b x : Int),
        (s.objSetValue a b).objPeerField x = s.objPeerField x from fun _ _ _ _ => rfl]
    rw [show (SymHeap.objConcretize (shd.objSetValue (subObjByChain sh ao (sh.objPeerField ao))
          (shd.placedAt (sh.lastObjId + 1))) obj).objPeerField ao = shd.objPeerField ao from by
        show (if ao = obj then [] else shd.objPeerField ao) = _
        rw [if_neg hao],
      hD.objPeerField_old ao haoid, a1, objSetValue_valueOf, if_neg (by omega),
      objSetValue_valueOf]
    split_ifs with hq
    · rfl
    · show (shd.objSetValue _ _).valueOf _ = _
      rw [objSetValue_valueOf, if_pos rfl]
      rfl

theorem dlsHeap_ids (o i : Int) (_h : o ≤ dlsHeap.lastObjId) :
    dlsHeap.subObj o i ≤ dlsHeap.lastObjId := by
  simp only [dlsHeap, OBJ_INVALID]
  split_ifs <;> omega

theorem concretizeObj_back_link_witness :
    ∃ sh2 todo2, concretizeObj 3 dlsHeap 20 [] = .ok (sh2, todo2) ∧
      sh2.valueOf (subObjByChain sh2 (dlsHeap.lastObjId + 1)
        (sh2.objBinderField (dlsHeap.lastObjId + 1))) = sh2.placedAt 20 ∧
      sh2.placedAt 20 = dlsHeap.placedAt 20 ∧
      sh2.valueOf (subObjByChain sh2 20 (dlsHeap.objPeerField 20)) =
        sh2.placedAt (dlsHeap.lastObjId + 1) ∧
      sh2.pointsTo (sh2.placedAt (dlsHeap.lastObjId + 1)) = dlsHeap.lastObjId + 1 ∧
      sh2.valueOf (subObjByChain sh2 30 (sh2.objPeerField 30)) =
        sh2.placedAt (dlsHeap.lastObjId + 1) :=
  concretizeObj_back_link dlsHeap 20 30 [] _ 3 dlsHeap_subObjs dlsHeap_size (by decide)
    dlsHeap_skip_peer (by decide) (by decide) (by decide) (by decide) (by decide) dlsHeap_ids
    ⟨⟨dnodeType, rfl, rfl, by decide, by decide⟩, by decide, trivial⟩


theorem sortValues_fst_or (a b : Int) :
    ((sortValues a b).1 = a ∧ (sortValues a b).2 = b) ∨
    ((sortValues a b).1 = b ∧ (sortValues a b).2 = a) := by
  unfold sortValues
  split_ifs
  · exact Or.inr ⟨rfl, rfl⟩
  · exact Or.inl ⟨rfl, rfl⟩

/-- C23: the proof of non-emptiness is consumed.  Let `obj` be an SLS or a DLS (with the
far end `ao`) whose address is proven different from the value of the binder field of
`ao` (its next value), in a heap with bounded trees of sub-objects whose Neq predicates
relate values with identifiers up to `lastValId`.  Then `concretizeObj` returns the list
`todo` as it was and a heap that no longer holds the predicate, so that the two values
are not proven different any more; the other predicates are those of the former heap;
the duplicate `dup = lastObjId + 1` has the former kind of `obj` and its address is not
proven different from any value: the remaining segment is possibly empty. -/
theorem concretizeObj_consumes_proof (sh : SymHeap) (obj ao : Int) (todo : TSymHeapList)
    (size : Int → Nat) (fuel : Nat) (hsz : sh.SubObjsBounded size) (hd : ∀ o, size o < fuel)
    (hao : (sh.objKind obj = EObjKind.OK_SLS ∧ ao = obj) ∨
      (sh.objKind obj = EObjKind.OK_DLS ∧ skipObj sh obj (sh.objPeerField obj) = .ok ao))
    (hobj : obj ≤ sh.lastObjId)
    (hneq : ∀ p ∈ sh.neqDb, p.1 ≤ sh.lastValId ∧ p.2 ≤ sh.lastValId)
    (hpd : sh.proveEq (sh.placedAt obj)
      (sh.valueOf (subObjByChain sh ao (sh.objBinderField ao))) = some false) :
    ∃ sh2, concretizeObj fuel sh obj todo = .ok (sh2, todo) ∧
      sortValues (sh.placedAt obj) (sh.valueOf (subObjByChain sh ao (sh.objBinderField ao)))
        ∉ sh2.neqDb ∧
      sh2.proveEq (sh.placedAt obj)
        (sh.valueOf (subObjByChain sh ao (sh.objBinderField ao))) = none ∧
      (∀ p, p ∈ sh2.neqDb ↔ p ∈ sh.neqDb ∧
        p ≠ sortValues (sh.placedAt obj)
          (sh.valueOf (subObjByChain sh ao (sh.objBinderField ao)))) ∧
      sh2.objKind (sh.lastObjId + 1) = sh.objKind obj ∧
      ∀ v, sh2.proveEq (sh2.placedAt (sh.lastObjId + 1)) v ≠ some false := by
  have hne : sh.proveEq (sh.placedAt obj)
      (sh.valueOf (subObjByChain sh ao (sh.objBinderField ao))) ≠ some true := by
    rw [hpd]
    exact fun h => by cases h
  obtain ⟨sh1, todo1, acc, shd, hsp, hg, hdup, hD, hcase⟩ :=
    dup_after_splice sh obj ao todo size fuel hsz hd hne
  obtain ⟨⟨l, hl⟩, _⟩ := gatherSubObjs_tree sh fuel obj acc hg
  rw [hl] at hD
  obtain ⟨r1, r2, r3, r4, r5⟩ := dup_root sh shd obj l hD
  have hdo : sh.lastObjId + 1 ≠ obj := by omega
  rcases hcase with ⟨_, htodo, hdb⟩ | ⟨hnone, _, _⟩
  swap
  · rw [hnone] at hpd
    cases hpd
  subst htodo
  have hab : sh.placedAt obj ≠ sh.valueOf (subObjByChain sh ao (sh.objBinderField ao)) := by
    intro h
    rw [(proveEq_true_iff sh _ _).mpr h] at hpd
    cases hpd
  have hmem : ∀ p, p ∈ shd.neqDb ↔ p ∈ sh.neqDb ∧
      p ≠ sortValues (sh.placedAt obj)
        (sh.valueOf (subObjByChain sh ao (sh.objBinderField ao))) := by
    intro p
    rw [hdb]
    show p ∈ sh.neqDb.filter _ ↔ _
    rw [List.mem_filter]
    simp only [ne_eq, decide_eq_true_eq]
  -- the final heap has the predicates of the heap after `objDup`
  have key : ∃ sh2, concretizeObj fuel sh obj todo1 = .ok (sh2, todo1) ∧
      sh2.neqDb = shd.neqDb ∧ sh2.placedAt (sh.lastObjId + 1) = sh.lastValId + 1 ∧
      sh2.objKind (sh.lastObjId + 1) = sh.objKind obj := by
    rcases hao with ⟨hk, rfl⟩ | ⟨hk, hskip⟩
    · refine ⟨_, concretizeObj_sls fuel sh ao todo1 todo1 sh1 shd _ hk hsp hdup, rfl, r1, ?_⟩
      show (if sh.lastObjId + 1 = ao then EObjKind.OK_CONCRETE else shd.objKind _) = _
      rw [if_neg hdo, r3]
    · refine ⟨_, concretizeObj_dls fuel sh obj ao todo1 todo1 sh1 shd _ hk hskip hsp hdup hdo,
        rfl, r1, ?_⟩
      show (if sh.lastObjId + 1 = obj then EObjKind.OK_CONCRETE else shd.objKind _) = _
      rw [if_neg hdo, r3]
  obtain ⟨sh2, hres, hn2, hp2, hk2⟩ := key
  refine ⟨sh2, hres, ?_, ?_, ?_, hk2, ?_⟩
  · rw [hn2, hmem]
    exact fun h => h.2 rfl
  · unfold SymHeap.proveEq
    rw [if_neg hab, if_neg]
    rw [hn2, hmem]
    exact fun h => h.2 rfl
  · intro p
    rw [hn2]
    exact hmem p
  · intro v
    unfold SymHeap.proveEq
    split_ifs with h1 h2
    · exact fun h => by cases h
    · exfalso
      rw [hn2, hmem] at h2
      have hb := hneq _ h2.1
      rw [hp2] at hb
      rcases sortValues_fst_or (sh.lastValId + 1) v with ⟨e, _⟩ | ⟨_, e⟩
      · rw [e] at hb
        omega
      · rw [e] at hb
        omega
    · exact fun h => by cases h

theorem concretizeObj_consumes_proof_witness :
    ∃ sh2, concretizeObj 4 cellHeap 20 [] = .ok (sh2, []) ∧
      sortValues (cellHeap.placedAt 20)
        (cellHeap.valueOf (subObjByChain cellHeap 20 (cellHeap.objBinderField 20)))
        ∉ sh2.neqDb ∧
      sh2.proveEq (cellHeap.placedAt 20)
        (cellHeap.valueOf (subObjByChain cellHeap 20 (cellHeap.objBinderField 20))) = none ∧
      (∀ p, p ∈ sh2.neqDb ↔ p ∈ cellHeap.neqDb ∧
        p ≠ sortValues (cellHeap.placedAt 20)
          (cellHeap.valueOf (subObjByChain cellHeap 20 (cellHeap.objBinderField 20)))) ∧
      sh2.objKind (cellHeap.lastObjId + 1) = cellHeap.objKind 20 ∧
      ∀ v, sh2.proveEq (sh2.placedAt (cellHeap.lastObjId + 1)) v ≠ some false :=
  concretizeObj_consumes_proof cellHeap 20 20 [] _ 4 cellHeap_subObjs cellHeap_size
    (Or.inl ⟨by decide, rfl⟩) (by decide) (by decide) (by decide)

/-! ## Termination of the abstraction -/

theorem AbsStep.same (sh : SymHeap) : AbsStep sh sh :=
  ⟨fun _ => rfl, fun _ _ => rfl, fun _ => Or.inl rfl, fun _ h => h, fun _ => Or.inl rfl,
    fun _ h => h, fun _ => rfl⟩

theorem AbsStep.comp {a b c : SymHeap} (h1 : AbsStep a b) (h2 : AbsStep b c) : AbsStep a c where
  objType := fun o => (h2.objType o).trans (h1.objType o)
  subObj := fun o i => (h2.subObj o i).trans (h1.subObj o i)
  placedAt := fun o => by
    rcases h2.placedAt o with h | h
    · rw [h]
      exact h1.placedAt o
    · exact Or.inr h
  objKind := fun o h => h1.objKind o (h2.objKind o h)
  pointsTo := fun v => by
    rcases h2.pointsTo v with h | h
    · rw [h]
      exact h1.pointsTo v
    · exact Or.inr h
  roots := fun o h => h1.roots o (h2.roots o h)
  cVar := fun o => (h2.cVar o).trans (h1.cVar o)

theorem AbsStep.of_frame {sh sh2 : SymHeap} (h : HeapFrame sh sh2) : AbsStep sh sh2 where
  objType := h.objType
  subObj := h.subObj
  placedAt := fun o => Or.inl (h.placedAt o)
  objKind := fun o hk => by rw [← h.objKind o]; exact hk
  pointsTo := fun v => Or.inl (h.pointsTo v)
  roots := fun o ho => by rw [← h.roots]; exact ho
  cVar := h.cVar

theorem AbsStep.setValue (sh : SymHeap) (o v : Int) : AbsStep sh (sh.objSetValue o v) :=
  ⟨fun _ => rfl, fun _ _ => rfl, fun _ => Or.inl rfl, fun _ h => h, fun _ => Or.inl rfl,
    fun _ h => h, fun _ => rfl⟩

theorem AbsStep.objAbstract (sh : SymHeap) (obj : Int) (kind : EObjKind)
    (a b : TFieldIdxChain) (hk : kind ≠ EObjKind.OK_CONCRETE) :
    AbsStep sh (sh.objAbstract obj kind a b) where
  objType := fun _ => rfl
  subObj := fun _ _ => rfl
  placedAt := fun _ => Or.inl rfl
  objKind := fun o h => by
    have h2 : (if o = obj then kind else sh.objKind o) = EObjKind.OK_CONCRETE := h
    split_ifs at h2
    · exact absurd h2 hk
    · exact h2
  pointsTo := fun _ => Or.inl rfl
  roots := fun _ h => h
  cVar := fun _ => rfl

theorem AbsStep.addNeq (sh sh2 : SymHeap) (a b : Int) (h : sh.addNeq a b = .ok sh2) :
    AbsStep sh sh2 := by
  unfold SymHeap.addNeq at h
  split_ifs at h
  · cases h
    exact AbsStep.same sh
  · cases h
    exact ⟨fun _ => rfl, fun _ _ => rfl, fun _ => Or.inl rfl, fun _ h => h, fun _ => Or.inl rfl,
      fun _ h => h, fun _ => rfl⟩

theorem addNeq_err (sh : SymHeap) (a b : Int) (e : Err) (h : sh.addNeq a b = .error e) :
    e = .CONTRADICTION := by
  unfold SymHeap.addNeq at h
  split_ifs at h
  cases h
  rfl

theorem AbsStep.subObjs {sh sh2 : SymHeap} (h : AbsStep sh sh2) (size : Int → Nat)
    (hsz : sh.SubObjsBounded size) : sh2.SubObjsBounded size :=
  SubObjsBounded_congr sh sh2 h.objType h.subObj size hsz

theorem AbsStep.inv {sh sh2 : SymHeap} (h : AbsStep sh sh2) (U : Finset Int)
    (size : Int → Nat) (hdel : OBJ_DELETED ∈ U) (hI : AbsInv U size sh) : AbsInv U size sh2 where
  subObjs := h.subObjs size hI.subObjs
  pointsTo := fun v => by
    rcases h.pointsTo v with e | e
    · rw [e]
      exact hI.pointsTo v
    · rw [e]
      exact hdel
  roots := fun o ho => hI.roots o (h.roots o ho)

theorem AbsStep.weight_le {sh sh2 : SymHeap} (h : AbsStep sh sh2) (o : Int) :
    absWeight sh2 o ≤ absWeight sh o := by
  unfold absWeight
  have h1 : (if 0 < sh2.placedAt o then 2 else 0) ≤ (if 0 < sh.placedAt o then 2 else 0) := by
    rcases h.placedAt o with e | e
    · rw [e]
    · rw [e]
      simp [VAL_INVALID]
  have h2 : (if sh2.objKind o = EObjKind.OK_CONCRETE then 1 else 0) ≤
      (if sh.objKind o = EObjKind.OK_CONCRETE then 1 else 0) := by
    by_cases hk : sh2.objKind o = EObjKind.OK_CONCRETE
    · rw [if_pos hk, if_pos (h.objKind o hk)]
    · rw [if_neg hk]
      exact Nat.zero_le _
  omega

theorem AbsStep.measure_le {sh sh2 : SymHeap} (h : AbsStep sh sh2) (U : Finset Int) :
    absMeasure U sh2 ≤ absMeasure U sh :=
  Finset.sum_le_sum fun o _ => h.weight_le o

theorem AbsStep.measure_lt {sh sh2 : SymHeap} (h : AbsStep sh sh2) (U : Finset Int) (o : Int)
    (ho : o ∈ U) (hlt : absWeight sh2 o < absWeight sh o) :
    absMeasure U sh2 < absMeasure U sh :=
  Finset.sum_lt_sum (fun x _ => h.weight_le x) ⟨o, ho, hlt⟩

theorem absMeasure_le (U : Finset Int) (sh : SymHeap) : absMeasure U sh ≤ 3 * U.card := by
  unfold absMeasure
  have : ∀ o ∈ U, absWeight sh o ≤ 3 := by
    intro o _
    unfold absWeight
    split_ifs <;> omega
  calc U.sum (fun o => absWeight sh o) ≤ U.sum (fun _ => 3) := Finset.sum_le_sum this
    _ = 3 * U.card := by rw [Finset.sum_const, smul_eq_mul, Nat.mul_comm]

/-- The weight of an object whose valid address becomes invalid decreases. -/
theorem weight_lt_of_destroyed {sh sh2 : SymHeap} (h : AbsStep sh sh2) (o : Int)
    (h1 : 0 < sh.placedAt o) (h2 : sh2.placedAt o = VAL_INVALID) :
    absWeight sh2 o < absWeight sh o := by
  unfold absWeight
  rw [h2, if_pos h1, if_neg (by simp [VAL_INVALID])]
  have h3 : (if sh2.objKind o = EObjKind.OK_CONCRETE then 1 else 0) ≤
      (if sh.objKind o = EObjKind.OK_CONCRETE then 1 else 0) := by
    by_cases hk : sh2.objKind o = EObjKind.OK_CONCRETE
    · rw [if_pos hk, if_pos (h.objKind o hk)]
    · rw [if_neg hk]
      exact Nat.zero_le _
  split_ifs at h3 ⊢ <;> omega

/-- The weight of a concrete object that ceases to be concrete decreases. -/
theorem weight_lt_of_abstracted {sh sh2 : SymHeap} (h : AbsStep sh sh2) (o : Int)
    (h1 : sh.objKind o = EObjKind.OK_CONCRETE) (h2 : sh2.objKind o ≠ EObjKind.OK_CONCRETE) :
    absWeight sh2 o < absWeight sh o := by
  unfold absWeight
  rw [if_pos h1, if_neg h2]
  have h3 : (if 0 < sh2.placedAt o then 2 else 0) ≤ (if 0 < sh.placedAt o then 2 else 0) := by
    rcases h.placedAt o with e | e
    · rw [e]
    · rw [e]
      simp [VAL_INVALID]
  omega

/-- What `objReplace` does to the heap, for the termination of the abstraction. -/
theorem objReplace_step (sh : SymHeap) (size : Int → Nat) (hsz : sh.SubObjsBounded size)
    (fuel : Nat) (hd : ∀ o, size o < fuel) (oldObj newObj : Int) :
    (∀ e, objReplace fuel sh oldObj newObj = .error e → e = .TRAP) ∧
    ∀ sh2, objReplace fuel sh oldObj newObj = .ok sh2 →
      AbsStep sh sh2 ∧ 0 < sh.placedAt oldObj ∧ sh2.placedAt oldObj = VAL_INVALID := by
  unfold objReplace
  by_cases h1 : OBJ_INVALID ≠ sh.objParent oldObj ∨ OBJ_INVALID ≠ sh.objParent newObj
  · rw [if_pos h1]
    exact ⟨fun e h => by cases h; rfl, fun sh2 h => by cases h⟩
  rw [if_neg h1]
  dsimp only
  by_cases h2 : sh.placedAt oldObj ≤ 0 ∨ sh.placedAt newObj ≤ 0
  · rw [if_pos h2]
    exact ⟨fun e h => by cases h; rfl, fun sh2 h => by cases h⟩
  rw [if_neg h2]
  · obtain ⟨r1, r2, r3, r4, r5, r6, r7, r8, _, r10⟩ :=
      valReplace_static sh (sh.placedAt oldObj) (sh.placedAt newObj)
    have hsz2 := SubObjsBounded_congr sh _ r1 r2 size hsz
    obtain ⟨objs, sh2, _, hdes, hmem, _, hpl, _, hpt1, hpt2, hroots, _, k1, _, _, k4, k5⟩ :=
      objDestroy_spec (sh.valReplace (sh.placedAt oldObj) (sh.placedAt newObj)) size hsz2
        (fun _ => True) (fun _ _ _ _ _ _ _ => trivial) fuel oldObj trivial (hd oldObj)
    rw [hdes]
    refine ⟨fun e h => (by cases h), ?_⟩
    intro sh3 h3
    cases h3
    refine ⟨⟨?_, ?_, ?_, ?_, ?_, ?_, ?_⟩, by omega, ?_⟩
    · intro o
      rw [k4, r1]
    · intro o i
      rw [k5, r2]
    · intro o
      rw [hpl, r6]
      split_ifs
      · exact Or.inr rfl
      · exact Or.inl rfl
    · intro o h
      rw [k1, r3] at h
      exact h
    · intro v
      by_cases hv : ∃ o ∈ objs, 0 < (sh.valReplace (sh.placedAt oldObj)
          (sh.placedAt newObj)).placedAt o ∧ v = (sh.valReplace (sh.placedAt oldObj)
          (sh.placedAt newObj)).placedAt o
      · exact Or.inr (hpt1 v hv)
      · left
        rw [hpt2 v hv, r7]
    · intro o ho
      rw [hroots, r8] at ho
      exact (List.mem_filter.mp ho).1
    · intro o
      obtain ⟨_, _, _, _, _, _, _, _, s9⟩ := destroyAll_static objs
        (sh.valReplace (sh.placedAt oldObj) (sh.placedAt newObj))
      have : sh2.cVar o = (objs.foldl SymHeap.objDestroyOne
          (sh.valReplace (sh.placedAt oldObj) (sh.placedAt newObj))).cVar o := by
        have hd2 := hdes
        unfold SymHeap.objDestroy at hd2
        cases hg : (sh.valReplace (sh.placedAt oldObj) (sh.placedAt newObj)).gatherSubObjs fuel
            [oldObj] [] with
        | error e =>
          rw [hg] at hd2
          cases hd2
        | ok objs2 =>
          rw [hg] at hd2
          simp only [Except.ok.injEq] at hd2
          rw [← hd2]
          obtain ⟨_, _, _, _, _, _, _, _, t9⟩ := destroyAll_static objs2
            (sh.valReplace (sh.placedAt oldObj) (sh.placedAt newObj))
          show (objs2.foldl SymHeap.objDestroyOne _).cVar o = _
          rw [t9, s9]
      rw [this, s9, r10]
    · rw [hpl, if_pos hmem]

theorem ensureSlSeg_step (sh : SymHeap) (obj : Int) (ic : TFieldIdxChain) :
    (∀ e, ensureSlSeg sh obj ic = .error e → e ≠ .FUEL) ∧
    ∀ sh1, ensureSlSeg sh obj ic = .ok sh1 → AbsStep sh sh1 := by
  unfold ensureSlSeg
  cases hk : sh.objKind obj with
  | OK_SLS =>
    simp only
    split_ifs
    · exact ⟨fun e h => (by cases h), fun sh1 h => by cases h; exact AbsStep.same sh⟩
    · exact ⟨fun e h => (by cases h; decide), fun sh1 h => by cases h⟩
  | OK_DLS => exact ⟨fun e h => (by cases h; decide), fun sh1 h => by cases h⟩
  | OK_CONCRETE =>
    simp only
    split_ifs
    · exact ⟨fun e h => (by cases h; decide), fun sh1 h => by cases h⟩
    · constructor
      · intro e h
        rw [addNeq_err _ _ _ e h]
        decide
      · intro sh1 h
        exact (AbsStep.objAbstract sh obj .OK_SLS ic [] (by decide)).comp
          (AbsStep.addNeq _ sh1 _ _ h)

theorem abstractNonMatchingValues_step (sh : SymHeap) (src dst : Int) (size : Int → Nat)
    (fuel : Nat) (hsz : sh.SubObjsBounded size) (hd : ∀ o, size o < fuel) :
    (∀ e, abstractNonMatchingValues fuel sh src dst = .error e → e = .TRAP) ∧
    ∀ sh2, abstractNonMatchingValues fuel sh src dst = .ok sh2 → HeapFrame sh sh2 := by
  rcases abstractNonMatchingValues_weak sh src dst size fuel hsz hd with h | ⟨sh2, h, _, hF, _⟩
  · rw [h]
    exact ⟨fun e he => (by cases he; rfl), fun sh2 he => by cases he⟩
  · rw [h]
    exact ⟨fun e he => (by cases he), fun sh3 he => by cases he; exact hF⟩

theorem HeapFrame.bounded {sh sh2 : SymHeap} (h : HeapFrame sh sh2) (size : Int → Nat)
    (hsz : sh.SubObjsBounded size) : sh2.SubObjsBounded size :=
  SubObjsBounded_congr sh sh2 h.objType h.subObj size hsz

theorem abstractNonMatchingValuesBidir_step (sh : SymHeap) (o1 o2 : Int) (size : Int → Nat)
    (fuel : Nat) (hsz : sh.SubObjsBounded size) (hd : ∀ o, size o < fuel) :
    (∀ e, abstractNonMatchingValuesBidir fuel sh o1 o2 = .error e → e = .TRAP) ∧
    ∀ sh2, abstractNonMatchingValuesBidir fuel sh o1 o2 = .ok sh2 → HeapFrame sh sh2 := by
  unfold abstractNonMatchingValuesBidir
  obtain ⟨a1, a2⟩ := abstractNonMatchingValues_step sh o1 o2 size fuel hsz hd
  cases h : abstractNonMatchingValues fuel sh o1 o2 with
  | error e => exact ⟨fun e2 he => (by cases he; exact a1 e h), fun sh2 he => by cases he⟩
  | ok sh1 =>
    have hF := a2 sh1 h
    obtain ⟨b1, b2⟩ := abstractNonMatchingValues_step sh1 o2 o1 size fuel (hF.bounded size hsz) hd
    exact ⟨fun e he => b1 e he, fun sh2 he => hF.trans (b2 sh2 he)⟩

/-- One step of the SLS abstraction never runs out of fuel, and destroys the object at
the cursor. -/
theorem slSegAbstractionStep_step (sh : SymHeap) (obj : Int) (ic : TFieldIdxChain)
    (size : Int → Nat) (fuel : Nat) (hsz : sh.SubObjsBounded size) (hd : ∀ o, size o < fuel) :
    (∀ e, slSegAbstractionStep fuel sh obj ic = .error e → e ≠ .FUEL) ∧
    ∀ sh3 n, slSegAbstractionStep fuel sh obj ic = .ok (sh3, n) →
      AbsStep sh sh3 ∧ absWeight sh3 obj < absWeight sh obj ∧ ∃ v, n = sh.pointsTo v := by
  unfold slSegAbstractionStep
  dsimp only
  split_ifs with h1
  · exact ⟨fun e h => (by cases h; decide), fun _ _ h => by cases h⟩
  obtain ⟨e1, e2⟩ := ensureSlSeg_step sh
    (sh.pointsTo (sh.valueOf (subObjByChain sh obj ic))) ic
  cases hen : ensureSlSeg sh (sh.pointsTo (sh.valueOf (subObjByChain sh obj ic))) ic with
  | error e => exact ⟨fun e2 h => (by cases h; exact e1 e hen), fun _ _ h => by cases h⟩
  | ok sh1 =>
    have hs1 := e2 sh1 hen
    simp only
    split_ifs with h2
    · exact ⟨fun e h => (by cases h; decide), fun _ _ h => by cases h⟩
    obtain ⟨a1, a2⟩ := abstractNonMatchingValues_step sh1 obj
      (sh.pointsTo (sh.valueOf (subObjByChain sh obj ic))) size fuel (hs1.subObjs size hsz) hd
    cases han : abstractNonMatchingValues fuel sh1 obj
        (sh.pointsTo (sh.valueOf (subObjByChain sh obj ic))) with
    | error e =>
      exact ⟨fun e2 h => (by cases h; rw [a1 e han]; decide), fun _ _ h => by cases h⟩
    | ok sh2 =>
      have hF := a2 sh2 han
      have hs2 : AbsStep sh sh2 := hs1.comp (AbsStep.of_frame hF)
      obtain ⟨r1, r2⟩ := objReplace_step sh2 size (hs2.subObjs size hsz) fuel hd obj
        (sh.pointsTo (sh.valueOf (subObjByChain sh obj ic)))
      simp only
      cases hre : objReplace fuel sh2 obj (sh.pointsTo (sh.valueOf (subObjByChain sh obj ic)))
        with
      | error e =>
        exact ⟨fun e2 h => (by cases h; rw [r1 e hre]; decide), fun _ _ h => by cases h⟩
      | ok sh3 =>
        refine ⟨fun e h => (by cases h), ?_⟩
        intro sh4 n h
        simp only [Except.ok.injEq, Prod.mk.injEq] at h
        obtain ⟨rfl, rfl⟩ := h
        obtain ⟨hs3, hpos, hinv⟩ := r2 sh3 hre
        have hs := hs2.comp hs3
        have hpos0 : 0 < sh.placedAt obj := by
          rcases hs2.placedAt obj with e | e
          · rw [e] at hpos
            exact hpos
          · rw [e] at hpos
            simp [VAL_INVALID] at hpos
        exact ⟨hs, weight_lt_of_destroyed hs obj hpos0 hinv, _, rfl⟩

theorem skipObj_ok (sh : SymHeap) (obj : Int) (ic : TFieldIdxChain) (o : Int)
    (h : skipObj sh obj ic = .ok o) : ∃ v, o = sh.pointsTo v := by
  unfold skipObj at h
  dsimp only at h
  split_ifs at h
  cases h
  exact ⟨_, rfl⟩

theorem dlSegGoblle_step (sh : SymHeap) (dls var : Int) (b : Bool)
    (size : Int → Nat) (fuel : Nat) (hsz : sh.SubObjsBounded size) (hd : ∀ o, size o < fuel) :
    (∀ e, dlSegGoblle fuel sh dls var b = .error e → e ≠ .FUEL) ∧
    ∀ sh3, dlSegGoblle fuel sh dls var b = .ok sh3 →
      AbsStep sh sh3 ∧ absWeight sh3 var < absWeight sh var := by
  cases b with
  | true =>
    unfold dlSegGoblle
    by_cases h1 : EObjKind.OK_DLS ≠ sh.objKind dls ∨ EObjKind.OK_CONCRETE ≠ sh.objKind var
    · rw [if_pos h1]
      exact ⟨fun e h => (by cases h; decide), fun _ h => by cases h⟩
    rw [if_neg h1]
    simp only [Bool.not_true, Bool.false_eq_true, if_false, if_true]
    obtain ⟨a1, a2⟩ := abstractNonMatchingValues_step sh var dls size fuel hsz hd
    cases han : abstractNonMatchingValues fuel sh var dls with
    | error e =>
      exact ⟨fun e2 h => (by cases h; rw [a1 e han]; decide), fun _ h => by cases h⟩
    | ok sh1 => exact ⟨fun e h => (by cases h; decide), fun _ h => by cases h⟩
  | false =>
    unfold dlSegGoblle
    by_cases h1 : EObjKind.OK_DLS ≠ sh.objKind dls ∨ EObjKind.OK_CONCRETE ≠ sh.objKind var
    · rw [if_pos h1]
      exact ⟨fun e h => (by cases h; decide), fun _ h => by cases h⟩
    rw [if_neg h1]
    simp only [Bool.not_false, Bool.false_eq_true, if_false, if_true]
    cases hsk : skipObj sh dls (sh.objPeerField dls) with
    | error e =>
      exact ⟨fun e2 h => (by cases h; rw [skipObj_err _ _ _ e hsk]; decide),
        fun _ h => by cases h⟩
    | ok dls1 =>
      simp only
      obtain ⟨a1, a2⟩ := abstractNonMatchingValues_step sh var dls1 size fuel hsz hd
      cases han : abstractNonMatchingValues fuel sh var dls1 with
      | error e =>
        exact ⟨fun e2 h => (by cases h; rw [a1 e han]; decide), fun _ h => by cases h⟩
      | ok sh1 =>
        simp only
        have hF := a2 sh1 han
        have hs2 : AbsStep sh (sh1.objSetValue
            (subObjByChain sh1 dls1 (sh1.objBinderField dls1))
            (sh1.valueOf (subObjByChain sh1 var (sh1.objBinderField dls1)))) :=
          (AbsStep.of_frame hF).comp (AbsStep.setValue _ _ _)
        obtain ⟨r1, r2⟩ := objReplace_step _ size (hs2.subObjs size hsz) fuel hd var dls1
        constructor
        · intro e h
          rw [r1 e h]
          decide
        · intro sh3 h
          obtain ⟨hs3, hpos, hinv⟩ := r2 sh3 h
          have hs := hs2.comp hs3
          have hpos0 : 0 < sh.placedAt var := by
            rcases hs2.placedAt var with e | e
            · rw [e] at hpos
              exact hpos
            · rw [e] at hpos
              simp [VAL_INVALID] at hpos
          exact ⟨hs, weight_lt_of_destroyed hs var hpos0 hinv⟩

theorem dlSegPeer_err (sh : SymHeap) (dls : Int) (e : Err)
    (h : dlSegPeer sh dls = .error e) : e = .TRAP := by
  unfold dlSegPeer at h
  split_ifs at h
  · cases h
    rfl
  · exact skipObj_err _ _ _ e h

theorem pos_of_step {sh sh2 : SymHeap} (h : AbsStep sh sh2) (o : Int)
    (hpos : 0 < sh2.placedAt o) : 0 < sh.placedAt o := by
  rcases h.placedAt o with e | e
  · rw [e] at hpos
    exact hpos
  · rw [e] at hpos
    simp [VAL_INVALID] at hpos

theorem invalid_of_step {sh sh2 : SymHeap} (h : AbsStep sh sh2) (o : Int)
    (hinv : sh.placedAt o = VAL_INVALID) : sh2.placedAt o = VAL_INVALID := by
  rcases h.placedAt o with e | e
  · rw [e]
    exact hinv
  · exact e

theorem dlSegMerge_step (sh : SymHeap) (seg1 seg2 : Int)
    (size : Int → Nat) (fuel : Nat) (hsz : sh.SubObjsBounded size) (hd : ∀ o, size o < fuel) :
    (∀ e, dlSegMerge fuel sh seg1 seg2 = .error e → e ≠ .FUEL) ∧
    ∀ sh3, dlSegMerge fuel sh seg1 seg2 = .ok sh3 →
      AbsStep sh sh3 ∧ absWeight sh3 seg1 < absWeight sh seg1 := by
  unfold dlSegMerge
  cases hp1 : dlSegPeer sh seg1 with
  | error e =>
    exact ⟨fun e2 h => (by cases h; rw [dlSegPeer_err _ _ e hp1]; decide), fun _ h => by cases h⟩
  | ok peer1 =>
    simp only
    cases hp2 : dlSegPeer sh seg2 with
    | error e =>
      exact ⟨fun e2 h => (by cases h; rw [dlSegPeer_err _ _ e hp2]; decide),
        fun _ h => by cases h⟩
    | ok peer2 =>
      simp only
      obtain ⟨a1, a2⟩ := abstractNonMatchingValuesBidir_step sh seg1 seg2 size fuel hsz hd
      cases han : abstractNonMatchingValuesBidir fuel sh seg1 seg2 with
      | error e =>
        exact ⟨fun e2 h => (by cases h; rw [a1 e han]; decide), fun _ h => by cases h⟩
      | ok sh1 =>
        simp only
        have hF1 := a2 sh1 han
        obtain ⟨b1, b2⟩ := abstractNonMatchingValuesBidir_step sh1 peer1 peer2 size fuel
          (hF1.bounded size hsz) hd
        cases hbn : abstractNonMatchingValuesBidir fuel sh1 peer1 peer2 with
        | error e =>
          exact ⟨fun e2 h => (by cases h; rw [b1 e hbn]; decide), fun _ h => by cases h⟩
        | ok sh2 =>
          simp only
          have hF2 := b2 sh2 hbn
          have hs2 : AbsStep sh sh2 := (AbsStep.of_frame hF1).comp (AbsStep.of_frame hF2)
          obtain ⟨r1, r2⟩ := objReplace_step sh2 size (hs2.subObjs size hsz) fuel hd seg1 seg2
          cases hre : objReplace fuel sh2 seg1 seg2 with
          | error e =>
            exact ⟨fun e2 h => (by cases h; rw [r1 e hre]; decide), fun _ h => by cases h⟩
          | ok sh3 =>
            simp only
            obtain ⟨hs3, hpos, hinv⟩ := r2 sh3 hre
            have hs03 := hs2.comp hs3
            obtain ⟨q1, q2⟩ := objReplace_step sh3 size (hs03.subObjs size hsz) fuel hd
              peer1 peer2
            constructor
            · intro e h
              rw [q1 e h]
              decide
            · intro sh4 h
              obtain ⟨hs4, _, _⟩ := q2 sh4 h
              have hs := hs03.comp hs4
              exact ⟨hs, weight_lt_of_destroyed hs seg1 (pos_of_step hs2 seg1 hpos)
                (invalid_of_step hs4 seg1 hinv)⟩

theorem addNeq_objKind (sh sh2 : SymHeap) (a b : Int) (h : sh.addNeq a b = .ok sh2) (o : Int) :
    sh2.objKind o = sh.objKind o := by
  unfold SymHeap.addNeq at h
  split_ifs at h
  · cases h
    rfl
  · cases h
    rfl

theorem dlSegCreate_step (sh : SymHeap) (o1 o2 : Int) (icNext icPrev : TFieldIdxChain)
    (size : Int → Nat) (fuel : Nat) (hsz : sh.SubObjsBounded size) (hd : ∀ o, size o < fuel)
    (hk : sh.objKind o1 = .OK_CONCRETE) :
    (∀ e, dlSegCreate fuel sh o1 o2 icNext icPrev = .error e → e ≠ .FUEL) ∧
    ∀ sh3, dlSegCreate fuel sh o1 o2 icNext icPrev = .ok sh3 →
      AbsStep sh sh3 ∧ absWeight sh3 o1 < absWeight sh o1 := by
  unfold dlSegCreate
  dsimp only
  have hsA : AbsStep sh ((sh.objAbstract o1 .OK_DLS icPrev icNext).objAbstract o2 .OK_DLS
      icNext icPrev) :=
    (AbsStep.objAbstract sh o1 .OK_DLS icPrev icNext (by decide)).comp
      (AbsStep.objAbstract _ o2 .OK_DLS icNext icPrev (by decide))
  have hkA : ((sh.objAbstract o1 .OK_DLS icPrev icNext).objAbstract o2 .OK_DLS
      icNext icPrev).objKind o1 = .OK_DLS := by
    simp [SymHeap.objAbstract]
  obtain ⟨a1, a2⟩ := abstractNonMatchingValuesBidir_step
    ((sh.objAbstract o1 .OK_DLS icPrev icNext).objAbstract o2 .OK_DLS icNext icPrev)
    o1 o2 size fuel (hsA.subObjs size hsz) hd
  cases han : abstractNonMatchingValuesBidir fuel
      ((sh.objAbstract o1 .OK_DLS icPrev icNext).objAbstract o2 .OK_DLS icNext icPrev) o1 o2 with
  | error e =>
    exact ⟨fun e2 h => (by cases h; rw [a1 e han]; decide), fun _ h => by cases h⟩
  | ok sh3 =>
    simp only
    have hF := a2 sh3 han
    unfold dlsStoreCrossNeq
    dsimp only
    constructor
    · intro e h
      rw [addNeq_err _ _ _ e h]
      decide
    · intro sh4 h
      have hs := (hsA.comp (AbsStep.of_frame hF)).comp (AbsStep.addNeq _ sh4 _ _ h)
      refine ⟨hs, weight_lt_of_abstracted hs o1 hk ?_⟩
      rw [addNeq_objKind _ _ _ _ h, hF.objKind, hkA]
      decide

/-- One step of the DLS abstraction never runs out of fuel, and makes progress at an object
that a value of the heap points to (or at the cursor). -/
theorem dlSegAbstractionStep_step (sh : SymHeap) (obj : Int) (icNext icPrev : TFieldIdxChain)
    (size : Int → Nat) (fuel : Nat) (hsz : sh.SubObjsBounded size) (hd : ∀ o, size o < fuel) :
    (∀ e, dlSegAbstractionStep fuel sh obj icNext icPrev = .error e → e ≠ .FUEL) ∧
    ∀ sh3 n, dlSegAbstractionStep fuel sh obj icNext icPrev = .ok (sh3, n) →
      AbsStep sh sh3 ∧ n = obj ∧
      ∃ o, (o = obj ∨ ∃ v, o = sh.pointsTo v) ∧ absWeight sh3 o < absWeight sh o := by
  unfold dlSegAbstractionStep
  dsimp only
  cases hk : sh.objKind obj with
  | OK_SLS => exact ⟨fun e h => (by cases h; decide), fun _ _ h => by cases h⟩
  | OK_DLS =>
    simp only
    cases hs1 : skipObj sh obj (sh.objPeerField obj) with
    | error e =>
      exact ⟨fun e2 h => (by cases h; rw [skipObj_err _ _ _ e hs1]; decide),
        fun _ _ h => by cases h⟩
    | ok o2 =>
      simp only
      cases hs2 : skipObj sh o2 (sh.objBinderField o2) with
      | error e =>
        exact ⟨fun e2 h => (by cases h; rw [skipObj_err _ _ _ e hs2]; decide),
          fun _ _ h => by cases h⟩
      | ok o3 =>
        simp only
        obtain ⟨v3, hv3⟩ := skipObj_ok _ _ _ _ hs2
        by_cases hc : EObjKind.OK_CONCRETE = sh.objKind o3
        · rw [if_pos hc]
          obtain ⟨g1, g2⟩ := dlSegGoblle_step sh obj o3 false size fuel hsz hd
          cases hg : dlSegGoblle fuel sh obj o3 false with
          | error e => exact ⟨fun e2 h => (by cases h; exact g1 e hg), fun _ _ h => by cases h⟩
          | ok sh1 =>
            refine ⟨fun e h => (by cases h), ?_⟩
            intro sh3 n h
            simp only [Except.ok.injEq, Prod.mk.injEq] at h
            obtain ⟨rfl, rfl⟩ := h
            obtain ⟨hs, hw⟩ := g2 sh1 hg
            exact ⟨hs, rfl, o3, Or.inr ⟨v3, hv3⟩, hw⟩
        · rw [if_neg hc]
          obtain ⟨g1, g2⟩ := dlSegMerge_step sh obj o3 size fuel hsz hd
          cases hg : dlSegMerge fuel sh obj o3 with
          | error e => exact ⟨fun e2 h => (by cases h; exact g1 e hg), fun _ _ h => by cases h⟩
          | ok sh1 =>
            refine ⟨fun e h => (by cases h), ?_⟩
            intro sh3 n h
            simp only [Except.ok.injEq, Prod.mk.injEq] at h
            obtain ⟨rfl, rfl⟩ := h
            obtain ⟨hs, hw⟩ := g2 sh1 hg
            exact ⟨hs, rfl, obj, Or.inl rfl, hw⟩
  | OK_CONCRETE =>
    simp only
    cases hs1 : skipObj sh obj icNext with
    | error e =>
      exact ⟨fun e2 h => (by cases h; rw [skipObj_err _ _ _ e hs1]; decide),
        fun _ _ h => by cases h⟩
    | ok o2 =>
      simp only
      by_cases hc : EObjKind.OK_CONCRETE = sh.objKind o2
      · rw [if_pos hc]
        obtain ⟨g1, g2⟩ := dlSegCreate_step sh obj o2 icNext icPrev size fuel hsz hd hk
        cases hg : dlSegCreate fuel sh obj o2 icNext icPrev with
        | error e => exact ⟨fun e2 h => (by cases h; exact g1 e hg), fun _ _ h => by cases h⟩
        | ok sh1 =>
          refine ⟨fun e h => (by cases h), ?_⟩
          intro sh3 n h
          simp only [Except.ok.injEq, Prod.mk.injEq] at h
          obtain ⟨rfl, rfl⟩ := h
          obtain ⟨hs, hw⟩ := g2 sh1 hg
          exact ⟨hs, rfl, obj, Or.inl rfl, hw⟩
      · rw [if_neg hc]
        obtain ⟨g1, g2⟩ := dlSegGoblle_step sh o2 obj true size fuel hsz hd
        cases hg : dlSegGoblle fuel sh o2 obj true with
        | error e => exact ⟨fun e2 h => (by cases h; exact g1 e hg), fun _ _ h => by cases h⟩
        | ok sh1 =>
          exfalso
          unfold dlSegGoblle at hg
          by_cases h1 : EObjKind.OK_DLS ≠ sh.objKind o2 ∨ EObjKind.OK_CONCRETE ≠ sh.objKind obj
          · rw [if_pos h1] at hg
            cases hg
          · rw [if_neg h1] at hg
            simp only [Bool.not_true, Bool.false_eq_true, if_false, if_true] at hg
            cases han : abstractNonMatchingValues fuel sh obj o2 with
            | error e =>
              rw [han] at hg
              cases hg
            | ok sh9 =>
              rw [han] at hg
              cases hg

theorem slSegAbstractionSteps_step (U : Finset Int) (size : Int → Nat) (hdel : OBJ_DELETED ∈ U)
    (fuel : Nat) (hd : ∀ o, size o < fuel) (ic : TFieldIdxChain) :
    ∀ (n : Nat) (sh : SymHeap) (obj : Int), AbsInv U size sh → obj ∈ U →
      (∀ e, slSegAbstractionSteps fuel ic n sh obj = .error e → e ≠ .FUEL) ∧
      ∀ sh2 obj2, slSegAbstractionSteps fuel ic n sh obj = .ok (sh2, obj2) →
        AbsStep sh sh2 ∧ (0 < n → absMeasure U sh2 < absMeasure U sh) := by
  intro n
  induction n with
  | zero =>
    intro sh obj _ _
    unfold slSegAbstractionSteps
    refine ⟨fun e h => (by cases h), ?_⟩
    intro sh2 obj2 h
    simp only [Except.ok.injEq, Prod.mk.injEq] at h
    obtain ⟨rfl, rfl⟩ := h
    exact ⟨AbsStep.same _, fun h0 => absurd h0 (by decide)⟩
  | succ n ih =>
    intro sh obj hI ho
    unfold slSegAbstractionSteps
    obtain ⟨s1, s2⟩ := slSegAbstractionStep_step sh obj ic size fuel hI.subObjs hd
    cases hst : slSegAbstractionStep fuel sh obj ic with
    | error e => exact ⟨fun e2 h => (by cases h; exact s1 e hst), fun _ _ h => by cases h⟩
    | ok r =>
      obtain ⟨sh1, obj1⟩ := r
      simp only
      obtain ⟨hs, hw, v, hv⟩ := s2 sh1 obj1 hst
      have ho1 : obj1 ∈ U := by
        rw [hv]
        exact hI.pointsTo v
      obtain ⟨i1, i2⟩ := ih sh1 obj1 (hs.inv U size hdel hI) ho1
      refine ⟨i1, ?_⟩
      intro sh2 obj2 h
      obtain ⟨hs2, _⟩ := i2 sh2 obj2 h
      exact ⟨hs.comp hs2, fun _ =>
        lt_of_le_of_lt (hs2.measure_le U) (hs.measure_lt U obj ho hw)⟩

theorem dlSegAbstractionSteps_step (U : Finset Int) (size : Int → Nat) (hdel : OBJ_DELETED ∈ U)
    (fuel : Nat) (hd : ∀ o, size o < fuel) (icNext icPrev : TFieldIdxChain) :
    ∀ (n : Nat) (sh : SymHeap) (obj : Int), AbsInv U size sh → obj ∈ U →
      (∀ e, dlSegAbstractionSteps fuel icNext icPrev n sh obj = .error e → e ≠ .FUEL) ∧
      ∀ sh2 obj2, dlSegAbstractionSteps fuel icNext icPrev n sh obj = .ok (sh2, obj2) →
        AbsStep sh sh2 ∧ (0 < n → absMeasure U sh2 < absMeasure U sh) := by
  intro n
  induction n with
  | zero =>
    intro sh obj _ _
    unfold dlSegAbstractionSteps
    refine ⟨fun e h => (by cases h), ?_⟩
    intro sh2 obj2 h
    simp only [Except.ok.injEq, Prod.mk.injEq] at h
    obtain ⟨rfl, rfl⟩ := h
    exact ⟨AbsStep.same _, fun h0 => absurd h0 (by decide)⟩
  | succ n ih =>
    intro sh obj hI ho
    unfold dlSegAbstractionSteps
    obtain ⟨s1, s2⟩ := dlSegAbstractionStep_step sh obj icNext icPrev size fuel hI.subObjs hd
    cases hst : dlSegAbstractionStep fuel sh obj icNext icPrev with
    | error e => exact ⟨fun e2 h => (by cases h; exact s1 e hst), fun _ _ h => by cases h⟩
    | ok r =>
      obtain ⟨sh1, obj1⟩ := r
      simp only
      obtain ⟨hs, hn, o, hoU, hw⟩ := s2 sh1 obj1 hst
      have ho1 : obj1 ∈ U := by
        rw [hn]
        exact ho
      have hoU2 : o ∈ U := by
        rcases hoU with rfl | ⟨v, rfl⟩
        · exact ho
        · exact hI.pointsTo v
      obtain ⟨i1, i2⟩ := ih sh1 obj1 (hs.inv U size hdel hI) ho1
      refine ⟨i1, ?_⟩
      intro sh2 obj2 h
      obtain ⟨hs2, _⟩ := i2 sh2 obj2 h
      exact ⟨hs.comp hs2, fun _ =>
        lt_of_le_of_lt (hs2.measure_le U) (hs.measure_lt U o hoU2 hw)⟩

theorem skipObjs_mem (U : Finset Int) (sh : SymHeap) (hp : ∀ v, sh.pointsTo v ∈ U)
    (ic : TFieldIdxChain) :
    ∀ (n : Nat) (obj : Int), obj ∈ U →
      (∀ e, skipObjs sh ic n obj = .error e → e = .TRAP) ∧
      ∀ o, skipObjs sh ic n obj = .ok o → o ∈ U := by
  intro n
  induction n with
  | zero =>
    intro obj ho
    unfold skipObjs
    exact ⟨fun e h => (by cases h), fun o h => by cases h; exact ho⟩
  | succ n ih =>
    intro obj ho
    unfold skipObjs
    cases hs : skipObj sh obj ic with
    | error e =>
      exact ⟨fun e2 h => (by cases h; exact skipObj_err _ _ _ e hs), fun _ h => by cases h⟩
    | ok o1 =>
      simp only
      obtain ⟨v, hv⟩ := skipObj_ok _ _ _ _ hs
      exact ih o1 (by rw [hv]; exact hp v)

theorem segLen_pos (at1 : AbstractionThreshold)
    (hat : at1 = slsThreshold ∨ at1 = dlsThreshold) (n : Nat)
    (h2 : ¬ n < toUInt32 (at1.sparePrefix + at1.innerSegLen + at1.spareSuffix : Nat))
    (h31 : n < 2 ^ 31) :
    0 < (toInt32 (toUInt32 ((n : Int) - (at1.sparePrefix : Int) - (at1.spareSuffix : Int)))).toNat
    := by
  have e : (toInt32 (toUInt32 ((n : Int) - (at1.sparePrefix : Int) - (at1.spareSuffix : Int))))
      = (n : Int) - 1 := by
    rcases hat with rfl | rfl
    · simp only [slsThreshold, toUInt32] at h2 ⊢
      norm_num at h2
      unfold toInt32
      have h3 : (((n : Int) - ((1 : Nat) : Int) - ((0 : Nat) : Int)) % 2 ^ 32).toNat = n - 1 := by
        have : ((n : Int) - ((1 : Nat) : Int) - ((0 : Nat) : Int)) % 2 ^ 32 = (n : Int) - 1 := by
          rw [Int.emod_eq_of_lt] <;> push_cast <;> omega
        rw [this]
        omega
      rw [h3]
      have h4 : (n - 1) % 2 ^ 32 = n - 1 := Nat.mod_eq_of_lt (by omega)
      rw [h4, if_pos (by omega)]
      omega
    · simp only [dlsThreshold, toUInt32] at h2 ⊢
      norm_num at h2
      unfold toInt32
      have h3 : (((n : Int) - ((0 : Nat) : Int) - ((1 : Nat) : Int)) % 2 ^ 32).toNat = n - 1 := by
        have : ((n : Int) - ((0 : Nat) : Int) - ((1 : Nat) : Int)) % 2 ^ 32 = (n : Int) - 1 := by
          rw [Int.emod_eq_of_lt] <;> push_cast <;> omega
        rw [this]
        omega
      rw [h3]
      have h4 : (n - 1) % 2 ^ 32 = n - 1 := Nat.mod_eq_of_lt (by omega)
      rw [h4, if_pos (by omega)]
      omega
  rw [e]
  have : 2 ≤ n := by
    rcases hat with rfl | rfl
    · simp only [slsThreshold, toUInt32] at h2
      norm_num at h2
      exact h2
    · simp only [dlsThreshold, toUInt32] at h2
      norm_num at h2
      exact h2
  omega

/-- An abstraction of a segment: it never runs out of fuel; when it reports `false` the heap
is returned as it was, and when it reports `true` the measure has decreased. -/
theorem considerSegAbstraction_step (U : Finset Int) (size : Int → Nat)
    (hdel : OBJ_DELETED ∈ U) (fuel : Nat) (hd : ∀ o, size o < fuel)
    (sh : SymHeap) (hI : AbsInv U size sh) (obj : Int) (ho : obj ∈ U) (kind : EObjKind)
    (icNext icPrev : TFieldIdxChain) (lenTotal : Nat) (h31 : lenTotal < 2 ^ 31) :
    (∀ e, considerSegAbstraction fuel sh obj kind icNext icPrev lenTotal = .error e →
      e ≠ .FUEL) ∧
    ∀ b sh2, considerSegAbstraction fuel sh obj kind icNext icPrev lenTotal = .ok (b, sh2) →
      (b = false → sh2 = sh) ∧
      (b = true → AbsStep sh sh2 ∧ absMeasure U sh2 < absMeasure U sh) := by
  have key : ∀ at1 : AbstractionThreshold, (at1 = slsThreshold ∨ at1 = dlsThreshold) →
      (∀ e, (if lenTotal < toUInt32 (at1.sparePrefix + at1.innerSegLen + at1.spareSuffix : Nat)
        then Except.ok (false, sh)
        else
          match skipObjs sh icNext (toInt32 at1.sparePrefix).toNat obj with
          | .error e => .error e
          | .ok obj1 =>
            if EObjKind.OK_SLS = kind then
              match slSegAbstractionSteps fuel icNext (toInt32 (toUInt32 ((lenTotal : Int) -
                (at1.sparePrefix : Int) - (at1.spareSuffix : Int)))).toNat sh obj1 with
              | .error e => .error e
              | .ok (sh1, _) => .ok (true, sh1)
            else
              match dlSegAbstractionSteps fuel icNext icPrev (toInt32 (toUInt32
                ((lenTotal : Int) - (at1.sparePrefix : Int) - (at1.spareSuffix : Int)))).toNat
                sh obj1 with
              | .error e => .error e
              | .ok (sh1, _) => .ok (true, sh1)) = .error e → e ≠ .FUEL) ∧
      ∀ b sh2, (if lenTotal < toUInt32 (at1.sparePrefix + at1.innerSegLen + at1.spareSuffix : Nat)
        then Except.ok (false, sh)
        else
          match skipObjs sh icNext (toInt32 at1.sparePrefix).toNat obj with
          | .error e => .error e
          | .ok obj1 =>
            if EObjKind.OK_SLS = kind then
              match slSegAbstractionSteps fuel icNext (toInt32 (toUInt32 ((lenTotal : Int) -
                (at1.sparePrefix : Int) - (at1.spareSuffix : Int)))).toNat sh obj1 with
              | .error e => .error e
              | .ok (sh1, _) => .ok (true, sh1)
            else
              match dlSegAbstractionSteps fuel icNext icPrev (toInt32 (toUInt32
                ((lenTotal : Int) - (at1.sparePrefix : Int) - (at1.spareSuffix : Int)))).toNat
                sh obj1 with
              | .error e => .error e
              | .ok (sh1, _) => .ok (true, sh1)) = .ok (b, sh2) →
        (b = false → sh2 = sh) ∧
        (b = true → AbsStep sh sh2 ∧ absMeasure U sh2 < absMeasure U sh) := by
    intro at1 hat
    by_cases hlt : lenTotal < toUInt32 (at1.sparePrefix + at1.innerSegLen + at1.spareSuffix : Nat)
    · rw [if_pos hlt]
      refine ⟨fun e h => (by cases h), ?_⟩
      intro b sh2 h
      simp only [Except.ok.injEq, Prod.mk.injEq] at h
      obtain ⟨rfl, rfl⟩ := h
      exact ⟨fun _ => rfl, fun h => by cases h⟩
    rw [if_neg hlt]
    have hpos := segLen_pos at1 hat lenTotal hlt h31
    obtain ⟨k1, k2⟩ := skipObjs_mem U sh hI.pointsTo icNext (toInt32 at1.sparePrefix).toNat obj ho
    cases hsk : skipObjs sh icNext (toInt32 at1.sparePrefix).toNat obj with
    | error e =>
      exact ⟨fun e2 h => (by cases h; rw [k1 e hsk]; decide), fun _ _ h => by cases h⟩
    | ok obj1 =>
      simp only
      have ho1 := k2 obj1 hsk
      by_cases hks : EObjKind.OK_SLS = kind
      · rw [if_pos hks]
        obtain ⟨s1, s2⟩ := slSegAbstractionSteps_step U size hdel fuel hd icNext
          (toInt32 (toUInt32 ((lenTotal : Int) - (at1.sparePrefix : Int) -
            (at1.spareSuffix : Int)))).toNat sh obj1 hI ho1
        cases hst : slSegAbstractionSteps fuel icNext (toInt32 (toUInt32 ((lenTotal : Int) -
            (at1.sparePrefix : Int) - (at1.spareSuffix : Int)))).toNat sh obj1 with
        | error e => exact ⟨fun e2 h => (by cases h; exact s1 e hst), fun _ _ h => by cases h⟩
        | ok r =>
          obtain ⟨sh1, o9⟩ := r
          refine ⟨fun e h => (by cases h), ?_⟩
          intro b sh2 h
          simp only [Except.ok.injEq, Prod.mk.injEq] at h
          obtain ⟨rfl, rfl⟩ := h
          obtain ⟨hs, hm⟩ := s2 sh1 o9 hst
          exact ⟨fun h => (by cases h), fun _ => ⟨hs, hm hpos⟩⟩
      · rw [if_neg hks]
        obtain ⟨s1, s2⟩ := dlSegAbstractionSteps_step U size hdel fuel hd icNext icPrev
          (toInt32 (toUInt32 ((lenTotal : Int) - (at1.sparePrefix : Int) -
            (at1.spareSuffix : Int)))).toNat sh obj1 hI ho1
        cases hst : dlSegAbstractionSteps fuel icNext icPrev (toInt32 (toUInt32
            ((lenTotal : Int) - (at1.sparePrefix : Int) - (at1.spareSuffix : Int)))).toNat
            sh obj1 with
        | error e => exact ⟨fun e2 h => (by cases h; exact s1 e hst), fun _ _ h => by cases h⟩
        | ok r =>
          obtain ⟨sh1, o9⟩ := r
          refine ⟨fun e h => (by cases h), ?_⟩
          intro b sh2 h
          simp only [Except.ok.injEq, Prod.mk.injEq] at h
          obtain ⟨rfl, rfl⟩ := h
          obtain ⟨hs, hm⟩ := s2 sh1 o9 hst
          exact ⟨fun h => (by cases h), fun _ => ⟨hs, hm hpos⟩⟩
  unfold considerSegAbstraction
  cases kind with
  | OK_CONCRETE => exact ⟨fun e h => (by cases h; decide), fun _ _ h => by cases h⟩
  | OK_SLS => exact key slsThreshold (Or.inl rfl)
  | OK_DLS => exact key dlsThreshold (Or.inr rfl)

theorem probe_err (sh : SymHeap) (size : Int → Nat)
    (hsz : sh.SubObjsBounded size) (fuel : Nat) (hd : ∀ o, size o < fuel) (obj : Int)
    (kind : EObjKind) (e : Err) (he : probe fuel sh obj kind = .error e) : e = .TRAP := by
  unfold probe at he
  cases h1 : doesAnyonePointToInside fuel sh obj with
  | error e1 =>
    rw [h1] at he
    cases he
    exact doesAnyonePointToInside_err sh size hsz fuel hd obj e h1
  | ok b =>
    rw [h1] at he
    cases b with
    | true => cases he
    | false =>
      simp only at he
      cases h2 : ProbeVisitor.mk1 sh obj kind with
      | error e2 =>
        rw [h2] at he
        cases he
        exact ProbeVisitor_mk1_err _ _ _ _ h2
      | ok pv =>
        rw [h2] at he
        simp only at he
        obtain ⟨hA, _⟩ := traverseSubObjsLoop_obj (pv.visitor fuel) sh size
          (by
            intro o r h
            simp only [ProbeVisitor.visitor] at h
            split at h
            · cases h
            · cases h
              rfl)
          (by
            intro o e3 h
            simp only [ProbeVisitor.visitor] at h
            split at h
            · rename_i e4 h4
              cases h
              exact ProbeVisitor_call_err pv sh size hsz fuel hd o _ h4
            · cases h)
          hsz fuel [obj] (by
            have := hd obj
            simp only [objsWeight, List.map_cons, List.map_nil, List.sum_cons, List.sum_nil]
            omega)
        unfold traverseSubObjs at he
        cases h3 : traverseSubObjsLoop helperObj (pv.visitor fuel) fuel sh [obj] with
        | error e3 =>
          rw [h3] at he
          cases he
          exact hA _ h3
        | ok r =>
          rw [h3] at he
          cases he

theorem gatherEntries_weak (sh : SymHeap) (size : Int → Nat)
    (hsz : sh.SubObjsBounded size) (fuel : Nat) (hd : ∀ o, size o < fuel) :
    ∀ (roots : List Int) (acc : List Int × List Int),
      (∀ e, gatherEntries fuel sh roots acc = .error e → e = .TRAP) ∧
      ∀ r, gatherEntries fuel sh roots acc = .ok r →
        (∀ o ∈ r.1, o ∈ acc.1 ∨ o ∈ roots) ∧ (∀ o ∈ r.2, o ∈ acc.2 ∨ o ∈ roots) := by
  intro roots
  induction roots with
  | nil =>
    intro acc
    unfold gatherEntries
    refine ⟨fun e h => (by cases h), ?_⟩
    intro r h
    cases h
    exact ⟨fun o ho => Or.inl ho, fun o ho => Or.inl ho⟩
  | cons obj rest ih =>
    intro acc
    obtain ⟨a1, a2⟩ := acc
    have keep : ∀ b1 b2 : List Int, (∀ o ∈ b1, o ∈ a1 ∨ o = obj) → (∀ o ∈ b2, o ∈ a2 ∨ o = obj) →
        (∀ e, gatherEntries fuel sh rest (b1, b2) = .error e → e = .TRAP) ∧
        ∀ r, gatherEntries fuel sh rest (b1, b2) = .ok r →
          (∀ o ∈ r.1, o ∈ a1 ∨ o ∈ obj :: rest) ∧ (∀ o ∈ r.2, o ∈ a2 ∨ o ∈ obj :: rest) := by
      intro b1 b2 hb1 hb2
      obtain ⟨i1, i2⟩ := ih (b1, b2)
      refine ⟨i1, ?_⟩
      intro r h
      obtain ⟨j1, j2⟩ := i2 r h
      constructor
      · intro o ho
        rcases j1 o ho with h1 | h1
        · rcases hb1 o h1 with h2 | h2
          · exact Or.inl h2
          · exact Or.inr (h2 ▸ List.mem_cons_self _ _)
        · exact Or.inr (List.mem_cons_of_mem _ h1)
      · intro o ho
        rcases j2 o ho with h1 | h1
        · rcases hb2 o h1 with h2 | h2
          · exact Or.inl h2
          · exact Or.inr (h2 ▸ List.mem_cons_self _ _)
        · exact Or.inr (List.mem_cons_of_mem _ h1)
    have same := keep a1 a2 (fun o ho => Or.inl ho) (fun o ho => Or.inl ho)
    have app : ∀ o ∈ a1 ++ [obj], o ∈ a1 ∨ o = obj := by
      intro o ho
      rcases List.mem_append.mp ho with h | h
      · exact Or.inl h
      · exact Or.inr (List.mem_singleton.mp h)
    have app2 : ∀ o ∈ a2 ++ [obj], o ∈ a2 ∨ o = obj := by
      intro o ho
      rcases List.mem_append.mp ho with h | h
      · exact Or.inl h
      · exact Or.inr (List.mem_singleton.mp h)
    unfold gatherEntries
    by_cases hc : sh.cVar obj = true
    · rw [if_pos hc]
      exact same
    rw [if_neg hc]
    dsimp only
    by_cases hv : VAL_INVALID = sh.placedAt obj
    · rw [if_pos hv]
      exact same
    rw [if_neg hv]
    by_cases hu1 : sh.usedByCount (sh.placedAt obj) = 1
    · rw [if_pos hu1]
      cases hp : probe fuel sh obj .OK_SLS with
      | error e =>
        exact ⟨fun e2 h => (by cases h; exact probe_err sh size hsz fuel hd obj _ e hp),
          fun _ h => by cases h⟩
      | ok b =>
        cases b with
        | true => exact keep _ _ app (fun o ho => Or.inl ho)
        | false => exact same
    rw [if_neg hu1]
    by_cases hu2 : sh.usedByCount (sh.placedAt obj) = 2
    · rw [if_pos hu2]
      cases hp : probe fuel sh obj .OK_DLS with
      | error e =>
        exact ⟨fun e2 h => (by cases h; exact probe_err sh size hsz fuel hd obj _ e hp),
          fun _ h => by cases h⟩
      | ok b =>
        cases b with
        | true => exact keep _ _ (fun o ho => Or.inl ho) app2
        | false => exact same
    rw [if_neg hu2]
    exact same

theorem discoverSeg_len (fuel n : Nat) (sh : SymHeap) (entry : Int) (kind : EObjKind)
    (icBind icPeer : TFieldIdxChain) (len : Nat) (hn : 2 * n < 2 ^ 31)
    (h : discoverSeg fuel n sh entry kind icBind icPeer = .ok len) : len < 2 ^ 31 := by
  unfold discoverSeg at h
  cases hl : discoverSegLoop fuel sh kind icBind icPeer n ⟨entry, [], 0⟩ with
  | error e =>
    rw [hl] at h
    cases h
  | ok st =>
    rw [hl] at h
    simp only at h
    obtain ⟨⟨hent, _⟩, dls, hnd, hdnd, hlen, h2, hall⟩ :=
      discoverSegLoop_inv fuel sh kind icBind icPeer n ⟨entry, [], 0⟩ st []
        ⟨List.nodup_nil, List.nodup_nil, rfl, Nat.le_refl _, fun o ho => by cases ho⟩ hl
    have hbound := discoverSegLoop_length fuel sh kind icBind icPeer n _ st hl
    simp only [List.length_nil, zero_add] at hbound
    have hpos : 1 ≤ st.path.length := List.length_pos_of_mem hent
    split_ifs at h
    · cases h
      norm_num
    · cases h
      rw [← hlen]
      have h31 : (2 : Nat) ^ 31 = 2147483648 := by norm_num
      have e1 : toUInt32 ((st.path.length : Int) - 1) = st.path.length - 1 := by
        unfold toUInt32
        omega
      rw [e1]
      unfold toUInt32
      omega

theorem discoverAllSegments_weak (fuel : Nat) (sh : SymHeap) (obj : Int) (kind : EObjKind)
    (selectors : List TFieldIdxChain) :
    (∀ e, discoverAllSegments fuel sh obj kind selectors [] [] = .error e →
      e = .TRAP ∨ ∃ a b, discoverSeg fuel fuel sh obj kind a b = .error e) ∧
    ∀ len icN icP, discoverAllSegments fuel sh obj kind selectors [] [] = .ok (len, icN, icP) →
      len = 0 ∨ ∃ a b, discoverSeg fuel fuel sh obj kind a b = .ok len := by
  unfold discoverAllSegments
  dsimp only
  by_cases h0 : toUInt32 (selectors.length : Int) = 0
  · rw [if_pos h0]
    exact ⟨fun e h => (by cases h; exact Or.inl rfl), fun _ _ _ h => by cases h⟩
  rw [if_neg h0]
  cases kind with
  | OK_CONCRETE => exact ⟨fun e h => (by cases h; exact Or.inl rfl), fun _ _ _ h => by cases h⟩
  | OK_DLS =>
    simp only
    unfold discoverAllDlls
    dsimp only
    by_cases hc : toInt32 selectors.length < 2
    · rw [if_pos hc]
      refine ⟨fun e h => (by cases h), ?_⟩
      intro len icN icP h
      simp only [Except.ok.injEq, Prod.mk.injEq] at h
      exact Or.inl h.1.symm
    rw [if_neg hc]
    obtain ⟨s1, s2⟩ := discoverAllDllsLoop_spec fuel sh obj selectors
      (dllIndexPairs (toInt32 selectors.length).toNat) (0, 0, 0)
    cases hl : discoverAllDllsLoop fuel sh obj selectors
        (dllIndexPairs (toInt32 selectors.length).toNat) (0, 0, 0) with
    | error e =>
      refine ⟨?_, fun _ _ _ h => by cases h⟩
      intro e2 h
      cases h
      obtain ⟨p, _, _, hp⟩ := s1 e hl
      exact Or.inr ⟨_, _, hp⟩
    | ok r =>
      obtain ⟨bl, bn, bp⟩ := r
      simp only
      refine ⟨fun e h => (by split_ifs at h), ?_⟩
      intro len icN icP h
      obtain ⟨_, _, h3⟩ := s2 _ hl
      by_cases hb : bl = 0
      · rw [if_pos hb] at h
        simp only [Except.ok.injEq, Prod.mk.injEq] at h
        exact Or.inl h.1.symm
      · rw [if_neg hb] at h
        simp only [Except.ok.injEq, Prod.mk.injEq] at h
        rcases h3 with h3 | ⟨p, _, _, _, _, hp⟩
        · simp only [Prod.mk.injEq] at h3
          exact absurd h3.1 hb
        · right
          rw [← h.1]
          exact ⟨_, _, hp⟩
  | OK_SLS =>
    simp only
    obtain ⟨s1, s2⟩ := discoverAllSlsLoop_spec fuel sh obj
      (selectors.take (toUInt32 (selectors.length : Int))) 0 (0, 0)
    cases hl : discoverAllSlsLoop fuel sh obj
        (selectors.take (toUInt32 (selectors.length : Int))) 0 (0, 0) with
    | error e =>
      refine ⟨?_, fun _ _ _ h => by cases h⟩
      intro e2 h
      cases h
      obtain ⟨sel, _, hp⟩ := s1 e hl
      exact Or.inr ⟨_, _, hp⟩
    | ok r =>
      obtain ⟨bl, bi⟩ := r
      simp only
      refine ⟨fun e h => (by split_ifs at h), ?_⟩
      intro len icN icP h
      obtain ⟨_, _, h3⟩ := s2 _ hl
      by_cases hb : bl = 0
      · rw [if_pos hb] at h
        simp only [Except.ok.injEq, Prod.mk.injEq] at h
        exact Or.inl h.1.symm
      · rw [if_neg hb] at h
        simp only [Except.ok.injEq, Prod.mk.injEq] at h
        rcases h3 with h3 | ⟨j, _, _, _, hp, _⟩
        · simp only [Prod.mk.injEq] at h3
          exact absurd h3.1 hb
        · right
          rw [← h.1]
          exact ⟨_, _, hp⟩

theorem considerAbstractionLoop_weak (sh : SymHeap) (U : Finset Int) (size : Int → Nat)
    (hp : ∀ v, sh.pointsTo v ∈ U)
    (hsz : sh.SubObjsBounded size) (fuel : Nat) (hd : ∀ o, size o < fuel)
    (hcard : U.card ≤ fuel) (h31 : 2 * fuel < 2 ^ 31) (kind : EObjKind) :
    ∀ (entries : List Int), (∀ obj ∈ entries, obj ∈ U) → ∀ (best : BestCandidate),
      (best.bestLen = 0 ∨ (best.bestEntry ∈ U ∧ best.bestLen < 2 ^ 31)) →
      (∀ e, considerAbstractionLoop fuel sh kind entries best = .error e → e = .TRAP) ∧
      ∀ r, considerAbstractionLoop fuel sh kind entries best = .ok r →
        r.bestLen = 0 ∨ (r.bestEntry ∈ U ∧ r.bestLen < 2 ^ 31) := by
  intro entries
  induction entries with
  | nil =>
    intro _ best hb
    simp only [considerAbstractionLoop]
    refine ⟨fun e h => (by cases h), ?_⟩
    intro r h
    cases h
    exact hb
  | cons obj rest ih =>
    intro hent best hb
    have ho : obj ∈ U := hent obj (List.mem_cons_self _ _)
    have ih2 := ih (fun o ho => hent o (List.mem_cons_of_mem _ ho))
    simp only [considerAbstractionLoop]
    cases hdig : digAnyListSelectors fuel [] sh obj kind with
    | error e =>
      refine ⟨?_, fun _ h => by cases h⟩
      intro e2 h
      cases h
      exact digAnyListSelectors_err sh size hsz fuel hd obj kind _ hdig
    | ok selectors =>
      simp only
      obtain ⟨d1, d2⟩ := discoverAllSegments_weak fuel sh obj kind selectors
      cases hda : discoverAllSegments fuel sh obj kind selectors [] [] with
      | error e =>
        refine ⟨?_, fun _ h => by cases h⟩
        intro e2 h
        cases h
        rcases d1 e hda with h | ⟨a, b, h⟩
        · exact h
        · exact discoverSeg_err sh U size (fun v _ => hp v) hsz fuel hd hcard obj ho kind a b e h
      | ok r =>
        obtain ⟨len, icN, icP⟩ := r
        simp only
        by_cases hle : len ≤ best.bestLen
        · rw [if_pos hle]
          exact ih2 best hb
        · rw [if_neg hle]
          refine ih2 ⟨len, obj, icN, icP⟩ ?_
          right
          refine ⟨ho, ?_⟩
          rcases d2 len icN icP hda with h | ⟨a, b, h⟩
          · rw [h]
            norm_num
          · exact discoverSeg_len fuel fuel sh obj kind a b len h31 h

theorem considerAbstraction_step (U : Finset Int) (size : Int → Nat)
    (hdel : OBJ_DELETED ∈ U) (fuel : Nat) (hd : ∀ o, size o < fuel) (hcard : U.card ≤ fuel)
    (h31 : 2 * fuel < 2 ^ 31) (sh : SymHeap) (hI : AbsInv U size sh) (kind : EObjKind)
    (entries : List Int) (hent : ∀ obj ∈ entries, obj ∈ U) :
    (∀ e, considerAbstraction fuel sh kind entries = .error e → e ≠ .FUEL) ∧
    ∀ b sh2, considerAbstraction fuel sh kind entries = .ok (b, sh2) →
      (b = false → sh2 = sh) ∧
      (b = true → AbsStep sh sh2 ∧ absMeasure U sh2 < absMeasure U sh) := by
  unfold considerAbstraction
  by_cases hk : kind = EObjKind.OK_CONCRETE
  · rw [if_pos hk]
    exact ⟨fun e h => (by cases h; decide), fun _ _ h => by cases h⟩
  rw [if_neg hk]
  obtain ⟨l1, l2⟩ := considerAbstractionLoop_weak sh U size hI.pointsTo hI.subObjs fuel hd hcard
    h31 kind entries hent ⟨0, 0, [], []⟩ (Or.inl rfl)
  cases hl : considerAbstractionLoop fuel sh kind entries ⟨0, 0, [], []⟩ with
  | error e =>
    refine ⟨?_, fun _ _ h => by cases h⟩
    intro e2 h
    cases h
    rw [l1 _ hl]
    decide
  | ok best =>
    simp only
    by_cases h0 : best.bestLen = 0
    · rw [if_pos h0]
      refine ⟨fun e h => (by cases h), ?_⟩
      intro b sh2 h
      simp only [Except.ok.injEq, Prod.mk.injEq] at h
      obtain ⟨rfl, rfl⟩ := h
      exact ⟨fun _ => rfl, fun h => (by cases h)⟩
    · rw [if_neg h0]
      rcases l2 best hl with h | ⟨hbe, hbl⟩
      · exact absurd h h0
      · exact considerSegAbstraction_step U size hdel fuel hd sh hI best.bestEntry hbe kind
          best.bestNext best.bestPrev best.bestLen hbl

/-- One round of the abstraction: it never runs out of fuel; when it reports `false` the
heap is returned as it was, and when it reports `true` the measure has decreased. -/
theorem abstractIfNeededLoop_step (U : Finset Int) (size : Int → Nat)
    (hdel : OBJ_DELETED ∈ U) (fuel : Nat) (hd : ∀ o, size o < fuel) (hcard : U.card ≤ fuel)
    (h31 : 2 * fuel < 2 ^ 31) (sh : SymHeap) (hI : AbsInv U size sh) :
    (∀ e, abstractIfNeededLoop fuel sh = .error e → e ≠ .FUEL) ∧
    ∀ b sh2, abstractIfNeededLoop fuel sh = .ok (b, sh2) →
      (b = false → sh2 = sh) ∧
      (b = true → AbsStep sh sh2 ∧ absMeasure U sh2 < absMeasure U sh) := by
  unfold abstractIfNeededLoop
  obtain ⟨g1, g2⟩ := gatherEntries_weak sh size hI.subObjs fuel hd sh.gatherRootObjs ([], [])
  cases hg : gatherEntries fuel sh sh.gatherRootObjs ([], []) with
  | error e =>
    refine ⟨?_, fun _ _ h => by cases h⟩
    intro e2 h
    cases h
    rw [g1 _ hg]
    decide
  | ok r =>
    obtain ⟨sl, dl⟩ := r
    obtain ⟨m1, m2⟩ := g2 _ hg
    have hsl : ∀ o ∈ sl, o ∈ U := by
      intro o ho
      rcases m1 o ho with h | h
      · cases h
      · exact hI.roots o h
    have hdl : ∀ o ∈ dl, o ∈ U := by
      intro o ho
      rcases m2 o ho with h | h
      · cases h
      · exact hI.roots o h
    have hdls : (∀ e, (if dl ≠ [] then considerAbstraction fuel sh .OK_DLS dl
          else .ok (false, sh)) = .error e → e ≠ .FUEL) ∧
        ∀ b sh2, (if dl ≠ [] then considerAbstraction fuel sh .OK_DLS dl
          else .ok (false, sh)) = .ok (b, sh2) →
          (b = false → sh2 = sh) ∧
          (b = true → AbsStep sh sh2 ∧ absMeasure U sh2 < absMeasure U sh) := by
      by_cases hne : dl ≠ []
      · rw [if_pos hne]
        exact considerAbstraction_step U size hdel fuel hd hcard h31 sh hI .OK_DLS dl hdl
      · rw [if_neg hne]
        refine ⟨fun e h => (by cases h), ?_⟩
        intro b sh2 h
        simp only [Except.ok.injEq, Prod.mk.injEq] at h
        obtain ⟨rfl, rfl⟩ := h
        exact ⟨fun _ => rfl, fun h => (by cases h)⟩
    have hsls : (∀ e, (if sl ≠ [] then considerAbstraction fuel sh .OK_SLS sl
          else .ok (false, sh)) = .error e → e ≠ .FUEL) ∧
        ∀ b sh2, (if sl ≠ [] then considerAbstraction fuel sh .OK_SLS sl
          else .ok (false, sh)) = .ok (b, sh2) →
          (b = false → sh2 = sh) ∧
          (b = true → AbsStep sh sh2 ∧ absMeasure U sh2 < absMeasure U sh) := by
      by_cases hne : sl ≠ []
      · rw [if_pos hne]
        exact considerAbstraction_step U size hdel fuel hd hcard h31 sh hI .OK_SLS sl hsl
      · rw [if_neg hne]
        refine ⟨fun e h => (by cases h), ?_⟩
        intro b sh2 h
        simp only [Except.ok.injEq, Prod.mk.injEq] at h
        obtain ⟨rfl, rfl⟩ := h
        exact ⟨fun _ => rfl, fun h => (by cases h)⟩
    dsimp only
    obtain ⟨s1, s2⟩ := hsls
    cases hs : (if sl ≠ [] then considerAbstraction fuel sh .OK_SLS sl
          else .ok (false, sh)) with
    | error e =>
      refine ⟨?_, fun _ _ h => by cases h⟩
      intro e2 h
      cases h
      exact s1 _ hs
    | ok r1 =>
      obtain ⟨b1, sh1⟩ := r1
      obtain ⟨t1, t2⟩ := s2 b1 sh1 hs
      cases b1 with
      | true =>
        refine ⟨fun e h => (by cases h), ?_⟩
        intro b sh2 h
        simp only [Except.ok.injEq, Prod.mk.injEq] at h
        obtain ⟨rfl, rfl⟩ := h
        exact ⟨fun h => (by cases h), t2⟩
      | false =>
        have e1 : sh1 = sh := t1 rfl
        subst e1
        simp only
        obtain ⟨d1, d2⟩ := hdls
        cases hdd : (if dl ≠ [] then considerAbstraction fuel sh1 .OK_DLS dl
            else .ok (false, sh1)) with
        | error e =>
          refine ⟨?_, fun _ _ h => by cases h⟩
          intro e2 h
          cases h
          exact d1 _ hdd
        | ok r2 =>
          obtain ⟨b2, sh2⟩ := r2
          obtain ⟨u1, u2⟩ := d2 b2 sh2 hdd
          cases b2 with
          | true =>
            refine ⟨fun e h => (by cases h), ?_⟩
            intro b sh3 h
            simp only [Except.ok.injEq, Prod.mk.injEq] at h
            obtain ⟨rfl, rfl⟩ := h
            exact ⟨fun h => (by cases h), u2⟩
          | false =>
            refine ⟨fun e h => (by cases h), ?_⟩
            intro b sh3 h
            simp only [Except.ok.injEq, Prod.mk.injEq] at h
            obtain ⟨rfl, rfl⟩ := h
            exact ⟨u1, fun h => (by cases h)⟩

/-- The abstraction reaches a fixed point when the counter of rounds is at least the
measure of the heap. -/
theorem abstractIfNeeded_measure (U : Finset Int) (size : Int → Nat)
    (hdel : OBJ_DELETED ∈ U) (fuel : Nat) (hd : ∀ o, size o < fuel) (hcard : U.card ≤ fuel)
    (h31 : 2 * fuel < 2 ^ 31) :
    ∀ (n : Nat) (sh : SymHeap), AbsInv U size sh → absMeasure U sh ≤ n →
      (∃ e, abstractIfNeeded fuel n sh = .error e ∧ e ≠ .FUEL) ∨
      ∃ sh2, abstractIfNeeded fuel n sh = .ok sh2 ∧
        abstractIfNeededLoop fuel sh2 = .ok (false, sh2) := by
  intro n
  induction n with
  | zero =>
    intro sh hI hm
    obtain ⟨r1, r2⟩ := abstractIfNeededLoop_step U size hdel fuel hd hcard h31 sh hI
    cases hl : abstractIfNeededLoop fuel sh with
    | error e =>
      left
      refine ⟨e, ?_, r1 e hl⟩
      unfold abstractIfNeeded
      rw [hl]
    | ok r =>
      obtain ⟨b, sh1⟩ := r
      obtain ⟨t1, t2⟩ := r2 b sh1 hl
      cases b with
      | true =>
        have := (t2 rfl).2
        omega
      | false =>
        have e1 : sh1 = sh := t1 rfl
        subst e1
        right
        exact ⟨sh1, abstractIfNeeded_false fuel 0 sh1 hl, hl⟩
  | succ n ih =>
    intro sh hI hm
    obtain ⟨r1, r2⟩ := abstractIfNeededLoop_step U size hdel fuel hd hcard h31 sh hI
    cases hl : abstractIfNeededLoop fuel sh with
    | error e =>
      left
      refine ⟨e, ?_, r1 e hl⟩
      unfold abstractIfNeeded
      rw [hl]
    | ok r =>
      obtain ⟨b, sh1⟩ := r
      obtain ⟨t1, t2⟩ := r2 b sh1 hl
      cases b with
      | true =>
        obtain ⟨hs, hlt⟩ := t2 rfl
        rw [abstractIfNeeded_true fuel n sh sh1 hl]
        exact ih sh1 (hs.inv U size hdel hI) (by omega)
      | false =>
        have e1 : sh1 = sh := t1 rfl
        subst e1
        right
        exact ⟨sh1, abstractIfNeeded_false fuel (n + 1) sh1 hl, hl⟩


/-- C24: the abstraction reaches a fixed point.  Let the heap be finite: a finite set `U`
of at most `fuel` objects holds the roots, `OBJ_DELETED` and every object that a value
points to (the sentinels that `pointsTo` returns included), and the trees of sub-objects
are bounded by `size`, below `fuel`; let the identifiers fit their 32-bit type
(`2 * fuel < 2^31`).  With `3 * |U|` rounds at its disposal, `abstractIfNeeded` never runs
out of rounds or of depth: either it stops on an internal failure (a `TRAP`, or the
insertion of `neq(v, v)`), or it returns a heap on which a further call of
`abstractIfNeededLoop` returns `false` and that very heap, so that neither an SLS candidate
nor a DLS candidate passes the threshold. -/
theorem abstractIfNeeded_fixed_point (sh : SymHeap) (U : Finset Int) (size : Int → Nat)
    (fuel n : Nat) (hsz : sh.SubObjsBounded size) (hd : ∀ o, size o < fuel)
    (hpt : ∀ v, sh.pointsTo v ∈ U) (hroots : ∀ o ∈ sh.gatherRootObjs, o ∈ U)
    (hdel : OBJ_DELETED ∈ U) (hcard : U.card ≤ fuel) (h31 : 2 * fuel < 2 ^ 31)
    (hn : 3 * U.card ≤ n) :
    (∃ e, abstractIfNeeded fuel n sh = .error e ∧ e ≠ .FUEL) ∨
    ∃ sh2, abstractIfNeeded fuel n sh = .ok sh2 ∧
      abstractIfNeededLoop fuel sh2 = .ok (false, sh2) :=
  abstractIfNeeded_measure U size hdel fuel hd hcard h31 n sh ⟨hsz, hpt, hroots⟩
    (le_trans (absMeasure_le U sh) hn)

theorem sllHeap3_pointsTo_all (v : Int) :
    (sllHeap 3).pointsTo v ∈ ({-2, -1, 1, 2, 3, 4, 5, 6, 7} : Finset Int) := by
  simp only [sllHeap]
  split_ifs with h1
  · simp only [Finset.mem_insert, Finset.mem_singleton]
    push_cast at h1
    omega
  · simp [OBJ_INVALID]

theorem sllHeap3_roots (o : Int) (h : o ∈ (sllHeap 3).gatherRootObjs) :
    o ∈ ({-2, -1, 1, 2, 3, 4, 5, 6, 7} : Finset Int) := by
  have e : (sllHeap 3).gatherRootObjs = [1, 2, 4, 6] := by decide
  rw [e] at h
  simp only [List.mem_cons, List.mem_singleton, List.not_mem_nil, or_false] at h
  simp only [Finset.mem_insert, Finset.mem_singleton]
  omega

theorem sllHeap_size9 (o : Int) : (if o % 2 = 0 then 1 else 0) < 9 := by
  split_ifs <;> omega

/-- Witness of C24: the list of three nodes. -/
theorem abstractIfNeeded_fixed_point_witness :
    (∃ e, abstractIfNeeded 9 27 (sllHeap 3) = .error e ∧ e ≠ .FUEL) ∨
    ∃ sh2, abstractIfNeeded 9 27 (sllHeap 3) = .ok sh2 ∧
      abstractIfNeededLoop 9 sh2 = .ok (false, sh2) :=
  abstractIfNeeded_fixed_point (sllHeap 3) {-2, -1, 1, 2, 3, 4, 5, 6, 7}
    (fun o => if o % 2 = 0 then 1 else 0) 9 27 (sllHeap_subObjs 3) sllHeap_size9
    sllHeap3_pointsTo_all sllHeap3_roots (by decide) (by decide) (by norm_num) (by decide)

/-! ## Backward shape inference (C31) -/

theorem detectPrevShapesLoop_selfLoop (fuel : Nat) :
    detectPrevShapesLoop nodeShape (Later.nodeHeap 0) 5 fuel selfLoopState 5 (0, 0) false =
      .error .FUEL := by
  induction fuel with
  | zero => rfl
  | succ fuel ih =>
    have step : detectPrevShapesLoop nodeShape (Later.nodeHeap 0) 5 (fuel + 1) selfLoopState 5
        (0, 0) false =
        detectPrevShapesLoop nodeShape (Later.nodeHeap 0) 5 fuel selfLoopState 5 (0, 0) false :=
      rfl
    rw [step]
    exact ih

/-- C31, failing input: the global state `selfLoopState` of one location with a
control-flow edge to itself, which `createTraceEdges` makes of `selfLoopState0`: the trace
node of the only heap is indexed as a node of a preceding location, so the single incoming
trace edge of the heap originates at the heap itself.  On this state `detectPrevShapes`
runs out of fuel whatever the fuel is: each iteration of its loop follows the trace edge
from the heap to the heap, maps the object `5` to itself, finds the implied shape among the
shapes of the heap already, and continues. -/
theorem detectPrevShapes_self_edge_diverges :
    createTraceEdges 1 idTraceGraph selfLoopState0 = .ok selfLoopState ∧
    ∀ fuel, detectPrevShapes fuel selfLoopState 0 0 0 = .error .FUEL := by
  refine ⟨rfl, ?_⟩
  intro fuel
  have h : detectPrevShapes fuel selfLoopState 0 0 0 =
      detectPrevShapesLoop nodeShape (Later.nodeHeap 0) 5 fuel selfLoopState 5 (0, 0) false :=
    rfl
  rw [h]
  exact detectPrevShapesLoop_selfLoop fuel


/-! ## The control-flow edges of the locations (`loadHeaps`, `finalizeFlow`) -/

/-- The in-edge that mirrors the out-edge `oe` of the location `srcIdx`. -/
theorem mirrorOutEdges_spec (srcIdx : TLocIdx) (es : List CfgEdge) (L L2 : TStateList)
    (h : mirrorOutEdges srcIdx es L = .ok L2) :
    L2.length = L.length ∧
    ∀ (d : Nat) ld, L[d]? = some ld →
      L2[d]? = some
        { ld with
          cfgInEdges := ld.cfgInEdges ++
                          (es.filter fun oe => decide (oe.targetLoc = (d : Int))).map
                            (fun oe => { oe with targetLoc := srcIdx }) } := by
  induction es generalizing L with
  | nil =>
    simp only [mirrorOutEdges, Except.ok.injEq] at h
    subst h
    refine ⟨rfl, fun d ld hd => ?_⟩
    simp [hd]
  | cons oe rest ih =>
    unfold mirrorOutEdges at h
    simp only at h
    split at h
    · cases h
    · rename_i hneg
      split at h
      · cases h
      · rename_i dstState hdst
        rw [List.get?_eq_getElem?] at hdst
        obtain ⟨hlen, hrest⟩ := ih _ h
        refine ⟨by rw [hlen, List.length_set], fun d ld hd => ?_⟩
        have hnn : (0 : Int) ≤ oe.targetLoc := not_lt.mp hneg
        by_cases hdd : oe.targetLoc = (d : Int)
        · have hto : oe.targetLoc.toNat = d := by
            rw [hdd]
            exact Int.toNat_ofNat d
          rw [hto] at hdst
          rw [hd] at hdst
          cases hdst
          have hlt : d < L.length := by
            rcases List.getElem?_eq_some.mp hd with ⟨hl, _⟩
            exact hl
          have h2 := hrest d _ (by rw [hto, List.getElem?_set_self hlt])
          rw [h2]
          simp [List.filter_cons, hdd]
        · have hto : oe.targetLoc.toNat ≠ d := fun hc =>
            hdd (by rw [← hc]; exact (Int.toNat_of_nonneg hnn).symm)
          have h2 := hrest d ld (by rw [List.getElem?_set_ne hto]; exact hd)
          rw [h2]
          simp [List.filter_cons, hdd]

theorem finalizeInEdges_spec (n : Nat) : ∀ (k : Nat) (L L2 : TStateList),
    finalizeInEdges n k L = .ok L2 →
    L2.length = L.length ∧
    ∀ (d : Nat) ld, L[d]? = some ld → ∃ ld2, L2[d]? = some ld2 ∧
      ld2.insn = ld.insn ∧ ld2.heapList = ld.heapList ∧ ld2.cfgOutEdges = ld.cfgOutEdges ∧
      ld2.traceInEdges = ld.traceInEdges ∧ ld2.traceOutEdges = ld.traceOutEdges ∧
      ld2.shapeListByHeapIdx = ld.shapeListByHeapIdx ∧
      ∀ (s : Nat) ls, L[s]? = some ls →
        ((ld2.cfgInEdges.filter fun e => decide (e.targetLoc = (s : Int))).map
            fun e => e.closesLoop) =
          ((ld.cfgInEdges.filter fun e => decide (e.targetLoc = (s : Int))).map
            fun e => e.closesLoop) ++
          if k ≤ s ∧ s < k + n then
            (ls.cfgOutEdges.filter fun e => decide (e.targetLoc = (d : Int))).map
              fun e => e.closesLoop
          else [] := by
  induction n with
  | zero =>
    intro k L L2 h
    simp only [finalizeInEdges, Except.ok.injEq] at h
    subst h
    refine ⟨rfl, fun d ld hd => ⟨ld, hd, rfl, rfl, rfl, rfl, rfl, rfl, fun s ls _ => ?_⟩⟩
    rw [if_neg (by omega)]
    simp
  | succ n ih =>
    intro k L L2 h
    unfold finalizeInEdges at h
    split at h
    · cases h
    · rename_i srcState hsrc
      rw [List.get?_eq_getElem?] at hsrc
      split at h
      · cases h
      · rename_i L1 hm
        obtain ⟨hlen1, hmir⟩ := mirrorOutEdges_spec _ _ _ _ hm
        obtain ⟨hlen2, hrest⟩ := ih _ _ _ h
        refine ⟨by rw [hlen2, hlen1], fun d ld hd => ?_⟩
        obtain ⟨ld2, hd2, e1, e2, e3, e4, e5, e6, hin⟩ := hrest d _ (hmir d ld hd)
        refine ⟨ld2, hd2, e1, e2, e3, e4, e5, e6, fun s ls hs => ?_⟩
        have h3 := hin s _ (hmir s ls hs)
        rw [h3]
        simp only [List.filter_append, List.map_append, List.append_assoc, List.filter_map,
          List.map_map]
        congr 1
        by_cases hsk : s = k
        · subst hsk
          rw [hsrc] at hs
          cases hs
          rw [if_neg (by omega), if_pos (by omega), List.append_nil]
          have hf : (List.filter ((fun e => decide (e.targetLoc = (s : Int))) ∘
              fun oe : CfgEdge => { oe with targetLoc := (s : Int) })
              (List.filter (fun oe => decide (oe.targetLoc = (d : Int))) srcState.cfgOutEdges)) =
              List.filter (fun oe => decide (oe.targetLoc = (d : Int))) srcState.cfgOutEdges := by
            apply List.filter_eq_self.mpr
            intro a _
            simp
          rw [hf]
          rfl
        · have hf : (List.filter ((fun e => decide (e.targetLoc = (s : Int))) ∘
              fun oe : CfgEdge => { oe with targetLoc := (k : Int) })
              (List.filter (fun oe => decide (oe.targetLoc = (d : Int))) srcState.cfgOutEdges)) =
              [] := by
            apply List.filter_eq_nil_iff.mpr
            intro a _
            simp only [Function.comp_apply, decide_eq_true_eq]
            omega
          rw [hf, List.map_nil, List.nil_append]
          by_cases hr : k + 1 ≤ s ∧ s < k + 1 + n
          · rw [if_pos hr, if_pos (by omega)]
          · rw [if_neg hr, if_neg (by omega)]

theorem finalizeTargets_spec (fuel : Nat) (fnc : Fnc) (lk : TInsnLookup) (ts : List TBlock) :
    ∀ (edges es : List CfgEdge), finalizeTargets fuel fnc lk ts edges = .ok es →
    ∃ new, es = edges ++ new ∧ new.length = ts.length ∧ ∀ e ∈ new, e.closesLoop = false := by
  induction ts with
  | nil =>
    intro edges es h
    simp only [finalizeTargets, Except.ok.injEq] at h
    subst h
    exact ⟨[], by simp, rfl, fun e he => by cases he⟩
  | cons bb rest ih =>
    intro edges es h
    unfold finalizeTargets at h
    split at h
    · cases h
    · split at h
      · cases h
      · split at h
        · cases h
        · rename_i dstIdx _
          obtain ⟨new, h1, h2, h3⟩ := ih _ _ h
          refine ⟨⟨dstIdx, false⟩ :: new, by rw [h1]; simp, by simp [h2], ?_⟩
          intro e he
          rcases List.mem_cons.mp he with he | he
          · rw [he]
          · exact h3 e he

theorem tagLoopClosing_spec (ks : List Nat) :
    ∀ (edges es : List CfgEdge), tagLoopClosing ks edges = .ok es →
    es.length = edges.length ∧
    ∀ (k : Nat) e0, edges[k]? = some e0 → ∃ e, es[k]? = some e ∧ e.targetLoc = e0.targetLoc ∧
      (e.closesLoop = true ↔ e0.closesLoop = true ∨ k ∈ ks) := by
  induction ks with
  | nil =>
    intro edges es h
    simp only [tagLoopClosing, Except.ok.injEq] at h
    subst h
    exact ⟨rfl, fun k e0 hk => ⟨e0, hk, rfl, by simp⟩⟩
  | cons tgIdx rest ih =>
    intro edges es h
    unfold tagLoopClosing at h
    split at h
    · cases h
    · rename_i e1 he1
      rw [List.get?_eq_getElem?] at he1
      obtain ⟨hlen, hr⟩ := ih _ _ h
      refine ⟨by rw [hlen, List.length_set], fun k e0 hk => ?_⟩
      by_cases hkt : tgIdx = k
      · subst hkt
        rw [he1] at hk
        cases hk
        have hlt : tgIdx < edges.length := by
          rcases List.getElem?_eq_some.mp he1 with ⟨hl, _⟩
          exact hl
        obtain ⟨e, h1, h2, h3⟩ := hr tgIdx _ (List.getElem?_set_self hlt)
        exact ⟨e, h1, h2, by rw [h3]; simp⟩
      · obtain ⟨e, h1, h2, h3⟩ := hr k e0 (by rw [List.getElem?_set_ne hkt]; exact hk)
        refine ⟨e, h1, h2, ?_⟩
        rw [h3, List.mem_cons]
        constructor
        · rintro (h | h)
          · exact Or.inl h
          · exact Or.inr (Or.inr h)
        · rintro (h | h | h)
          · exact Or.inl h
          · exact absurd h.symm hkt
          · exact Or.inr h

theorem finalizeOutEdges_spec (fuel : Nat) (fnc : Fnc) (lk : TInsnLookup) (n : Nat) :
    ∀ (k : Nat) (L L2 : TStateList), finalizeOutEdges fuel fnc lk n k L = .ok L2 →
    L2.length = L.length ∧
    ∀ (i : Nat) li, L[i]? = some li → ∃ li2, L2[i]? = some li2 ∧
      li2.insn = li.insn ∧ li2.heapList = li.heapList ∧ li2.cfgInEdges = li.cfgInEdges ∧
      li2.traceInEdges = li.traceInEdges ∧ li2.traceOutEdges = li.traceOutEdges ∧
      li2.shapeListByHeapIdx = li.shapeListByHeapIdx ∧
      ((li.cfgOutEdges ≠ [] ∨ ¬(k ≤ i ∧ i < k + n)) → li2.cfgOutEdges = li.cfgOutEdges) ∧
      (li.cfgOutEdges = [] → k ≤ i → i < k + n →
        ∃ termId term, fnc.back li.insn.1 = .ok termId ∧ fnc.insn termId = some term ∧
          cl_is_term_insn term.code = true ∧
          li2.cfgOutEdges.length = term.targets.length ∧
          ∀ (j : Nat) e, li2.cfgOutEdges[j]? = some e →
            (e.closesLoop = true ↔ j ∈ term.loopClosingTargets)) := by
  induction n with
  | zero =>
    intro k L L2 h
    simp only [finalizeOutEdges, Except.ok.injEq] at h
    subst h
    exact ⟨rfl, fun i li hi => ⟨li, hi, rfl, rfl, rfl, rfl, rfl, rfl, fun _ => rfl,
      fun _ h1 h2 => by omega⟩⟩
  | succ n ih =>
    intro k L L2 h
    unfold finalizeOutEdges at h
    split at h
    · cases h
    · rename_i locState hloc
      rw [List.get?_eq_getElem?] at hloc
      split at h
      · cases h
      · rename_i insn _
        split at h
        · rename_i hne
          split at h
          · cases h
          · obtain ⟨hlen, hr⟩ := ih _ _ _ h
            refine ⟨hlen, fun i li hi => ?_⟩
            obtain ⟨li2, h1, e1, e2, e3, e4, e5, e6, h7, h8⟩ := hr i li hi
            refine ⟨li2, h1, e1, e2, e3, e4, e5, e6, ?_, ?_⟩
            · rintro (hc | hc)
              · exact h7 (Or.inl hc)
              · by_cases hik : i = k
                · subst hik
                  exact h7 (Or.inr (by omega))
                · exact h7 (Or.inr (by omega))
            · intro hc hki hlt
              by_cases hik : i = k
              · subst hik
                rw [hloc] at hi
                cases hi
                rw [hc] at hne
                simp at hne
              · exact h8 hc (by omega) (by omega)
        · rename_i hemp
          have hemp2 : locState.cfgOutEdges = [] := by
            cases hc : locState.cfgOutEdges with
            | nil => rfl
            | cons a b => rw [hc] at hemp; simp at hemp
          split at h
          · cases h
          · rename_i termId hback
            split at h
            · cases h
            · rename_i term hterm
              split at h
              · cases h
              · rename_i hist
                split at h
                · cases h
                · rename_i edges hft
                  split at h
                  · cases h
                  · rename_i edges1 htag
                    have hlt : k < L.length := by
                      rcases List.getElem?_eq_some.mp hloc with ⟨hl, _⟩
                      exact hl
                    obtain ⟨hlen, hr⟩ := ih _ _ _ h
                    refine ⟨by rw [hlen, List.length_set], fun i li hi => ?_⟩
                    by_cases hik : i = k
                    · subst hik
                      rw [hloc] at hi
                      cases hi
                      obtain ⟨li2, h1, e1, e2, e3, e4, e5, e6, h7, _⟩ :=
                        hr i _ (List.getElem?_set_self hlt)
                      have h9 := h7 (Or.inr (by omega))
                      simp only at e1 e2 e3 e4 e5 e6 h9
                      refine ⟨li2, h1, e1, e2, e3, e4, e5, e6, ?_, ?_⟩
                      · rintro (hc | hc)
                        · exact absurd hemp2 hc
                        · exact absurd (by omega) hc
                      · intro _ _ _
                        obtain ⟨new, hn1, hn2, hn3⟩ := finalizeTargets_spec _ _ _ _ _ _ hft
                        obtain ⟨ht1, ht2⟩ := tagLoopClosing_spec _ _ _ htag
                        rw [hemp2, List.nil_append] at hn1
                        subst hn1
                        refine ⟨termId, term, hback, hterm, by simpa using hist, ?_, ?_⟩
                        · rw [h9, ht1, hn2]
                        · intro j e hj
                          rw [h9] at hj
                          have hjl : j < edges.length := by
                            rcases List.getElem?_eq_some.mp hj with ⟨hl, _⟩
                            rw [ht1] at hl
                            exact hl
                          obtain ⟨e2, hh1, _, hh3⟩ := ht2 j _ (List.getElem?_eq_getElem hjl)
                          rw [hj] at hh1
                          cases hh1
                          rw [hh3, hn3 _ (List.getElem_mem hjl)]
                          simp
                    · have hki : k ≠ i := fun hc => hik hc.symm
                      obtain ⟨li2, h1, e1, e2, e3, e4, e5, e6, h7, h8⟩ :=
                        hr i li (by rw [List.getElem?_set_ne hki]; exact hi)
                      refine ⟨li2, h1, e1, e2, e3, e4, e5, e6, ?_, ?_⟩
                      · rintro (hc | hc)
                        · exact h7 (Or.inl hc)
                        · exact h7 (Or.inr (by omega))
                      · intro hc h1 h2
                        exact h8 hc (by omega) (by omega)

theorem mem_of_getElem?_some {α : Type} (l : List α) (i : Nat) (a : α) (h : l[i]? = some a) :
    a ∈ l :=
  List.mem_iff_getElem?.mpr ⟨i, h⟩

theorem loadHeapsInsns_inv (stateMap : TStateMap) (bb : TBlock) (insns : List Insn) :
    ∀ (insnIdx : Nat) (st st2 : LoadState),
    loadHeapsInsns stateMap bb insns insnIdx st = .ok st2 →
    (∀ ls ∈ st.stateList, ls.cfgInEdges = [] ∧ ∀ e ∈ ls.cfgOutEdges, e.closesLoop = false) →
    ∀ ls ∈ st2.stateList, ls.cfgInEdges = [] ∧ ∀ e ∈ ls.cfgOutEdges, e.closesLoop = false := by
  induction insns with
  | nil =>
    intro insnIdx st st2 h hinv
    simp only [loadHeapsInsns, Except.ok.injEq] at h
    subst h
    exact hinv
  | cons insn rest ih =>
    intro insnIdx st st2 h hinv
    unfold loadHeapsInsns at h
    simp only at h
    split at h
    · exact ih _ _ _ h hinv
    · split at h
      · cases h
      · rename_i list1 hl
        refine ih _ _ _ h ?_
        have hl1 : ∀ ls ∈ list1,
            ls.cfgInEdges = [] ∧ ∀ e ∈ ls.cfgOutEdges, e.closesLoop = false := by
          split at hl
          · split at hl
            · cases hl
            · rename_i prev _
              split at hl
              · cases hl
              · rename_i ls0 hls0
                simp only [Except.ok.injEq] at hl
                subst hl
                intro ls hls
                have hm0 : ls0 ∈ st.stateList := mem_of_getElem?_some _ _ _ (by rw [← List.get?_eq_getElem?]; exact hls0)
                rcases List.mem_or_eq_of_mem_set hls with hm | hm
                · exact hinv ls hm
                · subst hm
                  refine ⟨(hinv ls0 hm0).1, fun e he => ?_⟩
                  rcases List.mem_append.mp he with he | he
                  · exact (hinv ls0 hm0).2 e he
                  · rw [List.mem_singleton] at he
                    rw [he]
          · simp only [Except.ok.injEq] at hl
            subst hl
            exact hinv
        intro ls hls
        rcases List.mem_append.mp hls with hm | hm
        · exact hl1 ls hm
        · rw [List.mem_singleton] at hm
          subst hm
          exact ⟨rfl, fun e he => by cases he⟩

theorem loadHeapsLoop_inv (fnc : Fnc) (stateMap : TStateMap) (fuel : Nat) :
    ∀ (st st2 : LoadState), loadHeapsLoop fnc stateMap fuel st = .ok st2 →
    (∀ ls ∈ st.stateList, ls.cfgInEdges = [] ∧ ∀ e ∈ ls.cfgOutEdges, e.closesLoop = false) →
    ∀ ls ∈ st2.stateList, ls.cfgInEdges = [] ∧ ∀ e ∈ ls.cfgOutEdges, e.closesLoop = false := by
  induction fuel with
  | zero =>
    intro st st2 h hinv
    unfold loadHeapsLoop at h
    split at h
    · simp only [Except.ok.injEq] at h
      subst h
      exact hinv
    · cases h
  | succ fuel ih =>
    intro st st2 h hinv
    unfold loadHeapsLoop at h
    split at h
    · simp only [Except.ok.injEq] at h
      subst h
      exact hinv
    · split at h
      · cases h
      · split at h
        · cases h
        · rename_i st1 hst1
          exact ih _ _ h (loadHeapsInsns_inv _ _ _ _ _ _ hst1 hinv)

theorem loadHeaps_inv (fuel : Nat) (fnc : Fnc) (stateMap : TStateMap) (sl : TStateList)
    (lk : TInsnLookup) (h : loadHeaps fuel fnc stateMap = .ok (sl, lk)) :
    ∀ ls ∈ sl, ls.cfgInEdges = [] ∧ ∀ e ∈ ls.cfgOutEdges, e.closesLoop = false := by
  unfold loadHeaps at h
  simp only at h
  split at h
  · cases h
  · rename_i st hst
    simp only [Except.ok.injEq, Prod.mk.injEq] at h
    obtain ⟨h1, _⟩ := h
    subst h1
    exact loadHeapsLoop_inv _ _ _ _ _ hst (fun ls hls => by cases hls)

/-- C36: the in-edges of the control-flow graph of locations mirror its out-edges.  Let
`loadHeaps` build the list of locations `sl` and `finalizeFlow` complete it to `sl2`.  Then
for all locations `s` and `d`, the closes-loop flags of the in-edges of `d` whose source
is `s` are, in order, the closes-loop flags of the out-edges of `s` whose target is `d`; in
particular there are as many of the former as of the latter.  The out-edge of a location
that `loadHeaps` connected to the next instruction of its block is kept and is not flagged.
The out-edges of any other location are the edges to the targets of the terminal
instruction of its block, one per target, and the `j`-th of them is flagged as closing a
loop exactly when `j` is listed in `loopClosingTargets` of the terminal instruction. -/
theorem finalizeFlow_mirrors (fuel fuel2 : Nat) (fnc : Fnc) (stateMap : TStateMap)
    (sl sl2 : TStateList) (lk : TInsnLookup)
    (h1 : loadHeaps fuel fnc stateMap = .ok (sl, lk))
    (h2 : finalizeFlow fuel2 fnc sl lk = .ok sl2) :
    sl2.length = sl.length ∧
    (∀ (s d : Nat) ls ld, sl2[s]? = some ls → sl2[d]? = some ld →
      ((ld.cfgInEdges.filter fun e => decide (e.targetLoc = (s : Int))).map
          fun e => e.closesLoop) =
        ((ls.cfgOutEdges.filter fun e => decide (e.targetLoc = (d : Int))).map
          fun e => e.closesLoop) ∧
      (ld.cfgInEdges.filter fun e => decide (e.targetLoc = (s : Int))).length =
        (ls.cfgOutEdges.filter fun e => decide (e.targetLoc = (d : Int))).length) ∧
    (∀ (s : Nat) ls0 ls, sl[s]? = some ls0 → sl2[s]? = some ls →
      (ls0.cfgOutEdges ≠ [] →
        ls.cfgOutEdges = ls0.cfgOutEdges ∧ ∀ e ∈ ls.cfgOutEdges, e.closesLoop = false) ∧
      (ls0.cfgOutEdges = [] →
        ∃ termId term, fnc.back ls.insn.1 = .ok termId ∧ fnc.insn termId = some term ∧
          cl_is_term_insn term.code = true ∧
          ls.cfgOutEdges.length = term.targets.length ∧
          ∀ (j : Nat) e, ls.cfgOutEdges[j]? = some e →
            (e.closesLoop = true ↔ j ∈ term.loopClosingTargets))) := by
  have hinv := loadHeaps_inv _ _ _ _ _ h1
  unfold finalizeFlow at h2
  simp only at h2
  split at h2
  · cases h2
  · rename_i L1 hout
    obtain ⟨hlen1, hO⟩ := finalizeOutEdges_spec _ _ _ _ _ _ _ hout
    obtain ⟨hlen2, hI⟩ := finalizeInEdges_spec _ _ _ _ h2
    have hget : ∀ (i : Nat) li2, sl2[i]? = some li2 → ∃ li0 li1, sl[i]? = some li0 ∧
        L1[i]? = some li1 := by
      intro i li2 hi
      have hlt : i < sl2.length := by
        rcases List.getElem?_eq_some.mp hi with ⟨hl, _⟩
        exact hl
      exact ⟨_, _, List.getElem?_eq_getElem (by omega), List.getElem?_eq_getElem (by omega)⟩
    refine ⟨by rw [hlen2, hlen1], ?_, ?_⟩
    · intro s d ls ld hs hd
      obtain ⟨ls0, ls1, hs0, hs1⟩ := hget s ls hs
      obtain ⟨ld0, ld1, hd0, hd1⟩ := hget d ld hd
      have hslt : s < sl.length := by
        rcases List.getElem?_eq_some.mp hs0 with ⟨hl, _⟩
        exact hl
      obtain ⟨ld2, hd2, _, _, _, _, _, _, hin⟩ := hI d ld1 hd1
      rw [hd] at hd2
      cases hd2
      obtain ⟨ls2, hs2, _, _, eo, _, _, _, _⟩ := hI s ls1 hs1
      rw [hs] at hs2
      cases hs2
      obtain ⟨ld1b, hd1b, _, _, ein, _⟩ := hO d ld0 hd0
      rw [hd1] at hd1b
      cases hd1b
      have h3 := hin s ls1 hs1
      rw [ein, (hinv ld0 (mem_of_getElem?_some _ _ _ hd0)).1, if_pos ⟨Nat.zero_le _, by omega⟩,
        ← eo] at h3
      simp only [List.filter_nil, List.map_nil, List.nil_append] at h3
      refine ⟨h3, ?_⟩
      have h4 := congrArg List.length h3
      simpa using h4
    · intro s ls0 ls hs0 hs
      obtain ⟨ls0b, ls1, hs0b, hs1⟩ := hget s ls hs
      rw [hs0] at hs0b
      cases hs0b
      have hslt : s < sl.length := by
        rcases List.getElem?_eq_some.mp hs0 with ⟨hl, _⟩
        exact hl
      obtain ⟨ls2, hs2, ei, _, eo, _, _, _, _⟩ := hI s ls1 hs1
      rw [hs] at hs2
      cases hs2
      obtain ⟨ls1b, hs1b, ei1, _, _, _, _, _, h7, h8⟩ := hO s ls0 hs0
      rw [hs1] at hs1b
      cases hs1b
      constructor
      · intro hne
        have h9 := h7 (Or.inl hne)
        rw [eo, h9]
        exact ⟨rfl, (hinv ls0 (mem_of_getElem?_some _ _ _ hs0)).2⟩
      · intro hemp
        obtain ⟨termId, term, hb, ht, hc, hl, hj⟩ := h8 hemp (Nat.zero_le _) (by omega)
        rw [eo, ei, ei1]
        exact ⟨termId, term, hb, ht, hc, hl, hj⟩

/-- Witness of `finalizeFlow_mirrors`: the locations of `whileLoopFnc`.  The location `2`,
the last instruction of the loop body, has a flagged out-edge to the location `1`, the head
of the loop, and an out-edge to the location `3`; the location `1` has in-edges from the
locations `0` and `2`, the latter flagged. -/
theorem finalizeFlow_mirrors_witness :
    ∃ sl lk sl2,
      loadHeaps 5 whileLoopFnc (fun _ => none) = .ok (sl, lk) ∧
      finalizeFlow 5 whileLoopFnc sl lk = .ok sl2 ∧
      sl2.map (fun ls => (ls.cfgInEdges, ls.cfgOutEdges)) =
        [([], [⟨1, false⟩]), ([⟨0, false⟩, ⟨2, true⟩], [⟨2, false⟩]),
         ([⟨1, false⟩], [⟨1, true⟩, ⟨3, false⟩]), ([⟨2, false⟩], [])] ∧
      sl2.length = sl.length ∧
      (∀ (s d : Nat) ls ld, sl2[s]? = some ls → sl2[d]? = some ld →
        ((ld.cfgInEdges.filter fun e => decide (e.targetLoc = (s : Int))).map
            fun e => e.closesLoop) =
          ((ls.cfgOutEdges.filter fun e => decide (e.targetLoc = (d : Int))).map
            fun e => e.closesLoop) ∧
        (ld.cfgInEdges.filter fun e => decide (e.targetLoc = (s : Int))).length =
          (ls.cfgOutEdges.filter fun e => decide (e.targetLoc = (d : Int))).length) ∧
      (∀ (s : Nat) ls0 ls, sl[s]? = some ls0 → sl2[s]? = some ls →
        (ls0.cfgOutEdges ≠ [] →
          ls.cfgOutEdges = ls0.cfgOutEdges ∧ ∀ e ∈ ls.cfgOutEdges, e.closesLoop = false) ∧
        (ls0.cfgOutEdges = [] →
          ∃ termId term, whileLoopFnc.back ls.insn.1 = .ok termId ∧
            whileLoopFnc.insn termId = some term ∧
            cl_is_term_insn term.code = true ∧
            ls.cfgOutEdges.length = term.targets.length ∧
            ∀ (j : Nat) e, ls.cfgOutEdges[j]? = some e →
              (e.closesLoop = true ↔ j ∈ term.loopClosingTargets))) :=
  ⟨_, _, _, rfl, rfl, rfl,
    finalizeFlow_mirrors 5 5 whileLoopFnc (fun _ => none) _ _ _ rfl rfl⟩


/-! ## Trace edges (`createTraceEdges`) -/

theorem traceLookupSet_lookup (lookup : TLookup) (tr : TNode) (id : THeapIdent) (m : TNode) :
    (traceLookupSet lookup tr id).lookup m = if m = tr then some id else lookup.lookup m := by
  unfold traceLookupSet
  split
  · rename_i hsome
    induction lookup with
    | nil => simp at hsome
    | cons p rest ih =>
      obtain ⟨k, v⟩ := p
      simp only [List.map_cons]
      by_cases hk : k = tr
      · subst hk
        simp only [if_true]
        by_cases hm : m = k
        · subst hm
          simp [List.lookup_cons]
        · have hb : (m == k) = false := by simpa using hm
          rw [if_neg hm, List.lookup_cons, hb, List.lookup_cons, hb]
          simp only
          by_cases hr : (List.lookup k rest).isSome = true
          · rw [ih hr, if_neg hm]
          · have hnone : List.lookup k rest = none := Option.not_isSome_iff_eq_none.mp hr
            have : ∀ q ∈ rest, q.1 ≠ k := by
              intro q hq hqk
              have := List.lookup_eq_none_iff.mp hnone q hq
              simp [hqk] at this
            have hmap : List.map (fun p => if p.1 = k then (p.1, id) else p) rest = rest := by
              conv_rhs => rw [← List.map_id rest]
              apply List.map_congr_left
              intro q hq
              rw [if_neg (this q hq)]
              rfl
            rw [hmap]
      · rw [if_neg hk]
        have hb : (tr == k) = false := by
          simpa using fun h : tr = k => hk h.symm
        rw [List.lookup_cons, hb] at hsome
        simp only at hsome
        rw [List.lookup_cons, List.lookup_cons, ih hsome]
        by_cases hm : m = tr
        · subst hm
          rw [hb]
        · rw [if_neg hm, if_neg hm]
  · rename_i hnone
    have hn : List.lookup tr lookup = none := Option.not_isSome_iff_eq_none.mp hnone
    by_cases hm : m = tr
    · subst hm
      rw [if_pos rfl, List.lookup_append, hn]
      simp [List.lookup_cons]
    · rw [if_neg hm, List.lookup_append]
      have hb : (m == tr) = false := by simpa using hm
      cases hl : List.lookup m lookup with
      | none => simp [List.lookup_cons, hb]
      | some v => simp

theorem indexTraceHeaps_spec (locIdx : TLocIdx) (heaps : List Later.SymHeap) :
    ∀ (shIdx : Nat) (lk lk2 : TLookup), indexTraceHeaps locIdx heaps shIdx lk = .ok lk2 →
    (∀ m id, lk.lookup m = some id → lk2.lookup m = some id) ∧
    (∀ m id, lk2.lookup m = some id → lk.lookup m = some id ∨
      ∃ (i : Nat) (sh : Later.SymHeap), heaps[i]? = some sh ∧ sh.traceNode = m ∧
        id = (locIdx, ((shIdx + i : Nat) : Int))) ∧
    (∀ (i : Nat) (sh : Later.SymHeap), heaps[i]? = some sh →
      lk2.lookup sh.traceNode = some (locIdx, ((shIdx + i : Nat) : Int))) := by
  induction heaps with
  | nil =>
    intro shIdx lk lk2 h
    simp only [indexTraceHeaps, Except.ok.injEq] at h
    subst h
    exact ⟨fun _ _ h => h, fun _ _ h => Or.inl h, fun i sh hi => by simp at hi⟩
  | cons sh rest ih =>
    intro shIdx lk lk2 h
    have key : (∀ m id, lk.lookup m = some id →
          (traceLookupSet lk sh.traceNode (locIdx, (shIdx : Int))).lookup m = some id) ∧
        indexTraceHeaps locIdx rest (shIdx + 1)
          (traceLookupSet lk sh.traceNode (locIdx, (shIdx : Int))) = .ok lk2 := by
      unfold indexTraceHeaps at h
      simp only at h
      split at h
      · rename_i old hold
        split at h
        · cases h
        · rename_i hne
          have hold2 : old = (locIdx, (shIdx : Int)) := by
            by_contra hc
            exact hne hc
          refine ⟨fun m id hm => ?_, h⟩
          rw [traceLookupSet_lookup]
          by_cases hmt : m = sh.traceNode
          · subst hmt
            rw [if_pos rfl, ← hold2, ← hold, hm]
          · rw [if_neg hmt, hm]
      · rename_i hnone
        refine ⟨fun m id hm => ?_, h⟩
        rw [traceLookupSet_lookup]
        by_cases hmt : m = sh.traceNode
        · subst hmt
          rw [hnone] at hm
          cases hm
        · rw [if_neg hmt, hm]
    obtain ⟨hext, hrec⟩ := key
    obtain ⟨h1, h2, h3⟩ := ih _ _ _ hrec
    refine ⟨fun m id hm => h1 m id (hext m id hm), ?_, ?_⟩
    · intro m id hm
      rcases h2 m id hm with hl | ⟨i, sh2, hi, hs, hid⟩
      · rw [traceLookupSet_lookup] at hl
        by_cases hmt : m = sh.traceNode
        · rw [if_pos hmt] at hl
          cases hl
          exact Or.inr ⟨0, sh, by simp, hmt.symm, rfl⟩
        · rw [if_neg hmt] at hl
          exact Or.inl hl
      · refine Or.inr ⟨i + 1, sh2, by simpa using hi, hs, ?_⟩
        rw [hid]
        congr 2
        omega
    · intro i sh2 hi
      cases i with
      | zero =>
        simp only [List.getElem?_cons_zero, Option.some.injEq] at hi
        subst hi
        apply h1
        rw [traceLookupSet_lookup, if_pos rfl]
        rfl
      | succ i =>
        simp only [List.getElem?_cons_succ] at hi
        rw [h3 i sh2 hi]
        congr 3
        omega

theorem getAt_eq_ok {α : Type} (l : List α) (i : Int) (a : α) :
    getAt l i = .ok a ↔ ∃ n : Nat, i = (n : Int) ∧ l[n]? = some a := by
  unfold getAt
  constructor
  · intro h
    split at h
    · cases h
    · rename_i hneg
      split at h
      · cases h
      · rename_i b hb
        simp only [Except.ok.injEq] at h
        subst h
        rw [List.get?_eq_getElem?] at hb
        exact ⟨i.toNat, (Int.toNat_of_nonneg (not_lt.mp hneg)).symm, hb⟩
  · rintro ⟨n, rfl, hn⟩
    rw [if_neg (by omega), Int.toNat_ofNat, List.get?_eq_getElem?, hn]

theorem heapByIdent_eq_ok (gl : GlobalState) (id : THeapIdent) (sh : Later.SymHeap) :
    heapByIdent gl id = .ok sh ↔
      ∃ ls, gl.loc id.1 = .ok ls ∧ getAt ls.heapList id.2 = .ok sh := by
  unfold heapByIdent
  simp only
  constructor
  · intro h
    split at h
    · cases h
    · rename_i ls hls
      exact ⟨ls, hls, h⟩
  · rintro ⟨ls, h1, h2⟩
    rw [h1]
    exact h2

theorem sameFlow_heapByIdent {gl gl2 : GlobalState} (h : SameFlow gl gl2) (id : THeapIdent) :
    Predator.heapByIdent gl2 id = Predator.heapByIdent gl id := by
  have hx := h id.1
  unfold Predator.heapByIdent
  simp only
  cases h1 : gl.loc id.1 with
  | error e =>
    rw [h1] at hx
    cases h2 : gl2.loc id.1 with
    | error e2 =>
      rw [h2] at hx
      simp only [Except.map] at hx
      rw [Except.error.injEq] at hx
      rw [hx]
    | ok ls2 =>
      rw [h2] at hx
      simp [Except.map] at hx
  | ok ls =>
    rw [h1] at hx
    cases h2 : gl2.loc id.1 with
    | error e2 =>
      rw [h2] at hx
      simp [Except.map] at hx
    | ok ls2 =>
      rw [h2] at hx
      simp only [Except.map, Except.ok.injEq, Prod.mk.injEq] at hx
      simp only [hx.1]

theorem sameFlow_refl (gl : GlobalState) : SameFlow gl gl := fun _ => rfl

theorem sameFlow_trans {a b c : GlobalState} (h1 : SameFlow a b) (h2 : SameFlow b c) :
    SameFlow a c := fun x => (h2 x).trans (h1 x)

theorem sameFlow_loc {gl gl2 : GlobalState} (h : SameFlow gl gl2) (x : TLocIdx)
    (ls2 : LocalState) (h2 : gl2.loc x = .ok ls2) :
    ∃ ls, gl.loc x = .ok ls ∧ ls.heapList = ls2.heapList ∧ ls.cfgInEdges = ls2.cfgInEdges := by
  have hx := h x
  rw [h2] at hx
  cases h1 : gl.loc x with
  | error e =>
    rw [h1] at hx
    simp [Except.map] at hx
  | ok ls =>
    rw [h1] at hx
    simp only [Except.map, Except.ok.injEq, Prod.mk.injEq] at hx
    exact ⟨ls, rfl, hx.1.symm, hx.2.symm⟩

theorem sameFlow_indexTraceOf {gl gl2 : GlobalState} (h : SameFlow gl gl2) (lk : TLookup)
    (x : TLocIdx) : Predator.indexTraceOf gl2 lk x = Predator.indexTraceOf gl lk x := by
  have hx := h x
  unfold Predator.indexTraceOf
  cases h1 : gl.loc x with
  | error e =>
    rw [h1] at hx
    cases h2 : gl2.loc x with
    | error e2 =>
      rw [h2] at hx
      simp only [Except.map] at hx
      rw [Except.error.injEq] at hx
      rw [hx]
    | ok ls2 =>
      rw [h2] at hx
      simp [Except.map] at hx
  | ok ls =>
    rw [h1] at hx
    cases h2 : gl2.loc x with
    | error e2 =>
      rw [h2] at hx
      simp [Except.map] at hx
    | ok ls2 =>
      rw [h2] at hx
      simp only [Except.map, Except.ok.injEq, Prod.mk.injEq] at hx
      simp only [hx.1]

theorem sameFlow_buildTraceIndex {gl gl2 : GlobalState} (h : SameFlow gl gl2)
    (edges : List CfgEdge) : ∀ lk : TLookup,
    Predator.buildTraceIndex gl2 edges lk = Predator.buildTraceIndex gl edges lk := by
  induction edges with
  | nil => intro lk; rfl
  | cons ie rest ih =>
    intro lk
    unfold Predator.buildTraceIndex
    rw [sameFlow_indexTraceOf h]
    cases Predator.indexTraceOf gl lk ie.targetLoc with
    | error e => rfl
    | ok lk1 => exact ih lk1

theorem sameFlow_nearestPredecessorLoop {gl gl2 : GlobalState} (h : SameFlow gl gl2)
    (tg : TraceGraph) (lookup : TLookup) (fuel : Nat) : ∀ (wl : WorkList TNode)
    (dst : List THeapIdent),
    Predator.nearestPredecessorLoop tg gl2 lookup fuel wl dst =
      Predator.nearestPredecessorLoop tg gl lookup fuel wl dst := by
  induction fuel with
  | zero => intro wl dst; rfl
  | succ fuel ih =>
    intro wl dst
    unfold Predator.nearestPredecessorLoop
    cases wl.next with
    | none => rfl
    | some p =>
      obtain ⟨tr, wl1⟩ := p
      simp only
      cases lookup.lookup tr with
      | none => exact ih _ _
      | some shPred =>
        simp only
        rw [sameFlow_heapByIdent h]
        cases Predator.heapByIdent gl shPred with
        | error e => rfl
        | ok shp =>
          simp only
          split
          · rfl
          · exact ih _ _

theorem sameFlow_nearestPredecessorOf {gl gl2 : GlobalState} (h : SameFlow gl gl2)
    (fuel : Nat) (tg : TraceGraph) (lookup : TLookup) (dst : List THeapIdent)
    (shIdent : THeapIdent) :
    Predator.nearestPredecessorOf fuel tg gl2 lookup dst shIdent =
      Predator.nearestPredecessorOf fuel tg gl lookup dst shIdent := by
  unfold Predator.nearestPredecessorOf
  rw [sameFlow_heapByIdent h]
  cases Predator.heapByIdent gl shIdent with
  | error e => rfl
  | ok sh => exact sameFlow_nearestPredecessorLoop h tg lookup fuel _ _

theorem buildTraceIndex_spec (gl : GlobalState) (edges : List CfgEdge) :
    ∀ (lk lk2 : TLookup), buildTraceIndex gl edges lk = .ok lk2 →
    (∀ m id, lk.lookup m = some id → lk2.lookup m = some id) ∧
    (∀ m id, lk2.lookup m = some id → lk.lookup m = some id ∨
      ∃ ie ∈ edges, ∃ srcState, ∃ (i : Nat), ∃ (sh : Later.SymHeap),
        gl.loc ie.targetLoc = .ok srcState ∧ srcState.heapList[i]? = some sh ∧
        sh.traceNode = m ∧ id = (ie.targetLoc, (i : Int))) ∧
    (∀ ie ∈ edges, ∃ srcState, gl.loc ie.targetLoc = .ok srcState ∧
      ∀ (i : Nat) (sh : Later.SymHeap), srcState.heapList[i]? = some sh →
        lk2.lookup sh.traceNode = some (ie.targetLoc, (i : Int))) := by
  induction edges with
  | nil =>
    intro lk lk2 h
    simp only [buildTraceIndex, Except.ok.injEq] at h
    subst h
    exact ⟨fun _ _ h => h, fun _ _ h => Or.inl h, fun ie hie => by cases hie⟩
  | cons ie rest ih =>
    intro lk lk2 h
    unfold buildTraceIndex at h
    split at h
    · cases h
    · rename_i lk1 h1
      unfold indexTraceOf at h1
      split at h1
      · cases h1
      · rename_i srcState hsrc
        obtain ⟨a1, a2, a3⟩ := indexTraceHeaps_spec _ _ _ _ _ h1
        obtain ⟨b1, b2, b3⟩ := ih _ _ h
        refine ⟨fun m id hm => b1 m id (a1 m id hm), ?_, ?_⟩
        · intro m id hm
          rcases b2 m id hm with hl | ⟨ie2, hie2, s2, i, sh, c1, c2, c3, c4⟩
          · rcases a2 m id hl with hl0 | ⟨i, sh, c2, c3, c4⟩
            · exact Or.inl hl0
            · refine Or.inr ⟨ie, List.mem_cons_self _ _, srcState, i, sh, hsrc, c2, c3, ?_⟩
              rw [c4]
              simp
          · exact Or.inr ⟨ie2, List.mem_cons_of_mem _ hie2, s2, i, sh, c1, c2, c3, c4⟩
        · intro ie2 hie2
          rcases List.mem_cons.mp hie2 with he | he
          · subst he
            refine ⟨srcState, hsrc, fun i sh hi => ?_⟩
            have := a3 i sh hi
            simp only [Nat.zero_add] at this
            exact b1 _ _ this
          · exact b3 ie2 he

theorem heapIdentLt_irrefl (a : THeapIdent) : heapIdentLt a a = false := by
  unfold heapIdentLt
  simp

theorem int_lex_trans (a1 a2 b1 b2 c1 c2 : Int) (h1 : a1 < b1 ∨ (a1 = b1 ∧ a2 < b2))
    (h2 : b1 < c1 ∨ (b1 = c1 ∧ b2 < c2)) : a1 < c1 ∨ (a1 = c1 ∧ a2 < c2) := by
  omega

theorem int_lex_total (a1 a2 b1 b2 : Int) (h1 : ¬ (a1 < b1 ∨ (a1 = b1 ∧ a2 < b2)))
    (h2 : ¬ (b1 < a1 ∨ (b1 = a1 ∧ b2 < a2))) : a1 = b1 ∧ a2 = b2 := by
  omega

theorem heapIdentLt_iff (a b : THeapIdent) :
    heapIdentLt a b = true ↔ (a.1 < b.1 ∨ (a.1 = b.1 ∧ a.2 < b.2)) := by
  unfold heapIdentLt
  simp only [Bool.or_eq_true, decide_eq_true_eq, Bool.and_eq_true]

theorem heapIdentLt_trans (a b c : THeapIdent) (h1 : heapIdentLt a b = true)
    (h2 : heapIdentLt b c = true) : heapIdentLt a c = true := by
  rw [heapIdentLt_iff] at *
  exact int_lex_trans _ _ _ _ _ _ h1 h2

theorem heapIdentLt_total (a b : THeapIdent) (h1 : heapIdentLt a b = false)
    (h2 : heapIdentLt b a = false) : a = b := by
  have h1b : ¬ (a.1 < b.1 ∨ (a.1 = b.1 ∧ a.2 < b.2)) := by
    rw [← heapIdentLt_iff, h1]
    simp
  have h2b : ¬ (b.1 < a.1 ∨ (b.1 = a.1 ∧ b.2 < a.2)) := by
    rw [← heapIdentLt_iff, h2]
    simp
  obtain ⟨e1, e2⟩ := int_lex_total _ _ _ _ h1b h2b
  exact Prod.ext e1 e2

theorem mem_heapIdentSetInsert (x y : THeapIdent) (l : List THeapIdent) :
    y ∈ heapIdentSetInsert x l ↔ y = x ∨ y ∈ l := by
  induction l with
  | nil => simp [heapIdentSetInsert]
  | cons z zs ih =>
    unfold heapIdentSetInsert
    split
    · simp
    · rename_i h1
      split
      · simp only [List.mem_cons, ih]
        tauto
      · rename_i h2
        have hxz : x = z := heapIdentLt_total x z (by simpa using h1) (by simpa using h2)
        subst hxz
        simp

theorem heapIdentSetInsert_sorted (x : THeapIdent) (l : List THeapIdent)
    (h : l.Pairwise fun a b => heapIdentLt a b = true) :
    (heapIdentSetInsert x l).Pairwise fun a b => heapIdentLt a b = true := by
  induction l with
  | nil => simp [heapIdentSetInsert]
  | cons z zs ih =>
    rw [List.pairwise_cons] at h
    unfold heapIdentSetInsert
    split
    · rename_i h1
      rw [List.pairwise_cons]
      refine ⟨fun b hb => ?_, List.pairwise_cons.mpr h⟩
      rcases List.mem_cons.mp hb with hb | hb
      · rw [hb]
        exact h1
      · exact heapIdentLt_trans _ _ _ h1 (h.1 b hb)
    · split
      · rename_i h2
        rw [List.pairwise_cons]
        refine ⟨fun b hb => ?_, ih h.2⟩
        rcases (mem_heapIdentSetInsert x b zs).mp hb with hb | hb
        · rw [hb]
          exact h2
        · exact h.1 b hb
      · exact List.pairwise_cons.mpr h

theorem schedule_foldl_spec (ps : List TNode) : ∀ wl : WorkList TNode,
    (∀ a ∈ wl.seen, a ∈ (ps.foldl (fun w p => w.schedule p) wl).seen) ∧
    (∀ a ∈ wl.todo, a ∈ (ps.foldl (fun w p => w.schedule p) wl).todo) ∧
    (∀ p ∈ ps, p ∈ (ps.foldl (fun w p => w.schedule p) wl).seen) ∧
    (∀ a ∈ (ps.foldl (fun w p => w.schedule p) wl).seen,
      a ∈ wl.seen ∨ a ∈ (ps.foldl (fun w p => w.schedule p) wl).todo) ∧
    (∀ a ∈ (ps.foldl (fun w p => w.schedule p) wl).todo, a ∈ wl.todo ∨ a ∈ ps) := by
  induction ps with
  | nil =>
    intro wl
    exact ⟨fun _ h => h, fun _ h => h, fun p hp => (by cases hp), fun _ h => Or.inl h,
      fun _ h => Or.inl h⟩
  | cons p rest ih =>
    intro wl
    simp only [List.foldl_cons]
    obtain ⟨h1, h2, h3, h4, h5⟩ := ih (wl.schedule p)
    have s1 : ∀ a ∈ wl.seen, a ∈ (wl.schedule p).seen := by
      intro a ha
      unfold WorkList.schedule
      split
      · exact ha
      · exact List.mem_cons_of_mem _ ha
    have s2 : ∀ a ∈ wl.todo, a ∈ (wl.schedule p).todo := by
      intro a ha
      unfold WorkList.schedule
      split
      · exact ha
      · exact List.mem_cons_of_mem _ ha
    have s3 : p ∈ (wl.schedule p).seen := by
      unfold WorkList.schedule
      split
      · rename_i hp
        exact hp
      · exact List.mem_cons_self _ _
    have s4 : ∀ a ∈ (wl.schedule p).seen, a ∈ wl.seen ∨ a ∈ (wl.schedule p).todo := by
      intro a ha
      unfold WorkList.schedule at ha ⊢
      split at ha
      · rename_i hp
        rw [if_pos hp]
        exact Or.inl ha
      · rename_i hp
        rw [if_neg hp]
        rcases List.mem_cons.mp ha with ha | ha
        · exact Or.inr (by rw [ha]; exact List.mem_cons_self _ _)
        · exact Or.inl ha
    have s5 : ∀ a ∈ (wl.schedule p).todo, a ∈ wl.todo ∨ a = p := by
      intro a ha
      unfold WorkList.schedule at ha
      split at ha
      · exact Or.inl ha
      · rcases List.mem_cons.mp ha with ha | ha
        · exact Or.inr ha
        · exact Or.inl ha
    refine ⟨fun a ha => h1 a (s1 a ha), fun a ha => h2 a (s2 a ha), ?_, ?_, ?_⟩
    · intro q hq
      rcases List.mem_cons.mp hq with hq | hq
      · rw [hq]
        exact h1 p s3
      · exact h3 q hq
    · intro a ha
      rcases h4 a ha with h | h
      · rcases s4 a h with h | h
        · exact Or.inl h
        · exact Or.inr (h2 a h)
      · exact Or.inr h
    · intro a ha
      rcases h5 a ha with h | h
      · rcases s5 a h with h | h
        · exact Or.inl h
        · exact Or.inr (by rw [h]; exact List.mem_cons_self _ _)
      · exact Or.inr (List.mem_cons_of_mem _ h)

theorem workList_next_eq (wl : WorkList TNode) (tr : TNode) (wl1 : WorkList TNode)
    (h : wl.next = some (tr, wl1)) : wl.todo = tr :: wl1.todo ∧ wl1.seen = wl.seen := by
  unfold WorkList.next at h
  split at h
  · cases h
  · rename_i x rest hx
    simp only [Option.some.injEq, Prod.mk.injEq] at h
    obtain ⟨h1, h2⟩ := h
    subst h1
    subst h2
    exact ⟨hx, rfl⟩

theorem workList_next_none (wl : WorkList TNode) (h : wl.next = none) : wl.todo = [] := by
  unfold WorkList.next at h
  split at h
  · rename_i hx
    exact hx
  · cases h

theorem nearestPredecessorLoop_sound (tg : TraceGraph) (gl : GlobalState) (lookup : TLookup)
    (fuel : Nat) : ∀ (wl : WorkList TNode) (dst res : List THeapIdent),
    nearestPredecessorLoop tg gl lookup fuel wl dst = .ok res →
    (∀ x ∈ dst, x ∈ res) ∧
    ((dst.Pairwise fun a b => heapIdentLt a b = true) →
      res.Pairwise fun a b => heapIdentLt a b = true) ∧
    ∀ id ∈ res, id ∈ dst ∨ ∃ t ∈ wl.todo, ∃ m,
      Relation.ReflTransGen (fun a b => lookup.lookup a = none ∧ b ∈ tg.parents a) t m ∧
      lookup.lookup m = some id := by
  induction fuel with
  | zero =>
    intro wl dst res h
    unfold nearestPredecessorLoop at h
    split at h
    · simp only [Except.ok.injEq] at h
      subst h
      exact ⟨fun _ h => h, fun h => h, fun _ h => Or.inl h⟩
    · cases h
  | succ fuel ih =>
    intro wl dst res h
    unfold nearestPredecessorLoop at h
    split at h
    · simp only [Except.ok.injEq] at h
      subst h
      exact ⟨fun _ h => h, fun h => h, fun _ h => Or.inl h⟩
    · rename_i tr wl1 hnext
      obtain ⟨htodo, hseen⟩ := workList_next_eq _ _ _ hnext
      split at h
      · rename_i hnone
        obtain ⟨h1, h2, h3⟩ := ih _ _ _ h
        refine ⟨h1, h2, fun id hid => ?_⟩
        rcases h3 id hid with hd | ⟨t, ht, m, hp, hm⟩
        · exact Or.inl hd
        · obtain ⟨_, _, _, _, s5⟩ := schedule_foldl_spec (tg.parents tr) wl1
          rcases s5 t ht with ht1 | ht1
          · exact Or.inr ⟨t, by rw [htodo]; exact List.mem_cons_of_mem _ ht1, m, hp, hm⟩
          · exact Or.inr ⟨tr, by rw [htodo]; exact List.mem_cons_self _ _, m,
              Relation.ReflTransGen.head ⟨hnone, ht1⟩ hp, hm⟩
      · rename_i shPred hsome
        split at h
        · cases h
        · split at h
          · cases h
          · obtain ⟨h1, h2, h3⟩ := ih _ _ _ h
            refine ⟨fun x hx => h1 x ((mem_heapIdentSetInsert _ _ _).mpr (Or.inr hx)),
              fun hs => h2 (heapIdentSetInsert_sorted _ _ hs), fun id hid => ?_⟩
            rcases h3 id hid with hd | ⟨t, ht, m, hp, hm⟩
            · rcases (mem_heapIdentSetInsert _ _ _).mp hd with hd | hd
              · subst hd
                exact Or.inr ⟨tr, by rw [htodo]; exact List.mem_cons_self _ _, tr,
                  Relation.ReflTransGen.refl, hsome⟩
              · exact Or.inl hd
            · exact Or.inr ⟨t, by rw [htodo]; exact List.mem_cons_of_mem _ ht, m, hp, hm⟩

theorem nearestPredecessorLoop_complete (tg : TraceGraph) (gl : GlobalState)
    (lookup : TLookup) (fuel : Nat) : ∀ (wl : WorkList TNode) (dst res : List THeapIdent),
    nearestPredecessorLoop tg gl lookup fuel wl dst = .ok res →
    (∀ a ∈ wl.seen, a ∈ wl.todo ∨
      ((lookup.lookup a = none → ∀ p ∈ tg.parents a, p ∈ wl.seen) ∧
        ∀ id, lookup.lookup a = some id → id ∈ dst)) →
    ∃ S : List TNode, (∀ a ∈ wl.seen, a ∈ S) ∧
      ∀ a ∈ S, (lookup.lookup a = none → ∀ p ∈ tg.parents a, p ∈ S) ∧
        ∀ id, lookup.lookup a = some id → id ∈ res := by
  induction fuel with
  | zero =>
    intro wl dst res h hinv
    unfold nearestPredecessorLoop at h
    split at h
    · rename_i hn
      simp only [Except.ok.injEq] at h
      subst h
      have ht := workList_next_none _ hn
      refine ⟨wl.seen, fun _ h => h, fun a ha => ?_⟩
      rcases hinv a ha with h | h
      · rw [ht] at h
        cases h
      · exact h
    · cases h
  | succ fuel ih =>
    intro wl dst res h hinv
    unfold nearestPredecessorLoop at h
    split at h
    · rename_i hn
      simp only [Except.ok.injEq] at h
      subst h
      have ht := workList_next_none _ hn
      refine ⟨wl.seen, fun _ h => h, fun a ha => ?_⟩
      rcases hinv a ha with h | h
      · rw [ht] at h
        cases h
      · exact h
    · rename_i tr wl1 hnext
      obtain ⟨htodo, hseen⟩ := workList_next_eq _ _ _ hnext
      split at h
      · rename_i hnone
        obtain ⟨s1, s2, s3, s4, s5⟩ := schedule_foldl_spec (tg.parents tr) wl1
        obtain ⟨S, hS1, hS2⟩ := ih _ _ _ h (by
          intro a ha
          rcases s4 a ha with h1 | h1
          · rw [hseen] at h1
            rcases hinv a h1 with h2 | h2
            · rw [htodo] at h2
              rcases List.mem_cons.mp h2 with h3 | h3
              · subst h3
                refine Or.inr ⟨fun _ p hp => s3 p hp, fun id hid => ?_⟩
                rw [hnone] at hid
                cases hid
              · exact Or.inl (s2 a h3)
            · refine Or.inr ⟨fun hn p hp => ?_, h2.2⟩
              exact s1 p (by rw [hseen]; exact h2.1 hn p hp)
          · exact Or.inl h1)
        exact ⟨S, fun a ha => hS1 a (s1 a (by rw [hseen]; exact ha)), hS2⟩
      · rename_i shPred hsome
        split at h
        · cases h
        · split at h
          · cases h
          · obtain ⟨S, hS1, hS2⟩ := ih _ _ _ h (by
              intro a ha
              rw [hseen] at ha
              rcases hinv a ha with h2 | h2
              · rw [htodo] at h2
                rcases List.mem_cons.mp h2 with h3 | h3
                · subst h3
                  refine Or.inr ⟨fun hn => ?_, fun id hid => ?_⟩
                  · rw [hsome] at hn
                    cases hn
                  · rw [hsome] at hid
                    cases hid
                    exact (mem_heapIdentSetInsert _ _ _).mpr (Or.inl rfl)
                · exact Or.inl h3
              · refine Or.inr ⟨fun hn p hp => ?_, fun id hid => ?_⟩
                · rw [hseen]
                  exact h2.1 hn p hp
                · exact (mem_heapIdentSetInsert _ _ _).mpr (Or.inr (h2.2 id hid)))
            exact ⟨S, fun a ha => hS1 a (by rw [hseen]; exact ha), hS2⟩

theorem pushTraceEdge_spec (edges e2 : List (List Nat)) (idx : THeapIdx) (te : Nat)
    (h : pushTraceEdge edges idx te = .ok e2) :
    ∃ j : Nat, idx = (j : Int) ∧
      ∀ j2 : Nat, e2.getD j2 [] = edges.getD j2 [] ++ if j2 = j then [te] else [] := by
  unfold pushTraceEdge at h
  split at h
  · cases h
  · rename_i l hl
    simp only [Except.ok.injEq] at h
    subst h
    obtain ⟨j, hj, hlj⟩ := (getAt_eq_ok _ _ _).mp hl
    refine ⟨j, hj, fun j2 => ?_⟩
    have hto : idx.toNat = j := by
      rw [hj]
      exact Int.toNat_ofNat j
    rw [hto]
    have hlt : j < edges.length := by
      rcases List.getElem?_eq_some.mp hlj with ⟨hl2, _⟩
      exact hl2
    simp only [List.getD_eq_getElem?_getD]
    by_cases hjj : j2 = j
    · subst hjj
      rw [List.getElem?_set_self hlt, hlj, if_pos rfl]
      rfl
    · rw [List.getElem?_set_ne (fun hc => hjj hc.symm), if_neg hjj, List.append_nil]

theorem set_loc_spec (L : TStateList) (tl tl2 : List TraceEdge) (d : Nat) (ls ls2 : LocalState)
    (hd : L[d]? = some ls) (hh : ls2.heapList = ls.heapList)
    (hc : ls2.cfgInEdges = ls.cfgInEdges) :
    SameFlow ⟨L, tl⟩ ⟨L.set d ls2, tl2⟩ ∧
    (∀ d2 j2 : Nat, traceInAt ⟨L.set d ls2, tl2⟩ d2 j2 =
      if d2 = d then ls2.traceInEdges.getD j2 [] else traceInAt ⟨L, tl⟩ d2 j2) ∧
    (∀ d2 j2 : Nat, traceOutAt ⟨L.set d ls2, tl2⟩ d2 j2 =
      if d2 = d then ls2.traceOutEdges.getD j2 [] else traceOutAt ⟨L, tl⟩ d2 j2) := by
  have hlt : d < L.length := by
    rcases List.getElem?_eq_some.mp hd with ⟨hl2, _⟩
    exact hl2
  refine ⟨fun x => ?_, fun d2 j2 => ?_, fun d2 j2 => ?_⟩
  · unfold GlobalState.loc getAt
    simp only
    by_cases hx : x < 0
    · rw [if_pos hx, if_pos hx]
    · rw [if_neg hx, if_neg hx]
      simp only [List.get?_eq_getElem?]
      by_cases hxd : d = x.toNat
      · rw [← hxd, List.getElem?_set_self hlt, hd]
        simp only [Except.map, hh, hc]
      · rw [List.getElem?_set_ne hxd]
  · unfold traceInAt
    simp only
    by_cases hdd : d2 = d
    · subst hdd
      rw [List.getElem?_set_self hlt, if_pos rfl]
    · rw [List.getElem?_set_ne (fun hc => hdd hc.symm), if_neg hdd]
  · unfold traceOutAt
    simp only
    by_cases hdd : d2 = d
    · subst hdd
      rw [List.getElem?_set_self hlt, if_pos rfl]
    · rw [List.getElem?_set_ne (fun hc => hdd hc.symm), if_neg hdd]

theorem traceInAt_of_get (gl : GlobalState) (d : Nat) (ls : LocalState)
    (h : gl.stateList_[d]? = some ls) (j : Nat) :
    traceInAt gl d j = ls.traceInEdges.getD j [] := by
  unfold traceInAt
  rw [h]

theorem traceOutAt_of_get (gl : GlobalState) (d : Nat) (ls : LocalState)
    (h : gl.stateList_[d]? = some ls) (j : Nat) :
    traceOutAt gl d j = ls.traceOutEdges.getD j [] := by
  unfold traceOutAt
  rw [h]

theorem addTraceEdge_spec (tg : TraceGraph) (gl gl2 : GlobalState) (src dst : THeapIdent)
    (h : addTraceEdge tg gl src dst = .ok gl2) :
    ∃ (d j s i : Nat) (shSrc shDst : Later.SymHeap),
      dst = ((d : Int), (j : Int)) ∧ src = ((s : Int), (i : Int)) ∧
      heapByIdent gl src = .ok shSrc ∧ heapByIdent gl dst = .ok shDst ∧
      gl2.traceList_ = gl.traceList_ ++
        [⟨src, dst, tg.resolveIdMapping shSrc.traceNode shDst.traceNode, []⟩] ∧
      SameFlow gl gl2 ∧
      (∀ d2 j2 : Nat, traceInAt gl2 d2 j2 = traceInAt gl d2 j2 ++
        if d2 = d ∧ j2 = j then [gl.traceList_.length] else []) ∧
      (∀ s2 i2 : Nat, traceOutAt gl2 s2 i2 = traceOutAt gl s2 i2 ++
        if s2 = s ∧ i2 = i then [gl.traceList_.length] else []) := by
  unfold addTraceEdge at h
  simp only at h
  split at h
  · cases h
  · rename_i dstState hdst
    split at h
    · cases h
    · rename_i inEdges hin
      split at h
      · cases h
      · rename_i srcState hsrc
        split at h
        · cases h
        · rename_i outEdges hout
          split at h
          · cases h
          · rename_i shSrc hshSrc
            split at h
            · cases h
            · rename_i shDst hshDst
              simp only [Except.ok.injEq] at h
              subst h
              obtain ⟨d, hd, hdl⟩ := (getAt_eq_ok _ _ _).mp hdst
              obtain ⟨j, hj, hjl⟩ := pushTraceEdge_spec _ _ _ _ hin
              obtain ⟨s, hs, hsl⟩ := (getAt_eq_ok _ _ _).mp hsrc
              obtain ⟨i, hi, hil⟩ := pushTraceEdge_spec _ _ _ _ hout
              have hdto : dst.1.toNat = d := by
                rw [hd]
                exact Int.toNat_ofNat d
              have hsto : src.1.toNat = s := by
                rw [hs]
                exact Int.toNat_ofNat s
              rw [hdto] at hsl
              rw [hdto, hsto]
              obtain ⟨f1, in1, out1⟩ := set_loc_spec gl.stateList_ gl.traceList_ gl.traceList_ d
                dstState { dstState with traceInEdges := inEdges } hdl rfl rfl
              obtain ⟨f2, in2, out2⟩ := set_loc_spec
                (gl.stateList_.set d { dstState with traceInEdges := inEdges }) gl.traceList_
                (gl.traceList_ ++
                  [⟨src, dst, tg.resolveIdMapping shSrc.traceNode shDst.traceNode, []⟩]) s
                srcState { srcState with traceOutEdges := outEdges } hsl rfl rfl
              have hA : ∀ d2 j2 : Nat,
                  traceInAt ⟨gl.stateList_.set d { dstState with traceInEdges := inEdges },
                    gl.traceList_⟩ d2 j2 = traceInAt gl d2 j2 ++
                    if d2 = d ∧ j2 = j then [gl.traceList_.length] else [] := by
                intro d2 j2
                rw [in1]
                by_cases hd2 : d2 = d
                · rw [if_pos hd2]
                  show inEdges.getD j2 [] = _
                  rw [hjl j2, hd2, traceInAt_of_get gl d dstState hdl j2]
                  by_cases hj2 : j2 = j
                  · rw [if_pos hj2, if_pos ⟨rfl, hj2⟩]
                  · rw [if_neg hj2, if_neg (fun hc => hj2 hc.2)]
                · rw [if_neg hd2, if_neg (fun hc => hd2 hc.1), List.append_nil]
              have hA2 : ∀ d2 j2 : Nat,
                  traceOutAt ⟨gl.stateList_.set d { dstState with traceInEdges := inEdges },
                    gl.traceList_⟩ d2 j2 = traceOutAt gl d2 j2 := by
                intro d2 j2
                rw [out1]
                by_cases hd2 : d2 = d
                · rw [if_pos hd2]
                  show dstState.traceOutEdges.getD j2 [] = _
                  rw [hd2, traceOutAt_of_get gl d dstState hdl j2]
                · rw [if_neg hd2]
              refine ⟨d, j, s, i, shSrc, shDst, Prod.ext hd hj, Prod.ext hs hi, hshSrc, hshDst,
                rfl, sameFlow_trans f1 f2, fun d2 j2 => ?_, fun s2 i2 => ?_⟩
              · rw [in2, ← hA d2 j2]
                by_cases hs2 : d2 = s
                · rw [if_pos hs2]
                  show srcState.traceInEdges.getD j2 [] = _
                  rw [hs2, traceInAt_of_get _ s srcState hsl j2]
                · rw [if_neg hs2]
              · rw [out2, ← hA2 s2 i2]
                by_cases hs2 : s2 = s
                · rw [if_pos hs2]
                  show outEdges.getD i2 [] = _
                  rw [hil i2, hs2, traceOutAt_of_get _ s srcState hsl i2]
                  by_cases hi2 : i2 = i
                  · rw [if_pos hi2, if_pos ⟨rfl, hi2⟩]
                  · rw [if_neg hi2, if_neg (fun hc => hi2 hc.2)]
                · rw [if_neg hs2, if_neg (fun hc => hs2 hc.1), List.append_nil]

theorem edgeIdxs_append (p : TraceEdge → Bool) (l1 l2 : List TraceEdge) : ∀ n0 : Nat,
    edgeIdxs p (l1 ++ l2) n0 = edgeIdxs p l1 n0 ++ edgeIdxs p l2 (n0 + l1.length) := by
  induction l1 with
  | nil => intro n0; simp [edgeIdxs]
  | cons te rest ih =>
    intro n0
    have he : n0 + 1 + rest.length = n0 + (rest.length + 1) := by omega
    show (if p te = true then [n0] else []) ++ edgeIdxs p (rest ++ l2) (n0 + 1) =
      ((if p te = true then [n0] else []) ++ edgeIdxs p rest (n0 + 1)) ++
        edgeIdxs p l2 (n0 + (rest.length + 1))
    rw [ih, he, List.append_assoc]

theorem mem_edgeIdxs (p : TraceEdge → Bool) (l : List TraceEdge) : ∀ (n0 x : Nat),
    x ∈ edgeIdxs p l n0 ↔ ∃ (k : Nat) (te : TraceEdge), l[k]? = some te ∧ p te = true ∧
      x = n0 + k := by
  induction l with
  | nil => intro n0 x; simp [edgeIdxs]
  | cons te rest ih =>
    intro n0 x
    simp only [edgeIdxs, List.mem_append, ih]
    constructor
    · rintro (h | ⟨k, te2, h1, h2, h3⟩)
      · by_cases hp : p te = true
        · rw [if_pos hp, List.mem_singleton] at h
          exact ⟨0, te, by simp, hp, by omega⟩
        · rw [if_neg hp] at h
          cases h
      · exact ⟨k + 1, te2, by simpa using h1, h2, by omega⟩
    · rintro ⟨k, te2, h1, h2, h3⟩
      cases k with
      | zero =>
        simp only [List.getElem?_cons_zero, Option.some.injEq] at h1
        subst h1
        left
        rw [if_pos h2, List.mem_singleton]
        omega
      | succ k =>
        right
        exact ⟨k, te2, by simpa using h1, h2, by omega⟩

theorem edgeIdxs_sorted (p : TraceEdge → Bool) (l : List TraceEdge) : ∀ n0 : Nat,
    (edgeIdxs p l n0).Pairwise fun a b => a < b := by
  induction l with
  | nil => intro n0; simp [edgeIdxs]
  | cons te rest ih =>
    intro n0
    simp only [edgeIdxs]
    rw [List.pairwise_append]
    refine ⟨?_, ih _, ?_⟩
    · split <;> simp
    · intro a ha b hb
      obtain ⟨k, _, _, _, hk⟩ := (mem_edgeIdxs p rest _ b).mp hb
      split at ha
      · rw [List.mem_singleton] at ha
        omega
      · cases ha

theorem traceExt_nil (gl : GlobalState) : TraceExt gl gl [] := by
  refine ⟨by simp, sameFlow_refl gl, fun d j => ?_, fun s i => ?_⟩ <;> simp [edgeIdxs]

theorem traceExt_append {a b c : GlobalState} {n1 n2 : List TraceEdge} (h1 : TraceExt a b n1)
    (h2 : TraceExt b c n2) : TraceExt a c (n1 ++ n2) := by
  obtain ⟨a1, a2, a3, a4⟩ := h1
  obtain ⟨b1, b2, b3, b4⟩ := h2
  refine ⟨by rw [b1, a1, List.append_assoc], sameFlow_trans a2 b2, fun d j => ?_, fun s i => ?_⟩
  · rw [b3, a3, edgeIdxs_append, List.append_assoc, a1, List.length_append]
  · rw [b4, a4, edgeIdxs_append, List.append_assoc, a1, List.length_append]

theorem addTraceEdge_ext (tg : TraceGraph) (gl gl2 : GlobalState) (src dst : THeapIdent)
    (h : addTraceEdge tg gl src dst = .ok gl2) :
    ∃ te : TraceEdge, TraceExt gl gl2 [te] ∧ te.src = src ∧ te.dst = dst ∧
      ∃ shSrc shDst, heapByIdent gl src = .ok shSrc ∧ heapByIdent gl dst = .ok shDst ∧
        te.objMap = tg.resolveIdMapping shSrc.traceNode shDst.traceNode := by
  obtain ⟨d, j, s, i, shSrc, shDst, hd, hs, h1, h2, h3, h4, h5, h6⟩ :=
    addTraceEdge_spec tg gl gl2 src dst h
  refine ⟨⟨src, dst, tg.resolveIdMapping shSrc.traceNode shDst.traceNode, []⟩,
    ⟨h3, h4, fun d2 j2 => ?_, fun s2 i2 => ?_⟩, rfl, rfl, shSrc, shDst, h1, h2, rfl⟩
  · rw [h5]
    congr 1
    simp only [edgeIdxs, List.append_nil, hd, Prod.mk.injEq, Nat.cast_inj]
    by_cases hc : d2 = d ∧ j2 = j
    · rw [if_pos hc, if_pos (by simpa using ⟨hc.1.symm, hc.2.symm⟩)]
    · rw [if_neg hc, if_neg]
      simp only [decide_eq_true_eq]
      intro hc2
      exact hc ⟨hc2.1.symm, hc2.2.symm⟩
  · rw [h6]
    congr 1
    simp only [edgeIdxs, List.append_nil, hs, Prod.mk.injEq, Nat.cast_inj]
    by_cases hc : s2 = s ∧ i2 = i
    · rw [if_pos hc, if_pos (by simpa using ⟨hc.1.symm, hc.2.symm⟩)]
    · rw [if_neg hc, if_neg]
      simp only [decide_eq_true_eq]
      intro hc2
      exact hc ⟨hc2.1.symm, hc2.2.symm⟩

theorem addTraceEdges_ext (tg : TraceGraph) (dst : THeapIdent) (srcs : List THeapIdent) :
    ∀ (gl gl2 : GlobalState), addTraceEdges tg dst srcs gl = .ok gl2 →
    ∃ new : List TraceEdge, TraceExt gl gl2 new ∧ new.map (fun te => te.src) = srcs ∧
      ∀ te ∈ new, te.dst = dst ∧
        ∃ shSrc shDst, heapByIdent gl te.src = .ok shSrc ∧ heapByIdent gl dst = .ok shDst ∧
          te.objMap = tg.resolveIdMapping shSrc.traceNode shDst.traceNode := by
  induction srcs with
  | nil =>
    intro gl gl2 h
    simp only [addTraceEdges, Except.ok.injEq] at h
    subst h
    exact ⟨[], traceExt_nil gl, rfl, fun te hte => by cases hte⟩
  | cons src rest ih =>
    intro gl gl2 h
    unfold addTraceEdges at h
    split at h
    · cases h
    · rename_i gl1 h1
      obtain ⟨te, e1, e2, e3, shSrc, shDst, e4, e5, e6⟩ := addTraceEdge_ext tg gl gl1 src dst h1
      obtain ⟨new, f1, f2, f3⟩ := ih _ _ h
      refine ⟨[te] ++ new, traceExt_append e1 f1, by simp [e2, f2], fun te2 hte2 => ?_⟩
      rcases List.mem_append.mp hte2 with hm | hm
      · rw [List.mem_singleton] at hm
        subst hm
        exact ⟨e3, shSrc, shDst, by rw [e2]; exact e4, e5, e6⟩
      · obtain ⟨g1, s2, d2, g2, g3, g4⟩ := f3 te2 hm
        refine ⟨g1, s2, d2, ?_, ?_, g4⟩
        · rw [← sameFlow_heapByIdent e1.2.1]
          exact g2
        · rw [← sameFlow_heapByIdent e1.2.1]
          exact g3

theorem nearestPredecessorOf_sorted (fuel : Nat) (tg : TraceGraph) (gl : GlobalState)
    (lookup : TLookup) (id : THeapIdent) (hs : List THeapIdent)
    (h : nearestPredecessorOf fuel tg gl lookup [] id = .ok hs) :
    hs.Pairwise fun a b => heapIdentLt a b = true := by
  unfold nearestPredecessorOf at h
  split at h
  · cases h
  · exact (nearestPredecessorLoop_sound _ _ _ _ _ _ _ h).2.1 List.Pairwise.nil

theorem createTraceEdgesHeaps_spec (fuel : Nat) (tg : TraceGraph) (lookup : TLookup)
    (d : TLocIdx) (n : Nat) : ∀ (j0 : Nat) (gl gl2 : GlobalState),
    createTraceEdgesHeaps fuel tg lookup d n j0 gl = .ok gl2 →
    ∃ new : List TraceEdge, TraceExt gl gl2 new ∧
      (∀ te ∈ new, ∃ (j : Nat) (hs : List THeapIdent) (shSrc shDst : Later.SymHeap),
        j0 ≤ j ∧ j < j0 + n ∧ te.dst = (d, (j : Int)) ∧
        nearestPredecessorOf fuel tg gl lookup [] (d, (j : Int)) = .ok hs ∧ te.src ∈ hs ∧
        heapByIdent gl te.src = .ok shSrc ∧ heapByIdent gl te.dst = .ok shDst ∧
        te.objMap = tg.resolveIdMapping shSrc.traceNode shDst.traceNode) ∧
      (∀ j : Nat, j0 ≤ j → j < j0 + n →
        ∃ hs, nearestPredecessorOf fuel tg gl lookup [] (d, (j : Int)) = .ok hs ∧
          ∀ s ∈ hs, ∃ te ∈ new, te.src = s ∧ te.dst = (d, (j : Int))) ∧
      new.Pairwise traceEdgeLt := by
  induction n with
  | zero =>
    intro j0 gl gl2 h
    simp only [createTraceEdgesHeaps, Except.ok.injEq] at h
    subst h
    exact ⟨[], traceExt_nil gl, fun te hte => (by cases hte), fun j h1 h2 => (by omega),
      List.Pairwise.nil⟩
  | succ n ih =>
    intro j0 gl gl2 h
    unfold createTraceEdgesHeaps at h
    simp only at h
    split at h
    · cases h
    · rename_i hs hhs
      split at h
      · cases h
      · rename_i gl1 hadd
        obtain ⟨new1, e1, e2, e3⟩ := addTraceEdges_ext _ _ _ _ _ hadd
        obtain ⟨new2, f1, f2, f3, f4⟩ := ih _ _ _ h
        have hsf := e1.2.1
        refine ⟨new1 ++ new2, traceExt_append e1 f1, ?_, ?_, ?_⟩
        · intro te hte
          rcases List.mem_append.mp hte with hm | hm
          · obtain ⟨g1, shSrc, shDst, g2, g3, g4⟩ := e3 te hm
            refine ⟨j0, hs, shSrc, shDst, le_refl _, by omega, g1, hhs, ?_, g2, ?_, g4⟩
            · rw [← e2]
              exact List.mem_map_of_mem _ hm
            · rw [g1]
              exact g3
          · obtain ⟨j, hs2, shSrc, shDst, g1, g2, g3, g4, g5, g6, g7, g8⟩ := f2 te hm
            refine ⟨j, hs2, shSrc, shDst, by omega, by omega, g3, ?_, g5, ?_, ?_, g8⟩
            · rw [← sameFlow_nearestPredecessorOf hsf]
              exact g4
            · rw [← sameFlow_heapByIdent hsf]
              exact g6
            · rw [← sameFlow_heapByIdent hsf]
              exact g7
        · intro j hj1 hj2
          by_cases hj : j = j0
          · subst hj
            refine ⟨hs, hhs, fun s hsm => ?_⟩
            rw [← e2] at hsm
            obtain ⟨te, hte, hts⟩ := List.mem_map.mp hsm
            exact ⟨te, List.mem_append_left _ hte, hts, (e3 te hte).1⟩
          · obtain ⟨hs2, g1, g2⟩ := f3 j (by omega) (by omega)
            refine ⟨hs2, ?_, fun s hsm => ?_⟩
            · rw [← sameFlow_nearestPredecessorOf hsf]
              exact g1
            · obtain ⟨te, hte, g3⟩ := g2 s hsm
              exact ⟨te, List.mem_append_right _ hte, g3⟩
        · rw [List.pairwise_append]
          refine ⟨?_, f4, ?_⟩
          · have hsorted := nearestPredecessorOf_sorted _ _ _ _ _ _ hhs
            rw [← e2, List.pairwise_map] at hsorted
            refine List.Pairwise.imp_of_mem ?_ hsorted
            intro a b ha hb hab
            exact Or.inr ⟨by rw [(e3 a ha).1, (e3 b hb).1], hab⟩
          · intro a ha b hb
            obtain ⟨j, _, _, _, g1, _, g3, _⟩ := f2 b hb
            left
            rw [(e3 a ha).1, g3, heapIdentLt_iff]
            right
            refine ⟨rfl, ?_⟩
            show (j0 : Int) < (j : Int)
            omega

theorem createTraceEdgesLocs_spec (fuel : Nat) (tg : TraceGraph) (n : Nat) :
    ∀ (d0 : Nat) (gl gl2 : GlobalState), createTraceEdgesLocs fuel tg n d0 gl = .ok gl2 →
    ∃ new : List TraceEdge, TraceExt gl gl2 new ∧
      (∀ te ∈ new, ∃ (d j : Nat) (dstState : LocalState) (lookup : TLookup)
          (hs : List THeapIdent) (shSrc shDst : Later.SymHeap),
        d0 ≤ d ∧ d < d0 + n ∧ te.dst = ((d : Int), (j : Int)) ∧
        gl.loc (d : Int) = .ok dstState ∧
        buildTraceIndex gl dstState.cfgInEdges [] = .ok lookup ∧
        nearestPredecessorOf fuel tg gl lookup [] ((d : Int), (j : Int)) = .ok hs ∧
        te.src ∈ hs ∧
        heapByIdent gl te.src = .ok shSrc ∧ heapByIdent gl te.dst = .ok shDst ∧
        te.objMap = tg.resolveIdMapping shSrc.traceNode shDst.traceNode) ∧
      (∀ d : Nat, d0 ≤ d → d < d0 + n →
        ∃ dstState lookup, gl.loc (d : Int) = .ok dstState ∧
          buildTraceIndex gl dstState.cfgInEdges [] = .ok lookup ∧
          ∀ j : Nat, j < dstState.heapList.length →
            ∃ hs, nearestPredecessorOf fuel tg gl lookup [] ((d : Int), (j : Int)) = .ok hs ∧
              ∀ s ∈ hs, ∃ te ∈ new, te.src = s ∧ te.dst = ((d : Int), (j : Int))) ∧
      new.Pairwise traceEdgeLt := by
  induction n with
  | zero =>
    intro d0 gl gl2 h
    simp only [createTraceEdgesLocs, Except.ok.injEq] at h
    subst h
    exact ⟨[], traceExt_nil gl, fun te hte => (by cases hte), fun j h1 h2 => (by omega),
      List.Pairwise.nil⟩
  | succ n ih =>
    intro d0 gl gl2 h
    unfold createTraceEdgesLocs at h
    split at h
    · cases h
    · rename_i dstState hdst
      split at h
      · cases h
      · rename_i lookup hlk
        simp only at h
        split at h
        · cases h
        · rename_i gl1 hheaps
          obtain ⟨new1, e1, e2, e3, e4⟩ := createTraceEdgesHeaps_spec _ _ _ _ _ _ _ _ hheaps
          obtain ⟨new2, f1, f2, f3, f4⟩ := ih _ _ _ h
          have hsf := e1.2.1
          refine ⟨new1 ++ new2, traceExt_append e1 f1, ?_, ?_, ?_⟩
          · intro te hte
            rcases List.mem_append.mp hte with hm | hm
            · obtain ⟨j, hs, shSrc, shDst, _, _, g3, g4, g5, g6, g7, g8⟩ := e2 te hm
              exact ⟨d0, j, dstState, lookup, hs, shSrc, shDst, le_refl _, by omega, g3, hdst,
                hlk, g4, g5, g6, g7, g8⟩
            · obtain ⟨d, j, ds2, lk2, hs, shSrc, shDst, g1, g2, g3, g4, g5, g6, g7, g8, g9,
                g10⟩ := f2 te hm
              obtain ⟨ds0, k1, k2, k3⟩ := sameFlow_loc hsf _ _ g4
              refine ⟨d, j, ds0, lk2, hs, shSrc, shDst, by omega, by omega, g3, k1, ?_, ?_, g7,
                ?_, ?_, g10⟩
              · rw [k3, ← sameFlow_buildTraceIndex hsf]
                exact g5
              · rw [← sameFlow_nearestPredecessorOf hsf]
                exact g6
              · rw [← sameFlow_heapByIdent hsf]
                exact g8
              · rw [← sameFlow_heapByIdent hsf]
                exact g9
          · intro d hd1 hd2
            by_cases hd : d = d0
            · subst hd
              refine ⟨dstState, lookup, hdst, hlk, fun j hj => ?_⟩
              obtain ⟨hs, g1, g2⟩ := e3 j (Nat.zero_le _) (by omega)
              refine ⟨hs, g1, fun s hsm => ?_⟩
              obtain ⟨te, hte, g3⟩ := g2 s hsm
              exact ⟨te, List.mem_append_left _ hte, g3⟩
            · obtain ⟨ds2, lk2, g1, g2, g3⟩ := f3 d (by omega) (by omega)
              obtain ⟨ds0, k1, k2, k3⟩ := sameFlow_loc hsf _ _ g1
              refine ⟨ds0, lk2, k1, ?_, fun j hj => ?_⟩
              · rw [k3, ← sameFlow_buildTraceIndex hsf]
                exact g2
              · obtain ⟨hs, g4, g5⟩ := g3 j (by rw [← k2]; exact hj)
                refine ⟨hs, ?_, fun s hsm => ?_⟩
                · rw [← sameFlow_nearestPredecessorOf hsf]
                  exact g4
                · obtain ⟨te, hte, g6⟩ := g5 s hsm
                  exact ⟨te, List.mem_append_right _ hte, g6⟩
          · rw [List.pairwise_append]
            refine ⟨e4, f4, ?_⟩
            intro a ha b hb
            obtain ⟨_, _, _, _, _, _, a3, _⟩ := e2 a ha
            obtain ⟨d, j, _, _, _, _, _, b1, _, b3, _⟩ := f2 b hb
            left
            rw [a3, b3, heapIdentLt_iff]
            left
            show (d0 : Int) < (d : Int)
            omega

theorem lookup_nil_none (m : TNode) : List.lookup m ([] : TLookup) = none := rfl

theorem buildTraceIndex_indexed (gl : GlobalState) (d : TLocIdx) (dstState : LocalState)
    (lookup : TLookup) (hd : gl.loc d = .ok dstState)
    (hlk : buildTraceIndex gl dstState.cfgInEdges [] = .ok lookup) :
    (∀ m id, lookup.lookup m = some id →
      (∃ ie ∈ dstState.cfgInEdges, ie.targetLoc = id.1) ∧
      (∃ sh, heapByIdent gl id = .ok sh ∧ sh.traceNode = m) ∧ IndexedAt gl d m) ∧
    (∀ m, IndexedAt gl d m → ∃ id, lookup.lookup m = some id) ∧
    (∀ (src : THeapIdent) (shSrc : Later.SymHeap),
      (∃ ie ∈ dstState.cfgInEdges, ie.targetLoc = src.1) → heapByIdent gl src = .ok shSrc →
      lookup.lookup shSrc.traceNode = some src) := by
  obtain ⟨_, b2, b3⟩ := buildTraceIndex_spec gl _ _ _ hlk
  refine ⟨?_, ?_, ?_⟩
  · intro m id hm
    rcases b2 m id hm with hl | ⟨ie, hie, srcState, i, sh, c1, c2, c3, c4⟩
    · rw [lookup_nil_none] at hl
      cases hl
    · refine ⟨⟨ie, hie, by rw [c4]⟩, ⟨sh, ?_, c3⟩, ?_⟩
      · rw [heapByIdent_eq_ok]
        refine ⟨srcState, by rw [c4]; exact c1, ?_⟩
        rw [getAt_eq_ok]
        exact ⟨i, by rw [c4], c2⟩
      · exact ⟨dstState, ie, srcState, sh, hd, hie, c1, List.mem_iff_getElem?.mpr ⟨i, c2⟩, c3⟩
  · rintro m ⟨ds, ie, srcState, sh, h1, h2, h3, h4, h5⟩
    rw [hd] at h1
    cases h1
    obtain ⟨srcState2, c1, c2⟩ := b3 ie h2
    rw [h3] at c1
    cases c1
    obtain ⟨i, hi⟩ := List.mem_iff_getElem?.mp h4
    exact ⟨_, by rw [← h5]; exact c2 i sh hi⟩
  · rintro src shSrc ⟨ie, hie, hsrc⟩ hh
    obtain ⟨srcState, c1, c2⟩ := b3 ie hie
    obtain ⟨ls, h1, h2⟩ := (heapByIdent_eq_ok _ _ _).mp hh
    rw [← hsrc, c1] at h1
    cases h1
    obtain ⟨i, hi, hl⟩ := (getAt_eq_ok _ _ _).mp h2
    rw [c2 i shSrc hl]
    congr 1
    exact Prod.ext hsrc (by simpa using hi.symm)

theorem nearestPredecessorOf_iff (fuel : Nat) (tg : TraceGraph) (gl : GlobalState)
    (d : TLocIdx) (dstState : LocalState) (lookup : TLookup) (dstId : THeapIdent)
    (hs : List THeapIdent) (shDst : Later.SymHeap)
    (hd : gl.loc d = .ok dstState)
    (hlk : buildTraceIndex gl dstState.cfgInEdges [] = .ok lookup)
    (hnp : nearestPredecessorOf fuel tg gl lookup [] dstId = .ok hs)
    (hdst : heapByIdent gl dstId = .ok shDst) (src : THeapIdent) :
    src ∈ hs ↔ ∃ shSrc, (∃ ie ∈ dstState.cfgInEdges, ie.targetLoc = src.1) ∧
      heapByIdent gl src = .ok shSrc ∧
      NearestIndexed tg gl d shDst.traceNode shSrc.traceNode := by
  obtain ⟨f1, f2, f3⟩ := buildTraceIndex_indexed gl d dstState lookup hd hlk
  have hnone : ∀ a, lookup.lookup a = none ↔ ¬ IndexedAt gl d a := by
    intro a
    constructor
    · intro hn hi
      obtain ⟨id, hid⟩ := f2 a hi
      rw [hn] at hid
      cases hid
    · intro hn
      cases hl : lookup.lookup a with
      | none => rfl
      | some id => exact absurd (f1 a id hl).2.2 hn
  unfold nearestPredecessorOf at hnp
  rw [hdst] at hnp
  simp only at hnp
  constructor
  · intro hm
    obtain ⟨_, _, h3⟩ := nearestPredecessorLoop_sound _ _ _ _ _ _ _ hnp
    rcases h3 src hm with hc | ⟨t, ht, m, hp, hl⟩
    · cases hc
    · have htr : t = shDst.traceNode := by
        simpa [WorkList.schedule, WorkList.empty] using ht
      subst htr
      obtain ⟨g1, ⟨sh, g2, g3⟩, g4⟩ := f1 m src hl
      refine ⟨sh, g1, g2, ?_, by rw [g3]; exact g4⟩
      rw [g3]
      refine Relation.ReflTransGen.mono ?_ hp
      intro a b hab
      exact ⟨(hnone a).mp hab.1, hab.2⟩
  · rintro ⟨shSrc, hie, hsrc, hpath, hidx⟩
    have hl := f3 src shSrc hie hsrc
    obtain ⟨S, hS1, hS2⟩ := nearestPredecessorLoop_complete _ _ _ _ _ _ _ hnp (by
      intro a ha
      left
      simpa [WorkList.schedule, WorkList.empty] using ha)
    have hroot : shDst.traceNode ∈ S := hS1 _ (by simp [WorkList.schedule, WorkList.empty])
    have hall : ∀ m, Relation.ReflTransGen
        (fun a b => ¬ IndexedAt gl d a ∧ b ∈ tg.parents a) shDst.traceNode m → m ∈ S := by
      intro m hp
      induction hp with
      | refl => exact hroot
      | tail _ hstep ih => exact (hS2 _ ih).1 ((hnone _).mpr hstep.1) _ hstep.2
    exact (hS2 _ (hall _ hpath)).2 src hl

theorem mem_traceInAt (gl : GlobalState) (d j x : Nat) (h : x ∈ traceInAt gl d j) :
    ∃ ls l, gl.loc (d : Int) = .ok ls ∧ getAt ls.traceInEdges (j : Int) = .ok l ∧ x ∈ l := by
  unfold traceInAt at h
  split at h
  · rename_i ls hls
    rw [List.getD_eq_getElem?_getD] at h
    cases hl : ls.traceInEdges[j]? with
    | none =>
      rw [hl] at h
      cases h
    | some l =>
      rw [hl] at h
      exact ⟨ls, l, (getAt_eq_ok _ _ _).mpr ⟨d, rfl, hls⟩, (getAt_eq_ok _ _ _).mpr ⟨j, rfl, hl⟩,
        h⟩
  · cases h

theorem mem_traceOutAt (gl : GlobalState) (d j x : Nat) (h : x ∈ traceOutAt gl d j) :
    ∃ ls l, gl.loc (d : Int) = .ok ls ∧ getAt ls.traceOutEdges (j : Int) = .ok l ∧ x ∈ l := by
  unfold traceOutAt at h
  split at h
  · rename_i ls hls
    rw [List.getD_eq_getElem?_getD] at h
    cases hl : ls.traceOutEdges[j]? with
    | none =>
      rw [hl] at h
      cases h
    | some l =>
      rw [hl] at h
      exact ⟨ls, l, (getAt_eq_ok _ _ _).mpr ⟨d, rfl, hls⟩, (getAt_eq_ok _ _ _).mpr ⟨j, rfl, hl⟩,
        h⟩
  · cases h

theorem heapByIdent_nat (gl : GlobalState) (id : THeapIdent) (sh : Later.SymHeap)
    (h : heapByIdent gl id = .ok sh) :
    ∃ (d j : Nat) (ls : LocalState), id = ((d : Int), (j : Int)) ∧ gl.loc (d : Int) = .ok ls ∧
      d < gl.stateList_.length ∧ j < ls.heapList.length := by
  obtain ⟨ls, h1, h2⟩ := (heapByIdent_eq_ok _ _ _).mp h
  obtain ⟨d, hd, hdl⟩ := (getAt_eq_ok _ _ _).mp h1
  obtain ⟨j, hj, hjl⟩ := (getAt_eq_ok _ _ _).mp h2
  refine ⟨d, j, ls, Prod.ext hd hj, by rw [← hd]; exact h1, ?_, ?_⟩
  · rcases List.getElem?_eq_some.mp hdl with ⟨hl, _⟩
    exact hl
  · rcases List.getElem?_eq_some.mp hjl with ⟨hl, _⟩
    exact hl

theorem traceEdgeLt_unique (new : List TraceEdge) (h : new.Pairwise traceEdgeLt)
    (k k2 : Nat) (te te2 : TraceEdge) (h1 : new[k]? = some te) (h2 : new[k2]? = some te2)
    (hs : te2.src = te.src) (hd : te2.dst = te.dst) : k2 = k := by
  have hirr : ∀ a b : TraceEdge, a.src = b.src → a.dst = b.dst → ¬ traceEdgeLt a b := by
    intro a b e1 e2 hlt
    unfold traceEdgeLt at hlt
    rw [e1, e2, heapIdentLt_irrefl, heapIdentLt_irrefl] at hlt
    rcases hlt with h | h
    · cases h
    · cases h.2
  obtain ⟨hk, e1⟩ := List.getElem?_eq_some.mp h1
  obtain ⟨hk2, e2⟩ := List.getElem?_eq_some.mp h2
  rw [List.pairwise_iff_getElem] at h
  rcases Nat.lt_trichotomy k k2 with hlt | heq | hgt
  · exact absurd (h k k2 hk hk2 hlt) (by rw [e1, e2]; exact hirr _ _ hs.symm hd.symm)
  · exact heq.symm
  · exact absurd (h k2 k hk2 hk hgt) (by rw [e1, e2]; exact hirr _ _ hs hd)

theorem createTraceEdges_core (fuel : Nat) (tg : TraceGraph) (gl gl2 : GlobalState)
    (h : createTraceEdges fuel tg gl = .ok gl2) :
    ∃ new : List TraceEdge, TraceExt gl gl2 new ∧ new.Pairwise traceEdgeLt ∧
      (∀ te ∈ new, ∃ (d j s i : Nat) (dstState : LocalState) (shSrc shDst : Later.SymHeap),
        te.dst = ((d : Int), (j : Int)) ∧ te.src = ((s : Int), (i : Int)) ∧
        gl.loc te.dst.1 = .ok dstState ∧
        (∃ ie ∈ dstState.cfgInEdges, ie.targetLoc = te.src.1) ∧
        heapByIdent gl te.src = .ok shSrc ∧ heapByIdent gl te.dst = .ok shDst ∧
        NearestIndexed tg gl te.dst.1 shDst.traceNode shSrc.traceNode ∧
        te.objMap = tg.resolveIdMapping shSrc.traceNode shDst.traceNode) ∧
      (∀ (src dst : THeapIdent) (dstState : LocalState) (shSrc shDst : Later.SymHeap),
        gl.loc dst.1 = .ok dstState →
        (∃ ie ∈ dstState.cfgInEdges, ie.targetLoc = src.1) →
        heapByIdent gl src = .ok shSrc → heapByIdent gl dst = .ok shDst →
        NearestIndexed tg gl dst.1 shDst.traceNode shSrc.traceNode →
        ∃ te ∈ new, te.src = src ∧ te.dst = dst) := by
  unfold createTraceEdges at h
  obtain ⟨new, e1, e2, e3, e4⟩ := createTraceEdgesLocs_spec _ _ _ _ _ _ h
  refine ⟨new, e1, e4, ?_, ?_⟩
  · intro te hte
    obtain ⟨d, j, dstState, lookup, hs, shSrc, shDst, _, _, g3, g4, g5, g6, g7, g8, g9, g10⟩ :=
      e2 te hte
    obtain ⟨s, i, _, hsi, _⟩ := heapByIdent_nat gl te.src shSrc g8
    have hd1 : te.dst.1 = (d : Int) := by rw [g3]
    rw [← g3] at g6
    obtain ⟨shSrc2, k1, k2, k3⟩ :=
      (nearestPredecessorOf_iff fuel tg gl (d : Int) dstState lookup te.dst hs shDst g4 g5 g6 g9
        te.src).mp g7
    rw [g8] at k2
    cases k2
    exact ⟨d, j, s, i, dstState, shSrc, shDst, g3, hsi, by rw [hd1]; exact g4, k1, g8, g9,
      by rw [hd1]; exact k3, g10⟩
  · intro src dst dstState shSrc shDst hloc hie hsrc hdst hnear
    obtain ⟨d, j, ls, hdj, hl, hdlt, hjlt⟩ := heapByIdent_nat gl dst shDst hdst
    have hd1 : dst.1 = (d : Int) := by rw [hdj]
    rw [hd1] at hloc hnear
    rw [hl] at hloc
    cases hloc
    obtain ⟨ds2, lookup, g1, g2, g3⟩ := e3 d (Nat.zero_le _) (by omega)
    rw [hl] at g1
    cases g1
    obtain ⟨hs, g4, g5⟩ := g3 j hjlt
    rw [← hdj] at g4 g5
    exact g5 src ((nearestPredecessorOf_iff fuel tg gl (d : Int) dstState lookup dst hs shDst hl g2
      g4 hdst src).mpr ⟨shSrc, hie, hsrc, hnear⟩)

/-- C32: the trace edges connect each heap with its nearest indexed ancestors.  Let
`createTraceEdges` succeed; it appends the trace edges `new` to the list of trace edges.
For each of them the source location is the source of an incoming control-flow edge of
the destination location, and the trace node of the source heap is a nearest indexed
ancestor of the trace node of the destination heap: it is that node itself or it is
reached from it along a path of parents on which no node before it is the trace node of a
heap of a source of an incoming control-flow edge.  Conversely each heap of such a source
whose trace node is a nearest indexed ancestor of the trace node of a heap yields exactly
one trace edge between the two heaps.  Each new trace edge is recorded in the incoming
trace edges of its destination heap and in the outgoing trace edges of its source heap. -/
theorem createTraceEdges_nearest (fuel : Nat) (tg : TraceGraph) (gl gl2 : GlobalState)
    (h : createTraceEdges fuel tg gl = .ok gl2) :
    ∃ new : List TraceEdge, gl2.traceList_ = gl.traceList_ ++ new ∧
      (∀ te ∈ new, ∃ (dstState : LocalState) (shSrc shDst : Later.SymHeap),
        gl.loc te.dst.1 = .ok dstState ∧
        (∃ ie ∈ dstState.cfgInEdges, ie.targetLoc = te.src.1) ∧
        heapByIdent gl te.src = .ok shSrc ∧ heapByIdent gl te.dst = .ok shDst ∧
        NearestIndexed tg gl te.dst.1 shDst.traceNode shSrc.traceNode ∧
        te.objMap = tg.resolveIdMapping shSrc.traceNode shDst.traceNode) ∧
      (∀ (src dst : THeapIdent) (dstState : LocalState) (shSrc shDst : Later.SymHeap),
        gl.loc dst.1 = .ok dstState →
        (∃ ie ∈ dstState.cfgInEdges, ie.targetLoc = src.1) →
        heapByIdent gl src = .ok shSrc → heapByIdent gl dst = .ok shDst →
        NearestIndexed tg gl dst.1 shDst.traceNode shSrc.traceNode →
        ∃ (k : Nat) (te : TraceEdge), new[k]? = some te ∧ te.src = src ∧ te.dst = dst ∧
          ∀ (k2 : Nat) (te2 : TraceEdge), new[k2]? = some te2 → te2.src = src →
            te2.dst = dst → k2 = k) ∧
      (∀ (k : Nat) (te : TraceEdge), new[k]? = some te →
        ∃ (dstState srcState : LocalState) (inl outl : List Nat),
          gl2.loc te.dst.1 = .ok dstState ∧
          getAt dstState.traceInEdges te.dst.2 = .ok inl ∧
          gl.traceList_.length + k ∈ inl ∧
          gl2.loc te.src.1 = .ok srcState ∧
          getAt srcState.traceOutEdges te.src.2 = .ok outl ∧
          gl.traceList_.length + k ∈ outl) := by
  obtain ⟨new, e1, e2, e3, e4⟩ := createTraceEdges_core fuel tg gl gl2 h
  refine ⟨new, e1.1, ?_, ?_, ?_⟩
  · intro te hte
    obtain ⟨_, _, _, _, dstState, shSrc, shDst, _, _, g⟩ := e3 te hte
    exact ⟨dstState, shSrc, shDst, g⟩
  · intro src dst dstState shSrc shDst a1 a2 a3 a4 a5
    obtain ⟨te, hte, hs, hd⟩ := e4 src dst dstState shSrc shDst a1 a2 a3 a4 a5
    obtain ⟨k, hk⟩ := List.mem_iff_getElem?.mp hte
    refine ⟨k, te, hk, hs, hd, fun k2 te2 hk2 hs2 hd2 => ?_⟩
    exact traceEdgeLt_unique new e2 k k2 te te2 hk hk2 (by rw [hs2, hs]) (by rw [hd2, hd])
  · intro k te hk
    obtain ⟨d, j, s, i, _, _, _, hdj, hsi, _⟩ := e3 te (List.mem_iff_getElem?.mpr ⟨k, hk⟩)
    obtain ⟨_, _, hin, hout⟩ := e1
    have h1 : gl.traceList_.length + k ∈ traceInAt gl2 d j := by
      rw [hin]
      exact List.mem_append_right _
        ((mem_edgeIdxs _ _ _ _).mpr ⟨k, te, hk, by simpa using hdj, rfl⟩)
    have h2 : gl.traceList_.length + k ∈ traceOutAt gl2 s i := by
      rw [hout]
      exact List.mem_append_right _
        ((mem_edgeIdxs _ _ _ _).mpr ⟨k, te, hk, by simpa using hsi, rfl⟩)
    obtain ⟨ls1, l1, a1, a2, a3⟩ := mem_traceInAt _ _ _ _ h1
    obtain ⟨ls2, l2, b1, b2, b3⟩ := mem_traceOutAt _ _ _ _ h2
    refine ⟨ls1, ls2, l1, l2, ?_, ?_, a3, ?_, ?_, b3⟩
    · rw [hdj]
      exact a1
    · rw [hdj]
      exact a2
    · rw [hsi]
      exact b1
    · rw [hsi]
      exact b2

/-- Witness of `createTraceEdges_nearest`: in `forkState0` the heap of the location `1` gets
a trace edge from each of the two heaps of the location `0`. -/
theorem createTraceEdges_nearest_witness :
    ∃ gl2, createTraceEdges 4 forkTraceGraph forkState0 = .ok gl2 ∧
      gl2.traceList_.map (fun te => (te.src, te.dst)) =
        [((0, 0), (1, 0)), ((0, 1), (1, 0))] ∧
      gl2.stateList_.map (fun ls => (ls.traceInEdges, ls.traceOutEdges)) =
        [([[], []], [[0], [1]]), ([[0, 1]], [[]])] ∧
      ∃ new : List TraceEdge, gl2.traceList_ = forkState0.traceList_ ++ new ∧
        (∀ te ∈ new, ∃ (dstState : LocalState) (shSrc shDst : Later.SymHeap),
          forkState0.loc te.dst.1 = .ok dstState ∧
          (∃ ie ∈ dstState.cfgInEdges, ie.targetLoc = te.src.1) ∧
          heapByIdent forkState0 te.src = .ok shSrc ∧
          heapByIdent forkState0 te.dst = .ok shDst ∧
          NearestIndexed forkTraceGraph forkState0 te.dst.1 shDst.traceNode shSrc.traceNode ∧
          te.objMap = forkTraceGraph.resolveIdMapping shSrc.traceNode shDst.traceNode) ∧
        (∀ (src dst : THeapIdent) (dstState : LocalState) (shSrc shDst : Later.SymHeap),
          forkState0.loc dst.1 = .ok dstState →
          (∃ ie ∈ dstState.cfgInEdges, ie.targetLoc = src.1) →
          heapByIdent forkState0 src = .ok shSrc → heapByIdent forkState0 dst = .ok shDst →
          NearestIndexed forkTraceGraph forkState0 dst.1 shDst.traceNode shSrc.traceNode →
          ∃ (k : Nat) (te : TraceEdge), new[k]? = some te ∧ te.src = src ∧ te.dst = dst ∧
            ∀ (k2 : Nat) (te2 : TraceEdge), new[k2]? = some te2 → te2.src = src →
              te2.dst = dst → k2 = k) ∧
        (∀ (k : Nat) (te : TraceEdge), new[k]? = some te →
          ∃ (dstState srcState : LocalState) (inl outl : List Nat),
            gl2.loc te.dst.1 = .ok dstState ∧
            getAt dstState.traceInEdges te.dst.2 = .ok inl ∧
            forkState0.traceList_.length + k ∈ inl ∧
            gl2.loc te.src.1 = .ok srcState ∧
            getAt srcState.traceOutEdges te.src.2 = .ok outl ∧
            forkState0.traceList_.length + k ∈ outl) :=
  ⟨_, rfl, rfl, rfl, createTraceEdges_nearest 4 forkTraceGraph forkState0 _ rfl⟩

/-! ## The order of the trace edges (C33) -/

theorem loadHeapsInsns_noTrace (stateMap : TStateMap) (bb : TBlock) (insns : List Insn) :
    ∀ (insnIdx : Nat) (st st2 : LoadState),
    loadHeapsInsns stateMap bb insns insnIdx st = .ok st2 →
    (∀ ls ∈ st.stateList, ∀ l ∈ ls.traceInEdges, l = []) →
    ∀ ls ∈ st2.stateList, ∀ l ∈ ls.traceInEdges, l = [] := by
  induction insns with
  | nil =>
    intro insnIdx st st2 h hinv
    simp only [loadHeapsInsns, Except.ok.injEq] at h
    subst h
    exact hinv
  | cons insn rest ih =>
    intro insnIdx st st2 h hinv
    unfold loadHeapsInsns at h
    simp only at h
    split at h
    · exact ih _ _ _ h hinv
    · split at h
      · cases h
      · rename_i list1 hl
        refine ih _ _ _ h ?_
        have hl1 : ∀ ls ∈ list1, ∀ l ∈ ls.traceInEdges, l = [] := by
          split at hl
          · split at hl
            · cases hl
            · rename_i prev _
              split at hl
              · cases hl
              · rename_i ls0 hls0
                simp only [Except.ok.injEq] at hl
                subst hl
                intro ls hls
                have hm0 : ls0 ∈ st.stateList :=
                  mem_of_getElem?_some _ _ _ (by rw [← List.get?_eq_getElem?]; exact hls0)
                rcases List.mem_or_eq_of_mem_set hls with hm | hm
                · exact hinv ls hm
                · subst hm
                  exact hinv ls0 hm0
          · simp only [Except.ok.injEq] at hl
            subst hl
            exact hinv
        intro ls hls
        rcases List.mem_append.mp hls with hm | hm
        · exact hl1 ls hm
        · rw [List.mem_singleton] at hm
          subst hm
          intro l hlm
          exact List.eq_of_mem_replicate hlm

theorem loadHeapsLoop_noTrace (fnc : Fnc) (stateMap : TStateMap) (fuel : Nat) :
    ∀ (st st2 : LoadState), loadHeapsLoop fnc stateMap fuel st = .ok st2 →
    (∀ ls ∈ st.stateList, ∀ l ∈ ls.traceInEdges, l = []) →
    ∀ ls ∈ st2.stateList, ∀ l ∈ ls.traceInEdges, l = [] := by
  induction fuel with
  | zero =>
    intro st st2 h hinv
    unfold loadHeapsLoop at h
    split at h
    · simp only [Except.ok.injEq] at h
      subst h
      exact hinv
    · cases h
  | succ fuel ih =>
    intro st st2 h hinv
    unfold loadHeapsLoop at h
    split at h
    · simp only [Except.ok.injEq] at h
      subst h
      exact hinv
    · split at h
      · cases h
      · split at h
        · cases h
        · rename_i st1 hst1
          exact ih _ _ h (loadHeapsInsns_noTrace _ _ _ _ _ _ hst1 hinv)

theorem loadHeaps_noTrace (fuel : Nat) (fnc : Fnc) (stateMap : TStateMap) (sl : TStateList)
    (lk : TInsnLookup) (h : loadHeaps fuel fnc stateMap = .ok (sl, lk)) :
    ∀ ls ∈ sl, ∀ l ∈ ls.traceInEdges, l = [] := by
  unfold loadHeaps at h
  simp only at h
  split at h
  · cases h
  · rename_i st hst
    simp only [Except.ok.injEq, Prod.mk.injEq] at h
    obtain ⟨h1, _⟩ := h
    subst h1
    exact loadHeapsLoop_noTrace _ _ _ _ _ hst (fun ls hls => by cases hls)

theorem finalizeInEdges_sorted (n : Nat) : ∀ (k : Nat) (L L2 : TStateList),
    finalizeInEdges n k L = .ok L2 →
    ∀ (d : Nat) ld, L[d]? = some ld → ∃ ld2 extra, L2[d]? = some ld2 ∧
      ld2.cfgInEdges = ld.cfgInEdges ++ extra ∧
      (extra.Pairwise fun a b => a.targetLoc ≤ b.targetLoc) ∧
      ∀ e ∈ extra, (k : Int) ≤ e.targetLoc := by
  induction n with
  | zero =>
    intro k L L2 h
    simp only [finalizeInEdges, Except.ok.injEq] at h
    subst h
    exact fun d ld hd => ⟨ld, [], hd, by simp, List.Pairwise.nil, fun e he => by cases he⟩
  | succ n ih =>
    intro k L L2 h
    unfold finalizeInEdges at h
    split at h
    · cases h
    · rename_i srcState hsrc
      split at h
      · cases h
      · rename_i L1 hm
        obtain ⟨_, hmir⟩ := mirrorOutEdges_spec _ _ _ _ hm
        intro d ld hd
        obtain ⟨ld2, extra, h1, h2, h3, h4⟩ := ih _ _ _ h d _ (hmir d ld hd)
        refine ⟨ld2, ((srcState.cfgOutEdges.filter fun oe => decide (oe.targetLoc = (d : Int))).map
          fun oe => ({ oe with targetLoc := (k : Int) } : CfgEdge)) ++ extra, h1,
          by rw [h2, List.append_assoc], ?_, ?_⟩
        · rw [List.pairwise_append]
          refine ⟨?_, h3, ?_⟩
          · rw [List.pairwise_map]
            exact List.pairwise_of_forall (fun _ _ => le_refl (k : Int))
          · intro a ha b hb
            obtain ⟨oe, _, hoe⟩ := List.mem_map.mp ha
            rw [← hoe]
            have h5 : ((k + 1 : Nat) : Int) ≤ b.targetLoc := h4 b hb
            have h6 : (k : Int) ≤ ((k + 1 : Nat) : Int) := by omega
            exact le_trans h6 h5
        · intro e he
          rcases List.mem_append.mp he with hm2 | hm2
          · obtain ⟨oe, _, hoe⟩ := List.mem_map.mp hm2
            rw [← hoe]
          · have h5 : ((k + 1 : Nat) : Int) ≤ e.targetLoc := h4 e hm2
            have h6 : (k : Int) ≤ ((k + 1 : Nat) : Int) := by omega
            exact le_trans h6 h5

theorem finalizeFlow_sorted (fuel fuel2 : Nat) (fnc : Fnc) (stateMap : TStateMap)
    (sl sl2 : TStateList) (lk : TInsnLookup)
    (h1 : loadHeaps fuel fnc stateMap = .ok (sl, lk))
    (h2 : finalizeFlow fuel2 fnc sl lk = .ok sl2) :
    ∀ ls ∈ sl2, (ls.cfgInEdges.Pairwise fun a b => a.targetLoc ≤ b.targetLoc) ∧
      ∀ l ∈ ls.traceInEdges, l = [] := by
  have hinv := loadHeaps_inv _ _ _ _ _ h1
  have hnt := loadHeaps_noTrace _ _ _ _ _ h1
  unfold finalizeFlow at h2
  simp only at h2
  split at h2
  · cases h2
  · rename_i L1 hout
    obtain ⟨hlen1, hO⟩ := finalizeOutEdges_spec _ _ _ _ _ _ _ hout
    obtain ⟨hlen2, hI⟩ := finalizeInEdges_spec _ _ _ _ h2
    have hS := finalizeInEdges_sorted _ _ _ _ h2
    intro ls hls
    obtain ⟨d, hd⟩ := List.mem_iff_getElem?.mp hls
    have hlt : d < sl2.length := by
      rcases List.getElem?_eq_some.mp hd with ⟨hl, _⟩
      exact hl
    have hd0 : sl[d]? = some sl[d] := List.getElem?_eq_getElem (by omega)
    obtain ⟨l1, a1, _, _, a3, a4, _⟩ := hO d _ hd0
    obtain ⟨l2, b1, _, _, _, b4, _⟩ := hI d _ a1
    obtain ⟨l3, extra, c1, c2, c3, _⟩ := hS d _ a1
    rw [hd] at b1 c1
    cases b1
    cases c1
    have hm0 : sl[d] ∈ sl := mem_of_getElem?_some _ _ _ hd0
    refine ⟨?_, ?_⟩
    · rw [c2, a3, (hinv _ hm0).1, List.nil_append]
      exact c3
    · rw [b4, a4]
      exact hnt _ hm0

theorem sorted_position (l : List CfgEdge)
    (h : l.Pairwise fun a b => a.targetLoc ≤ b.targetLoc) (pa pb : Nat) (ea eb : CfgEdge)
    (ha : l[pa]? = some ea) (hb : l[pb]? = some eb) (hlt : ea.targetLoc < eb.targetLoc) :
    pa < pb := by
  obtain ⟨hpa, e1⟩ := List.getElem?_eq_some.mp ha
  obtain ⟨hpb, e2⟩ := List.getElem?_eq_some.mp hb
  rw [List.pairwise_iff_getElem] at h
  rcases Nat.lt_trichotomy pa pb with h1 | h1 | h1
  · exact h1
  · subst h1
    rw [e1] at e2
    rw [e2] at hlt
    exact absurd hlt (lt_irrefl _)
  · have h2 := h pb pa hpb hpa h1
    rw [e1, e2] at h2
    exact absurd (lt_of_lt_of_le hlt h2) (lt_irrefl _)

/-- C33: the order of the incoming trace edges of a heap.  Let `loadHeaps` and
`finalizeFlow` build the locations of a function and let `createTraceEdges` connect their
heaps.  Then for every heap `j` of every location `d` the list `traceInEdges[j]` holds
exactly the trace edges whose destination is this heap, the source location of each of
them is the source of an incoming control-flow edge of `d`, and of any two of them the
earlier one either comes from the same location and from a heap with a smaller index, or
it comes from another location, all of whose entries in the list of the incoming
control-flow edges of `d` precede all the entries of the location of the later one. -/
theorem createTraceEdges_order (fuel fuel2 fuel3 : Nat) (fnc : Fnc) (stateMap : TStateMap)
    (tg : TraceGraph) (sl sl2 : TStateList) (lk : TInsnLookup) (gl : GlobalState)
    (h1 : loadHeaps fuel fnc stateMap = .ok (sl, lk))
    (h2 : finalizeFlow fuel2 fnc sl lk = .ok sl2)
    (h3 : createTraceEdges fuel3 tg ⟨sl2, []⟩ = .ok gl) :
    ∀ (d j : Nat) (ld : LocalState) (inl : List Nat),
      gl.stateList_[d]? = some ld → ld.traceInEdges[j]? = some inl →
      (∀ k : Nat, k ∈ inl ↔
        ∃ te, gl.traceList_[k]? = some te ∧ te.dst = ((d : Int), (j : Int))) ∧
      (∀ k ∈ inl, ∃ te, gl.traceList_[k]? = some te ∧
        ∃ ie ∈ ld.cfgInEdges, ie.targetLoc = te.src.1) ∧
      (∀ (a b ka kb : Nat) (tea teb : TraceEdge), a < b →
        inl[a]? = some ka → inl[b]? = some kb →
        gl.traceList_[ka]? = some tea → gl.traceList_[kb]? = some teb →
        (tea.src.1 = teb.src.1 ∧ tea.src.2 < teb.src.2) ∨
        (tea.src.1 ≠ teb.src.1 ∧
          ∀ (pa pb : Nat) (ea eb : CfgEdge), ld.cfgInEdges[pa]? = some ea →
            ea.targetLoc = tea.src.1 → ld.cfgInEdges[pb]? = some eb →
            eb.targetLoc = teb.src.1 → pa < pb)) := by
  obtain ⟨new, ⟨e1, e2, e3, _⟩, hpw, hsound, _⟩ := createTraceEdges_core fuel3 tg _ gl h3
  have hsorted := finalizeFlow_sorted fuel fuel2 fnc stateMap sl sl2 lk h1 h2
  have htl : gl.traceList_ = new := by
    rw [e1]
    rfl
  intro d j ld inl hd hj
  have hin : traceInAt gl d j = inl := by
    unfold traceInAt
    rw [hd]
    simp only [List.getD_eq_getElem?_getD, hj, Option.getD_some]
  have hloc : gl.loc (d : Int) = .ok ld := (getAt_eq_ok _ _ _).mpr ⟨d, rfl, hd⟩
  obtain ⟨ls0, k1, _, k3⟩ := sameFlow_loc e2 _ _ hloc
  have hsl : sl2[d]? = some ls0 := by
    obtain ⟨n, hn, hl⟩ := (getAt_eq_ok _ _ _).mp k1
    have hnd : d = n := by exact_mod_cast hn
    rw [hnd]
    exact hl
  have hls0 := hsorted ls0 (mem_of_getElem?_some _ _ _ hsl)
  have h0 : traceInAt ⟨sl2, []⟩ d j = [] := by
    unfold traceInAt
    simp only [hsl, List.getD_eq_getElem?_getD]
    cases hc : ls0.traceInEdges[j]? with
    | none => rfl
    | some l => exact hls0.2 l (mem_of_getElem?_some _ _ _ hc)
  have hinl : inl = edgeIdxs (fun te => decide (te.dst = ((d : Int), (j : Int)))) new 0 := by
    rw [← hin, e3, h0, List.nil_append]
    rfl
  have hmem : ∀ k : Nat, k ∈ inl ↔
      ∃ te, new[k]? = some te ∧ te.dst = ((d : Int), (j : Int)) := by
    intro k
    rw [hinl, mem_edgeIdxs]
    constructor
    · rintro ⟨k2, te, g1, g2, g3⟩
      have hk : k = k2 := by omega
      rw [hk]
      exact ⟨te, g1, by simpa using g2⟩
    · rintro ⟨te, g1, g2⟩
      exact ⟨k, te, g1, by simpa using g2, by omega⟩
  rw [htl]
  refine ⟨hmem, ?_, ?_⟩
  · intro k hk
    obtain ⟨te, g1, g2⟩ := (hmem k).mp hk
    obtain ⟨_, _, _, _, dstState, _, _, _, _, g3, g4, _⟩ :=
      hsound te (List.mem_iff_getElem?.mpr ⟨k, g1⟩)
    have hd1 : te.dst.1 = (d : Int) := by rw [g2]
    rw [hd1, k1] at g3
    cases g3
    exact ⟨te, g1, by rw [← k3]; exact g4⟩
  · intro a b ka kb tea teb hab ha hb hta htb
    have hka : ka ∈ inl := mem_of_getElem?_some _ _ _ ha
    have hkb : kb ∈ inl := mem_of_getElem?_some _ _ _ hb
    obtain ⟨ta, g1, g2⟩ := (hmem ka).mp hka
    obtain ⟨tb, g3, g4⟩ := (hmem kb).mp hkb
    rw [hta] at g1
    rw [htb] at g3
    cases g1
    cases g3
    have hlt : ka < kb := by
      have hs := edgeIdxs_sorted (fun te => decide (te.dst = ((d : Int), (j : Int)))) new 0
      rw [← hinl, List.pairwise_iff_getElem] at hs
      obtain ⟨ha1, ha2⟩ := List.getElem?_eq_some.mp ha
      obtain ⟨hb1, hb2⟩ := List.getElem?_eq_some.mp hb
      have := hs a b ha1 hb1 hab
      rw [ha2, hb2] at this
      exact this
    obtain ⟨hka1, hka2⟩ := List.getElem?_eq_some.mp hta
    obtain ⟨hkb1, hkb2⟩ := List.getElem?_eq_some.mp htb
    have hte := (List.pairwise_iff_getElem.mp hpw) ka kb hka1 hkb1 hlt
    rw [hka2, hkb2] at hte
    unfold traceEdgeLt at hte
    rw [g2, g4, heapIdentLt_irrefl] at hte
    rcases hte with hc | ⟨_, hsrc⟩
    · cases hc
    · rw [heapIdentLt_iff] at hsrc
      rcases hsrc with hs | hs
      · right
        refine ⟨ne_of_lt hs, fun pa pb ea eb hpa hea hpb heb => ?_⟩
        rw [← k3] at hpa hpb
        exact sorted_position _ hls0.1 pa pb ea eb hpa hpb (by rw [hea, heb]; exact hs)
      · exact Or.inl hs

set_option maxRecDepth 100000 in
/-- Witness of `createTraceEdges_order`: the locations of `whileLoopFnc` with the heaps
`whileLoopStates`.  The heap at the head of the loop, the location `1`, has the incoming
trace edges `0`, `1` and `2`, from the heap of the location `0` and from the two heaps of
the location `2`, in this order; the incoming control-flow edges of the location `1` come
from the locations `0` and `2`, in this order. -/
theorem createTraceEdges_order_witness :
    ∃ sl lk sl2 gl,
      loadHeaps 5 whileLoopFnc whileLoopStates = .ok (sl, lk) ∧
      finalizeFlow 5 whileLoopFnc sl lk = .ok sl2 ∧
      createTraceEdges 5 whileLoopTrace ⟨sl2, []⟩ = .ok gl ∧
      gl.traceList_.map (fun te => (te.src, te.dst)) =
        [((0, 0), (1, 0)), ((2, 0), (1, 0)), ((2, 1), (1, 0)), ((1, 0), (2, 0)),
         ((1, 0), (2, 1)), ((2, 0), (3, 0)), ((2, 1), (3, 0))] ∧
      gl.stateList_.map (fun ls => (ls.cfgInEdges.map fun e => e.targetLoc, ls.traceInEdges)) =
        [([], [[]]), ([0, 2], [[0, 1, 2]]), ([1], [[3], [4]]), ([2], [[5, 6]])] ∧
      ∀ (d j : Nat) (ld : LocalState) (inl : List Nat),
        gl.stateList_[d]? = some ld → ld.traceInEdges[j]? = some inl →
        (∀ k : Nat, k ∈ inl ↔
          ∃ te, gl.traceList_[k]? = some te ∧ te.dst = ((d : Int), (j : Int))) ∧
        (∀ k ∈ inl, ∃ te, gl.traceList_[k]? = some te ∧
          ∃ ie ∈ ld.cfgInEdges, ie.targetLoc = te.src.1) ∧
        (∀ (a b ka kb : Nat) (tea teb : TraceEdge), a < b →
          inl[a]? = some ka → inl[b]? = some kb →
          gl.traceList_[ka]? = some tea → gl.traceList_[kb]? = some teb →
          (tea.src.1 = teb.src.1 ∧ tea.src.2 < teb.src.2) ∨
          (tea.src.1 ≠ teb.src.1 ∧
            ∀ (pa pb : Nat) (ea eb : CfgEdge), ld.cfgInEdges[pa]? = some ea →
              ea.targetLoc = tea.src.1 → ld.cfgInEdges[pb]? = some eb →
              eb.targetLoc = teb.src.1 → pa < pb)) :=
  ⟨_, _, _, _, rfl, rfl, rfl, rfl, rfl,
    createTraceEdges_order 5 5 5 whileLoopFnc whileLoopStates whileLoopTrace _ _ _ _ rfl rfl
      rfl⟩

/-! ## The mapping of container shapes (C34) -/

theorem mem_project (query : Int → List Int) (src : TObjSet) (x : Int) :
    x ∈ project query src ↔ ∃ s ∈ src, x ∈ query s := by
  unfold project
  simp only [Finset.mem_biUnion, List.mem_toFinset]

theorem checkShapeMapping_iff (srcObjs dstObjs : TObjSet) (objMap : TObjectMapper) :
    checkShapeMapping srcObjs dstObjs objMap = true ↔
      dstObjs = project objMap.queryLR srcObjs ∧ srcObjs = project objMap.queryRL dstObjs := by
  unfold checkShapeMapping
  dsimp only
  by_cases h1 : dstObjs = project objMap.queryLR srcObjs
  · by_cases h2 : srcObjs = project objMap.queryRL dstObjs
    · rw [if_neg (not_not.mpr h1), if_neg (not_not.mpr h2)]
      exact ⟨fun _ => ⟨h1, h2⟩, fun _ => rfl⟩
    · rw [if_neg (not_not.mpr h1), if_pos h2]
      exact ⟨fun h => (by cases h), fun h => absurd h.2 h2⟩
  · rw [if_pos h1]
    exact ⟨fun h => (by cases h), fun h => absurd h.1 h1⟩

/-- C34, counterexample: the object mapper `crossMapper` relates each of the objects `1`
and `2` to both objects `3` and `4`, so it relates no object of the one set to exactly one
object of the other set; `checkShapeMapping` accepts it for the sets `{1, 2}` and
`{3, 4}`. -/
theorem checkShapeMapping_accepts_cross_mapper :
    checkShapeMapping {1, 2} {3, 4} crossMapper = true ∧
    crossMapper.queryLR 1 = [3, 4] ∧ crossMapper.queryLR 2 = [3, 4] ∧
    crossMapper.queryRL 3 = [1, 2] ∧ crossMapper.queryRL 4 = [1, 2] := by
  refine ⟨?_, rfl, rfl, rfl, rfl⟩
  rw [checkShapeMapping_iff]
  constructor
  · ext x
    rw [mem_project]
    simp only [Finset.mem_insert, Finset.mem_singleton, crossMapper]
    constructor
    · intro h
      exact ⟨1, Or.inl rfl, by simpa using h⟩
    · rintro ⟨s, hs, hx⟩
      rw [if_pos hs] at hx
      simpa using hx
  · ext x
    rw [mem_project]
    simp only [Finset.mem_insert, Finset.mem_singleton, crossMapper]
    constructor
    · intro h
      exact ⟨3, Or.inl rfl, by simpa using h⟩
    · rintro ⟨s, hs, hx⟩
      rw [if_pos hs] at hx
      simpa using hx

theorem shapeMapperInsert_mem (m : TShapeMapper) (a b : TShapeIdx) (p : TShapeIdx × TShapeIdx)
    (h : p ∈ shapeMapperInsert m a b) : p ∈ m ∨ p = (a, b) := by
  unfold shapeMapperInsert at h
  split_ifs at h
  · exact Or.inl h
  · rcases List.mem_append.mp h with h | h
    · exact Or.inl h
    · exact Or.inr (List.mem_singleton.mp h)

theorem mapDstShapes_spec (objMap : TObjectMapper) (shSrc shDst : Later.SymHeap)
    (srcShapes : TShapeList) (index : TShapeIndex) (dstShapes : List Shape) :
    ∀ (rest : List Shape) (dstIdx : Nat) (csMap csMap2 : TShapeMapper),
      (∀ k, rest.get? k = dstShapes.get? (dstIdx + k)) →
      mapDstShapes objMap shSrc shDst srcShapes index rest dstIdx csMap = .ok csMap2 →
      ∀ p ∈ csMap2, p ∈ csMap ∨
        ∃ s d, getAt srcShapes p.1 = .ok s ∧ getAt dstShapes p.2 = .ok d ∧
          checkShapeMapping (shSrc.objSetByShape s) (shDst.objSetByShape d) objMap = true := by
  intro rest
  induction rest with
  | nil =>
    intro dstIdx csMap csMap2 _ h p hp
    unfold mapDstShapes at h
    cases h
    exact Or.inl hp
  | cons shape rest ih =>
    intro dstIdx csMap csMap2 hget h p hp
    have hrest : ∀ k, rest.get? k = dstShapes.get? (dstIdx + 1 + k) := by
      intro k
      have := hget (k + 1)
      simp only [List.get?_cons_succ] at this
      rw [this]
      congr 1
      omega
    have hshape : dstShapes.get? dstIdx = some shape := by
      have := hget 0
      simp only [List.get?_cons_zero, Nat.add_zero] at this
      exact this.symm
    unfold mapDstShapes at h
    dsimp only at h
    cases hl : index.lookup (shDst.objSetByShape shape) with
    | none =>
      rw [hl] at h
      exact ih (dstIdx + 1) csMap csMap2 hrest h p hp
    | some srcIdx =>
      rw [hl] at h
      simp only at h
      cases hs : getAt srcShapes srcIdx with
      | error e =>
        rw [hs] at h
        cases h
      | ok srcShape =>
        rw [hs] at h
        simp only at h
        by_cases hc : checkShapeMapping (shSrc.objSetByShape srcShape)
            (shDst.objSetByShape shape) objMap = true
        · rw [hc] at h
          simp only [Bool.not_true, Bool.false_eq_true, if_false] at h
          rcases ih (dstIdx + 1) _ csMap2 hrest h p hp with h1 | h1
          · rcases shapeMapperInsert_mem _ _ _ _ h1 with h2 | h2
            · exact Or.inl h2
            · right
              subst h2
              refine ⟨srcShape, shape, hs, ?_, hc⟩
              unfold getAt
              rw [if_neg (by omega)]
              simp only [Int.toNat_ofNat, hshape]
          · exact Or.inr h1
        · have hc2 : checkShapeMapping (shSrc.objSetByShape srcShape)
              (shDst.objSetByShape shape) objMap = false := by
            cases hb : checkShapeMapping (shSrc.objSetByShape srcShape)
              (shDst.objSetByShape shape) objMap
            · rfl
            · exact absurd hb hc
          rw [hc2] at h
          simp only [Bool.not_false, if_true] at h
          exact ih (dstIdx + 1) csMap csMap2 hrest h p hp

/-- C34, amended: `checkShapeMapping` returns `true` iff the object mapper maps the one set
onto the other in either direction: the objects of `dstObjs` are exactly the objects that
the mapper relates to an object of `srcObjs`, and the objects of `srcObjs` are exactly the
objects that the mapper relates (backwards) to an object of `dstObjs`; an object may be
related to more than one object.  And a pair (source shape, destination shape) that
`detectShapeMappingCore` adds to the shape map of the edge consists of shapes whose object
sets pass `checkShapeMapping`. -/
theorem checkShapeMapping_onto (srcObjs dstObjs : TObjSet) (objMap : TObjectMapper)
    (te te2 : TraceEdge) (shSrc shDst : Later.SymHeap) (srcShapes dstShapes : TShapeList)
    (h : detectShapeMappingCore te shSrc shDst srcShapes dstShapes = .ok te2) :
    (checkShapeMapping srcObjs dstObjs objMap = true ↔
      (∀ d, d ∈ dstObjs ↔ ∃ s ∈ srcObjs, d ∈ objMap.queryLR s) ∧
      (∀ s, s ∈ srcObjs ↔ ∃ d ∈ dstObjs, s ∈ objMap.queryRL d)) ∧
    ∀ p ∈ te2.csMap, p ∈ te.csMap ∨
      ∃ s d, getAt srcShapes p.1 = .ok s ∧ getAt dstShapes p.2 = .ok d ∧
        checkShapeMapping (shSrc.objSetByShape s) (shDst.objSetByShape d) te.objMap = true := by
  constructor
  · rw [checkShapeMapping_iff]
    constructor
    · rintro ⟨h1, h2⟩
      constructor
      · intro d
        rw [← mem_project]
        rw [← h1]
      · intro s
        rw [← mem_project]
        rw [← h2]
    · rintro ⟨h1, h2⟩
      constructor
      · ext d
        rw [mem_project]
        exact h1 d
      · ext s
        rw [mem_project]
        exact h2 s
  · unfold detectShapeMappingCore at h
    cases hi : indexSrcShapes te.objMap shSrc srcShapes 0 [] with
    | error e =>
      rw [hi] at h
      cases h
    | ok index =>
      rw [hi] at h
      simp only at h
      cases hm : mapDstShapes te.objMap shSrc shDst srcShapes index dstShapes 0 te.csMap with
      | error e =>
        rw [hm] at h
        cases h
      | ok csMap =>
        rw [hm] at h
        cases h
        exact mapDstShapes_spec te.objMap shSrc shDst srcShapes index dstShapes dstShapes 0
          te.csMap csMap (fun k => by rw [Nat.zero_add]) hm

/-- Witness of `checkShapeMapping_onto`: on the edge from `Later.nodeHeap 0` to itself with
the identity mapper, the shape `nodeShape` is related to itself. -/
theorem checkShapeMapping_onto_witness :
    detectShapeMappingCore ⟨(0, 0), (0, 0), idMapper, []⟩ (Later.nodeHeap 0) (Later.nodeHeap 0)
      [nodeShape] [nodeShape] = .ok ⟨(0, 0), (0, 0), idMapper, [(0, 0)]⟩ ∧
    (checkShapeMapping {5} {5} idMapper = true ↔
      (∀ d, d ∈ ({5} : TObjSet) ↔ ∃ s ∈ ({5} : TObjSet), d ∈ idMapper.queryLR s) ∧
      (∀ s, s ∈ ({5} : TObjSet) ↔ ∃ d ∈ ({5} : TObjSet), s ∈ idMapper.queryRL d)) ∧
    ∀ p ∈ [((0 : TShapeIdx), (0 : TShapeIdx))], p ∈ ([] : TShapeMapper) ∨
      ∃ s d, getAt [nodeShape] p.1 = .ok s ∧ getAt [nodeShape] p.2 = .ok d ∧
        checkShapeMapping ((Later.nodeHeap 0).objSetByShape s)
          ((Later.nodeHeap 0).objSetByShape d) idMapper = true :=
  ⟨rfl, checkShapeMapping_onto {5} {5} idMapper ⟨(0, 0), (0, 0), idMapper, []⟩
    ⟨(0, 0), (0, 0), idMapper, [(0, 0)]⟩ (Later.nodeHeap 0) (Later.nodeHeap 0)
    [nodeShape] [nodeShape] rfl⟩

/-! ## Implied predecessor shapes (C35) -/

/-- C35, counterexample: the entry object of the destination heap has no estimated type,
the ancestor object has the estimated type `struct item`; `detectSinglePrevShape` returns
`true`. -/
theorem detectSinglePrevShape_accepts_unknown_type :
    (Later.untypedHeap 0).objEstimatedType 5 = none ∧
    (Later.nodeHeap 1).objEstimatedType 5 = some itemType ∧
    detectSinglePrevShape nodeShape (Later.untypedHeap 0) (Later.nodeHeap 1) 5 5 =
      .ok (true, nodeShape) := by
  refine ⟨rfl, rfl, ?_⟩
  decide

/-- C35, amended: for a shape of the length `1` (anything else fails an assertion)
`detectSinglePrevShape` returns `true` exactly when, in the predecessor heap, the `next`
and `prev` fields of the ancestor object are both `VAL_NULL`, the size of the ancestor
object equals the size of the destination entry object, and the estimated types of the two
objects do not differ: whenever both objects have an estimated type, the two types are
equal.  When it returns `true` the shape is returned with the ancestor object as its
entry and nothing else changed; when it returns `false` the shape is returned as it
was. -/
theorem detectSinglePrevShape_accepts (pShape : Shape) (shDst shSrc : Later.SymHeap)
    (objDst objSrc : Int) (hlen : pShape.length = 1) :
    ∃ b shape, detectSinglePrevShape pShape shDst shSrc objDst objSrc = .ok (b, shape) ∧
      (b = true ↔
        shSrc.valOfPtr objSrc pShape.props.bOff.next = VAL_NULL ∧
        shSrc.valOfPtr objSrc pShape.props.bOff.prev = VAL_NULL ∧
        shDst.objSize objDst = shSrc.objSize objSrc ∧
        ∀ tDst tSrc, shDst.objEstimatedType objDst = some tDst →
          shSrc.objEstimatedType objSrc = some tSrc → tDst = tSrc) ∧
      (b = true → shape = { pShape with entry := objSrc }) ∧
      (b = false → shape = pShape) := by
  unfold detectSinglePrevShape
  rw [if_neg (by rw [hlen]; exact fun h => h rfl)]
  dsimp only
  by_cases h1 : VAL_NULL ≠ shSrc.valOfPtr objSrc pShape.props.bOff.next ∨
      VAL_NULL ≠ shSrc.valOfPtr objSrc pShape.props.bOff.prev
  · rw [if_pos h1]
    refine ⟨false, pShape, rfl, ⟨fun h => (by cases h), ?_⟩, fun h => (by cases h), fun _ => rfl⟩
    rintro ⟨a, b, _⟩
    rcases h1 with h1 | h1
    · exact absurd a.symm h1
    · exact absurd b.symm h1
  rw [if_neg h1]
  have hn : shSrc.valOfPtr objSrc pShape.props.bOff.next = VAL_NULL := by
    by_contra hx
    exact h1 (Or.inl (fun h => hx h.symm))
  have hp : shSrc.valOfPtr objSrc pShape.props.bOff.prev = VAL_NULL := by
    by_contra hx
    exact h1 (Or.inr (fun h => hx h.symm))
  by_cases h2 : shDst.objSize objDst ≠ shSrc.objSize objSrc
  · rw [if_pos h2]
    refine ⟨false, pShape, rfl, ⟨fun h => (by cases h), ?_⟩, fun h => (by cases h), fun _ => rfl⟩
    rintro ⟨_, _, c, _⟩
    exact absurd c h2
  rw [if_neg h2]
  have hs : shDst.objSize objDst = shSrc.objSize objSrc := not_not.mp h2
  cases hd : shDst.objEstimatedType objDst with
  | none =>
    simp only [Bool.false_eq_true, if_false]
    refine ⟨true, _, rfl, ⟨fun _ => ⟨hn, hp, hs, ?_⟩, fun _ => rfl⟩, fun _ => rfl,
      fun h => (by cases h)⟩
    intro tDst tSrc h
    cases h
  | some tDst =>
    cases hsrc : shSrc.objEstimatedType objSrc with
    | none =>
      simp only [Bool.false_eq_true, if_false]
      refine ⟨true, _, rfl, ⟨fun _ => ⟨hn, hp, hs, ?_⟩, fun _ => rfl⟩, fun _ => rfl,
        fun h => (by cases h)⟩
      intro t1 t2 _ h
      cases h
    | some tSrc =>
      simp only
      by_cases ht : tDst = tSrc
      · rw [if_neg (by simp [ht])]
        refine ⟨true, _, rfl, ⟨fun _ => ⟨hn, hp, hs, ?_⟩, fun _ => rfl⟩, fun _ => rfl,
          fun h => (by cases h)⟩
        intro t1 t2 h1 h2
        cases h1
        cases h2
        exact ht
      · rw [if_pos (by simp [ht])]
        refine ⟨false, pShape, rfl, ⟨fun h => (by cases h), ?_⟩, fun h => (by cases h),
          fun _ => rfl⟩
        rintro ⟨_, _, _, d⟩
        exact absurd (d tDst tSrc rfl rfl) ht

/-- Witness of C35, amended: the object `5` of two heaps with the same size and type. -/
theorem detectSinglePrevShape_accepts_witness :
    ∃ b shape, detectSinglePrevShape nodeShape (Later.nodeHeap 0) (Later.nodeHeap 1) 5 5 =
        .ok (b, shape) ∧
      (b = true ↔
        (Later.nodeHeap 1).valOfPtr 5 nodeShape.props.bOff.next = VAL_NULL ∧
        (Later.nodeHeap 1).valOfPtr 5 nodeShape.props.bOff.prev = VAL_NULL ∧
        (Later.nodeHeap 0).objSize 5 = (Later.nodeHeap 1).objSize 5 ∧
        ∀ tDst tSrc, (Later.nodeHeap 0).objEstimatedType 5 = some tDst →
          (Later.nodeHeap 1).objEstimatedType 5 = some tSrc → tDst = tSrc) ∧
      (b = true → shape = { nodeShape with entry := 5 }) ∧
      (b = false → shape = nodeShape) :=
  detectSinglePrevShape_accepts nodeShape (Later.nodeHeap 0) (Later.nodeHeap 1) 5 5 rfl

/-! ## The colours of the plotted objects (C37) -/

theorem plotRootValue_spec (env : Plot.Callees) (plot : PlotData) (val : Int) (color : String)
    (h : plot.sh.valOffset val = 0) :
    ∃ plot2 label, plotRootValue env plot val color = .ok plot2 ∧ plot2.sh = plot.sh ∧
      plot2.last = plot.last ∧
      plot2.out = plot.out ++ [Plot.Item.rootValue val (1 + plot.sh.usedByCount val)
        (if plot.sh.isValid (plot.sh.objByAddr val) then color else "red") label] := by
  unfold plotRootValue
  dsimp only
  rw [if_neg (not_not.mpr h)]
  cases hv : plot.sh.isValid (plot.sh.objByAddr val)
  · exact ⟨_, _, rfl, rfl, rfl, rfl⟩
  · exact ⟨_, _, rfl, rfl, rfl, rfl⟩

/-- C37, counterexample: in `Later.plotHeap` the object `4` is a region of the storage
class `SC_INVALID`, for which `plotCompositeObj` fails an assertion and plots nothing; the
object `3` is a region on the heap that is not valid, and its cluster is opened in black
with the pen width `1.0`: only the node of its root value is red. -/
theorem plotCompositeObj_invalid_not_red :
    plotCompositeObj Plot.silentCallees ⟨Later.plotHeap, [], 0⟩ 4 [] = .error .TRAP ∧
    Later.plotHeap.isValid 3 = false ∧
    ((plotCompositeObj Plot.silentCallees ⟨Later.plotHeap, [], 0⟩ 3 []).map
      fun plot => plot.out) =
      .ok [Plot.Item.cluster 1 "" "black" "1.0",
        Plot.Item.rootValue 3 1 "red" "#3 [INVALID] [obj=#3] [size = 16 B]",
        Plot.Item.close] := by
  refine ⟨rfl, rfl, ?_⟩
  decide

theorem plotCompositeObj_tail (env : Plot.Callees) (plot : PlotData) (obj : Int)
    (liveFields : FldList) (label color pw : String)
    (hoff : plot.sh.valOffset (plot.sh.legacyAddrOfAny_XXX obj) = 0)
    (hpeer : plot.sh.valOffset (plot.sh.addrOfTarget (env.dlSegPeer plot.sh obj)) = 0) :
    ∃ plot2 rootLabel rest,
      (match plotRootValue env
          { plot with out := plot.out ++ [Plot.Item.cluster (plot.last + 1) label color pw],
                      last := plot.last + 1 }
          (plot.sh.legacyAddrOfAny_XXX obj) color with
        | .error e => Except.error e
        | .ok plot2 =>
          let ub := env.plotUniformBlocks plot.sh plot2.last (plot.sh.legacyAddrOfAny_XXX obj)
          let plot3 : PlotData := { plot2 with out := plot2.out ++ ub.1, last := ub.2 }
          let fl := env.plotFields plot.sh plot3.last (plot.sh.legacyAddrOfAny_XXX obj) liveFields
          let plot4 : PlotData := { plot3 with out := plot3.out ++ fl.1, last := fl.2 }
          let peer := env.dlSegPeer plot.sh obj
          let plot5E : Except Err PlotData :=
            if Later.EObjKind.OK_DLS = plot.sh.objKind obj ∧
                Later.EObjKind.OK_DLS = plot.sh.objKind peer then
              let peerAt := plot.sh.addrOfTarget peer
              match plotRootValue env plot4 peerAt color with
              | .error e => .error e
              | .ok plot5 =>
                let peerFields := env.gatherLiveFields plot.sh peer
                let pf := env.plotFields plot.sh plot5.last peerAt peerFields
                .ok { plot5 with out := plot5.out ++ pf.1, last := pf.2 }
            else .ok plot4
          match plot5E with
          | .error e => .error e
          | .ok plot6 => .ok { plot6 with out := plot6.out ++ [Plot.Item.close] }) = .ok plot2 ∧
      plot2.out = plot.out ++ Plot.Item.cluster (plot.last + 1) label color pw ::
        Plot.Item.rootValue (plot.sh.legacyAddrOfAny_XXX obj)
          (1 + plot.sh.usedByCount (plot.sh.legacyAddrOfAny_XXX obj))
          (if plot.sh.isValid (plot.sh.objByAddr (plot.sh.legacyAddrOfAny_XXX obj)) then color
            else "red") rootLabel :: rest := by
  obtain ⟨p2, l1, h1, hs1, hl1, ho1⟩ := plotRootValue_spec env
    { plot with out := plot.out ++ [Plot.Item.cluster (plot.last + 1) label color pw],
                last := plot.last + 1 }
    (plot.sh.legacyAddrOfAny_XXX obj) color hoff
  rw [h1]
  dsimp only
  generalize env.plotUniformBlocks plot.sh p2.last (plot.sh.legacyAddrOfAny_XXX obj) = ub
  generalize env.plotFields plot.sh ub.2 (plot.sh.legacyAddrOfAny_XXX obj) liveFields = fl
  by_cases hd : Later.EObjKind.OK_DLS = plot.sh.objKind obj ∧
      Later.EObjKind.OK_DLS = plot.sh.objKind (env.dlSegPeer plot.sh obj)
  · rw [if_pos hd]
    obtain ⟨p5, l2, h2, _, _, ho2⟩ := plotRootValue_spec env
      { sh := p2.sh, out := p2.out ++ ub.1 ++ fl.1, last := fl.2 }
      (plot.sh.addrOfTarget (env.dlSegPeer plot.sh obj)) color (by rw [hs1]; exact hpeer)
    rw [h2]
    dsimp only
    generalize env.plotFields plot.sh p5.last (plot.sh.addrOfTarget (env.dlSegPeer plot.sh obj))
      (env.gatherLiveFields plot.sh (env.dlSegPeer plot.sh obj)) = pf
    refine ⟨_, l1, ub.1 ++ (fl.1 ++ (Plot.Item.rootValue
      (plot.sh.addrOfTarget (env.dlSegPeer plot.sh obj))
      (1 + p2.sh.usedByCount (plot.sh.addrOfTarget (env.dlSegPeer plot.sh obj)))
      (if p2.sh.isValid (p2.sh.objByAddr (plot.sh.addrOfTarget (env.dlSegPeer plot.sh obj)))
        then color else "red") l2 :: (pf.1 ++ [Plot.Item.close]))), rfl, ?_⟩
    dsimp only
    rw [ho2]
    dsimp only
    rw [ho1]
    simp only [List.append_assoc, List.singleton_append, List.cons_append, List.nil_append]
  · rw [if_neg hd]
    refine ⟨_, l1, ub.1 ++ (fl.1 ++ [Plot.Item.close]), rfl, ?_⟩
    dsimp only
    rw [ho1]
    simp only [List.append_assoc, List.singleton_append, List.cons_append, List.nil_append]

/-- C37, amended: the colour and the pen width of the cluster of a plotted object.  For an
object of a storage class other than static, on-stack and on-heap `plotCompositeObj` fails
an assertion and plots nothing.  For an object of one of these three classes (the addresses
of the object and of the other end of a DLS having no offset, which the plot of a root
value asserts) `plotCompositeObj` opens a cluster and plots the root value of the object
into it.  The cluster of a region is blue when the storage class is static or on-stack and
black when it is on-heap, with the pen width `1.0`; the clusters of the kind `OBJ_OR_NULL`
and of the see-through kinds are green, the cluster of an SLS is red and the cluster of a
DLS is gold, each with the pen width `3.0`; so the pen width is `3.0` iff the kind is
abstract.  The node of the root value has the colour of the cluster, unless the object is
not valid: then the node is red, and the cluster is not. -/
theorem plotCompositeObj_style (env : Plot.Callees) (plot : PlotData) (obj : Int)
    (liveFields : FldList)
    (hoff : plot.sh.valOffset (plot.sh.legacyAddrOfAny_XXX obj) = 0)
    (hpeer : plot.sh.valOffset (plot.sh.addrOfTarget (env.dlSegPeer plot.sh obj)) = 0) :
    ((plot.sh.objStorClass obj = .SC_INVALID ∨ plot.sh.objStorClass obj = .SC_UNKNOWN) →
      plotCompositeObj env plot obj liveFields = .error .TRAP) ∧
    ((plot.sh.objStorClass obj = .SC_STATIC ∨ plot.sh.objStorClass obj = .SC_ON_STACK ∨
        plot.sh.objStorClass obj = .SC_ON_HEAP) →
      ∃ plot2 color pw rootLabel rest,
        plotCompositeObj env plot obj liveFields = .ok plot2 ∧
        plot2.out = plot.out ++
          Plot.Item.cluster (plot.last + 1) (labelOfCompObj plot.sh obj true) color pw ::
          Plot.Item.rootValue (plot.sh.legacyAddrOfAny_XXX obj)
            (1 + plot.sh.usedByCount (plot.sh.legacyAddrOfAny_XXX obj))
            (if plot.sh.isValid (plot.sh.objByAddr (plot.sh.legacyAddrOfAny_XXX obj)) then color
              else "red") rootLabel :: rest ∧
        (plot.sh.objKind obj = .OK_REGION →
          pw = "1.0" ∧
          ((plot.sh.objStorClass obj = .SC_STATIC ∨ plot.sh.objStorClass obj = .SC_ON_STACK) →
            color = "blue") ∧
          (plot.sh.objStorClass obj = .SC_ON_HEAP → color = "black")) ∧
        ((plot.sh.objKind obj = .OK_OBJ_OR_NULL ∨ plot.sh.objKind obj = .OK_SEE_THROUGH ∨
            plot.sh.objKind obj = .OK_SEE_THROUGH_2N) → color = "green" ∧ pw = "3.0") ∧
        (plot.sh.objKind obj = .OK_SLS → color = "red" ∧ pw = "3.0") ∧
        (plot.sh.objKind obj = .OK_DLS → color = "gold" ∧ pw = "3.0") ∧
        (pw = "3.0" ↔ plot.sh.objKind obj ≠ .OK_REGION)) := by
  constructor
  · intro h
    unfold plotCompositeObj
    rcases h with h | h <;> simp only [h]
  · intro hsc
    have key : ∀ color0 : String, (color0 = "blue" ∨ color0 = "black") →
        (plot.sh.objStorClass obj = .SC_STATIC ∨ plot.sh.objStorClass obj = .SC_ON_STACK →
          color0 = "blue") →
        (plot.sh.objStorClass obj = .SC_ON_HEAP → color0 = "black") →
        ∀ color pw, (color, pw) = (match plot.sh.objKind obj with
          | .OK_REGION => (color0, "1.0")
          | .OK_OBJ_OR_NULL => ("green", "3.0")
          | .OK_SEE_THROUGH => ("green", "3.0")
          | .OK_SEE_THROUGH_2N => ("green", "3.0")
          | .OK_SLS => ("red", "3.0")
          | .OK_DLS => ("gold", "3.0")) →
        (plot.sh.objKind obj = .OK_REGION →
          pw = "1.0" ∧
          ((plot.sh.objStorClass obj = .SC_STATIC ∨ plot.sh.objStorClass obj = .SC_ON_STACK) →
            color = "blue") ∧
          (plot.sh.objStorClass obj = .SC_ON_HEAP → color = "black")) ∧
        ((plot.sh.objKind obj = .OK_OBJ_OR_NULL ∨ plot.sh.objKind obj = .OK_SEE_THROUGH ∨
            plot.sh.objKind obj = .OK_SEE_THROUGH_2N) → color = "green" ∧ pw = "3.0") ∧
        (plot.sh.objKind obj = .OK_SLS → color = "red" ∧ pw = "3.0") ∧
        (plot.sh.objKind obj = .OK_DLS → color = "gold" ∧ pw = "3.0") ∧
        (pw = "3.0" ↔ plot.sh.objKind obj ≠ .OK_REGION) := by
      intro color0 _ hb hk color pw he
      cases hkind : plot.sh.objKind obj <;> rw [hkind] at he <;>
        simp only [Prod.mk.injEq] at he <;> obtain ⟨rfl, rfl⟩ := he <;>
        simp only [reduceCtorEq, false_implies, true_and, and_true, true_implies, false_or,
          or_false, or_true, true_or, ne_eq, not_true_eq_false, not_false_eq_true, iff_true,
          iff_false, and_self, implies_true]
      · exact ⟨⟨hb, hk⟩, by decide⟩
    rcases hsc with h | h | h
    · have hrun : ∃ plot2 rootLabel rest,
          plotCompositeObj env plot obj liveFields = .ok plot2 ∧
          plot2.out = plot.out ++
            Plot.Item.cluster (plot.last + 1) (labelOfCompObj plot.sh obj true)
              (match plot.sh.objKind obj with
          | .OK_REGION => ("blue", "1.0")
          | .OK_OBJ_OR_NULL => ("green", "3.0")
          | .OK_SEE_THROUGH => ("green", "3.0")
          | .OK_SEE_THROUGH_2N => ("green", "3.0")
          | .OK_SLS => ("red", "3.0")
          | .OK_DLS => ("gold", "3.0")).1
              (match plot.sh.objKind obj with
          | .OK_REGION => ("blue", "1.0")
          | .OK_OBJ_OR_NULL => ("green", "3.0")
          | .OK_SEE_THROUGH => ("green", "3.0")
          | .OK_SEE_THROUGH_2N => ("green", "3.0")
          | .OK_SLS => ("red", "3.0")
          | .OK_DLS => ("gold", "3.0")).2 ::
            Plot.Item.rootValue (plot.sh.legacyAddrOfAny_XXX obj)
              (1 + plot.sh.usedByCount (plot.sh.legacyAddrOfAny_XXX obj))
              (if plot.sh.isValid (plot.sh.objByAddr (plot.sh.legacyAddrOfAny_XXX obj)) then
                (match plot.sh.objKind obj with
          | .OK_REGION => ("blue", "1.0")
          | .OK_OBJ_OR_NULL => ("green", "3.0")
          | .OK_SEE_THROUGH => ("green", "3.0")
          | .OK_SEE_THROUGH_2N => ("green", "3.0")
          | .OK_SLS => ("red", "3.0")
          | .OK_DLS => ("gold", "3.0")).1
                else "red") rootLabel :: rest := by
        unfold plotCompositeObj
        simp only [h]
        exact plotCompositeObj_tail env plot obj liveFields _ _ _ hoff hpeer
      obtain ⟨plot2, rootLabel, rest, h1, h2⟩ := hrun
      exact ⟨plot2, _, _, rootLabel, rest, h1, h2,
        key "blue" (Or.inl rfl) (fun _ => rfl) (fun h2 => by rw [h] at h2; cases h2) _ _ rfl⟩
    · have hrun : ∃ plot2 rootLabel rest,
          plotCompositeObj env plot obj liveFields = .ok plot2 ∧
          plot2.out = plot.out ++
            Plot.Item.cluster (plot.last + 1) (labelOfCompObj plot.sh obj true)
              (match plot.sh.objKind obj with
          | .OK_REGION => ("blue", "1.0")
          | .OK_OBJ_OR_NULL => ("green", "3.0")
          | .OK_SEE_THROUGH => ("green", "3.0")
          | .OK_SEE_THROUGH_2N => ("green", "3.0")
          | .OK_SLS => ("red", "3.0")
          | .OK_DLS => ("gold", "3.0")).1
              (match plot.sh.objKind obj with
          | .OK_REGION => ("blue", "1.0")
          | .OK_OBJ_OR_NULL => ("green", "3.0")
          | .OK_SEE_THROUGH => ("green", "3.0")
          | .OK_SEE_THROUGH_2N => ("green", "3.0")
          | .OK_SLS => ("red", "3.0")
          | .OK_DLS => ("gold", "3.0")).2 ::
            Plot.Item.rootValue (plot.sh.legacyAddrOfAny_XXX obj)
              (1 + plot.sh.usedByCount (plot.sh.legacyAddrOfAny_XXX obj))
              (if plot.sh.isValid (plot.sh.objByAddr (plot.sh.legacyAddrOfAny_XXX obj)) then
                (match plot.sh.objKind obj with
          | .OK_REGION => ("blue", "1.0")
          | .OK_OBJ_OR_NULL => ("green", "3.0")
          | .OK_SEE_THROUGH => ("green", "3.0")
          | .OK_SEE_THROUGH_2N => ("green", "3.0")
          | .OK_SLS => ("red", "3.0")
          | .OK_DLS => ("gold", "3.0")).1
                else "red") rootLabel :: rest := by
        unfold plotCompositeObj
        simp only [h]
        exact plotCompositeObj_tail env plot obj liveFields _ _ _ hoff hpeer
      obtain ⟨plot2, rootLabel, rest, h1, h2⟩ := hrun
      exact ⟨plot2, _, _, rootLabel, rest, h1, h2,
        key "blue" (Or.inl rfl) (fun _ => rfl) (fun h2 => by rw [h] at h2; cases h2) _ _ rfl⟩
    · have hrun : ∃ plot2 rootLabel rest,
          plotCompositeObj env plot obj liveFields = .ok plot2 ∧
          plot2.out = plot.out ++
            Plot.Item.cluster (plot.last + 1) (labelOfCompObj plot.sh obj true)
              (match plot.sh.objKind obj with
          | .OK_REGION => ("black", "1.0")
          | .OK_OBJ_OR_NULL => ("green", "3.0")
          | .OK_SEE_THROUGH => ("green", "3.0")
          | .OK_SEE_THROUGH_2N => ("green", "3.0")
          | .OK_SLS => ("red", "3.0")
          | .OK_DLS => ("gold", "3.0")).1
              (match plot.sh.objKind obj with
          | .OK_REGION => ("black", "1.0")
          | .OK_OBJ_OR_NULL => ("green", "3.0")
          | .OK_SEE_THROUGH => ("green", "3.0")
          | .OK_SEE_THROUGH_2N => ("green", "3.0")
          | .OK_SLS => ("red", "3.0")
          | .OK_DLS => ("gold", "3.0")).2 ::
            Plot.Item.rootValue (plot.sh.legacyAddrOfAny_XXX obj)
              (1 + plot.sh.usedByCount (plot.sh.legacyAddrOfAny_XXX obj))
              (if plot.sh.isValid (plot.sh.objByAddr (plot.sh.legacyAddrOfAny_XXX obj)) then
                (match plot.sh.objKind obj with
          | .OK_REGION => ("black", "1.0")
          | .OK_OBJ_OR_NULL => ("green", "3.0")
          | .OK_SEE_THROUGH => ("green", "3.0")
          | .OK_SEE_THROUGH_2N => ("green", "3.0")
          | .OK_SLS => ("red", "3.0")
          | .OK_DLS => ("gold", "3.0")).1
                else "red") rootLabel :: rest := by
        unfold plotCompositeObj
        simp only [h]
        exact plotCompositeObj_tail env plot obj liveFields _ _ _ hoff hpeer
      obtain ⟨plot2, rootLabel, rest, h1, h2⟩ := hrun
      exact ⟨plot2, _, _, rootLabel, rest, h1, h2,
        key "black" (Or.inr rfl)
          (fun h2 => by rcases h2 with h2 | h2 <;> rw [h] at h2 <;> cases h2) (fun _ => rfl) _ _ rfl⟩

/-- Witness of `plotCompositeObj_style`: the SLS on the heap, the object `2` of
`Later.plotHeap`, is plotted in a red cluster of the pen width `3.0`. -/
theorem plotCompositeObj_style_witness :
    Later.plotHeap.valOffset (Later.plotHeap.legacyAddrOfAny_XXX 2) = 0 ∧
    Later.plotHeap.valOffset
      (Later.plotHeap.addrOfTarget (Plot.silentCallees.dlSegPeer Later.plotHeap 2)) = 0 ∧
    Later.plotHeap.objStorClass 2 = .SC_ON_HEAP ∧
    Later.plotHeap.objKind 2 = .OK_SLS ∧
    ∃ plot2 color pw rootLabel rest,
      plotCompositeObj Plot.silentCallees ⟨Later.plotHeap, [], 0⟩ 2 [] = .ok plot2 ∧
      plot2.out = [] ++ Plot.Item.cluster (0 + 1) (labelOfCompObj Later.plotHeap 2 true) color pw ::
        Plot.Item.rootValue 2 (1 + 1) color rootLabel :: rest ∧
      color = "red" ∧ pw = "3.0" :=
  ⟨rfl, rfl, rfl, rfl,
    let ⟨p, c, w, l, r, h1, h2, _, _, hs, _⟩ :=
      (plotCompositeObj_style Plot.silentCallees ⟨Later.plotHeap, [], 0⟩ 2 [] rfl rfl).2
        (Or.inr (Or.inr rfl))
    ⟨p, c, w, l, r, h1, h2, (hs rfl).1, (hs rfl).2⟩⟩

/-! ## Selector chains (C38) -/

set_option maxRecDepth 100000 in
/-- C38, failing input: the node `10` of `twinHeap`, whose type has two members of a
structure type.  The only field of the node on which the visitor of the probe reports a
candidate is the pointer `a.p`, the object `12`, which the index chain `[0, 0]` addresses.
`digAnyListSelectors` returns the index chain `[1, 0, 0]` instead, which addresses no
object: the index `1` of the member `b`, which was visited first, is still on the chain
when the member `a` is entered.  The walk of `discoverSeg` along the returned chain finds
nothing, the walk along `[0, 0]` finds the segment. -/
theorem digAnyListSelectors_wrong_chain :
    digAnyListSelectors 9 [] twinHeap 10 .OK_SLS = .ok [[1, 0, 0]] ∧
    (∃ pv, ProbeVisitor.mk1 twinHeap 10 .OK_SLS = .ok pv ∧
      pv.call 9 twinHeap 12 = .ok false ∧
      pv.call 9 twinHeap 11 = .ok true ∧ pv.call 9 twinHeap 13 = .ok true ∧
      pv.call 9 twinHeap 14 = .ok true) ∧
    subObjByChain twinHeap 10 [0, 0] = 12 ∧
    subObjByChain twinHeap 10 [1, 0, 0] = OBJ_INVALID ∧
    discoverSeg 9 9 twinHeap 10 .OK_SLS [1, 0, 0] [] = .ok 0 ∧
    discoverSeg 9 9 twinHeap 10 .OK_SLS [0, 0] [] = .ok 1 := by
  refine ⟨by decide, ⟨⟨10, twinType, 1⟩, rfl, by decide, by decide, by decide, by decide⟩,
    by decide, by decide, by decide, by decide⟩

/-! ## Creation and concretization of a DLS (C39) -/

theorem exists_ok_of_okAnd {α : Type} (r : Except Err α) (p : α → Bool)
    (h : okAnd r p = true) : ∃ a, r = .ok a ∧ p a = true := by
  cases r with
  | error e => cases h
  | ok a => exact ⟨a, rfl, h⟩

set_option maxRecDepth 100000 in
theorem dllHeap_create_check :
    okAnd (dlSegCreate 3 dllHeap 10 20 [0] [1]) (fun sh1 =>
        decide (sh1.neqDb = [(0, 30)]) &&
        decide (sh1.valueOf (subObjByChain sh1 10 (sh1.objBinderField 10)) = 0) &&
        decide (sh1.valueOf (subObjByChain sh1 20 (sh1.objBinderField 20)) = 30) &&
        decide (sh1.placedAt 10 = 10) &&
        decide (skipObj sh1 10 (sh1.objPeerField 10) = .ok 20) &&
        decide (sh1.proveEq 10 30 = none) &&
        okAnd (concretizeObj 3 sh1 10 []) (fun r => decide (r.2.length = 1))) = true := by
  decide

/-- C39, failing input: the first two nodes of the doubly-linked list `dllHeap` of three
concrete nodes.  `dlSegCreate` makes the DLS with the ends `10` and `20` and records the
only Neq predicate of the heap between the value before the segment (the `prev` value of
the near end, `VAL_NULL`) and the value after it (the `next` value of the far end, the
address `30`).  `concretizeObj` on the near end passes the address of the near end, `10`,
and the `next` value of the far end, `30`, to `proveEq`, which knows nothing about this
pair: the segment that has just been created is taken for possibly empty, and the empty
variant is appended to the list. -/
theorem dlSegCreate_concretizeObj_disagree :
    ∃ sh1, dlSegCreate 3 dllHeap 10 20 [0] [1] = .ok sh1 ∧
      sh1.neqDb = [(0, 30)] ∧
      sh1.valueOf (subObjByChain sh1 10 (sh1.objBinderField 10)) = 0 ∧
      sh1.valueOf (subObjByChain sh1 20 (sh1.objBinderField 20)) = 30 ∧
      sh1.placedAt 10 = 10 ∧
      skipObj sh1 10 (sh1.objPeerField 10) = .ok 20 ∧
      sh1.proveEq 10 30 = none ∧
      ∃ sh2 todo, concretizeObj 3 sh1 10 [] = .ok (sh2, todo) ∧ todo.length = 1 := by
  obtain ⟨sh1, h1, hp⟩ := exists_ok_of_okAnd _ _ dllHeap_create_check
  simp only [Bool.and_eq_true, decide_eq_true_eq] at hp
  obtain ⟨⟨⟨⟨⟨⟨a1, a2⟩, a3⟩, a4⟩, a5⟩, a6⟩, a7⟩ := hp
  refine ⟨sh1, h1, a1, a2, a3, a4, a5, a6, ?_⟩
  obtain ⟨⟨sh2, todo⟩, h2, hl⟩ := exists_ok_of_okAnd _ _ a7
  exact ⟨sh2, todo, h2, by simpa using hl⟩

/-! ## Reflexive disequalities (C40) -/

set_option maxRecDepth 1000000 in
theorem sllHeap4_fold_check :
    okAnd (considerSegAbstraction 9 (sllHeap 4) 2 .OK_SLS [0] [] 3) (fun r =>
      r.1 && decide (r.2.neqDb = [(0, 8), (8, 8)])) = true := by
  decide

set_option maxRecDepth 1000000 in
theorem sllHeap4_steps_check :
    okAnd (slSegAbstractionStep 9 (sllHeap 4) 4 [0]) (fun r =>
      decide (r.2 = 6) && decide (r.1.neqDb = [(6, 8)]) &&
      decide (r.1.placedAt 6 = 6) &&
      decide (r.1.valueOf (subObjByChain r.1 6 [0]) = 8) &&
      okAnd (slSegAbstractionStep 9 r.1 6 [0]) (fun r2 =>
        decide (r2.2 = 8) && decide (r2.1.neqDb = [(0, 8), (8, 8)]))) = true := by
  decide

/-- C40, failing input: the list `sllHeap 4` of four concrete nodes, which holds no Neq
predicate at all.  `considerSegAbstraction` on the chain of the length `3` that starts at
the first node performs two steps of the SLS abstraction and returns a heap that holds the
predicate `neq(8, 8)`.  The first step, at the node `4`, makes the node `6` an SLS and
records `neq(6, 8)` between its address and its next value, the address of the node `8`;
the second step, at the SLS `6`, replaces the address `6` by the address `8` in all fields
and predicates, which turns the recorded predicate into `neq(8, 8)`. -/
theorem considerSegAbstraction_reflexive_neq :
    (sllHeap 4).neqDb = [] ∧
    (∃ sh2, considerSegAbstraction 9 (sllHeap 4) 2 .OK_SLS [0] [] 3 = .ok (true, sh2) ∧
      sh2.neqDb = [(0, 8), (8, 8)]) ∧
    ∃ sh1 sh2, slSegAbstractionStep 9 (sllHeap 4) 4 [0] = .ok (sh1, 6) ∧
      sh1.neqDb = [(6, 8)] ∧ sh1.placedAt 6 = 6 ∧ sh1.valueOf (subObjByChain sh1 6 [0]) = 8 ∧
      slSegAbstractionStep 9 sh1 6 [0] = .ok (sh2, 8) ∧ sh2.neqDb = [(0, 8), (8, 8)] := by
  refine ⟨rfl, ?_, ?_⟩
  · obtain ⟨⟨b, sh2⟩, h, hp⟩ := exists_ok_of_okAnd _ _ sllHeap4_fold_check
    simp only [Bool.and_eq_true, decide_eq_true_eq] at hp
    obtain ⟨hb, hn⟩ := hp
    subst hb
    exact ⟨sh2, h, hn⟩
  · obtain ⟨⟨sh1, o1⟩, h, hp⟩ := exists_ok_of_okAnd _ _ sllHeap4_steps_check
    simp only [Bool.and_eq_true, decide_eq_true_eq] at hp
    obtain ⟨⟨⟨⟨h1, h2⟩, h3⟩, h4⟩, h5⟩ := hp
    obtain ⟨⟨sh2, o2⟩, h6, hq⟩ := exists_ok_of_okAnd _ _ h5
    simp only [Bool.and_eq_true, decide_eq_true_eq] at hq
    obtain ⟨h7, h8⟩ := hq
    subst h1
    subst h7
    exact ⟨sh1, sh2, h, h2, h3, h4, h6, h8⟩

/-! ## A list that is not folded (C9) -/

set_option maxRecDepth 1000000 in
theorem twinListHeap_round :
    abstractIfNeededLoop 9 twinListHeap = .ok (false, twinListHeap) := by
  rfl

set_option maxRecDepth 1000000 in
theorem twinListHeap_fold_check :
    okAnd (considerSegAbstraction 9 twinListHeap 10 .OK_SLS [0, 0] [] 2)
      (fun r => r.1 && decide (r.2.heapObjs = [10, 30]) &&
        decide (r.2.objKind 10 = EObjKind.OK_CONCRETE) &&
        decide (r.2.objKind 30 = EObjKind.OK_SLS) &&
        decide (r.2.pointsTo (r.2.valueOf (subObjByChain r.2 10 [0, 0])) = 30) &&
        decide (r.2.valueOf (subObjByChain r.2 30 [0, 0]) = VAL_NULL)) = true := by
  decide

set_option maxRecDepth 1000000 in
/-- C9, failing input: the list `twinListHeap` of three concrete nodes of the type
`struct twin`, linked through the pointer `a.p`; the address of the first node is held by
one stack variable and the address of each other node by the pointer `a.p` of its
predecessor alone.  `abstractIfNeeded` returns the heap as it is, with its three concrete
nodes, whatever the number of rounds: `digAnyListSelectors` offers the index chain
`[1, 0, 0]`, which addresses nothing, instead of the chain `[0, 0]` of the pointer `a.p`,
so no segment is discovered.  Along the chain `[0, 0]` the walk of `discoverSeg` finds the
segment, and the abstraction of this segment leaves the first node, concrete, and one SLS
whose next value is `VAL_NULL`. -/
theorem abstractIfNeeded_twin_list_not_folded :
    twinListHeap.heapObjs = [10, 20, 30] ∧
    (∀ o ∈ twinListHeap.heapObjs, twinListHeap.objKind o = EObjKind.OK_CONCRETE) ∧
    twinListHeap.valueOf 1 = 10 ∧
    skipObj twinListHeap 10 [0, 0] = .ok 20 ∧ skipObj twinListHeap 20 [0, 0] = .ok 30 ∧
    twinListHeap.valueOf (subObjByChain twinListHeap 30 [0, 0]) = VAL_NULL ∧
    (∀ o ∈ twinListHeap.heapObjs, twinListHeap.usedByCount (twinListHeap.placedAt o) = 1) ∧
    (∀ n, abstractIfNeeded 9 n twinListHeap = .ok twinListHeap) ∧
    digAnyListSelectors 9 [] twinListHeap 10 .OK_SLS = .ok [[1, 0, 0]] ∧
    subObjByChain twinListHeap 10 [1, 0, 0] = OBJ_INVALID ∧
    discoverSeg 9 9 twinListHeap 10 .OK_SLS [1, 0, 0] [] = .ok 0 ∧
    discoverSeg 9 9 twinListHeap 10 .OK_SLS [0, 0] [] = .ok 2 ∧
    ∃ sh2, considerSegAbstraction 9 twinListHeap 10 .OK_SLS [0, 0] [] 2 = .ok (true, sh2) ∧
      sh2.heapObjs = [10, 30] ∧ sh2.objKind 10 = EObjKind.OK_CONCRETE ∧
      sh2.objKind 30 = EObjKind.OK_SLS ∧
      sh2.pointsTo (sh2.valueOf (subObjByChain sh2 10 [0, 0])) = 30 ∧
      sh2.valueOf (subObjByChain sh2 30 [0, 0]) = VAL_NULL := by
  refine ⟨by decide, by decide, by decide, by decide, by decide, by decide, by decide,
    fun n => abstractIfNeeded_false 9 n twinListHeap twinListHeap_round, by decide, by decide,
    by decide, by decide, ?_⟩
  obtain ⟨⟨b, sh2⟩, h, hp⟩ := exists_ok_of_okAnd _ _ twinListHeap_fold_check
  simp only [Bool.and_eq_true, decide_eq_true_eq] at hp
  obtain ⟨⟨⟨⟨⟨hb, h1⟩, h2⟩, h3⟩, h4⟩, h5⟩ := hp
  subst hb
  exact ⟨sh2, h, h1, h2, h3, h4, h5⟩

end Predator
